import Mathlib

set_option autoImplicit false

/-! ## Lock manager: the waits-for graph (`task-lock-manager/src/lock_manager.cc`) -/

namespace WaitsForGraph

/-- The waits-for graph, `std::unordered_map<const Transaction*, std::vector<const Transaction*>>`:
an association list from a transaction (its address, a number) to the
transactions it waits for. Lookups take the first entry of a key. -/
abbrev Graph := List (Nat × List Nat)

/-- The map operation `graph.find(t)`: the adjacency list stored under `t`, if any. -/
def find (g : Graph) (t : Nat) : Option (List Nat) := g.lookup t

/-- The map operation `graph.erase(t)`. -/
def erase (g : Graph) (t : Nat) : Graph := g.filter (fun e => e.1 != t)

/-- Store `adj` under key `t` (what writing through the reference returned by
`graph[t]` does): the entry is replaced when present and created otherwise. -/
def store (g : Graph) (t : Nat) (adj : List Nat) : Graph :=
  match g with
  | [] => [(t, adj)]
  | e :: rest => if e.1 == t then (t, adj) :: rest else e :: store rest t adj

/-- The loop `for (o : owners) if (find(waits_for, o) == end) waits_for.push_back(o)`. -/
def pushMissing (waits_for : List Nat) (owners : List Nat) : List Nat :=
  owners.foldl (fun w o => if o ∈ w then w else w ++ [o]) waits_for

/-- The loop over `node->second` of `findDuplicate`: `call` is the recursive
call on a neighbour that has an entry in the graph; neighbours without an
entry are skipped; the first `true` is returned. -/
def dfsChildren (g : Graph) (call : Nat × List Nat → Option Bool) : List Nat → Option Bool
  | [] => some false
  | tx :: rest =>
    match find g tx with
    | none => dfsChildren g call rest
    | some adj =>
      match call (tx, adj) with
      | some false => dfsChildren g call rest
      | r => r

/-- The recursive `findDuplicate(graph, node, visited)`: depth-first search
that answers `true` when `node` is already on the current path. The first
argument bounds the recursion depth; `none` means the bound was too small. -/
def findDuplicateAux : Nat → Graph → Nat × List Nat → List Nat → Option Bool
  | 0, _, _, _ => none
  | fuel + 1, g, node, visited =>
    if node.1 ∈ visited then some true
    else dfsChildren g (fun n => findDuplicateAux fuel g n (node.1 :: visited)) node.2

/-- The entry point `findDuplicate(graph, node)`: starts with an empty visited
set. A path never repeats a key, so `g.length + 1` levels always suffice. -/
def findDuplicate (g : Graph) (node : Nat × List Nat) : Option Bool :=
  findDuplicateAux (g.length + 1) g node []

/-- What a graph operation leaves behind: the graph, and whether it raised
`DeadLockError`. -/
structure Outcome where
  graph : Graph
  deadlock : Bool
deriving DecidableEq, Repr

/-- The cycle check of `addWaitsFor`: for every owner that has an entry, run
`findDuplicate`; on the first hit erase the waiting transaction and raise. -/
def checkOwners (g : Graph) (t : Nat) : List Nat → Option Outcome
  | [] => some ⟨g, false⟩
  | o :: rest =>
    match find g o with
    | none => checkOwners g t rest
    | some adj =>
      match findDuplicate g (o, adj) with
      | none => none
      | some true => some ⟨erase g t, true⟩
      | some false => checkOwners g t rest

/-- The method `WaitsForGraph::addWaitsFor(transaction, lock)`; `owners` is `lock.owners`. -/
def addWaitsFor (g : Graph) (t : Nat) (owners : List Nat) : Option Outcome :=
  let waits_for := (find g t).getD []
  let g1 := store g t (pushMissing waits_for owners)
  checkOwners g1 t owners

/-- The edge loop of `addWaiters`: every waiter gets the edge `waiter -> owner`. -/
def addWaiterEdges (g : Graph) (owner : Nat) : List Nat → Graph
  | [] => g
  | w :: rest =>
    let already := (find g w).getD []
    addWaiterEdges (store g w (if owner ∈ already then already else already ++ [owner])) owner rest

/-- The method `WaitsForGraph::addWaiters(owner, waiters)`: adds the edges, then
checks for a cycle from `owner`; it raises without touching the graph again. -/
def addWaiters (g : Graph) (owner : Nat) (waiters : List Nat) : Option Outcome :=
  let g1 := addWaiterEdges g owner waiters
  match find g1 owner with
  | none => some ⟨g1, false⟩
  | some adj =>
    match findDuplicate g1 (owner, adj) with
    | none => none
    | some b => some ⟨g1, b⟩

/-- The method `WaitsForGraph::removeTransaction(transaction)`. -/
def removeTransaction (g : Graph) (t : Nat) : Graph :=
  (erase g t).map (fun e => (e.1, e.2.filter (fun x => x != t)))

/-- An edge `a -> b` of the waits-for graph: `b` is in the list stored under `a`. -/
def Edge (g : Graph) (a b : Nat) : Prop := ∃ adj, find g a = some adj ∧ b ∈ adj

/-- The graph has a cycle: some transaction reaches itself along one or more edges. -/
def HasCycle (g : Graph) : Prop := ∃ x, Relation.TransGen (Edge g) x x

/-- The graph obtained from `g` by adding an edge `t -> o` for every `o` in `owners`. -/
def WithEdges (g : Graph) (t : Nat) (owners : List Nat) (a b : Nat) : Prop :=
  Edge g a b ∨ (a = t ∧ b ∈ owners)

/-- The number of keys of the graph that are not yet on the current path. -/
def unvisited (g : Graph) (V : List Nat) : Nat := (g.filter (fun e => decide (e.1 ∉ V))).length


/-- What the search from `n` with path `V` looks for: a way back into the
path, or a cycle further on. -/
def Bad (g : Graph) (n : Nat) (V : List Nat) : Prop :=
  (∃ v ∈ V, Relation.ReflTransGen (Edge g) n v) ∨
  (∃ y, Relation.ReflTransGen (Edge g) n y ∧ Relation.TransGen (Edge g) y y)


end WaitsForGraph

/-! ## Lock manager (`task-lock-manager/src/lock_manager.cc`), one thread -/

namespace LockManager

/-- The enumeration `LockMode`. -/
inductive LockMode where
  | Unlocked | Shared | Exclusive
deriving DecidableEq, Repr

/-- The struct `Lock`. The `std::shared_mutex` is its number of shared holders
(`readers`) and whether it is held exclusively (`writer`); `refs` is the use
count of the shared pointers to the lock, so `weak_from_this().expired()` is
`refs = 0`; a transaction is its address, a number. -/
structure Lock where
  item : Nat
  readers : Nat
  writer : Bool
  owners : List Nat
  waiters : List Nat
  ownership : LockMode
  refs : Nat
deriving DecidableEq, Repr

/-- The function `Lock::construct(item)`: a new lock and the one shared pointer to it. -/
def Lock.construct (item : Nat) : Lock :=
  { item := item, readers := 0, writer := false, owners := [], waiters := [],
    ownership := LockMode.Unlocked, refs := 1 }

/-- Memory in which no lock was constructed. -/
def Lock.unused : Lock :=
  { item := 0, readers := 0, writer := false, owners := [], waiters := [],
    ownership := LockMode.Unlocked, refs := 0 }

/-- The call `mode == Shared ? lock.try_lock_shared() : lock.try_lock()` made by
the one thread there is: shared access is granted unless the mutex is held
exclusively, exclusive access only when nobody holds the mutex. -/
def Lock.tryLock (l : Lock) (mode : LockMode) : Option Lock :=
  if mode = LockMode.Shared then
    if l.writer then none else some { l with readers := l.readers + 1 }
  else
    if l.writer || l.readers != 0 then none else some { l with writer := true }

/-- The call `ownership == Shared ? lock.unlock_shared() : lock.unlock()` of the
destructor of a transaction; `none` when the mutex is not held that way
(undefined behaviour). -/
def Lock.unlockFor (l : Lock) : Option Lock :=
  if l.ownership = LockMode.Shared then
    if l.readers = 0 then none else some { l with readers := l.readers - 1 }
  else
    if l.writer then some { l with writer := false } else none

/-- The class `LockManager` with the locks and transactions it refers to.
`table i` is the chain of bucket `i`: the locks from `first` along `next`, each
named by the number of locks constructed before it; `objects` maps that number
to the lock; `locks t` is the vector `Transaction::locks` of the transaction at
address `t`; `hash` is `std::hash<DataItem>`. -/
structure State where
  hash : Nat → Nat
  table_size : Nat
  table : Nat → List Nat
  objects : Nat → Lock
  allocated : Nat
  wfg : WaitsForGraph.Graph
  locks : Nat → List Nat

/-- The constructor `LockManager(bucketCount)`; no transaction holds a lock. -/
def init (hash : Nat → Nat) (bucketCount : Nat) : State :=
  { hash := hash, table_size := bucketCount, table := fun _ => [],
    objects := fun _ => Lock.unused, allocated := 0, wfg := [], locks := fun _ => [] }

/-- The loop of `acquireLock` over a chain: expired locks it comes to are
unlinked and deleted; it stops at the first lock for `dataItem` that is not
expired. The result is the part of the chain it keeps before that lock and,
when there is one, the lock and the rest of the chain. -/
def scanChain (objects : Nat → Lock) (dataItem : Nat) :
    List Nat → List Nat × Option (Nat × List Nat)
  | [] => ([], none)
  | id :: rest =>
    if (objects id).refs = 0 then scanChain objects dataItem rest
    else if (objects id).item = dataItem then ([], some (id, rest))
    else (id :: (scanChain objects dataItem rest).1, (scanChain objects dataItem rest).2)

/-- How a call of `acquireLock` ends: it returns the lock, it raises
`DeadLockError` (leaving the manager in state `s`), the thread waits for a
lock, or the call is undefined. -/
inductive Acquired where
  | ok (s : State) (lock : Nat)
  | deadlock (s : State)
  | blocked
  | undefined

/-- The first part of `acquireLock`: the lock for `dataItem` is looked up in
its chain, or constructed and put at the head of the chain; the caller holds a
shared pointer to it. -/
def lookupLock (s : State) (dataItem : Nat) : State × Nat :=
  let bucket := s.hash dataItem % s.table_size
  let scan := scanChain s.objects dataItem (s.table bucket)
  match scan.2 with
  | some (id, rest) =>
    let lock : Lock := { s.objects id with refs := (s.objects id).refs + 1 }
    ({ s with table := Function.update s.table bucket (scan.1 ++ id :: rest),
              objects := Function.update s.objects id lock }, id)
  | none =>
    ({ s with table := Function.update s.table bucket (s.allocated :: scan.1),
              objects := Function.update s.objects s.allocated (Lock.construct dataItem),
              allocated := s.allocated + 1 }, s.allocated)

/-- The shared pointer to lock `id` held by `acquireLock` is destroyed. -/
def dropRef (s : State) (id : Nat) : State :=
  let lock : Lock := { s.objects id with refs := (s.objects id).refs - 1 }
  { s with objects := Function.update s.objects id lock }

/-- The lines `lock->ownership = mode; lock->owners.push_back(&transaction);` on
lock `id`, whose mutex was taken and left it as `locked`. -/
def granted (s : State) (id transaction : Nat) (mode : LockMode) (locked : Lock) : State :=
  let lock : Lock := { locked with ownership := mode, owners := locked.owners ++ [transaction] }
  { s with objects := Function.update s.objects id lock }

/-- The waits-for graph is left as `graph`. -/
def setGraph (s : State) (graph : WaitsForGraph.Graph) : State := { s with wfg := graph }

/-- The method `acquireLock(transaction, dataItem, mode)` for one thread. -/
def acquireLock (s : State) (transaction dataItem : Nat) (mode : LockMode) : Acquired :=
  if s.table_size = 0 then Acquired.undefined
  else
    match lookupLock s dataItem with
    | (s1, id) =>
      match (s1.objects id).tryLock mode with
      | some locked =>
        let s2 := granted s1 id transaction mode locked
        match WaitsForGraph.addWaiters s2.wfg transaction (s2.objects id).waiters with
        | none => Acquired.undefined
        | some out =>
          if out.deadlock then Acquired.deadlock (dropRef (setGraph s2 out.graph) id)
          else Acquired.ok (setGraph s2 out.graph) id
      | none =>
        match WaitsForGraph.addWaitsFor s1.wfg transaction (s1.objects id).owners with
        | none => Acquired.undefined
        | some out =>
          if out.deadlock then Acquired.deadlock (dropRef (setGraph s1 out.graph) id)
          else Acquired.blocked

/-- The line `locks.push_back(std::move(lock))` of `Transaction::addLock`. -/
def pushLock (s : State) (transaction id : Nat) : State :=
  { s with locks := Function.update s.locks transaction (s.locks transaction ++ [id]) }

/-- The method `Transaction::addLock(dataItem, mode)`: the lock returned by
`acquireLock` is appended to the locks of the transaction. -/
def addLock (s : State) (transaction dataItem : Nat) (mode : LockMode) : Acquired :=
  match acquireLock s transaction dataItem mode with
  | Acquired.ok s1 id => Acquired.ok (pushLock s1 transaction id) id
  | r => r

/-- The lookup of `getLockMode` in one chain: the first lock for `dataItem`
decides; without one, or when it is expired, the answer is `Unlocked`. -/
def modeIn (objects : Nat → Lock) (dataItem : Nat) (chain : List Nat) : LockMode :=
  match chain.find? (fun id => (objects id).item == dataItem) with
  | none => LockMode.Unlocked
  | some id =>
    if (objects id).refs = 0 then LockMode.Unlocked else (objects id).ownership

/-- The method `getLockMode(dataItem)`; `none` when the table has no bucket. -/
def getLockMode (s : State) (dataItem : Nat) : Option LockMode :=
  if s.table_size = 0 then none
  else some (modeIn s.objects dataItem (s.table (s.hash dataItem % s.table_size)))

/-- The loop of `~Transaction` over its locks: the transaction leaves the
owners and the mutex is unlocked; `none` when an unlock is undefined. -/
def releaseAll (transaction : Nat) (objects : Nat → Lock) : List Nat → Option (Nat → Lock)
  | [] => some objects
  | id :: rest =>
    match Lock.unlockFor
        { objects id with owners := (objects id).owners.filter (fun o => o != transaction) } with
    | none => none
    | some unlocked => releaseAll transaction (Function.update objects id unlocked) rest

/-- The vector `locks` of a transaction is destroyed: every shared pointer in
it gives up its reference. -/
def dropRefs (objects : Nat → Lock) : List Nat → (Nat → Lock)
  | [] => objects
  | id :: rest =>
    dropRefs (Function.update objects id { objects id with refs := (objects id).refs - 1 }) rest

/-- The destructor `~Transaction` of a transaction of this manager. -/
def destroy (s : State) (transaction : Nat) : Option State :=
  match releaseAll transaction s.objects (s.locks transaction) with
  | none => none
  | some objects =>
    some { s with wfg := WaitsForGraph.removeTransaction s.wfg transaction,
                  objects := dropRefs objects (s.locks transaction),
                  locks := Function.update s.locks transaction [] }

/-- The calls a client makes. -/
inductive Op where
  | addLock (transaction dataItem : Nat) (mode : LockMode)
  | destroy (transaction : Nat)

/-- One call of a client that catches `DeadLockError`; `none` when the call
does not return. -/
def step (s : State) : Op → Option State
  | Op.addLock t x mode =>
    match addLock s t x mode with
    | Acquired.ok s1 _ => some s1
    | Acquired.deadlock s1 => some s1
    | _ => none
  | Op.destroy t => destroy s t

/-- A sequence of calls each of which returns. -/
def run (s : State) : List Op → Option State
  | [] => some s
  | op :: rest =>
    match step s op with
    | none => none
    | some s1 => run s1 rest

/-- The lock for `dataItem` that is in use, if any: the lock `getLockMode`
finds, unless it is expired. -/
def holder (s : State) (dataItem : Nat) : Option Lock :=
  match (s.table (s.hash dataItem % s.table_size)).find?
      (fun id => (s.objects id).item == dataItem) with
  | none => none
  | some id => if (s.objects id).refs = 0 then none else some (s.objects id)

/-- No transaction holds a lock on `dataItem` that conflicts with a request in
`mode`: the item has no lock in use, or the request and the lock are shared. -/
def noConflict (s : State) (dataItem : Nat) (mode : LockMode) : Bool :=
  match holder s dataItem with
  | none => true
  | some l => mode == LockMode.Shared && l.ownership == LockMode.Shared

/-- What holds of a lock between two calls of one thread: nobody waits, every
owner holds one shared pointer per entry in its locks, and the mutex is held
as `ownership` says. -/
structure LockOk (s : State) (id : Nat) : Prop where
  waiters : (s.objects id).waiters = []
  refs : (s.objects id).refs = (s.objects id).owners.length
  held : ∀ t, (s.objects id).owners.count t = (s.locks t).count id
  shared : (s.objects id).ownership = LockMode.Shared →
    (s.objects id).writer = false ∧ (s.objects id).readers = (s.objects id).owners.length
  single : (s.objects id).ownership ≠ LockMode.Shared →
    (s.objects id).readers = 0 ∧ (s.objects id).owners.length ≤ 1 ∧
      ((s.objects id).writer = true ↔ (s.objects id).owners ≠ [])

/-- What holds of the manager between two calls of one thread: the waits-for
graph is empty, the chains hold constructed locks, at most one per data item,
and every lock is as `LockOk` says. -/
structure Inv (s : State) : Prop where
  graph : s.wfg = []
  fresh : ∀ b id, id ∈ s.table b → id < s.allocated
  items : ∀ b, ((s.table b).map (fun id => (s.objects id).item)).Nodup
  unused : ∀ id, s.allocated ≤ id → (s.objects id).refs = 0
  lock : ∀ id, LockOk s id

/-- What `lookupLock` leaves behind: state `s1` and lock `id` after the lookup
of item `x` in state `s`. -/
structure Looked (s : State) (x : Nat) (s1 : State) (id : Nat) : Prop where
  wfg : s1.wfg = s.wfg
  locks : s1.locks = s.locks
  size : s1.table_size = s.table_size
  hash : s1.hash = s.hash
  item : (s1.objects id).item = x
  other : ∀ j, j ≠ id → s1.objects j = s.objects j
  head : (s1.table (s.hash x % s.table_size)).find? (fun j => (s1.objects j).item == x) = some id
  fresh : ∀ b j, j ∈ s1.table b → j < s1.allocated
  items : ∀ b, ((s1.table b).map (fun j => (s1.objects j).item)).Nodup
  unused : ∀ j, s1.allocated ≤ j → (s1.objects j).refs = 0
  idlt : id < s1.allocated
  keep : ∀ b j, j ≠ id → (s.objects j).refs ≠ 0 → j ∈ s.table b → j ∈ s1.table b
  sub : ∀ b j, j ∈ s1.table b → j ≠ id → j ∈ s.table b
  obj : (s1.objects id = { s.objects id with refs := (s.objects id).refs + 1 } ∧
          (s.objects id).refs ≠ 0 ∧ (s.objects id).item = x ∧
          id ∈ s.table (s.hash x % s.table_size) ∧ holder s x = some (s.objects id)) ∨
        (s1.objects id = Lock.construct x ∧ (s.objects id).refs = 0 ∧ holder s x = none)

/-- Two transactions read item 4, a third one locks item 6, and the readers end. -/
def readersCalls : List Op :=
  [Op.addLock 1 4 LockMode.Shared, Op.addLock 2 4 LockMode.Shared,
    Op.addLock 3 6 LockMode.Exclusive, Op.destroy 1, Op.destroy 2]

/-- The manager with two buckets and the identity as hash after `readersCalls`. -/
def readersDone : State :=
  (run (init (fun x => x) 2) readersCalls).getD (init (fun x => x) 2)

end LockManager

/-! ## Lock manager, two threads: `~Transaction` of the holder against `addLock` of a second transaction -/

namespace LockManager

/-- Where the thread is that runs `Transaction::addLock(dataItem, mode)`, i.e.
`LockManager::acquireLock` and the `push_back` behind it; `id` is the lock the
lookup gave. The thread holds `lock->metadata_latch` in `latched`, `taken`,
`refused`, `queued` and `relatched`. -/
inductive Acquiring where
  /-- Before the chain is latched and searched. -/
  | start
  /-- The lock is found or constructed and the chain latch released; before `metadata_latch` is taken. -/
  | looked (id : Nat)
  /-- Before the `try_lock` or `try_lock_shared`. -/
  | latched (id : Nat)
  /-- The mutex is held, `ownership` and `owners` are written; before `wfg.addWaiters`. -/
  | taken (id : Nat)
  /-- The `try_lock` has failed; before `wfg.addWaitsFor`. -/
  | refused (id : Nat)
  /-- Before `lock->waiters.push_back(&transaction); lock_guard.unlock();`. -/
  | queued (id : Nat)
  /-- In `lock->lock.lock()` or `lock->lock.lock_shared()`. -/
  | blocked (id : Nat)
  /-- The mutex is held; before `lock_guard.lock()`. -/
  | woken (id : Nat)
  /-- Before the transaction leaves the waiters and enters the owners. -/
  | relatched (id : Nat)
  /-- The call has returned and the lock is in `Transaction::locks`. -/
  | returned (id : Nat)
  /-- The call has raised `DeadLockError`. -/
  | thrown
  deriving DecidableEq

/-- The thread at this point holds `metadata_latch` of lock `id`. -/
def Acquiring.holdsLatch (p : Acquiring) (id : Nat) : Bool :=
  match p with
  | latched j => j == id
  | taken j => j == id
  | refused j => j == id
  | queued j => j == id
  | relatched j => j == id
  | _ => false

/-- Where the thread is that owns the transaction holding the lock: the
transaction is alive, or its destructor runs. -/
inductive Destroying where
  /-- The transaction exists; its destructor has not been called. -/
  | alive
  /-- The destructor is called; before `wfg.removeTransaction`. -/
  | entered
  /-- In the loop over `locks`, before the block that latches the first lock
  of `rest` and takes the transaction out of its owners; behind the loop when
  `rest` is empty. -/
  | erasing (rest : List Nat)
  /-- Before `ownership == Shared ? unlock_shared() : unlock()` on lock `id`. -/
  | unlocking (id : Nat) (rest : List Nat)
  /-- The destructor has returned and `locks` is destroyed. -/
  | destroyed
  deriving DecidableEq

/-- The lock manager and the two threads. -/
structure World where
  s : State
  t0 : Destroying
  t1 : Acquiring

/-- What a thread can do next. -/
inductive Move where
  /-- It takes its next step, which leads to world `w`. -/
  | to (w : World)
  /-- It waits for a latch or a mutex. -/
  | waits
  /-- It has nothing left to do. -/
  | ended
  /-- Its next step is undefined. -/
  | undefined

/-- The mutex of lock `id` is taken as `locked` says. -/
def setLock (s : State) (id : Nat) (locked : Lock) : State :=
  { s with objects := Function.update s.objects id locked }

/-- The line `lock->waiters.push_back(&transaction)`. -/
def pushWaiter (s : State) (id transaction : Nat) : State :=
  let lock : Lock := { s.objects id with waiters := (s.objects id).waiters ++ [transaction] }
  { s with objects := Function.update s.objects id lock }

/-- Lines 206 to 209 of `acquireLock`: the transaction leaves the waiters,
`ownership` becomes `mode` and the transaction enters the owners. -/
def enterOwners (s : State) (id transaction : Nat) (mode : LockMode) : State :=
  let lock : Lock :=
    { s.objects id with
      waiters := (s.objects id).waiters.filter (fun w => w != transaction),
      ownership := mode,
      owners := (s.objects id).owners ++ [transaction] }
  { s with objects := Function.update s.objects id lock }

/-- The block of `~Transaction` under `metadata_latch`: the transaction leaves
the owners of lock `id`. -/
def leaveOwners (s : State) (id transaction : Nat) : State :=
  let lock : Lock :=
    { s.objects id with owners := (s.objects id).owners.filter (fun o => o != transaction) }
  { s with objects := Function.update s.objects id lock }

/-- The vector `locks` of the transaction is destroyed. -/
def dropLocks (s : State) (transaction : Nat) : State :=
  { s with objects := dropRefs s.objects (s.locks transaction),
           locks := Function.update s.locks transaction [] }

/-- The next step of the thread that runs `addLock(dataItem, mode)` for
`transaction`. A step is what the thread does between two points at which the
other thread can act on data they share: the chain, which is searched under
its latch; `owners`, `waiters` and `ownership`, written under
`metadata_latch`; the graph, under its mutex; the `std::shared_mutex`. -/
def stepAcquire (transaction dataItem : Nat) (mode : LockMode) (w : World) : Move :=
  match w.t1 with
  | Acquiring.start =>
    if w.s.table_size = 0 then Move.undefined
    else
      Move.to { w with s := (lookupLock w.s dataItem).1,
                       t1 := Acquiring.looked (lookupLock w.s dataItem).2 }
  | Acquiring.looked id => Move.to { w with t1 := Acquiring.latched id }
  | Acquiring.latched id =>
    match (w.s.objects id).tryLock mode with
    | some locked =>
      Move.to { w with s := granted w.s id transaction mode locked, t1 := Acquiring.taken id }
    | none => Move.to { w with t1 := Acquiring.refused id }
  | Acquiring.taken id =>
    match WaitsForGraph.addWaiters w.s.wfg transaction (w.s.objects id).waiters with
    | none => Move.undefined
    | some out =>
      if out.deadlock then
        Move.to { w with s := dropRef (setGraph w.s out.graph) id, t1 := Acquiring.thrown }
      else
        Move.to { w with s := pushLock (setGraph w.s out.graph) transaction id,
                         t1 := Acquiring.returned id }
  | Acquiring.refused id =>
    match WaitsForGraph.addWaitsFor w.s.wfg transaction (w.s.objects id).owners with
    | none => Move.undefined
    | some out =>
      if out.deadlock then
        Move.to { w with s := dropRef (setGraph w.s out.graph) id, t1 := Acquiring.thrown }
      else Move.to { w with s := setGraph w.s out.graph, t1 := Acquiring.queued id }
  | Acquiring.queued id =>
    Move.to { w with s := pushWaiter w.s id transaction, t1 := Acquiring.blocked id }
  | Acquiring.blocked id =>
    match (w.s.objects id).tryLock mode with
    | some locked => Move.to { w with s := setLock w.s id locked, t1 := Acquiring.woken id }
    | none => Move.waits
  | Acquiring.woken id => Move.to { w with t1 := Acquiring.relatched id }
  | Acquiring.relatched id =>
    Move.to { w with s := enterOwners w.s id transaction mode, t1 := Acquiring.taken id }
  | Acquiring.returned _ => Move.ended
  | Acquiring.thrown => Move.ended

/-- The next step of the thread of `transaction`, which destroys the
transaction at some point: `~Transaction` takes the transaction out of the
graph, then for every lock of the transaction out of the owners (under
`metadata_latch`, for which it waits while the other thread holds it) and
unlocks the mutex, and in the end `locks` is destroyed. -/
def stepDestroy (transaction : Nat) (w : World) : Move :=
  match w.t0 with
  | Destroying.alive => Move.to { w with t0 := Destroying.entered }
  | Destroying.entered =>
    Move.to { w with s := setGraph w.s (WaitsForGraph.removeTransaction w.s.wfg transaction),
                     t0 := Destroying.erasing (w.s.locks transaction) }
  | Destroying.erasing [] =>
    Move.to { w with s := dropLocks w.s transaction, t0 := Destroying.destroyed }
  | Destroying.erasing (id :: rest) =>
    if w.t1.holdsLatch id = true then Move.waits
    else Move.to { w with s := leaveOwners w.s id transaction, t0 := Destroying.unlocking id rest }
  | Destroying.unlocking id rest =>
    match Lock.unlockFor (w.s.objects id) with
    | none => Move.undefined
    | some unlocked => Move.to { w with s := setLock w.s id unlocked, t0 := Destroying.erasing rest }
  | Destroying.destroyed => Move.ended

/-- The worlds the two threads can reach from world `w0`, whatever the order
in which they take their steps. A `try_lock` may fail although the mutex is
free. -/
inductive Reach (holder transaction dataItem : Nat) (mode : LockMode) (w0 : World) :
    World → Prop where
  | init : Reach holder transaction dataItem mode w0 w0
  | acquire {w w1 : World} : Reach holder transaction dataItem mode w0 w →
      stepAcquire transaction dataItem mode w = Move.to w1 →
      Reach holder transaction dataItem mode w0 w1
  | spurious {w : World} {id : Nat} : Reach holder transaction dataItem mode w0 w →
      w.t1 = Acquiring.latched id →
      Reach holder transaction dataItem mode w0 { w with t1 := Acquiring.refused id }
  | destroy {w w1 : World} : Reach holder transaction dataItem mode w0 w →
      stepDestroy holder w = Move.to w1 →
      Reach holder transaction dataItem mode w0 w1

/-- The thread of `addLock` takes `n` steps on its own, as far as it can. -/
def runAcquire (transaction dataItem : Nat) (mode : LockMode) : Nat → World → World
  | 0, w => w
  | n + 1, w =>
    match stepAcquire transaction dataItem mode w with
    | Move.to w1 => runAcquire transaction dataItem mode n w1
    | _ => w

/-- The destructor of the holder has not unlocked lock `id` yet. -/
def Destroying.holds (p : Destroying) (id : Nat) : Prop :=
  match p with
  | alive => True
  | entered => True
  | erasing rest => id ∈ rest
  | unlocking j rest => j = id ∨ id ∈ rest
  | destroyed => False

end LockManager

namespace LockManager

/-- The lock the thread of `addLock` works on; before its lookup, the lock `id0`. -/
def Acquiring.target (p : Acquiring) (id0 : Nat) : Nat :=
  match p with
  | start => id0
  | looked id => id
  | latched id => id
  | taken id => id
  | refused id => id
  | queued id => id
  | blocked id => id
  | woken id => id
  | relatched id => id
  | returned id => id
  | thrown => id0

/-- The thread of `addLock` holds the mutex of its lock. -/
def Acquiring.hasMutex (p : Acquiring) : Bool :=
  match p with
  | woken _ => true
  | relatched _ => true
  | taken _ => true
  | returned _ => true
  | _ => false

/-- The transaction of `addLock` is among the owners of its lock. -/
def Acquiring.isOwner (p : Acquiring) : Bool :=
  match p with
  | taken _ => true
  | returned _ => true
  | _ => false

/-- The transaction of `addLock` is among the waiters of its lock. -/
def Acquiring.isWaiter (p : Acquiring) : Bool :=
  match p with
  | blocked _ => true
  | woken _ => true
  | relatched _ => true
  | _ => false

/-- The steps the thread of `addLock` has before it when it is not made to wait. -/
def Acquiring.remaining (p : Acquiring) : Nat :=
  match p with
  | start => 9
  | looked _ => 8
  | latched _ => 7
  | refused _ => 6
  | queued _ => 5
  | blocked _ => 4
  | woken _ => 3
  | relatched _ => 2
  | taken _ => 1
  | returned _ => 0
  | thrown => 0

/-- The locks the destructor has still to release hold lock `id0` at most once. -/
def Destroying.once (p : Destroying) (id0 : Nat) : Prop :=
  match p with
  | erasing rest => rest.count id0 ≤ 1
  | unlocking j rest => (j :: rest).count id0 ≤ 1
  | _ => True

/-- The graph has no entry, or one entry for transaction `b` that does not name `b`. -/
def OwnEntry (b : Nat) (g : WaitsForGraph.Graph) : Prop :=
  g = [] ∨ ∃ adj, g = [(b, adj)] ∧ b ∉ adj

/-- What holds of every world the two threads reach from the manager state
`s0`, in which transaction `a` holds lock `id0` exclusively and transaction `b`
is about to ask for it. -/
structure Good (s0 : State) (a b id0 : Nat) (w : World) : Prop where
  graph : OwnEntry b w.s.wfg
  size : w.s.table_size = s0.table_size
  hash : w.s.hash = s0.hash
  locks : w.t0 ≠ Destroying.destroyed → w.s.locks a = s0.locks a
  once : w.t0.once id0
  notThrown : w.t1 ≠ Acquiring.thrown
  start : w.t1 = Acquiring.start →
    w.s.table = s0.table ∧ w.s.allocated = s0.allocated ∧
    (∀ j, (w.s.objects j).item = (s0.objects j).item) ∧
    (w.t0 ≠ Destroying.destroyed → (w.s.objects id0).refs ≠ 0)
  old : w.t1.target id0 ≠ id0 → w.t0 = Destroying.destroyed
  held : w.t0.holds id0 →
    (w.s.objects id0).writer = true ∧ (w.s.objects id0).readers = 0 ∧
    (w.s.objects id0).ownership = LockMode.Exclusive ∧ w.t1.hasMutex = false
  free : ¬ w.t0.holds id0 → w.t1.hasMutex = false →
    (w.s.objects (w.t1.target id0)).writer = false ∧
    (w.s.objects (w.t1.target id0)).readers = 0
  owners : w.t1.isOwner = false → b ∉ (w.s.objects (w.t1.target id0)).owners
  waiters : (w.s.objects (w.t1.target id0)).waiters = if w.t1.isWaiter = true then [b] else []

end LockManager

namespace LockManager

/-- Transaction `a` holds the lock `id0` of item `x` exclusively in the manager
state `s0`, as far as the chain, the lock object and the locks of `a` show it;
`b` is another transaction. -/
structure Base (s0 : State) (a b x id0 : Nat) : Prop where
  ne : a ≠ b
  size : s0.table_size ≠ 0
  nodup : ((s0.table (s0.hash x % s0.table_size)).map (fun j => (s0.objects j).item)).Nodup
  mem : id0 ∈ s0.table (s0.hash x % s0.table_size)
  item : (s0.objects id0).item = x
  lt : id0 < s0.allocated
  count : (s0.locks a).count id0 ≤ 1
  inLocks : id0 ∈ s0.locks a

end LockManager

namespace LockManager

/-- The thread of the holder takes `n` steps on its own, as far as it can. -/
def runDestroy (transaction : Nat) : Nat → World → World
  | 0, w => w
  | n + 1, w =>
    match stepDestroy transaction w with
    | Move.to w1 => runDestroy transaction n w1
    | _ => w

/-- The manager with two buckets and the identity as hash in which transaction
1 holds item 4 exclusively. -/
def heldState : State :=
  (run (init (fun x => x) 2) [Op.addLock 1 4 LockMode.Exclusive]).getD (init (fun x => x) 2)

/-- The world in which transaction 1 is alive and the thread of transaction 2
has gone as far as it can with `addLock(4, Shared)`. -/
def blockedWorld : World :=
  runAcquire 2 4 LockMode.Shared 9 ⟨heldState, Destroying.alive, Acquiring.start⟩

end LockManager

/-! ## Buffer manager (`task-buffer-manager/src/buffer_manager.cc`), one thread -/

namespace BufferManager

/-- A file of the block API `moderndbs::File` (`file.h`, `posix_file.cc`): its
size and its bytes; bytes at or past `size` are not part of the file. -/
structure File where
  size : Nat
  bytes : Nat → Nat

/-- The method `File::resize`: cut off, or append zero bytes (`ftruncate`). -/
def File.resize (f : File) (new_size : Nat) : File :=
  { size := new_size, bytes := fun i => if i < f.size then f.bytes i else 0 }

/-- The method `File::read_block(offset, size, block)`, the block as a list. -/
def File.read_block (f : File) (offset size : Nat) : List Nat :=
  (List.range size).map (fun i => f.bytes (offset + i))

/-- The method `File::write_block(block, offset, size)`. -/
def File.write_block (f : File) (block : List Nat) (offset size : Nat) : File :=
  { f with bytes := fun i => if offset ≤ i ∧ i < offset + size then block.getD (i - offset) 0 else f.bytes i }

/-- The enumeration `BufferFrame::BufferFrameState`. -/
inductive BufferFrameState where
  | NEW | LOADING | LOADED | EVICTING | RELOADED
deriving DecidableEq, Repr

/-- The class `BufferFrame`. The `std::shared_mutex` is its number of shared
holders (`readers`) and whether it is held exclusively (`writer`); the list
positions are represented by the lists of the manager themselves. -/
structure BufferFrame where
  pid : Nat
  data : List Nat
  state : BufferFrameState
  num_users : Nat
  exclusively_locked : Bool
  is_dirty : Bool
  readers : Nat
  writer : Bool
deriving DecidableEq, Repr

/-- The method `BufferFrame::lock`; `none` when the calling thread would block forever. -/
def BufferFrame.lock (f : BufferFrame) (exclusive_lock : Bool) : Option BufferFrame :=
  if exclusive_lock then
    if f.writer || f.readers != 0 then none
    else some { f with writer := true, exclusively_locked := true }
  else
    if f.writer then none
    else some { f with readers := f.readers + 1 }

/-- The method `BufferFrame::unlock`; `none` when the mutex is not held (undefined behaviour). -/
def BufferFrame.unlock (f : BufferFrame) : Option BufferFrame :=
  if f.exclusively_locked then
    if f.writer then some { f with exclusively_locked := false, writer := false } else none
  else
    if f.readers = 0 then none else some { f with readers := f.readers - 1 }

/-- The method `BufferFrame::inc_num_users` (`size_t`). -/
def BufferFrame.inc_num_users (f : BufferFrame) : BufferFrame :=
  { f with num_users := (f.num_users + 1) % 2 ^ 64 }

/-- The method `BufferFrame::dec_num_users` (`size_t`, wraps below zero). -/
def BufferFrame.dec_num_users (f : BufferFrame) : BufferFrame :=
  { f with num_users := if f.num_users = 0 then 2 ^ 64 - 1 else f.num_users - 1 }

/-- The class `BufferManager` together with the files it works on: `files` maps
a segment id to its file (a file that was never written is empty),
`segment_files` lists the files this manager has opened, `bufferframes` is the
page table, and the two lists hold page ids in list order. -/
structure State where
  page_size : Nat
  page_count : Nat
  fifo_list : List Nat
  lru_list : List Nat
  bufferframes : List BufferFrame
  segment_files : List Nat
  files : Nat → File

/-- The function `get_segment_id`: the 16 most significant bits of a 64-bit page id. -/
def get_segment_id (page_id : Nat) : Nat := (page_id >>> 48) % 2 ^ 16

/-- The function `get_segment_page_id`: the 48 least significant bits. -/
def get_segment_page_id (page_id : Nat) : Nat := page_id &&& (2 ^ 48 - 1)

/-- The constructor `BufferManager(page_size, page_count)` over the files `files`. -/
def init (page_size page_count : Nat) (files : Nat → File) : State :=
  { page_size := page_size, page_count := page_count, fifo_list := [], lru_list := [],
    bufferframes := [], segment_files := [], files := files }

/-- The lookup `bufferframes.find(page_id)`. -/
def findFrame (s : State) (page_id : Nat) : Option BufferFrame :=
  s.bufferframes.find? (fun f => f.pid == page_id)

/-- Write through a reference into the page table: replace the frame of `f.pid`. -/
def setFrame (s : State) (f : BufferFrame) : State :=
  { s with bufferframes := s.bufferframes.map (fun g => if g.pid == f.pid then f else g) }

/-- The call `bufferframes.erase(page_id)`. -/
def eraseFrame (s : State) (page_id : Nat) : State :=
  { s with bufferframes := s.bufferframes.filter (fun g => g.pid != page_id) }

/-- Replace the file of one segment. -/
def setFile (s : State) (segment_id : Nat) (f : File) : State :=
  { s with files := fun i => if i = segment_id then f else s.files i }

/-- The method `load_page`: open the file when needed; a page past the end of
the file extends the file and is zeroed, any other page is read from the file. -/
def load_page (s : State) (page : BufferFrame) : State × BufferFrame :=
  let segment_id := get_segment_id page.pid
  let segment_page_id := get_segment_page_id page.pid
  let s1 := if segment_id ∈ s.segment_files then s
            else { s with segment_files := segment_id :: s.segment_files }
  let file := s1.files segment_id
  if file.size < (segment_page_id + 1) * s.page_size then
    (setFile s1 segment_id (file.resize ((segment_page_id + 1) * s.page_size)),
      { page with data := List.replicate s.page_size 0,
                  state := BufferFrameState.LOADED, is_dirty := false })
  else
    (s1, { page with data := file.read_block (segment_page_id * s.page_size) s.page_size,
                     state := BufferFrameState.LOADED, is_dirty := false })

/-- The method `write_out_page`: `none` when the file of the page is not open
(`segment_files.find` returns `end()`). The caller clears `is_dirty`. -/
def write_out_page (s : State) (page : BufferFrame) : Option State :=
  let segment_id := get_segment_id page.pid
  let segment_page_id := get_segment_page_id page.pid
  if segment_id ∈ s.segment_files then
    some (setFile s segment_id
      ((s.files segment_id).write_block page.data (segment_page_id * s.page_size) s.page_size))
  else none

/-- One of the two loops of `find_page_to_evict`: the first page of the list
whose frame has no user and is `LOADED`. -/
def firstEvictable (s : State) : List Nat → Option BufferFrame
  | [] => none
  | p :: rest =>
    match findFrame s p with
    | some f =>
      if f.num_users = 0 ∧ f.state = BufferFrameState.LOADED then some f
      else firstEvictable s rest
    | none => firstEvictable s rest

/-- The method `find_page_to_evict`: the FIFO list first, then the LRU list. -/
def find_page_to_evict (s : State) : Option BufferFrame :=
  match firstEvictable s s.fifo_list with
  | some f => some f
  | none => firstEvictable s s.lru_list

/-- What `evict_page` answers. -/
inductive Evicted where
  | nothing
  | freed (s : State)
  | undefined

/-- The method `evict_page` for one thread: the victim becomes `EVICTING`, a
dirty victim is written to its file, nobody can claim it meanwhile, so it is
taken off its list and out of the page table. -/
def evict_page (s : State) : Evicted :=
  match find_page_to_evict s with
  | none => Evicted.nothing
  | some victim =>
    let written := if victim.is_dirty then write_out_page s victim else some s
    match written with
    | none => Evicted.undefined
    | some s1 =>
      let s2 := if victim.pid ∈ s1.lru_list
                then { s1 with lru_list := s1.lru_list.erase victim.pid }
                else { s1 with fifo_list := s1.fifo_list.erase victim.pid }
      Evicted.freed (eraseFrame s2 victim.pid)

/-- How a call of `fix_page` ends: it returns a frame, it raises
`buffer_full_error` (leaving the manager in state `s`), the thread blocks on a
latch it holds itself, or the call needs a second thread or is undefined. -/
inductive FixResult where
  | ok (s : State) (frame : BufferFrame)
  | buffer_full_error (s : State)
  | blocked
  | undefined

/-- The frame `bufferframes.emplace` constructs for a page that is not loaded. -/
def newFrame (page_id : Nat) : BufferFrame :=
  { pid := page_id, data := [], state := BufferFrameState.NEW, num_users := 0,
    exclusively_locked := false, is_dirty := false, readers := 0, writer := false }

/-- The hit path of `fix_page`: one more user, the page moves to the tail of
the LRU list, then the latch is taken. -/
def fixLoaded (s : State) (page0 : BufferFrame) (exclusive : Bool) : FixResult :=
  let page1 := page0.inc_num_users
  match page1.state with
  | BufferFrameState.NEW => FixResult.undefined
  | st =>
    let page2 := if st = BufferFrameState.EVICTING
                 then { page1 with state := BufferFrameState.RELOADED } else page1
    if page0.pid ∈ s.lru_list then
      match page2.lock exclusive with
      | none => FixResult.blocked
      | some page3 =>
        FixResult.ok (setFrame { s with lru_list := s.lru_list.erase page0.pid ++ [page0.pid] } page3) page3
    else if page0.pid ∈ s.fifo_list then
      match page2.lock exclusive with
      | none => FixResult.blocked
      | some page3 =>
        FixResult.ok (setFrame { s with fifo_list := s.fifo_list.erase page0.pid,
                                        lru_list := s.lru_list ++ [page0.pid] } page3) page3
    else FixResult.undefined

/-- The end of the miss path: the frame joins the FIFO list, the page is
loaded, the loading latch is released and the requested one is taken. -/
def finishLoad (s2 : State) (page : BufferFrame) (exclusive : Bool) : FixResult :=
  let s3 := { s2 with fifo_list := s2.fifo_list ++ [page.pid] }
  match load_page s3 { page with state := BufferFrameState.LOADING } with
  | (s4, loaded) =>
    match loaded.unlock with
    | none => FixResult.undefined
    | some unlocked =>
      match unlocked.lock exclusive with
      | none => FixResult.blocked
      | some fixed => FixResult.ok (setFrame s4 fixed) fixed

/-- The failure branch of the miss path: the new frame loses its user and its
latch, leaves the page table when nobody else uses it, and the call raises. -/
def dropNew (s1 : State) (page : BufferFrame) : FixResult :=
  match page.dec_num_users.unlock with
  | none => FixResult.undefined
  | some dropped =>
    if dropped.num_users = 0 then
      FixResult.buffer_full_error (eraseFrame (setFrame s1 dropped) page.pid)
    else FixResult.buffer_full_error (setFrame s1 dropped)

/-- The miss path of `fix_page`: a new frame enters the page table, a free
slot or an evicted page gives it memory, and the page is loaded; when nothing
can be evicted the new frame is dropped again and `buffer_full_error` is raised. -/
def fixMissing (s : State) (page_id : Nat) (exclusive : Bool) : FixResult :=
  let s0 := { s with bufferframes := s.bufferframes ++ [newFrame page_id] }
  match (newFrame page_id).inc_num_users.lock true with
  | none => FixResult.undefined
  | some page =>
    let s1 := setFrame s0 page
    let room := if s1.bufferframes.length - 1 < s1.page_count then Evicted.freed s1
                else evict_page s1
    match room with
    | Evicted.undefined => FixResult.undefined
    | Evicted.nothing => dropNew s1 page
    | Evicted.freed s2 => finishLoad s2 page exclusive

/-- The method `fix_page(page_id, exclusive)` for one thread. -/
def fix_page (s : State) (page_id : Nat) (exclusive : Bool) : FixResult :=
  match findFrame s page_id with
  | some page0 => fixLoaded s page0 exclusive
  | none => fixMissing s page_id exclusive

/-- The method `unfix_page(page, is_dirty)`; `none` when the frame is not in
the page table any more or its latch is not held. -/
def unfix_page (s : State) (page_id : Nat) (is_dirty : Bool) : Option State :=
  match findFrame s page_id with
  | none => none
  | some page =>
    match page.unlock with
    | none => none
    | some page1 =>
      let page2 := if is_dirty then { page1 with is_dirty := true } else page1
      some (setFrame s page2.dec_num_users)

/-- A client writing the page through `get_data()` while it holds a fix. -/
def writeData (s : State) (page_id : Nat) (data : List Nat) : Option State :=
  match findFrame s page_id with
  | none => none
  | some page =>
    if page.num_users = 0 ∨ data.length ≠ s.page_size then none
    else some (setFrame s { page with data := data })

/-- The loop of the destructor `~BufferManager`: every frame is written to its file. -/
def writeAll (s : State) : List BufferFrame → Option State
  | [] => some s
  | f :: rest =>
    match write_out_page s f with
    | none => none
    | some s1 => writeAll s1 rest

/-- Destroy the manager and construct a new one with `page_count` frames over the same files. -/
def restart (s : State) (page_count : Nat) : Option State :=
  match writeAll s s.bufferframes with
  | none => none
  | some s1 => some (init s.page_size page_count s1.files)

/-- The calls a client makes. -/
inductive Op where
  | fix (page_id : Nat) (exclusive : Bool)
  | unfix (page_id : Nat) (is_dirty : Bool)
  | write (page_id : Nat) (data : List Nat)
  | restart (page_count : Nat)

/-- One call; `none` when it does not return normally. -/
def step (s : State) : Op → Option State
  | Op.fix p e =>
    match fix_page s p e with
    | FixResult.ok s1 _ => some s1
    | _ => none
  | Op.unfix p d => unfix_page s p d
  | Op.write p data => writeData s p data
  | Op.restart n => restart s n

/-- A sequence of calls none of which fails. -/
def run (s : State) : List Op → Option State
  | [] => some s
  | op :: rest =>
    match step s op with
    | none => none
    | some s1 => run s1 rest

/-- The page an operation names, if any. -/
def Op.page : Op → Option Nat
  | Op.fix p _ => some p
  | Op.unfix p _ => some p
  | Op.write p _ => some p
  | Op.restart _ => none

/-- The file of page `q` is long enough to hold the page. -/
def covers (s : State) (q : Nat) : Prop :=
  (get_segment_page_id q + 1) * s.page_size ≤ (s.files (get_segment_id q)).size

/-- The block of page `q` in its file. -/
def disk (s : State) (q : Nat) : List Nat :=
  (s.files (get_segment_id q)).read_block (get_segment_page_id q * s.page_size) s.page_size

/-- The facts about the page table that hold between two calls of one thread. -/
structure WF (s : State) : Prop where
  room : s.bufferframes.length ≤ s.page_count
  loaded : ∀ f ∈ s.bufferframes, f.state = BufferFrameState.LOADED
  listed : ∀ f ∈ s.bufferframes, f.pid ∈ s.fifo_list ∨ f.pid ∈ s.lru_list
  nodup : (s.bufferframes.map (fun f => f.pid)).Nodup

/-- The frame of the miss path once it has its first user and its latch. -/
def pinnedNew (page_id : Nat) : BufferFrame :=
  { pid := page_id, data := [], state := BufferFrameState.NEW, num_users := 1,
    exclusively_locked := true, is_dirty := false, readers := 0, writer := true }

/-- The latches held on a frame: its shared holders plus one for an exclusive holder. -/
def held (f : BufferFrame) : Nat := f.readers + (if f.writer then 1 else 0)

/-- Every page in the page table has its segment file open. -/
def Opened (s : State) : Prop :=
  ∀ f ∈ s.bufferframes, get_segment_id f.pid ∈ s.segment_files

/-- Segment files that were never written. -/
def emptyFiles : Nat → File := fun _ => { size := 0, bytes := fun _ => 0 }

/-- The manager with one frame after page 1 was fixed and not released. -/
def pinnedState : State :=
  (run (init 2 1 emptyFiles) [Op.fix 1 true]).getD (init 2 1 emptyFiles)

end BufferManager

namespace BufferManager

/-- One call made by a client that catches `buffer_full_error`: after the
error the manager is in the state in which `fix_page` raised it. -/
def stepCaught (s : State) : Op → Option State
  | Op.fix p e =>
    match fix_page s p e with
    | FixResult.ok s1 _ => some s1
    | FixResult.buffer_full_error s1 => some s1
    | _ => none
  | op => step s op

/-- A sequence of calls in which every `buffer_full_error` is caught. -/
def runCaught (s : State) : List Op → Option State
  | [] => some s
  | op :: rest =>
    match stepCaught s op with
    | none => none
    | some s1 => runCaught s1 rest

/-- The call is a `fix_page` or an `unfix_page` of a page other than `p`. -/
def Op.onOther (p : Nat) : Op → Bool
  | Op.fix q _ => q != p
  | Op.unfix q _ => q != p
  | _ => false

/-- The state in which the miss path of `fix_page(q)` looks for a victim: the
new frame of `q` is in the page table with its first user and its latch. -/
def missState (s : State) (q : Nat) : State :=
  setFrame { s with bufferframes := s.bufferframes ++ [newFrame q] } (pinnedNew q)

/-- The manager with two frames after page 1 was fixed and not released. -/
def heldState : State :=
  (run (init 2 2 emptyFiles) [Op.fix 1 true]).getD (init 2 2 emptyFiles)

/-- Calls on pages 2, 3 and 4 while page 1 is held: page 2 is loaded and
released, page 3 takes its frame, page 4 finds no frame. -/
def otherCalls : List Op :=
  [Op.fix 2 false, Op.unfix 2 false, Op.fix 3 false, Op.fix 4 true]

/-- The manager after `otherCalls` were made on `heldState`. -/
def heldAfter : State := (runCaught heldState otherCalls).getD heldState

/-- The frame of page 1 in `heldState`: loaded, zeroed, one user, latched exclusively. -/
def heldFrame : BufferFrame :=
  { pid := 1, data := [0, 0], state := BufferFrameState.LOADED, num_users := 1,
    exclusively_locked := true, is_dirty := false, readers := 0, writer := true }

end BufferManager

namespace BufferManager

/-- A page `find_page_to_evict` may return: its frame has no user and is `LOADED`. -/
def isEvictable (s : State) (p : Nat) : Bool :=
  match findFrame s p with
  | some f => decide (f.num_users = 0 ∧ f.state = BufferFrameState.LOADED)
  | none => false

/-- The two lists between two calls: no page is listed twice, and every listed
page is in the page table. -/
structure Listed (s : State) : Prop where
  nodup : (s.fifo_list ++ s.lru_list).Nodup
  resident : ∀ x, x ∈ s.fifo_list ∨ x ∈ s.lru_list → findFrame s x ≠ none

/-- Pages 1 and 2 are fixed and released once each. -/
def fifoCalls : List Op :=
  [Op.fix 1 false, Op.unfix 1 false, Op.fix 2 false, Op.unfix 2 false]

/-- The manager with two frames after `fifoCalls`: both pages are on the FIFO list. -/
def fifoState : State :=
  (run (init 2 2 emptyFiles) fifoCalls).getD (init 2 2 emptyFiles)

/-- Page 1 is fixed and released twice. -/
def lruCalls : List Op :=
  [Op.fix 1 false, Op.unfix 1 false, Op.fix 1 false, Op.unfix 1 false]

/-- The manager with one frame after `lruCalls`: page 1 is on the LRU list. -/
def lruState : State :=
  (run (init 2 1 emptyFiles) lruCalls).getD (init 2 1 emptyFiles)

end BufferManager

/-! ## Slotted pages (`task-slotted-pages/src/slotted_page/slotted_page.cc`) -/

namespace SlottedPage

/-- Truncation to `uint16_t`. -/
def u16 (x : Nat) : Nat := x % 2 ^ 16

/-- Truncation to `uint32_t`. -/
def u32 (x : Nat) : Nat := x % 2 ^ 32

/-- Subtraction of `uint32_t` values, wrapping below zero. -/
def sub32 (a b : Nat) : Nat := if b ≤ a then a - b else 2 ^ 32 - (b - a)

/-- The struct `SlottedPage::Header`: two `uint16_t` and two `uint32_t` fields. -/
structure Header where
  slot_count : Nat
  first_free_slot : Nat
  data_start : Nat
  free_space : Nat

/-- The constant `sizeof(Header)`. -/
def sizeofHeader : Nat := 12

/-- The constant `sizeof(Slot)`. -/
def sizeofSlot : Nat := 8

/-- The constant `sizeof(TID)`. -/
def sizeofTID : Nat := 8

/-- The constructor `Header(page_size)`. -/
def Header.init (page_size : Nat) : Header :=
  { slot_count := 0, first_free_slot := 0, data_start := page_size,
    free_space := sub32 page_size sizeofHeader }

namespace Slot

/-- The constant `EMPTY_NON_REDIRECT_SLOT`. -/
def EMPTY_NON_REDIRECT_SLOT : Nat := 0xFF00000000000000

/-- The constant `UNSET_OFFSET_MASK`. -/
def UNSET_OFFSET_MASK : Nat := 0xFFFF000000FFFFFF

/-- The constant `UNSET_SIZE_MASK`. -/
def UNSET_SIZE_MASK : Nat := 0xFFFFFFFFFF000000

/-- The method `Slot::is_redirect` on the 64-bit slot word. -/
def is_redirect (value : Nat) : Bool := (value >>> 56) != 0xFF

/-- The method `Slot::is_redirect_target`. -/
def is_redirect_target (value : Nat) : Bool := ((value >>> 48) &&& 0xFF) != 0

/-- The method `Slot::get_size`. -/
def get_size (value : Nat) : Nat := value &&& 0xFFFFFF

/-- The method `Slot::get_offset`. -/
def get_offset (value : Nat) : Nat := (value >>> 24) &&& 0xFFFFFF

/-- The method `Slot::is_empty`. -/
def is_empty (value : Nat) : Bool := value == EMPTY_NON_REDIRECT_SLOT

/-- The method `Slot::set_offset` (`offset` is a `uint32_t`). -/
def set_offset (value offset : Nat) : Nat := (value &&& UNSET_OFFSET_MASK) ^^^ (offset <<< 24)

/-- The method `Slot::set_size`. -/
def set_size (value size : Nat) : Nat := (value &&& UNSET_SIZE_MASK) ^^^ size

/-- The method `Slot::set_slot`. -/
def set_slot (offset size : Nat) (redirect_target : Bool) : Nat :=
  (((size &&& 0xFFFFFF) ^^^ ((offset &&& 0xFFFFFF) <<< 24)) ^^^
    ((if redirect_target then 0xFF else 0x00) <<< 48)) ^^^ (0xFF <<< 56)

/-- The method `Slot::mark_as_redirect_target`. -/
def mark_as_redirect_target (value : Nat) (redirect_target : Bool) : Nat :=
  let cleared := value &&& 0xFF00FFFFFFFFFFFF
  if redirect_target then cleared ^^^ (0xFF <<< 48) else cleared

end Slot

end SlottedPage

/-- The struct `SlottedPage` as it lies on a buffer frame: the header, the slot
words (slot `i` is the 8 bytes at `12 + 8 * i`) and the bytes of the page by
page offset. The slot words are kept apart from `data`; the code reads a slot
word only below `slot_count`, where it has written it before. The two views
describe one page as long as the payload bytes that are read or moved lie
behind the slot array, that is, at `12 + 8 * slot_count` or above. -/
structure SlottedPage where
  header : SlottedPage.Header
  slots : Nat → Nat
  data : Nat → Nat

namespace SlottedPage

/-- The constructor `SlottedPage(page_size)`: the header, then zero bytes. -/
def init (page_size : Nat) : SlottedPage :=
  { header := Header.init page_size, slots := fun _ => 0, data := fun _ => 0 }

/-- The call `std::memmove(page + dst, page + src, n)`. -/
def memmove (data : Nat → Nat) (dst src n : Nat) : Nat → Nat :=
  fun i => if dst ≤ i ∧ i < dst + n then data (src + (i - dst)) else data i

/-- The call `std::memset(page + dst, 0x00, n)`. -/
def memset0 (data : Nat → Nat) (dst n : Nat) : Nat → Nat :=
  fun i => if dst ≤ i ∧ i < dst + n then 0 else data i

/-- The call `std::memcpy(page + dst, record, record.size())`. -/
def memcpyIn (data : Nat → Nat) (dst : Nat) (record : List Nat) : Nat → Nat :=
  fun i => if dst ≤ i ∧ i < dst + record.length then record.getD (i - dst) 0 else data i

/-- The call `std::memcpy(record, page + src, n)`. -/
def memcpyOut (data : Nat → Nat) (src n : Nat) : List Nat :=
  (List.range n).map (fun i => data (src + i))

/-- Write one slot word. -/
def setSlotWord (p : SlottedPage) (slot_id value : Nat) : SlottedPage :=
  { p with slots := fun i => if i = slot_id then value else p.slots i }

/-- The method `get_continuous_free_space`; `none` when its assertion fails. -/
def get_continuous_free_space (p : SlottedPage) : Option Nat :=
  let last_slot_end := p.header.slot_count * sizeofSlot + sizeofHeader
  if p.header.data_start ≥ last_slot_end then some (u32 (p.header.data_start - last_slot_end))
  else none

/-- A slot that `compactify` collects: neither a redirect nor empty. -/
def isLive (value : Nat) : Bool := !Slot.is_redirect value && !Slot.is_empty value

/-- The slot ids `compactify` collects, in slot order. -/
def liveSlots (p : SlottedPage) : List Nat :=
  (List.range p.header.slot_count).filter (fun i => isLive (p.slots i))

/-- What `std::sort(first, last, comp)` is: a function of the comparison and the sequence. -/
abbrev Sorter := (Nat → Nat → Bool) → List Nat → List Nat

/-- What the standard guarantees of `std::sort` with the comparison
`lhs->get_offset() > rhs->get_offset()`: the result is a rearrangement of the
input in which no later element has a larger offset than an earlier one. -/
def IsSort (sort : Sorter) : Prop :=
  ∀ (key : Nat → Nat) (l : List Nat),
    (sort (fun a b => decide (key a > key b)) l).Perm l ∧
    (sort (fun a b => decide (key a > key b)) l).Pairwise (fun a b => key a ≥ key b)

/-- Insertion sort, which is what `std::sort` of libstdc++ runs on up to 16 elements. -/
def insertionSorter : Sorter :=
  fun comp l => l.insertionSort (fun a b => comp b a = false)

/-- The loop of step 3 of `compactify` over the remaining sorted slots; `none`
when the assertion on the running shift fails. -/
def compactLoop (p : SlottedPage) (last_data_offset offset_shift : Nat) :
    List Nat → Option (SlottedPage × Nat)
  | [] => some (p, last_data_offset)
  | i :: rest =>
    let data_size := Slot.get_size (p.slots i)
    let data_offset := Slot.get_offset (p.slots i)
    if isLive (p.slots i) ∧ u32 (data_offset + data_size + offset_shift) ≤ last_data_offset then
      let shift1 := u32 (offset_shift +
        sub32 last_data_offset (u32 (data_size + data_offset + offset_shift)))
      let p1 : SlottedPage :=
        { p with data := memmove p.data (data_offset + shift1) data_offset data_size }
      let p2 := setSlotWord p1 i (Slot.set_offset (p.slots i) (u32 (data_offset + shift1)))
      compactLoop p2 (Slot.get_offset (p2.slots i)) shift1 rest
    else none

/-- The method `compactify(page_size)`. The payloads are moved in `data` and
the new offsets are set in the slot words; for payloads behind the slot array
a `memmove` does not reach a slot word, since payloads only move up. -/
def compactify (sort : Sorter) (p : SlottedPage) (page_size : Nat) : Option SlottedPage :=
  let slots := liveSlots p
  if slots.length = 0 then
    some { p with header := { p.header with data_start := page_size } }
  else
    match sort (fun a b => decide (Slot.get_offset (p.slots a) > Slot.get_offset (p.slots b)))
        slots with
    | [] => none
    | first :: rest =>
      let last_data_offset := Slot.get_offset (p.slots first)
      let size0 := Slot.get_size (p.slots first)
      let moved : SlottedPage × Nat × Nat :=
        if u32 (last_data_offset + size0) < page_size then
          let offset_shift := u32 (0 + sub32 page_size (u32 (last_data_offset + size0)))
          let p1 : SlottedPage :=
            { p with data := (memmove p.data (last_data_offset + offset_shift)
                last_data_offset size0) }
          (setSlotWord p1 first
              (Slot.set_offset (p.slots first) (u32 (last_data_offset + offset_shift))),
            u32 (last_data_offset + offset_shift), offset_shift)
        else (p, last_data_offset, 0)
      match compactLoop moved.1 moved.2.1 moved.2.2 rest with
      | none => none
      | some (p3, last) => some { p3 with header := { p3.header with data_start := last } }

/-- Compactify when the continuous free space is below `needed`. -/
def makeRoom (sort : Sorter) (p : SlottedPage) (needed page_size : Nat) : Option SlottedPage :=
  match get_continuous_free_space p with
  | none => none
  | some free => if free < needed then compactify sort p page_size else some p

/-- The loop of `allocate` that looks for the next free slot: without a
`break`, it leaves the last empty slot after `first_free_slot`. -/
def nextFreeSlot (p : SlottedPage) (first_free_slot : Nat) : List Nat → Nat
  | [] => first_free_slot
  | i :: rest =>
    nextFreeSlot p (if Slot.is_empty (p.slots i) then i else first_free_slot) rest

/-- Steps 2 and 3 of `allocate`. -/
def placeSlot (p : SlottedPage) (slot_id data_size : Nat) : Option (SlottedPage × Nat) :=
  if p.header.data_start ≥ data_size then
    let data_start := p.header.data_start - data_size
    let p1 : SlottedPage := { p with header := { p.header with data_start := data_start } }
    let p2 := setSlotWord p1 slot_id (Slot.set_slot data_start data_size false)
    some ({ p2 with data := memset0 p2.data data_start data_size }, slot_id)
  else none

/-- The method `allocate(data_size, page_size)`: the page after the call and
the slot id it returns; `none` when an assertion fails. -/
def allocate (sort : Sorter) (p : SlottedPage) (data_size page_size : Nat) :
    Option (SlottedPage × Nat) :=
  if p.header.first_free_slot = p.header.slot_count then
    let p1 : SlottedPage :=
      { p with header := { p.header with first_free_slot := u16 (p.header.first_free_slot + 1) } }
    if p1.header.free_space ≥ data_size + sizeofSlot then
      match makeRoom sort p1 (data_size + sizeofSlot) page_size with
      | none => none
      | some p2 =>
        let p3 : SlottedPage :=
          { p2 with header := { p2.header with
              free_space := u32 (p2.header.free_space - (data_size + sizeofSlot)),
              slot_count := u16 (p2.header.slot_count + 1) } }
        placeSlot p3 p2.header.slot_count data_size
    else none
  else
    if p.header.first_free_slot < p.header.slot_count then
      let slot_id := p.header.first_free_slot
      match makeRoom sort p data_size page_size with
      | none => none
      | some p2 =>
        let start := u16 (p2.header.first_free_slot + 1)
        let found := nextFreeSlot p2 p2.header.first_free_slot
          (List.range' start (p2.header.slot_count - start))
        let first_free_slot := if slot_id = found then p2.header.slot_count else found
        if p2.header.free_space ≥ data_size then
          let p3 : SlottedPage :=
            { p2 with header := { p2.header with
                first_free_slot := first_free_slot,
                free_space := p2.header.free_space - data_size } }
          placeSlot p3 slot_id data_size
        else none
    else none

/-- Steps 3.4 to 3.6 of `relocate` (and the same steps of its redirect case):
room is made and the cleared slot is set at the new data start; `keep` is the
buffered record. -/
def regrowTail (sort : Sorter) (p2 : SlottedPage) (slot_id slot_size data_size page_size : Nat)
    (keep : List Nat) : Option SlottedPage :=
  match makeRoom sort p2 data_size page_size with
  | none => none
  | some p3 =>
    let data_start := sub32 p3.header.data_start data_size
    let p4 : SlottedPage :=
      { p3 with header := { p3.header with
          free_space := sub32 p3.header.free_space data_size, data_start := data_start } }
    let p5 := setSlotWord p4 slot_id (Slot.set_slot data_start data_size false)
    let cleared := if keep = [] then data_size else data_size - slot_size
    some { p5 with data :=
      (memset0 (memcpyIn p5.data data_start keep) (data_start + slot_size) cleared) }

/-- The tail of `relocate` shared by the redirect case and the growing case:
the data start passes the old record if it was the lowest, the slot is cleared,
and the record is placed again. -/
def regrow (sort : Sorter) (p : SlottedPage) (slot_id slot_size slot_offset data_size
    page_size : Nat) (keep : List Nat) : Option SlottedPage :=
  let p1 : SlottedPage :=
    if slot_offset = p.header.data_start
    then { p with header := { p.header with data_start := u32 (p.header.data_start + slot_size) } }
    else p
  regrowTail sort (setSlotWord p1 slot_id Slot.EMPTY_NON_REDIRECT_SLOT) slot_id slot_size
    data_size page_size keep

/-- The method `relocate(slot_id, data_size, page_size)`. -/
def relocate (sort : Sorter) (p : SlottedPage) (slot_id data_size page_size : Nat) :
    Option SlottedPage :=
  if slot_id < p.header.slot_count then
    let slot := p.slots slot_id
    let slot_size := Slot.get_size slot
    let slot_offset := Slot.get_offset slot
    if Slot.is_empty slot then none
    else if Slot.is_redirect slot ∧ slot_size ≠ 0 then none
    else if slot_size = 0 ∧ slot_offset = 1 then
      if p.header.free_space ≥ data_size then
        regrow sort p slot_id slot_size slot_offset data_size page_size []
      else none
    else if slot_size = data_size then some p
    else if slot_size > data_size then
      if Slot.is_redirect_target slot ∧ ¬ data_size > sizeofTID then none
      else
        let p1 : SlottedPage :=
          { p with header := { p.header with
              free_space := u32 (p.header.free_space + (slot_size - data_size)) } }
        some (setSlotWord p1 slot_id (Slot.set_size slot data_size))
    else
      let buffer := memcpyOut p.data slot_offset slot_size
      let p1 : SlottedPage :=
        { p with header := { p.header with free_space := u32 (p.header.free_space + slot_size) } }
      if p1.header.free_space ≥ data_size then
        regrow sort p1 slot_id slot_size slot_offset data_size page_size buffer
      else none
  else none

/-- The loop at the end of `erase`: empty slots at the end of the slot array are given back. -/
def trimSlots (p : SlottedPage) : Nat → SlottedPage
  | 0 => p
  | fuel + 1 =>
    if p.header.slot_count ≥ 1 ∧ Slot.is_empty (p.slots (p.header.slot_count - 1)) then
      trimSlots { p with header := { p.header with
          slot_count := p.header.slot_count - 1,
          free_space := u32 (p.header.free_space + sizeofSlot) } } fuel
    else p

/-- The method `erase(slot_id)`. -/
def erase (p : SlottedPage) (slot_id : Nat) : Option SlottedPage :=
  if slot_id < p.header.slot_count then
    let slot := p.slots slot_id
    if Slot.is_redirect slot then none
    else if Slot.is_empty slot then none
    else
      let h1 := { p.header with free_space := u32 (p.header.free_space + Slot.get_size slot) }
      let h2 := if slot_id < h1.first_free_slot then { h1 with first_free_slot := slot_id } else h1
      let h3 := if Slot.get_offset slot = h2.data_start
                then { h2 with data_start := u32 (h2.data_start + Slot.get_size slot) } else h2
      let p1 := setSlotWord { p with header := h3 } slot_id Slot.EMPTY_NON_REDIRECT_SLOT
      if slot_id = p1.header.slot_count - 1 then some (trimSlots p1 p1.header.slot_count)
      else some p1
  else none

/-- The calls a client of one page makes. -/
inductive Call where
  | allocate (data_size : Nat)
  | relocate (slot_id data_size : Nat)
  | erase (slot_id : Nat)

/-- One call on a page of `page_size` bytes; `none` when an assertion fails. -/
def step (sort : Sorter) (page_size : Nat) (p : SlottedPage) : Call → Option SlottedPage
  | Call.allocate data_size => (allocate sort p data_size page_size).map (fun r => r.1)
  | Call.relocate slot_id data_size => relocate sort p slot_id data_size page_size
  | Call.erase slot_id => erase p slot_id

/-- A sequence of calls none of which fails an assertion. -/
def run (sort : Sorter) (page_size : Nat) (p : SlottedPage) : List Call → Option SlottedPage
  | [] => some p
  | c :: rest =>
    match step sort page_size p c with
    | none => none
    | some p1 => run sort page_size p1 rest

/-- The sum of `get_size()` over the slots that are neither empty nor a redirect. -/
def usedBytes (p : SlottedPage) : Nat :=
  ((liveSlots p).map (fun i => Slot.get_size (p.slots i))).sum

/-- The slot word with redirect byte `t`, target byte `f`, offset `o` and size `s`. -/
def compose (t f o s : Nat) : Nat := 2 ^ 24 * (2 ^ 24 * (2 ^ 8 * t + f) + o) + s

/-- The word of a slot that holds `s` bytes at offset `o` and is no redirect target. -/
def word (o s : Nat) : Nat := compose 255 0 o s

/-- What a slot adds to `usedBytes`. -/
def liveSize (value : Nat) : Nat := if isLive value then Slot.get_size value else 0

/-- A slot word that holds a record inside a page of `P` bytes whose data
starts at `ds`; the record may be marked as a redirect target. -/
def Normal (P ds value : Nat) : Prop :=
  (∃ f, f < 2 ^ 8 ∧ value = compose 255 f (Slot.get_offset value) (Slot.get_size value)) ∧
  12 ≤ Slot.get_offset value ∧
  Slot.get_offset value + Slot.get_size value ≤ P ∧
  (0 < Slot.get_size value → ds ≤ Slot.get_offset value)

/-- What holds of a page of `P` bytes between two calls. -/
structure Inv (P : Nat) (p : SlottedPage) : Prop where
  acct : usedBytes p + p.header.free_space + 12 + 8 * p.header.slot_count = P
  ds_lo : 12 + 8 * p.header.slot_count ≤ p.header.data_start
  ds_hi : p.header.data_start ≤ P
  slots : ∀ i, i < p.header.slot_count →
    p.slots i = Slot.EMPTY_NON_REDIRECT_SLOT ∨ Normal P p.header.data_start (p.slots i) ∨
      (Slot.is_redirect (p.slots i) = true ∧ p.slots i < 2 ^ 64)
  disj : ∀ i j, i < p.header.slot_count → j < p.header.slot_count → i ≠ j →
    isLive (p.slots i) = true → isLive (p.slots j) = true →
    0 < Slot.get_size (p.slots i) → 0 < Slot.get_size (p.slots j) →
    Slot.get_offset (p.slots i) + Slot.get_size (p.slots i) ≤ Slot.get_offset (p.slots j) ∨
    Slot.get_offset (p.slots j) + Slot.get_size (p.slots j) ≤ Slot.get_offset (p.slots i)
  ffs : p.header.first_free_slot < p.header.slot_count →
    p.slots p.header.first_free_slot = Slot.EMPTY_NON_REDIRECT_SLOT

/-- The three numbers of the header accounting: the bytes of the live slots,
`free_space` and `slot_count`. -/
def accounts (p : SlottedPage) : Nat × Nat × Nat :=
  (usedBytes p, p.header.free_space, p.header.slot_count)

/-- Two records of ten bytes, the first of which then grows to twenty. -/
def growingCalls : List Call :=
  [Call.allocate 10, Call.allocate 10, Call.relocate 0 20]

/-- The page of 64 bytes after `growingCalls`. -/
def grownPage : SlottedPage :=
  (run insertionSorter 64 (init 64) growingCalls).getD (init 64)

/-- A record of five bytes and an empty record; the first is erased, its slot
is used again for an empty record, and four more empty records follow. -/
def emptyRecordCalls : List Call :=
  [Call.allocate 5, Call.allocate 0, Call.erase 0, Call.allocate 0, Call.allocate 0,
    Call.allocate 0, Call.allocate 0, Call.allocate 0]

/-- Three records of which the middle one is erased, then a record that needs compaction. -/
def compactingCalls : List Call :=
  [Call.allocate 10, Call.allocate 10, Call.allocate 10, Call.erase 1, Call.allocate 20]

/-- The page of 80 bytes after `compactingCalls`. -/
def compactedPage : SlottedPage :=
  (run insertionSorter 80 (init 80) compactingCalls).getD (init 80)

end SlottedPage

namespace SlottedPage

/-- The smallest offset of a slot that is neither empty nor a redirect, and
`page_size` when there is none: what the specification takes `data_start` to be. -/
def minLiveOffset (p : SlottedPage) (page_size : Nat) : Nat :=
  ((liveSlots p).map (fun i => Slot.get_offset (p.slots i))).foldl min page_size

/-- Three records of eight bytes are erased: the second, the first, the third. -/
def eraseAllCalls : List Call :=
  [Call.allocate 8, Call.allocate 8, Call.allocate 8, Call.erase 1, Call.erase 0, Call.erase 2]

/-- Three records of eight bytes of which the second and the third are erased. -/
def eraseTwoCalls : List Call :=
  [Call.allocate 8, Call.allocate 8, Call.allocate 8, Call.erase 1, Call.erase 2]

/-- The page of 64 bytes after `eraseTwoCalls`. -/
def erasedTwoPage : SlottedPage :=
  (run insertionSorter 64 (init 64) eraseTwoCalls).getD (init 64)

end SlottedPage

namespace SlottedPage

/-- The smallest index of an empty slot below `slot_count`, and `slot_count`
when there is none: what the specification takes `first_free_slot` to be. -/
def firstEmptySlot (p : SlottedPage) : Nat :=
  ((List.range p.header.slot_count).find? (fun i => Slot.is_empty (p.slots i))).getD
    p.header.slot_count

/-- Five records of one byte; the second, third and fourth are erased, and one
more record is allocated. -/
def reuseCalls : List Call :=
  [Call.allocate 1, Call.allocate 1, Call.allocate 1, Call.allocate 1, Call.allocate 1,
    Call.erase 1, Call.erase 2, Call.erase 3, Call.allocate 1]

/-- The page of 128 bytes after `reuseCalls`. -/
def reusedPage : SlottedPage :=
  (run insertionSorter 128 (init 128) reuseCalls).getD (init 128)

/-- The page of 128 bytes after `reuseCalls` and the erasure of the last record. -/
def trimmedPage : SlottedPage :=
  (erase reusedPage 4).getD (init 128)

end SlottedPage

namespace SlottedPage

end SlottedPage

namespace SlottedPage

end SlottedPage

/-! ## Slotted-page segment and free-space inventory
(`task-slotted-pages/src/slotted_page/sp_segment.cc`, `fsi_segment.cc`) -/

namespace TID

/-- The constructor `TID(page, slot)` on `uint64_t`. -/
def make (page slot : Nat) : Nat := ((page <<< 16) % 2 ^ 64) ^^^ (slot &&& 0xFFFF)

/-- The method `TID::get_segment_page_id`. -/
def get_segment_page_id (value : Nat) : Nat := value >>> 16

/-- The method `TID::get_slot`. -/
def get_slot (value : Nat) : Nat := value &&& 0xFFFF

/-- The eight bytes of a `TID` in memory (little endian). -/
def bytes (value : Nat) : List Nat :=
  (List.range 8).map (fun j => (value >>> (8 * j)) &&& 0xFF)

end TID

namespace SlottedPage

/-- Byte `j` of a little-endian field. -/
def fieldByte (value j : Nat) : Nat := (value >>> (8 * j)) &&& 0xFF

/-- The byte at page offset `i`: the header fields, then the slot words of the
slot array, then the bytes behind it. -/
def pageByte (p : SlottedPage) (i : Nat) : Nat :=
  if i < 2 then fieldByte p.header.slot_count i
  else if i < 4 then fieldByte p.header.first_free_slot (i - 2)
  else if i < 8 then fieldByte p.header.data_start (i - 4)
  else if i < 12 then fieldByte p.header.free_space (i - 8)
  else if i < sizeofHeader + p.header.slot_count * sizeofSlot
    then fieldByte (p.slots ((i - 12) / 8)) ((i - 12) % 8)
  else p.data i

/-- The call `std::memcpy(buffer, page + src, n)` on the whole page. -/
def readBytes (p : SlottedPage) (src n : Nat) : List Nat :=
  (List.range n).map (fun i => pageByte p (src + i))

/-- The call `std::memcpy(&tid, page + src, sizeof(TID))`. -/
def readTID (p : SlottedPage) (src : Nat) : Nat :=
  ((List.range 8).map (fun j => pageByte p (src + j) * 256 ^ j)).sum

/-- The page a buffer frame holds before anything was written to it. -/
def zeroPage : SlottedPage :=
  { header := { slot_count := 0, first_free_slot := 0, data_start := 0, free_space := 0 },
    slots := fun _ => 0, data := fun _ => 0 }

end SlottedPage

/-- The pages of the buffer manager and the counters of `schema::Table`:
`pages` are the pages of the slotted-page segment by segment page id, `fsi` the
bytes of the pages of the free-space inventory. A page that was never fixed is
all zero. -/
structure Segments where
  page_size : Nat
  allocated_slotted_pages : Nat
  allocated_fsi_pages : Nat
  pages : Nat → SlottedPage
  fsi : Nat → Nat → Nat

namespace Segments

/-- Write through the frame of a slotted page. -/
def setPage (s : Segments) (page_id : Nat) (p : SlottedPage) : Segments :=
  { s with pages := fun i => if i = page_id then p else s.pages i }

/-- Write one byte of a page of the inventory. -/
def setEntryByte (s : Segments) (fsi_page byte value : Nat) : Segments :=
  { s with fsi := fun pg i => if pg = fsi_page ∧ i = byte then value else s.fsi pg i }

end Segments

namespace FSISegment

open SlottedPage

/-- Subtraction of `size_t` values. -/
def sub64 (a b : Nat) : Nat := if b ≤ a then a - b else 2 ^ 64 - (b - a)

/-- The array `look_up_table` the constructor fills in. -/
def look_up_table (page_size : Nat) (i : Nat) : Nat :=
  let free_size := sub64 page_size sizeofHeader
  let half_page_size := free_size >>> 1
  let linear_level := half_page_size >>> 3
  match i with
  | 15 => u32 free_size
  | 14 => u32 (free_size - 1 * linear_level)
  | 13 => u32 (free_size - 2 * linear_level)
  | 12 => u32 (free_size - 3 * linear_level)
  | 11 => u32 (free_size - 4 * linear_level)
  | 10 => u32 (free_size - 5 * linear_level)
  | 9 => u32 (free_size - 6 * linear_level)
  | 8 => u32 (free_size - 7 * linear_level)
  | 7 => u32 half_page_size
  | 6 => u32 (half_page_size >>> 1)
  | 5 => u32 (half_page_size >>> 2)
  | 4 => u32 (half_page_size >>> 3)
  | 3 => u32 (half_page_size >>> 4)
  | 2 => u32 (half_page_size >>> 5)
  | 1 => u32 (half_page_size >>> 6)
  | _ => 0

/-- The loop of `encode_free_space` from level `i` downwards. -/
def encodeFrom (page_size free_space : Nat) : Nat → Nat
  | 0 => 0
  | i + 1 =>
    if free_space ≥ look_up_table page_size (i + 1) then i + 1
    else encodeFrom page_size free_space i

/-- The method `encode_free_space`. -/
def encode_free_space (page_size free_space : Nat) : Nat := encodeFrom page_size free_space 15

/-- The method `decode_free_space`. -/
def decode_free_space (page_size free_space : Nat) : Nat := look_up_table page_size free_space

/-- The entry of slotted page `target` as `find` and `update` read it. -/
def entry (s : Segments) (target : Nat) : Nat :=
  let offset := target % (s.page_size <<< 1)
  let byte := s.fsi (target / (s.page_size <<< 1)) (offset >>> 1)
  if offset &&& 1 = 0 then byte >>> 4 else byte &&& 0x0f

/-- The method `update(target_page, free_space)`; `none` when the page is not allocated. -/
def update (s : Segments) (target_page free_space : Nat) : Option Segments :=
  if target_page ≥ s.allocated_slotted_pages then none
  else
    let fsi_page := target_page / (s.page_size <<< 1)
    let fsi_page_offset := u32 (target_page % (s.page_size <<< 1))
    let old := s.fsi fsi_page (fsi_page_offset >>> 1)
    if fsi_page_offset &&& 1 = 0 then
      some (s.setEntryByte fsi_page (fsi_page_offset >>> 1)
        (((encode_free_space s.page_size free_space <<< 4) + (old &&& 0x0f)) % 256))
    else
      some (s.setEntryByte fsi_page (fsi_page_offset >>> 1)
        (((old &&& 0xf0) + encode_free_space s.page_size free_space) % 256))

/-- How the scan of one page of the inventory ends. -/
inductive Scan where
  | hit (s : Segments) (target : Nat)
  | miss (target : Nat)
  | next (sp : Nat)

/-- The inner loop of `find` over the bytes of one page of the inventory. -/
def findInPage (s : Segments) (required_space fsi_page num_sp : Nat) :
    List Nat → Nat → Scan
  | [], sp => Scan.next sp
  | byte :: rest, sp =>
    let old := s.fsi fsi_page byte
    let free1 := decode_free_space s.page_size (old >>> 4)
    if free1 ≥ required_space then
      Scan.hit (s.setEntryByte fsi_page byte
          (((encode_free_space s.page_size (free1 - required_space) <<< 4) |||
            (old &&& 0x0f)) % 256))
        (fsi_page * (s.page_size <<< 1) + u32 (byte <<< 1))
    else if sp + 1 = num_sp then Scan.miss s.allocated_slotted_pages
    else
      let free2 := decode_free_space s.page_size (old &&& 0x0f)
      if free2 ≥ required_space then
        Scan.hit (s.setEntryByte fsi_page byte
            (((old &&& 0xf0) |||
              encode_free_space s.page_size (free2 - required_space)) % 256))
          (fsi_page * (s.page_size <<< 1) + u32 ((byte <<< 1) + 1))
      else if sp + 2 = num_sp then Scan.miss s.allocated_slotted_pages
      else findInPage s required_space fsi_page num_sp rest (sp + 2)

/-- The outer loop of `find`; running out of pages is `__builtin_unreachable()`. -/
def findPages (s : Segments) (required_space num_sp : Nat) :
    List Nat → Nat → Option (Segments × Bool × Nat)
  | [], _ => none
  | fsi_page :: rest, sp =>
    match findInPage s required_space fsi_page num_sp (List.range s.page_size) sp with
    | Scan.hit s1 target => some (s1, true, target)
    | Scan.miss target => some (s, false, target)
    | Scan.next sp1 => findPages s required_space num_sp rest sp1

/-- The method `find(required_space)`: the state, whether a page was found,
and the segment page id of the page found or of the next page to allocate. -/
def find (s : Segments) (required_space : Nat) : Option (Segments × Bool × Nat) :=
  if s.allocated_slotted_pages > 0 ∧ s.allocated_fsi_pages > 0 ∧
      s.allocated_slotted_pages * (s.page_size <<< 1) ≥ s.allocated_slotted_pages then
    findPages s required_space s.allocated_slotted_pages (List.range s.allocated_fsi_pages) 0
  else none

end FSISegment

namespace SPSegment

open SlottedPage

/-- The constructors `FSISegment(...)` and `SPSegment(...)` on a fresh buffer manager. -/
def init (page_size : Nat) : Segments :=
  { page_size := page_size, allocated_slotted_pages := 1, allocated_fsi_pages := 1,
    pages := fun i => if i = 0 then SlottedPage.init page_size else zeroPage,
    fsi := fun pg i => if pg = 0 ∧ i < page_size then 0xFF else 0 }

/-- Steps 3.1 and 3.2 of `allocate`: `allocated_slotted_pages++`, the new slotted
page is constructed in its frame and, when the count has reached a multiple of
`page_size << 1`, a page of the inventory is added and filled with `0xFF`. -/
def addPage (s1 : Segments) (target_page_id : Nat) : Segments :=
  let s2 : Segments :=
    { s1 with allocated_slotted_pages := (s1.allocated_slotted_pages + 1) % 2 ^ 64 }
  let s3 := s2.setPage target_page_id (SlottedPage.init s2.page_size)
  if s3.allocated_slotted_pages % (s3.page_size <<< 1) = 0 then
    { s3 with
      allocated_fsi_pages := (s3.allocated_fsi_pages + 1) % 2 ^ 64,
      fsi := fun pg i =>
        if pg = s3.allocated_fsi_pages ∧ i < s3.page_size then 0xFF else s3.fsi pg i }
  else s3

/-- The method `allocate(required_space)`: the state and the TID it returns. -/
def allocate (sort : Sorter) (s : Segments) (required_space : Nat) :
    Option (Segments × Nat) :=
  if s.allocated_slotted_pages > 0 ∧ s.allocated_fsi_pages > 0 ∧
      required_space ≤ FSISegment.sub64 (FSISegment.sub64 s.page_size sizeofHeader) sizeofSlot then
    match FSISegment.find s (u32 (required_space + sizeofSlot)) with
    | none => none
    | some (s1, fsi_found, target_page_id) =>
      if fsi_found = false then
        let s4 := addPage s1 target_page_id
        match SlottedPage.allocate sort (s4.pages target_page_id) required_space s4.page_size with
        | none => none
        | some (page, slot_id) =>
          match FSISegment.update (s4.setPage target_page_id page) target_page_id
              page.header.free_space with
          | none => none
          | some s5 => some (s5, TID.make target_page_id slot_id)
      else
        match SlottedPage.allocate sort (s1.pages target_page_id) required_space s1.page_size with
        | none => none
        | some (page, slot_id) =>
          some (s1.setPage target_page_id page, TID.make target_page_id slot_id)
  else none

/-- The checks `read`, `write`, `resize` and `erase` make on the target of a
redirect: the target slot is marked, longer than a TID, and starts with `tid`. -/
def targetChecked (target : SlottedPage) (target_slot_id tid : Nat) : Bool :=
  let slot := target.slots target_slot_id
  Slot.is_redirect_target slot && decide (Slot.get_size slot > sizeofTID) &&
    (readTID target (Slot.get_offset slot) == tid)

/-- The method `read(tid, record, capacity)`: the bytes copied into `record`. -/
def read (s : Segments) (tid capacity : Nat) : Option (List Nat) :=
  let page := s.pages (TID.get_segment_page_id tid)
  let slot := page.slots (TID.get_slot tid)
  if Slot.is_redirect slot = false then
    if Slot.get_size slot ≥ capacity then some (readBytes page (Slot.get_offset slot) capacity)
    else none
  else
    let target := s.pages (TID.get_segment_page_id slot)
    let target_slot := target.slots (TID.get_slot slot)
    if targetChecked target (TID.get_slot slot) tid ∧ Slot.get_size target_slot ≥ capacity then
      some (readBytes target (Slot.get_offset target_slot + sizeofTID) capacity)
    else none

/-- The method `write(tid, record, record_size)` with `record_size = record.length`. -/
def write (s : Segments) (tid : Nat) (record : List Nat) : Option Segments :=
  let page_id := TID.get_segment_page_id tid
  let page := s.pages page_id
  let slot := page.slots (TID.get_slot tid)
  if Slot.is_redirect slot = false then
    if Slot.get_size slot ≥ record.length then
      some (s.setPage page_id
        { page with data := memcpyIn page.data (Slot.get_offset slot) record })
    else none
  else
    let redirect_target_tid := readTID page (Slot.get_offset slot)
    let target_id := TID.get_segment_page_id redirect_target_tid
    let target := s.pages target_id
    let target_slot := target.slots (TID.get_slot redirect_target_tid)
    if targetChecked target (TID.get_slot redirect_target_tid) tid ∧
        Slot.get_size target_slot ≥ record.length then
      some (s.setPage target_id
        { target with data :=
            (memcpyIn target.data (Slot.get_offset target_slot + sizeofTID) record) })
    else none

/-- The end of both redirecting cases of `resize`: the freshly allocated slot
becomes a redirect target that holds `tid` and the buffered bytes. -/
def fillTarget (s : Segments) (target_tid tid new_size : Nat) (buffer : List Nat) :
    Option Segments :=
  let target_id := TID.get_segment_page_id target_tid
  let target := s.pages target_id
  let slot := target.slots (TID.get_slot target_tid)
  if Slot.get_size slot = new_size + sizeofTID ∧ Slot.is_redirect_target slot = false then
    let marked := Slot.mark_as_redirect_target slot true
    if Slot.is_redirect_target marked = true then
      let p1 := setSlotWord target (TID.get_slot target_tid) marked
      some (s.setPage target_id
        { p1 with data :=
            (memcpyIn (memcpyIn p1.data (Slot.get_offset marked) (TID.bytes tid))
              (Slot.get_offset marked + sizeofTID) buffer) })
    else none
  else none

/-- The method `Slot::set_redirect_tid` on slot `slot_id`; `none` for an invalid TID. -/
def set_redirect_tid (p : SlottedPage) (slot_id tid : Nat) : Option SlottedPage :=
  if 0xFF - (tid >>> 56) > 0 then some (setSlotWord p slot_id tid) else none

/-- Erase the target of a redirect and tell the inventory. -/
def dropTarget (s : Segments) (target_id target_slot_id : Nat) : Option Segments :=
  match SlottedPage.erase (s.pages target_id) target_slot_id with
  | none => none
  | some target1 =>
    FSISegment.update (s.setPage target_id target1) target_id target1.header.free_space

/-- The method `resize(tid, new_size)`. -/
def resize (sort : Sorter) (s : Segments) (tid new_size : Nat) : Option Segments :=
  let page_id := TID.get_segment_page_id tid
  let slot_id := TID.get_slot tid
  let page := s.pages page_id
  let slot := page.slots slot_id
  if Slot.is_redirect slot = false then
    let old_size := Slot.get_size slot
    let data_offset := Slot.get_offset slot
    if new_size = old_size then some s
    else if new_size < old_size then
      let free_space := u32 (page.header.free_space + (old_size - new_size))
      let p1 : SlottedPage := { page with header := { page.header with free_space := free_space } }
      let p2 := setSlotWord p1 slot_id (Slot.set_size slot new_size)
      FSISegment.update (s.setPage page_id p2) page_id free_space
    else
      let buffer := readBytes page data_offset old_size
      if u32 (page.header.free_space + old_size) > new_size then
        match SlottedPage.relocate sort page slot_id new_size s.page_size with
        | none => none
        | some p1 =>
          let offset := Slot.get_offset (p1.slots slot_id)
          let p2 : SlottedPage :=
            { p1 with data := (memset0 (memcpyIn p1.data offset buffer) (offset + old_size)
                (new_size - old_size)) }
          FSISegment.update (s.setPage page_id p2) page_id p2.header.free_space
      else
        match allocate sort s (u32 (new_size + sizeofTID)) with
        | none => none
        | some (s1, target_tid) =>
          if TID.get_segment_page_id target_tid = TID.get_segment_page_id tid then none
          else
            let q := s1.pages page_id
            if Slot.is_redirect (q.slots slot_id) = true then none
            else
              match set_redirect_tid q slot_id target_tid with
              | none => none
              | some q1 =>
                let free_space := u32 (q1.header.free_space + old_size)
                let q2 : SlottedPage :=
                  { q1 with header := { q1.header with free_space := free_space } }
                match FSISegment.update (s1.setPage page_id q2) page_id free_space with
                | none => none
                | some s2 => fillTarget s2 target_tid tid new_size buffer
  else
    let target_id := TID.get_segment_page_id slot
    let target_slot_id := TID.get_slot slot
    let target := s.pages target_id
    let target_slot := target.slots target_slot_id
    let target_size := Slot.get_size target_slot
    let target_offset := Slot.get_offset target_slot
    if targetChecked target target_slot_id tid = false then none
    else if page.header.free_space ≥ new_size then
      let buffer_size := min target_size new_size
      let buffer := readBytes target (target_offset + sizeofTID) buffer_size
      match dropTarget s target_id target_slot_id with
      | none => none
      | some s1 =>
        let q := s1.pages page_id
        let q1 := setSlotWord q slot_id (Slot.set_offset Slot.EMPTY_NON_REDIRECT_SLOT 1)
        match SlottedPage.relocate sort q1 slot_id new_size s.page_size with
        | none => none
        | some q2 =>
          let offset := Slot.get_offset (q2.slots slot_id)
          let q3 : SlottedPage := { q2 with data := memcpyIn q2.data offset buffer }
          FSISegment.update (s1.setPage page_id q3) page_id q3.header.free_space
    else if FSISegment.sub64 (u32 (target.header.free_space + target_size)) sizeofTID ≥ new_size then
      match SlottedPage.relocate sort target target_slot_id new_size s.page_size with
      | none => none
      | some target1 =>
        FSISegment.update (s.setPage target_id target1) target_id target1.header.free_space
    else
      let buffer_size := min target_size new_size
      let buffer := readBytes target (target_offset + sizeofTID) buffer_size
      match dropTarget s target_id target_slot_id with
      | none => none
      | some s1 =>
        match allocate sort s1 (u32 (new_size + sizeofTID)) with
        | none => none
        | some (s2, new_tid) =>
          if TID.get_segment_page_id new_tid = TID.get_segment_page_id tid ∨
              TID.get_segment_page_id new_tid = TID.get_segment_page_id slot then none
          else
            let q := s2.pages page_id
            if Slot.is_redirect (q.slots slot_id) = false then none
            else
              match set_redirect_tid q slot_id new_tid with
              | none => none
              | some q1 => fillTarget (s2.setPage page_id q1) new_tid tid new_size buffer

/-- The method `erase(tid)`. -/
def erase (s : Segments) (tid : Nat) : Option Segments :=
  let page_id := TID.get_segment_page_id tid
  let slot_id := TID.get_slot tid
  let page := s.pages page_id
  let slot := page.slots slot_id
  if Slot.is_redirect slot = false then
    dropTarget s page_id slot_id
  else
    let redirect_target_tid := readTID page (Slot.get_offset slot)
    match dropTarget s page_id slot_id with
    | none => none
    | some s1 =>
      let target_id := TID.get_segment_page_id redirect_target_tid
      let target_slot_id := TID.get_slot redirect_target_tid
      if targetChecked (s1.pages target_id) target_slot_id tid then
        dropTarget s1 target_id target_slot_id
      else none

/-- The calls a client of the segment makes. -/
inductive Call where
  | allocate (required_space : Nat)
  | write (tid : Nat) (record : List Nat)
  | resize (tid new_size : Nat)
  | erase (tid : Nat)

/-- A TID that names a record: a slot of the slot array of an allocated page
that is not empty. -/
def names (s : Segments) (tid : Nat) : Bool :=
  decide (TID.get_segment_page_id tid < s.allocated_slotted_pages) &&
  decide (TID.get_slot tid < (s.pages (TID.get_segment_page_id tid)).header.slot_count) &&
  !Slot.is_empty ((s.pages (TID.get_segment_page_id tid)).slots (TID.get_slot tid))

/-- One call with a TID that names a record; `none` when an assertion fails. -/
def step (sort : Sorter) (s : Segments) : Call → Option Segments
  | Call.allocate required_space => (allocate sort s required_space).map (fun r => r.1)
  | Call.write tid record => if names s tid then write s tid record else none
  | Call.resize tid new_size => if names s tid then resize sort s tid new_size else none
  | Call.erase tid => if names s tid then erase s tid else none

/-- A sequence of calls none of which fails an assertion. -/
def run (sort : Sorter) (s : Segments) : List Call → Option Segments
  | [] => some s
  | c :: rest =>
    match step sort s c with
    | none => none
    | some s1 => run sort s1 rest

/-- Two records fill page 0 of a segment with pages of 64 bytes; the first
(TID 0) is written and then resized so that it has to move to page 1. -/
def redirectingCalls : List Call :=
  [Call.allocate 10, Call.allocate 20, Call.write 0 [1, 2, 3, 4, 5, 6, 7, 8, 9, 10],
    Call.resize 0 20]

/-- The segment after `redirectingCalls`. -/
def redirectedSegments : Segments :=
  (run insertionSorter (init 64) redirectingCalls).getD (init 64)

/-- The segment after `redirectingCalls` and a second `resize` of TID 0, to 30 bytes. -/
def regrownSegments : Segments :=
  (run insertionSorter redirectedSegments [Call.resize 0 30]).getD (init 64)

end SPSegment

namespace SPSegment

open SlottedPage

/-- The segment after `redirectingCalls` and a second `resize` of TID 0 to the
same 20 bytes. -/
def resizedAgain : Segments :=
  (run insertionSorter redirectedSegments [Call.resize 0 20]).getD (init 64)

end SPSegment

namespace TID

/-- The method `TID::get_page_id(segment_id)`; `segment_id` is a `uint16_t`. -/
def get_page_id (value segment_id : Nat) : Nat := (value >>> 16) ^^^ ((segment_id % 2 ^ 16) <<< 48)

end TID

namespace SlottedPage

/-- The method `Slot::as_redirect_tid`: the slot word read as the value of a `TID`. -/
def Slot.as_redirect_tid (value : Nat) : Nat := value

end SlottedPage

namespace FSISegment

/-- The page id `find` hands out for the segment page id `target`: the id of
the segment of slotted pages, a `uint16_t`, in the upper 16 bits (the last line
of `get_target_page` and the value of the miss branch). -/
def target_page_id (sp_segment target : Nat) : Nat := ((sp_segment % 2 ^ 16) <<< 48) ^^^ target

end FSISegment

namespace SPSegment

open SlottedPage

/-- The segment after `redirectingCalls` and a `resize` of TID 0 from 20 to 18 bytes. -/
def shrunkSegments : Segments :=
  (run insertionSorter redirectedSegments [Call.resize 0 18]).getD (init 64)

end SPSegment

namespace FSISegment

/-- What a call `find(required)` that found page `target` did to the state `s`:
only the entry of `target` changed, from one that decodes to at least
`required` to the code of what is left. -/
def Found (s s1 : Segments) (target required : Nat) : Prop :=
  s1.pages = s.pages ∧ s1.page_size = s.page_size ∧
    s1.allocated_slotted_pages = s.allocated_slotted_pages ∧
    s1.allocated_fsi_pages = s.allocated_fsi_pages ∧
    required ≤ decode_free_space s.page_size (entry s target) ∧
    entry s1 target =
      encode_free_space s.page_size (decode_free_space s.page_size (entry s target) - required) ∧
    (∀ n, n ≠ target → entry s1 n = entry s n) ∧ (∀ pg i, s1.fsi pg i < 256)

end FSISegment

namespace SPSegment

open SlottedPage

/-- What every reachable state of the two segments satisfies, for pages of `P`
bytes: each allocated page keeps the page invariant, the entry of the inventory
for it decodes to at most its `free_space`, the bytes of the inventory are
bytes, and the pages of the inventory allocated so far reach beyond the
allocated slotted pages. -/
structure SegInv (P : Nat) (s : Segments) : Prop where
  size : s.page_size = P
  pages : ∀ n, n < s.allocated_slotted_pages → Inv P (s.pages n)
  fsi : ∀ n, n < s.allocated_slotted_pages →
    FSISegment.decode_free_space P (FSISegment.entry s n) ≤ (s.pages n).header.free_space
  bytes : ∀ pg i, s.fsi pg i < 256
  cover : s.allocated_slotted_pages < 2 * P * s.allocated_fsi_pages
  fsi_pages : s.allocated_fsi_pages ≤ s.allocated_slotted_pages

end SPSegment

/-! ## B+ tree (`task-btree/include/moderndbs/btree.h`)

`BTree<uint64_t, uint64_t, std::less<uint64_t>, PageSize>` over the buffer
manager of `task-btree/src/buffer_manager.cc`, which keeps every page it was
asked for in a map, hands out a zero-filled page for a new page id and does
nothing on `unfix_page`. A failing `assert` is `none`. -/

/-- A page seen as `Node`, `InnerNode` or `LeafNode`: the header and the arrays
`keys`, `children` (inner node) and `values` (leaf node). -/
structure BTree.Node where
  level : Nat
  count : Nat
  keys : Nat → Nat
  children : Nat → Nat
  values : Nat → Nat

/-- The members `root` and `next_page_id` and the pages of the buffer manager. -/
structure BTree where
  root : Option Nat
  next_page_id : Nat
  pages : Nat → BTree.Node

namespace BTree

/-- Arithmetic of `uint16_t`. -/
def u16 (x : Nat) : Nat := x % 2 ^ 16

/-- The expression `x - 1` for a `uint32_t` value `x`, as in `kCapacity - 1`:
it wraps to `2^32 - 1` when `x` is 0. -/
def pred32 (x : Nat) : Nat := if x = 0 then 4294967295 else x - 1

/-- Arithmetic of `uint64_t`. -/
def u64 (x : Nat) : Nat := x % 2 ^ 64

/-- The zero-filled page `fix_page` hands out for a new page id. -/
def zeroNode : Node :=
  { level := 0, count := 0, keys := fun _ => 0, children := fun _ => 0, values := fun _ => 0 }

/-- The method `Node::is_leaf`. -/
def Node.is_leaf (n : Node) : Bool := n.level == 0

/-- The assignment `a[i] = v`. -/
def write (a : Nat → Nat) (i v : Nat) : Nat → Nat := fun j => if j = i then v else a j

/-- The call `std::memmove(&a[dst], &a[src], n * sizeof(uint64_t))`. -/
def memmove (a : Nat → Nat) (dst src n : Nat) : Nat → Nat :=
  fun i => if dst ≤ i ∧ i < dst + n then a (src + (i - dst)) else a i

/-- The call `std::memcpy(other.data(), &a[src], n * sizeof(uint64_t))`. -/
def memcpy (other a : Nat → Nat) (src n : Nat) : Nat → Nat :=
  fun i => if i < n then a (src + i) else other i

/-- The loop `while (cnt > 0)` of both `lower_bound` methods; the first
argument bounds the number of iterations, `cnt` shrinks in each. -/
def lowerBoundLoop (keys : Nat → Nat) (to_find_key : Nat) : Nat → Nat → Nat → Nat
  | 0, first, _ => first
  | fuel + 1, first, cnt =>
    if cnt > 0 then
      let step := cnt / 2
      let idx := first + step
      if keys idx < to_find_key then
        lowerBoundLoop keys to_find_key fuel (idx + 1) (cnt - (step + 1))
      else lowerBoundLoop keys to_find_key fuel first step
    else first

namespace InnerNode

/-- The constant `InnerNode::kCapacity`, with `SIZE = 8` and eight-byte keys.
A page of less than 8 bytes cannot hold the header of a node: the capacity is
0 there, and no call gets as far as an inner node. -/
def kCapacity (PageSize : Nat) : Nat := (PageSize - 8) / 16

/-- The method `InnerNode::is_full`. -/
def is_full (PageSize : Nat) (n : Node) : Bool := n.count == kCapacity PageSize

/-- The method `InnerNode::lower_bound`: the last key is not considered. -/
def lower_bound (PageSize : Nat) (n : Node) (to_find_key : Nat) : Option (Nat × Bool) :=
  if n.count ≤ kCapacity PageSize then
    if n.count = 0 then some (0, false)
    else
      let first := lowerBoundLoop n.keys to_find_key (n.count - 1) 0 (n.count - 1)
      some (first, decide (first < n.count) && (n.keys first == to_find_key))
  else none

/-- The method `InnerNode::lookup`. -/
def lookup (PageSize : Nat) (n : Node) (key : Nat) : Option Nat :=
  if n.count ≥ 2 ∧ n.count ≤ kCapacity PageSize then
    match lower_bound PageSize n key with
    | none => none
    | some (index, _) =>
      some (if index = n.count then n.children (index - 1) else n.children index)
  else none

/-- The method `InnerNode::init_insert`. -/
def init_insert (n : Node) (key left_page_id right_page_id : Nat) : Option Node :=
  if n.count = 0 then
    some { n with
      children := write (write n.children 0 left_page_id) 1 right_page_id,
      keys := write (write n.keys 0 key) 1 key,
      count := 2 }
  else none

/-- The method `InnerNode::insert`. -/
def insert (PageSize : Nat) (n : Node) (key left_page_id right_page_id : Nat) : Option Node :=
  if is_full PageSize n = false ∧ n.count ≥ 2 ∧ n.count ≤ pred32 (kCapacity PageSize) then
    match lower_bound PageSize n key with
    | none => none
    | some (index, found) =>
      if found = false ∧ index ≤ n.count - 1 ∧ n.children index = left_page_id then
        if index = n.count - 1 then
          some { n with
            keys := write (write n.keys index key) (index + 1) key,
            children := write n.children (index + 1) right_page_id,
            count := u16 (n.count + 1) }
        else
          let num_to_copy := n.count - 1 - index
          let keys1 := memmove n.keys (index + 1) index (num_to_copy + 1)
          let children1 := memmove n.children (index + 2) (index + 1) num_to_copy
          some { n with
            children := write children1 (index + 1) right_page_id,
            keys := write keys1 index key,
            count := u16 (n.count + 1) }
      else none
  else none

/-- The method `InnerNode::split`: this node, the node in `buffer` and the
separator. The count of the other node is the difference taken in `int` and
stored in a `uint16_t`, which wraps for a node without children. -/
def split (PageSize : Nat) (n other : Node) : Option (Node × Node × Nat) :=
  if n.count ≥ pred32 (kCapacity PageSize) then
    let separator := n.keys ((n.count - 1) / 2)
    let other_count := u16 (n.count + 2 ^ 16 - ((n.count - 1) / 2 + 1))
    let this_count := u16 ((n.count - 1) / 2 + 1)
    let other1 : Node :=
      { other with
        count := other_count,
        keys := memcpy other.keys n.keys this_count other_count,
        children := memcpy other.children n.children this_count other_count }
    if n.keys (this_count - 1) = separator then
      some ({ n with count := this_count }, other1, separator)
    else none
  else none

end InnerNode

namespace LeafNode

/-- The constant `LeafNode::kCapacity`, with `sizeof(Node) = 4`,
`sizeof(std::optional<uint64_t>) = 16` and eight-byte keys and values. A page
of less than 20 bytes cannot hold a leaf, whose arrays would lie outside the
page: the capacity is 0 there, so that the first `insert` fails. -/
def kCapacity (PageSize : Nat) : Nat := (PageSize - 4 - 16) / 16

/-- The method `LeafNode::is_full`. -/
def is_full (PageSize : Nat) (n : Node) : Bool := n.count == kCapacity PageSize

/-- The method `LeafNode::lower_bound`. -/
def lower_bound (n : Node) (to_find_key : Nat) : Nat × Bool :=
  if n.count = 0 then (0, false)
  else
    let first := lowerBoundLoop n.keys to_find_key n.count 0 n.count
    (first, decide (first < n.count) && (n.keys first == to_find_key))

/-- The method `LeafNode::lookup`. -/
def lookup (n : Node) (key : Nat) : Option Nat :=
  let r := lower_bound n key
  if r.2 = true ∧ n.keys r.1 = key then some (n.values r.1) else none

/-- The method `LeafNode::insert`. -/
def insert (PageSize : Nat) (n : Node) (key value : Nat) : Option Node :=
  if is_full PageSize n = false then
    if n.count = 0 then
      some { n with keys := write n.keys 0 key, values := write n.values 0 value,
                    count := u16 (n.count + 1) }
    else
      let r := lower_bound n key
      if r.2 = true then some { n with values := write n.values r.1 value }
      else if n.count ≥ r.1 then
        let num_to_copy := n.count - r.1
        let values1 := memmove n.values (r.1 + 1) r.1 num_to_copy
        let keys1 := memmove n.keys (r.1 + 1) r.1 num_to_copy
        some { n with keys := write keys1 r.1 key, values := write values1 r.1 value,
                      count := u16 (n.count + 1) }
      else none
  else none

/-- The method `LeafNode::erase`. -/
def erase (n : Node) (key : Nat) : Option Node :=
  if n.count = 0 then some n
  else
    let r := lower_bound n key
    if r.2 = false then some n
    else if n.count - 1 ≥ r.1 then
      let num_to_copy := (n.count - 1) - r.1
      some { n with
        values := memmove n.values r.1 (r.1 + 1) num_to_copy,
        keys := memmove n.keys r.1 (r.1 + 1) num_to_copy,
        count := u16 (n.count - 1) }
    else none

/-- The method `LeafNode::split`: this node, the node in `buffer` and the
separator. The count of the other node is the difference taken in `int` and
stored in a `uint16_t`, which wraps for an empty leaf. -/
def split (PageSize : Nat) (n other : Node) : Option (Node × Node × Nat) :=
  if n.count ≥ pred32 (kCapacity PageSize) then
    let separator := n.keys (n.count / 2)
    let other_count := u16 (n.count + 2 ^ 16 - (n.count / 2 + 1))
    let this_count := u16 (n.count / 2 + 1)
    let other1 : Node :=
      { other with
        count := other_count,
        keys := memcpy other.keys n.keys this_count other_count,
        values := memcpy other.values n.values this_count other_count }
    some ({ n with count := this_count }, other1, separator)
  else none

end LeafNode

/-- The enumeration `TraversalType`. -/
inductive TraversalType where
  | Insert
  | Erase
  | Lookup
  deriving DecidableEq

/-- Write through the frame of page `page_id`. -/
def setPage (t : BTree) (page_id : Nat) (n : Node) : BTree :=
  { t with pages := fun i => if i = page_id then n else t.pages i }

/-- The constructor `BTree(segment_id, buffer_manager)` on a fresh buffer manager. -/
def init (segment_id : Nat) : BTree :=
  { root := none, next_page_id := u64 (u16 segment_id <<< 48), pages := fun _ => zeroNode }

/-- Steps 2.5.1 to 2.6 of `get_leaf_page` for `Insert`: a child that is not
safe is split and the separator goes into the parent; the state and the child
to go on with. -/
def splitChild (PageSize : Nat) (t : BTree) (key parent_id child_page_id : Nat) :
    Option (BTree × Nat) :=
  let child_inner_node := t.pages child_page_id
  if child_inner_node.count ≥ pred32 (InnerNode.kCapacity PageSize) then
    let new_inner_page_id := t.next_page_id
    let t1 : BTree := { t with next_page_id := u64 (t.next_page_id + 1) }
    let new_inner_node : Node :=
      { t1.pages new_inner_page_id with level := child_inner_node.level }
    match InnerNode.split PageSize child_inner_node new_inner_node with
    | none => none
    | some (child1, new1, separator_key) =>
      if child1.count < pred32 (InnerNode.kCapacity PageSize) ∧
          new1.count < pred32 (InnerNode.kCapacity PageSize) then
        let t2 := (t1.setPage new_inner_page_id new1).setPage child_page_id child1
        let parent_inner_node := t2.pages parent_id
        if parent_inner_node.count < InnerNode.kCapacity PageSize ∧
            parent_inner_node.count ≥ 2 then
          match InnerNode.insert PageSize parent_inner_node separator_key child_page_id
              new_inner_page_id with
          | none => none
          | some parent1 =>
            let t3 := t2.setPage parent_id parent1
            let chosen := if separator_key < key then new_inner_page_id else child_page_id
            if (t3.pages chosen).count < pred32 (InnerNode.kCapacity PageSize) then
              some (t3, chosen)
            else none
        else none
      else none
  else
    if child_inner_node.count < pred32 (InnerNode.kCapacity PageSize) then some (t, child_page_id)
    else none

/-- The loop `while (!child_node->is_leaf())` of `get_leaf_page` and the
asserts behind it; the first argument bounds the number of iterations, the
level shrinks in each. The result is the state, the parent and the leaf. -/
def descend (PageSize : Nat) (key : Nat) (traversal_type : TraversalType) :
    Nat → BTree → Nat → Nat → Option (BTree × Nat × Nat)
  | 0, t, parent_id, child_page_id =>
    if (t.pages child_page_id).is_leaf = true ∧ (t.pages parent_id).level = 1 ∧
        (t.pages child_page_id).level = 0 then
      some (t, parent_id, child_page_id)
    else none
  | fuel + 1, t, parent_id, child_page_id =>
    if (t.pages child_page_id).is_leaf = true then
      if (t.pages parent_id).level = 1 ∧ (t.pages child_page_id).level = 0 then
        some (t, parent_id, child_page_id)
      else none
    else
      match (if traversal_type = TraversalType.Insert
          then splitChild PageSize t key parent_id child_page_id
          else some (t, child_page_id)) with
      | none => none
      | some (t1, chosen) =>
        match InnerNode.lookup PageSize (t1.pages chosen) key with
        | none => none
        | some next_child =>
          if (t1.pages next_child).level = (t1.pages chosen).level - 1 then
            descend PageSize key traversal_type fuel t1 chosen next_child
          else none

/-- Steps 2.3 and 2.4 of `get_leaf_page` for `Insert`: a root that is not safe
is split and a new root made; the state and the node to go on with. -/
def splitRoot (PageSize : Nat) (t : BTree) (key parent_id : Nat) : Option (BTree × Nat) :=
  let parent_inner_node := t.pages parent_id
  if parent_inner_node.count ≥ pred32 (InnerNode.kCapacity PageSize) then
    let new_inner_page_id := t.next_page_id
    let t1 : BTree := { t with next_page_id := u64 (t.next_page_id + 1) }
    let new_inner_node : Node :=
      { t1.pages new_inner_page_id with level := parent_inner_node.level }
    match InnerNode.split PageSize parent_inner_node new_inner_node with
    | none => none
    | some (parent1, new1, separator_key) =>
      if parent1.count < pred32 (InnerNode.kCapacity PageSize) ∧
          new1.count < pred32 (InnerNode.kCapacity PageSize) then
        let t2 := (t1.setPage new_inner_page_id new1).setPage parent_id parent1
        let new_root_id := t2.next_page_id
        let t3 : BTree :=
          { t2 with root := some new_root_id, next_page_id := u64 (t2.next_page_id + 1) }
        if new_root_id ≠ parent_id then
          let new_root_node : Node :=
            { t3.pages new_root_id with level := u16 (parent1.level + 1) }
          match InnerNode.init_insert new_root_node separator_key parent_id
              new_inner_page_id with
          | none => none
          | some root1 =>
            if root1.count = 2 then
              let t4 := t3.setPage new_root_id root1
              let chosen := if separator_key < key then new_inner_page_id else parent_id
              if (t4.pages chosen).count < pred32 (InnerNode.kCapacity PageSize) then
                some (t4, chosen)
              else none
            else none
        else none
      else none
  else
    if parent_inner_node.count < pred32 (InnerNode.kCapacity PageSize) then some (t, parent_id)
    else none

/-- The method `get_leaf_page`: the state, the parent page and the leaf page. -/
def get_leaf_page (PageSize : Nat) (t : BTree) (key : Nat) (traversal_type : TraversalType) :
    Option (BTree × Nat × Nat) :=
  match t.root with
  | none => none
  | some root =>
    if (t.pages root).is_leaf = true then some (t, root, root)
    else
      match (if traversal_type = TraversalType.Insert then splitRoot PageSize t key root
          else some (t, root)) with
      | none => none
      | some (t1, parent_id) =>
        match InnerNode.lookup PageSize (t1.pages parent_id) key with
        | none => none
        | some child_page_id =>
          if (t1.pages child_page_id).level = (t1.pages parent_id).level - 1 then
            descend PageSize key traversal_type (t1.pages parent_id).level t1 parent_id
              child_page_id
          else none

/-- The method `lookup(key)`; the outer `none` is a failed assertion. -/
def lookup (PageSize : Nat) (t : BTree) (key : Nat) : Option (Option Nat) :=
  match t.root with
  | none => some none
  | some _ =>
    match get_leaf_page PageSize t key TraversalType.Lookup with
    | none => none
    | some (t1, _, leaf_page) =>
      if (t1.pages leaf_page).is_leaf = true then some (LeafNode.lookup (t1.pages leaf_page) key)
      else none

/-- The method `erase(key)`. -/
def erase (PageSize : Nat) (t : BTree) (key : Nat) : Option BTree :=
  match t.root with
  | none => some t
  | some _ =>
    match get_leaf_page PageSize t key TraversalType.Erase with
    | none => none
    | some (t1, _, leaf_page) =>
      if (t1.pages leaf_page).is_leaf = true then
        match LeafNode.erase (t1.pages leaf_page) key with
        | none => none
        | some leaf1 => some (t1.setPage leaf_page leaf1)
      else none

/-- Step 2.1 of `insert`: the full leaf is split, the separator goes into the
parent or a new root, and the key into one of the halves. -/
def splitLeaf (PageSize : Nat) (t : BTree) (key value parent_page leaf_page : Nat) :
    Option BTree :=
  let leaf_node := t.pages leaf_page
  let new_leaf_page_id := t.next_page_id
  let t1 : BTree := { t with next_page_id := u64 (t.next_page_id + 1) }
  let new_leaf_node : Node := { t1.pages new_leaf_page_id with level := 0 }
  match LeafNode.split PageSize leaf_node new_leaf_node with
  | none => none
  | some (leaf1, new1, separator_key) =>
    if leaf1.count < LeafNode.kCapacity PageSize ∧ new1.count < LeafNode.kCapacity PageSize then
      let t2 := (t1.setPage new_leaf_page_id new1).setPage leaf_page leaf1
      let t4 : Option BTree :=
        if parent_page = leaf_page then
          if t2.root = some leaf_page then
            let new_root_id := t2.next_page_id
            let t3 : BTree :=
              { t2 with root := some new_root_id, next_page_id := u64 (t2.next_page_id + 1) }
            let new_root_node : Node := { t3.pages new_root_id with level := 1 }
            match InnerNode.init_insert new_root_node separator_key leaf_page
                new_leaf_page_id with
            | none => none
            | some root1 =>
              if root1.count = 2 then some (t3.setPage new_root_id root1) else none
          else none
        else
          let parent_inner_node := t2.pages parent_page
          if parent_inner_node.level = 1 ∧ parent_inner_node.count ≥ 2 then
            match InnerNode.insert PageSize parent_inner_node separator_key leaf_page
                new_leaf_page_id with
            | none => none
            | some parent1 => some (t2.setPage parent_page parent1)
          else none
      match t4 with
      | none => none
      | some t5 =>
        let target := if separator_key < key then new_leaf_page_id else leaf_page
        match LeafNode.insert PageSize (t5.pages target) key value with
        | none => none
        | some target1 => some (t5.setPage target target1)
    else none

/-- Step 2 of `insert` behind `get_leaf_page`: the key goes into the leaf, which
is split first when it is full. -/
def insertAtLeaf (PageSize : Nat) (t1 : BTree) (key value parent_page leaf_page : Nat) :
    Option BTree :=
  let leaf_node := t1.pages leaf_page
  if leaf_node.is_leaf = true ∧ leaf_node.level = 0 then
    if leaf_node.count = LeafNode.kCapacity PageSize then
      splitLeaf PageSize t1 key value parent_page leaf_page
    else
      match LeafNode.insert PageSize leaf_node key value with
      | none => none
      | some leaf1 => some (t1.setPage leaf_page leaf1)
  else none

/-- The method `insert(key, value)`. -/
def insert (PageSize : Nat) (t : BTree) (key value : Nat) : Option BTree :=
  match t.root with
  | none =>
    let root := t.next_page_id
    let t1 : BTree := { t with root := some root, next_page_id := u64 (t.next_page_id + 1) }
    let root_node : Node := { t1.pages root with level := 0 }
    match LeafNode.insert PageSize root_node key value with
    | none => none
    | some root1 => some (t1.setPage root root1)
  | some _ =>
    match get_leaf_page PageSize t key TraversalType.Insert with
    | none => none
    | some (t1, parent_page, leaf_page) =>
      insertAtLeaf PageSize t1 key value parent_page leaf_page

/-- The calls a client of the tree makes. -/
inductive Call where
  | insert (key value : Nat)
  | erase (key : Nat)

/-- One call; `none` when an assertion fails. -/
def step (PageSize : Nat) (t : BTree) : Call → Option BTree
  | Call.insert key value => insert PageSize t key value
  | Call.erase key => erase PageSize t key

/-- A sequence of calls none of which fails an assertion. -/
def run (PageSize : Nat) (t : BTree) : List Call → Option BTree
  | [] => some t
  | c :: rest =>
    match step PageSize t c with
    | none => none
    | some t1 => run PageSize t1 rest

/-- What the claim says `lookup(key)` returns after the calls, read from the
most recent call backwards: the value of the last `insert(key, v)`, unless an
`erase(key)` follows it. -/
def lastInsertBack (key : Nat) : List Call → Option Nat
  | [] => none
  | Call.insert k v :: older => if k = key then some v else lastInsertBack key older
  | Call.erase k :: older => if k = key then none else lastInsertBack key older

/-- The value of the last `insert(key, v)` in `calls` that no `erase(key)` follows. -/
def lastInsert (key : Nat) (calls : List Call) : Option Nat := lastInsertBack key calls.reverse

/-- The level of the root page, 0 for the empty tree. -/
def rootLevel (t : BTree) : Nat :=
  match t.root with
  | none => 0
  | some root => (t.pages root).level

/-- Neither `level + 1` of a new root nor the `next_page_id++` of one more
`insert` overflow in state `t`. -/
def fits (t : BTree) : Bool :=
  decide (rootLevel t + 1 < 2 ^ 16) && decide (t.next_page_id + rootLevel t + 3 ≤ 2 ^ 64)

/-- The keys of the calls are `uint64_t` values. -/
def keysFit : List Call → Bool
  | [] => true
  | Call.insert key _ :: rest => decide (key < 2 ^ 64) && keysFit rest
  | Call.erase key :: rest => decide (key < 2 ^ 64) && keysFit rest

end BTree

namespace BTree

/-- A full leaf of a page of 84 bytes (capacity 4): keys 1, 3, 5, 7 with values 100 to 103. -/
def sampleLeaf : Node :=
  { level := 0, count := 4, keys := fun i => 2 * i + 1, children := fun _ => 0,
    values := fun i => i + 100 }

/-- An inner node of level 1 of a page of 88 bytes (capacity 5) with five
children 10 to 14 and the keys 1, 3, 5, 7 (the fifth key is the unused one). -/
def sampleInner : Node :=
  { level := 1, count := 5, keys := fun i => 2 * i + 1, children := fun i => i + 10,
    values := fun _ => 0 }

end BTree

namespace BTree

/-- The first `n` keys are strictly increasing. -/
def Sorted (keys : Nat → Nat) (n : Nat) : Prop := ∀ i j, i < j → j < n → keys i < keys j

/-- A leaf page that holds exactly the entries of the map `m` with keys in `[lo, hi)`. -/
structure LeafOK (P : Nat) (n : Node) (lo hi : Nat) (m : Nat → Option Nat) : Prop where
  level : n.level = 0
  count : n.count ≤ LeafNode.kCapacity P
  sorted : Sorted n.keys n.count
  range : ∀ i, i < n.count → lo ≤ n.keys i ∧ n.keys i < hi
  holds : ∀ i, i < n.count → m (n.keys i) = some (n.values i)
  only : ∀ k, lo ≤ k → k < hi → (∀ i, i < n.count → n.keys i ≠ k) → m k = none

/-- The lower end of the key range of child `i` of an inner node with range `[lo, hi)`. -/
def childLo (n : Node) (lo i : Nat) : Nat := if i = 0 then lo else n.keys (i - 1) + 1

/-- The upper end of the key range of child `i` of an inner node with range `[lo, hi)`. -/
def childHi (n : Node) (hi i : Nat) : Nat := if i + 1 = n.count then hi else n.keys i + 1

/-- An inner page of the given level for the key range `[lo, hi)`: at least two
children, one slot to spare, separators increasing and inside the range; the
key behind the last separator is stale and not a key a child could send up. -/
structure InnerOK (P : Nat) (n : Node) (level lo hi : Nat) : Prop where
  level : n.level = level
  count_lo : 2 ≤ n.count
  count_hi : n.count + 1 ≤ InnerNode.kCapacity P
  sorted : Sorted n.keys (n.count - 1)
  range : ∀ i, i + 1 < n.count → lo ≤ n.keys i ∧ n.keys i + 1 < hi
  stale : n.keys (n.count - 1) ≤ n.keys (n.count - 2) ∨ hi ≤ n.keys (n.count - 1) + 1

/-- Page `q` belongs to the subtree of the given level rooted at page `pid`. -/
def Owns (pages : Nat → Node) : Nat → Nat → Nat → Prop
  | 0, pid, q => q = pid
  | l + 1, pid, q =>
    q = pid ∨ ∃ i, i < (pages pid).count ∧ Owns pages l ((pages pid).children i) q

/-- The subtree of the given level rooted at page `pid` is a B+ tree for the
entries of `m` with keys in `[lo, hi)`; no page occurs twice in it. -/
def WF (P : Nat) (pages : Nat → Node) (m : Nat → Option Nat) : Nat → Nat → Nat → Nat → Prop
  | 0, pid, lo, hi => LeafOK P (pages pid) lo hi m
  | l + 1, pid, lo, hi =>
    InnerOK P (pages pid) (l + 1) lo hi ∧
    (∀ i, i < (pages pid).count →
      WF P pages m l ((pages pid).children i) (childLo (pages pid) lo i)
        (childHi (pages pid) hi i)) ∧
    (∀ i, i < (pages pid).count → ¬ Owns pages l ((pages pid).children i) pid) ∧
    (∀ i j, i < j → j < (pages pid).count → ∀ q,
      Owns pages l ((pages pid).children i) q → ¬ Owns pages l ((pages pid).children j) q)

/-- Going down `d` levels from page `pid` with range `[lo, up)` towards `key`
ends at page `tgt` with range `[tlo, tup)`. -/
def PathTo (pages : Nat → Node) (key : Nat) : Nat → Nat → Nat → Nat → Nat → Nat → Nat → Prop
  | 0, pid, lo, up, tgt, tlo, tup => pid = tgt ∧ lo = tlo ∧ up = tup
  | d + 1, pid, lo, up, tgt, tlo, tup =>
    ∃ i, i < (pages pid).count ∧ childLo (pages pid) lo i ≤ key ∧
      key < childHi (pages pid) up i ∧
      PathTo pages key d ((pages pid).children i) (childLo (pages pid) lo i)
        (childHi (pages pid) up i) tgt tlo tup

/-- The state `t` is a B+ tree for the map `m`: the pages from `next_page_id`
on are untouched, the pages of the tree lie below. -/
structure TreeInv (P : Nat) (t : BTree) (m : Nat → Option Nat) : Prop where
  fresh : ∀ q, t.next_page_id ≤ q → t.pages q = zeroNode
  empty : t.root = none → ∀ k, m k = none
  tree : ∀ r, t.root = some r → WF P t.pages m (t.pages r).level r 0 (2 ^ 64)
  below : ∀ r, t.root = some r → ∀ q, Owns t.pages (t.pages r).level r q → q < t.next_page_id
  beyond : ∀ k, 2 ^ 64 ≤ k → m k = none

end BTree

namespace BTree

end BTree

namespace BTree

/-- The map a call makes of the map `m`: `insert` sets the entry of its key,
`erase` removes it. -/
def applyCall (c : Call) (m : Nat → Option Nat) : Nat → Option Nat :=
  match c with
  | Call.insert key value => fun k => if k = key then some value else m k
  | Call.erase key => fun k => if k = key then none else m k

/-- The map after a sequence of calls, from the map `m`. -/
def mapAfter (m : Nat → Option Nat) (calls : List Call) : Nat → Option Nat :=
  calls.foldl (fun m c => applyCall c m) m

/-- No counter overflows while the calls run from state `t`: every state an
`insert` or `erase` starts from satisfies `fits`. -/
def fitsRun (PageSize : Nat) (t : BTree) : List Call → Bool
  | [] => true
  | c :: rest =>
    fits t &&
      match step PageSize t c with
      | none => true
      | some t1 => fitsRun PageSize t1 rest

/-- A bound on the page ids `n` further calls can take from a tree of level
`L`: an `insert` takes at most `level + 2` pages and raises the level by at
most one; the last summand is the room `fits` asks for. -/
def growth (L n : Nat) : Nat := n * (L + n + 2) + L + 3

/-- Page `q` is a node of the tree. -/
def inTree (t : BTree) (q : Nat) : Prop :=
  match t.root with
  | none => False
  | some root => Owns t.pages (t.pages root).level root q

/-- Five inserts into the empty tree with pages of 88 bytes (leaf capacity 4,
inner capacity 5): the fifth splits the root leaf. -/
def splitCalls : List Call :=
  [Call.insert 1 10, Call.insert 2 20, Call.insert 3 30, Call.insert 4 40, Call.insert 5 50]

/-- The tree after `splitCalls`. -/
def splitTree : BTree := (run 88 (init 0) splitCalls).getD (init 0)

/-- Inserts, an overwriting insert and erases of a present and an absent key. -/
def mixedCalls : List Call :=
  splitCalls ++ [Call.erase 2, Call.insert 3 33, Call.erase 7]

/-- The tree after `mixedCalls`. -/
def mixedTree : BTree := (run 88 (init 0) mixedCalls).getD (init 0)

end BTree

namespace BTree

/-- Six inserts into the empty tree with pages of 72 bytes (leaf capacity 3,
inner capacity 4): the fourth and the sixth split a leaf, which leaves a root
with three children. -/
def ascendingCalls : List Call :=
  [Call.insert 1 10, Call.insert 2 20, Call.insert 3 30, Call.insert 4 40, Call.insert 5 50,
    Call.insert 6 60]

/-- The tree after `ascendingCalls`. -/
def ascendingTree : BTree := (run 72 (init 0) ascendingCalls).getD (init 0)

/-- The six inserts of `ascendingCalls` and an insert of key 0, with pages of
72 bytes: the seventh insert splits the root into a node with two children and
a node with one child and goes on in the former. -/
def lopsidedCalls : List Call := ascendingCalls ++ [Call.insert 0 5]

/-- The tree after `lopsidedCalls`. -/
def lopsidedTree : BTree := (run 72 (init 0) lopsidedCalls).getD (init 0)

end BTree

namespace BTree

/-- A call of the tree on the buffer manager: `fix_page(page_id, exclusive)`,
or `unfix_page(page, is_dirty)` with the page id of the frame passed. -/
inductive PageCall where
  | fix (page_id : Nat) (exclusive : Bool)
  | unfix (page_id : Nat) (is_dirty : Bool)
  deriving DecidableEq

namespace PageCall

/-- The call is `fix_page` on page `page_id`. -/
def isFix (page_id : Nat) : PageCall → Bool
  | fix p _ => p == page_id
  | unfix _ _ => false

/-- The call is `unfix_page` on the frame of page `page_id`. -/
def isUnfix (page_id : Nat) : PageCall → Bool
  | fix _ _ => false
  | unfix p _ => p == page_id

end PageCall

/-- The number of `fix_page` calls on page `page_id`. -/
def fixes (calls : List PageCall) (page_id : Nat) : Nat :=
  (calls.filter (PageCall.isFix page_id)).length

/-- The number of `unfix_page` calls on the frame of page `page_id`. -/
def unfixes (calls : List PageCall) (page_id : Nat) : Nat :=
  (calls.filter (PageCall.isUnfix page_id)).length

/-- The user count `num_users` of the frame of page `page_id` after the calls
(`BufferManager::fix_page` and `unfix_page` of `task-buffer-manager`), from the
count `users`; `none` when `unfix_page` is called on a frame that has no user,
where `num_users--` wraps and the latch is unlocked without being held. -/
def usersAfter (page_id : Nat) : List PageCall → Nat → Option Nat
  | [], users => some users
  | PageCall.fix p _ :: rest, users =>
    usersAfter page_id rest (if p = page_id then users + 1 else users)
  | PageCall.unfix p _ :: rest, users =>
    if p = page_id then
      if users = 0 then none else usersAfter page_id rest (users - 1)
    else usersAfter page_id rest users

/-- The calls on the buffer manager in steps 2.3.1 to 2.3.5 of `get_leaf_page`
(a root that is not safe is split): the new inner page and the new root are
fixed, the new root is unfixed, and so is the half the traversal leaves. -/
def splitRootCalls (PageSize : Nat) (t : BTree) (key parent_id : Nat) : List PageCall :=
  let parent_inner_node := t.pages parent_id
  if parent_inner_node.count ≥ pred32 (InnerNode.kCapacity PageSize) then
    let new_inner_page_id := t.next_page_id
    let new_root_id := u64 (t.next_page_id + 1)
    let separator_key := parent_inner_node.keys ((parent_inner_node.count - 1) / 2)
    [PageCall.fix new_inner_page_id true, PageCall.fix new_root_id true,
      PageCall.unfix new_root_id true,
      if separator_key < key then PageCall.unfix parent_id true
      else PageCall.unfix new_inner_page_id true]
  else []

/-- The calls on the buffer manager in steps 2.5.1 to 2.5.7 of `get_leaf_page`
(a child that is not safe is split): the new inner page is fixed and the half
the traversal leaves is unfixed. -/
def splitChildCalls (PageSize : Nat) (t : BTree) (key child_page_id : Nat) : List PageCall :=
  let child_inner_node := t.pages child_page_id
  if child_inner_node.count ≥ pred32 (InnerNode.kCapacity PageSize) then
    let new_inner_page_id := t.next_page_id
    let separator_key := child_inner_node.keys ((child_inner_node.count - 1) / 2)
    [PageCall.fix new_inner_page_id true,
      if separator_key < key then PageCall.unfix child_page_id true
      else PageCall.unfix new_inner_page_id true]
  else []

/-- The loop `while (!child_node->is_leaf())` of `get_leaf_page` as `descend`
has it, with the calls on the buffer manager from the loop on to the `return`:
in every iteration the calls of a split, `unfix_page(*parent_page,
PARENT_PAGE_DIRTY)` (step 2.7) and the `fix_page` of the next child (step 2.9),
and behind the loop `unfix_page(*parent_page, PARENT_PAGE_DIRTY)` once more. -/
def descendCalls (PageSize : Nat) (key : Nat) (traversal_type : TraversalType) :
    Nat → BTree → Nat → Nat → Bool → Bool → Option (BTree × Nat × Nat × List PageCall)
  | 0, t, parent_id, child_page_id, parent_page_dirty, _ =>
    if (t.pages child_page_id).is_leaf = true ∧ (t.pages parent_id).level = 1 ∧
        (t.pages child_page_id).level = 0 then
      some (t, parent_id, child_page_id, [PageCall.unfix parent_id parent_page_dirty])
    else none
  | fuel + 1, t, parent_id, child_page_id, parent_page_dirty, child_fix_mode =>
    if (t.pages child_page_id).is_leaf = true then
      if (t.pages parent_id).level = 1 ∧ (t.pages child_page_id).level = 0 then
        some (t, parent_id, child_page_id, [PageCall.unfix parent_id parent_page_dirty])
      else none
    else
      let splits : Bool := decide (traversal_type = TraversalType.Insert) &&
        decide ((t.pages child_page_id).count ≥ pred32 (InnerNode.kCapacity PageSize))
      match (if traversal_type = TraversalType.Insert
          then splitChild PageSize t key parent_id child_page_id
          else some (t, child_page_id)) with
      | none => none
      | some (t1, chosen) =>
        match InnerNode.lookup PageSize (t1.pages chosen) key with
        | none => none
        | some next_child =>
          if (t1.pages next_child).level = (t1.pages chosen).level - 1 then
            let mode : Bool := child_fix_mode ||
              (decide (traversal_type = TraversalType.Erase) &&
                decide ((t1.pages chosen).level = 1))
            match descendCalls PageSize key traversal_type fuel t1 chosen next_child splits
                mode with
            | none => none
            | some (t2, parent_page, leaf_page, calls) =>
              some (t2, parent_page, leaf_page,
                (if splits = true then splitChildCalls PageSize t key child_page_id else []) ++
                  [PageCall.unfix parent_id (parent_page_dirty || splits),
                    PageCall.fix next_child mode] ++ calls)
          else none

/-- The method `get_leaf_page` as `get_leaf_page` above has it, with the calls
it makes on the buffer manager. -/
def getLeafPageCalls (PageSize : Nat) (t : BTree) (key : Nat) (traversal_type : TraversalType) :
    Option (BTree × Nat × Nat × List PageCall) :=
  match t.root with
  | none => none
  | some root =>
    let parent_fix_mode : Bool := decide (traversal_type = TraversalType.Insert)
    if (t.pages root).is_leaf = true then
      some (t, root, root,
        PageCall.fix root parent_fix_mode ::
          (if traversal_type = TraversalType.Erase
            then [PageCall.unfix root false, PageCall.fix root true] else []))
    else
      let splits : Bool := decide (traversal_type = TraversalType.Insert) &&
        decide ((t.pages root).count ≥ pred32 (InnerNode.kCapacity PageSize))
      match (if traversal_type = TraversalType.Insert then splitRoot PageSize t key root
          else some (t, root)) with
      | none => none
      | some (t1, parent_id) =>
        match InnerNode.lookup PageSize (t1.pages parent_id) key with
        | none => none
        | some child_page_id =>
          if (t1.pages child_page_id).level = (t1.pages parent_id).level - 1 then
            let child_fix_mode : Bool :=
              match traversal_type with
              | TraversalType.Insert => true
              | TraversalType.Lookup => false
              | TraversalType.Erase => decide ((t1.pages parent_id).level = 1)
            match descendCalls PageSize key traversal_type (t1.pages parent_id).level t1
                parent_id child_page_id splits child_fix_mode with
            | none => none
            | some (t2, parent_page, leaf_page, calls) =>
              some (t2, parent_page, leaf_page,
                PageCall.fix root parent_fix_mode ::
                  ((if splits = true then splitRootCalls PageSize t key root else []) ++
                    PageCall.fix child_page_id child_fix_mode :: calls))
          else none

/-- The method `lookup(key)` with the calls it makes on the buffer manager. -/
def lookupCalls (PageSize : Nat) (t : BTree) (key : Nat) :
    Option (Option Nat × List PageCall) :=
  match t.root with
  | none => some (none, [])
  | some _ =>
    match getLeafPageCalls PageSize t key TraversalType.Lookup with
    | none => none
    | some (t1, parent_page, leaf_page, calls) =>
      if (t1.pages leaf_page).is_leaf = true then
        some (LeafNode.lookup (t1.pages leaf_page) key,
          calls ++ [PageCall.unfix parent_page false, PageCall.unfix leaf_page false])
      else none

/-- The method `erase(key)` with the calls it makes on the buffer manager. -/
def eraseCalls (PageSize : Nat) (t : BTree) (key : Nat) : Option (BTree × List PageCall) :=
  match t.root with
  | none => some (t, [])
  | some _ =>
    match getLeafPageCalls PageSize t key TraversalType.Erase with
    | none => none
    | some (t1, parent_page, leaf_page, calls) =>
      if (t1.pages leaf_page).is_leaf = true then
        match LeafNode.erase (t1.pages leaf_page) key with
        | none => none
        | some leaf1 =>
          some (t1.setPage leaf_page leaf1,
            calls ++ [PageCall.unfix parent_page false, PageCall.unfix leaf_page true])
      else none

/-- The calls of `insert` on the buffer manager behind `get_leaf_page`: for a
full leaf the new leaf is fixed, a new root is fixed and unfixed or the parent
is unfixed, and both leaves are unfixed; otherwise the parent, when it is not
the leaf, and the leaf are unfixed. -/
def insertAtLeafCalls (PageSize : Nat) (t1 : BTree) (parent_page leaf_page : Nat) :
    List PageCall :=
  if (t1.pages leaf_page).count = LeafNode.kCapacity PageSize then
    let new_leaf_page_id := t1.next_page_id
    [PageCall.fix new_leaf_page_id true] ++
      (if parent_page = leaf_page then
        [PageCall.fix (u64 (t1.next_page_id + 1)) true,
          PageCall.unfix (u64 (t1.next_page_id + 1)) true]
      else [PageCall.unfix parent_page true]) ++
      [PageCall.unfix new_leaf_page_id true, PageCall.unfix leaf_page true]
  else
    (if parent_page ≠ leaf_page then [PageCall.unfix parent_page true] else []) ++
      [PageCall.unfix leaf_page true]

/-- The method `insert(key, value)` with the calls it makes on the buffer manager. -/
def insertCalls (PageSize : Nat) (t : BTree) (key value : Nat) :
    Option (BTree × List PageCall) :=
  match t.root with
  | none =>
    match insert PageSize t key value with
    | none => none
    | some t1 =>
      some (t1, [PageCall.fix t.next_page_id true, PageCall.unfix t.next_page_id true])
  | some _ =>
    match getLeafPageCalls PageSize t key TraversalType.Insert with
    | none => none
    | some (t1, parent_page, leaf_page, calls) =>
      match insertAtLeaf PageSize t1 key value parent_page leaf_page with
      | none => none
      | some t2 => some (t2, calls ++ insertAtLeafCalls PageSize t1 parent_page leaf_page)

/-- The tree with pages of 88 bytes that holds the key 1 in its root leaf. -/
def leafTree : BTree := (run 88 (init 0) [Call.insert 1 10]).getD (init 0)

end BTree

/-! ## Iterator-model operators (`task-operators/src/algebra.cc`) -/

namespace iterator_model

/-- The class `Register`: a `std::variant<int64_t, std::string>`; a string is
kept as the list of its bytes. -/
inductive Register where
  | int (value : Int)
  | str (value : List Nat)
deriving DecidableEq

/-- A tuple: the values of the registers of an operator after `next()`. -/
abbrev Tuple := List Register

/-- An input operator over a stored relation (the class `TestTupleSource` of
the tests): `tuples` are the tuples it has not produced yet, `output_regs` its
registers. Every tuple has as many values as the operator has registers. -/
structure TupleSource where
  tuples : List Tuple
  output_regs : Tuple

namespace TupleSource

/-- The operator over `tuples` after `open()`. -/
def opened (tuples : List Tuple) (arity : Nat) : TupleSource :=
  { tuples := tuples, output_regs := List.replicate arity (Register.int 0) }

/-- The method `next()`: the next tuple is written to the registers. -/
def next (s : TupleSource) : Bool × TupleSource :=
  match s.tuples with
  | [] => (false, s)
  | t :: rest => (true, { tuples := rest, output_regs := t })

/-- The method `get_output()`, as the values the returned pointers point to. -/
def get_output (s : TupleSource) : Tuple := s.output_regs

end TupleSource

/-- The reads `src_regs[i]` for `i` in a list of positions; `none` when a
position is outside the vector. -/
def readRegs (src_regs : Tuple) : List Nat → Option Tuple
  | [] => some []
  | i :: rest =>
    match src_regs[i]?, readRegs src_regs rest with
    | some r, some out => some (r :: out)
    | _, _ => none

/-- The class `Projection` over a `TupleSource`. -/
structure Projection where
  input : TupleSource
  attr_indexes : List Nat

namespace Projection

/-- The method `next()`. -/
def next (p : Projection) : Bool × Projection :=
  ((TupleSource.next p.input).1, { p with input := (TupleSource.next p.input).2 })

/-- The method `get_output()`: for every `i < attr_indexes.size()` it pushes
`src_regs[i]`. -/
def get_output (p : Projection) : Option Tuple :=
  readRegs (TupleSource.get_output p.input) (List.range p.attr_indexes.length)

/-- A consumer: `while (next())` the values of `get_output()` are collected;
`steps` bounds the number of calls of `next()`. -/
def drain : Nat → Projection → Option (List Tuple)
  | 0, _ => none
  | steps + 1, p =>
    if (next p).1 = true then
      match get_output (next p).2, drain steps (next p).2 with
      | some t, some out => some (t :: out)
      | _, _ => none
    else some []

/-- The tuples a consumer gets from `Projection(input, attr_indexes)`. -/
def run (tuples : List Tuple) (arity : Nat) (attr_indexes : List Nat) : Option (List Tuple) :=
  drain (tuples.length + 1) { input := TupleSource.opened tuples arity, attr_indexes := attr_indexes }

/-- What the specification takes the projection of one tuple to be: the
values at the positions `attr_indexes`, in that order. -/
def project (attr_indexes : List Nat) (t : Tuple) : Option Tuple := readRegs t attr_indexes

end Projection

/-- The member `ht` of `HashJoin`, a `std::unordered_multimap`: its entries,
key and tuple. -/
abbrev HashTable := List (Register × Tuple)

/-- What `ht.find(key)` is: a function of the table and the key that gives
the tuple of the entry found. -/
abbrev Finder := HashTable → Register → Option Tuple

/-- What the standard guarantees of `unordered_multimap::find`: an entry with
an equal key if there is one (any of them when there are several), and `end()`
otherwise. -/
def IsFind (find : Finder) : Prop :=
  ∀ (ht : HashTable) (key : Register),
    (∀ t, find ht key = some t → (key, t) ∈ ht) ∧
    (find ht key = none → ∀ e ∈ ht, e.1 ≠ key)

/-- The search that gives the entry inserted first. -/
def firstFinder : Finder :=
  fun ht key => (ht.find? (fun e => decide (e.1 = key))).map (fun e => e.2)

/-- The class `HashJoin` over two `TupleSource`s. -/
structure HashJoin where
  input_left : TupleSource
  input_right : TupleSource
  attr_index_left : Nat
  attr_index_right : Nat
  ht_build : Bool
  ht : HashTable
  output_regs : Tuple

namespace HashJoin

/-- The join after its constructor and `open()`. -/
def opened (left right : List Tuple) (arity_left arity_right attr_index_left
    attr_index_right : Nat) : HashJoin :=
  { input_left := TupleSource.opened left arity_left,
    input_right := TupleSource.opened right arity_right,
    attr_index_left := attr_index_left, attr_index_right := attr_index_right,
    ht_build := false, ht := [],
    output_regs := List.replicate (arity_left + arity_right) (Register.int 0) }

/-- The loop `while (input_left->next())` of `next()`: every tuple of the left
input is put into the table under its join attribute; `none` when the
attribute index is outside the tuple. -/
def build (attr_index_left : Nat) : Nat → TupleSource → HashTable →
    Option (TupleSource × HashTable)
  | 0, _, _ => none
  | steps + 1, input_left, ht =>
    if (TupleSource.next input_left).1 = true then
      let input_tuple := TupleSource.get_output (TupleSource.next input_left).2
      match input_tuple[attr_index_left]? with
      | none => none
      | some key => build attr_index_left steps (TupleSource.next input_left).2
          (ht ++ [(key, input_tuple)])
    else some ((TupleSource.next input_left).2, ht)

/-- The loop `while (input_right->next())` of `next()`: it ends at the first
tuple of the right input for which `ht.find` gives an entry, with the tuple of
that entry and the right tuple in the output registers. -/
def probe (find : Finder) (ht : HashTable) (attr_index_right : Nat) :
    Nat → TupleSource → Option (TupleSource × Option Tuple)
  | 0, _ => none
  | steps + 1, input_right =>
    if (TupleSource.next input_right).1 = true then
      let input_regs_right := TupleSource.get_output (TupleSource.next input_right).2
      match input_regs_right[attr_index_right]? with
      | none => none
      | some key =>
        match find ht key with
        | some second => some ((TupleSource.next input_right).2, some (second ++ input_regs_right))
        | none => probe find ht attr_index_right steps (TupleSource.next input_right).2
    else some ((TupleSource.next input_right).2, none)

/-- The method `next()`; `ht_build` is never set. -/
def next (find : Finder) (j : HashJoin) : Option (Bool × HashJoin) :=
  let built : Option (TupleSource × HashTable) :=
    if j.ht_build = false then
      build j.attr_index_left (j.input_left.tuples.length + 1) j.input_left j.ht
    else some (j.input_left, j.ht)
  match built with
  | none => none
  | some (input_left, ht) =>
    match probe find ht j.attr_index_right (j.input_right.tuples.length + 1) j.input_right with
    | none => none
    | some (input_right, some out) =>
      some (true, { j with input_left := input_left, ht := ht, input_right := input_right,
                           output_regs := out })
    | some (input_right, none) =>
      some (false, { j with input_left := input_left, ht := ht, input_right := input_right })

/-- A consumer: `while (next())` the values of `get_output()` are collected;
`steps` bounds the number of calls of `next()`. -/
def drain (find : Finder) : Nat → HashJoin → Option (List Tuple)
  | 0, _ => none
  | steps + 1, j =>
    match next find j with
    | none => none
    | some (false, _) => some []
    | some (true, j1) =>
      match drain find steps j1 with
      | none => none
      | some out => some (j1.output_regs :: out)

/-- The tuples a consumer gets from `HashJoin(left, right, a, b)`. -/
def run (find : Finder) (left right : List Tuple) (arity_left arity_right attr_index_left
    attr_index_right : Nat) : Option (List Tuple) :=
  drain find (right.length + 1)
    (opened left right arity_left arity_right attr_index_left attr_index_right)

/-- What the specification takes the join to be: one tuple `l ++ r` for every
pair of a left and a right tuple that agree on the join attributes. -/
def matchingPairs (left right : List Tuple) (attr_index_left attr_index_right : Nat) :
    List Tuple :=
  right.flatMap (fun r =>
    (left.filter (fun l => decide (l[attr_index_left]? = r[attr_index_right]?))).map
      (fun l => l ++ r))

end HashJoin

/-- Three tuples of three integers. -/
def threeColumns : List Tuple :=
  [[Register.int 1, Register.int 10, Register.int 100],
    [Register.int 2, Register.int 20, Register.int 200],
    [Register.int 3, Register.int 30, Register.int 300]]

/-- Two left tuples with the join key 7. -/
def sharedKeyLeft : List Tuple :=
  [[Register.int 7, Register.int 10], [Register.int 7, Register.int 11]]

/-- One right tuple with the join key 7. -/
def sharedKeyRight : List Tuple := [[Register.int 7, Register.int 20]]

end iterator_model

namespace ExternalSort

/-- The size of a value in bytes. A file is the list of its 8-byte values; byte
offsets and byte sizes are kept as in the source and all are multiples of 8. -/
def VALUE_SIZE : Nat := 8

/-- The values `File::read_block(offset, size)` delivers: those of the `size`
bytes from byte `offset` on, fewer where the file ends before (the temporary
file stops reading at the end of the file). -/
def read_block (file : List Nat) (offset size : Nat) : List Nat :=
  (file.drop (offset / VALUE_SIZE)).take (size / VALUE_SIZE)

/-- The file after `File::write_block(block, offset, size)`: the first `size`
bytes of `block` replace the bytes from byte `offset` on. -/
def write_block (file block : List Nat) (offset size : Nat) : List Nat :=
  file.take (offset / VALUE_SIZE) ++ block.take (size / VALUE_SIZE) ++
    file.drop (offset / VALUE_SIZE + size / VALUE_SIZE)

/-- The file after `File::resize(new_size)`: cut off at the end, or zero bytes
appended. -/
def resize (file : List Nat) (new_size : Nat) : List Nat :=
  file.take (new_size / VALUE_SIZE) ++
    List.replicate (new_size / VALUE_SIZE - file.length) 0

/-- A memory area after a block read from a file has been copied to its
start. -/
def load (buffer block : List Nat) : List Nat :=
  block ++ buffer.drop block.length

/-- The result of `std::is_sorted`. -/
def is_sorted : List Nat → Bool
  | [] => true
  | [_] => true
  | a :: b :: rest => decide (a ≤ b) && is_sorted (b :: rest)

/-- The result of `std::sort` on a range of values. -/
def sort (values : List Nat) : List Nat :=
  values.insertionSort (fun a b => a ≤ b)

/-- The bookkeeping of one input buffer of a merge: the buffer, and the entries
of `next_read_offset_run`, `next_push_index_input_buffer` and
`remaining_num_values_run` for its run. -/
structure Input where
  buffer : List Nat
  next_read_offset_run : Nat
  next_push_index_input_buffer : Nat
  remaining_num_values_run : Nat
deriving DecidableEq

/-- The output side of a merge: the file written to, the output buffer,
`output_buffer_current_num_values` and `num_full_writes`. -/
structure Output where
  file : List Nat
  buffer : List Nat
  current_num_values : Nat
  num_full_writes : Nat
deriving DecidableEq

/-- One value is put into the output buffer; a full buffer is checked to be
sorted and written to the file. `none` when the value is put outside of the
buffer or the check fails. -/
def Output.push (o : Output) (value NUM_VALUE_OUTPUT_BUFFER OUT_BUFFER_SIZE : Nat) :
    Option Output :=
  if o.current_num_values < o.buffer.length then
    let buffer := o.buffer.set o.current_num_values value
    if o.current_num_values + 1 = NUM_VALUE_OUTPUT_BUFFER then
      if is_sorted (buffer.take NUM_VALUE_OUTPUT_BUFFER) then
        some { file := write_block o.file buffer (o.num_full_writes * OUT_BUFFER_SIZE)
                 OUT_BUFFER_SIZE,
               buffer := buffer,
               current_num_values := 0,
               num_full_writes := o.num_full_writes + 1 }
      else none
    else some { o with buffer := buffer, current_num_values := o.current_num_values + 1 }
  else none

/-- The last write of a merge into a file of `size` bytes: what is left in the
output buffer after the full writes. -/
def Output.finish (o : Output) (size OUT_BUFFER_SIZE : Nat) : Option (List Nat) :=
  let num_full_write := size / OUT_BUFFER_SIZE
  if size > OUT_BUFFER_SIZE * num_full_write then
    if is_sorted (o.buffer.take ((size - OUT_BUFFER_SIZE * num_full_write) / VALUE_SIZE)) then
      some (write_block o.file o.buffer (o.num_full_writes * OUT_BUFFER_SIZE)
        (size - OUT_BUFFER_SIZE * num_full_write))
    else none
  else some o.file

/-- An input buffer that is used up is filled with the next part of its run,
which starts at byte `start` of the temporary file and has `size` bytes: the
last load takes what is left of the run. `none` when a check fails or the load
size would be negative. -/
def Input.refill (r : Input) (tmp_file : List Nat)
    (start size INPUT_BUFFER_SIZE NUM_VALUE_INPUT_BUFFER : Nat) : Option Input :=
  if r.next_push_index_input_buffer = NUM_VALUE_INPUT_BUFFER then
    if r.next_read_offset_run + INPUT_BUFFER_SIZE ≥ size then
      if size < r.next_read_offset_run then none
      else
        let last_load_size := size - r.next_read_offset_run
        let buffer := load r.buffer
          (read_block tmp_file (r.next_read_offset_run + start) last_load_size)
        if last_load_size % 8 = 0 ∧ is_sorted (buffer.take (last_load_size / VALUE_SIZE)) then
          some { r with buffer := buffer,
                        next_read_offset_run := r.next_read_offset_run + last_load_size,
                        next_push_index_input_buffer := 0 }
        else none
    else
      let buffer := load r.buffer
        (read_block tmp_file (r.next_read_offset_run + start) INPUT_BUFFER_SIZE)
      if is_sorted (buffer.take NUM_VALUE_INPUT_BUFFER) then
        some { r with buffer := buffer,
                      next_read_offset_run := r.next_read_offset_run + INPUT_BUFFER_SIZE,
                      next_push_index_input_buffer := 0 }
      else none
  else some r

/-- The largest value of a 64-bit counter, `2 ^ 64 - 1`. -/
def SIZE_MAX : Nat := 18446744073709551615

/-- The value of a 64-bit counter after `--`. -/
def decr (x : Nat) : Nat :=
  if x = 0 then SIZE_MAX else x - 1

/-- The value of a 64-bit counter after `++`. -/
def incr (x : Nat) : Nat :=
  if x = SIZE_MAX then 0 else x + 1

/-- The entry `remaining_num_values_run[ib_index]--`. -/
def Input.decrement (r : Input) : Input :=
  { r with remaining_num_values_run := decr r.remaining_num_values_run }

/-- The input buffer of a run before the merge starts: the first
`INPUT_BUFFER_SIZE` bytes of the run, read at byte `tmpfile_offset` into zeroed
memory. -/
def Input.first (tmp_file : List Nat) (tmpfile_offset INPUT_BUFFER_SIZE
    NUM_VALUE_INPUT_BUFFER remaining : Nat) : Input :=
  { buffer := load (List.replicate NUM_VALUE_INPUT_BUFFER 0)
      (read_block tmp_file tmpfile_offset INPUT_BUFFER_SIZE),
    next_read_offset_run := INPUT_BUFFER_SIZE,
    next_push_index_input_buffer := 1,
    remaining_num_values_run := remaining }

end ExternalSort

namespace ExternalSort

/-- The input buffer after the checks of step 4.2.7 and the pointer handed on
in step 4.2.8, `input_buffer_base_ptrs[ib_index] + next_push_index_input_buffer[ib_index]++`,
as an index into the buffer. -/
def Input.advance (r : Input) (tmp_file : List Nat)
    (start size INPUT_BUFFER_SIZE NUM_VALUE_INPUT_BUFFER : Nat) : Option (Input × Nat) :=
  match r.refill tmp_file start size INPUT_BUFFER_SIZE NUM_VALUE_INPUT_BUFFER with
  | none => none
  | some r1 =>
    some ({ r1 with next_push_index_input_buffer := r1.next_push_index_input_buffer + 1 },
      r1.next_push_index_input_buffer)

/-- The priority queue of the k-way merge holds pairs of a value and the index
of its input buffer, smallest pair on top. -/
def pairLe (a b : Nat × Nat) : Bool :=
  decide (a.1 < b.1) || (decide (a.1 = b.1) && decide (a.2 ≤ b.2))

/-- The result of `pq.top()`; `none` for an empty queue. -/
def top : List (Nat × Nat) → Option (Nat × Nat)
  | [] => none
  | a :: rest =>
    match top rest with
    | none => some a
    | some b => if pairLe a b then some a else some b

/-- The state of the k-way merge loop. -/
structure KWay where
  pq : List (Nat × Nat)
  inputs : List Input
  out : Output
deriving DecidableEq

/-- The loop of step 4.2 of `external_sort`, at most `fuel` times round. -/
def kWayLoop (tmp_file : List Nat) (RUN_SIZE LAST_RUN_SIZE FAN_IN INPUT_BUFFER_SIZE
    NUM_VALUE_INPUT_BUFFER NUM_VALUE_OUTPUT_BUFFER OUT_BUFFER_SIZE : Nat) :
    Nat → KWay → Option KWay
  | 0, _ => none
  | fuel + 1, m =>
    match top m.pq with
    | none => some m
    | some t =>
      match m.out.push t.1 NUM_VALUE_OUTPUT_BUFFER OUT_BUFFER_SIZE, m.inputs[t.2]? with
      | some out, some r =>
        if r.decrement.remaining_num_values_run = 0 then
          kWayLoop tmp_file RUN_SIZE LAST_RUN_SIZE FAN_IN INPUT_BUFFER_SIZE
            NUM_VALUE_INPUT_BUFFER NUM_VALUE_OUTPUT_BUFFER OUT_BUFFER_SIZE fuel
            { pq := m.pq.erase t, inputs := m.inputs.set t.2 r.decrement, out := out }
        else
          match r.decrement.advance tmp_file (RUN_SIZE * t.2)
              (if t.2 = FAN_IN - 1 then LAST_RUN_SIZE else RUN_SIZE)
              INPUT_BUFFER_SIZE NUM_VALUE_INPUT_BUFFER with
          | none => none
          | some (r2, p) =>
            match r2.buffer[p]? with
            | none => none
            | some v =>
              kWayLoop tmp_file RUN_SIZE LAST_RUN_SIZE FAN_IN INPUT_BUFFER_SIZE
                NUM_VALUE_INPUT_BUFFER NUM_VALUE_OUTPUT_BUFFER OUT_BUFFER_SIZE fuel
                { pq := (v, t.2) :: m.pq.erase t, inputs := m.inputs.set t.2 r2, out := out }
      | _, _ => none

/-- Step 4 of `external_sort`: the k-way merge of the runs of the temporary
file into the output file. -/
def kWayMerge (fuel : Nat) (tmp_file output : List Nat) (INPUT_SORT_SIZE mem_size NUM_RUNS
    NUM_VALUES_RUN NUM_VALUES_LAST_RUN RUN_SIZE LAST_RUN_SIZE : Nat) : Option (List Nat) :=
  let FAN_IN := NUM_RUNS
  let NUM_VALUE_INPUT_BUFFER := (mem_size / (FAN_IN + 1)) / VALUE_SIZE
  let INPUT_BUFFER_SIZE := NUM_VALUE_INPUT_BUFFER * VALUE_SIZE
  let NUM_VALUE_OUTPUT_BUFFER := (mem_size - FAN_IN * INPUT_BUFFER_SIZE) / VALUE_SIZE
  let OUT_BUFFER_SIZE := NUM_VALUE_OUTPUT_BUFFER * VALUE_SIZE
  if 0 < FAN_IN ∧ 0 < NUM_VALUE_INPUT_BUFFER ∧ 0 < OUT_BUFFER_SIZE ∧
      INPUT_BUFFER_SIZE * FAN_IN + OUT_BUFFER_SIZE ≤ mem_size then
    let first := fun i =>
      Input.first tmp_file (i * RUN_SIZE) INPUT_BUFFER_SIZE NUM_VALUE_INPUT_BUFFER
        (if i = FAN_IN - 1 then NUM_VALUES_LAST_RUN else NUM_VALUES_RUN)
    let inputs := (List.range FAN_IN).map first
    let pq := (List.range FAN_IN).map (fun i => ((first i).buffer.headD 0, i))
    match kWayLoop tmp_file RUN_SIZE LAST_RUN_SIZE FAN_IN INPUT_BUFFER_SIZE
        NUM_VALUE_INPUT_BUFFER NUM_VALUE_OUTPUT_BUFFER OUT_BUFFER_SIZE fuel
        { pq := pq, inputs := inputs,
          out := { file := output, buffer := List.replicate NUM_VALUE_OUTPUT_BUFFER 0,
                   current_num_values := 0, num_full_writes := 0 } } with
    | none => none
    | some m => m.out.finish INPUT_SORT_SIZE OUT_BUFFER_SIZE
  else none

/-- The state of the 2-way merge loop: the two input buffers, the pointers
`inputs_compare` as indexes into them (`none` for the null pointer) and the
output side. -/
structure TwoWay where
  inputs : List Input
  inputs_compare : List (Option Nat)
  out : Output
deriving DecidableEq

/-- The value `*inputs_compare[i]`. -/
def TwoWay.value (m : TwoWay) (i : Nat) : Option Nat :=
  match m.inputs_compare[i]?, m.inputs[i]? with
  | some (some p), some r => r.buffer[p]?
  | _, _ => none

/-- The index of the side with the smaller value. -/
def TwoWay.side (m : TwoWay) : Option Nat :=
  if m.inputs_compare[0]? = some none then some 1
  else if m.inputs_compare[1]? = some none then some 0
  else
    match m.value 0, m.value 1 with
    | some a, some b => some (if a < b then 0 else 1)
    | _, _ => none

/-- The merge loop of one iteration of `not_full_way_merge`, at most `fuel`
times round; `start` is the byte offset of the first of the two runs in the
temporary file. -/
def twoWayLoop (tmp_file : List Nat) (last : Bool) (start RUN_SIZE LAST_RUN_SIZE
    INPUT_BUFFER_SIZE NUM_VALUE_INPUT_BUFFER NUM_VALUE_OUTPUT_BUFFER OUT_BUFFER_SIZE : Nat) :
    Nat → TwoWay → Option TwoWay
  | 0, _ => none
  | fuel + 1, m =>
    if m.inputs_compare[0]? = some none ∧ m.inputs_compare[1]? = some none then some m
    else
      match m.side with
      | none => none
      | some ib_index =>
        match m.value ib_index, m.inputs[ib_index]? with
        | some v, some r =>
          match m.out.push v NUM_VALUE_OUTPUT_BUFFER OUT_BUFFER_SIZE with
          | none => none
          | some out =>
            if r.decrement.remaining_num_values_run = 0 then
              twoWayLoop tmp_file last start RUN_SIZE LAST_RUN_SIZE INPUT_BUFFER_SIZE
                NUM_VALUE_INPUT_BUFFER NUM_VALUE_OUTPUT_BUFFER OUT_BUFFER_SIZE fuel
                { inputs := m.inputs.set ib_index r.decrement,
                  inputs_compare := m.inputs_compare.set ib_index none, out := out }
            else
              match r.decrement.advance tmp_file (RUN_SIZE * ib_index + start)
                  (if last = true ∧ ib_index = 1 then LAST_RUN_SIZE else RUN_SIZE)
                  INPUT_BUFFER_SIZE NUM_VALUE_INPUT_BUFFER with
              | none => none
              | some (r2, p) =>
                twoWayLoop tmp_file last start RUN_SIZE LAST_RUN_SIZE INPUT_BUFFER_SIZE
                  NUM_VALUE_INPUT_BUFFER NUM_VALUE_OUTPUT_BUFFER OUT_BUFFER_SIZE fuel
                  { inputs := m.inputs.set ib_index r2,
                    inputs_compare := m.inputs_compare.set ib_index (some p), out := out }
        | _, _ => none

/-- The variables `not_full_way_merge` gets by reference, and the temporary
file. -/
structure Runs where
  tmp_file : List Nat
  NUM_RUNS : Nat
  NUM_VALUES_RUN : Nat
  NUM_VALUES_LAST_RUN : Nat
  RUN_SIZE : Nat
  LAST_RUN_SIZE : Nat
deriving DecidableEq

/-- The body of the loop over `it` in `not_full_way_merge` up to the write of
the merged run into the temporary file: the temporary file after it. -/
def mergeTwo (fuel mem_size it num_iterations_in_pass : Nat) (s : Runs) : Option (List Nat) :=
  let NUM_VALUE_INPUT_BUFFER := (mem_size / 3) / VALUE_SIZE
  let INPUT_BUFFER_SIZE := NUM_VALUE_INPUT_BUFFER * VALUE_SIZE
  let NUM_VALUE_OUTPUT_BUFFER := (mem_size - 2 * INPUT_BUFFER_SIZE) / VALUE_SIZE
  let OUT_BUFFER_SIZE := NUM_VALUE_OUTPUT_BUFFER * VALUE_SIZE
  let last : Bool := decide (it = num_iterations_in_pass - 1)
  let odd_run_num_adjustment := if last = true ∧ s.NUM_RUNS % 2 ≠ 0 then s.RUN_SIZE else 0
  let start := s.RUN_SIZE * 2 * it + odd_run_num_adjustment
  let intermediate_file_size :=
    if last = true then (2 - 1) * s.RUN_SIZE + s.LAST_RUN_SIZE else 2 * s.RUN_SIZE
  let inputs := (List.range 2).map (fun i =>
    Input.first s.tmp_file (start + i * s.RUN_SIZE) INPUT_BUFFER_SIZE NUM_VALUE_INPUT_BUFFER
      (if last = true ∧ i = 2 - 1 then s.NUM_VALUES_LAST_RUN else s.NUM_VALUES_RUN))
  match twoWayLoop s.tmp_file last start s.RUN_SIZE s.LAST_RUN_SIZE INPUT_BUFFER_SIZE
      NUM_VALUE_INPUT_BUFFER NUM_VALUE_OUTPUT_BUFFER OUT_BUFFER_SIZE fuel
      { inputs := inputs, inputs_compare := [some 0, some 0],
        out := { file := resize [] intermediate_file_size,
                 buffer := List.replicate NUM_VALUE_OUTPUT_BUFFER 0,
                 current_num_values := 0, num_full_writes := 0 } } with
  | none => none
  | some m =>
    match m.out.finish intermediate_file_size OUT_BUFFER_SIZE with
    | none => none
    | some intermediate_file =>
      let intermediate_data := read_block intermediate_file 0 intermediate_file_size
      if is_sorted (intermediate_data.take (intermediate_file_size / VALUE_SIZE)) then
        some (write_block s.tmp_file intermediate_data start intermediate_file_size)
      else none

/-- The loop over `it` of one pass of `not_full_way_merge`, at most `fuel`
times round. When the number of runs is odd, the last iteration is gone through
twice, after `it--` and the `it++` of the loop. -/
def iterations (fuel0 mem_size num_iterations_in_pass : Nat) : Nat → Nat → Runs → Option Runs
  | 0, _, _ => none
  | fuel + 1, it, s =>
    if it < num_iterations_in_pass then
      match mergeTwo fuel0 mem_size it num_iterations_in_pass s with
      | none => none
      | some tmp_file =>
        if it = num_iterations_in_pass - 1 ∧ s.NUM_RUNS % 2 ≠ 0 then
          iterations fuel0 mem_size num_iterations_in_pass fuel
            (incr (decr it))
            { s with tmp_file := tmp_file,
                     NUM_RUNS := s.NUM_RUNS - 1,
                     LAST_RUN_SIZE := s.LAST_RUN_SIZE + s.RUN_SIZE,
                     NUM_VALUES_LAST_RUN := s.NUM_VALUES_LAST_RUN + s.NUM_VALUES_RUN }
        else
          iterations fuel0 mem_size num_iterations_in_pass fuel (it + 1)
            { s with tmp_file := tmp_file }
    else some s

/-- The result of `sort_phase_done`, `false` also where one of its own
assertions fails. -/
def sort_phase_done (tmp_file : List Nat) (num_values run_size : Nat) : Bool :=
  let INPUT_SORT_SIZE := num_values * VALUE_SIZE
  let NUM_RUNS := (INPUT_SORT_SIZE - 1) / run_size + 1
  let NUM_VALUES_RUN := run_size / VALUE_SIZE
  let LAST_RUN_SIZE :=
    if INPUT_SORT_SIZE = NUM_RUNS * run_size then run_size
    else INPUT_SORT_SIZE - (NUM_RUNS - 1) * run_size
  let NUM_VALUES_LAST_RUN := LAST_RUN_SIZE / VALUE_SIZE
  let tmp_file_data := read_block tmp_file 0 INPUT_SORT_SIZE
  decide (tmp_file.length * VALUE_SIZE = INPUT_SORT_SIZE) && decide (0 < run_size) &&
    decide (LAST_RUN_SIZE ≤ run_size) && decide (LAST_RUN_SIZE % VALUE_SIZE = 0) &&
    (List.range (NUM_RUNS - 1)).all (fun i =>
      is_sorted ((tmp_file_data.drop (i * NUM_VALUES_RUN)).take NUM_VALUES_RUN)) &&
    is_sorted ((tmp_file_data.drop ((NUM_RUNS - 1) * NUM_VALUES_RUN)).take NUM_VALUES_LAST_RUN)

/-- The loop `while (NUM_RUNS > FAN_IN)` of `not_full_way_merge`, at most `fuel`
times round. -/
def passes (fuel0 num_values mem_size : Nat) : Nat → Runs → Option Runs
  | 0, _ => none
  | fuel + 1, s =>
    if s.NUM_RUNS > 2 then
      match iterations fuel0 mem_size (s.NUM_RUNS / 2) fuel0 0 s with
      | none => none
      | some s1 =>
        let s2 : Runs :=
          { tmp_file := s1.tmp_file,
            NUM_RUNS := s1.NUM_RUNS / 2,
            NUM_VALUES_RUN := s1.NUM_VALUES_RUN * 2,
            NUM_VALUES_LAST_RUN := s1.NUM_VALUES_LAST_RUN + s1.NUM_VALUES_RUN * (2 - 1),
            RUN_SIZE := s1.RUN_SIZE * 2,
            LAST_RUN_SIZE := s1.LAST_RUN_SIZE + s1.RUN_SIZE * (2 - 1) }
        if sort_phase_done s2.tmp_file num_values s2.RUN_SIZE then
          passes fuel0 num_values mem_size fuel s2
        else none
    else some s

/-- The runs after `not_full_way_merge`: 2-way merges in passes, until at most
two runs are left. -/
def not_full_way_merge (fuel num_values mem_size : Nat) (s : Runs) : Option Runs :=
  let NUM_VALUE_INPUT_BUFFER := (mem_size / 3) / VALUE_SIZE
  let INPUT_BUFFER_SIZE := NUM_VALUE_INPUT_BUFFER * VALUE_SIZE
  let NUM_VALUE_OUTPUT_BUFFER := (mem_size - 2 * INPUT_BUFFER_SIZE) / VALUE_SIZE
  if 0 < NUM_VALUE_INPUT_BUFFER ∧ 0 < NUM_VALUE_OUTPUT_BUFFER then
    passes fuel num_values mem_size fuel s
  else none

/-- The output file after `inmemory_sort`. -/
def inmemory_sort (input : List Nat) (num_values : Nat) (output : List Nat) : List Nat :=
  let INPUT_SORT_SIZE := num_values * VALUE_SIZE
  let input_file_buffer := read_block input 0 INPUT_SORT_SIZE
  write_block output
    (sort (input_file_buffer.take num_values) ++ input_file_buffer.drop num_values)
    0 INPUT_SORT_SIZE

/-- Step 2.3 of `external_sort`: `count` full runs of the input, from byte
`offset` on, are sorted and written to the temporary file. The result is the
temporary file and the offset after them. -/
def sortRuns (input : List Nat) (RUN_SIZE NUM_VALUES_RUN : Nat) :
    Nat → Nat → List Nat → Nat × List Nat
  | 0, offset, tmp_file => (offset, tmp_file)
  | count + 1, offset, tmp_file =>
    let input_file_buffer := read_block input offset RUN_SIZE
    sortRuns input RUN_SIZE NUM_VALUES_RUN count (offset + RUN_SIZE)
      (write_block tmp_file
        (sort (input_file_buffer.take NUM_VALUES_RUN) ++ input_file_buffer.drop NUM_VALUES_RUN)
        offset RUN_SIZE)

/-- The output file after `external_sort(input, num_values, output, mem_size)`,
every loop of the merges going at most `fuel` times round; `none` where an
assertion fails or the fuel runs out. The mode of the files is not modelled. -/
def external_sort (fuel : Nat) (input : List Nat) (num_values : Nat) (output : List Nat)
    (mem_size : Nat) : Option (List Nat) :=
  let INPUT_SORT_SIZE := num_values * VALUE_SIZE
  if mem_size % VALUE_SIZE = 0 ∧ input.length * VALUE_SIZE ≥ INPUT_SORT_SIZE then
    let output := resize output INPUT_SORT_SIZE
    if num_values = 0 then some output
    else if INPUT_SORT_SIZE ≤ mem_size then some (inmemory_sort input num_values output)
    else
      let NUM_RUNS := (INPUT_SORT_SIZE - 1) / mem_size + 1
      let RUN_SIZE := mem_size
      let NUM_VALUES_RUN := mem_size / VALUE_SIZE
      let LAST_RUN_SIZE :=
        if INPUT_SORT_SIZE = NUM_RUNS * RUN_SIZE then RUN_SIZE
        else INPUT_SORT_SIZE - (NUM_RUNS - 1) * RUN_SIZE
      let NUM_VALUES_LAST_RUN := LAST_RUN_SIZE / VALUE_SIZE
      let sorted := sortRuns input RUN_SIZE NUM_VALUES_RUN (NUM_RUNS - 1) 0
        (resize [] INPUT_SORT_SIZE)
      let input_file_buffer := read_block input sorted.1 LAST_RUN_SIZE
      let tmp_file := write_block sorted.2
        (sort (input_file_buffer.take NUM_VALUES_LAST_RUN) ++
          input_file_buffer.drop NUM_VALUES_LAST_RUN)
        sorted.1 LAST_RUN_SIZE
      if LAST_RUN_SIZE ≤ mem_size ∧ LAST_RUN_SIZE % VALUE_SIZE = 0 ∧
          sort_phase_done tmp_file num_values RUN_SIZE = true ∧ mem_size / VALUE_SIZE ≥ 3 then
        let s : Runs :=
          { tmp_file := tmp_file, NUM_RUNS := NUM_RUNS, NUM_VALUES_RUN := NUM_VALUES_RUN,
            NUM_VALUES_LAST_RUN := NUM_VALUES_LAST_RUN, RUN_SIZE := RUN_SIZE,
            LAST_RUN_SIZE := LAST_RUN_SIZE }
        match (if (mem_size / (NUM_RUNS + 1)) / VALUE_SIZE = 0 then
            not_full_way_merge fuel num_values mem_size s else some s) with
        | none => none
        | some s1 =>
          kWayMerge fuel s1.tmp_file output INPUT_SORT_SIZE mem_size s1.NUM_RUNS
            s1.NUM_VALUES_RUN s1.NUM_VALUES_LAST_RUN s1.RUN_SIZE s1.LAST_RUN_SIZE
      else none
  else none

end ExternalSort

namespace ExternalSort

/-- The `n` values of a file from value `a` on. -/
def slice (file : List Nat) (a n : Nat) : List Nat :=
  (file.drop a).take n

end ExternalSort

namespace ExternalSort

/-- The output side of a merge into a file of `total` values has taken the
values `emitted` so far: the full writes and the filled part of the output
buffer hold them in this order. -/
structure Output.Holds (o : Output) (emitted : List Nat) (NUM_VALUE_OUTPUT_BUFFER total : Nat) :
    Prop where
  buffer : o.buffer.length = NUM_VALUE_OUTPUT_BUFFER
  current : o.current_num_values < NUM_VALUE_OUTPUT_BUFFER
  file : o.file.length = total
  full : o.num_full_writes * NUM_VALUE_OUTPUT_BUFFER ≤ total
  values : o.file.take (o.num_full_writes * NUM_VALUE_OUTPUT_BUFFER) ++
    o.buffer.take o.current_num_values = emitted

end ExternalSort

namespace ExternalSort

/-- The bookkeeping `r` of an input buffer of `B` values fits the run of `n`
values that starts at value `s` of the temporary file, of which the values
`rem` are still to be delivered, the first of them being the value the merge
looks at. -/
structure Cursor (tmp_file : List Nat) (s n B : Nat) (r : Input) (rem : List Nat) : Prop where
  inside : s + n ≤ tmp_file.length
  le : rem.length ≤ n
  suffix : rem = slice tmp_file (s + n - rem.length) rem.length
  remaining : r.remaining_num_values_run = rem.length
  buffer : r.buffer.length = B
  push : rem ≠ [] → 1 ≤ r.next_push_index_input_buffer ∧ r.next_push_index_input_buffer ≤ B
  window : rem ≠ [] →
    (r.buffer.drop (r.next_push_index_input_buffer - 1)).take rem.length =
      rem.take (B + 1 - r.next_push_index_input_buffer)
  offset : B - r.next_push_index_input_buffer < rem.length - 1 →
    r.next_read_offset_run = 8 * (n - rem.length + 1 + (B - r.next_push_index_input_buffer))

end ExternalSort

namespace ExternalSort

/-- A merge of sorted runs that hold the values `total` has taken the values
`emitted` so far, in this order, and `rems` is what is left of each run. -/
structure MergeInv (total emitted : List Nat) (rems : List (List Nat)) : Prop where
  sortedE : emitted.Sorted (fun a b => a ≤ b)
  sortedR : ∀ r ∈ rems, r.Sorted (fun a b => a ≤ b)
  le : ∀ e ∈ emitted, ∀ r ∈ rems, ∀ x ∈ r, e ≤ x
  perm : (emitted ++ rems.flatten).Perm total

end ExternalSort

namespace ExternalSort

/-- Each of the `k` input buffers of a merge fits its run: run `i` starts at
value `start i` of the temporary file and has `size i` values, and `rems` is
what is left of each run. -/
structure Cursors (tmp_file : List Nat) (start size : Nat → Nat) (B k : Nat)
    (inputs : List Input) (rems : List (List Nat)) : Prop where
  inputsLength : inputs.length = k
  remsLength : rems.length = k
  cursor : ∀ (i : Nat) (inp : Input) (rem : List Nat), inputs[i]? = some inp →
    rems[i]? = some rem → Cursor tmp_file (start i) (size i) B inp rem

/-- What holds of the state of the k-way merge each time round the loop, the
values `emitted` having been taken from the runs of which `rems` is left; the
merge delivers the values `total` into a file of as many values. -/
structure KWay.Inv (tmp_file total : List Nat) (start size : Nat → Nat)
    (B k NUM_VALUE_OUTPUT_BUFFER : Nat) (m : KWay) (emitted : List Nat)
    (rems : List (List Nat)) : Prop where
  cursors : Cursors tmp_file start size B k m.inputs rems
  nodup : m.pq.Nodup
  queue : ∀ (v i : Nat), (v, i) ∈ m.pq ↔ ∃ t, rems[i]? = some (v :: t)
  out : m.out.Holds emitted NUM_VALUE_OUTPUT_BUFFER total.length
  merge : MergeInv total emitted rems

end ExternalSort

namespace ExternalSort

/-- What holds of the state of a 2-way merge each time round the loop, the
values `emitted` having been taken from the two runs of which `rems` is left;
the merge delivers the values `total` into a file of as many values. -/
structure TwoWay.Inv (tmp_file total : List Nat) (start size : Nat → Nat)
    (B NUM_VALUE_OUTPUT_BUFFER : Nat) (m : TwoWay) (emitted : List Nat)
    (rems : List (List Nat)) : Prop where
  cursors : Cursors tmp_file start size B 2 m.inputs rems
  pointer : ∀ (i : Nat) (inp : Input) (rem : List Nat), m.inputs[i]? = some inp →
    rems[i]? = some rem →
    m.inputs_compare[i]? =
      some (if rem = [] then none else some (inp.next_push_index_input_buffer - 1))
  out : m.out.Holds emitted NUM_VALUE_OUTPUT_BUFFER total.length
  merge : MergeInv total emitted rems

end ExternalSort

namespace ExternalSort

/-- The layout of the temporary file during a pass of `not_full_way_merge` in
which `it` iterations are done, with runs of `r` values and a last run of `l`
values: the pairs of runs merged already and the runs not yet merged are
sorted, and the file holds the values `original`. With `it = 0` this is the
layout between two passes. -/
structure Runs.Mid (s : Runs) (original : List Nat) (r l it : Nat) : Prop where
  run : s.RUN_SIZE = 8 * r
  last : s.LAST_RUN_SIZE = 8 * l
  values : s.NUM_VALUES_RUN = r
  lastValues : s.NUM_VALUES_LAST_RUN = l
  pos : 0 < r
  posLast : 0 < l
  runs : 0 < s.NUM_RUNS
  length : s.tmp_file.length = (s.NUM_RUNS - 1) * r + l
  perm : s.tmp_file.Perm original
  merged : ∀ j, j < it →
    (slice s.tmp_file (2 * j * r) (if 2 * j + 2 = s.NUM_RUNS then r + l else 2 * r)).Sorted
      (fun a b => a ≤ b)
  rest : ∀ i, 2 * it ≤ i → i < s.NUM_RUNS →
    (slice s.tmp_file (i * r) (if i = s.NUM_RUNS - 1 then l else r)).Sorted (fun a b => a ≤ b)

end ExternalSort

/-! ## Waits-for graph: cycle detection -/

namespace WaitsForGraph

theorem find_store_same (g : Graph) (t : Nat) (adj : List Nat) :
    find (store g t adj) t = some adj := by
  induction g with
  | nil => simp [store, find, List.lookup]
  | cons e rest ih =>
    unfold store
    by_cases h : (e.1 == t) = true
    · simp [h, find, List.lookup]
    · have h1 : (t == e.1) = false := by
        simp only [beq_iff_eq] at h
        simp only [beq_eq_false_iff_ne, ne_eq]
        exact fun hh => h hh.symm
      simp only [h, find] at ih ⊢
      simp only [Bool.false_eq_true, ↓reduceIte]
      cases e with
      | mk k v => simp only [List.lookup] ; simp only at h1 ; rw [h1] ; exact ih

theorem find_store_ne (g : Graph) (t a : Nat) (adj : List Nat) (h : a ≠ t) :
    find (store g t adj) a = find g a := by
  induction g with
  | nil =>
    have : (a == t) = false := by simpa using h
    simp [store, find, List.lookup, this]
  | cons e rest ih =>
    unfold store
    cases e with
    | mk k v =>
      by_cases hk : (k == t) = true
      · have hkt : k = t := by simpa using hk
        have h1 : (a == t) = false := by simpa using h
        have h2 : (a == k) = false := by simpa [hkt] using h
        simp [hk, find, List.lookup, h1, h2]
      · simp only [hk, find] at ih ⊢
        simp only [Bool.false_eq_true, ↓reduceIte, List.lookup]
        cases hak : (a == k) with
        | true => rfl
        | false => exact ih

theorem mem_pushMissing (w owners : List Nat) (x : Nat) :
    x ∈ pushMissing w owners ↔ x ∈ w ∨ x ∈ owners := by
  unfold pushMissing
  induction owners generalizing w with
  | nil => simp
  | cons o rest ih =>
    simp only [List.foldl_cons, List.mem_cons]
    rw [ih]
    by_cases ho : o ∈ w
    · simp only [ho, ↓reduceIte]
      constructor
      · rintro (h | h)
        · exact Or.inl h
        · exact Or.inr (Or.inr h)
      · rintro (h | h | h)
        · exact Or.inl h
        · exact Or.inl (h ▸ ho)
        · exact Or.inr h
    · simp only [ho, ↓reduceIte, List.mem_append, List.mem_singleton]
      tauto

theorem edge_store_iff (g : Graph) (t : Nat) (owners : List Nat) (a b : Nat) :
    Edge (store g t (pushMissing ((find g t).getD []) owners)) a b ↔ WithEdges g t owners a b := by
  unfold Edge WithEdges Edge
  by_cases hat : a = t
  · subst hat
    simp only [find_store_same, Option.some.injEq, exists_eq_left', mem_pushMissing, true_and]
    cases hf : find g a with
    | none => simp
    | some adj => simp
  · simp only [find_store_ne g t a _ hat, hat, false_and, or_false]

theorem find_isSome_of_edge {g : Graph} {a b : Nat} (h : Edge g a b) : (find g a).isSome = true := by
  obtain ⟨adj, h1, _⟩ := h
  simp [h1]

theorem find_isSome_of_reach {g : Graph} {a b : Nat} (h : Relation.ReflTransGen (Edge g) a b)
    (hb : (find g b).isSome = true) : (find g a).isSome = true := by
  rcases Relation.ReflTransGen.cases_head h with h1 | ⟨c, hc, _⟩
  · rw [h1]; exact hb
  · exact find_isSome_of_edge hc

theorem mem_keys_of_find {g : Graph} {n : Nat} {adj : List Nat} (h : find g n = some adj) :
    (n, adj) ∈ g := by
  induction g with
  | nil => simp [find, List.lookup] at h
  | cons e rest ih =>
    cases e with
    | mk k v =>
      simp only [find, List.lookup] at h
      cases hnk : (n == k) with
      | true =>
        rw [hnk] at h
        have : n = k := by simpa using hnk
        simp only [Option.some.injEq] at h
        simp [this, h]
      | false =>
        rw [hnk] at h
        exact List.mem_cons_of_mem _ (ih h)

theorem unvisited_lt {g : Graph} {n : Nat} {adj : List Nat} {V : List Nat}
    (h : find g n = some adj) (hn : n ∉ V) : unvisited g (n :: V) < unvisited g V := by
  have hmem := mem_keys_of_find h
  unfold unvisited
  clear h
  induction g with
  | nil => simp at hmem
  | cons e rest ih =>
    have hmono : (rest.filter (fun e => decide (e.1 ∉ n :: V))).length ≤
        (rest.filter (fun e => decide (e.1 ∉ V))).length := by
      apply List.Sublist.length_le
      apply List.monotone_filter_right
      intro x hx
      simp only [List.mem_cons, not_or, decide_eq_true_eq] at hx ⊢
      exact hx.2
    rw [List.filter_cons, List.filter_cons]
    rcases List.mem_cons.1 hmem with he | hr
    · subst he
      have h1 : decide (((n, adj) : Nat × List Nat).1 ∉ n :: V) = false := by simp
      have h2 : decide (((n, adj) : Nat × List Nat).1 ∉ V) = true := by simpa using hn
      rw [h1, h2]
      simp only [Bool.false_eq_true, ↓reduceIte, List.length_cons]
      omega
    · have ih1 := ih hr
      by_cases h1 : e.1 ∈ V
      · have h2 : e.1 ∈ n :: V := List.mem_cons_of_mem _ h1
        have d1 : decide (e.1 ∉ n :: V) = false := by simp [h1]
        have d2 : decide (e.1 ∉ V) = false := by simpa using h1
        rw [d1, d2]
        simpa using ih1
      · have d2 : decide (e.1 ∉ V) = true := by simpa using h1
        rw [d2]
        simp only [↓reduceIte, List.length_cons]
        split
        · simp only [List.length_cons]; omega
        · omega

theorem dfsChildren_spec (g : Graph) (call : Nat × List Nat → Option Bool) (Q : Nat → Prop)
    (l : List Nat)
    (hcall : ∀ tx adj, tx ∈ l → find g tx = some adj →
      ∃ b, call (tx, adj) = some b ∧ (b = true ↔ Q tx)) :
    ∃ b, dfsChildren g call l = some b ∧
      (b = true ↔ ∃ tx ∈ l, (find g tx).isSome = true ∧ Q tx) := by
  induction l with
  | nil => exact ⟨false, rfl, by simp⟩
  | cons tx rest ih =>
    have ih1 := ih (fun tx1 adj h1 h2 => hcall tx1 adj (List.mem_cons_of_mem _ h1) h2)
    obtain ⟨b, hb, hbq⟩ := ih1
    unfold dfsChildren
    cases hf : find g tx with
    | none =>
      refine ⟨b, hb, ?_⟩
      rw [hbq]
      constructor
      · rintro ⟨x, hx, h1, h2⟩
        exact ⟨x, List.mem_cons_of_mem _ hx, h1, h2⟩
      · rintro ⟨x, hx, h1, h2⟩
        rcases List.mem_cons.1 hx with hxe | hxr
        · subst hxe; simp [hf] at h1
        · exact ⟨x, hxr, h1, h2⟩
    | some adj =>
      obtain ⟨c, hc, hcq⟩ := hcall tx adj (List.mem_cons_self _ _) hf
      simp only [hc]
      cases c with
      | true =>
        refine ⟨true, rfl, ?_⟩
        simp only [true_iff]
        exact ⟨tx, List.mem_cons_self _ _, by simp [hf], hcq.1 rfl⟩
      | false =>
        refine ⟨b, hb, ?_⟩
        rw [hbq]
        constructor
        · rintro ⟨x, hx, h1, h2⟩
          exact ⟨x, List.mem_cons_of_mem _ hx, h1, h2⟩
        · rintro ⟨x, hx, h1, h2⟩
          rcases List.mem_cons.1 hx with hxe | hxr
          · subst hxe
            have := hcq.2 h2
            simp at this
          · exact ⟨x, hxr, h1, h2⟩

theorem bad_step {g : Graph} {n : Nat} {adj : List Nat} {V : List Nat}
    (hf : find g n = some adj) (hn : n ∉ V) (hV : ∀ v ∈ V, (find g v).isSome = true) :
    (∃ c ∈ adj, (find g c).isSome = true ∧ Bad g c (n :: V)) ↔ Bad g n V := by
  constructor
  · rintro ⟨c, hc, _, hbad⟩
    have hnc : Edge g n c := ⟨adj, hf, hc⟩
    rcases hbad with ⟨v, hv, hr⟩ | ⟨y, hr, hy⟩
    · rcases List.mem_cons.1 hv with hvn | hvV
      · subst hvn
        exact Or.inr ⟨v, Relation.ReflTransGen.refl, Relation.TransGen.head' hnc hr⟩
      · exact Or.inl ⟨v, hvV, Relation.ReflTransGen.head hnc hr⟩
    · exact Or.inr ⟨y, Relation.ReflTransGen.head hnc hr, hy⟩
  · rintro (⟨v, hv, hr⟩ | ⟨y, hr, hy⟩)
    · rcases Relation.ReflTransGen.cases_head hr with h1 | ⟨c, hc, hcv⟩
      · exact absurd (h1 ▸ hv) hn
      · obtain ⟨adj1, h1, h2⟩ := hc
        rw [hf] at h1
        simp only [Option.some.injEq] at h1
        subst h1
        exact ⟨c, h2, find_isSome_of_reach hcv (hV v hv), Or.inl ⟨v, List.mem_cons_of_mem _ hv, hcv⟩⟩
    · have hyS : (find g y).isSome = true := by
        obtain ⟨z, hz, _⟩ := Relation.TransGen.head'_iff.1 hy
        exact find_isSome_of_edge hz
      rcases Relation.ReflTransGen.cases_head hr with h1 | ⟨c, hc, hcy⟩
      · subst h1
        obtain ⟨c, hc, hcn⟩ := Relation.TransGen.head'_iff.1 hy
        obtain ⟨adj1, h1, h2⟩ := hc
        rw [hf] at h1
        simp only [Option.some.injEq] at h1
        subst h1
        exact ⟨c, h2, find_isSome_of_reach hcn hyS, Or.inl ⟨n, List.mem_cons_self _ _, hcn⟩⟩
      · obtain ⟨adj1, h1, h2⟩ := hc
        rw [hf] at h1
        simp only [Option.some.injEq] at h1
        subst h1
        exact ⟨c, h2, find_isSome_of_reach hcy hyS, Or.inr ⟨y, hcy, hy⟩⟩

theorem findDuplicateAux_spec (fuel : Nat) (g : Graph) (n : Nat) (adj : List Nat) (V : List Nat)
    (hf : find g n = some adj) (hV : ∀ v ∈ V, (find g v).isSome = true)
    (hfuel : unvisited g V < fuel) :
    ∃ b, findDuplicateAux fuel g (n, adj) V = some b ∧ (b = true ↔ Bad g n V) := by
  induction fuel generalizing n adj V with
  | zero => omega
  | succ fuel ih =>
    unfold findDuplicateAux
    by_cases hn : n ∈ V
    · simp only [hn, ↓reduceIte]
      exact ⟨true, rfl, by simpa using Or.inl ⟨n, hn, Relation.ReflTransGen.refl⟩⟩
    · simp only [hn, ↓reduceIte]
      have hlt := unvisited_lt hf hn
      have hV1 : ∀ v ∈ n :: V, (find g v).isSome = true := by
        intro v hv
        rcases List.mem_cons.1 hv with h1 | h1
        · subst h1; simp [hf]
        · exact hV v h1
      obtain ⟨b, hb, hbq⟩ := dfsChildren_spec g
        (fun m => findDuplicateAux fuel g m (n :: V)) (fun c => Bad g c (n :: V)) adj
        (fun tx adj1 _ h2 => ih tx adj1 (n :: V) h2 hV1 (by omega))
      exact ⟨b, hb, hbq.trans (bad_step hf hn hV)⟩

theorem unvisited_nil (g : Graph) : unvisited g [] = g.length := by
  unfold unvisited
  simp

theorem findDuplicate_spec (g : Graph) (n : Nat) (adj : List Nat) (hf : find g n = some adj) :
    ∃ b, findDuplicate g (n, adj) = some b ∧
      (b = true ↔ ∃ y, Relation.ReflTransGen (Edge g) n y ∧ Relation.TransGen (Edge g) y y) := by
  obtain ⟨b, hb, hbq⟩ := findDuplicateAux_spec (g.length + 1) g n adj [] hf (by simp)
    (by rw [unvisited_nil]; omega)
  refine ⟨b, hb, hbq.trans ?_⟩
  unfold Bad
  simp

theorem checkOwners_spec (g : Graph) (t : Nat) (owners : List Nat) :
    ∃ out, checkOwners g t owners = some out ∧
      (out.deadlock = true ↔ ∃ o ∈ owners, (find g o).isSome = true ∧
        ∃ y, Relation.ReflTransGen (Edge g) o y ∧ Relation.TransGen (Edge g) y y) ∧
      (out.deadlock = true → out.graph = erase g t) ∧
      (out.deadlock = false → out.graph = g) := by
  induction owners with
  | nil => exact ⟨⟨g, false⟩, rfl, by simp, by simp, by simp⟩
  | cons o rest ih =>
    obtain ⟨out, hout, hq, hg1, hg2⟩ := ih
    unfold checkOwners
    cases hf : find g o with
    | none =>
      refine ⟨out, hout, ?_, hg1, hg2⟩
      rw [hq]
      constructor
      · rintro ⟨x, hx, h1, h2⟩
        exact ⟨x, List.mem_cons_of_mem _ hx, h1, h2⟩
      · rintro ⟨x, hx, h1, h2⟩
        rcases List.mem_cons.1 hx with hxe | hxr
        · subst hxe; simp [hf] at h1
        · exact ⟨x, hxr, h1, h2⟩
    | some adj =>
      obtain ⟨b, hb, hbq⟩ := findDuplicate_spec g o adj hf
      simp only [hb]
      cases b with
      | true =>
        refine ⟨⟨erase g t, true⟩, rfl, ?_, by simp, by simp⟩
        simp only [true_iff]
        exact ⟨o, List.mem_cons_self _ _, by simp [hf], hbq.1 rfl⟩
      | false =>
        refine ⟨out, hout, ?_, hg1, hg2⟩
        rw [hq]
        constructor
        · rintro ⟨x, hx, h1, h2⟩
          exact ⟨x, List.mem_cons_of_mem _ hx, h1, h2⟩
        · rintro ⟨x, hx, h1, h2⟩
          rcases List.mem_cons.1 hx with hxe | hxr
          · subst hxe
            have := hbq.2 h2
            simp at this
          · exact ⟨x, hxr, h1, h2⟩

theorem withEdges_split {g : Graph} {t : Nat} {owners : List Nat} {x y : Nat}
    (h : Relation.TransGen (WithEdges g t owners) x y) :
    Relation.TransGen (Edge g) x y ∨
      ∃ o ∈ owners, Relation.ReflTransGen (WithEdges g t owners) x t ∧
        Relation.ReflTransGen (WithEdges g t owners) o y := by
  induction h with
  | single hxy =>
    rcases hxy with h1 | ⟨h1, h2⟩
    · exact Or.inl (Relation.TransGen.single h1)
    · subst h1
      exact Or.inr ⟨_, h2, Relation.ReflTransGen.refl, Relation.ReflTransGen.refl⟩
  | tail hxy hyz ih =>
    rcases hyz with h1 | ⟨h1, h2⟩
    · rcases ih with h3 | ⟨o, ho, h4, h5⟩
      · exact Or.inl (Relation.TransGen.tail h3 h1)
      · exact Or.inr ⟨o, ho, h4, Relation.ReflTransGen.tail h5 (Or.inl h1)⟩
    · subst h1
      exact Or.inr ⟨_, h2, hxy.to_reflTransGen, Relation.ReflTransGen.refl⟩

theorem withEdges_reach_old {g : Graph} {t : Nat} {owners : List Nat} {a : Nat}
    (h : Relation.ReflTransGen (WithEdges g t owners) a t) :
    Relation.ReflTransGen (Edge g) a t ∨ ∃ o ∈ owners, Relation.ReflTransGen (Edge g) o t := by
  induction h using Relation.ReflTransGen.head_induction_on with
  | refl => exact Or.inl Relation.ReflTransGen.refl
  | head hab _ ih =>
    rcases hab with h1 | ⟨_, h2⟩
    · rcases ih with h3 | h3
      · exact Or.inl (Relation.ReflTransGen.head h1 h3)
      · exact Or.inr h3
    · rcases ih with h3 | h3
      · exact Or.inr ⟨_, h2, h3⟩
      · exact Or.inr h3

theorem withEdges_cycle_iff (g : Graph) (t : Nat) (owners : List Nat) (hac : ¬ HasCycle g) :
    (∃ x, Relation.TransGen (WithEdges g t owners) x x) ↔
      (t ∈ owners ∨ ∃ o ∈ owners, Relation.TransGen (Edge g) o t) := by
  constructor
  · rintro ⟨x, hx⟩
    rcases withEdges_split hx with h1 | ⟨o, ho, h1, h2⟩
    · exact absurd ⟨x, h1⟩ hac
    · rcases withEdges_reach_old (h2.trans h1) with h3 | ⟨o1, ho1, h3⟩
      · rcases Relation.reflTransGen_iff_eq_or_transGen.1 h3 with h4 | h4
        · exact Or.inl (h4 ▸ ho)
        · exact Or.inr ⟨o, ho, h4⟩
      · rcases Relation.reflTransGen_iff_eq_or_transGen.1 h3 with h4 | h4
        · exact Or.inl (h4 ▸ ho1)
        · exact Or.inr ⟨o1, ho1, h4⟩
  · rintro (h | ⟨o, ho, h⟩)
    · exact ⟨t, Relation.TransGen.single (Or.inr ⟨rfl, h⟩)⟩
    · exact ⟨t, Relation.TransGen.head (Or.inr ⟨rfl, ho⟩)
        (Relation.TransGen.mono (fun a b hab => Or.inl hab) h)⟩

/-- C5. For an acyclic waits-for graph `g`, `addWaitsFor(t, l)` returns, and it
raises `DeadLockError` exactly when the graph with the new edges `t -> o`
(`o` an owner of `l`) has a cycle, which is the case exactly when `t` owns `l`
or some owner of `l` reaches `t` in `g`. -/
theorem addWaitsFor_raises_iff_cycle (g : Graph) (t : Nat) (owners : List Nat)
    (hac : ¬ HasCycle g) :
    ∃ out, addWaitsFor g t owners = some out ∧
      (out.deadlock = true ↔ ∃ x, Relation.TransGen (WithEdges g t owners) x x) ∧
      ((∃ x, Relation.TransGen (WithEdges g t owners) x x) ↔
        (t ∈ owners ∨ ∃ o ∈ owners, Relation.TransGen (Edge g) o t)) := by
  obtain ⟨out, hout, hq, _, _⟩ :=
    checkOwners_spec (store g t (pushMissing ((find g t).getD []) owners)) t owners
  refine ⟨out, hout, ?_, withEdges_cycle_iff g t owners hac⟩
  have hE : Edge (store g t (pushMissing ((find g t).getD []) owners)) = WithEdges g t owners := by
    funext a b
    exact propext (edge_store_iff g t owners a b)
  rw [hq, hE]
  constructor
  · rintro ⟨o, _, _, y, _, hy⟩
    exact ⟨y, hy⟩
  · rintro ⟨x, hx⟩
    rcases withEdges_split hx with h1 | ⟨o, ho, h1, h2⟩
    · exact absurd ⟨x, h1⟩ hac
    · have hto : WithEdges g t owners t o := Or.inr ⟨rfl, ho⟩
      have hcyc : Relation.TransGen (WithEdges g t owners) o o :=
        Relation.TransGen.tail' (h2.trans h1) hto
      refine ⟨o, ho, ?_, o, Relation.ReflTransGen.refl, hcyc⟩
      obtain ⟨z, hz, _⟩ := Relation.TransGen.head'_iff.1 hcyc
      rw [← hE] at hz
      exact find_isSome_of_edge hz

theorem acyclic_of_increasing (g : Graph) (h : ∀ a b, Edge g a b → a < b) : ¬ HasCycle g := by
  have hlt : ∀ a b, Relation.TransGen (Edge g) a b → a < b := by
    intro a b hab
    induction hab with
    | single h1 => exact h _ _ h1
    | tail _ h2 ih => exact lt_trans ih (h _ _ h2)
  rintro ⟨x, hx⟩
  exact lt_irrefl x (hlt x x hx)

/-- C5, witness: the diamond of the test `NoDeadLock` (T1 -> T2 -> T3 and T1 -> T3)
is acyclic, `addWaitsFor` returns normally on it, and the graph with the new
edge has no cycle. -/
theorem addWaitsFor_diamond_witness :
    ¬ HasCycle [(0, [1]), (1, [2]), (2, [3])] ∧
    addWaitsFor [(0, [1]), (1, [2]), (2, [3])] 1 [3] =
      some ⟨[(0, [1]), (1, [2, 3]), (2, [3])], false⟩ ∧
    ¬ (∃ x, Relation.TransGen (WithEdges [(0, [1]), (1, [2]), (2, [3])] 1 [3]) x x) := by
  have hac : ¬ HasCycle [(0, [1]), (1, [2]), (2, [3])] := by
    apply acyclic_of_increasing
    rintro a b ⟨adj, h1, h2⟩
    simp only [find, List.lookup] at h1
    split at h1
    · simp only [Option.some.injEq] at h1
      subst h1
      simp_all
    · split at h1
      · simp only [Option.some.injEq] at h1
        subst h1
        simp_all
      · split at h1
        · simp only [Option.some.injEq] at h1
          subst h1
          simp_all
        · simp at h1
  obtain ⟨out, h1, h2, _⟩ := addWaitsFor_raises_iff_cycle [(0, [1]), (1, [2]), (2, [3])] 1 [3] hac
  have he : addWaitsFor [(0, [1]), (1, [2]), (2, [3])] 1 [3] =
      some ⟨[(0, [1]), (1, [2, 3]), (2, [3])], false⟩ := by decide
  refine ⟨hac, he, ?_⟩
  rw [he] at h1
  simp only [Option.some.injEq] at h1
  rw [← h1] at h2
  intro hc
  have := h2.2 hc
  simp at this

/-- C6, failing input: from the empty graph, `addWaitsFor(T1, lock owned by T2)`
returns normally; then `addWaiters(T1, [T2])` raises `DeadLockError` and leaves
both edges in the graph, which now has the cycle T1 -> T2 -> T1. -/
theorem addWaiters_raises_and_keeps_cycle :
    addWaitsFor [] 1 [2] = some ⟨[(1, [2])], false⟩ ∧
    addWaiters [(1, [2])] 1 [2] = some ⟨[(1, [2]), (2, [1])], true⟩ ∧
    HasCycle [(1, [2]), (2, [1])] := by
  refine ⟨by decide, by decide, 1, ?_⟩
  have h12 : Edge [(1, [2]), (2, [1])] 1 2 := ⟨[2], by decide, by simp⟩
  have h21 : Edge [(1, [2]), (2, [1])] 2 1 := ⟨[1], by decide, by simp⟩
  exact Relation.TransGen.tail (Relation.TransGen.single h12) h21

end WaitsForGraph

namespace WaitsForGraph

theorem erase_store (g : Graph) (t : Nat) (adj : List Nat) : erase (store g t adj) t = erase g t := by
  induction g with
  | nil => simp [store, erase]
  | cons e rest ih =>
    unfold store
    by_cases he : (e.1 == t) = true
    · rw [if_pos he]
      have : e.1 = t := by simpa using he
      simp [erase, List.filter_cons, this]
    · rw [if_neg he]
      have h1 : erase (e :: store rest t adj) t =
          (if (e.1 != t) = true then e :: erase (store rest t adj) t else erase (store rest t adj) t) := by
        simp [erase, List.filter_cons]
      have h2 : erase (e :: rest) t =
          (if (e.1 != t) = true then e :: erase rest t else erase rest t) := by
        simp [erase, List.filter_cons]
      rw [h1, h2, ih]

theorem find_erase_same (g : Graph) (t : Nat) : find (erase g t) t = none := by
  induction g with
  | nil => rfl
  | cons e rest ih =>
    obtain ⟨k, v⟩ := e
    by_cases hk : k = t
    · have : erase ((k, v) :: rest) t = erase rest t := by simp [erase, List.filter_cons, hk]
      rw [this]; exact ih
    · have : erase ((k, v) :: rest) t = (k, v) :: erase rest t := by simp [erase, List.filter_cons, hk]
      rw [this]
      have htk : (t == k) = false := by simpa using (fun h : t = k => hk h.symm)
      simp only [find, List.lookup, htk]
      exact ih

theorem find_erase_ne (g : Graph) (t a : Nat) (h : a ≠ t) : find (erase g t) a = find g a := by
  induction g with
  | nil => rfl
  | cons e rest ih =>
    obtain ⟨k, v⟩ := e
    by_cases hk : k = t
    · have h1 : erase ((k, v) :: rest) t = erase rest t := by simp [erase, List.filter_cons, hk]
      rw [h1, ih]
      have hak : (a == k) = false := by simpa [hk] using h
      simp only [find, List.lookup, hak]
    · have h1 : erase ((k, v) :: rest) t = (k, v) :: erase rest t := by simp [erase, List.filter_cons, hk]
      rw [h1]
      by_cases hak : a = k
      · subst hak; simp [find, List.lookup]
      · have hak2 : (a == k) = false := by simpa using hak
        simp only [find, List.lookup, hak2]
        exact ih

/-- C16, counterexample: T1 waits for T3 (edge T1 -> T3) and T2 waits for T1;
then `addWaitsFor(T1, lock owned by T2)` closes the cycle T1 -> T2 -> T1 and
raises `DeadLockError`. The graph after the call has lost the edge T1 -> T3
that existed before the call, so it is not the graph before the call. -/
theorem addWaitsFor_raise_drops_old_edges :
    addWaitsFor [] 1 [3] = some ⟨[(1, [3])], false⟩ ∧
    addWaitsFor [(1, [3])] 2 [1] = some ⟨[(1, [3]), (2, [1])], false⟩ ∧
    addWaitsFor [(1, [3]), (2, [1])] 1 [2] = some ⟨[(2, [1])], true⟩ ∧
    Edge [(1, [3]), (2, [1])] 1 3 ∧ ¬ Edge [(2, [1])] 1 3 := by
  refine ⟨by decide, by decide, by decide, ⟨[3], by decide, by simp⟩, ?_⟩
  rintro ⟨adj, h1, _⟩
  have : find [(2, [1])] 1 = none := by decide
  rw [this] at h1
  cases h1

/-- C16 (amended). When `addWaitsFor(t, l)` raises `DeadLockError`, the graph
after the call is the graph before the call with the whole entry of `t`
erased: `t` has no outgoing edge left (neither those added by this call nor
those it had before), and the adjacency list of every other transaction is
the one it had before the call. -/
theorem addWaitsFor_raise_erases_waiter (g : Graph) (t : Nat) (owners : List Nat) (out : Outcome)
    (h : addWaitsFor g t owners = some out) (hd : out.deadlock = true) :
    out.graph = erase g t ∧ find out.graph t = none ∧
      (∀ a, a ≠ t → find out.graph a = find g a) ∧
      (∀ a b, Edge out.graph a b ↔ (a ≠ t ∧ Edge g a b)) := by
  obtain ⟨o2, ho2, _, hg, _⟩ :=
    checkOwners_spec (store g t (pushMissing ((find g t).getD []) owners)) t owners
  have he : o2 = out := by
    have : addWaitsFor g t owners = some o2 := ho2
    rw [h] at this
    exact (Option.some.inj this).symm
  subst he
  have hgr : o2.graph = erase g t := by rw [hg hd, erase_store]
  refine ⟨hgr, by rw [hgr]; exact find_erase_same g t,
    fun a ha => by rw [hgr]; exact find_erase_ne g t a ha, ?_⟩
  intro a b
  rw [hgr]
  constructor
  · rintro ⟨adj, h1, h2⟩
    by_cases ha : a = t
    · subst ha; rw [find_erase_same] at h1; cases h1
    · rw [find_erase_ne g t a ha] at h1
      exact ⟨ha, adj, h1, h2⟩
  · rintro ⟨ha, adj, h1, h2⟩
    exact ⟨adj, by rw [find_erase_ne g t a ha]; exact h1, h2⟩

/-- C16 (amended), witness: the raising call of the counterexample; the graph
left behind is the old graph without the entry of T1. -/
theorem addWaitsFor_raise_erases_waiter_witness :
    addWaitsFor [(1, [3]), (2, [1])] 1 [2] = some ⟨[(2, [1])], true⟩ ∧
    (⟨[(2, [1])], true⟩ : Outcome).graph = erase [(1, [3]), (2, [1])] 1 ∧
    find (⟨[(2, [1])], true⟩ : Outcome).graph 1 = none :=
  ⟨by decide,
   (addWaitsFor_raise_erases_waiter [(1, [3]), (2, [1])] 1 [2] ⟨[(2, [1])], true⟩ (by decide) rfl).1,
   (addWaitsFor_raise_erases_waiter [(1, [3]), (2, [1])] 1 [2] ⟨[(2, [1])], true⟩ (by decide) rfl).2.1⟩

end WaitsForGraph

/-! ## Waits-for graph: the search `findDuplicate` terminates -/

namespace WaitsForGraph

theorem unvisited_le (g : Graph) (V : List Nat) : unvisited g V ≤ g.length := by
  unfold unvisited
  exact List.length_filter_le _ _

/-- C40. For every graph, every node `n` of it and every path `V` of nodes of
the graph, the search from `n` returns once it may go `unvisited g V + 1` levels
deep, whatever larger bound it is given; `unvisited g V`, the number of nodes
not on the path, is at most the number of nodes, and it drops with every
recursive call: a node that is on the path answers at once, any other node
recurses with itself added to the path. So `findDuplicate(graph, node)`, which starts with the
empty path, returns for every graph, cyclic or not, with the answer of every
deeper search. -/
theorem findDuplicate_terminates (g : Graph) (n : Nat) (adj : List Nat)
    (hf : find g n = some adj) :
    (∃ b, findDuplicate g (n, adj) = some b ∧
      ∀ fuel, g.length < fuel → findDuplicateAux fuel g (n, adj) [] = some b) ∧
    (∀ V, (∀ v ∈ V, (find g v).isSome = true) →
      ∃ b, ∀ fuel, unvisited g V < fuel → findDuplicateAux fuel g (n, adj) V = some b) ∧
    (∀ V, unvisited g V ≤ g.length) ∧
    (∀ V, n ∉ V → unvisited g (n :: V) < unvisited g V) := by
  have hgen : ∀ V, (∀ v ∈ V, (find g v).isSome = true) →
      ∃ b, ∀ fuel, unvisited g V < fuel → findDuplicateAux fuel g (n, adj) V = some b := by
    intro V hV
    obtain ⟨b, hb, hbq⟩ := findDuplicateAux_spec (unvisited g V + 1) g n adj V hf hV
      (Nat.lt_succ_self _)
    refine ⟨b, ?_⟩
    intro fuel hfuel
    obtain ⟨b1, hb1, hbq1⟩ := findDuplicateAux_spec fuel g n adj V hf hV hfuel
    rw [hb1]
    congr 1
    cases b <;> cases b1 <;> simp_all
  refine ⟨?_, hgen, unvisited_le g, fun V hn => unvisited_lt hf hn⟩
  obtain ⟨b, hb⟩ := hgen [] (by simp)
  refine ⟨b, ?_, ?_⟩
  · unfold findDuplicate
    exact hb _ (by rw [unvisited_nil]; omega)
  · intro fuel hfuel
    exact hb fuel (by rw [unvisited_nil]; exact hfuel)

/-- C40 on the cycle 1 -> 2 -> 1 -> ..., searched from node 1. -/
theorem findDuplicate_terminates_witness :
    findDuplicate [(1, [2]), (2, [1])] (1, [2]) = some true ∧
    ∃ b, findDuplicate [(1, [2]), (2, [1])] (1, [2]) = some b ∧
      ∀ fuel, [(1, [2]), (2, [1])].length < fuel →
        findDuplicateAux fuel [(1, [2]), (2, [1])] (1, [2]) [] = some b :=
  ⟨by decide, (findDuplicate_terminates [(1, [2]), (2, [1])] 1 [2] (by decide)).1⟩

end WaitsForGraph

/-! ## Lock manager: what `getLockMode` reports -/

namespace LockManager

theorem find_item_mem {objects : Nat → Lock} {y : Nat} {chain : List Nat} {id : Nat}
    (h : chain.find? (fun j => (objects j).item == y) = some id) :
    id ∈ chain ∧ (objects id).item = y := by
  refine ⟨List.mem_of_find?_eq_some h, ?_⟩
  have := List.find?_some h
  simpa using this

theorem modeIn_of_mem {objects : Nat → Lock} {y : Nat} {chain : List Nat} {id : Nat}
    (hnd : (chain.map (fun j => (objects j).item)).Nodup) (hm : id ∈ chain)
    (hy : (objects id).item = y) :
    modeIn objects y chain =
      if (objects id).refs = 0 then LockMode.Unlocked else (objects id).ownership := by
  unfold modeIn
  cases hf : chain.find? (fun j => (objects j).item == y) with
  | none =>
    rw [List.find?_eq_none] at hf
    have := hf id hm
    simp [hy] at this
  | some j =>
    obtain ⟨hj, hjy⟩ := find_item_mem hf
    have : j = id := List.inj_on_of_nodup_map hnd hj hm (hjy.trans hy.symm)
    rw [this]

theorem modeIn_absent {objects : Nat → Lock} {y : Nat} {chain : List Nat}
    (h : ∀ id ∈ chain, (objects id).item = y → (objects id).refs = 0) :
    modeIn objects y chain = LockMode.Unlocked := by
  unfold modeIn
  cases hf : chain.find? (fun j => (objects j).item == y) with
  | none => rfl
  | some j =>
    obtain ⟨hj, hjy⟩ := find_item_mem hf
    simp only
    rw [if_pos (h j hj hjy)]

/-- The lock in use for an item decides the mode: two chains that hold the
same locks in use for `y` report the same mode. -/
theorem modeIn_congr {o o1 : Nat → Lock} {y : Nat} {c c1 : List Nat}
    (hnd : (c.map (fun j => (o j).item)).Nodup)
    (hnd1 : (c1.map (fun j => (o1 j).item)).Nodup)
    (h1 : ∀ j ∈ c, (o j).item = y → (o j).refs ≠ 0 → j ∈ c1 ∧ (o1 j).item = (o j).item ∧
      (o1 j).refs = (o j).refs ∧ (o1 j).ownership = (o j).ownership)
    (h2 : ∀ j ∈ c1, (o1 j).item = y → (o1 j).refs ≠ 0 → j ∈ c ∧ (o1 j).item = (o j).item ∧
      (o1 j).refs = (o j).refs ∧ (o1 j).ownership = (o j).ownership) :
    modeIn o1 y c1 = modeIn o y c := by
  by_cases hex : ∃ j ∈ c, (o j).item = y ∧ (o j).refs ≠ 0
  · obtain ⟨j, hj, hjy, hjr⟩ := hex
    obtain ⟨hj1, e1, e2, e3⟩ := h1 j hj hjy hjr
    rw [modeIn_of_mem hnd hj hjy, modeIn_of_mem hnd1 hj1 (by rw [e1]; exact hjy), e2, e3]
  · have ha : ∀ j ∈ c, (o j).item = y → (o j).refs = 0 := by
      intro j hj hjy
      by_contra hr
      exact hex ⟨j, hj, hjy, hr⟩
    have hb : ∀ j ∈ c1, (o1 j).item = y → (o1 j).refs = 0 := by
      intro j hj hjy
      by_contra hr
      obtain ⟨hjc, e1, e2, _⟩ := h2 j hj hjy hr
      rw [e1] at hjy
      rw [e2] at hr
      exact hr (ha j hjc hjy)
    rw [modeIn_absent ha, modeIn_absent hb]

/-- What the scan of a chain keeps and finds. -/
theorem scanChain_spec (objects : Nat → Lock) (x : Nat) : ∀ (chain : List Nat),
    (∀ j ∈ (scanChain objects x chain).1, (objects j).refs ≠ 0 ∧ (objects j).item ≠ x) ∧
    ((scanChain objects x chain).2 = none →
      (scanChain objects x chain).1.Sublist chain ∧
      (∀ j ∈ chain, (objects j).refs ≠ 0 → j ∈ (scanChain objects x chain).1)) ∧
    (∀ id rest, (scanChain objects x chain).2 = some (id, rest) →
      ((scanChain objects x chain).1 ++ id :: rest).Sublist chain ∧
      (objects id).refs ≠ 0 ∧ (objects id).item = x ∧
      (∀ j ∈ chain, (objects j).refs ≠ 0 → j ∈ (scanChain objects x chain).1 ++ id :: rest)) := by
  intro chain
  induction chain with
  | nil =>
    simp [scanChain]
  | cons a rest ih =>
    obtain ⟨i1, i2, i3⟩ := ih
    unfold scanChain
    by_cases hr : (objects a).refs = 0
    · simp only [hr, ↓reduceIte]
      refine ⟨i1, ?_, ?_⟩
      · intro hn
        obtain ⟨k1, k2⟩ := i2 hn
        refine ⟨List.Sublist.cons _ k1, ?_⟩
        intro j hj hjr
        rcases List.mem_cons.1 hj with h | h
        · rw [h] at hjr; exact absurd hr hjr
        · exact k2 j h hjr
      · intro id rest1 hs
        obtain ⟨k1, k2, k3, k4⟩ := i3 id rest1 hs
        refine ⟨List.Sublist.cons _ k1, k2, k3, ?_⟩
        intro j hj hjr
        rcases List.mem_cons.1 hj with h | h
        · rw [h] at hjr; exact absurd hr hjr
        · exact k4 j h hjr
    · simp only [hr, ↓reduceIte]
      by_cases hx : (objects a).item = x
      · simp only [hx, ↓reduceIte]
        refine ⟨by simp, by simp, ?_⟩
        intro id rest1 hs
        simp only [Option.some.injEq, Prod.mk.injEq] at hs
        obtain ⟨h1, h2⟩ := hs
        subst h1 h2
        simp only [List.nil_append]
        exact ⟨List.Sublist.refl _, hr, hx, fun j hj _ => hj⟩
      · simp only [hx, ↓reduceIte]
        refine ⟨?_, ?_, ?_⟩
        · intro j hj
          rcases List.mem_cons.1 hj with h | h
          · rw [h]; exact ⟨hr, hx⟩
          · exact i1 j h
        · intro hn
          obtain ⟨k1, k2⟩ := i2 hn
          refine ⟨List.Sublist.cons₂ _ k1, ?_⟩
          intro j hj hjr
          rcases List.mem_cons.1 hj with h | h
          · rw [h]; exact List.mem_cons_self _ _
          · exact List.mem_cons_of_mem _ (k2 j h hjr)
        · intro id rest1 hs
          obtain ⟨k1, k2, k3, k4⟩ := i3 id rest1 hs
          refine ⟨?_, k2, k3, ?_⟩
          · simp only [List.cons_append]
            exact List.Sublist.cons₂ _ k1
          · intro j hj hjr
            rcases List.mem_cons.1 hj with h | h
            · rw [h]; simp
            · simp only [List.cons_append]
              exact List.mem_cons_of_mem _ (k4 j h hjr)

theorem find_of_mem {objects : Nat → Lock} {y : Nat} {chain : List Nat} {id : Nat}
    (hnd : (chain.map (fun j => (objects j).item)).Nodup) (hm : id ∈ chain)
    (hy : (objects id).item = y) :
    chain.find? (fun j => (objects j).item == y) = some id := by
  cases hf : chain.find? (fun j => (objects j).item == y) with
  | none =>
    rw [List.find?_eq_none] at hf
    have := hf id hm
    simp [hy] at this
  | some j =>
    obtain ⟨hj, hjy⟩ := find_item_mem hf
    have : j = id := List.inj_on_of_nodup_map hnd hj hm (hjy.trans hy.symm)
    rw [this]

theorem lookupLock_spec (s : State) (x : Nat) (hinv : Inv s) :
    Looked s x (lookupLock s x).1 (lookupLock s x).2 := by
  obtain ⟨r1, r2, r3⟩ := scanChain_spec s.objects x (s.table (s.hash x % s.table_size))
  have hndb := hinv.items (s.hash x % s.table_size)
  unfold lookupLock
  simp only
  cases hsc : (scanChain s.objects x (s.table (s.hash x % s.table_size))).2 with
  | some p =>
    obtain ⟨id, rest⟩ := p
    obtain ⟨k1, k2, k3, k4⟩ := r3 id rest hsc
    have hidm : id ∈ s.table (s.hash x % s.table_size) :=
      k1.subset (by simp)
    have hitem : ∀ j, (Function.update s.objects id
        { s.objects id with refs := (s.objects id).refs + 1 } j).item = (s.objects j).item := by
      intro j
      by_cases hj : j = id
      · rw [hj, Function.update_same]
      · rw [Function.update_noteq hj]
    have hmap : ∀ l : List Nat, l.map (fun j => (Function.update s.objects id
        { s.objects id with refs := (s.objects id).refs + 1 } j).item) =
        l.map (fun j => (s.objects j).item) := by
      intro l
      apply List.map_congr_left
      intro j _
      exact hitem j
    have htab : ∀ b j, j ∈ Function.update s.table (s.hash x % s.table_size)
        ((scanChain s.objects x (s.table (s.hash x % s.table_size))).1 ++ id :: rest) b →
        j ∈ s.table b := by
      intro b j hj
      by_cases hb : b = s.hash x % s.table_size
      · rw [hb, Function.update_same] at hj
        rw [hb]
        exact k1.subset hj
      · rw [Function.update_noteq hb] at hj
        exact hj
    simp only
    refine ⟨rfl, rfl, rfl, rfl, ?_, ?_, ?_, ?_, ?_, ?_, ?_, ?_, ?_, ?_⟩
    · simp only [Function.update_same]
      exact k3
    · intro j hj
      simp only [Function.update_noteq hj]
    · simp only [Function.update_same]
      apply find_of_mem
      · rw [hmap]
        exact List.Nodup.sublist (List.Sublist.map _ k1) hndb
      · simp
      · rw [hitem]; exact k3
    · intro b j hj
      exact hinv.fresh b j (htab b j hj)
    · intro b
      simp only
      rw [hmap]
      by_cases hb : b = s.hash x % s.table_size
      · rw [hb, Function.update_same]
        exact List.Nodup.sublist (List.Sublist.map _ k1) hndb
      · rw [Function.update_noteq hb]
        exact hinv.items b
    · intro j hj
      have hne : j ≠ id := by
        have := hinv.fresh _ id hidm
        simp only at hj
        omega
      simp only [Function.update_noteq hne]
      exact hinv.unused j hj
    · exact hinv.fresh _ id hidm
    · intro b j hj hjr hjm
      simp only
      by_cases hb : b = s.hash x % s.table_size
      · rw [hb, Function.update_same]
        rw [hb] at hjm
        exact k4 j hjm hjr
      · rw [Function.update_noteq hb]
        exact hjm
    · intro b j hj _
      exact htab b j hj
    · left
      simp only [Function.update_same]
      refine ⟨trivial, k2, k3, hidm, ?_⟩
      unfold holder
      rw [find_of_mem hndb hidm k3]
      simp only
      rw [if_neg k2]
  | none =>
    obtain ⟨k1, k2⟩ := r2 hsc
    have hfresh : ∀ b, s.allocated ∉ s.table b := by
      intro b hm
      have := hinv.fresh b _ hm
      omega
    have hitem : ∀ b, ∀ j ∈ s.table b, (Function.update s.objects s.allocated
        (Lock.construct x) j).item = (s.objects j).item := by
      intro b j hj
      have : j ≠ s.allocated := fun hh => hfresh b (hh ▸ hj)
      rw [Function.update_noteq this]
    have hmap : ∀ b, ∀ l : List Nat, l.Sublist (s.table b) →
        l.map (fun j => (Function.update s.objects s.allocated (Lock.construct x) j).item) =
        l.map (fun j => (s.objects j).item) := by
      intro b l hl
      apply List.map_congr_left
      intro j hj
      exact hitem b j (hl.subset hj)
    simp only
    refine ⟨rfl, rfl, rfl, rfl, ?_, ?_, ?_, ?_, ?_, ?_, ?_, ?_, ?_, ?_⟩
    · simp only [Function.update_same]
      rfl
    · intro j hj
      simp only [Function.update_noteq hj]
    · simp only [Function.update_same]
      rw [List.find?_cons_of_pos]
      simp only [Function.update_same, beq_iff_eq]
      rfl
    · intro b j hj
      simp only at hj ⊢
      by_cases hb : b = s.hash x % s.table_size
      · rw [hb, Function.update_same] at hj
        rcases List.mem_cons.1 hj with h | h
        · omega
        · have := hinv.fresh _ j (k1.subset h)
          omega
      · rw [Function.update_noteq hb] at hj
        have := hinv.fresh b j hj
        omega
    · intro b
      simp only
      by_cases hb : b = s.hash x % s.table_size
      · rw [hb, Function.update_same, List.map_cons, List.nodup_cons]
        rw [hmap _ _ k1]
        refine ⟨?_, List.Nodup.sublist (List.Sublist.map _ k1) hndb⟩
        simp only [Function.update_same, List.mem_map, not_exists, not_and]
        intro j hj hjx
        exact (r1 j hj).2 hjx
      · rw [Function.update_noteq hb, hmap b _ (List.Sublist.refl _)]
        exact hinv.items b
    · intro j hj
      simp only at hj
      have hne : j ≠ s.allocated := by omega
      simp only [Function.update_noteq hne]
      exact hinv.unused j (by omega)
    · exact Nat.lt_succ_self _
    · intro b j hj hjr hjm
      simp only
      by_cases hb : b = s.hash x % s.table_size
      · rw [hb, Function.update_same]
        rw [hb] at hjm
        exact List.mem_cons_of_mem _ (k2 j hjm hjr)
      · rw [Function.update_noteq hb]
        exact hjm
    · intro b j hj hjn
      simp only at hj
      by_cases hb : b = s.hash x % s.table_size
      · rw [hb, Function.update_same] at hj
        rw [hb]
        rcases List.mem_cons.1 hj with h | h
        · exact absurd h hjn
        · exact k1.subset h
      · rw [Function.update_noteq hb] at hj
        exact hj
    · right
      simp only [Function.update_same]
      refine ⟨trivial, hinv.unused _ (le_refl _), ?_⟩
      unfold holder
      cases hf : (s.table (s.hash x % s.table_size)).find?
          (fun j => (s.objects j).item == x) with
      | none => rfl
      | some j =>
        obtain ⟨hj, hjx⟩ := find_item_mem hf
        simp only
        by_cases hjr : (s.objects j).refs = 0
        · rw [if_pos hjr]
        · exact absurd hjx (r1 j (k2 j hj hjr)).2

theorem tryLock_some {l locked : Lock} {m : LockMode} (h : l.tryLock m = some locked) :
    l.writer = false ∧
    ((m = LockMode.Shared ∧ locked = { l with readers := l.readers + 1 }) ∨
     (m ≠ LockMode.Shared ∧ l.readers = 0 ∧ locked = { l with writer := true })) := by
  unfold Lock.tryLock at h
  by_cases hm : m = LockMode.Shared
  · rw [if_pos hm] at h
    cases hw : l.writer with
    | true => rw [hw] at h; simp at h
    | false =>
      rw [hw] at h
      simp only [Bool.false_eq_true, ↓reduceIte, Option.some.injEq] at h
      exact ⟨rfl, Or.inl ⟨hm, h.symm⟩⟩
  · rw [if_neg hm] at h
    cases hw : l.writer with
    | true => rw [hw] at h; simp at h
    | false =>
      rw [hw] at h
      by_cases hr : l.readers = 0
      · have hb : (l.readers != 0) = false := by simp [hr]
        simp only [hb, Bool.or_self, Bool.false_eq_true, ↓reduceIte, Option.some.injEq] at h
        exact ⟨rfl, Or.inr ⟨hm, hr, h.symm⟩⟩
      · have : (l.readers != 0) = true := by simpa using hr
        simp [this] at h

theorem tryLock_free {l : Lock} (m : LockMode) (hw : l.writer = false) (hr : l.readers = 0) :
    ∃ locked, l.tryLock m = some locked := by
  unfold Lock.tryLock
  by_cases hm : m = LockMode.Shared
  · rw [if_pos hm, hw]
    exact ⟨_, rfl⟩
  · rw [if_neg hm, hw, hr]
    exact ⟨_, rfl⟩

theorem addWaitsFor_empty (t : Nat) (owners : List Nat) :
    ∃ out, WaitsForGraph.addWaitsFor [] t owners = some out ∧
      (out.deadlock = true → out.graph = []) := by
  unfold WaitsForGraph.addWaitsFor
  simp only
  obtain ⟨out, h1, _, h3, _⟩ := WaitsForGraph.checkOwners_spec
    (WaitsForGraph.store [] t (WaitsForGraph.pushMissing
      ((WaitsForGraph.find [] t).getD []) owners)) t owners
  refine ⟨out, h1, ?_⟩
  intro hd
  rw [h3 hd]
  simp [WaitsForGraph.store, WaitsForGraph.erase]

/-- How `acquireLock` ends in a state that satisfies the invariant. -/
theorem acquire_eq (s : State) (t x : Nat) (m : LockMode) (hinv : Inv s)
    (hsz : s.table_size ≠ 0) :
    ∃ b : Bool, acquireLock s t x m =
      match ((lookupLock s x).1.objects (lookupLock s x).2).tryLock m with
      | some locked =>
        Acquired.ok (setGraph (granted (lookupLock s x).1 (lookupLock s x).2 t m locked) [])
          (lookupLock s x).2
      | none =>
        if b then Acquired.deadlock (dropRef (setGraph (lookupLock s x).1 []) (lookupLock s x).2)
        else Acquired.blocked := by
  have L := lookupLock_spec s x hinv
  unfold acquireLock
  rw [if_neg hsz]
  generalize lookupLock s x = r at L ⊢
  obtain ⟨s1, id⟩ := r
  simp only at L ⊢
  have hw : (s1.objects id).waiters = [] := by
    rcases L.obj with ⟨h1, _⟩ | ⟨h1, _⟩
    · rw [h1]
      exact (hinv.lock id).waiters
    · rw [h1]
      rfl
  have hg : s1.wfg = [] := L.wfg.trans hinv.graph
  cases htl : (s1.objects id).tryLock m with
  | some locked =>
    simp only
    have hw2 : ((granted s1 id t m locked).objects id).waiters = [] := by
      unfold granted
      simp only [Function.update_same]
      obtain ⟨_, h | h⟩ := tryLock_some htl
      · rw [h.2]; exact hw
      · rw [h.2.2]; exact hw
    have hg2 : (granted s1 id t m locked).wfg = [] := hg
    rw [hw2, hg2]
    exact ⟨false, rfl⟩
  | none =>
    simp only
    rw [hg]
    obtain ⟨out, h1, h2⟩ := addWaitsFor_empty t (s1.objects id).owners
    rw [h1]
    simp only
    refine ⟨out.deadlock, ?_⟩
    cases hd : out.deadlock with
    | true =>
      simp only [↓reduceIte]
      rw [h2 hd]
    | false => simp

theorem lockOk_congr {s s1 : State} {j : Nat} (ho : s1.objects j = s.objects j)
    (hl : ∀ t, (s1.locks t).count j = (s.locks t).count j) (h : LockOk s j) : LockOk s1 j := by
  refine ⟨?_, ?_, ?_, ?_, ?_⟩
  · rw [ho]; exact h.waiters
  · rw [ho]; exact h.refs
  · intro t; rw [ho, hl]; exact h.held t
  · rw [ho]; exact h.shared
  · rw [ho]; exact h.single

/-- The lock `lookupLock` hands to a request that then takes its mutex. -/
theorem looked_facts {s s1 : State} {x id : Nat} {m : LockMode} {locked : Lock} (hinv : Inv s)
    (L : Looked s x s1 id) (htl : (s1.objects id).tryLock m = some locked) :
    (s1.objects id).waiters = [] ∧
    (s1.objects id).refs = (s1.objects id).owners.length + 1 ∧
    (∀ t, (s1.objects id).owners.count t = (s.locks t).count id) ∧
    (s1.objects id).writer = false ∧
    (s1.objects id).readers = (s1.objects id).owners.length ∧
    (m ≠ LockMode.Shared → (s1.objects id).owners = []) := by
  have hold := hinv.lock id
  obtain ⟨tw, tm⟩ := tryLock_some htl
  rcases L.obj with ⟨h1, h2, _, _, _⟩ | ⟨h1, h2, _⟩
  · rw [h1] at tw tm ⊢
    simp only at tw tm ⊢
    have hne : (s.objects id).owners ≠ [] := by
      intro hh
      have := hold.refs
      rw [hh] at this
      exact h2 this
    have hsh : (s.objects id).ownership = LockMode.Shared := by
      by_contra hns
      have := (hold.single hns).2.2.2 hne
      rw [tw] at this
      simp at this
    have hrd := (hold.shared hsh).2
    have hpos : 0 < (s.objects id).owners.length := List.length_pos.2 hne
    refine ⟨hold.waiters, by rw [hold.refs], hold.held, tw, hrd, ?_⟩
    intro hm
    rcases tm with ⟨hm1, _⟩ | ⟨_, hr0, _⟩
    · exact absurd hm1 hm
    · omega
  · rw [h1]
    have hnil : (s.objects id).owners = [] := by
      have := hold.refs
      rw [h2] at this
      exact List.length_eq_zero.1 this.symm
    refine ⟨rfl, rfl, ?_, rfl, rfl, fun _ => rfl⟩
    intro t
    rw [← hold.held t, hnil]
    rfl

theorem granted_inv {s s1 : State} {x id t : Nat} {m : LockMode} {locked : Lock}
    (hinv : Inv s) (L : Looked s x s1 id) (htl : (s1.objects id).tryLock m = some locked) :
    Inv (pushLock (setGraph (granted s1 id t m locked) []) t id) := by
  obtain ⟨f1, f2, f3, f4, f5, f6⟩ := looked_facts hinv L htl
  obtain ⟨_, tm⟩ := tryLock_some htl
  have hit : locked.item = (s1.objects id).item := by
    rcases tm with ⟨_, h⟩ | ⟨_, _, h⟩ <;> rw [h]
  have hitem : ∀ j, ((pushLock (setGraph (granted s1 id t m locked) []) t id).objects j).item =
      (s1.objects j).item := by
    intro j
    show (Function.update s1.objects id _ j).item = _
    by_cases hj : j = id
    · rw [hj, Function.update_same]
      exact hit
    · rw [Function.update_noteq hj]
  refine ⟨rfl, L.fresh, ?_, ?_, ?_⟩
  · intro b
    have : (fun j => ((pushLock (setGraph (granted s1 id t m locked) []) t id).objects j).item) =
        fun j => (s1.objects j).item := funext hitem
    rw [this]
    exact L.items b
  · intro j hj
    have hne : j ≠ id := by
      have := L.idlt
      have hj1 : s1.allocated ≤ j := hj
      omega
    show (Function.update s1.objects id _ j).refs = 0
    rw [Function.update_noteq hne]
    exact L.unused j hj
  · intro j
    by_cases hj : j = id
    · subst hj
      have hobj : (pushLock (setGraph (granted s1 j t m locked) []) t j).objects j =
          { locked with ownership := m, owners := locked.owners ++ [t] } := by
        show Function.update s1.objects j _ j = _
        rw [Function.update_same]
      have hlk : ∀ t1, (pushLock (setGraph (granted s1 j t m locked) []) t j).locks t1 =
          if t1 = t then s.locks t ++ [j] else s.locks t1 := by
        intro t1
        show Function.update s1.locks t (s1.locks t ++ [j]) t1 = _
        rw [L.locks]
        by_cases h1 : t1 = t
        · rw [h1, Function.update_same, if_pos rfl]
        · rw [Function.update_noteq h1, if_neg h1]
      have hown : locked.owners = (s1.objects j).owners := by
        rcases tm with ⟨_, h⟩ | ⟨_, _, h⟩ <;> rw [h]
      have hwt : locked.waiters = (s1.objects j).waiters := by
        rcases tm with ⟨_, h⟩ | ⟨_, _, h⟩ <;> rw [h]
      have hrf : locked.refs = (s1.objects j).refs := by
        rcases tm with ⟨_, h⟩ | ⟨_, _, h⟩ <;> rw [h]
      refine ⟨?_, ?_, ?_, ?_, ?_⟩
      · rw [hobj]
        simp only
        rw [hwt]; exact f1
      · rw [hobj]
        simp only [List.length_append, List.length_singleton]
        rw [hrf, hown]; exact f2
      · intro t1
        rw [hobj, hlk]
        simp only [List.count_append]
        rw [hown, f3]
        by_cases h1 : t1 = t
        · rw [if_pos h1, h1]
          simp
        · rw [if_neg h1]
          have h2 : ¬ t = t1 := fun hh => h1 hh.symm
          simp [List.count_singleton, h2]
      · rw [hobj]
        simp only
        intro hm
        rcases tm with ⟨_, h⟩ | ⟨hn, _, _⟩
        · rw [h]
          simp only [List.length_append, List.length_singleton]
          exact ⟨f4, by rw [f5]⟩
        · exact absurd hm hn
      · rw [hobj]
        simp only
        intro hm
        rcases tm with ⟨hs, _⟩ | ⟨_, hr0, h⟩
        · exact absurd hs hm
        · rw [h]
          simp only
          rw [f6 hm]
          simp [hr0]
    · have hobj : (pushLock (setGraph (granted s1 id t m locked) []) t id).objects j =
          s.objects j := by
        show Function.update s1.objects id _ j = _
        rw [Function.update_noteq hj]
        exact L.other j hj
      apply lockOk_congr hobj _ (hinv.lock j)
      intro t1
      show (Function.update s1.locks t (s1.locks t ++ [id]) t1).count j = _
      rw [L.locks]
      by_cases h1 : t1 = t
      · rw [h1, Function.update_same, List.count_append]
        have h2 : ¬ id = j := fun hh => hj hh.symm
        simp [List.count_singleton, h2]
      · rw [Function.update_noteq h1]

theorem mode_frame {s s1 : State} {y : Nat} (hsz : s1.table_size = s.table_size)
    (hh : s1.hash = s.hash)
    (hnd : ((s.table (s.hash y % s.table_size)).map (fun j => (s.objects j).item)).Nodup)
    (hnd1 : ((s1.table (s.hash y % s.table_size)).map (fun j => (s1.objects j).item)).Nodup)
    (h1 : ∀ j ∈ s.table (s.hash y % s.table_size), (s.objects j).item = y →
      (s.objects j).refs ≠ 0 → j ∈ s1.table (s.hash y % s.table_size) ∧
        (s1.objects j).item = (s.objects j).item ∧ (s1.objects j).refs = (s.objects j).refs ∧
        (s1.objects j).ownership = (s.objects j).ownership)
    (h2 : ∀ j ∈ s1.table (s.hash y % s.table_size), (s1.objects j).item = y →
      (s1.objects j).refs ≠ 0 → j ∈ s.table (s.hash y % s.table_size) ∧
        (s1.objects j).item = (s.objects j).item ∧ (s1.objects j).refs = (s.objects j).refs ∧
        (s1.objects j).ownership = (s.objects j).ownership) :
    getLockMode s1 y = getLockMode s y := by
  unfold getLockMode
  rw [hsz, hh]
  split
  · rfl
  · rw [modeIn_congr hnd hnd1 h1 h2]

theorem granted_mode {s s1 : State} {x id t : Nat} {m : LockMode} {locked : Lock}
    (hinv : Inv s) (hsz : s.table_size ≠ 0) (L : Looked s x s1 id)
    (htl : (s1.objects id).tryLock m = some locked) :
    getLockMode (pushLock (setGraph (granted s1 id t m locked) []) t id) x = some m ∧
    ∀ y, y ≠ x →
      getLockMode (pushLock (setGraph (granted s1 id t m locked) []) t id) y =
        getLockMode s y := by
  have hinv1 := @granted_inv s s1 x id t m locked hinv L htl
  obtain ⟨_, f2, _, _, _, _⟩ := looked_facts hinv L htl
  obtain ⟨_, tm⟩ := tryLock_some htl
  have hobj : (pushLock (setGraph (granted s1 id t m locked) []) t id).objects id =
      { locked with ownership := m, owners := locked.owners ++ [t] } := by
    show Function.update s1.objects id _ id = _
    rw [Function.update_same]
  have hoth : ∀ j, j ≠ id →
      (pushLock (setGraph (granted s1 id t m locked) []) t id).objects j = s.objects j := by
    intro j hj
    show Function.update s1.objects id _ j = _
    rw [Function.update_noteq hj]
    exact L.other j hj
  have hit : locked.item = x := by
    rcases tm with ⟨_, h⟩ | ⟨_, _, h⟩ <;> rw [h] <;> exact L.item
  have hrf : locked.refs = (s1.objects id).refs := by
    rcases tm with ⟨_, h⟩ | ⟨_, _, h⟩ <;> rw [h]
  have hsz1 : (pushLock (setGraph (granted s1 id t m locked) []) t id).table_size =
      s.table_size := L.size
  have hh1 : (pushLock (setGraph (granted s1 id t m locked) []) t id).hash = s.hash := L.hash
  constructor
  · unfold getLockMode
    rw [hsz1, hh1, if_neg hsz]
    have hmem : id ∈ s1.table (s.hash x % s.table_size) := (find_item_mem L.head).1
    have := @modeIn_of_mem (pushLock (setGraph (granted s1 id t m locked) []) t id).objects x
      (s1.table (s.hash x % s.table_size)) id (hinv1.items _) hmem (by rw [hobj]; exact hit)
    rw [hobj] at this
    simp only at this
    rw [hrf, f2] at this
    simp only [Nat.add_one_ne_zero, ↓reduceIte] at this
    show some (modeIn _ x (s1.table (s.hash x % s.table_size))) = _
    rw [this]
  · intro y hy
    apply mode_frame hsz1 hh1 (hinv.items _) (hinv1.items _)
    · intro j hj hjy hjr
      have hne : j ≠ id := by
        intro hh
        rw [hh] at hjy hjr
        rcases L.obj with ⟨_, _, h3, _⟩ | ⟨_, h2, _⟩
        · exact hy (hjy.symm.trans h3)
        · exact hjr h2
      refine ⟨L.keep _ j hne hjr hj, ?_⟩
      rw [hoth j hne]
      exact ⟨rfl, rfl, rfl⟩
    · intro j hj hjy hjr
      have hne : j ≠ id := by
        intro hh
        rw [hh, hobj] at hjy
        exact hy (hjy.symm.trans hit)
      refine ⟨L.sub _ j hj hne, ?_⟩
      rw [hoth j hne]
      exact ⟨rfl, rfl, rfl⟩

theorem refused_state {s s1 : State} {x id : Nat} {m : LockMode}
    (L : Looked s x s1 id) (htl : (s1.objects id).tryLock m = none) :
    (∀ j, (dropRef (setGraph s1 []) id).objects j = s.objects j) ∧
    (s.objects id).item = x ∧ id ∈ s.table (s.hash x % s.table_size) := by
  rcases L.obj with ⟨h1, _, h3, h4, _⟩ | ⟨h1, _, _⟩
  · refine ⟨?_, h3, h4⟩
    intro j
    show Function.update s1.objects id _ j = _
    by_cases hj : j = id
    · rw [hj, Function.update_same]
      show ({ s1.objects id with refs := (s1.objects id).refs - 1 } : Lock) = _
      rw [h1]
      simp only [Nat.add_sub_cancel]
    · rw [Function.update_noteq hj]
      exact L.other j hj
  · exfalso
    obtain ⟨locked, hl⟩ := @tryLock_free (s1.objects id) m (by rw [h1]; rfl) (by rw [h1]; rfl)
    rw [hl] at htl
    simp at htl

theorem refused_inv {s s1 : State} {x id : Nat} {m : LockMode}
    (hinv : Inv s) (L : Looked s x s1 id) (htl : (s1.objects id).tryLock m = none) :
    Inv (dropRef (setGraph s1 []) id) := by
  obtain ⟨ho, _, hm⟩ := refused_state L htl
  have hfun : (dropRef (setGraph s1 []) id).objects = s.objects := funext ho
  have hitem : ∀ j, (s1.objects j).item = (s.objects j).item := by
    intro j
    by_cases hj : j = id
    · rw [hj, L.item]
      exact (refused_state L htl).2.1.symm
    · rw [L.other j hj]
  refine ⟨rfl, L.fresh, ?_, ?_, ?_⟩
  · intro b
    rw [hfun]
    have : (fun j => (s.objects j).item) = fun j => (s1.objects j).item :=
      funext (fun j => (hitem j).symm)
    rw [this]
    exact L.items b
  · intro j hj
    rw [ho]
    have hj1 : s1.allocated ≤ j := hj
    by_cases hji : j = id
    · have := L.idlt
      omega
    · rw [← L.other j hji]
      exact L.unused j hj1
  · intro j
    apply lockOk_congr (ho j) _ (hinv.lock j)
    intro t
    show (s1.locks t).count j = _
    rw [L.locks]

theorem refused_mode {s s1 : State} {x id : Nat} {m : LockMode}
    (hinv : Inv s) (L : Looked s x s1 id) (htl : (s1.objects id).tryLock m = none) (y : Nat) :
    getLockMode (dropRef (setGraph s1 []) id) y = getLockMode s y := by
  have hinv1 := refused_inv hinv L htl
  obtain ⟨ho, hx, hm⟩ := refused_state L htl
  have hsz1 : (dropRef (setGraph s1 []) id).table_size = s.table_size := L.size
  have hh1 : (dropRef (setGraph s1 []) id).hash = s.hash := L.hash
  have hmem : id ∈ s1.table (s.hash x % s.table_size) := (find_item_mem L.head).1
  apply mode_frame hsz1 hh1 (hinv.items _) (hinv1.items _)
  · intro j hj hjy hjr
    refine ⟨?_, by rw [ho], by rw [ho], by rw [ho]⟩
    by_cases hne : j = id
    · rw [hne] at hjy
      have hxy : x = y := hx.symm.trans hjy
      rw [hne, ← hxy]
      exact hmem
    · exact L.keep _ j hne hjr hj
  · intro j hj hjy hjr
    refine ⟨?_, by rw [ho], by rw [ho], by rw [ho]⟩
    by_cases hne : j = id
    · rw [hne, ho] at hjy
      have hxy : x = y := hx.symm.trans hjy
      rw [hne, ← hxy]
      exact hm
    · exact L.sub _ j hj hne

theorem length_filter_ne (l : List Nat) (t : Nat) :
    (l.filter (fun o => o != t)).length + l.count t = l.length := by
  induction l with
  | nil => rfl
  | cons a rest ih =>
    by_cases h : a = t
    · subst h
      simp only [List.filter_cons, bne_self_eq_false, Bool.false_eq_true, ↓reduceIte,
        List.count_cons_self, List.length_cons]
      omega
    · have hb : (a != t) = true := by simpa using h
      have h2 : t ≠ a := fun hh => h hh.symm
      simp only [List.filter_cons, hb, ↓reduceIte, List.length_cons, List.count_cons_of_ne h2]
      omega

theorem count_filter_ne (l : List Nat) (t t1 : Nat) :
    (l.filter (fun o => o != t)).count t1 = if t1 = t then 0 else l.count t1 := by
  induction l with
  | nil => simp
  | cons a rest ih =>
    by_cases h : a = t
    · subst h
      simp only [List.filter_cons, bne_self_eq_false, Bool.false_eq_true, ↓reduceIte]
      rw [ih]
      by_cases h1 : t1 = a
      · simp [h1]
      · simp [h1, List.count_cons_of_ne h1]
    · have hb : (a != t) = true := by simpa using h
      simp only [List.filter_cons, hb, ↓reduceIte, List.count_cons]
      rw [ih]
      by_cases h1 : t1 = t
      · have h2 : ¬ a = t1 := fun hh => h (hh.trans h1)
        simp [h1, h]
      · simp [h1]

theorem filter_ne_of_count (l : List Nat) (t : Nat) (h : l.count t = 0) :
    l.filter (fun o => o != t) = l := by
  rw [List.filter_eq_self]
  intro a ha
  have : t ∉ l := List.count_eq_zero.1 h
  simpa using fun hh : a = t => this (hh ▸ ha)

/-- The loop of the destructor over the locks `l` of transaction `t`. -/
theorem releaseAll_spec (t : Nat) : ∀ (l : List Nat) (objects : Nat → Lock),
    (∀ id, 0 < l.count id →
      ((objects id).ownership = LockMode.Shared → l.count id ≤ (objects id).readers) ∧
      ((objects id).ownership ≠ LockMode.Shared → l.count id ≤ 1 ∧ (objects id).writer = true)) →
    ∃ o, releaseAll t objects l = some o ∧ ∀ id,
      (o id).item = (objects id).item ∧ (o id).ownership = (objects id).ownership ∧
      (o id).waiters = (objects id).waiters ∧ (o id).refs = (objects id).refs ∧
      (o id).owners = (if l.count id = 0 then (objects id).owners
        else (objects id).owners.filter (fun x => x != t)) ∧
      (o id).readers = (if (objects id).ownership = LockMode.Shared
        then (objects id).readers - l.count id else (objects id).readers) ∧
      (o id).writer = (if (objects id).ownership ≠ LockMode.Shared ∧ 0 < l.count id
        then false else (objects id).writer) := by
  intro l
  induction l with
  | nil =>
    intro objects _
    refine ⟨objects, rfl, ?_⟩
    intro id
    simp
  | cons a rest ih =>
    intro objects hpre
    obtain ⟨p1, p2⟩ := hpre a (by simp)
    unfold releaseAll
    have hun : ∃ u, Lock.unlockFor { objects a with
        owners := (objects a).owners.filter (fun o => o != t) } = some u ∧
        u.item = (objects a).item ∧ u.ownership = (objects a).ownership ∧
        u.waiters = (objects a).waiters ∧ u.refs = (objects a).refs ∧
        u.owners = (objects a).owners.filter (fun o => o != t) ∧
        u.readers = (if (objects a).ownership = LockMode.Shared then (objects a).readers - 1
          else (objects a).readers) ∧
        u.writer = (if (objects a).ownership = LockMode.Shared then (objects a).writer
          else false) := by
      unfold Lock.unlockFor
      by_cases hs : (objects a).ownership = LockMode.Shared
      · have hr := p1 hs
        simp only [List.count_cons_self] at hr
        have hr0 : ¬ (objects a).readers = 0 := by omega
        simp only [hs, ↓reduceIte, hr0]
        exact ⟨_, rfl, rfl, rfl, rfl, rfl, rfl, rfl, rfl⟩
      · have hw := (p2 hs).2
        simp only [hs, ↓reduceIte, hw]
        exact ⟨_, rfl, rfl, rfl, rfl, rfl, rfl, rfl, rfl⟩
    obtain ⟨u, hu, u1, u2, u3, u4, u5, u6, u7⟩ := hun
    rw [hu]
    simp only
    have hpre1 : ∀ id, 0 < rest.count id →
        ((Function.update objects a u id).ownership = LockMode.Shared →
          rest.count id ≤ (Function.update objects a u id).readers) ∧
        ((Function.update objects a u id).ownership ≠ LockMode.Shared →
          rest.count id ≤ 1 ∧ (Function.update objects a u id).writer = true) := by
      intro id hc
      by_cases hid : id = a
      · subst hid
        rw [Function.update_same, u2, u6]
        constructor
        · intro hs
          have := p1 hs
          simp only [List.count_cons_self] at this
          rw [if_pos hs]
          omega
        · intro hs
          have := (p2 hs).1
          simp only [List.count_cons_self] at this
          omega
      · rw [Function.update_noteq hid]
        have hcc : (a :: rest).count id = rest.count id := List.count_cons_of_ne hid _
        have := hpre id (by rw [hcc]; exact hc)
        rw [hcc] at this
        exact this
    obtain ⟨o, ho, hspec⟩ := ih (Function.update objects a u) hpre1
    refine ⟨o, ho, ?_⟩
    intro id
    obtain ⟨q1, q2, q3, q4, q5, q6, q7⟩ := hspec id
    by_cases hid : id = a
    · subst hid
      rw [Function.update_same] at q1 q2 q3 q4 q5 q6 q7
      simp only [List.count_cons_self]
      refine ⟨q1.trans u1, q2.trans u2, q3.trans u3, q4.trans u4, ?_, ?_, ?_⟩
      · rw [q5, u5, if_neg (Nat.succ_ne_zero _)]
        split
        · rfl
        · rw [List.filter_filter]
          simp
      · rw [q6, u2, u6]
        by_cases hs : (objects id).ownership = LockMode.Shared
        · simp only [hs, ↓reduceIte]
          omega
        · simp only [hs, ↓reduceIte]
      · rw [q7, u2, u7]
        by_cases hs : (objects id).ownership = LockMode.Shared
        · simp [hs]
        · simp [hs]
    · rw [Function.update_noteq hid] at q1 q2 q3 q4 q5 q6 q7
      have hcc : (a :: rest).count id = rest.count id := List.count_cons_of_ne hid _
      rw [hcc]
      exact ⟨q1, q2, q3, q4, q5, q6, q7⟩

theorem dropRefs_spec : ∀ (l : List Nat) (objects : Nat → Lock) (id : Nat),
    dropRefs objects l id = { objects id with refs := (objects id).refs - l.count id } := by
  intro l
  induction l with
  | nil =>
    intro objects id
    rfl
  | cons a rest ih =>
    intro objects id
    unfold dropRefs
    rw [ih]
    by_cases hid : id = a
    · subst hid
      rw [Function.update_same]
      simp only [List.count_cons_self]
      congr 1
      omega
    · rw [Function.update_noteq hid]
      rw [List.count_cons_of_ne hid]

/-- The destructor of a transaction returns and keeps the invariant. -/
theorem destroy_spec (s : State) (t : Nat) (hinv : Inv s) :
    ∃ s1, destroy s t = some s1 ∧ Inv s1 ∧ s1.table_size = s.table_size ∧ s1.hash = s.hash ∧
      s1.table = s.table ∧ s1.locks = Function.update s.locks t [] ∧
      ∀ id, (s1.objects id).item = (s.objects id).item ∧
        (s1.objects id).ownership = (s.objects id).ownership ∧
        (s1.objects id).refs = (s.objects id).refs - (s.locks t).count id := by
  have hpre : ∀ id, 0 < (s.locks t).count id →
      ((s.objects id).ownership = LockMode.Shared →
        (s.locks t).count id ≤ (s.objects id).readers) ∧
      ((s.objects id).ownership ≠ LockMode.Shared →
        (s.locks t).count id ≤ 1 ∧ (s.objects id).writer = true) := by
    intro id hc
    have hl := hinv.lock id
    have hle : (s.objects id).owners.count t ≤ (s.objects id).owners.length :=
      List.count_le_length _ _
    rw [hl.held t] at hle
    constructor
    · intro hs
      rw [(hl.shared hs).2]
      exact hle
    · intro hs
      obtain ⟨_, k2, k3⟩ := hl.single hs
      refine ⟨by omega, k3.2 ?_⟩
      intro hnil
      rw [hnil] at hle
      simp only [List.length_nil] at hle
      omega
  obtain ⟨o, ho, hspec⟩ := releaseAll_spec t (s.locks t) s.objects hpre
  unfold destroy
  rw [ho]
  simp only
  have hobj : ∀ id, (dropRefs o (s.locks t) id).item = (s.objects id).item ∧
      (dropRefs o (s.locks t) id).ownership = (s.objects id).ownership ∧
      (dropRefs o (s.locks t) id).waiters = (s.objects id).waiters ∧
      (dropRefs o (s.locks t) id).refs = (s.objects id).refs - (s.locks t).count id ∧
      (dropRefs o (s.locks t) id).owners = (s.objects id).owners.filter (fun x => x != t) ∧
      (dropRefs o (s.locks t) id).readers = (if (s.objects id).ownership = LockMode.Shared
        then (s.objects id).readers - (s.locks t).count id else (s.objects id).readers) ∧
      (dropRefs o (s.locks t) id).writer =
        (if (s.objects id).ownership ≠ LockMode.Shared ∧ 0 < (s.locks t).count id
          then false else (s.objects id).writer) := by
    intro id
    obtain ⟨q1, q2, q3, q4, q5, q6, q7⟩ := hspec id
    rw [dropRefs_spec]
    simp only
    refine ⟨q1, q2, q3, by rw [q4], ?_, q6, q7⟩
    rw [q5]
    split
    · rename_i hc
      rw [← (hinv.lock id).held t] at hc
      exact (filter_ne_of_count _ _ hc).symm
    · rfl
  refine ⟨_, rfl, ?_, rfl, rfl, rfl, rfl, ?_⟩
  · refine ⟨?_, hinv.fresh, ?_, ?_, ?_⟩
    · show WaitsForGraph.removeTransaction s.wfg t = []
      rw [hinv.graph]
      rfl
    · intro b
      have : (fun j => (dropRefs o (s.locks t) j).item) = fun j => (s.objects j).item :=
        funext (fun j => (hobj j).1)
      show ((s.table b).map (fun j => (dropRefs o (s.locks t) j).item)).Nodup
      rw [this]
      exact hinv.items b
    · intro j hj
      show (dropRefs o (s.locks t) j).refs = 0
      rw [(hobj j).2.2.2.1, hinv.unused j hj]
      exact Nat.zero_sub _
    · intro id
      obtain ⟨q1, q2, q3, q4, q5, q6, q7⟩ := hobj id
      have hl := hinv.lock id
      have hlen := length_filter_ne (s.objects id).owners t
      have hcnt := hl.held t
      refine ⟨?_, ?_, ?_, ?_, ?_⟩
      · show (dropRefs o (s.locks t) id).waiters = []
        rw [q3]; exact hl.waiters
      · show (dropRefs o (s.locks t) id).refs = (dropRefs o (s.locks t) id).owners.length
        rw [q4, q5, hl.refs]
        omega
      · intro t1
        show (dropRefs o (s.locks t) id).owners.count t1 =
          (Function.update s.locks t [] t1).count id
        rw [q5, count_filter_ne]
        by_cases h1 : t1 = t
        · rw [if_pos h1, h1, Function.update_same]
          rfl
        · rw [if_neg h1, Function.update_noteq h1]
          exact hl.held t1
      · show (dropRefs o (s.locks t) id).ownership = LockMode.Shared →
          (dropRefs o (s.locks t) id).writer = false ∧
          (dropRefs o (s.locks t) id).readers = (dropRefs o (s.locks t) id).owners.length
        rw [q2, q5, q6, q7]
        intro hs
        obtain ⟨k1, k2⟩ := hl.shared hs
        simp only [hs, ne_eq, not_true_eq_false, false_and, ↓reduceIte]
        exact ⟨k1, by omega⟩
      · show (dropRefs o (s.locks t) id).ownership ≠ LockMode.Shared →
          (dropRefs o (s.locks t) id).readers = 0 ∧
          (dropRefs o (s.locks t) id).owners.length ≤ 1 ∧
          ((dropRefs o (s.locks t) id).writer = true ↔ (dropRefs o (s.locks t) id).owners ≠ [])
        rw [q2, q5, q6, q7]
        intro hs
        obtain ⟨k1, k2, k3⟩ := hl.single hs
        simp only [hs, ↓reduceIte, ne_eq, not_false_eq_true, true_and]
        refine ⟨k1, by omega, ?_⟩
        by_cases hc : 0 < (s.locks t).count id
        · rw [if_pos hc]
          have hnil : (s.objects id).owners.filter (fun x => x != t) = [] := by
            apply List.length_eq_zero.1
            omega
          rw [hnil]
          simp
        · rw [if_neg hc]
          have hz : (s.objects id).owners.count t = 0 := by omega
          rw [filter_ne_of_count _ _ hz]
          exact k3
  · intro id
    exact ⟨(hobj id).1, (hobj id).2.1, (hobj id).2.2.2.1⟩

theorem destroy_mode {s s1 : State} {t y : Nat} (hinv : Inv s) (h : destroy s t = some s1)
    (hy : ∀ id ∈ s.locks t, (s.objects id).item ≠ y) : getLockMode s1 y = getLockMode s y := by
  obtain ⟨s2, h2, hinv2, k1, k2, k3, _, k5⟩ := destroy_spec s t hinv
  rw [h] at h2
  simp only [Option.some.injEq] at h2
  subst h2
  have hcount : ∀ j, (s.objects j).item = y → (s.locks t).count j = 0 := by
    intro j hj
    apply List.count_eq_zero.2
    intro hm
    exact hy j hm hj
  apply mode_frame k1 k2 (hinv.items _) (hinv2.items _)
  · intro j hj hjy _
    obtain ⟨e1, e2, e3⟩ := k5 j
    rw [hcount j hjy] at e3
    exact ⟨by rw [k3]; exact hj, e1, e3, e2⟩
  · intro j hj hjy _
    obtain ⟨e1, e2, e3⟩ := k5 j
    rw [e1] at hjy
    rw [hcount j hjy] at e3
    exact ⟨by rw [← k3]; exact hj, e1, e3, e2⟩

/-- How `addLock` ends in a state that satisfies the invariant. -/
theorem addLock_cases (s : State) (t x : Nat) (m : LockMode) (hinv : Inv s)
    (hsz : s.table_size ≠ 0) :
    (∃ locked, ((lookupLock s x).1.objects (lookupLock s x).2).tryLock m = some locked ∧
      addLock s t x m = Acquired.ok
        (pushLock (setGraph (granted (lookupLock s x).1 (lookupLock s x).2 t m locked) []) t
          (lookupLock s x).2) (lookupLock s x).2) ∨
    (((lookupLock s x).1.objects (lookupLock s x).2).tryLock m = none ∧
      (addLock s t x m = Acquired.blocked ∨
       addLock s t x m =
        Acquired.deadlock (dropRef (setGraph (lookupLock s x).1 []) (lookupLock s x).2))) := by
  obtain ⟨b, hb⟩ := acquire_eq s t x m hinv hsz
  unfold addLock
  rw [hb]
  cases htl : ((lookupLock s x).1.objects (lookupLock s x).2).tryLock m with
  | some locked =>
    left
    exact ⟨locked, rfl, rfl⟩
  | none =>
    right
    refine ⟨rfl, ?_⟩
    cases b with
    | true => right; rfl
    | false => left; rfl

theorem locks_step_inv {s s1 : State} {op : Op} (hinv : Inv s) (hsz : s.table_size ≠ 0)
    (h : step s op = some s1) : Inv s1 ∧ s1.table_size = s.table_size := by
  cases op with
  | addLock t x m =>
    have L := lookupLock_spec s x hinv
    simp only [step] at h
    rcases addLock_cases s t x m hinv hsz with ⟨locked, htl, he⟩ | ⟨htl, he | he⟩
    · rw [he] at h
      simp only [Option.some.injEq] at h
      rw [← h]
      exact ⟨granted_inv hinv L htl, L.size⟩
    · rw [he] at h
      simp at h
    · rw [he] at h
      simp only [Option.some.injEq] at h
      rw [← h]
      exact ⟨refused_inv hinv L htl, L.size⟩
  | destroy t =>
    simp only [step] at h
    obtain ⟨s2, h2, hinv2, k1, _⟩ := destroy_spec s t hinv
    rw [h] at h2
    simp only [Option.some.injEq] at h2
    subst h2
    exact ⟨hinv2, k1⟩

theorem inv_init (hash : Nat → Nat) (n : Nat) : Inv (init hash n) := by
  refine ⟨rfl, ?_, ?_, ?_, ?_⟩
  · intro b id h
    simp [init] at h
  · intro b
    simp [init]
  · intro id _
    rfl
  · intro id
    refine ⟨rfl, rfl, ?_, ?_, ?_⟩
    · intro t; rfl
    · intro _; exact ⟨rfl, rfl⟩
    · intro _
      refine ⟨rfl, by simp [init, Lock.unused], ?_⟩
      simp [init, Lock.unused]

theorem locks_run_inv (ops : List Op) : ∀ (s s1 : State), Inv s → s.table_size ≠ 0 →
    run s ops = some s1 → Inv s1 ∧ s1.table_size = s.table_size := by
  induction ops with
  | nil =>
    intro s s1 hinv _ h
    simp only [run, Option.some.injEq] at h
    rw [← h]
    exact ⟨hinv, rfl⟩
  | cons op rest ih =>
    intro s s1 hinv hsz h
    unfold run at h
    cases hst : step s op with
    | none => rw [hst] at h; simp at h
    | some s2 =>
      rw [hst] at h
      obtain ⟨a, b⟩ := locks_step_inv hinv hsz hst
      obtain ⟨c, d⟩ := ih s2 s1 a (by rw [b]; exact hsz) h
      exact ⟨c, d.trans b⟩

theorem addLock_ok_of_noConflict (s : State) (t x : Nat) (m : LockMode) (hinv : Inv s)
    (hsz : s.table_size ≠ 0) (hc : noConflict s x m = true) :
    ∃ s1 id, addLock s t x m = Acquired.ok s1 id := by
  have L := lookupLock_spec s x hinv
  rcases addLock_cases s t x m hinv hsz with ⟨locked, _, he⟩ | ⟨htl, _⟩
  · exact ⟨_, _, he⟩
  · exfalso
    have hfree : ∃ locked, ((lookupLock s x).1.objects (lookupLock s x).2).tryLock m =
        some locked := by
      rcases L.obj with ⟨h1, _, _, _, h5⟩ | ⟨h1, _, _⟩
      · unfold noConflict at hc
        rw [h5] at hc
        simp only [Bool.and_eq_true, beq_iff_eq] at hc
        have hw := ((hinv.lock (lookupLock s x).2).shared hc.2).1
        unfold Lock.tryLock
        rw [if_pos hc.1, h1]
        simp only [hw]
        exact ⟨_, rfl⟩
      · exact tryLock_free m (by rw [h1]; rfl) (by rw [h1]; rfl)
    obtain ⟨locked, hl⟩ := hfree
    rw [hl] at htl
    simp at htl

theorem addLock_ok_mode (s : State) (t x : Nat) (m : LockMode) (hinv : Inv s)
    (hsz : s.table_size ≠ 0) (s1 : State) (id : Nat)
    (h : addLock s t x m = Acquired.ok s1 id) :
    getLockMode s1 x = some m ∧ ∀ y, y ≠ x → getLockMode s1 y = getLockMode s y := by
  have L := lookupLock_spec s x hinv
  rcases addLock_cases s t x m hinv hsz with ⟨locked, htl, he⟩ | ⟨_, he | he⟩
  · rw [he] at h
    simp only [Acquired.ok.injEq] at h
    rw [← h.1]
    exact granted_mode hinv hsz L htl
  · rw [he] at h; simp at h
  · rw [he] at h; simp at h

theorem holder_none_of_unheld (s : State) (x : Nat) (hinv : Inv s)
    (hx : ∀ t id, id ∈ s.locks t → (s.objects id).item ≠ x) : holder s x = none := by
  unfold holder
  cases hf : (s.table (s.hash x % s.table_size)).find?
      (fun id => (s.objects id).item == x) with
  | none => rfl
  | some id =>
    obtain ⟨_, hix⟩ := find_item_mem hf
    simp only
    by_cases hr : (s.objects id).refs = 0
    · rw [if_pos hr]
    · exfalso
      have hl := hinv.lock id
      have hne : (s.objects id).owners ≠ [] := by
        intro hh
        have := hl.refs
        rw [hh] at this
        exact hr this
      obtain ⟨t, ht⟩ := List.exists_mem_of_ne_nil _ hne
      have hc : 0 < (s.objects id).owners.count t := List.count_pos_iff.2 ht
      rw [hl.held t] at hc
      exact hx t id (List.count_pos_iff.1 hc) hix

/-- C30. In a state reached by `addLock` and transaction-destructor calls of one
thread on a lock manager with at least one bucket: a request for `x` in mode
`m` that meets no conflicting holder returns; after any `addLock` of `x` in
mode `m` that returns, `getLockMode(x)` is `m` and the mode of every other item
is as before; when no transaction holds a lock on `x`, `getLockMode(x)` is
`Unlocked`, and an exclusive request by any transaction returns and leaves
`getLockMode(x) = Exclusive`; the destructor of a transaction returns, empties
its locks and leaves the mode of every item it holds no lock on; a request that
raises `DeadLockError` leaves every mode. -/
theorem getLockMode_follows_holders (hash : Nat → Nat) (bucketCount : Nat) (ops : List Op)
    (s : State) (hb : 0 < bucketCount) (hrun : run (init hash bucketCount) ops = some s) :
    (∀ t x m, noConflict s x m = true → ∃ s1 id, addLock s t x m = Acquired.ok s1 id) ∧
    (∀ t x m s1 id, addLock s t x m = Acquired.ok s1 id →
      getLockMode s1 x = some m ∧ ∀ y, y ≠ x → getLockMode s1 y = getLockMode s y) ∧
    (∀ x, (∀ t id, id ∈ s.locks t → (s.objects id).item ≠ x) →
      getLockMode s x = some LockMode.Unlocked ∧
      ∀ t, ∃ s1 id, addLock s t x LockMode.Exclusive = Acquired.ok s1 id ∧
        getLockMode s1 x = some LockMode.Exclusive) ∧
    (∀ t, ∃ s1, destroy s t = some s1 ∧ s1.locks t = [] ∧
      (∀ t1, t1 ≠ t → s1.locks t1 = s.locks t1) ∧
      (∀ id, (s1.objects id).item = (s.objects id).item) ∧
      ∀ y, (∀ id ∈ s.locks t, (s.objects id).item ≠ y) → getLockMode s1 y = getLockMode s y) ∧
    (∀ t x m s1, addLock s t x m = Acquired.deadlock s1 →
      ∀ y, getLockMode s1 y = getLockMode s y) := by
  have h0 : (init hash bucketCount).table_size ≠ 0 := by
    show bucketCount ≠ 0
    omega
  obtain ⟨hinv, hsize⟩ := locks_run_inv ops _ s (inv_init hash bucketCount) h0 hrun
  have hsz : s.table_size ≠ 0 := by rw [hsize]; exact h0
  refine ⟨?_, ?_, ?_, ?_, ?_⟩
  · intro t x m hc
    exact addLock_ok_of_noConflict s t x m hinv hsz hc
  · intro t x m s1 id h
    exact addLock_ok_mode s t x m hinv hsz s1 id h
  · intro x hx
    have hh := holder_none_of_unheld s x hinv hx
    constructor
    · unfold getLockMode
      rw [if_neg hsz]
      unfold holder at hh
      unfold modeIn
      cases hf : (s.table (s.hash x % s.table_size)).find?
          (fun id => (s.objects id).item == x) with
      | none => rfl
      | some id =>
        rw [hf] at hh
        simp only at hh ⊢
        by_cases hr : (s.objects id).refs = 0
        · rw [if_pos hr]
        · rw [if_neg hr] at hh
          simp at hh
    · intro t
      have hc : noConflict s x LockMode.Exclusive = true := by
        unfold noConflict
        rw [hh]
      obtain ⟨s1, id, h1⟩ := addLock_ok_of_noConflict s t x LockMode.Exclusive hinv hsz hc
      exact ⟨s1, id, h1, (addLock_ok_mode s t x LockMode.Exclusive hinv hsz s1 id h1).1⟩
  · intro t
    obtain ⟨s1, h1, _, _, _, _, k4, k5⟩ := destroy_spec s t hinv
    refine ⟨s1, h1, ?_, ?_, fun id => (k5 id).1, ?_⟩
    · rw [k4, Function.update_same]
    · intro t1 ht1
      rw [k4, Function.update_noteq ht1]
    · intro y hy
      exact destroy_mode hinv h1 hy
  · intro t x m s1 h y
    have L := lookupLock_spec s x hinv
    rcases addLock_cases s t x m hinv hsz with ⟨locked, _, he⟩ | ⟨htl, he | he⟩
    · rw [he] at h; simp at h
    · rw [he] at h; simp at h
    · rw [he] at h
      simp only [Acquired.deadlock.injEq] at h
      rw [← h]
      exact refused_mode hinv L htl y

/-- C30 at a manager with two buckets: items 4 and 6 share a bucket, both
readers of item 4 have ended and item 6 is locked exclusively; an exclusive
request for item 4 returns, item 4 is then `Exclusive` and item 6 still is. -/
theorem getLockMode_follows_holders_witness :
    run (init (fun x => x) 2) readersCalls = some readersDone ∧
    getLockMode readersDone 4 = some LockMode.Unlocked ∧
    getLockMode readersDone 6 = some LockMode.Exclusive ∧
    ∃ s1 id, addLock readersDone 7 4 LockMode.Exclusive = Acquired.ok s1 id ∧
      getLockMode s1 4 = some LockMode.Exclusive ∧
      getLockMode s1 6 = some LockMode.Exclusive := by
  have T := getLockMode_follows_holders (fun x => x) 2 readersCalls readersDone (by decide) rfl
  obtain ⟨s1, id, h1⟩ := T.1 7 4 LockMode.Exclusive (by decide)
  have h6 : getLockMode readersDone 6 = some LockMode.Exclusive := by decide
  obtain ⟨m4, m6⟩ := T.2.1 7 4 LockMode.Exclusive s1 id h1
  exact ⟨rfl, by decide, h6, s1, id, h1, m4, (m6 6 (by decide)).trans h6⟩

end LockManager

/-! ## Lock manager, two threads: a lock held exclusively blocks a second transaction -/

namespace WaitsForGraph

theorem dfsChildren_absent (g : Graph) (call : Nat × List Nat → Option Bool) :
    ∀ l : List Nat, (∀ tx ∈ l, find g tx = none) → dfsChildren g call l = some false := by
  intro l
  induction l with
  | nil => intro _; rfl
  | cons tx rest ih =>
    intro h
    unfold dfsChildren
    rw [h tx (List.mem_cons_self _ _)]
    exact ih (fun t ht => h t (List.mem_cons_of_mem _ ht))

theorem find_single_ne (b : Nat) (adj : List Nat) (t : Nat) (h : t ≠ b) :
    find [(b, adj)] t = none := by
  have : (t == b) = false := by simpa using h
  simp [find, List.lookup, this]

theorem find_single_same (b : Nat) (adj : List Nat) : find [(b, adj)] b = some adj := by
  simp [find, List.lookup]

theorem checkOwners_absent (g : Graph) (t : Nat) :
    ∀ owners : List Nat, (∀ o ∈ owners, find g o = none) →
      checkOwners g t owners = some ⟨g, false⟩ := by
  intro owners
  induction owners with
  | nil => intro _; rfl
  | cons o rest ih =>
    intro h
    unfold checkOwners
    rw [h o (List.mem_cons_self _ _)]
    exact ih (fun t ht => h t (List.mem_cons_of_mem _ ht))

end WaitsForGraph

namespace LockManager

open WaitsForGraph

theorem ownEntry_addWaitsFor {b : Nat} {g : Graph} (hg : OwnEntry b g) (owners : List Nat)
    (hb : b ∉ owners) :
    ∃ adj, addWaitsFor g b owners = some ⟨[(b, adj)], false⟩ ∧ b ∉ adj := by
  have habs : ∀ adj : List Nat, ∀ o ∈ owners, find [(b, adj)] o = none := by
    intro adj o ho
    exact find_single_ne b adj o (fun h => hb (h ▸ ho))
  rcases hg with hg | ⟨adj, hg, hadj⟩
  · subst hg
    refine ⟨pushMissing [] owners, ?_, ?_⟩
    · unfold addWaitsFor
      have e1 : find ([] : Graph) b = none := rfl
      have e2 : store ([] : Graph) b (pushMissing [] owners) = [(b, pushMissing [] owners)] := rfl
      simp only [e1, Option.getD_none, e2]
      exact checkOwners_absent _ b owners (habs _)
    · rw [mem_pushMissing]
      simp [hb]
  · subst hg
    refine ⟨pushMissing adj owners, ?_, ?_⟩
    · unfold addWaitsFor
      have e1 : find [(b, adj)] b = some adj := find_single_same b adj
      have e2 : store [(b, adj)] b (pushMissing adj owners) = [(b, pushMissing adj owners)] := by
        simp [store]
      simp only [e1, Option.getD_some, e2]
      exact checkOwners_absent _ b owners (habs _)
    · rw [mem_pushMissing]
      simp [hb, hadj]

theorem ownEntry_addWaiters {b : Nat} {g : Graph} (hg : OwnEntry b g) :
    addWaiters g b [] = some ⟨g, false⟩ := by
  rcases hg with hg | ⟨adj, hg, hadj⟩
  · subst hg
    rfl
  · subst hg
    unfold addWaiters
    have e0 : addWaiterEdges [(b, adj)] b [] = [(b, adj)] := rfl
    simp only [e0, find_single_same]
    have e1 : findDuplicate [(b, adj)] (b, adj) = some false := by
      unfold findDuplicate
      simp only [List.length_singleton, Nat.reduceAdd]
      unfold findDuplicateAux
      simp only [List.not_mem_nil, ↓reduceIte]
      apply dfsChildren_absent
      intro tx htx
      exact find_single_ne b adj tx (fun h => hadj (h ▸ htx))
    rw [e1]

theorem ownEntry_remove {a b : Nat} {g : Graph} (hab : a ≠ b) (hg : OwnEntry b g) :
    OwnEntry b (removeTransaction g a) := by
  rcases hg with hg | ⟨adj, hg, hadj⟩
  · subst hg
    exact Or.inl rfl
  · subst hg
    right
    refine ⟨adj.filter (fun x => x != a), ?_, ?_⟩
    · have : (b != a) = true := by simpa using (Ne.symm hab)
      simp [removeTransaction, erase, this]
    · intro h
      exact hadj (List.mem_filter.1 h).1

end LockManager

namespace LockManager

theorem lookup_known (s : State) (x id0 : Nat)
    (hnd : ((s.table (s.hash x % s.table_size)).map (fun j => (s.objects j).item)).Nodup)
    (hmem : id0 ∈ s.table (s.hash x % s.table_size)) (hitem : (s.objects id0).item = x)
    (hlt : id0 < s.allocated) :
    (lookupLock s x).1.wfg = s.wfg ∧ (lookupLock s x).1.locks = s.locks ∧
    (lookupLock s x).1.table_size = s.table_size ∧ (lookupLock s x).1.hash = s.hash ∧
    (((lookupLock s x).2 = id0 ∧ (s.objects id0).refs ≠ 0 ∧
        (lookupLock s x).1.objects id0 =
          { s.objects id0 with refs := (s.objects id0).refs + 1 }) ∨
      ((lookupLock s x).2 ≠ id0 ∧ (s.objects id0).refs = 0 ∧
        (lookupLock s x).1.objects (lookupLock s x).2 = Lock.construct x)) := by
  obtain ⟨r1, r2, r3⟩ := scanChain_spec s.objects x (s.table (s.hash x % s.table_size))
  unfold lookupLock
  simp only
  cases hscan : (scanChain s.objects x (s.table (s.hash x % s.table_size))).2 with
  | none =>
    simp only
    refine ⟨trivial, trivial, trivial, trivial, Or.inr ⟨by omega, ?_, ?_⟩⟩
    · by_contra hne
      have hin := (r2 hscan).2 id0 hmem hne
      exact (r1 id0 hin).2 hitem
    · simp only [Function.update_same]
  | some p =>
    obtain ⟨id, rest⟩ := p
    simp only
    obtain ⟨q1, q2, q3, _⟩ := r3 id rest hscan
    have hin : id ∈ s.table (s.hash x % s.table_size) :=
      q1.subset (List.mem_append_right _ (List.mem_cons_self _ _))
    have hid : id = id0 := List.inj_on_of_nodup_map hnd hin hmem (q3.trans hitem.symm)
    subst hid
    refine ⟨trivial, trivial, trivial, trivial, Or.inl ⟨rfl, q2, ?_⟩⟩
    simp only [Function.update_same]

theorem lookup_other (s : State) (x j : Nat) (hj : j ≠ (lookupLock s x).2) :
    (lookupLock s x).1.objects j = s.objects j := by
  unfold lookupLock at hj ⊢
  simp only at hj ⊢
  cases hscan : (scanChain s.objects x (s.table (s.hash x % s.table_size))).2 with
  | none =>
    rw [hscan] at hj
    simp only at hj ⊢
    rw [Function.update_noteq hj]
  | some p =>
    obtain ⟨id, rest⟩ := p
    rw [hscan] at hj
    simp only at hj ⊢
    rw [Function.update_noteq hj]

end LockManager

namespace LockManager

open WaitsForGraph

theorem unlockFor_fields {l u : Lock} (h : Lock.unlockFor l = some u) :
    u.item = l.item ∧ u.refs = l.refs ∧ u.owners = l.owners ∧ u.waiters = l.waiters ∧
      u.ownership = l.ownership := by
  unfold Lock.unlockFor at h
  split at h
  · split at h
    · cases h
    · simp only [Option.some.injEq] at h
      subst h
      exact ⟨rfl, rfl, rfl, rfl, rfl⟩
  · split at h
    · simp only [Option.some.injEq] at h
      subst h
      exact ⟨rfl, rfl, rfl, rfl, rfl⟩
    · cases h

theorem unlockFor_exclusive {l u : Lock} (h : Lock.unlockFor l = some u)
    (he : l.ownership = LockMode.Exclusive) : u.writer = false ∧ u.readers = l.readers := by
  unfold Lock.unlockFor at h
  rw [he] at h
  simp only [reduceCtorEq, ↓reduceIte] at h
  split at h
  · simp only [Option.some.injEq] at h
    subst h
    exact ⟨rfl, rfl⟩
  · cases h

theorem tryLock_fields {l locked : Lock} {m : LockMode} (h : l.tryLock m = some locked) :
    l.writer = false ∧ locked.owners = l.owners ∧ locked.waiters = l.waiters := by
  obtain ⟨h1, h2 | h2⟩ := tryLock_some h
  · rw [h2.2]
    exact ⟨h1, rfl, rfl⟩
  · rw [h2.2.2]
    exact ⟨h1, rfl, rfl⟩

/-- The thread of `addLock` moves on without a change of the manager or of what it holds. -/
theorem good_moved {s0 : State} {a b id0 : Nat} {s : State} {t0 : Destroying}
    {p p1 : Acquiring} (G : Good s0 a b id0 ⟨s, t0, p⟩) (h1 : p1 ≠ Acquiring.start)
    (h2 : p1 ≠ Acquiring.thrown) (h3 : p1.target id0 = p.target id0)
    (h4 : p1.hasMutex = p.hasMutex) (h5 : p1.isOwner = p.isOwner)
    (h6 : p1.isWaiter = p.isWaiter) : Good s0 a b id0 ⟨s, t0, p1⟩ := by
  refine ⟨G.graph, G.size, G.hash, G.locks, G.once, h2, fun h => absurd h h1, ?_, ?_, ?_, ?_, ?_⟩
  · intro h
    apply G.old
    show p.target id0 ≠ id0
    rw [← h3]
    exact h
  · intro h
    have := G.held h
    show _ ∧ _ ∧ _ ∧ p1.hasMutex = false
    rw [h4]
    exact this
  · intro h hm
    show (s.objects (p1.target id0)).writer = false ∧ (s.objects (p1.target id0)).readers = 0
    rw [h3]
    have hm1 : p1.hasMutex = false := hm
    rw [h4] at hm1
    exact G.free h hm1
  · intro h
    show b ∉ (s.objects (p1.target id0)).owners
    rw [h3]
    have hm1 : p1.isOwner = false := h
    rw [h5] at hm1
    exact G.owners hm1
  · show (s.objects (p1.target id0)).waiters = if p1.isWaiter = true then [b] else []
    rw [h3, h6]
    exact G.waiters

end LockManager

namespace LockManager

open WaitsForGraph

theorem not_destroyed_of_holds {t0 : Destroying} {id0 : Nat} (h : t0.holds id0) :
    t0 ≠ Destroying.destroyed := by
  intro hd
  rw [hd] at h
  exact h

/-- The lookup of `acquireLock`. -/
theorem good_start {s0 : State} {a b x id0 : Nat} {s : State} {t0 : Destroying}
    (B : Base s0 a b x id0) (G : Good s0 a b id0 ⟨s, t0, Acquiring.start⟩) :
    Good s0 a b id0 ⟨(lookupLock s x).1, t0, Acquiring.looked (lookupLock s x).2⟩ := by
  obtain ⟨st1, st2, st3, st4⟩ := G.start rfl
  have hsize : s.table_size = s0.table_size := G.size
  have hhash : s.hash = s0.hash := G.hash
  have st1 : s.table = s0.table := st1
  have st2 : s.allocated = s0.allocated := st2
  have st3 : ∀ j, (s.objects j).item = (s0.objects j).item := st3
  have hchain : s.table (s.hash x % s.table_size) = s0.table (s0.hash x % s0.table_size) := by
    rw [st1, hhash, hsize]
  have hnd : ((s.table (s.hash x % s.table_size)).map (fun j => (s.objects j).item)).Nodup := by
    rw [hchain]
    have : (fun j => (s.objects j).item) = (fun j => (s0.objects j).item) := funext st3
    rw [this]
    exact B.nodup
  have hmem : id0 ∈ s.table (s.hash x % s.table_size) := by
    rw [hchain]
    exact B.mem
  have hitem : (s.objects id0).item = x := (st3 id0).trans B.item
  have hlt : id0 < s.allocated := by
    rw [st2]
    exact B.lt
  obtain ⟨k1, k2, k3, k4, k5⟩ := lookup_known s x id0 hnd hmem hitem hlt
  have hother := lookup_other s x
  generalize lookupLock s x = r at k1 k2 k3 k4 k5 hother
  obtain ⟨s1, id⟩ := r
  simp only at k1 k2 k3 k4 k5 hother ⊢
  have gheld := G.held
  have gfree := G.free
  have gowners := G.owners rfl
  have gwaiters := G.waiters
  simp only [Acquiring.target, Acquiring.hasMutex, Acquiring.isWaiter, Bool.false_eq_true,
    ↓reduceIte] at gheld gfree gowners gwaiters
  rcases k5 with ⟨e1, e2, e3⟩ | ⟨e1, e2, e3⟩
  · subst e1
    refine ⟨?_, ?_, ?_, ?_, G.once, ?_, ?_, ?_, ?_, ?_, ?_, ?_⟩
    · show OwnEntry b s1.wfg
      rw [k1]
      exact G.graph
    · exact k3.trans hsize
    · exact k4.trans hhash
    · intro h
      show s1.locks a = s0.locks a
      rw [k2]
      exact G.locks h
    · intro h
      cases h
    · intro h
      cases h
    · intro h
      exact absurd rfl h
    · intro h
      obtain ⟨g1, g2, g3, _⟩ := gheld h
      show (s1.objects id).writer = true ∧ (s1.objects id).readers = 0 ∧
        (s1.objects id).ownership = LockMode.Exclusive ∧ _
      rw [e3]
      exact ⟨g1, g2, g3, rfl⟩
    · intro h _
      obtain ⟨g1, g2⟩ := gfree h trivial
      show (s1.objects id).writer = false ∧ (s1.objects id).readers = 0
      rw [e3]
      exact ⟨g1, g2⟩
    · intro _
      show b ∉ (s1.objects id).owners
      rw [e3]
      exact gowners
    · show (s1.objects id).waiters = _
      rw [e3]
      exact gwaiters
  · have hd : t0 = Destroying.destroyed := by
      by_contra hne
      exact st4 hne e2
    subst hd
    refine ⟨?_, ?_, ?_, ?_, G.once, ?_, ?_, ?_, ?_, ?_, ?_, ?_⟩
    · show OwnEntry b s1.wfg
      rw [k1]
      exact G.graph
    · exact k3.trans hsize
    · exact k4.trans hhash
    · intro h
      exact absurd rfl h
    · intro h
      cases h
    · intro h
      cases h
    · intro _
      rfl
    · intro h
      exact False.elim h
    · intro _ _
      show (s1.objects id).writer = false ∧ (s1.objects id).readers = 0
      rw [e3]
      exact ⟨rfl, rfl⟩
    · intro _
      show b ∉ (s1.objects id).owners
      rw [e3]
      simp [Lock.construct]
    · show (s1.objects id).waiters = _
      rw [e3]
      rfl

end LockManager

namespace LockManager

open WaitsForGraph

/-- The thread of `addLock` takes a step that writes its lock or the graph. -/
theorem good_update {s0 : State} {a b id0 : Nat} {s s1 : State} {t0 : Destroying}
    {p p1 : Acquiring} (G : Good s0 a b id0 ⟨s, t0, p⟩)
    (h1 : p1 ≠ Acquiring.start) (h2 : p1 ≠ Acquiring.thrown)
    (h3 : p1.target id0 = p.target id0)
    (hg : OwnEntry b s1.wfg) (hsz : s1.table_size = s.table_size) (hh : s1.hash = s.hash)
    (hl : s1.locks a = s.locks a)
    (hheld : t0.holds id0 → p.target id0 = id0 →
      (s1.objects (p.target id0)).writer = true ∧ (s1.objects (p.target id0)).readers = 0 ∧
      (s1.objects (p.target id0)).ownership = LockMode.Exclusive ∧ p1.hasMutex = false)
    (hfree : ¬ t0.holds id0 → p1.hasMutex = false →
      (s1.objects (p.target id0)).writer = false ∧ (s1.objects (p.target id0)).readers = 0)
    (howners : p1.isOwner = false → b ∉ (s1.objects (p.target id0)).owners)
    (hwaiters : (s1.objects (p.target id0)).waiters = if p1.isWaiter = true then [b] else []) :
    Good s0 a b id0 ⟨s1, t0, p1⟩ := by
  have gsize : s.table_size = s0.table_size := G.size
  have ghash : s.hash = s0.hash := G.hash
  have gold : p.target id0 ≠ id0 → t0 = Destroying.destroyed := G.old
  refine ⟨hg, hsz.trans gsize, hh.trans ghash, ?_, G.once, h2, fun h => absurd h h1, ?_, ?_, ?_,
    ?_, ?_⟩
  · intro h
    show s1.locks a = s0.locks a
    rw [hl]
    exact G.locks h
  · intro h
    apply gold
    rw [← h3]
    exact h
  · intro h
    have ht : p.target id0 = id0 := by
      by_contra hne
      exact not_destroyed_of_holds h (gold hne)
    have := hheld h ht
    rw [ht] at this
    exact this
  · intro h hm
    show (s1.objects (p1.target id0)).writer = false ∧ (s1.objects (p1.target id0)).readers = 0
    rw [h3]
    exact hfree h hm
  · intro h
    show b ∉ (s1.objects (p1.target id0)).owners
    rw [h3]
    exact howners h
  · show (s1.objects (p1.target id0)).waiters = if p1.isWaiter = true then [b] else []
    rw [h3]
    exact hwaiters

/-- A `try_lock` or a `lock` that succeeds: the holder has unlocked the mutex. -/
theorem released_of_tryLock {s0 : State} {a b id0 : Nat} {s : State} {t0 : Destroying}
    {p : Acquiring} (G : Good s0 a b id0 ⟨s, t0, p⟩) {m : LockMode} {locked : Lock}
    (h : (s.objects (p.target id0)).tryLock m = some locked) : ¬ t0.holds id0 := by
  intro hh
  have gold : p.target id0 ≠ id0 → t0 = Destroying.destroyed := G.old
  have ht : p.target id0 = id0 := by
    by_contra hne
    exact not_destroyed_of_holds hh (gold hne)
  have g1 : (s.objects id0).writer = true := (G.held hh).1
  have := (tryLock_fields h).1
  rw [ht, g1] at this
  cases this

theorem good_latched {s0 : State} {a b id0 : Nat} {s : State} {t0 : Destroying} {id : Nat}
    (G : Good s0 a b id0 ⟨s, t0, Acquiring.latched id⟩) (m : LockMode) (locked : Lock)
    (h : (s.objects id).tryLock m = some locked) :
    Good s0 a b id0 ⟨granted s id b m locked, t0, Acquiring.taken id⟩ := by
  have hrel := released_of_tryLock G h
  have gw : (s.objects id).waiters = [] := G.waiters
  obtain ⟨_, f2, f3⟩ := tryLock_fields h
  refine good_update G (by simp) (by simp) rfl G.graph rfl rfl rfl ?_ ?_ ?_ ?_
  · intro hh
    exact absurd hh hrel
  · intro _ hm
    cases hm
  · intro hm
    cases hm
  · show (Function.update s.objects id _ id).waiters = _
    rw [Function.update_same]
    simp only [Acquiring.isWaiter, Bool.false_eq_true, ↓reduceIte]
    rw [f3, gw]

theorem good_refused {s0 : State} {a b id0 : Nat} {s : State} {t0 : Destroying} {id : Nat}
    (G : Good s0 a b id0 ⟨s, t0, Acquiring.refused id⟩) :
    ∃ adj, addWaitsFor s.wfg b (s.objects id).owners = some ⟨[(b, adj)], false⟩ ∧
      Good s0 a b id0 ⟨setGraph s [(b, adj)], t0, Acquiring.queued id⟩ := by
  have go : b ∉ (s.objects id).owners := G.owners rfl
  obtain ⟨adj, e, hadj⟩ := ownEntry_addWaitsFor G.graph (s.objects id).owners go
  refine ⟨adj, e, ?_⟩
  have gheld := G.held
  have gfree := G.free
  have gw : (s.objects id).waiters = [] := G.waiters
  refine good_update G (by simp) (by simp) rfl (Or.inr ⟨adj, rfl, hadj⟩) rfl rfl rfl
    ?_ ?_ ?_ ?_
  · intro hh ht
    have ht : id = id0 := ht
    subst ht
    exact gheld hh
  · intro hh _
    exact gfree hh rfl
  · intro _
    exact go
  · exact gw

theorem good_queued {s0 : State} {a b id0 : Nat} {s : State} {t0 : Destroying} {id : Nat}
    (G : Good s0 a b id0 ⟨s, t0, Acquiring.queued id⟩) :
    Good s0 a b id0 ⟨pushWaiter s id b, t0, Acquiring.blocked id⟩ := by
  have go : b ∉ (s.objects id).owners := G.owners rfl
  have gheld := G.held
  have gfree := G.free
  have gw : (s.objects id).waiters = [] := G.waiters
  have e : (pushWaiter s id b).objects id =
      { s.objects id with waiters := (s.objects id).waiters ++ [b] } :=
    Function.update_same _ _ _
  refine good_update G (by simp) (by simp) rfl G.graph rfl rfl rfl ?_ ?_ ?_ ?_
  · intro hh ht
    have ht : id = id0 := ht
    subst ht
    simp only [Acquiring.target, e]
    exact gheld hh
  · intro hh _
    simp only [Acquiring.target, e]
    exact gfree hh rfl
  · intro _
    simp only [Acquiring.target, e]
    exact go
  · simp only [Acquiring.target, e, Acquiring.isWaiter, ↓reduceIte, gw]
    rfl

theorem good_blocked {s0 : State} {a b id0 : Nat} {s : State} {t0 : Destroying} {id : Nat}
    (G : Good s0 a b id0 ⟨s, t0, Acquiring.blocked id⟩) (m : LockMode) (locked : Lock)
    (h : (s.objects id).tryLock m = some locked) :
    Good s0 a b id0 ⟨setLock s id locked, t0, Acquiring.woken id⟩ := by
  have hrel := released_of_tryLock G h
  have go : b ∉ (s.objects id).owners := G.owners rfl
  have gw : (s.objects id).waiters = [b] := G.waiters
  obtain ⟨_, f2, f3⟩ := tryLock_fields h
  refine good_update G (by simp) (by simp) rfl G.graph rfl rfl rfl ?_ ?_ ?_ ?_
  · intro hh
    exact absurd hh hrel
  · intro _ hm
    cases hm
  · intro _
    show b ∉ (Function.update s.objects id _ id).owners
    rw [Function.update_same, f2]
    exact go
  · show (Function.update s.objects id _ id).waiters = _
    rw [Function.update_same, f3, gw]
    rfl

theorem good_relatched {s0 : State} {a b id0 : Nat} {s : State} {t0 : Destroying} {id : Nat}
    (G : Good s0 a b id0 ⟨s, t0, Acquiring.relatched id⟩) (m : LockMode) :
    Good s0 a b id0 ⟨enterOwners s id b m, t0, Acquiring.taken id⟩ := by
  have gw : (s.objects id).waiters = [b] := G.waiters
  have gheld := G.held
  refine good_update G (by simp) (by simp) rfl G.graph rfl rfl rfl ?_ ?_ ?_ ?_
  · intro hh
    have := (gheld hh).2.2.2
    cases this
  · intro _ hm
    cases hm
  · intro hm
    cases hm
  · show (Function.update s.objects id _ id).waiters = _
    rw [Function.update_same]
    show (s.objects id).waiters.filter (fun w => w != b) = _
    rw [gw]
    simp [Acquiring.isWaiter]

theorem good_taken {s0 : State} {a b id0 : Nat} {s : State} {t0 : Destroying} {id : Nat}
    (hab : a ≠ b) (G : Good s0 a b id0 ⟨s, t0, Acquiring.taken id⟩) :
    addWaiters s.wfg b (s.objects id).waiters = some ⟨s.wfg, false⟩ ∧
      Good s0 a b id0 ⟨pushLock (setGraph s s.wfg) b id, t0, Acquiring.returned id⟩ := by
  have gw : (s.objects id).waiters = [] := G.waiters
  have gheld := G.held
  refine ⟨by rw [gw]; exact ownEntry_addWaiters G.graph, ?_⟩
  refine good_update G (by simp) (by simp) rfl G.graph rfl rfl ?_ ?_ ?_ ?_ ?_
  · show Function.update s.locks b _ a = s.locks a
    exact Function.update_noteq hab _ _
  · intro hh
    have := (gheld hh).2.2.2
    cases this
  · intro _ hm
    cases hm
  · intro hm
    cases hm
  · exact gw

end LockManager

namespace LockManager

open WaitsForGraph

/-- Every step of the thread of `addLock` keeps `Good`. -/
theorem good_acquire {s0 : State} {a b x id0 : Nat} {m : LockMode} {w w1 : World}
    (B : Base s0 a b x id0) (G : Good s0 a b id0 w)
    (h : stepAcquire b x m w = Move.to w1) : Good s0 a b id0 w1 := by
  obtain ⟨s, t0, p⟩ := w
  cases p with
  | start =>
    have hsz : s.table_size ≠ 0 := by
      have : s.table_size = s0.table_size := G.size
      rw [this]
      exact B.size
    simp only [stepAcquire, hsz, ↓reduceIte, Move.to.injEq] at h
    subst h
    exact good_start B G
  | looked id =>
    simp only [stepAcquire, Move.to.injEq] at h
    subst h
    exact good_moved G (by simp) (by simp) rfl rfl rfl rfl
  | latched id =>
    simp only [stepAcquire] at h
    cases ht : (s.objects id).tryLock m with
    | none =>
      rw [ht] at h
      simp only [Move.to.injEq] at h
      subst h
      exact good_moved G (by simp) (by simp) rfl rfl rfl rfl
    | some locked =>
      rw [ht] at h
      simp only [Move.to.injEq] at h
      subst h
      exact good_latched G m locked ht
  | taken id =>
    obtain ⟨e, G1⟩ := good_taken B.ne G
    simp only [stepAcquire, e, Bool.false_eq_true, ↓reduceIte, Move.to.injEq] at h
    subst h
    exact G1
  | refused id =>
    obtain ⟨adj, e, G1⟩ := good_refused G
    simp only [stepAcquire, e, Bool.false_eq_true, ↓reduceIte, Move.to.injEq] at h
    subst h
    exact G1
  | queued id =>
    simp only [stepAcquire, Move.to.injEq] at h
    subst h
    exact good_queued G
  | blocked id =>
    simp only [stepAcquire] at h
    cases ht : (s.objects id).tryLock m with
    | none =>
      rw [ht] at h
      cases h
    | some locked =>
      rw [ht] at h
      simp only [Move.to.injEq] at h
      subst h
      exact good_blocked G m locked ht
  | woken id =>
    simp only [stepAcquire, Move.to.injEq] at h
    subst h
    exact good_moved G (by simp) (by simp) rfl rfl rfl rfl
  | relatched id =>
    simp only [stepAcquire, Move.to.injEq] at h
    subst h
    exact good_relatched G m
  | returned id =>
    simp only [stepAcquire] at h
    cases h
  | thrown =>
    simp only [stepAcquire] at h
    cases h

/-- The holder does something that leaves the lock of the other thread as it
is, up to its owners without `a` and its reference count. -/
theorem good_holder {s0 : State} {a b id0 : Nat} {s s1 : State} {t0 t1 : Destroying}
    {p : Acquiring} (G : Good s0 a b id0 ⟨s, t0, p⟩)
    (hg : OwnEntry b s1.wfg) (hsz : s1.table_size = s.table_size) (hh : s1.hash = s.hash)
    (hl : t1 ≠ Destroying.destroyed → s1.locks a = s.locks a ∧ t0 ≠ Destroying.destroyed)
    (honce : t1.once id0)
    (htab : s1.table = s.table) (hal : s1.allocated = s.allocated)
    (hitem : ∀ j, (s1.objects j).item = (s.objects j).item)
    (hrefs : t1 ≠ Destroying.destroyed → (s1.objects id0).refs = (s.objects id0).refs)
    (hold : t0 = Destroying.destroyed → t1 = Destroying.destroyed)
    (hheld : t1.holds id0 → t0.holds id0 ∧ (s1.objects id0).writer = (s.objects id0).writer ∧
      (s1.objects id0).readers = (s.objects id0).readers ∧
      (s1.objects id0).ownership = (s.objects id0).ownership)
    (hfree : ¬ t1.holds id0 → p.hasMutex = false →
      (s1.objects (p.target id0)).writer = false ∧ (s1.objects (p.target id0)).readers = 0)
    (how : ∀ j, (∀ t, t ∈ (s1.objects j).owners → t ∈ (s.objects j).owners) ∧
      (s1.objects j).waiters = (s.objects j).waiters) :
    Good s0 a b id0 ⟨s1, t1, p⟩ := by
  have gsize : s.table_size = s0.table_size := G.size
  have ghash : s.hash = s0.hash := G.hash
  have gold : p.target id0 ≠ id0 → t0 = Destroying.destroyed := G.old
  refine ⟨hg, hsz.trans gsize, hh.trans ghash, ?_, honce, G.notThrown, ?_, ?_, ?_, hfree, ?_, ?_⟩
  · intro h
    obtain ⟨e1, e2⟩ := hl h
    show s1.locks a = s0.locks a
    rw [e1]
    exact G.locks e2
  · intro h
    obtain ⟨st1, st2, st3, st4⟩ := G.start h
    refine ⟨htab.trans st1, hal.trans st2, fun j => (hitem j).trans (st3 j), ?_⟩
    intro hd
    show (s1.objects id0).refs ≠ 0
    rw [hrefs hd]
    exact st4 (hl hd).2
  · intro h
    exact hold (gold h)
  · intro h
    obtain ⟨k0, k1, k2, k3⟩ := hheld h
    obtain ⟨g1, g2, g3, g4⟩ := G.held k0
    exact ⟨k1.trans g1, k2.trans g2, k3.trans g3, g4⟩
  · intro h hb
    exact G.owners h ((how _).1 b hb)
  · show (s1.objects (p.target id0)).waiters = _
    rw [(how _).2]
    exact G.waiters

end LockManager

namespace LockManager

open WaitsForGraph

theorem leaveOwners_objects (s : State) (j a k : Nat) :
    ((leaveOwners s j a).objects k).item = (s.objects k).item ∧
    ((leaveOwners s j a).objects k).refs = (s.objects k).refs ∧
    ((leaveOwners s j a).objects k).writer = (s.objects k).writer ∧
    ((leaveOwners s j a).objects k).readers = (s.objects k).readers ∧
    ((leaveOwners s j a).objects k).ownership = (s.objects k).ownership ∧
    ((leaveOwners s j a).objects k).waiters = (s.objects k).waiters ∧
    ∀ t, t ∈ ((leaveOwners s j a).objects k).owners → t ∈ (s.objects k).owners := by
  unfold leaveOwners
  simp only
  by_cases h : k = j
  · subst h
    rw [Function.update_same]
    exact ⟨rfl, rfl, rfl, rfl, rfl, rfl, fun t ht => (List.mem_filter.1 ht).1⟩
  · rw [Function.update_noteq h]
    exact ⟨rfl, rfl, rfl, rfl, rfl, rfl, fun t ht => ht⟩

theorem dropLocks_objects (s : State) (a k : Nat) :
    ((dropLocks s a).objects k).item = (s.objects k).item ∧
    ((dropLocks s a).objects k).writer = (s.objects k).writer ∧
    ((dropLocks s a).objects k).readers = (s.objects k).readers ∧
    ((dropLocks s a).objects k).owners = (s.objects k).owners ∧
    ((dropLocks s a).objects k).waiters = (s.objects k).waiters := by
  unfold dropLocks
  simp only
  rw [dropRefs_spec]
  exact ⟨rfl, rfl, rfl, rfl, rfl⟩

/-- Every step of the thread of the holder keeps `Good`. -/
theorem good_destroy {s0 : State} {a b x id0 : Nat} {w w1 : World}
    (B : Base s0 a b x id0) (G : Good s0 a b id0 w)
    (h : stepDestroy a w = Move.to w1) : Good s0 a b id0 w1 := by
  obtain ⟨s, t0, p⟩ := w
  have gold : p.target id0 ≠ id0 → t0 = Destroying.destroyed := G.old
  cases t0 with
  | alive =>
    simp only [stepDestroy, Move.to.injEq] at h
    subst h
    refine good_holder G G.graph rfl rfl (fun _ => ⟨rfl, by simp⟩) trivial rfl rfl
      (fun _ => rfl) (fun _ => rfl) (fun hd => by cases hd) (fun _ => ⟨trivial, rfl, rfl, rfl⟩)
      (fun hn => absurd trivial hn) (fun _ => ⟨fun _ ht => ht, rfl⟩)
  | entered =>
    simp only [stepDestroy, Move.to.injEq] at h
    subst h
    have hlocks : s.locks a = s0.locks a := G.locks (by simp)
    refine good_holder G (ownEntry_remove B.ne G.graph) rfl rfl (fun _ => ⟨rfl, by simp⟩) ?_ rfl
      rfl (fun _ => rfl) (fun _ => rfl) (fun hd => by cases hd)
      (fun _ => ⟨trivial, rfl, rfl, rfl⟩) ?_ (fun _ => ⟨fun _ ht => ht, rfl⟩)
    · show (s.locks a).count id0 ≤ 1
      rw [hlocks]
      exact B.count
    · intro hn
      exfalso
      apply hn
      show id0 ∈ s.locks a
      rw [hlocks]
      exact B.inLocks
  | erasing rest =>
    cases rest with
    | nil =>
      simp only [stepDestroy, Move.to.injEq] at h
      subst h
      have gfree := G.free
      refine good_holder G G.graph rfl rfl (fun hd => absurd rfl hd) trivial rfl rfl
        (fun j => (dropLocks_objects s a j).1) (fun hd => absurd rfl hd) (fun _ => rfl)
        (fun hh => False.elim hh) ?_ ?_
      · intro _ hm
        obtain ⟨_, d2, d3, _⟩ := dropLocks_objects s a (p.target id0)
        rw [d2, d3]
        exact gfree (fun hh => by simp [Destroying.holds] at hh) hm
      · intro j
        obtain ⟨_, _, _, d4, d5⟩ := dropLocks_objects s a j
        exact ⟨fun t ht => d4 ▸ ht, d5⟩
    | cons j rest =>
      simp only [stepDestroy] at h
      split at h
      · cases h
      · simp only [Move.to.injEq] at h
        subst h
        have gfree := G.free
        have hmem : (j = id0 ∨ id0 ∈ rest) ↔ id0 ∈ j :: rest := by
          rw [List.mem_cons]
          constructor
          · rintro (hh | hh)
            · exact Or.inl hh.symm
            · exact Or.inr hh
          · rintro (hh | hh)
            · exact Or.inl hh.symm
            · exact Or.inr hh
        refine good_holder G G.graph rfl rfl (fun _ => ⟨rfl, by simp⟩) G.once rfl rfl
          (fun k => (leaveOwners_objects s j a k).1)
          (fun _ => (leaveOwners_objects s j a id0).2.1) (fun hd => by cases hd) ?_ ?_ ?_
        · intro hh
          obtain ⟨_, _, l3, l4, l5, _⟩ := leaveOwners_objects s j a id0
          exact ⟨hmem.1 hh, l3, l4, l5⟩
        · intro hn hm
          obtain ⟨_, _, l3, l4, _⟩ := leaveOwners_objects s j a (p.target id0)
          rw [l3, l4]
          exact gfree (fun hh => hn (hmem.2 hh)) hm
        · intro k
          obtain ⟨_, _, _, _, _, l6, l7⟩ := leaveOwners_objects s j a k
          exact ⟨l7, l6⟩
  | unlocking j rest =>
    simp only [stepDestroy] at h
    cases hu : Lock.unlockFor (s.objects j) with
    | none =>
      rw [hu] at h
      cases h
    | some u =>
      rw [hu] at h
      simp only [Move.to.injEq] at h
      subst h
      obtain ⟨u1, u2, u3, u4, u5⟩ := unlockFor_fields hu
      have gonce : (j :: rest).count id0 ≤ 1 := G.once
      have gheld := G.held
      have gfree := G.free
      have htarget : p.target id0 = id0 := by
        by_contra hne
        have := gold hne
        cases this
      have hobj : ∀ k, k ≠ j → (setLock s j u).objects k = s.objects k := by
        intro k hk
        exact Function.update_noteq hk _ _
      have hsame : (setLock s j u).objects j = u := Function.update_same _ _ _
      have hfields : ∀ k, ((setLock s j u).objects k).item = (s.objects k).item ∧
          ((setLock s j u).objects k).refs = (s.objects k).refs ∧
          ((setLock s j u).objects k).owners = (s.objects k).owners ∧
          ((setLock s j u).objects k).waiters = (s.objects k).waiters := by
        intro k
        by_cases hk : k = j
        · subst hk
          rw [hsame]
          exact ⟨u1, u2, u3, u4⟩
        · rw [hobj k hk]
          exact ⟨rfl, rfl, rfl, rfl⟩
      refine good_holder G G.graph rfl rfl (fun _ => ⟨rfl, by simp⟩) ?_ rfl rfl
        (fun k => (hfields k).1) (fun _ => (hfields id0).2.1) (fun hd => by cases hd) ?_ ?_ ?_
      · show rest.count id0 ≤ 1
        have := List.count_le_count_cons id0 j rest
        omega
      · intro hh
        have hh : id0 ∈ rest := hh
        have hj : id0 ≠ j := by
          intro he
          have h1 : 0 < rest.count id0 := List.count_pos_iff.2 hh
          rw [← he, List.count_cons_self] at gonce
          omega
        rw [hobj id0 hj]
        exact ⟨Or.inr hh, rfl, rfl, rfl⟩
      · intro hn hm
        rw [htarget]
        by_cases hj : j = id0
        · subst hj
          obtain ⟨g1, g2, g3, _⟩ := gheld (Or.inl rfl)
          obtain ⟨v1, v2⟩ := unlockFor_exclusive hu g3
          rw [hsame]
          exact ⟨v1, v2.trans g2⟩
        · rw [hobj id0 (fun he => hj he.symm)]
          have := gfree (fun hh => by
            rcases hh with hh | hh
            · exact hj hh
            · exact hn hh) hm
          rw [htarget] at this
          exact this
      · intro k
        obtain ⟨_, _, f3, f4⟩ := hfields k
        exact ⟨fun t ht => f3 ▸ ht, f4⟩
  | destroyed =>
    simp only [stepDestroy] at h
    cases h

end LockManager

namespace LockManager

open WaitsForGraph

/-- What a lock that is in use for `x`, exclusive and owned by `a`, means for
the chain, the lock object and the locks of `a`. -/
theorem base_of_holder {s0 : State} {a b x : Nat} {l : Lock} (hinv : Inv s0)
    (hsz : s0.table_size ≠ 0) (hab : a ≠ b) (hl : holder s0 x = some l) (hown : a ∈ l.owners)
    (hex : l.ownership = LockMode.Exclusive) :
    ∃ id0, s0.objects id0 = l ∧ Base s0 a b x id0 ∧ (s0.objects id0).refs ≠ 0 ∧
      (s0.objects id0).writer = true ∧ (s0.objects id0).readers = 0 ∧
      b ∉ (s0.objects id0).owners ∧ (s0.objects id0).waiters = [] := by
  unfold holder at hl
  cases hf : (s0.table (s0.hash x % s0.table_size)).find?
      (fun id => (s0.objects id).item == x) with
  | none =>
    rw [hf] at hl
    cases hl
  | some id0 =>
    rw [hf] at hl
    simp only at hl
    split at hl
    · cases hl
    · rename_i hrefs
      simp only [Option.some.injEq] at hl
      obtain ⟨hmem, hitem⟩ := find_item_mem hf
      have hok := hinv.lock id0
      rw [← hl] at hown hex
      have hne : (s0.objects id0).ownership ≠ LockMode.Shared := by
        rw [hex]
        simp
      obtain ⟨k1, k2, k3⟩ := hok.single hne
      have hcount : (s0.objects id0).owners.count a = (s0.locks a).count id0 := hok.held a
      have hpos : 0 < (s0.objects id0).owners.count a := List.count_pos_iff.2 hown
      have hlen := List.count_le_length a (s0.objects id0).owners
      have howners : (s0.objects id0).owners = [a] := by
        cases ho : (s0.objects id0).owners with
        | nil => rw [ho] at hown; simp at hown
        | cons o rest =>
          rw [ho] at k2 hown
          simp only [List.length_cons] at k2
          have : rest = [] := List.length_eq_zero.1 (by omega)
          subst this
          simp only [List.mem_singleton] at hown
          rw [hown]
      refine ⟨id0, hl, ⟨hab, hsz, hinv.items _, hmem, hitem, hinv.fresh _ _ hmem, ?_, ?_⟩, hrefs,
        ?_, k1, ?_, hok.waiters⟩
      · omega
      · exact List.count_pos_iff.1 (by omega)
      · exact k3.2 (by rw [howners]; simp)
      · rw [howners]
        simp only [List.mem_singleton]
        exact fun h => hab h.symm

theorem good_init {s0 : State} {a b id0 : Nat} (hinv : Inv s0)
    (hrefs : (s0.objects id0).refs ≠ 0) (hw : (s0.objects id0).writer = true)
    (hr : (s0.objects id0).readers = 0) (hex : (s0.objects id0).ownership = LockMode.Exclusive)
    (hb : b ∉ (s0.objects id0).owners) (hwait : (s0.objects id0).waiters = []) :
    Good s0 a b id0 ⟨s0, Destroying.alive, Acquiring.start⟩ :=
  ⟨Or.inl hinv.graph, rfl, rfl, fun _ => rfl, trivial, by simp,
    fun _ => ⟨rfl, rfl, fun _ => rfl, fun _ => hrefs⟩, fun h => absurd rfl h,
    fun _ => ⟨hw, hr, hex, rfl⟩, fun h => absurd trivial h, fun _ => hb, hwait⟩

theorem good_reach {s0 : State} {a b x id0 : Nat} {m : LockMode} {w0 w : World}
    (B : Base s0 a b x id0) (G0 : Good s0 a b id0 w0) (h : Reach a b x m w0 w) :
    Good s0 a b id0 w := by
  induction h with
  | init => exact G0
  | acquire _ hs ih => exact good_acquire B ih hs
  | @spurious w id _ hp ih =>
    obtain ⟨s, t0, p⟩ := w
    have hp : p = Acquiring.latched id := hp
    subst hp
    exact good_moved ih (by simp) (by simp) rfl rfl rfl rfl
  | destroy _ hs ih => exact good_destroy B ih hs

/-- Once the holder is destroyed, the thread of `addLock` is not made to wait. -/
theorem acquire_progress {s0 : State} {a b x id0 : Nat} {m : LockMode} {w : World}
    (B : Base s0 a b x id0) (G : Good s0 a b id0 w) (hd : w.t0 = Destroying.destroyed)
    (hp : ∀ id, w.t1 ≠ Acquiring.returned id) :
    ∃ w1, stepAcquire b x m w = Move.to w1 ∧ w1.t0 = Destroying.destroyed ∧
      w1.t1.remaining < w.t1.remaining := by
  obtain ⟨s, t0, p⟩ := w
  simp only at hd hp
  subst hd
  cases p with
  | start =>
    have hsz : s.table_size ≠ 0 := by
      have : s.table_size = s0.table_size := G.size
      rw [this]
      exact B.size
    refine ⟨⟨(lookupLock s x).1, Destroying.destroyed, Acquiring.looked (lookupLock s x).2⟩, ?_,
      rfl, by simp [Acquiring.remaining]⟩
    simp only [stepAcquire, hsz, ↓reduceIte]
  | looked id =>
    exact ⟨⟨s, Destroying.destroyed, Acquiring.latched id⟩, rfl, rfl, by simp [Acquiring.remaining]⟩
  | latched id =>
    cases ht : (s.objects id).tryLock m with
    | none =>
      refine ⟨⟨s, Destroying.destroyed, Acquiring.refused id⟩, ?_, rfl, by simp [Acquiring.remaining]⟩
      simp only [stepAcquire, ht]
    | some locked =>
      refine ⟨⟨granted s id b m locked, Destroying.destroyed, Acquiring.taken id⟩, ?_, rfl,
        by simp [Acquiring.remaining]⟩
      simp only [stepAcquire, ht]
  | taken id =>
    obtain ⟨e, _⟩ := good_taken B.ne G
    refine ⟨⟨pushLock (setGraph s s.wfg) b id, Destroying.destroyed, Acquiring.returned id⟩, ?_,
      rfl, by simp [Acquiring.remaining]⟩
    simp only [stepAcquire, e, Bool.false_eq_true, ↓reduceIte]
  | refused id =>
    obtain ⟨adj, e, _⟩ := good_refused G
    refine ⟨⟨setGraph s [(b, adj)], Destroying.destroyed, Acquiring.queued id⟩, ?_, rfl,
      by simp [Acquiring.remaining]⟩
    simp only [stepAcquire, e, Bool.false_eq_true, ↓reduceIte]
  | queued id =>
    exact ⟨⟨pushWaiter s id b, Destroying.destroyed, Acquiring.blocked id⟩, rfl, rfl, by simp [Acquiring.remaining]⟩
  | blocked id =>
    obtain ⟨f1, f2⟩ := G.free (fun h => h) rfl
    obtain ⟨locked, ht⟩ := tryLock_free m f1 f2
    have ht : (s.objects id).tryLock m = some locked := ht
    refine ⟨⟨setLock s id locked, Destroying.destroyed, Acquiring.woken id⟩, ?_, rfl, by simp [Acquiring.remaining]⟩
    simp only [stepAcquire, ht]
  | woken id =>
    exact ⟨⟨s, Destroying.destroyed, Acquiring.relatched id⟩, rfl, rfl, by simp [Acquiring.remaining]⟩
  | relatched id =>
    exact ⟨⟨enterOwners s id b m, Destroying.destroyed, Acquiring.taken id⟩, rfl, rfl, by simp [Acquiring.remaining]⟩
  | returned id => exact absurd rfl (hp id)
  | thrown => exact absurd rfl G.notThrown

theorem runAcquire_returns {s0 : State} {a b x id0 : Nat} {m : LockMode} {w0 : World}
    (B : Base s0 a b x id0) (G0 : Good s0 a b id0 w0) :
    ∀ (n : Nat) (w : World), Reach a b x m w0 w → w.t0 = Destroying.destroyed →
      w.t1.remaining ≤ n → ∃ id, (runAcquire b x m n w).t1 = Acquiring.returned id := by
  intro n
  induction n with
  | zero =>
    intro w hr _ hn
    have G := good_reach B G0 hr
    have hnt := G.notThrown
    cases hp : w.t1 with
    | returned id => exact ⟨id, hp⟩
    | thrown => exact absurd hp hnt
    | _ => rw [hp] at hn; simp [Acquiring.remaining] at hn
  | succ n ih =>
    intro w hr hd hn
    have G := good_reach B G0 hr
    by_cases hp : ∃ id, w.t1 = Acquiring.returned id
    · obtain ⟨id, hp⟩ := hp
      refine ⟨id, ?_⟩
      have : stepAcquire b x m w = Move.ended := by
        unfold stepAcquire
        rw [hp]
      unfold runAcquire
      rw [this]
      exact hp
    · have hp1 : ∀ id, w.t1 ≠ Acquiring.returned id := fun id h => hp ⟨id, h⟩
      obtain ⟨w1, e1, e2, e3⟩ := @acquire_progress _ _ _ _ _ m _ B G hd hp1
      have hr1 : Reach a b x m w0 w1 := Reach.acquire hr e1
      obtain ⟨id, hid⟩ := ih w1 hr1 e2 (by omega)
      refine ⟨id, ?_⟩
      unfold runAcquire
      rw [e1]
      exact hid

end LockManager

namespace LockManager

/-- C31: the manager state `s0` is the result of any calls made one at a time,
and in it transaction `a` is an owner of the Exclusive lock `l` of item `x`.
Transaction `a` then runs its destructor on one thread while another
transaction `b` runs `addLock(x, mode)` on a second thread, the two threads
taking their steps in any order and `try_lock` being free to fail. In every
world they reach: `addLock` has not returned while the destructor of `a` has
not started, nor while it has not yet unlocked the lock of `x`; `addLock` has
not raised `DeadLockError`; and once the destructor of `a` has finished, at
most nine further steps of the thread of `b` make `addLock` return. -/
theorem exclusive_lock_blocks_until_destroyed (hash : Nat → Nat) (bucketCount : Nat)
    (ops : List Op) (s0 : State) (a b x : Nat) (mode : LockMode) (l : Lock)
    (hb : 0 < bucketCount) (hrun : run (init hash bucketCount) ops = some s0) (hab : a ≠ b)
    (hl : holder s0 x = some l) (hown : a ∈ l.owners)
    (hex : l.ownership = LockMode.Exclusive) :
    ∃ id0, id0 ∈ s0.locks a ∧ s0.objects id0 = l ∧
      ∀ w, Reach a b x mode ⟨s0, Destroying.alive, Acquiring.start⟩ w →
        (w.t0 = Destroying.alive → ∀ id, w.t1 ≠ Acquiring.returned id) ∧
        (w.t0.holds id0 → ∀ id, w.t1 ≠ Acquiring.returned id) ∧
        w.t1 ≠ Acquiring.thrown ∧
        (w.t0 = Destroying.destroyed →
          ∃ id, (runAcquire b x mode 9 w).t1 = Acquiring.returned id) := by
  have hsz0 : (init hash bucketCount).table_size ≠ 0 := by
    show bucketCount ≠ 0
    omega
  obtain ⟨hinv, hsz⟩ := locks_run_inv ops _ _ (inv_init hash bucketCount) hsz0 hrun
  have hsz1 : s0.table_size ≠ 0 := by
    rw [hsz]
    exact hsz0
  obtain ⟨id0, hobj, B, hrefs, hw, hr, hnb, hwait⟩ := base_of_holder hinv hsz1 hab hl hown hex
  have hex0 : (s0.objects id0).ownership = LockMode.Exclusive := by
    rw [hobj]
    exact hex
  have G0 : Good s0 a b id0 ⟨s0, Destroying.alive, Acquiring.start⟩ :=
    good_init hinv hrefs hw hr hex0 hnb hwait
  refine ⟨id0, B.inLocks, hobj, ?_⟩
  intro w hreach
  have G := good_reach B G0 hreach
  have safe : w.t0.holds id0 → ∀ id, w.t1 ≠ Acquiring.returned id := by
    intro hh id hret
    have hm := (G.held hh).2.2.2
    rw [hret] at hm
    simp [Acquiring.hasMutex] at hm
  refine ⟨?_, safe, G.notThrown, ?_⟩
  · intro halive
    apply safe
    rw [halive]
    exact trivial
  · intro hd
    apply runAcquire_returns B G0 9 w hreach hd
    cases w.t1 <;> simp [Acquiring.remaining]

end LockManager

namespace LockManager

/-- Witness for C31: transaction 1 holds item 4 exclusively and transaction 2
asks for it in mode Shared. Alone, the thread of transaction 2 gets as far as
waiting on the mutex of the lock; the destructor of transaction 1 then ends
in five steps, and the thread of transaction 2 returns from `addLock`. -/
theorem exclusive_lock_blocks_until_destroyed_witness :
    run (init (fun x => x) 2) [Op.addLock 1 4 LockMode.Exclusive] = some heldState ∧
    (holder heldState 4).map (fun l => (l.owners, l.ownership)) =
      some ([1], LockMode.Exclusive) ∧
    blockedWorld.t1 = Acquiring.blocked 0 ∧
    (runDestroy 1 5 blockedWorld).t0 = Destroying.destroyed ∧
    (runAcquire 2 4 LockMode.Shared 9 (runDestroy 1 5 blockedWorld)).t1 =
      Acquiring.returned 0 ∧
    ∃ id0, id0 ∈ heldState.locks 1 ∧
      ∀ w, Reach 1 2 4 LockMode.Shared ⟨heldState, Destroying.alive, Acquiring.start⟩ w →
        (w.t0 = Destroying.alive → ∀ id, w.t1 ≠ Acquiring.returned id) ∧
        (w.t0.holds id0 → ∀ id, w.t1 ≠ Acquiring.returned id) ∧
        w.t1 ≠ Acquiring.thrown ∧
        (w.t0 = Destroying.destroyed →
          ∃ id, (runAcquire 2 4 LockMode.Shared 9 w).t1 = Acquiring.returned id) := by
  obtain ⟨id0, h1, _, h2⟩ := exclusive_lock_blocks_until_destroyed (fun x => x) 2
    [Op.addLock 1 4 LockMode.Exclusive] heldState 1 2 4 LockMode.Shared (heldState.objects 0)
    (by decide) rfl (by decide) rfl (by decide) rfl
  exact ⟨rfl, by decide, by decide, by decide, by decide, id0, h1, h2⟩

end LockManager

/-! ## Buffer manager: page table lemmas -/

namespace BufferManager

theorem findFrame_some_mem {s : State} {q : Nat} {f : BufferFrame} (h : findFrame s q = some f) :
    f ∈ s.bufferframes ∧ f.pid = q := by
  unfold findFrame at h
  exact ⟨List.mem_of_find?_eq_some h, by simpa using List.find?_some h⟩

theorem find_of_nodup (l : List BufferFrame) (hnd : (l.map (fun f => f.pid)).Nodup)
    (f : BufferFrame) (hf : f ∈ l) : l.find? (fun g => g.pid == f.pid) = some f := by
  induction l with
  | nil => simp at hf
  | cons a rest ih =>
    simp only [List.map_cons, List.nodup_cons, List.mem_map, not_exists, not_and] at hnd
    rcases List.mem_cons.1 hf with h | h
    · subst h; simp [List.find?]
    · have hne : a.pid ≠ f.pid := fun hh => hnd.1 f h hh.symm
      have : (a.pid == f.pid) = false := by simpa using hne
      simp only [List.find?, this]
      exact ih hnd.2 h

theorem findFrame_of_mem {s : State} (hnd : (s.bufferframes.map (fun f => f.pid)).Nodup)
    {f : BufferFrame} (hf : f ∈ s.bufferframes) : findFrame s f.pid = some f :=
  find_of_nodup _ hnd f hf

theorem findFrame_none_iff {s : State} {q : Nat} :
    findFrame s q = none ↔ ∀ f ∈ s.bufferframes, f.pid ≠ q := by
  unfold findFrame
  simp [List.find?_eq_none]

theorem setFrame_pids (s : State) (f : BufferFrame) :
    (setFrame s f).bufferframes.map (fun g => g.pid) = s.bufferframes.map (fun g => g.pid) := by
  unfold setFrame
  simp only [List.map_map]
  apply List.map_congr_left
  intro g _
  simp only [Function.comp]
  by_cases h : g.pid = f.pid
  · simp [h]
  · simp [h]

theorem mem_setFrame {s : State} {f g : BufferFrame} :
    g ∈ (setFrame s f).bufferframes ↔
      (g = f ∧ ∃ h ∈ s.bufferframes, h.pid = f.pid) ∨ (g ∈ s.bufferframes ∧ g.pid ≠ f.pid) := by
  unfold setFrame
  simp only [List.mem_map]
  constructor
  · rintro ⟨h, hh, rfl⟩
    by_cases hp : h.pid = f.pid
    · left; simp only [hp, beq_self_eq_true, ↓reduceIte, true_and]; exact ⟨h, hh, hp⟩
    · right
      have : (h.pid == f.pid) = false := by simpa using hp
      simp only [this, Bool.false_eq_true, ↓reduceIte]
      exact ⟨hh, hp⟩
  · rintro (⟨rfl, h, hh, hp⟩ | ⟨hg, hp⟩)
    · exact ⟨h, hh, by simp [hp]⟩
    · refine ⟨g, hg, ?_⟩
      have : (g.pid == f.pid) = false := by simpa using hp
      simp [this]

theorem mem_eraseFrame {s : State} {q : Nat} {g : BufferFrame} :
    g ∈ (eraseFrame s q).bufferframes ↔ g ∈ s.bufferframes ∧ g.pid ≠ q := by
  unfold eraseFrame
  simp [List.mem_filter]

theorem eraseFrame_pids_nodup {s : State} (q : Nat)
    (hnd : (s.bufferframes.map (fun f => f.pid)).Nodup) :
    ((eraseFrame s q).bufferframes.map (fun f => f.pid)).Nodup := by
  unfold eraseFrame
  exact List.Nodup.sublist (List.Sublist.map _ (List.filter_sublist _)) hnd

theorem length_setFrame (s : State) (f : BufferFrame) :
    (setFrame s f).bufferframes.length = s.bufferframes.length := by
  unfold setFrame
  simp

theorem wf_init (ps pc : Nat) (files : Nat → File) : WF (init ps pc files) :=
  ⟨by simp [init], by simp [init], by simp [init], by simp [init]⟩

theorem firstEvictable_some {s : State} {l : List Nat} {v : BufferFrame}
    (h : firstEvictable s l = some v) :
    v ∈ s.bufferframes ∧ v.pid ∈ l ∧ v.num_users = 0 ∧ v.state = BufferFrameState.LOADED := by
  induction l with
  | nil => simp [firstEvictable] at h
  | cons p rest ih =>
    unfold firstEvictable at h
    cases hf : findFrame s p with
    | none =>
      rw [hf] at h
      obtain ⟨h1, h2, h3⟩ := ih h
      exact ⟨h1, List.mem_cons_of_mem _ h2, h3⟩
    | some f =>
      rw [hf] at h
      simp only at h
      split at h
      · rename_i hc
        simp only [Option.some.injEq] at h
        subst h
        obtain ⟨h1, h2⟩ := findFrame_some_mem hf
        exact ⟨h1, by simp [h2], hc.1, hc.2⟩
      · obtain ⟨h1, h2, h3⟩ := ih h
        exact ⟨h1, List.mem_cons_of_mem _ h2, h3⟩

theorem firstEvictable_none {s : State} {l : List Nat}
    (hnd : (s.bufferframes.map (fun f => f.pid)).Nodup)
    (h : firstEvictable s l = none) (f : BufferFrame) (hf : f ∈ s.bufferframes)
    (hl : f.pid ∈ l) : ¬ (f.num_users = 0 ∧ f.state = BufferFrameState.LOADED) := by
  induction l with
  | nil => simp at hl
  | cons p rest ih =>
    unfold firstEvictable at h
    rcases List.mem_cons.1 hl with hp | hr
    · subst hp
      rw [findFrame_of_mem hnd hf] at h
      simp only at h
      split at h
      · simp at h
      · assumption
    · cases hq : findFrame s p with
      | none => rw [hq] at h; exact ih h hr
      | some g =>
        rw [hq] at h
        simp only at h
        split at h
        · simp at h
        · exact ih h hr

theorem find_page_to_evict_some {s : State} {v : BufferFrame} (h : find_page_to_evict s = some v) :
    v ∈ s.bufferframes ∧ (v.pid ∈ s.fifo_list ∨ v.pid ∈ s.lru_list) ∧ v.num_users = 0 ∧
      v.state = BufferFrameState.LOADED := by
  unfold find_page_to_evict at h
  cases h1 : firstEvictable s s.fifo_list with
  | some f =>
    rw [h1] at h
    simp only [Option.some.injEq] at h
    subst h
    obtain ⟨a, b, c⟩ := firstEvictable_some h1
    exact ⟨a, Or.inl b, c⟩
  | none =>
    rw [h1] at h
    obtain ⟨a, b, c⟩ := firstEvictable_some h
    exact ⟨a, Or.inr b, c⟩

theorem find_page_to_evict_none {s : State}
    (hnd : (s.bufferframes.map (fun f => f.pid)).Nodup)
    (h : find_page_to_evict s = none) (f : BufferFrame) (hf : f ∈ s.bufferframes)
    (hl : f.pid ∈ s.fifo_list ∨ f.pid ∈ s.lru_list) :
    ¬ (f.num_users = 0 ∧ f.state = BufferFrameState.LOADED) := by
  unfold find_page_to_evict at h
  cases h1 : firstEvictable s s.fifo_list with
  | some g => rw [h1] at h; simp at h
  | none =>
    rw [h1] at h
    rcases hl with hl | hl
    · exact firstEvictable_none hnd h1 f hf hl
    · exact firstEvictable_none hnd h f hf hl

theorem firstEvictable_none_of_pinned {s : State} (l : List Nat)
    (h : ∀ f ∈ s.bufferframes, ¬ (f.num_users = 0 ∧ f.state = BufferFrameState.LOADED)) :
    firstEvictable s l = none := by
  induction l with
  | nil => rfl
  | cons p rest ih =>
    unfold firstEvictable
    cases hq : findFrame s p with
    | none => exact ih
    | some g =>
      simp only
      rw [if_neg (h g (findFrame_some_mem hq).1)]
      exact ih

/-! ## Buffer manager: when `fix_page` raises `buffer_full_error` -/

theorem one_mod_pow : (0 + 1) % 2 ^ 64 = 1 := by norm_num

theorem newFrame_lock (p : Nat) : (newFrame p).inc_num_users.lock true = some (pinnedNew p) := by
  unfold newFrame BufferFrame.inc_num_users BufferFrame.lock pinnedNew
  simp only [one_mod_pow]
  rfl

theorem pinnedNew_drop (p : Nat) : (pinnedNew p).dec_num_users.unlock = some
    { pid := p, data := [], state := BufferFrameState.NEW, num_users := 0,
      exclusively_locked := false, is_dirty := false, readers := 0, writer := false } := by
  unfold pinnedNew BufferFrame.dec_num_users BufferFrame.unlock
  simp

theorem map_replace_absent (l : List BufferFrame) (f : BufferFrame)
    (h : ∀ g ∈ l, g.pid ≠ f.pid) : l.map (fun g => if g.pid == f.pid then f else g) = l := by
  induction l with
  | nil => rfl
  | cons a rest ih =>
    have h1 : (a.pid == f.pid) = false := by simpa using h a (List.mem_cons_self _ _)
    simp only [List.map_cons, h1, Bool.false_eq_true, ↓reduceIte]
    rw [ih (fun g hg => h g (List.mem_cons_of_mem _ hg))]

theorem filter_absent (l : List BufferFrame) (p : Nat)
    (h : ∀ g ∈ l, g.pid ≠ p) : l.filter (fun g => g.pid != p) = l := by
  apply List.filter_eq_self.2
  intro g hg
  simpa using h g hg

theorem setFrame_appended (s : State) (p : Nat) (f0 f : BufferFrame) (hp0 : f0.pid = p)
    (hp : f.pid = p) (h : findFrame s p = none) :
    setFrame { s with bufferframes := s.bufferframes ++ [f0] } f =
      { s with bufferframes := s.bufferframes ++ [f] } := by
  have hn := findFrame_none_iff.1 h
  have hm := map_replace_absent s.bufferframes f (by rw [hp]; exact hn)
  rw [hp] at hm
  unfold setFrame
  simp only [List.map_append, List.map_cons, List.map_nil, hp0, hp, beq_self_eq_true, ↓reduceIte]
  rw [hm]

theorem eraseFrame_appended (s : State) (p : Nat) (f : BufferFrame) (hp : f.pid = p)
    (h : findFrame s p = none) :
    eraseFrame { s with bufferframes := s.bufferframes ++ [f] } p = s := by
  have hn := findFrame_none_iff.1 h
  unfold eraseFrame
  simp only [List.filter_append, filter_absent _ p hn, List.filter_cons, hp, bne_self_eq_false,
    Bool.false_eq_true, ↓reduceIte, List.filter_nil, List.append_nil]

theorem appended_pinned_none (s : State) (hwf : WF s) (p : Nat) (h : findFrame s p = none) :
    find_page_to_evict { s with bufferframes := s.bufferframes ++ [pinnedNew p] } = none ↔
      ∀ f ∈ s.bufferframes, 0 < f.num_users := by
  have hn := findFrame_none_iff.1 h
  constructor
  · intro h1 f hf
    have hnd : (({ s with bufferframes := s.bufferframes ++ [pinnedNew p] } : State).bufferframes.map
        (fun f => f.pid)).Nodup := by
      simp only [List.map_append, List.map_cons, List.map_nil]
      refine List.Nodup.append hwf.nodup (by simp) ?_
      intro a ha hb
      simp only [List.mem_singleton, pinnedNew] at hb
      simp only [List.mem_map] at ha
      obtain ⟨g, hg, hga⟩ := ha
      exact hn g hg (hga.trans hb)
    have := find_page_to_evict_none hnd h1 f (by simp [hf]) (hwf.listed f hf)
    have hl := hwf.loaded f hf
    by_contra hc
    exact this ⟨by omega, hl⟩
  · intro h1
    have hp : ∀ f ∈ ({ s with bufferframes := s.bufferframes ++ [pinnedNew p] } : State).bufferframes,
        ¬ (f.num_users = 0 ∧ f.state = BufferFrameState.LOADED) := by
      intro f hf
      simp only [List.mem_append, List.mem_singleton] at hf
      rcases hf with hf | hf
      · have := h1 f hf
        omega
      · subst hf
        rintro ⟨h2, _⟩
        simp only [pinnedNew] at h2
        omega
    unfold find_page_to_evict
    rw [firstEvictable_none_of_pinned _ hp, firstEvictable_none_of_pinned _ hp]

theorem finishLoad_not_full (s2 : State) (page : BufferFrame) (e : Bool) (s1 : State) :
    finishLoad s2 page e ≠ FixResult.buffer_full_error s1 := by
  unfold finishLoad
  simp only
  split
  · simp
  · split
    · simp
    · simp

theorem evict_page_nothing (s : State) :
    evict_page s = Evicted.nothing ↔ find_page_to_evict s = none := by
  unfold evict_page
  cases find_page_to_evict s with
  | none => simp
  | some v =>
    simp only
    constructor
    · intro h
      exfalso
      revert h
      split <;> simp
    · intro h; simp at h

theorem fixMissing_full (s : State) (hwf : WF s) (p : Nat) (e : Bool)
    (h : findFrame s p = none) :
    ((∃ s1, fixMissing s p e = FixResult.buffer_full_error s1) ↔
      (s.bufferframes.length = s.page_count ∧ ∀ f ∈ s.bufferframes, 0 < f.num_users)) ∧
    (∀ s1, fixMissing s p e = FixResult.buffer_full_error s1 → s1 = s) := by
  have hroom := hwf.room
  have hd : dropNew { s with bufferframes := s.bufferframes ++ [pinnedNew p] } (pinnedNew p) =
      FixResult.buffer_full_error s := by
    unfold dropNew
    simp only [pinnedNew_drop, ↓reduceIte]
    rw [setFrame_appended s p (pinnedNew p) _ rfl rfl h]
    have : (pinnedNew p).pid = p := rfl
    rw [this, eraseFrame_appended s p _ rfl h]
  unfold fixMissing
  rw [newFrame_lock]
  simp only
  rw [setFrame_appended s p (newFrame p) (pinnedNew p) rfl rfl h]
  simp only [List.length_append, List.length_singleton, Nat.add_sub_cancel]
  by_cases hlt : s.bufferframes.length < s.page_count
  · simp only [hlt, ↓reduceIte]
    exact ⟨⟨fun ⟨s1, h1⟩ => absurd h1 (finishLoad_not_full _ _ _ _), fun ⟨h1, _⟩ => by omega⟩,
      fun s1 h1 => absurd h1 (finishLoad_not_full _ _ _ _)⟩
  · simp only [hlt, ↓reduceIte]
    have hlen : s.bufferframes.length = s.page_count := by omega
    cases hr : evict_page { s with bufferframes := s.bufferframes ++ [pinnedNew p] } with
    | nothing =>
      have hv := (evict_page_nothing _).1 hr
      have hpin := (appended_pinned_none s hwf p h).1 hv
      simp only [hd]
      exact ⟨⟨fun _ => ⟨hlen, hpin⟩, fun _ => ⟨s, rfl⟩⟩,
        fun s1 h1 => (FixResult.buffer_full_error.inj h1).symm⟩
    | undefined =>
      have hnp : ¬ ∀ f ∈ s.bufferframes, 0 < f.num_users := by
        intro hall
        have := (evict_page_nothing _).2 ((appended_pinned_none s hwf p h).2 hall)
        rw [this] at hr
        simp at hr
      simp only
      exact ⟨⟨fun ⟨s1, h1⟩ => by simp at h1, fun ⟨_, h1⟩ => absurd h1 hnp⟩,
        fun s1 h1 => by simp at h1⟩
    | freed s2 =>
      have hnp : ¬ ∀ f ∈ s.bufferframes, 0 < f.num_users := by
        intro hall
        have := (evict_page_nothing _).2 ((appended_pinned_none s hwf p h).2 hall)
        rw [this] at hr
        simp at hr
      simp only
      exact ⟨⟨fun ⟨s1, h1⟩ => absurd h1 (finishLoad_not_full _ _ _ _), fun ⟨_, h1⟩ => absurd h1 hnp⟩,
        fun s1 h1 => absurd h1 (finishLoad_not_full _ _ _ _)⟩

theorem fixLoaded_cases (s : State) (f : BufferFrame) (e : Bool) :
    fixLoaded s f e = FixResult.undefined ∨ fixLoaded s f e = FixResult.blocked ∨
      ∃ s1 f1, fixLoaded s f e = FixResult.ok s1 f1 := by
  unfold fixLoaded
  simp only
  split
  · exact Or.inl rfl
  · split
    · split
      · exact Or.inr (Or.inl rfl)
      · exact Or.inr (Or.inr ⟨_, _, rfl⟩)
    · split
      · split
        · exact Or.inr (Or.inl rfl)
        · exact Or.inr (Or.inr ⟨_, _, rfl⟩)
      · exact Or.inl rfl

theorem fixLoaded_not_full (s : State) (f : BufferFrame) (e : Bool) (s1 : State) :
    fixLoaded s f e ≠ FixResult.buffer_full_error s1 := by
  rcases fixLoaded_cases s f e with h | h | ⟨a, b, h⟩ <;> rw [h] <;> simp

theorem fix_page_full (s : State) (hwf : WF s) (p : Nat) (e : Bool) :
    ((∃ s1, fix_page s p e = FixResult.buffer_full_error s1) ↔
      (findFrame s p = none ∧ s.bufferframes.length = s.page_count ∧
        ∀ f ∈ s.bufferframes, 0 < f.num_users)) ∧
    (∀ s1, fix_page s p e = FixResult.buffer_full_error s1 → s1 = s) := by
  unfold fix_page
  cases h : findFrame s p with
  | some f =>
    simp only
    exact ⟨⟨fun ⟨s1, h1⟩ => absurd h1 (fixLoaded_not_full s f e s1), fun h1 => by simp at h1⟩,
      fun s1 h1 => absurd h1 (fixLoaded_not_full s f e s1)⟩
  | none =>
    simp only [true_and]
    exact fixMissing_full s hwf p e h


/-! ## Buffer manager: files -/

theorem read_block_length (f : File) (o n : Nat) : (f.read_block o n).length = n := by
  simp [File.read_block]

theorem read_resize (f : File) (n o ps : Nat) (h : o + ps ≤ f.size) :
    (f.resize n).read_block o ps = f.read_block o ps := by
  apply List.ext_getElem
  · simp [File.read_block]
  · intro i h1 _
    simp only [File.read_block, List.length_map, List.length_range] at h1
    simp only [File.read_block, File.resize, List.getElem_map, List.getElem_range]
    have : o + i < f.size := by omega
    simp only [this, ↓reduceIte]


/-! ## Buffer manager: what one call changes -/

theorem lock_some {f g : BufferFrame} {e : Bool} (h : f.lock e = some g) :
    g.pid = f.pid ∧ g.data = f.data ∧ g.is_dirty = f.is_dirty ∧ g.state = f.state ∧
      g.num_users = f.num_users ∧ held g = held f + 1 := by
  unfold BufferFrame.lock at h
  cases e with
  | true =>
    simp only [↓reduceIte] at h
    split at h
    · simp at h
    · rename_i hc
      simp only [Bool.or_eq_true, bne_iff_ne, ne_eq, not_or, Bool.not_eq_true, not_not] at hc
      simp only [Option.some.injEq] at h
      subst h
      simp [held, hc.1, hc.2]
  | false =>
    simp only [Bool.false_eq_true, ↓reduceIte] at h
    split at h
    · simp at h
    · rename_i hc
      simp only [Option.some.injEq] at h
      subst h
      simp only [held, true_and]
      omega

theorem unlock_some {f g : BufferFrame} (h : f.unlock = some g) :
    g.pid = f.pid ∧ g.data = f.data ∧ g.is_dirty = f.is_dirty ∧ g.state = f.state ∧
      g.num_users = f.num_users ∧ held g + 1 = held f := by
  unfold BufferFrame.unlock at h
  split at h
  · split at h
    · rename_i hw
      simp only [Option.some.injEq] at h
      subst h
      simp [held, hw]
    · simp at h
  · split at h
    · simp at h
    · rename_i hr
      simp only [Option.some.injEq] at h
      subst h
      simp only [held, true_and]
      omega

theorem fixLoaded_ok {s s1 : State} {f0 f : BufferFrame} {e : Bool}
    (h : fixLoaded s f0 e = FixResult.ok s1 f) (hst : f0.state = BufferFrameState.LOADED) :
    f.pid = f0.pid ∧ f.data = f0.data ∧ f.is_dirty = f0.is_dirty ∧
      f.state = BufferFrameState.LOADED ∧ f.num_users = (f0.num_users + 1) % 2 ^ 64 ∧
      held f = held f0 + 1 ∧
      s1.bufferframes = (setFrame s f).bufferframes ∧ s1.files = s.files ∧
      s1.segment_files = s.segment_files ∧ s1.page_size = s.page_size ∧
      s1.page_count = s.page_count ∧
      (∀ x, (x ∈ s.fifo_list ∨ x ∈ s.lru_list) → (x ∈ s1.fifo_list ∨ x ∈ s1.lru_list)) := by
  unfold fixLoaded at h
  have hst1 : f0.inc_num_users.state = BufferFrameState.LOADED := hst
  simp only [hst1, reduceCtorEq, ↓reduceIte] at h
  have hl : ∀ g, f0.inc_num_users.lock e = some g →
      g.pid = f0.pid ∧ g.data = f0.data ∧ g.is_dirty = f0.is_dirty ∧
      g.state = BufferFrameState.LOADED ∧ g.num_users = (f0.num_users + 1) % 2 ^ 64 ∧
      held g = held f0 + 1 := by
    intro g hg
    obtain ⟨a, b, c, d, e1, f1⟩ := lock_some hg
    exact ⟨a, b, c, d.trans hst, e1, f1⟩
  split at h
  · rename_i hin
    cases hg : f0.inc_num_users.lock e with
    | none => rw [hg] at h; simp at h
    | some g =>
      rw [hg] at h
      simp only [FixResult.ok.injEq] at h
      obtain ⟨h1, h2⟩ := h
      subst h2
      subst h1
      obtain ⟨a, b, c, d, e1, f1⟩ := hl g hg
      refine ⟨a, b, c, d, e1, f1, rfl, rfl, rfl, rfl, rfl, ?_⟩
      intro x hx
      simp only [setFrame, List.mem_append, List.mem_singleton]
      by_cases hxe : x = f0.pid
      · exact Or.inr (Or.inr hxe)
      · rcases hx with hx | hx
        · exact Or.inl hx
        · exact Or.inr (Or.inl ((List.mem_erase_of_ne hxe).2 hx))
  · split at h
    · cases hg : f0.inc_num_users.lock e with
      | none => rw [hg] at h; simp at h
      | some g =>
        rw [hg] at h
        simp only [FixResult.ok.injEq] at h
        obtain ⟨h1, h2⟩ := h
        subst h2
        subst h1
        obtain ⟨a, b, c, d, e1, f1⟩ := hl g hg
        refine ⟨a, b, c, d, e1, f1, rfl, rfl, rfl, rfl, rfl, ?_⟩
        intro x hx
        simp only [setFrame, List.mem_append, List.mem_singleton]
        by_cases hxe : x = f0.pid
        · exact Or.inr (Or.inr hxe)
        · rcases hx with hx | hx
          · exact Or.inl ((List.mem_erase_of_ne hxe).2 hx)
          · exact Or.inr (Or.inl hx)
    · simp at h

theorem write_out_page_some {s s1 : State} {v : BufferFrame} (h : write_out_page s v = some s1) :
    s1 = setFile s (get_segment_id v.pid)
      ((s.files (get_segment_id v.pid)).write_block v.data
        (get_segment_page_id v.pid * s.page_size) s.page_size) := by
  unfold write_out_page at h
  simp only at h
  split at h
  · simp only [Option.some.injEq] at h
    exact h.symm
  · simp at h

theorem evict_page_freed {s s2 : State} (h : evict_page s = Evicted.freed s2) :
    ∃ v s1, find_page_to_evict s = some v ∧
      (if v.is_dirty then write_out_page s v else some s) = some s1 ∧
      s2.bufferframes = s.bufferframes.filter (fun g => g.pid != v.pid) ∧
      s2.files = s1.files ∧ s2.segment_files = s.segment_files ∧
      s2.page_size = s.page_size ∧ s2.page_count = s.page_count ∧
      (∀ x, x ≠ v.pid → (x ∈ s.fifo_list ∨ x ∈ s.lru_list) →
        (x ∈ s2.fifo_list ∨ x ∈ s2.lru_list)) := by
  unfold evict_page at h
  cases hv : find_page_to_evict s with
  | none => rw [hv] at h; simp at h
  | some v =>
    rw [hv] at h
    simp only at h
    cases hw : (if v.is_dirty then write_out_page s v else some s) with
    | none => rw [hw] at h; simp at h
    | some s1 =>
      rw [hw] at h
      simp only [Evicted.freed.injEq] at h
      have hs1 : s1.bufferframes = s.bufferframes ∧ s1.segment_files = s.segment_files ∧
          s1.page_size = s.page_size ∧ s1.page_count = s.page_count ∧
          s1.fifo_list = s.fifo_list ∧ s1.lru_list = s.lru_list := by
        split at hw
        · rw [write_out_page_some hw]; simp [setFile]
        · simp only [Option.some.injEq] at hw; subst hw; simp
      obtain ⟨a, b, c, d, e1, f1⟩ := hs1
      refine ⟨v, s1, rfl, hw, ?_, ?_, ?_, ?_, ?_, ?_⟩
      · rw [← h]; split <;> simp [eraseFrame, a]
      · rw [← h]; split <;> simp [eraseFrame]
      · rw [← h]; split <;> simp [eraseFrame, b]
      · rw [← h]; split <;> simp [eraseFrame, c]
      · rw [← h]; split <;> simp [eraseFrame, d]
      · intro x hx hl
        rw [← h]
        split
        · simp only [eraseFrame, e1, f1]
          rcases hl with hl | hl
          · exact Or.inl hl
          · exact Or.inr ((List.mem_erase_of_ne hx).2 hl)
        · simp only [eraseFrame, e1, f1]
          rcases hl with hl | hl
          · exact Or.inl ((List.mem_erase_of_ne hx).2 hl)
          · exact Or.inr hl


theorem load_page_frame (s : State) (page : BufferFrame) :
    (load_page s page).1.bufferframes = s.bufferframes ∧
    (load_page s page).1.fifo_list = s.fifo_list ∧ (load_page s page).1.lru_list = s.lru_list ∧
    (load_page s page).1.page_size = s.page_size ∧ (load_page s page).1.page_count = s.page_count ∧
    (load_page s page).2.pid = page.pid ∧
    (load_page s page).2.state = BufferFrameState.LOADED ∧
    (load_page s page).2.is_dirty = false ∧ (load_page s page).2.num_users = page.num_users ∧
    (load_page s page).2.readers = page.readers ∧ (load_page s page).2.writer = page.writer ∧
    (load_page s page).2.exclusively_locked = page.exclusively_locked ∧
    (load_page s page).2.data.length = s.page_size := by
  unfold load_page
  simp only
  split <;> split <;> simp [setFile, File.read_block]

theorem load_page_files (s : State) (page : BufferFrame) :
    covers (load_page s page).1 page.pid ∧
    (∀ q, covers s q → covers (load_page s page).1 q ∧ disk (load_page s page).1 q = disk s q) ∧
    (covers s page.pid → (load_page s page).2.data = disk s page.pid) ∧
    (∀ x ∈ s.segment_files, x ∈ (load_page s page).1.segment_files) ∧
    get_segment_id page.pid ∈ (load_page s page).1.segment_files := by
  have hsf : ∀ (s0 : State), ({ s0 with segment_files := get_segment_id page.pid :: s0.segment_files } : State).files = s0.files := fun _ => rfl
  unfold load_page covers disk
  simp only
  by_cases hopen : get_segment_id page.pid ∈ s.segment_files
  · simp only [hopen, ↓reduceIte]
    by_cases hsz : (s.files (get_segment_id page.pid)).size <
        (get_segment_page_id page.pid + 1) * s.page_size
    · simp only [hsz, ↓reduceIte, setFile, File.resize, le_refl, true_and]
      refine ⟨?_, fun h => absurd h (by omega), fun x hx => hx, hopen⟩
      intro q hq
      by_cases hseg : get_segment_id q = get_segment_id page.pid
      · simp only [hseg, ↓reduceIte]
        rw [hseg] at hq
        refine ⟨by omega, ?_⟩
        have := read_resize (s.files (get_segment_id page.pid))
          ((get_segment_page_id page.pid + 1) * s.page_size)
          (get_segment_page_id q * s.page_size) s.page_size
          (by have : (get_segment_page_id q + 1) * s.page_size =
                get_segment_page_id q * s.page_size + s.page_size := by ring
              omega)
        exact this
      · simp only [hseg, ↓reduceIte]
        exact ⟨hq, trivial⟩
    · simp only [hsz, ↓reduceIte]
      exact ⟨by omega, fun q hq => ⟨hq, trivial⟩, fun _ => trivial, fun x hx => hx, hopen⟩
  · simp only [hopen, ↓reduceIte]
    by_cases hsz : (s.files (get_segment_id page.pid)).size <
        (get_segment_page_id page.pid + 1) * s.page_size
    · simp only [hsz, ↓reduceIte, setFile, File.resize, le_refl, true_and]
      refine ⟨?_, fun h => absurd h (by omega), fun x hx => List.mem_cons_of_mem _ hx,
        List.mem_cons_self _ _⟩
      intro q hq
      by_cases hseg : get_segment_id q = get_segment_id page.pid
      · simp only [hseg, ↓reduceIte]
        rw [hseg] at hq
        refine ⟨by omega, ?_⟩
        have := read_resize (s.files (get_segment_id page.pid))
          ((get_segment_page_id page.pid + 1) * s.page_size)
          (get_segment_page_id q * s.page_size) s.page_size
          (by have : (get_segment_page_id q + 1) * s.page_size =
                get_segment_page_id q * s.page_size + s.page_size := by ring
              omega)
        exact this
      · simp only [hseg, ↓reduceIte]
        exact ⟨hq, trivial⟩
    · simp only [hsz, ↓reduceIte]
      exact ⟨by omega, fun q hq => ⟨hq, trivial⟩, fun _ => trivial,
        fun x hx => List.mem_cons_of_mem _ hx, List.mem_cons_self _ _⟩

theorem map_replace_appended (l : List BufferFrame) (f0 f : BufferFrame) (hp : f0.pid = f.pid)
    (h : ∀ g ∈ l, g.pid ≠ f.pid) :
    (l ++ [f0]).map (fun g => if g.pid == f.pid then f else g) = l ++ [f] := by
  simp only [List.map_append, List.map_cons, List.map_nil, hp, beq_self_eq_true, ↓reduceIte]
  rw [map_replace_absent l f h]

theorem finishLoad_ok {s2 s3 : State} {page f : BufferFrame} {e : Bool}
    (h : finishLoad s2 page e = FixResult.ok s3 f) :
    ∃ u, (load_page { s2 with fifo_list := s2.fifo_list ++ [page.pid] }
        { page with state := BufferFrameState.LOADING }).2.unlock = some u ∧
      u.lock e = some f ∧
      s3 = setFrame (load_page { s2 with fifo_list := s2.fifo_list ++ [page.pid] }
        { page with state := BufferFrameState.LOADING }).1 f := by
  unfold finishLoad at h
  simp only at h
  split at h
  · simp at h
  · rename_i u hu
    split at h
    · simp at h
    · rename_i g hg
      simp only [FixResult.ok.injEq] at h
      obtain ⟨h1, h2⟩ := h
      subst h2
      exact ⟨u, hu, hg, h1.symm⟩

theorem fixMissing_ok {s s3 : State} {q : Nat} {f : BufferFrame} {e : Bool}
    (h : fixMissing s q e = FixResult.ok s3 f) (hq : findFrame s q = none) :
    ∃ s2, ((s.bufferframes.length < s.page_count ∧
          s2 = { s with bufferframes := s.bufferframes ++ [pinnedNew q] }) ∨
        evict_page { s with bufferframes := s.bufferframes ++ [pinnedNew q] } = Evicted.freed s2) ∧
      finishLoad s2 (pinnedNew q) e = FixResult.ok s3 f := by
  unfold fixMissing at h
  rw [newFrame_lock] at h
  simp only at h
  rw [setFrame_appended s q (newFrame q) (pinnedNew q) rfl rfl hq] at h
  simp only [List.length_append, List.length_singleton, Nat.add_sub_cancel] at h
  by_cases hlt : s.bufferframes.length < s.page_count
  · simp only [hlt, ↓reduceIte] at h
    exact ⟨_, Or.inl ⟨hlt, rfl⟩, h⟩
  · simp only [hlt, ↓reduceIte] at h
    cases hr : evict_page { s with bufferframes := s.bufferframes ++ [pinnedNew q] } with
    | nothing =>
      rw [hr] at h
      simp only at h
      unfold dropNew at h
      simp only [pinnedNew_drop, ↓reduceIte] at h
      simp at h
    | undefined => rw [hr] at h; simp at h
    | freed s2 =>
      rw [hr] at h
      exact ⟨s2, Or.inr rfl, h⟩


/-! ## Buffer manager: the content of a page survives eviction and restart -/

theorem find_map_replace (l : List BufferFrame) (f : BufferFrame) (q : Nat) :
    (l.map (fun g => if g.pid == f.pid then f else g)).find? (fun g => g.pid == q) =
      if q = f.pid then (l.find? (fun g => g.pid == q)).map (fun _ => f)
      else l.find? (fun g => g.pid == q) := by
  by_cases h2 : q = f.pid
  · subst h2
    simp only [↓reduceIte]
    induction l with
    | nil => simp
    | cons a rest ih =>
      simp only [List.map_cons, List.find?_cons]
      cases h1 : (a.pid == f.pid) with
      | true => simp
      | false => simp only [Bool.false_eq_true, ↓reduceIte, h1]; exact ih
  · simp only [h2, ↓reduceIte]
    induction l with
    | nil => simp
    | cons a rest ih =>
      simp only [List.map_cons, List.find?_cons]
      cases h1 : (a.pid == f.pid) with
      | true =>
        have h1a : a.pid = f.pid := by simpa using h1
        have h3 : (f.pid == q) = false := by simpa using fun hh => h2 hh.symm
        have h4 : (a.pid == q) = false := by rw [h1a]; exact h3
        simp only [↓reduceIte, h3, h4]
        exact ih
      | false =>
        simp only [Bool.false_eq_true, ↓reduceIte]
        cases h3 : (a.pid == q) with
        | true => rfl
        | false => exact ih

theorem findFrame_setFrame (s : State) (f : BufferFrame) (q : Nat) :
    findFrame (setFrame s f) q =
      if q = f.pid then (findFrame s q).map (fun _ => f) else findFrame s q := by
  unfold findFrame setFrame
  exact find_map_replace _ _ _

theorem find_filter_ne (l : List BufferFrame) (x q : Nat) :
    (l.filter (fun g => g.pid != x)).find? (fun g => g.pid == q) =
      if q = x then none else l.find? (fun g => g.pid == q) := by
  by_cases h2 : q = x
  · subst h2
    simp only [↓reduceIte]
    rw [List.find?_eq_none]
    intro g hg
    simp only [List.mem_filter, bne_iff_ne, ne_eq] at hg
    simpa using hg.2
  · simp only [h2, ↓reduceIte]
    induction l with
    | nil => simp
    | cons a rest ih =>
      simp only [List.filter_cons]
      cases h1 : (a.pid != x) with
      | true =>
        simp only [↓reduceIte, List.find?_cons]
        cases h3 : (a.pid == q) with
        | true => rfl
        | false => exact ih
      | false =>
        have h1a : a.pid = x := by simpa using h1
        have h4 : (a.pid == q) = false := by
          rw [h1a]; simpa using fun hh => h2 hh.symm
        simp only [Bool.false_eq_true, ↓reduceIte, List.find?_cons, h4]
        exact ih

theorem find_append_one (l : List BufferFrame) (f : BufferFrame) (q : Nat) :
    (l ++ [f]).find? (fun g => g.pid == q) =
      match l.find? (fun g => g.pid == q) with
      | some g => some g
      | none => if f.pid = q then some f else none := by
  induction l with
  | nil => by_cases h : f.pid = q <;> simp [h]
  | cons a rest ih =>
    simp only [List.cons_append, List.find?_cons]
    cases h3 : (a.pid == q) with
    | true => simp
    | false => simp only; exact ih


theorem filter_length_lt (l : List BufferFrame) (v : BufferFrame) (hv : v ∈ l) :
    (l.filter (fun g => g.pid != v.pid)).length < l.length := by
  induction l with
  | nil => simp at hv
  | cons a rest ih =>
    simp only [List.filter_cons]
    rcases List.mem_cons.1 hv with h | h
    · subst h
      simp only [bne_self_eq_false, Bool.false_eq_true, ↓reduceIte, List.length_cons]
      have := List.length_filter_le (fun g : BufferFrame => g.pid != v.pid) rest
      omega
    · have := ih h
      split
      · simp only [List.length_cons]; omega
      · simp only [List.length_cons]; omega

theorem wf_replace {s s1 : State} {f0 f : BufferFrame} (hs : WF s)
    (hf0 : f0 ∈ s.bufferframes) (hpid : f.pid = f0.pid)
    (hst : f.state = BufferFrameState.LOADED)
    (hfr : s1.bufferframes = (setFrame s f).bufferframes)
    (hpc : s1.page_count = s.page_count)
    (hl : ∀ x, (x ∈ s.fifo_list ∨ x ∈ s.lru_list) → (x ∈ s1.fifo_list ∨ x ∈ s1.lru_list)) :
    WF s1 := by
  have hmem : ∀ g ∈ s1.bufferframes, g = f ∨ g ∈ s.bufferframes := by
    intro g hg
    rw [hfr] at hg
    rcases mem_setFrame.1 hg with ⟨h1, _⟩ | ⟨h1, _⟩
    · exact Or.inl h1
    · exact Or.inr h1
  refine ⟨?_, ?_, ?_, ?_⟩
  · rw [hfr, length_setFrame, hpc]; exact hs.room
  · intro g hg
    rcases hmem g hg with h | h
    · rw [h]; exact hst
    · exact hs.loaded g h
  · intro g hg
    rcases hmem g hg with h | h
    · rw [h, hpid]; exact hl _ (hs.listed f0 hf0)
    · exact hl _ (hs.listed g h)
  · rw [hfr, setFrame_pids]; exact hs.nodup

theorem wf_unfix {s s1 : State} {q : Nat} {dirt : Bool} (hs : WF s)
    (h : unfix_page s q dirt = some s1) : WF s1 := by
  unfold unfix_page at h
  cases hf : findFrame s q with
  | none => rw [hf] at h; simp at h
  | some page =>
    rw [hf] at h
    simp only at h
    cases hu : page.unlock with
    | none => rw [hu] at h; simp at h
    | some page1 =>
      rw [hu] at h
      simp only [Option.some.injEq] at h
      obtain ⟨hmem, _⟩ := findFrame_some_mem hf
      obtain ⟨u1, _, _, u4, _, _⟩ := unlock_some hu
      subst h
      refine wf_replace hs hmem ?_ ?_ rfl rfl (fun x hx => hx)
      · cases dirt <;> simpa [BufferFrame.dec_num_users] using u1
      · cases dirt <;> simpa [BufferFrame.dec_num_users, hs.loaded page hmem] using u4

theorem wf_write {s s1 : State} {q : Nat} {data : List Nat} (hs : WF s)
    (h : writeData s q data = some s1) : WF s1 := by
  unfold writeData at h
  cases hf : findFrame s q with
  | none => rw [hf] at h; simp at h
  | some page =>
    rw [hf] at h
    simp only at h
    split at h
    · simp at h
    · simp only [Option.some.injEq] at h
      obtain ⟨hmem, _⟩ := findFrame_some_mem hf
      subst h
      exact wf_replace (f := { page with data := data }) hs hmem rfl (hs.loaded page hmem)
        rfl rfl (fun x hx => hx)

theorem wf_fixLoaded {s s1 : State} {f0 f : BufferFrame} {e : Bool} (hs : WF s)
    (hmem : f0 ∈ s.bufferframes) (h : fixLoaded s f0 e = FixResult.ok s1 f) : WF s1 := by
  obtain ⟨a1, _, _, a4, _, _, a7, _, _, _, a11, a12⟩ := fixLoaded_ok h (hs.loaded f0 hmem)
  exact wf_replace hs hmem a1 a4 a7 a11 a12

theorem wf_fixMissing {s s3 : State} {q : Nat} {f : BufferFrame} {e : Bool} (hs : WF s)
    (hq : findFrame s q = none) (h : fixMissing s q e = FixResult.ok s3 f) : WF s3 := by
  have hn := findFrame_none_iff.1 hq
  obtain ⟨s2, hroom, hfin⟩ := fixMissing_ok h hq
  have hL : ∃ L, s2.bufferframes = L ++ [pinnedNew q] ∧ s2.page_count = s.page_count ∧
      (∀ g ∈ L, g ∈ s.bufferframes) ∧ L.length + 1 ≤ s.page_count ∧
      (∀ g ∈ L, g.pid ∈ s2.fifo_list ∨ g.pid ∈ s2.lru_list) ∧
      (L.map (fun g => g.pid)).Nodup := by
    rcases hroom with ⟨hlt, rfl⟩ | hev
    · exact ⟨s.bufferframes, rfl, rfl, fun g hg => hg, by omega, hs.listed, hs.nodup⟩
    · obtain ⟨v, sw, hfind, _, e1, _, _, _, e5, e6⟩ := evict_page_freed hev
      obtain ⟨v1, _, v3, _⟩ := find_page_to_evict_some hfind
      have hvs : v ∈ s.bufferframes := by
        simp only [List.mem_append, List.mem_singleton] at v1
        rcases v1 with h | h
        · exact h
        · rw [h] at v3; simp [pinnedNew] at v3
      have hvq : v.pid ≠ q := hn v hvs
      refine ⟨s.bufferframes.filter (fun g => g.pid != v.pid), ?_, e5, ?_, ?_, ?_, ?_⟩
      · rw [e1]
        simp only [List.filter_append, List.filter_cons, List.filter_nil]
        have : ((pinnedNew q).pid != v.pid) = true := by
          simp only [pinnedNew, bne_iff_ne, ne_eq]; exact fun hh => hvq hh.symm
        simp only [this, ↓reduceIte]
      · intro g hg; exact (List.mem_filter.1 hg).1
      · have := filter_length_lt s.bufferframes v hvs
        have := hs.room
        omega
      · intro g hg
        obtain ⟨g1, g2⟩ := List.mem_filter.1 hg
        exact e6 g.pid (by simpa using g2) (hs.listed g g1)
      · exact List.Nodup.sublist (List.Sublist.map _ (List.filter_sublist _)) hs.nodup
  obtain ⟨L, r1, r3, r4, r5, r6, r7⟩ := hL
  obtain ⟨u, hu, hlk, hs3⟩ := finishLoad_ok hfin
  generalize hsL : ({ s2 with fifo_list := s2.fifo_list ++ [(pinnedNew q).pid] } : State) = sL
    at hu hs3
  generalize hpg : ({ pinnedNew q with state := BufferFrameState.LOADING } : BufferFrame) = pg
    at hu hs3
  have hsLb : sL.bufferframes = s2.bufferframes := by rw [← hsL]
  have hsLc : sL.page_count = s2.page_count := by rw [← hsL]
  have hsLfifo : sL.fifo_list = s2.fifo_list ++ [q] := by rw [← hsL]; rfl
  have hsLlru : sL.lru_list = s2.lru_list := by rw [← hsL]
  have hpgpid : pg.pid = q := by rw [← hpg]; rfl
  obtain ⟨l1, l2, l3, _, l5, l6, l7, _⟩ := load_page_frame sL pg
  generalize hr : load_page sL pg = r at *
  obtain ⟨u1, _, _, u4, _, _⟩ := unlock_some hu
  obtain ⟨k1, _, _, k4, _, _⟩ := lock_some hlk
  have hfpid : f.pid = q := by rw [k1, u1, l6, hpgpid]
  have hfst : f.state = BufferFrameState.LOADED := by rw [k4, u4, l7]
  have hfr : s3.bufferframes = L ++ [f] := by
    rw [hs3]
    unfold setFrame
    simp only
    rw [l1, hsLb, r1]
    apply map_replace_appended
    · rw [hfpid]; rfl
    · intro g hg; rw [hfpid]; exact hn g (r4 g hg)
  have hmem : ∀ g ∈ s3.bufferframes, g = f ∨ g ∈ L := by
    intro g hg
    rw [hfr] at hg
    simp only [List.mem_append, List.mem_singleton] at hg
    tauto
  have hlists : ∀ x, (x ∈ s2.fifo_list ∨ x ∈ s2.lru_list) →
      (x ∈ s3.fifo_list ∨ x ∈ s3.lru_list) := by
    intro x hx
    rw [hs3]
    show x ∈ r.1.fifo_list ∨ x ∈ r.1.lru_list
    rw [l2, l3, hsLfifo, hsLlru]
    simp only [List.mem_append, List.mem_singleton]
    tauto
  refine ⟨?_, ?_, ?_, ?_⟩
  · rw [hfr, hs3]
    show _ ≤ r.1.page_count
    rw [l5, hsLc, r3]
    simpa using r5
  · intro g hg
    rcases hmem g hg with h1 | h1
    · rw [h1]; exact hfst
    · exact hs.loaded g (r4 g h1)
  · intro g hg
    rcases hmem g hg with h1 | h1
    · rw [h1, hfpid, hs3]
      show q ∈ r.1.fifo_list ∨ q ∈ r.1.lru_list
      rw [l2, hsLfifo]
      simp
    · exact hlists _ (r6 g h1)
  · rw [hfr]
    simp only [List.map_append, List.map_cons, List.map_nil]
    refine List.Nodup.append r7 (by simp) ?_
    intro a ha hb
    simp only [List.mem_singleton] at hb
    simp only [List.mem_map] at ha
    obtain ⟨g, hg, hga⟩ := ha
    exact hn g (r4 g hg) (by rw [hga, hb, hfpid])

theorem wf_step {s s1 : State} {op : Op} (hs : WF s) (h : step s op = some s1) : WF s1 := by
  cases op with
  | fix q e =>
    simp only [step] at h
    cases hfx : fix_page s q e with
    | ok s3 f =>
      rw [hfx] at h
      simp only [Option.some.injEq] at h
      subst h
      unfold fix_page at hfx
      cases hf : findFrame s q with
      | none => rw [hf] at hfx; exact wf_fixMissing hs hf hfx
      | some f0 =>
        rw [hf] at hfx
        exact wf_fixLoaded hs (findFrame_some_mem hf).1 hfx
    | buffer_full_error s3 => rw [hfx] at h; simp at h
    | blocked => rw [hfx] at h; simp at h
    | undefined => rw [hfx] at h; simp at h
  | unfix q dirt => exact wf_unfix hs h
  | write q data => exact wf_write hs h
  | restart n =>
    simp only [step, restart] at h
    cases hw : writeAll s s.bufferframes with
    | none => rw [hw] at h; simp at h
    | some sw =>
      rw [hw] at h
      simp only [Option.some.injEq] at h
      subst h
      exact wf_init _ _ _

theorem wf_run (ops : List Op) : ∀ (s s1 : State), WF s → run s ops = some s1 → WF s1 := by
  induction ops with
  | nil =>
    intro s s1 hs h
    simp only [run, Option.some.injEq] at h
    subst h; exact hs
  | cons op rest ih =>
    intro s s1 hs h
    unfold run at h
    cases hst : step s op with
    | none => rw [hst] at h; simp at h
    | some s2 =>
      rw [hst] at h
      exact ih s2 s1 (wf_step hs hst) h

theorem opened_replace {s s1 : State} {f0 f : BufferFrame} (hs : Opened s)
    (hf0 : f0 ∈ s.bufferframes) (hpid : f.pid = f0.pid)
    (hfr : s1.bufferframes = (setFrame s f).bufferframes)
    (hsf : s1.segment_files = s.segment_files) : Opened s1 := by
  intro g hg
  rw [hfr] at hg
  rw [hsf]
  rcases mem_setFrame.1 hg with ⟨h1, _⟩ | ⟨h1, _⟩
  · rw [h1, hpid]; exact hs f0 hf0
  · exact hs g h1

theorem opened_unfix {s s1 : State} {q : Nat} {dirt : Bool} (hs : Opened s)
    (h : unfix_page s q dirt = some s1) : Opened s1 := by
  unfold unfix_page at h
  cases hf : findFrame s q with
  | none => rw [hf] at h; simp at h
  | some page =>
    rw [hf] at h
    simp only at h
    cases hu : page.unlock with
    | none => rw [hu] at h; simp at h
    | some page1 =>
      rw [hu] at h
      simp only [Option.some.injEq] at h
      obtain ⟨hmem, _⟩ := findFrame_some_mem hf
      obtain ⟨u1, _⟩ := unlock_some hu
      subst h
      refine opened_replace hs hmem ?_ rfl rfl
      cases dirt <;> simpa [BufferFrame.dec_num_users] using u1

theorem opened_write {s s1 : State} {q : Nat} {data : List Nat} (hs : Opened s)
    (h : writeData s q data = some s1) : Opened s1 := by
  unfold writeData at h
  cases hf : findFrame s q with
  | none => rw [hf] at h; simp at h
  | some page =>
    rw [hf] at h
    simp only at h
    split at h
    · simp at h
    · simp only [Option.some.injEq] at h
      obtain ⟨hmem, _⟩ := findFrame_some_mem hf
      subst h
      exact opened_replace (f := { page with data := data }) hs hmem rfl rfl rfl

theorem opened_fixLoaded {s s1 : State} {f0 f : BufferFrame} {e : Bool} (hs : Opened s)
    (hst : f0.state = BufferFrameState.LOADED)
    (hmem : f0 ∈ s.bufferframes) (h : fixLoaded s f0 e = FixResult.ok s1 f) : Opened s1 := by
  obtain ⟨a1, _, _, _, _, _, a7, _, a9, _⟩ := fixLoaded_ok h hst
  exact opened_replace hs hmem a1 a7 a9

theorem opened_fixMissing {s s3 : State} {q : Nat} {f : BufferFrame} {e : Bool}
    (hs : Opened s) (hq : findFrame s q = none) (h : fixMissing s q e = FixResult.ok s3 f) :
    Opened s3 := by
  have hn := findFrame_none_iff.1 hq
  obtain ⟨s2, hroom, hfin⟩ := fixMissing_ok h hq
  have hL : ∃ L, s2.bufferframes = L ++ [pinnedNew q] ∧
      s2.segment_files = s.segment_files ∧ (∀ g ∈ L, g ∈ s.bufferframes) := by
    rcases hroom with ⟨hlt, rfl⟩ | hev
    · exact ⟨s.bufferframes, rfl, rfl, fun g hg => hg⟩
    · obtain ⟨v, sw, hfind, _, e1, _, e3, _⟩ := evict_page_freed hev
      obtain ⟨v1, _, v3, _⟩ := find_page_to_evict_some hfind
      have hvs : v ∈ s.bufferframes := by
        simp only [List.mem_append, List.mem_singleton] at v1
        rcases v1 with h | h
        · exact h
        · rw [h] at v3; simp [pinnedNew] at v3
      have hvq : v.pid ≠ q := hn v hvs
      refine ⟨s.bufferframes.filter (fun g => g.pid != v.pid), ?_, e3, ?_⟩
      · rw [e1]
        simp only [List.filter_append, List.filter_cons, List.filter_nil]
        have : ((pinnedNew q).pid != v.pid) = true := by
          simp only [pinnedNew, bne_iff_ne, ne_eq]; exact fun hh => hvq hh.symm
        simp only [this, ↓reduceIte]
      · intro g hg; exact (List.mem_filter.1 hg).1
  obtain ⟨L, r1, r2, r4⟩ := hL
  obtain ⟨u, hu, hlk, hs3⟩ := finishLoad_ok hfin
  generalize hsL : ({ s2 with fifo_list := s2.fifo_list ++ [(pinnedNew q).pid] } : State) = sL
    at hu hs3
  generalize hpg : ({ pinnedNew q with state := BufferFrameState.LOADING } : BufferFrame) = pg
    at hu hs3
  have hsLb : sL.bufferframes = s2.bufferframes := by rw [← hsL]
  have hsLs : sL.segment_files = s2.segment_files := by rw [← hsL]
  have hpgpid : pg.pid = q := by rw [← hpg]; rfl
  obtain ⟨l1, _, _, _, _, l6, _⟩ := load_page_frame sL pg
  obtain ⟨_, _, _, m4, m5⟩ := load_page_files sL pg
  generalize hr : load_page sL pg = r at *
  obtain ⟨u1, _⟩ := unlock_some hu
  obtain ⟨k1, _⟩ := lock_some hlk
  have hfpid : f.pid = q := by rw [k1, u1, l6, hpgpid]
  have hfr : s3.bufferframes = L ++ [f] := by
    rw [hs3]
    unfold setFrame
    simp only
    rw [l1, hsLb, r1]
    apply map_replace_appended
    · rw [hfpid]; rfl
    · intro g hg; rw [hfpid]; exact hn g (r4 g hg)
  have hseg : s3.segment_files = r.1.segment_files := by rw [hs3]; rfl
  intro g hg
  rw [hfr] at hg
  rw [hseg]
  simp only [List.mem_append, List.mem_singleton] at hg
  rcases hg with h1 | h1
  · apply m4
    rw [hsLs, r2]
    exact hs g (r4 g h1)
  · rw [h1, hfpid, ← hpgpid]; exact m5

theorem ready_step {s s1 : State} {op : Op} (hs : WF s) (ho : Opened s)
    (h : step s op = some s1) : WF s1 ∧ Opened s1 := by
  cases op with
  | fix q e =>
    simp only [step] at h
    cases hfx : fix_page s q e with
    | ok s3 f =>
      rw [hfx] at h
      simp only [Option.some.injEq] at h
      subst h
      unfold fix_page at hfx
      cases hf : findFrame s q with
      | none =>
        rw [hf] at hfx
        exact ⟨wf_fixMissing hs hf hfx, opened_fixMissing ho hf hfx⟩
      | some f0 =>
        rw [hf] at hfx
        have hmem := (findFrame_some_mem hf).1
        exact ⟨wf_fixLoaded hs hmem hfx, opened_fixLoaded ho (hs.loaded f0 hmem) hmem hfx⟩
    | buffer_full_error s3 => rw [hfx] at h; simp at h
    | blocked => rw [hfx] at h; simp at h
    | undefined => rw [hfx] at h; simp at h
  | unfix q dirt => exact ⟨wf_unfix hs h, opened_unfix ho h⟩
  | write q data => exact ⟨wf_write hs h, opened_write ho h⟩
  | restart n =>
    simp only [step, restart] at h
    cases hw : writeAll s s.bufferframes with
    | none => rw [hw] at h; simp at h
    | some sw =>
      rw [hw] at h
      simp only [Option.some.injEq] at h
      subst h
      exact ⟨wf_init _ _ _, by intro g hg; simp [init] at hg⟩

theorem ready_run (ops : List Op) :
    ∀ (s s1 : State), WF s → Opened s → run s ops = some s1 → WF s1 ∧ Opened s1 := by
  induction ops with
  | nil =>
    intro s s1 hs ho h
    simp only [run, Option.some.injEq] at h
    subst h; exact ⟨hs, ho⟩
  | cons op rest ih =>
    intro s s1 hs ho h
    unfold run at h
    cases hst : step s op with
    | none => rw [hst] at h; simp at h
    | some s2 =>
      rw [hst] at h
      obtain ⟨a, b⟩ := ready_step hs ho hst
      exact ih s2 s1 a b h

theorem ready_reachable {ps pc : Nat} {files : Nat → File} {ops : List Op} {s : State}
    (h : run (init ps pc files) ops = some s) : WF s ∧ Opened s :=
  ready_run ops _ s (wf_init _ _ _) (by intro g hg; simp [init] at hg) h

theorem finishLoad_pinned (s2 : State) (q : Nat) (e : Bool) :
    ∃ s3 f, finishLoad s2 (pinnedNew q) e = FixResult.ok s3 f := by
  unfold finishLoad
  simp only
  obtain ⟨_, _, _, _, _, _, _, _, _, l10, l11, l12, _⟩ :=
    load_page_frame { s2 with fifo_list := s2.fifo_list ++ [(pinnedNew q).pid] }
      { pinnedNew q with state := BufferFrameState.LOADING }
  generalize load_page { s2 with fifo_list := s2.fifo_list ++ [(pinnedNew q).pid] }
      { pinnedNew q with state := BufferFrameState.LOADING } = r at *
  have h10 : r.2.readers = 0 := l10
  have h11 : r.2.writer = true := l11
  have h12 : r.2.exclusively_locked = true := l12
  have hu : r.2.unlock = some { r.2 with exclusively_locked := false, writer := false } := by
    unfold BufferFrame.unlock
    simp [h11, h12]
  rw [hu]
  simp only
  have hl : ∃ g, ({ r.2 with exclusively_locked := false, writer := false } :
      BufferFrame).lock e = some g := by
    cases e with
    | true => exact ⟨_, by simp only [BufferFrame.lock, h10]; rfl⟩
    | false => exact ⟨_, by simp only [BufferFrame.lock]; rfl⟩
  obtain ⟨g, hg⟩ := hl
  rw [hg]
  exact ⟨_, _, rfl⟩

theorem evict_page_defined (s : State) (ho : Opened s) (q : Nat) :
    evict_page { s with bufferframes := s.bufferframes ++ [pinnedNew q] } ≠
      Evicted.undefined := by
  unfold evict_page
  cases hv : find_page_to_evict { s with bufferframes := s.bufferframes ++ [pinnedNew q] } with
  | none => simp
  | some v =>
    simp only
    obtain ⟨v1, _, v3, _⟩ := find_page_to_evict_some hv
    have hvs : v ∈ s.bufferframes := by
      simp only [List.mem_append, List.mem_singleton] at v1
      rcases v1 with h | h
      · exact h
      · rw [h] at v3; simp [pinnedNew] at v3
    have hopen : get_segment_id v.pid ∈ s.segment_files := ho v hvs
    by_cases hd : v.is_dirty = true
    · simp only [hd, ↓reduceIte, write_out_page, hopen]
      simp
    · simp only [hd, Bool.false_eq_true, ↓reduceIte]
      simp

theorem fix_page_defined (s : State) (hwf : WF s) (ho : Opened s) (p : Nat) (e : Bool) :
    fix_page s p e ≠ FixResult.undefined := by
  unfold fix_page
  cases h : findFrame s p with
  | some f0 =>
    simp only
    obtain ⟨hmem, _⟩ := findFrame_some_mem h
    have hst := hwf.loaded f0 hmem
    have hl := hwf.listed f0 hmem
    unfold fixLoaded
    simp only [BufferFrame.inc_num_users, hst]
    by_cases h1 : f0.pid ∈ s.lru_list
    · simp only [h1, ↓reduceIte]
      split <;> simp
    · have h2 : f0.pid ∈ s.fifo_list := by tauto
      simp only [h1, h2, ↓reduceIte]
      split <;> simp
  | none =>
    simp only
    unfold fixMissing
    rw [newFrame_lock]
    simp only
    rw [setFrame_appended s p (newFrame p) (pinnedNew p) rfl rfl h]
    simp only [List.length_append, List.length_singleton, Nat.add_sub_cancel]
    by_cases hlt : s.bufferframes.length < s.page_count
    · simp only [hlt, ↓reduceIte]
      obtain ⟨s3, f, hf⟩ := finishLoad_pinned
        { s with bufferframes := s.bufferframes ++ [pinnedNew p] } p e
      rw [hf]; simp
    · simp only [hlt, ↓reduceIte]
      cases hr : evict_page { s with bufferframes := s.bufferframes ++ [pinnedNew p] } with
      | nothing =>
        simp only
        unfold dropNew
        simp only [pinnedNew_drop, ↓reduceIte]
        simp
      | undefined => exact absurd hr (evict_page_defined s ho p)
      | freed s2 =>
        simp only
        obtain ⟨s3, f, hf⟩ := finishLoad_pinned s2 p e
        rw [hf]; simp

/-- C10. In a state reached by calls of one thread, `fix_page(p, _)` raises
`buffer_full_error` exactly when `p` is not in the page table, the page table
holds `page_count` frames and every frame has a user; when it raises, the
manager is in the state it had before the call and holds no frame for `p`. -/
theorem fix_page_buffer_full_iff (ps pc : Nat) (files : Nat → File) (ops : List Op)
    (s : State) (p : Nat) (e : Bool) (hrun : run (init ps pc files) ops = some s) :
    ((∃ s1, fix_page s p e = FixResult.buffer_full_error s1) ↔
      (findFrame s p = none ∧ s.bufferframes.length = s.page_count ∧
        ∀ f ∈ s.bufferframes, 0 < f.num_users)) ∧
    (∀ s1, fix_page s p e = FixResult.buffer_full_error s1 →
      s1 = s ∧ findFrame s1 p = none) := by
  obtain ⟨hwf, _⟩ := ready_reachable hrun
  obtain ⟨h1, h2⟩ := fix_page_full s hwf p e
  refine ⟨h1, fun s1 hs1 => ?_⟩
  have := h2 s1 hs1
  subst this
  exact ⟨rfl, (h1.1 ⟨_, hs1⟩).1⟩

/-- C10 at a manager with one frame whose page 1 is fixed: fixing page 2 raises. -/
theorem fix_page_buffer_full_iff_witness :
    run (init 2 1 emptyFiles) [Op.fix 1 true] = some pinnedState ∧
    ∃ s1, fix_page pinnedState 2 false = FixResult.buffer_full_error s1 :=
  ⟨rfl, (fix_page_buffer_full_iff 2 1 emptyFiles [Op.fix 1 true] pinnedState 2 false rfl).1.2
    ⟨rfl, rfl, by decide⟩⟩

end BufferManager

namespace BufferManager

/-! ## Buffer manager: a frame in use is never evicted -/

theorem firstEvictable_found {s : State} {l : List Nat} {v : BufferFrame}
    (h : firstEvictable s l = some v) : findFrame s v.pid = some v ∧ v.num_users = 0 := by
  induction l with
  | nil => simp [firstEvictable] at h
  | cons p rest ih =>
    unfold firstEvictable at h
    cases hf : findFrame s p with
    | none => rw [hf] at h; exact ih h
    | some f =>
      rw [hf] at h
      simp only at h
      split at h
      · rename_i hc
        simp only [Option.some.injEq] at h
        subst h
        rw [(findFrame_some_mem hf).2]
        exact ⟨hf, hc.1⟩
      · exact ih h

theorem find_page_to_evict_found {s : State} {v : BufferFrame}
    (h : find_page_to_evict s = some v) : findFrame s v.pid = some v ∧ v.num_users = 0 := by
  unfold find_page_to_evict at h
  cases h1 : firstEvictable s s.fifo_list with
  | some f =>
    rw [h1] at h
    simp only [Option.some.injEq] at h
    subst h
    exact firstEvictable_found h1
  | none =>
    rw [h1] at h
    exact firstEvictable_found h

theorem never_victim {s : State} {p : Nat} {f v : BufferFrame} (hf : findFrame s p = some f)
    (hu : 0 < f.num_users) (h : find_page_to_evict s = some v) : v.pid ≠ p := by
  intro hp
  obtain ⟨h1, h2⟩ := find_page_to_evict_found h
  rw [hp, hf] at h1
  simp only [Option.some.injEq] at h1
  subst h1
  omega

theorem findFrame_appended {s : State} {p : Nat} {f : BufferFrame} (g : BufferFrame)
    (hf : findFrame s p = some f) :
    findFrame { s with bufferframes := s.bufferframes ++ [g] } p = some f := by
  have := find_append_one s.bufferframes g p
  unfold findFrame at hf ⊢
  simp only
  rw [this, hf]

theorem findFrame_missState {s : State} {p q : Nat} {f : BufferFrame} (hq : q ≠ p)
    (hf : findFrame s p = some f) : findFrame (missState s q) p = some f := by
  unfold missState
  rw [findFrame_setFrame]
  have : ¬ p = (pinnedNew q).pid := fun h => hq h.symm
  rw [if_neg this]
  exact findFrame_appended _ hf

theorem fixLoaded_frames {s s1 : State} {f0 f : BufferFrame} {e : Bool}
    (h : fixLoaded s f0 e = FixResult.ok s1 f) :
    ∃ s2, s2.bufferframes = s.bufferframes ∧ s1 = setFrame s2 f ∧ f.pid = f0.pid := by
  unfold fixLoaded at h
  simp only at h
  split at h
  · simp at h
  · have hpid : ∀ g, (if f0.inc_num_users.state = BufferFrameState.EVICTING
          then { f0.inc_num_users with state := BufferFrameState.RELOADED }
          else f0.inc_num_users).lock e = some g → g.pid = f0.pid := by
      intro g hg
      have := (lock_some hg).1
      rw [this]
      split <;> rfl
    split at h
    · split at h
      · simp at h
      · rename_i g hg
        simp only [FixResult.ok.injEq] at h
        obtain ⟨h1, h2⟩ := h
        subst h2
        exact ⟨{ s with lru_list := s.lru_list.erase f0.pid ++ [f0.pid] }, rfl, h1.symm, hpid _ hg⟩
    · split at h
      · split at h
        · simp at h
        · rename_i g hg
          simp only [FixResult.ok.injEq] at h
          obtain ⟨h1, h2⟩ := h
          subst h2
          exact ⟨{ s with fifo_list := s.fifo_list.erase f0.pid,
                          lru_list := s.lru_list ++ [f0.pid] }, rfl, h1.symm, hpid _ hg⟩
      · simp at h

theorem findFrame_congr {s s1 : State} (h : s1.bufferframes = s.bufferframes) (p : Nat) :
    findFrame s1 p = findFrame s p := by
  unfold findFrame
  rw [h]

theorem fixMissing_error {s s1 : State} {q : Nat} {e : Bool}
    (h : fixMissing s q e = FixResult.buffer_full_error s1) (hq : findFrame s q = none) :
    s1 = s := by
  have hd : dropNew { s with bufferframes := s.bufferframes ++ [pinnedNew q] } (pinnedNew q) =
      FixResult.buffer_full_error s := by
    unfold dropNew
    simp only [pinnedNew_drop, ↓reduceIte]
    rw [setFrame_appended s q (pinnedNew q) _ rfl rfl hq]
    have : (pinnedNew q).pid = q := rfl
    rw [this, eraseFrame_appended s q _ rfl hq]
  unfold fixMissing at h
  rw [newFrame_lock] at h
  simp only at h
  rw [setFrame_appended s q (newFrame q) (pinnedNew q) rfl rfl hq] at h
  simp only [List.length_append, List.length_singleton, Nat.add_sub_cancel] at h
  by_cases hlt : s.bufferframes.length < s.page_count
  · simp only [hlt, ↓reduceIte] at h
    exact absurd h (finishLoad_not_full _ _ _ _)
  · simp only [hlt, ↓reduceIte] at h
    cases hr : evict_page { s with bufferframes := s.bufferframes ++ [pinnedNew q] } with
    | nothing =>
      rw [hr] at h
      simp only [hd] at h
      exact (FixResult.buffer_full_error.inj h).symm
    | undefined => rw [hr] at h; simp at h
    | freed s2 =>
      rw [hr] at h
      exact absurd h (finishLoad_not_full _ _ _ _)

theorem pinned_fix {s s1 : State} {p q : Nat} {f g : BufferFrame} {e : Bool}
    (hf : findFrame s p = some f) (hu : 0 < f.num_users) (hq : q ≠ p)
    (h : fix_page s q e = FixResult.ok s1 g) : findFrame s1 p = some f := by
  unfold fix_page at h
  cases hfq : findFrame s q with
  | some page0 =>
    rw [hfq] at h
    obtain ⟨s2, h1, h2, h3⟩ := fixLoaded_frames h
    rw [h2, findFrame_setFrame]
    have : ¬ p = g.pid := by
      rw [h3, (findFrame_some_mem hfq).2]
      exact fun hh => hq hh.symm
    rw [if_neg this, findFrame_congr h1, hf]
  | none =>
    rw [hfq] at h
    obtain ⟨s2, hs2, hfin⟩ := fixMissing_ok h hfq
    obtain ⟨u, hu1, hu2, hs3⟩ := finishLoad_ok hfin
    have hlp := load_page_frame { s2 with fifo_list := s2.fifo_list ++ [(pinnedNew q).pid] }
      { pinnedNew q with state := BufferFrameState.LOADING }
    have hgp : g.pid = q := by
      rw [(lock_some hu2).1, (unlock_some hu1).1, hlp.2.2.2.2.2.1]
      rfl
    rw [hs3, findFrame_setFrame]
    have : ¬ p = g.pid := by
      rw [hgp]
      exact fun hh => hq hh.symm
    rw [if_neg this, findFrame_congr hlp.1]
    have hs2p : findFrame s2 p = some f := by
      rcases hs2 with ⟨_, hs2⟩ | hs2
      · rw [hs2]
        exact findFrame_appended _ hf
      · obtain ⟨v, s3, hv, _, hb, _⟩ := evict_page_freed hs2
        have hap := @findFrame_appended s p f (pinnedNew q) hf
        have hne := never_victim hap hu hv
        have := find_filter_ne (s.bufferframes ++ [pinnedNew q]) v.pid p
        unfold findFrame at hap ⊢
        rw [hb]
        simp only at hap ⊢
        rw [this, if_neg (fun hh => hne hh.symm), hap]
    exact hs2p

theorem pinned_fix_error {s s1 : State} {p q : Nat} {f : BufferFrame} {e : Bool}
    (hf : findFrame s p = some f)
    (h : fix_page s q e = FixResult.buffer_full_error s1) : findFrame s1 p = some f := by
  unfold fix_page at h
  cases hfq : findFrame s q with
  | some page0 =>
    rw [hfq] at h
    exact absurd h (fixLoaded_not_full _ _ _ _)
  | none =>
    rw [hfq] at h
    rw [fixMissing_error h hfq]
    exact hf

theorem pinned_unfix {s s1 : State} {p q : Nat} {f : BufferFrame} {d : Bool}
    (hf : findFrame s p = some f) (hq : q ≠ p)
    (h : unfix_page s q d = some s1) : findFrame s1 p = some f := by
  unfold unfix_page at h
  cases hfq : findFrame s q with
  | none => rw [hfq] at h; simp at h
  | some page =>
    rw [hfq] at h
    simp only at h
    cases hul : page.unlock with
    | none => rw [hul] at h; simp at h
    | some page1 =>
      rw [hul] at h
      simp only [Option.some.injEq] at h
      rw [← h, findFrame_setFrame]
      have hp1 : page1.pid = q := by rw [(unlock_some hul).1, (findFrame_some_mem hfq).2]
      have : ¬ p = (if d = true then { page1 with is_dirty := true } else page1).dec_num_users.pid := by
        have h2 : (if d = true then { page1 with is_dirty := true } else page1).dec_num_users.pid
            = page1.pid := by
          split <;> rfl
        rw [h2, hp1]
        exact fun hh => hq hh.symm
      rw [if_neg this, hf]

theorem pinned_step {s s1 : State} {p : Nat} {f : BufferFrame} {op : Op}
    (hf : findFrame s p = some f) (hu : 0 < f.num_users) (hop : Op.onOther p op = true)
    (h : stepCaught s op = some s1) : findFrame s1 p = some f := by
  cases op with
  | fix q e =>
    have hq : q ≠ p := by simpa [Op.onOther] using hop
    simp only [stepCaught] at h
    cases hr : fix_page s q e with
    | ok s2 g =>
      rw [hr] at h
      simp only [Option.some.injEq] at h
      subst h
      exact pinned_fix hf hu hq hr
    | buffer_full_error s2 =>
      rw [hr] at h
      simp only [Option.some.injEq] at h
      subst h
      exact pinned_fix_error hf hr
    | blocked => rw [hr] at h; simp at h
    | undefined => rw [hr] at h; simp at h
  | unfix q d =>
    have hq : q ≠ p := by simpa [Op.onOther] using hop
    exact pinned_unfix hf hq h
  | write q data => simp [Op.onOther] at hop
  | restart n => simp [Op.onOther] at hop

/-- C11. Let `f` be the frame of page `p` with a user count above zero, and
let any `fix_page` / `unfix_page` calls on other pages follow (a raised
`buffer_full_error` is caught). After every prefix of the calls the page table
still holds the very same frame for `p` (same page id, same data, same user
count), and `find_page_to_evict` does not return it, neither between two calls
nor where the miss path of a `fix_page(q)` looks for a victim. -/
theorem pinned_frame_never_evicted (s : State) (p : Nat) (f : BufferFrame)
    (hf : findFrame s p = some f) (hu : 0 < f.num_users) (ops : List Op)
    (hops : ∀ op ∈ ops, Op.onOther p op = true) (s1 : State)
    (hrun : runCaught s ops = some s1) :
    ∀ n, ∃ sn, runCaught s (ops.take n) = some sn ∧ findFrame sn p = some f ∧
      (∀ v, find_page_to_evict sn = some v → v.pid ≠ p ∧ v ≠ f) ∧
      (∀ q, q ≠ p → ∀ v, find_page_to_evict (missState sn q) = some v → v.pid ≠ p ∧ v ≠ f) := by
  have hpid : f.pid = p := (findFrame_some_mem hf).2
  have hhere : ∀ sn, findFrame sn p = some f →
      (∀ v, find_page_to_evict sn = some v → v.pid ≠ p ∧ v ≠ f) ∧
      (∀ q, q ≠ p → ∀ v, find_page_to_evict (missState sn q) = some v → v.pid ≠ p ∧ v ≠ f) := by
    intro sn hsn
    refine ⟨fun v hv => ?_, fun q hq v hv => ?_⟩
    · have := never_victim hsn hu hv
      exact ⟨this, fun hh => this (by rw [hh]; exact hpid)⟩
    · have := never_victim (findFrame_missState hq hsn) hu hv
      exact ⟨this, fun hh => this (by rw [hh]; exact hpid)⟩
  induction ops generalizing s with
  | nil =>
    intro n
    refine ⟨s, by simp [runCaught], hf, hhere s hf⟩
  | cons op rest ih =>
    intro n
    cases n with
    | zero => exact ⟨s, by simp [runCaught], hf, hhere s hf⟩
    | succ n =>
      unfold runCaught at hrun
      cases hst : stepCaught s op with
      | none => rw [hst] at hrun; simp at hrun
      | some s2 =>
        rw [hst] at hrun
        have hf2 := pinned_step hf hu (hops op (List.mem_cons_self _ _)) hst
        obtain ⟨sn, h1, h2⟩ := ih s2 hf2 (fun o ho => hops o (List.mem_cons_of_mem _ ho)) hrun n
        refine ⟨sn, ?_, h2⟩
        simp only [List.take_succ_cons, runCaught, hst]
        exact h1

/-- C11 at a manager with two frames: page 1 is held while page 2 is loaded and
released, page 3 evicts page 2, and page 4 finds the buffer full; the frame of
page 1 is in the page table, unchanged, after every call. -/
theorem pinned_frame_never_evicted_witness :
    findFrame heldState 1 = some heldFrame ∧ 0 < heldFrame.num_users ∧
    runCaught heldState otherCalls = some heldAfter ∧
    findFrame heldAfter 2 = none ∧
    ∀ n, ∃ sn, runCaught heldState (otherCalls.take n) = some sn ∧
      findFrame sn 1 = some heldFrame ∧
      (∀ v, find_page_to_evict sn = some v → v.pid ≠ 1 ∧ v ≠ heldFrame) ∧
      (∀ q, q ≠ 1 → ∀ v, find_page_to_evict (missState sn q) = some v →
        v.pid ≠ 1 ∧ v ≠ heldFrame) :=
  ⟨rfl, by decide, rfl, by decide,
    pinned_frame_never_evicted heldState 1 heldFrame rfl (by decide) otherCalls (by decide)
      heldAfter rfl⟩

end BufferManager

namespace BufferManager

/-! ## Buffer manager: the victim and the two lists -/

theorem firstEvictable_skip (s : State) : ∀ (l : List Nat),
    (∀ q ∈ l, isEvictable s q = false) → firstEvictable s l = none := by
  intro l
  induction l with
  | nil => intro _; rfl
  | cons p rest ih =>
    intro h
    have hp := h p (List.mem_cons_self _ _)
    have hr := ih (fun q hq => h q (List.mem_cons_of_mem _ hq))
    unfold firstEvictable
    unfold isEvictable at hp
    cases hf : findFrame s p with
    | none => exact hr
    | some f =>
      rw [hf] at hp
      simp only [decide_eq_false_iff_not] at hp
      simp only
      rw [if_neg hp]
      exact hr

theorem firstEvictable_first (s : State) : ∀ (a : List Nat) (p : Nat) (b : List Nat),
    (∀ q ∈ a, isEvictable s q = false) → isEvictable s p = true →
    firstEvictable s (a ++ p :: b) = findFrame s p := by
  intro a
  induction a with
  | nil =>
    intro p b _ hp
    simp only [List.nil_append]
    unfold firstEvictable
    unfold isEvictable at hp
    cases hf : findFrame s p with
    | none => rw [hf] at hp; simp at hp
    | some f =>
      rw [hf] at hp
      simp only [decide_eq_true_eq] at hp
      simp only
      rw [if_pos hp]
  | cons q rest ih =>
    intro p b h hp
    have hq := h q (List.mem_cons_self _ _)
    have hr := ih p b (fun x hx => h x (List.mem_cons_of_mem _ hx)) hp
    simp only [List.cons_append]
    unfold firstEvictable
    unfold isEvictable at hq
    cases hf : findFrame s q with
    | none => exact hr
    | some f =>
      rw [hf] at hq
      simp only [decide_eq_false_iff_not] at hq
      simp only
      rw [if_neg hq]
      exact hr

theorem evict_page_lists {s s2 : State} (h : evict_page s = Evicted.freed s2) :
    ∃ v, find_page_to_evict s = some v ∧
      s2.bufferframes = s.bufferframes.filter (fun g => g.pid != v.pid) ∧
      ((v.pid ∈ s.lru_list ∧ s2.lru_list = s.lru_list.erase v.pid ∧
          s2.fifo_list = s.fifo_list) ∨
       (v.pid ∉ s.lru_list ∧ s2.fifo_list = s.fifo_list.erase v.pid ∧
          s2.lru_list = s.lru_list)) := by
  unfold evict_page at h
  cases hv : find_page_to_evict s with
  | none => rw [hv] at h; simp at h
  | some v =>
    rw [hv] at h
    simp only at h
    cases hw : (if v.is_dirty then write_out_page s v else some s) with
    | none => rw [hw] at h; simp at h
    | some s1 =>
      rw [hw] at h
      simp only [Evicted.freed.injEq] at h
      have hs1 : s1.bufferframes = s.bufferframes ∧
          s1.fifo_list = s.fifo_list ∧ s1.lru_list = s.lru_list := by
        split at hw
        · rw [write_out_page_some hw]; simp [setFile]
        · simp only [Option.some.injEq] at hw; subst hw; simp
      obtain ⟨a, e1, f1⟩ := hs1
      refine ⟨v, rfl, ?_, ?_⟩
      · rw [← h]; split <;> simp [eraseFrame, a]
      · by_cases hm : v.pid ∈ s.lru_list
        · left
          have hm1 : v.pid ∈ s1.lru_list := by rw [f1]; exact hm
          rw [if_pos hm1] at h
          rw [← h]
          exact ⟨hm, by simp [eraseFrame, f1], by simp [eraseFrame, e1]⟩
        · right
          have hm1 : ¬ v.pid ∈ s1.lru_list := by rw [f1]; exact hm
          rw [if_neg hm1] at h
          rw [← h]
          exact ⟨hm, by simp [eraseFrame, e1], by simp [eraseFrame, f1]⟩

theorem fix_hit_shape {s s1 : State} {f0 f : BufferFrame} {p : Nat} {e : Bool}
    (hf : findFrame s p = some f0) (h : fix_page s p e = FixResult.ok s1 f) :
    f.pid = p ∧ (∀ x, findFrame s1 x = if x = p then some f else findFrame s x) ∧
    ((p ∈ s.lru_list ∧ s1.lru_list = s.lru_list.erase p ++ [p] ∧
        s1.fifo_list = s.fifo_list) ∨
     (p ∉ s.lru_list ∧ p ∈ s.fifo_list ∧ s1.fifo_list = s.fifo_list.erase p ∧
        s1.lru_list = s.lru_list ++ [p])) := by
  have hp0 : f0.pid = p := (findFrame_some_mem hf).2
  unfold fix_page at h
  rw [hf] at h
  simp only at h
  obtain ⟨s2, h1, h2, h3⟩ := fixLoaded_frames h
  have hfp : f.pid = p := h3.trans hp0
  have hfind : ∀ x, findFrame s1 x = if x = p then some f else findFrame s x := by
    intro x
    rw [h2, findFrame_setFrame, hfp, findFrame_congr h1]
    by_cases hx : x = p
    · rw [if_pos hx, if_pos hx, hx, hf]
      rfl
    · rw [if_neg hx, if_neg hx]
  refine ⟨hfp, hfind, ?_⟩
  unfold fixLoaded at h
  simp only at h
  rw [hp0] at h
  split at h
  · simp at h
  · split at h
    · rename_i hm
      split at h
      · simp at h
      · simp only [FixResult.ok.injEq] at h
        left
        rw [← h.1]
        exact ⟨hm, rfl, rfl⟩
    · rename_i hm
      split at h
      · rename_i hm2
        split at h
        · simp at h
        · simp only [FixResult.ok.injEq] at h
          right
          rw [← h.1]
          exact ⟨hm, hm2, rfl, rfl⟩
      · simp at h

theorem fix_miss_shape {s s1 : State} {f : BufferFrame} {p : Nat} {e : Bool}
    (hf : findFrame s p = none) (h : fix_page s p e = FixResult.ok s1 f) :
    f.pid = p ∧
    ((s.bufferframes.length < s.page_count ∧ s1.fifo_list = s.fifo_list ++ [p] ∧
        s1.lru_list = s.lru_list ∧
        (∀ x, findFrame s1 x = if x = p then some f else findFrame s x)) ∨
     (¬ s.bufferframes.length < s.page_count ∧
        ∃ v, find_page_to_evict (missState s p) = some v ∧ v.pid ≠ p ∧
          (∀ x, findFrame s1 x =
            if x = p then some f else if x = v.pid then none else findFrame s x) ∧
          ((v.pid ∈ s.lru_list ∧ s1.lru_list = s.lru_list.erase v.pid ∧
              s1.fifo_list = s.fifo_list ++ [p]) ∨
           (v.pid ∉ s.lru_list ∧ s1.fifo_list = s.fifo_list.erase v.pid ++ [p] ∧
              s1.lru_list = s.lru_list)))) := by
  have hms : missState s p = { s with bufferframes := s.bufferframes ++ [pinnedNew p] } := by
    unfold missState
    exact setFrame_appended s p (newFrame p) (pinnedNew p) rfl rfl hf
  unfold fix_page at h
  rw [hf] at h
  simp only at h
  unfold fixMissing at h
  rw [newFrame_lock] at h
  simp only at h
  rw [setFrame_appended s p (newFrame p) (pinnedNew p) rfl rfl hf] at h
  simp only [List.length_append, List.length_singleton, Nat.add_sub_cancel] at h
  have hfin : ∀ s2, finishLoad s2 (pinnedNew p) e = FixResult.ok s1 f →
      f.pid = p ∧ s1.fifo_list = s2.fifo_list ++ [p] ∧ s1.lru_list = s2.lru_list ∧
      (∀ x, findFrame s1 x = if x = p then (findFrame s2 x).map (fun _ => f)
        else findFrame s2 x) := by
    intro s2 hfl
    obtain ⟨u, hu1, hu2, hs3⟩ := finishLoad_ok hfl
    have hlp := load_page_frame { s2 with fifo_list := s2.fifo_list ++ [(pinnedNew p).pid] }
      { pinnedNew p with state := BufferFrameState.LOADING }
    have hgp : f.pid = p := by
      rw [(lock_some hu2).1, (unlock_some hu1).1, hlp.2.2.2.2.2.1]
      rfl
    refine ⟨hgp, ?_, ?_, ?_⟩
    · rw [hs3]
      show (load_page _ _).1.fifo_list = _
      rw [hlp.2.1]
      rfl
    · rw [hs3]
      show (load_page _ _).1.lru_list = _
      rw [hlp.2.2.1]
    · intro x
      rw [hs3, findFrame_setFrame, hgp, findFrame_congr hlp.1]
      rfl
  have happ : ∀ x, findFrame { s with bufferframes := s.bufferframes ++ [pinnedNew p] } x =
      if x = p then some (pinnedNew p) else findFrame s x := by
    intro x
    have := find_append_one s.bufferframes (pinnedNew p) x
    unfold findFrame at hf ⊢
    simp only
    rw [this]
    by_cases hx : x = p
    · rw [if_pos hx, hx, hf]
      simp [pinnedNew]
    · rw [if_neg hx]
      cases hq : List.find? (fun f => f.pid == x) s.bufferframes with
      | some g => rfl
      | none =>
        simp only
        rw [if_neg]
        exact fun hh => hx hh.symm
  by_cases hlt : s.bufferframes.length < s.page_count
  · simp only [hlt, ↓reduceIte] at h
    obtain ⟨k1, k2, k3, k4⟩ := hfin _ h
    refine ⟨k1, Or.inl ⟨hlt, k2, k3, ?_⟩⟩
    intro x
    rw [k4 x, happ x]
    by_cases hx : x = p
    · simp [hx]
    · simp [hx]
  · simp only [hlt, ↓reduceIte] at h
    cases hr : evict_page { s with bufferframes := s.bufferframes ++ [pinnedNew p] } with
    | nothing =>
      rw [hr] at h
      simp only at h
      unfold dropNew at h
      revert h
      split
      · simp
      · split <;> simp
    | undefined => rw [hr] at h; simp at h
    | freed s2 =>
      rw [hr] at h
      simp only at h
      obtain ⟨k1, k2, k3, k4⟩ := hfin _ h
      obtain ⟨v, hv, hfr, hl⟩ := evict_page_lists hr
      obtain ⟨v1, _, v3, _⟩ := find_page_to_evict_some hv
      have hvs : v ∈ s.bufferframes := by
        simp only [List.mem_append, List.mem_singleton] at v1
        rcases v1 with hh | hh
        · exact hh
        · rw [hh] at v3; simp [pinnedNew] at v3
      have hvp : v.pid ≠ p := findFrame_none_iff.1 hf v hvs
      have hs2 : ∀ x, findFrame s2 x = if x = v.pid then none
          else if x = p then some (pinnedNew p) else findFrame s x := by
        intro x
        have := find_filter_ne (s.bufferframes ++ [pinnedNew p]) v.pid x
        have ha := happ x
        unfold findFrame at ha ⊢
        rw [hfr]
        simp only at ha ⊢
        rw [this, ha]
      refine ⟨k1, Or.inr ⟨hlt, v, by rw [hms]; exact hv, hvp, ?_, ?_⟩⟩
      · intro x
        rw [k4 x, hs2 x]
        by_cases hx : x = p
        · have : ¬ x = v.pid := fun hh => hvp (hh.symm.trans hx)
          have hpv : ¬ p = v.pid := fun hh => hvp hh.symm
          simp [hx, hpv]
        · simp [hx]
      · rcases hl with ⟨l1, l2, l3⟩ | ⟨l1, l2, l3⟩
        · left
          exact ⟨l1, by rw [k3, l2], by rw [k2, l3]⟩
        · right
          exact ⟨l1, by rw [k2, l2], by rw [k3, l3]⟩

theorem listed_init (ps pc : Nat) (files : Nat → File) : Listed (init ps pc files) :=
  ⟨by simp [init], by intro x hx; simp [init] at hx⟩

theorem listed_setFrame {s : State} (g : BufferFrame) (hl : Listed s) : Listed (setFrame s g) := by
  refine ⟨hl.nodup, ?_⟩
  intro x hx
  have := hl.resident x hx
  rw [findFrame_setFrame]
  split
  · cases hq : findFrame s x with
    | none => exact absurd hq this
    | some f => simp
  · exact this

theorem nodup_move_last {a b : List Nat} {p : Nat} (h : (a ++ b).Nodup) (hp : p ∈ b) :
    (a ++ (b.erase p ++ [p])).Nodup := by
  have h1 : (b.erase p ++ [p]).Perm b :=
    (List.perm_append_singleton p (b.erase p)).trans (List.perm_cons_erase hp).symm
  exact (List.Perm.nodup_iff (List.Perm.append_left a h1)).2 h

theorem nodup_promote {a b : List Nat} {p : Nat} (h : (a ++ b).Nodup) (hp : p ∈ a) :
    (a.erase p ++ (b ++ [p])).Nodup := by
  have h1 : (a.erase p ++ (b ++ [p])).Perm (a ++ b) := by
    have e : a.erase p ++ (b ++ [p]) = (a.erase p ++ b) ++ [p] := by simp
    rw [e]
    refine (List.perm_append_singleton p _).trans ?_
    have : (p :: (a.erase p ++ b)) = (p :: a.erase p) ++ b := rfl
    rw [this]
    exact List.Perm.append_right b (List.perm_cons_erase hp).symm
  exact (List.Perm.nodup_iff h1).2 h

theorem nodup_admit {a b : List Nat} {p : Nat} (h : (a ++ b).Nodup) (hpa : p ∉ a) (hpb : p ∉ b) :
    ((a ++ [p]) ++ b).Nodup := by
  have e : (a ++ [p]) ++ b = a ++ p :: b := by simp
  rw [e]
  refine (List.Perm.nodup_iff List.perm_middle).2 ?_
  rw [List.nodup_cons]
  refine ⟨?_, h⟩
  simp only [List.mem_append, not_or]
  exact ⟨hpa, hpb⟩

theorem listed_fix {s s1 : State} {f : BufferFrame} {p : Nat} {e : Bool} (hl : Listed s)
    (h : fix_page s p e = FixResult.ok s1 f) : Listed s1 := by
  have hnd := hl.nodup
  have hdis := (List.nodup_append.1 hnd).2.2
  cases hf : findFrame s p with
  | some f0 =>
    obtain ⟨_, k2, k3⟩ := fix_hit_shape hf h
    have hres : ∀ x, x ∈ s.fifo_list ∨ x ∈ s.lru_list ∨ x = p → findFrame s1 x ≠ none := by
      intro x hx
      rw [k2 x]
      by_cases hxp : x = p
      · rw [if_pos hxp]; simp
      · rw [if_neg hxp]
        rcases hx with hx | hx | hx
        · exact hl.resident x (Or.inl hx)
        · exact hl.resident x (Or.inr hx)
        · exact absurd hx hxp
    rcases k3 with ⟨m1, m2, m3⟩ | ⟨m1, m2, m3, m4⟩
    · refine ⟨by rw [m2, m3]; exact nodup_move_last hnd m1, ?_⟩
      intro x hx
      rw [m2, m3] at hx
      apply hres
      rcases hx with hx | hx
      · exact Or.inl hx
      · simp only [List.mem_append, List.mem_singleton] at hx
        rcases hx with hx | hx
        · exact Or.inr (Or.inl (List.mem_of_mem_erase hx))
        · exact Or.inr (Or.inr hx)
    · refine ⟨by rw [m3, m4]; exact nodup_promote hnd m2, ?_⟩
      intro x hx
      rw [m3, m4] at hx
      apply hres
      rcases hx with hx | hx
      · exact Or.inl (List.mem_of_mem_erase hx)
      · simp only [List.mem_append, List.mem_singleton] at hx
        rcases hx with hx | hx
        · exact Or.inr (Or.inl hx)
        · exact Or.inr (Or.inr hx)
  | none =>
    have hpf : p ∉ s.fifo_list := fun hh => hl.resident p (Or.inl hh) hf
    have hpl : p ∉ s.lru_list := fun hh => hl.resident p (Or.inr hh) hf
    obtain ⟨_, k⟩ := fix_miss_shape hf h
    rcases k with ⟨_, k2, k3, k4⟩ | ⟨_, v, _, hvp, k4, k5⟩
    · refine ⟨by rw [k2, k3]; exact nodup_admit hnd hpf hpl, ?_⟩
      intro x hx
      rw [k2, k3] at hx
      rw [k4 x]
      by_cases hxp : x = p
      · rw [if_pos hxp]; simp
      · rw [if_neg hxp]
        rcases hx with hx | hx
        · simp only [List.mem_append, List.mem_singleton] at hx
          rcases hx with hx | hx
          · exact hl.resident x (Or.inl hx)
          · exact absurd hx hxp
        · exact hl.resident x (Or.inr hx)
    · have hsub : (s.fifo_list.erase v.pid ++ s.lru_list.erase v.pid).Nodup :=
        List.Nodup.sublist (List.Sublist.append (List.erase_sublist _ _) (List.erase_sublist _ _))
          hnd
      have hshape : s1.fifo_list = s.fifo_list.erase v.pid ++ [p] ∧
          s1.lru_list = s.lru_list.erase v.pid := by
        rcases k5 with ⟨l1, l2, l3⟩ | ⟨l1, l2, l3⟩
        · have : v.pid ∉ s.fifo_list := fun hh => hdis hh l1
          rw [List.erase_of_not_mem this]
          exact ⟨l3, l2⟩
        · rw [List.erase_of_not_mem l1]
          exact ⟨l2, l3⟩
      have hnf : (s.fifo_list.erase v.pid).Nodup := (List.nodup_append.1 hsub).1
      have hnl : (s.lru_list.erase v.pid).Nodup := (List.nodup_append.1 hsub).2.1
      refine ⟨?_, ?_⟩
      · rw [hshape.1, hshape.2]
        exact nodup_admit hsub (fun hh => hpf (List.mem_of_mem_erase hh))
          (fun hh => hpl (List.mem_of_mem_erase hh))
      · intro x hx
        rw [hshape.1, hshape.2] at hx
        rw [k4 x]
        by_cases hxp : x = p
        · rw [if_pos hxp]; simp
        · rw [if_neg hxp]
          have hnf0 : s.fifo_list.Nodup := (List.nodup_append.1 hnd).1
          have hnl0 : s.lru_list.Nodup := (List.nodup_append.1 hnd).2.1
          rcases hx with hx | hx
          · simp only [List.mem_append, List.mem_singleton] at hx
            rcases hx with hx | hx
            · have := (List.Nodup.mem_erase_iff hnf0).1 hx
              rw [if_neg this.1]
              exact hl.resident x (Or.inl this.2)
            · exact absurd hx hxp
          · have := (List.Nodup.mem_erase_iff hnl0).1 hx
            rw [if_neg this.1]
            exact hl.resident x (Or.inr this.2)

theorem unfix_lists {s s1 : State} {q : Nat} {d : Bool} (h : unfix_page s q d = some s1) :
    ∃ g, s1 = setFrame s g := by
  unfold unfix_page at h
  cases hfq : findFrame s q with
  | none => rw [hfq] at h; simp at h
  | some page =>
    rw [hfq] at h
    simp only at h
    cases hul : page.unlock with
    | none => rw [hul] at h; simp at h
    | some page1 =>
      rw [hul] at h
      simp only [Option.some.injEq] at h
      exact ⟨_, h.symm⟩

theorem listed_step {s s1 : State} {op : Op} (hl : Listed s) (h : step s op = some s1) :
    Listed s1 := by
  cases op with
  | fix q e =>
    simp only [step] at h
    cases hr : fix_page s q e with
    | ok s2 g =>
      rw [hr] at h
      simp only [Option.some.injEq] at h
      subst h
      exact listed_fix hl hr
    | buffer_full_error s2 => rw [hr] at h; simp at h
    | blocked => rw [hr] at h; simp at h
    | undefined => rw [hr] at h; simp at h
  | unfix q d =>
    simp only [step] at h
    obtain ⟨g, hg⟩ := unfix_lists h
    rw [hg]
    exact listed_setFrame g hl
  | write q data =>
    simp only [step, writeData] at h
    cases hfq : findFrame s q with
    | none => rw [hfq] at h; simp at h
    | some page =>
      rw [hfq] at h
      simp only at h
      split at h
      · simp at h
      · simp only [Option.some.injEq] at h
        rw [← h]
        exact listed_setFrame _ hl
  | restart n =>
    simp only [step, restart] at h
    cases hw : writeAll s s.bufferframes with
    | none => rw [hw] at h; simp at h
    | some s2 =>
      rw [hw] at h
      simp only [Option.some.injEq] at h
      rw [← h]
      exact listed_init _ _ _

theorem listed_run (ops : List Op) : ∀ (s s1 : State), Listed s → run s ops = some s1 →
    Listed s1 := by
  induction ops with
  | nil =>
    intro s s1 hl h
    simp only [run, Option.some.injEq] at h
    rw [← h]; exact hl
  | cons op rest ih =>
    intro s s1 hl h
    unfold run at h
    cases hst : step s op with
    | none => rw [hst] at h; simp at h
    | some s2 =>
      rw [hst] at h
      exact ih s2 s1 (listed_step hl hst) h

theorem listed_reachable {ps pc : Nat} {files : Nat → File} {ops : List Op} {s : State}
    (h : run (init ps pc files) ops = some s) : Listed s :=
  listed_run ops _ s (listed_init _ _ _) h

theorem fixMissing_not_blocked (s : State) (p : Nat) (e : Bool) :
    fixMissing s p e ≠ FixResult.blocked := by
  unfold fixMissing
  rw [newFrame_lock]
  simp only
  split
  · simp
  · unfold dropNew
    split
    · simp
    · split <;> simp
  · rename_i s2 _
    obtain ⟨s3, f, h⟩ := finishLoad_pinned s2 p e
    rw [h]
    simp

theorem find_page_to_evict_fifo (s : State) (a : List Nat) (p : Nat) (b : List Nat)
    (hfifo : s.fifo_list = a ++ p :: b) (ha : ∀ q ∈ a, isEvictable s q = false)
    (hp : isEvictable s p = true) : find_page_to_evict s = findFrame s p := by
  unfold find_page_to_evict
  rw [hfifo, firstEvictable_first s a p b ha hp]
  unfold isEvictable at hp
  cases hf : findFrame s p with
  | none => rw [hf] at hp; simp at hp
  | some f => rfl

/-- C25. `find_page_to_evict` returns the frame of the first page of the FIFO
list whose frame has no user and is `LOADED`; when the FIFO list has no such
page, the frame of the first such page of the LRU list; when neither list has
one, nothing. So in a state reached by calls of one thread in which the page
table is full, only the FIFO list is populated and no frame has a user,
`fix_page` of a page that is not in the page table returns, the page at the
head of the FIFO list has left the page table, and the new page is at the tail
of the FIFO list. -/
theorem find_page_to_evict_order (s : State) :
    (∀ a p b, s.fifo_list = a ++ p :: b → (∀ q ∈ a, isEvictable s q = false) →
      isEvictable s p = true → find_page_to_evict s = findFrame s p) ∧
    ((∀ q ∈ s.fifo_list, isEvictable s q = false) → ∀ a p b, s.lru_list = a ++ p :: b →
      (∀ q ∈ a, isEvictable s q = false) → isEvictable s p = true →
      find_page_to_evict s = findFrame s p) ∧
    ((∀ q ∈ s.fifo_list, isEvictable s q = false) →
      (∀ q ∈ s.lru_list, isEvictable s q = false) → find_page_to_evict s = none) ∧
    (∀ ps pc files ops q rest p e, run (init ps pc files) ops = some s →
      s.fifo_list = q :: rest → s.lru_list = [] → (∀ f ∈ s.bufferframes, f.num_users = 0) →
      s.bufferframes.length = s.page_count → findFrame s p = none →
      ∃ s1 f, fix_page s p e = FixResult.ok s1 f ∧ s1.fifo_list = rest ++ [p] ∧
        s1.lru_list = [] ∧ findFrame s1 q = none ∧ findFrame s1 p = some f) := by
  refine ⟨find_page_to_evict_fifo s, ?_, ?_, ?_⟩
  · intro hfifo a p b hlru ha hp
    unfold find_page_to_evict
    rw [firstEvictable_skip s _ hfifo]
    simp only
    rw [hlru]
    exact firstEvictable_first s a p b ha hp
  · intro hfifo hlru
    unfold find_page_to_evict
    rw [firstEvictable_skip s _ hfifo]
    simp only
    exact firstEvictable_skip s _ hlru
  · intro ps pc files ops q rest p e hrun hfifo hlru hall hfull hp
    obtain ⟨hwf, hop⟩ := ready_reachable hrun
    have hl := listed_reachable hrun
    have hq : findFrame s q ≠ none := hl.resident q (Or.inl (by rw [hfifo]; simp))
    cases hg : findFrame s q with
    | none => exact absurd hg hq
    | some g =>
      obtain ⟨hgm, hgp⟩ := findFrame_some_mem hg
      have hqp : q ≠ p := by
        intro hh
        rw [hh, hp] at hg
        simp at hg
      have hok : ∃ s1 f, fix_page s p e = FixResult.ok s1 f := by
        cases hr : fix_page s p e with
        | ok s1 f => exact ⟨s1, f, rfl⟩
        | buffer_full_error s1 =>
          have := ((fix_page_full s hwf p e).1.1 ⟨s1, hr⟩).2.2 g hgm
          have := hall g hgm
          omega
        | blocked =>
          unfold fix_page at hr
          rw [hp] at hr
          exact absurd hr (fixMissing_not_blocked s p e)
        | undefined => exact absurd hr (fix_page_defined s hwf hop p e)
      obtain ⟨s1, f, hfix⟩ := hok
      obtain ⟨_, k⟩ := fix_miss_shape hp hfix
      rcases k with ⟨hlt, _⟩ | ⟨_, v, hv, _, k4, k5⟩
      · omega
      · have hev : isEvictable (missState s p) q = true := by
          unfold isEvictable
          rw [findFrame_missState (Ne.symm hqp) hg]
          simp only [decide_eq_true_eq]
          exact ⟨hall g hgm, hwf.loaded g hgm⟩
        have hfirst := find_page_to_evict_fifo (missState s p) [] q rest hfifo
          (fun x hx => by simp at hx) hev
        rw [hv, findFrame_missState (Ne.symm hqp) hg] at hfirst
        simp only [Option.some.injEq] at hfirst
        have hvq : v.pid = q := by rw [hfirst]; exact hgp
        rw [hvq] at k4 k5
        refine ⟨s1, f, hfix, ?_, ?_, ?_, ?_⟩
        · rcases k5 with ⟨l1, _, _⟩ | ⟨_, l2, _⟩
          · rw [hlru] at l1; simp at l1
          · rw [l2, hfifo]
            simp
        · rcases k5 with ⟨l1, _, _⟩ | ⟨_, _, l3⟩
          · rw [hlru] at l1; simp at l1
          · rw [l3, hlru]
        · rw [k4 q, if_neg hqp, if_pos rfl]
        · rw [k4 p, if_pos rfl]

/-- C25 at the manager with two frames whose pages 1 and 2 are released:
page 1 is the victim, and fixing page 3 leaves the FIFO list `[2, 3]`. -/
theorem find_page_to_evict_order_witness :
    run (init 2 2 emptyFiles) fifoCalls = some fifoState ∧
    find_page_to_evict fifoState = findFrame fifoState 1 ∧
    ∃ s1 f, fix_page fifoState 3 false = FixResult.ok s1 f ∧ s1.fifo_list = [2] ++ [3] ∧
      s1.lru_list = [] ∧ findFrame s1 1 = none ∧ findFrame s1 3 = some f :=
  ⟨rfl,
    (find_page_to_evict_order fifoState).1 [] 1 [2] (by decide) (by decide) (by decide),
    (find_page_to_evict_order fifoState).2.2.2 2 2 emptyFiles fifoCalls 1 [2] 3 false rfl
      (by decide) (by decide) (by decide) (by decide) (by decide)⟩

/-- C26 fails as stated: with one frame, page 1 is on the LRU list after it was
fixed twice; fixing page 2, which is not in the page table, takes the frame of
page 1 and with it the only entry of the LRU list. -/
theorem miss_takes_victim_from_lru :
    run (init 2 1 emptyFiles) lruCalls = some lruState ∧
    lruState.fifo_list = [] ∧ lruState.lru_list = [1] ∧ findFrame lruState 2 = none ∧
    ∃ s1, step lruState (Op.fix 2 false) = some s1 ∧ s1.fifo_list = [2] ∧ s1.lru_list = [] := by
  refine ⟨rfl, by decide, by decide, by decide, ?_⟩
  have h : (step lruState (Op.fix 2 false)).map (fun s => (s.fifo_list, s.lru_list)) =
      some ([2], []) := by
    decide
  cases hr : step lruState (Op.fix 2 false) with
  | none => rw [hr] at h; simp at h
  | some s1 =>
    rw [hr] at h
    simp only [Option.map_some', Option.some.injEq, Prod.mk.injEq] at h
    exact ⟨s1, rfl, h.1, h.2⟩

/-- C26, as the code has it. In a state reached by calls of one thread no page
is listed twice in the two lists together, and the listed pages are the pages
of the page table. A `fix_page` that misses appends the page at the FIFO tail;
with a free frame both lists are otherwise unchanged, and with a full page
table the victim is removed from the list that holds it. A `fix_page` of a
page on the FIFO list removes it there and appends it at the LRU tail; a
`fix_page` of a page on the LRU list moves it to the LRU tail and leaves the
FIFO list. A raised `buffer_full_error` and `unfix_page` change neither list. -/
theorem list_moves (ps pc : Nat) (files : Nat → File) (ops : List Op) (s : State)
    (hrun : run (init ps pc files) ops = some s) :
    ((s.fifo_list ++ s.lru_list).Nodup ∧
      ∀ x, (x ∈ s.fifo_list ∨ x ∈ s.lru_list) ↔ ∃ f, findFrame s x = some f) ∧
    (∀ p e s1 f, fix_page s p e = FixResult.ok s1 f →
      (findFrame s p = none → s.bufferframes.length < s.page_count →
        s1.fifo_list = s.fifo_list ++ [p] ∧ s1.lru_list = s.lru_list) ∧
      (findFrame s p = none → ¬ s.bufferframes.length < s.page_count →
        ∃ v, find_page_to_evict (missState s p) = some v ∧
          (v.pid ∈ s.fifo_list ∨ v.pid ∈ s.lru_list) ∧
          s1.fifo_list = s.fifo_list.erase v.pid ++ [p] ∧
          s1.lru_list = s.lru_list.erase v.pid ∧ findFrame s1 v.pid = none) ∧
      (p ∈ s.fifo_list →
        s1.fifo_list = s.fifo_list.erase p ∧ s1.lru_list = s.lru_list ++ [p]) ∧
      (p ∈ s.lru_list →
        s1.lru_list = s.lru_list.erase p ++ [p] ∧ s1.fifo_list = s.fifo_list)) ∧
    (∀ p e s1, fix_page s p e = FixResult.buffer_full_error s1 →
      s1.fifo_list = s.fifo_list ∧ s1.lru_list = s.lru_list) ∧
    (∀ p d s1, unfix_page s p d = some s1 →
      s1.fifo_list = s.fifo_list ∧ s1.lru_list = s.lru_list) := by
  obtain ⟨hwf, hop⟩ := ready_reachable hrun
  have hl := listed_reachable hrun
  have hnd := hl.nodup
  have hdis := (List.nodup_append.1 hnd).2.2
  refine ⟨⟨hnd, ?_⟩, ?_, ?_, ?_⟩
  · intro x
    constructor
    · intro hx
      cases hf : findFrame s x with
      | none => exact absurd hf (hl.resident x hx)
      | some f => exact ⟨f, rfl⟩
    · rintro ⟨f, hf⟩
      obtain ⟨hm, hp⟩ := findFrame_some_mem hf
      rw [← hp]
      exact hwf.listed f hm
  · intro p e s1 f hfix
    refine ⟨?_, ?_, ?_, ?_⟩
    · intro hp hlt
      obtain ⟨_, k⟩ := fix_miss_shape hp hfix
      rcases k with ⟨_, k2, k3, _⟩ | ⟨hn, _⟩
      · exact ⟨k2, k3⟩
      · exact absurd hlt hn
    · intro hp hlt
      obtain ⟨_, k⟩ := fix_miss_shape hp hfix
      rcases k with ⟨h1, _⟩ | ⟨_, v, hv, hvp, k4, k5⟩
      · exact absurd h1 hlt
      · have hvl := (find_page_to_evict_some hv).2.1
        have hvl1 : v.pid ∈ s.fifo_list ∨ v.pid ∈ s.lru_list := hvl
        refine ⟨v, hv, hvl1, ?_, ?_, ?_⟩
        · rcases k5 with ⟨l1, l2, l3⟩ | ⟨l1, l2, l3⟩
          · have : v.pid ∉ s.fifo_list := fun hh => hdis hh l1
            rw [List.erase_of_not_mem this]
            exact l3
          · exact l2
        · rcases k5 with ⟨l1, l2, l3⟩ | ⟨l1, l2, l3⟩
          · exact l2
          · rw [List.erase_of_not_mem l1]
            exact l3
        · rw [k4 v.pid, if_neg hvp, if_pos rfl]
    · intro hp
      have hnl : p ∉ s.lru_list := fun hh => hdis hp hh
      cases hf : findFrame s p with
      | none => exact absurd hf (hl.resident p (Or.inl hp))
      | some f0 =>
        obtain ⟨_, _, k3⟩ := fix_hit_shape hf hfix
        rcases k3 with ⟨m1, _, _⟩ | ⟨_, _, m3, m4⟩
        · exact absurd m1 hnl
        · exact ⟨m3, m4⟩
    · intro hp
      cases hf : findFrame s p with
      | none => exact absurd hf (hl.resident p (Or.inr hp))
      | some f0 =>
        obtain ⟨_, _, k3⟩ := fix_hit_shape hf hfix
        rcases k3 with ⟨_, m2, m3⟩ | ⟨m1, _, _, _⟩
        · exact ⟨m2, m3⟩
        · exact absurd hp m1
  · intro p e s1 herr
    rw [(fix_page_full s hwf p e).2 s1 herr]
    exact ⟨rfl, rfl⟩
  · intro p d s1 hun
    obtain ⟨g, hg⟩ := unfix_lists hun
    rw [hg]
    exact ⟨rfl, rfl⟩

/-- C26, as the code has it, at the manager with two frames whose pages 1 and
2 are on the FIFO list: fixing page 2 again moves it to the LRU list. -/
theorem list_moves_witness :
    run (init 2 2 emptyFiles) fifoCalls = some fifoState ∧
    fifoState.fifo_list = [1, 2] ∧ fifoState.lru_list = [] ∧
    ∃ s1 f, fix_page fifoState 2 false = FixResult.ok s1 f ∧
      s1.fifo_list = [1] ∧ s1.lru_list = [2] := by
  refine ⟨rfl, by decide, by decide, ?_⟩
  have h : (step fifoState (Op.fix 2 false)).isSome = true := by decide
  cases hr : fix_page fifoState 2 false with
  | ok s1 f =>
    exact ⟨s1, f, rfl,
      ((list_moves 2 2 emptyFiles fifoCalls fifoState rfl).2.1 2 false s1 f hr).2.2.1
        (by decide)⟩
  | buffer_full_error s1 => simp [step, hr] at h
  | blocked => simp [step, hr] at h
  | undefined => simp [step, hr] at h

end BufferManager

namespace BufferManager

/-! ## Buffer manager: the content a later `fix_page` finds -/

end BufferManager

/-! ## Slotted pages: the slot word -/

namespace SlottedPage

theorem testBit_compose (t f o s i : Nat) (hf : f < 2 ^ 8) (ho : o < 2 ^ 24) (hs : s < 2 ^ 24) :
    (compose t f o s).testBit i =
      if i < 24 then s.testBit i
      else if i < 48 then o.testBit (i - 24)
      else if i < 56 then f.testBit (i - 48)
      else t.testBit (i - 56) := by
  unfold compose
  rw [Nat.testBit_mul_pow_two_add _ hs]
  split
  · rfl
  · rename_i h1
    rw [Nat.testBit_mul_pow_two_add _ ho]
    split
    · rw [if_pos (by omega)]
    · rename_i h2
      rw [if_neg (by omega), Nat.testBit_mul_pow_two_add _ hf]
      split
      · rw [if_pos (by omega)]
        have : i - 24 - 24 = i - 48 := by omega
        rw [this]
      · rw [if_neg (by omega)]
        have : i - 24 - 24 - 8 = i - 56 := by omega
        rw [this]

theorem testBit_small {x k i : Nat} (hx : x < 2 ^ k) (hi : k ≤ i) : x.testBit i = false :=
  Nat.testBit_lt_two_pow (lt_of_lt_of_le hx (Nat.pow_le_pow_right (by norm_num) hi))

theorem set_slot_eq (o s : Nat) (fl : Bool) :
    Slot.set_slot o s fl = compose 255 (if fl then 255 else 0) (o % 2 ^ 24) (s % 2 ^ 24) := by
  have ho : o % 2 ^ 24 < 2 ^ 24 := Nat.mod_lt _ (by norm_num)
  have hs : s % 2 ^ 24 < 2 ^ 24 := Nat.mod_lt _ (by norm_num)
  have hf : (if fl then 255 else 0) < 2 ^ 8 := by cases fl <;> norm_num
  apply Nat.eq_of_testBit_eq
  intro i
  rw [testBit_compose _ _ _ _ i hf ho hs]
  unfold Slot.set_slot
  have e1 : (0xFFFFFF : Nat) = 2 ^ 24 - 1 := by norm_num
  rw [e1]
  simp only [Nat.testBit_xor, Nat.testBit_shiftLeft, Nat.and_pow_two_sub_one_eq_mod]
  by_cases h1 : i < 24
  · have a1 : ¬ i ≥ 24 := by omega
    have a2 : ¬ i ≥ 48 := by omega
    have a3 : ¬ i ≥ 56 := by omega
    simp only [h1, a1, a2, a3, ↓reduceIte, decide_False, Bool.false_and, Bool.xor_false]
  · by_cases h2 : i < 48
    · have a1 : i ≥ 24 := by omega
      have a2 : ¬ i ≥ 48 := by omega
      have a3 : ¬ i ≥ 56 := by omega
      simp only [h1, h2, a1, a2, a3, ↓reduceIte, decide_False, decide_True, Bool.false_and,
        Bool.true_and, Bool.xor_false, testBit_small hs a1, Bool.false_xor]
    · by_cases h3 : i < 56
      · have a1 : i ≥ 24 := by omega
        have a2 : i ≥ 48 := by omega
        have a3 : ¬ i ≥ 56 := by omega
        have b1 : 24 ≤ i - 24 := by omega
        simp only [h1, h2, h3, a1, a2, a3, ↓reduceIte, decide_False, decide_True,
          Bool.false_and, Bool.true_and, Bool.xor_false, testBit_small hs a1,
          testBit_small ho b1, Bool.false_xor]
      · have a1 : i ≥ 24 := by omega
        have a2 : i ≥ 48 := by omega
        have a3 : i ≥ 56 := by omega
        have b1 : 24 ≤ i - 24 := by omega
        have b2 : 8 ≤ i - 48 := by omega
        simp only [h1, h2, h3, a1, a2, a3, ↓reduceIte, decide_True,
          Bool.true_and, testBit_small hs a1,
          testBit_small ho b1, testBit_small hf b2, Bool.false_xor]

theorem get_size_compose (t f o s : Nat) (hs : s < 2 ^ 24) :
    Slot.get_size (compose t f o s) = s := by
  unfold Slot.get_size compose
  have e1 : (0xFFFFFF : Nat) = 2 ^ 24 - 1 := by norm_num
  rw [e1, Nat.and_pow_two_sub_one_eq_mod]
  omega

theorem get_offset_compose (t f o s : Nat) (ho : o < 2 ^ 24) (hs : s < 2 ^ 24) :
    Slot.get_offset (compose t f o s) = o := by
  unfold Slot.get_offset compose
  have e1 : (0xFFFFFF : Nat) = 2 ^ 24 - 1 := by norm_num
  rw [e1, Nat.and_pow_two_sub_one_eq_mod, Nat.shiftRight_eq_div_pow]
  omega

theorem is_redirect_compose (t f o s : Nat) (hf : f < 2 ^ 8) (ho : o < 2 ^ 24)
    (hs : s < 2 ^ 24) : Slot.is_redirect (compose t f o s) = (t != 255) := by
  unfold Slot.is_redirect compose
  rw [Nat.shiftRight_eq_div_pow]
  have : (2 ^ 24 * (2 ^ 24 * (2 ^ 8 * t + f) + o) + s) / 2 ^ 56 = t := by omega
  rw [this]

theorem is_redirect_target_compose (t f o s : Nat) (hf : f < 2 ^ 8) (ho : o < 2 ^ 24)
    (hs : s < 2 ^ 24) : Slot.is_redirect_target (compose t f o s) = (f != 0) := by
  unfold Slot.is_redirect_target compose
  have e1 : (0xFF : Nat) = 2 ^ 8 - 1 := by norm_num
  rw [e1, Nat.and_pow_two_sub_one_eq_mod, Nat.shiftRight_eq_div_pow]
  have : (2 ^ 24 * (2 ^ 24 * (2 ^ 8 * t + f) + o) + s) / 2 ^ 48 % 2 ^ 8 = f := by omega
  rw [this]

theorem is_empty_compose (f o s : Nat) :
    Slot.is_empty (compose 255 f o s) = decide (f = 0 ∧ o = 0 ∧ s = 0) := by
  unfold Slot.is_empty compose Slot.EMPTY_NON_REDIRECT_SLOT
  rw [Bool.eq_iff_iff]
  simp only [beq_iff_eq, decide_eq_true_eq]
  constructor
  · intro h; omega
  · intro h; omega

theorem empty_eq : Slot.EMPTY_NON_REDIRECT_SLOT = compose 255 0 0 0 := by
  unfold Slot.EMPTY_NON_REDIRECT_SLOT compose
  norm_num

theorem testBit_offset_mask (i : Nat) :
    Slot.UNSET_OFFSET_MASK.testBit i =
      (decide (i < 24) || (decide (48 ≤ i) && decide (i < 64))) := by
  have e : Slot.UNSET_OFFSET_MASK = 2 ^ 48 * (2 ^ 16 - 1) + (2 ^ 24 - 1) := by
    unfold Slot.UNSET_OFFSET_MASK; norm_num
  rw [e, Nat.testBit_mul_pow_two_add _ (by norm_num : 2 ^ 24 - 1 < 2 ^ 48)]
  by_cases h2 : i < 48
  · rw [if_pos h2, Nat.testBit_two_pow_sub_one]
    have : ¬ 48 ≤ i := by omega
    simp only [this, decide_False, Bool.false_and, Bool.or_false]
  · have a : 48 ≤ i := by omega
    have h1 : ¬ i < 24 := by omega
    rw [if_neg h2, Nat.testBit_two_pow_sub_one]
    simp only [h1, decide_False, a, decide_True, Bool.true_and, Bool.false_or]
    congr 1
    apply propext
    omega

theorem testBit_size_mask (i : Nat) :
    Slot.UNSET_SIZE_MASK.testBit i = (decide (24 ≤ i) && decide (i < 64)) := by
  have e : Slot.UNSET_SIZE_MASK = 2 ^ 24 * (2 ^ 40 - 1) + 0 := by
    unfold Slot.UNSET_SIZE_MASK; norm_num
  rw [e, Nat.testBit_mul_pow_two_add _ (by norm_num : 0 < 2 ^ 24)]
  by_cases h1 : i < 24
  · have : ¬ 24 ≤ i := by omega
    rw [if_pos h1]
    simp only [this, decide_False, Bool.false_and, Nat.zero_testBit]
  · have a : 24 ≤ i := by omega
    rw [if_neg h1, Nat.testBit_two_pow_sub_one]
    simp only [a, decide_True, Bool.true_and]
    congr 1
    apply propext
    omega

theorem set_offset_compose (t f o s o1 : Nat) (ht : t < 2 ^ 8) (hf : f < 2 ^ 8)
    (ho : o < 2 ^ 24) (hs : s < 2 ^ 24) (ho1 : o1 < 2 ^ 24) :
    Slot.set_offset (compose t f o s) o1 = compose t f o1 s := by
  apply Nat.eq_of_testBit_eq
  intro i
  unfold Slot.set_offset
  simp only [Nat.testBit_xor, Nat.testBit_and, Nat.testBit_shiftLeft, testBit_offset_mask,
    testBit_compose _ _ _ _ i hf ho hs, testBit_compose _ _ _ _ i hf ho1 hs]
  by_cases h1 : i < 24
  · have a1 : ¬ i ≥ 24 := by omega
    simp only [h1, a1, ↓reduceIte, decide_True, decide_False, Bool.true_or, Bool.and_true,
      Bool.false_and, Bool.xor_false]
  · by_cases h2 : i < 48
    · have a1 : i ≥ 24 := by omega
      have a2 : ¬ 48 ≤ i := by omega
      simp only [h1, h2, a1, a2, ↓reduceIte, decide_True, decide_False, Bool.false_and,
        Bool.or_false, Bool.and_false, Bool.true_and, Bool.false_xor]
    · have a1 : i ≥ 24 := by omega
      have a2 : 48 ≤ i := by omega
      have b1 : 24 ≤ i - 24 := by omega
      by_cases h4 : i < 64
      · simp only [h1, h2, a1, a2, h4, ↓reduceIte, decide_True, decide_False, Bool.true_and,
          Bool.false_or, Bool.and_true, testBit_small ho1 b1, Bool.xor_false]
      · have b2 : 8 ≤ i - 56 := by omega
        have h3 : ¬ i < 56 := by omega
        simp only [h1, h2, h3, a1, a2, h4, ↓reduceIte, decide_True, decide_False,
          Bool.true_and, Bool.false_or, Bool.and_false, testBit_small ho1 b1,
          testBit_small ht b2, Bool.xor_false]

theorem set_size_compose (t f o s s1 : Nat) (ht : t < 2 ^ 8) (hf : f < 2 ^ 8)
    (ho : o < 2 ^ 24) (hs : s < 2 ^ 24) (hs1 : s1 < 2 ^ 24) :
    Slot.set_size (compose t f o s) s1 = compose t f o s1 := by
  apply Nat.eq_of_testBit_eq
  intro i
  unfold Slot.set_size
  simp only [Nat.testBit_xor, Nat.testBit_and, testBit_size_mask,
    testBit_compose _ _ _ _ i hf ho hs, testBit_compose _ _ _ _ i hf ho hs1]
  by_cases h1 : i < 24
  · have a1 : ¬ 24 ≤ i := by omega
    simp only [h1, a1, ↓reduceIte, decide_False, Bool.false_and, Bool.and_false, Bool.false_xor]
  · have a1 : 24 ≤ i := by omega
    by_cases h4 : i < 64
    · simp only [h1, a1, h4, ↓reduceIte, decide_True, Bool.true_and, Bool.and_true,
        testBit_small hs1 a1, Bool.xor_false]
    · have b2 : 8 ≤ i - 56 := by omega
      have h2 : ¬ i < 48 := by omega
      have h3 : ¬ i < 56 := by omega
      simp only [h1, a1, h4, h2, h3, ↓reduceIte, decide_True, decide_False, Bool.true_and,
        Bool.and_false, testBit_small hs1 a1, testBit_small ht b2, Bool.xor_false]

end SlottedPage

/-! ## Slotted pages: the header accounting -/

namespace SlottedPage

theorem word_size (o s : Nat) (hs : s < 2 ^ 24) : Slot.get_size (word o s) = s :=
  get_size_compose _ _ _ _ hs

theorem word_offset (o s : Nat) (ho : o < 2 ^ 24) (hs : s < 2 ^ 24) :
    Slot.get_offset (word o s) = o :=
  get_offset_compose _ _ _ _ ho hs

theorem word_live (o s : Nat) (ho : o < 2 ^ 24) (hs : s < 2 ^ 24) (h : 0 < o) :
    isLive (word o s) = true := by
  unfold isLive word
  rw [is_redirect_compose _ _ _ _ (by norm_num) ho hs, is_empty_compose]
  have : ¬ o = 0 := by omega
  simp [this]

theorem word_set_offset (o s o1 : Nat) (ho : o < 2 ^ 24) (hs : s < 2 ^ 24) (ho1 : o1 < 2 ^ 24) :
    Slot.set_offset (word o s) o1 = word o1 s :=
  set_offset_compose _ _ _ _ _ (by norm_num) (by norm_num) ho hs ho1

theorem word_set_size (o s s1 : Nat) (ho : o < 2 ^ 24) (hs : s < 2 ^ 24) (hs1 : s1 < 2 ^ 24) :
    Slot.set_size (word o s) s1 = word o s1 :=
  set_size_compose _ _ _ _ _ (by norm_num) (by norm_num) ho hs hs1

theorem word_target (o s : Nat) (ho : o < 2 ^ 24) (hs : s < 2 ^ 24) :
    Slot.is_redirect_target (word o s) = false := by
  unfold word
  rw [is_redirect_target_compose _ _ _ _ (by norm_num) ho hs]
  rfl

theorem word_redirect (o s : Nat) (ho : o < 2 ^ 24) (hs : s < 2 ^ 24) :
    Slot.is_redirect (word o s) = false := by
  unfold word
  rw [is_redirect_compose _ _ _ _ (by norm_num) ho hs]
  rfl

theorem record_size (f o s : Nat) (hs : s < 2 ^ 24) : Slot.get_size (compose 255 f o s) = s :=
  get_size_compose _ _ _ _ hs

theorem record_offset (f o s : Nat) (ho : o < 2 ^ 24) (hs : s < 2 ^ 24) :
    Slot.get_offset (compose 255 f o s) = o :=
  get_offset_compose _ _ _ _ ho hs

theorem record_redirect (f o s : Nat) (hf : f < 2 ^ 8) (ho : o < 2 ^ 24) (hs : s < 2 ^ 24) :
    Slot.is_redirect (compose 255 f o s) = false := by
  rw [is_redirect_compose _ _ _ _ hf ho hs]
  rfl

theorem record_live (f o s : Nat) (hf : f < 2 ^ 8) (ho : o < 2 ^ 24) (hs : s < 2 ^ 24)
    (h : 0 < o) : isLive (compose 255 f o s) = true := by
  unfold isLive
  rw [is_redirect_compose _ _ _ _ hf ho hs, is_empty_compose]
  have : ¬ o = 0 := by omega
  simp [this]

theorem set_slot_word (o s : Nat) (ho : o < 2 ^ 24) (hs : s < 2 ^ 24) :
    Slot.set_slot o s false = word o s := by
  rw [set_slot_eq, Nat.mod_eq_of_lt ho, Nat.mod_eq_of_lt hs]
  rfl

theorem empty_live : isLive Slot.EMPTY_NON_REDIRECT_SLOT = false := by decide

theorem empty_liveSize : liveSize Slot.EMPTY_NON_REDIRECT_SLOT = 0 := by decide

theorem empty_is_empty : Slot.is_empty Slot.EMPTY_NON_REDIRECT_SLOT = true := by decide

theorem is_empty_iff (v : Nat) : Slot.is_empty v = true ↔ v = Slot.EMPTY_NON_REDIRECT_SLOT := by
  unfold Slot.is_empty
  simp

theorem live_not_empty {v : Nat} (h : isLive v = true) : v ≠ Slot.EMPTY_NON_REDIRECT_SLOT := by
  intro hv
  rw [hv, empty_live] at h
  simp at h

theorem normal_bounds {P ds v : Nat} (hP : P < 2 ^ 24) (h : Normal P ds v) :
    Slot.get_offset v < 2 ^ 24 ∧ Slot.get_size v < 2 ^ 24 := by
  obtain ⟨_, _, h3, _⟩ := h
  omega

theorem normal_live {P ds v : Nat} (hP : P < 2 ^ 24) (h : Normal P ds v) : isLive v = true := by
  obtain ⟨hb1, hb2⟩ := normal_bounds hP h
  obtain ⟨⟨f, hf, h1⟩, h2, _, _⟩ := h
  rw [h1]
  exact record_live _ _ _ hf hb1 hb2 (by omega)

theorem normal_word {P ds o s : Nat} (hP : P < 2 ^ 24) (h1 : 12 ≤ o) (h2 : o + s ≤ P)
    (h3 : 0 < s → ds ≤ o) : Normal P ds (word o s) := by
  have ho : o < 2 ^ 24 := by omega
  have hs : s < 2 ^ 24 := by omega
  unfold Normal
  rw [word_offset o s ho hs, word_size o s hs]
  exact ⟨⟨0, by norm_num, rfl⟩, h1, h2, h3⟩

theorem normal_redirect {P ds v : Nat} (hP : P < 2 ^ 24) (h : Normal P ds v) :
    Slot.is_redirect v = false := by
  obtain ⟨hb1, hb2⟩ := normal_bounds hP h
  obtain ⟨⟨f, hf, h1⟩, _⟩ := h
  rw [h1]
  exact record_redirect _ _ _ hf hb1 hb2

theorem redirect_not_live {v : Nat} (h : Slot.is_redirect v = true) : isLive v = false := by
  unfold isLive
  rw [h]
  rfl

theorem redirect_liveSize {v : Nat} (h : Slot.is_redirect v = true) : liveSize v = 0 := by
  unfold liveSize
  rw [redirect_not_live h]
  rfl

theorem normal_set_offset {P ds ds1 v o1 : Nat} (hP : P < 2 ^ 24) (h : Normal P ds v)
    (h1 : 12 ≤ o1) (h2 : o1 + Slot.get_size v ≤ P)
    (h3 : 0 < Slot.get_size v → ds1 ≤ o1) :
    Normal P ds1 (Slot.set_offset v o1) ∧ Slot.get_offset (Slot.set_offset v o1) = o1 ∧
      Slot.get_size (Slot.set_offset v o1) = Slot.get_size v := by
  obtain ⟨hb1, hb2⟩ := normal_bounds hP h
  obtain ⟨⟨f, hf, hv⟩, _⟩ := h
  have ho1 : o1 < 2 ^ 24 := by omega
  have e : Slot.set_offset v o1 = compose 255 f o1 (Slot.get_size v) := by
    conv_lhs => rw [hv]
    exact set_offset_compose _ _ _ _ _ (by norm_num) hf hb1 hb2 ho1
  have e1 : Slot.get_offset (Slot.set_offset v o1) = o1 := by
    rw [e]; exact record_offset _ _ _ ho1 hb2
  have e2 : Slot.get_size (Slot.set_offset v o1) = Slot.get_size v := by
    rw [e]; exact record_size _ _ _ hb2
  refine ⟨⟨⟨f, hf, ?_⟩, ?_, ?_, ?_⟩, e1, e2⟩
  · rw [e1, e2]; exact e
  · rw [e1]; exact h1
  · rw [e1, e2]; exact h2
  · rw [e1, e2]; exact h3

theorem normal_set_size {P ds v s1 : Nat} (hP : P < 2 ^ 24) (h : Normal P ds v)
    (h2 : Slot.get_offset v + s1 ≤ P) (h3 : 0 < s1 → ds ≤ Slot.get_offset v) :
    Normal P ds (Slot.set_size v s1) ∧
      Slot.get_offset (Slot.set_size v s1) = Slot.get_offset v ∧
      Slot.get_size (Slot.set_size v s1) = s1 := by
  obtain ⟨hb1, hb2⟩ := normal_bounds hP h
  obtain ⟨⟨f, hf, hv⟩, n2, _, _⟩ := h
  have hs1 : s1 < 2 ^ 24 := by omega
  have e : Slot.set_size v s1 = compose 255 f (Slot.get_offset v) s1 := by
    conv_lhs => rw [hv]
    exact set_size_compose _ _ _ _ _ (by norm_num) hf hb1 hb2 hs1
  have e1 : Slot.get_offset (Slot.set_size v s1) = Slot.get_offset v := by
    rw [e]; exact record_offset _ _ _ hb1 hs1
  have e2 : Slot.get_size (Slot.set_size v s1) = s1 := by
    rw [e]; exact record_size _ _ _ hs1
  refine ⟨⟨⟨f, hf, ?_⟩, ?_, ?_, ?_⟩, e1, e2⟩
  · rw [e1, e2]; exact e
  · rw [e1]; exact n2
  · rw [e1, e2]; exact h2
  · rw [e1, e2]; exact h3

theorem normal_liveSize {P ds v : Nat} (hP : P < 2 ^ 24) (h : Normal P ds v) :
    liveSize v = Slot.get_size v := by
  unfold liveSize
  rw [normal_live hP h]
  rfl

theorem normal_mono {P ds ds1 v : Nat} (h : Normal P ds v)
    (hd : 0 < Slot.get_size v → ds1 ≤ Slot.get_offset v) : Normal P ds1 v :=
  ⟨h.1, h.2.1, h.2.2.1, hd⟩

theorem sum_map_filter (l : List Nat) (q : Nat → Bool) (f : Nat → Nat) :
    ((l.filter q).map f).sum = (l.map (fun i => if q i then f i else 0)).sum := by
  induction l with
  | nil => rfl
  | cons a l ih =>
    rw [List.filter_cons]
    by_cases h : q a = true
    · simp only [h, ↓reduceIte, List.map_cons, List.sum_cons, ih]
    · simp only [h, Bool.false_eq_true, ↓reduceIte, List.map_cons, List.sum_cons, ih]
      omega

theorem usedBytes_eq (p : SlottedPage) :
    usedBytes p = ((List.range p.header.slot_count).map (fun i => liveSize (p.slots i))).sum := by
  unfold usedBytes liveSlots
  rw [sum_map_filter]
  rfl

theorem sum_range_congr (n : Nat) (f g : Nat → Nat) (h : ∀ i, i < n → f i = g i) :
    ((List.range n).map f).sum = ((List.range n).map g).sum := by
  congr 1
  apply List.map_congr_left
  intro i hi
  exact h i (List.mem_range.1 hi)

theorem sum_range_succ (n : Nat) (f : Nat → Nat) :
    ((List.range (n + 1)).map f).sum = ((List.range n).map f).sum + f n := by
  rw [List.range_succ, List.map_append, List.sum_append]
  simp

theorem sum_range_update (n k : Nat) (f : Nat → Nat) (v : Nat) (hk : k < n) :
    ((List.range n).map (fun i => if i = k then v else f i)).sum + f k =
      ((List.range n).map f).sum + v := by
  induction n with
  | zero => omega
  | succ n ih =>
    rw [sum_range_succ, sum_range_succ]
    by_cases h : k = n
    · subst h
      simp only [↓reduceIte]
      have := sum_range_congr k (fun i => if i = k then v else f i) f
        (fun i hi => by simp only; rw [if_neg (by omega)])
      omega
    · have := ih (by omega)
      have hn : ¬ n = k := fun hh => h hh.symm
      simp only [hn, ↓reduceIte]
      omega

theorem u32_small {x : Nat} (h : x < 2 ^ 32) : u32 x = x := Nat.mod_eq_of_lt h

theorem sub32_le {a b : Nat} (h : b ≤ a) : sub32 a b = a - b := by
  unfold sub32
  rw [if_pos h]

theorem compactLoop_cons (P : Nat) (hP : P < 2 ^ 24) (p : SlottedPage) (last shift i : Nat)
    (rest : List Nat) (hn : Normal P 0 (p.slots i)) (hl : last ≤ P) (hs : shift ≤ P) :
    compactLoop p last shift (i :: rest) =
      if Slot.get_offset (p.slots i) + Slot.get_size (p.slots i) + shift ≤ last then
        compactLoop
          (setSlotWord { p with data := (memmove p.data (last - Slot.get_size (p.slots i))
              (Slot.get_offset (p.slots i)) (Slot.get_size (p.slots i))) } i
            (Slot.set_offset (p.slots i) (last - Slot.get_size (p.slots i))))
          (last - Slot.get_size (p.slots i))
          (last - Slot.get_size (p.slots i) - Slot.get_offset (p.slots i)) rest
      else none := by
  obtain ⟨hb1, hb2⟩ := normal_bounds hP hn
  have hlive := normal_live hP hn
  have n2 := hn.2.1
  have n3 := hn.2.2.1
  rw [compactLoop]
  by_cases hc : Slot.get_offset (p.slots i) + Slot.get_size (p.slots i) + shift ≤ last
  · obtain ⟨_, e8, _⟩ := @normal_set_offset _ _ 0 _ (last - Slot.get_size (p.slots i))
      hP hn (by omega) (by omega) (fun _ => Nat.zero_le _)
    generalize ho : Slot.get_offset (p.slots i) = o at *
    generalize hsz : Slot.get_size (p.slots i) = s at *
    have e1 : u32 (o + s + shift) = o + s + shift := u32_small (by omega)
    have e2 : u32 (s + o + shift) = s + o + shift := u32_small (by omega)
    have e3 : sub32 last (s + o + shift) = last - (s + o + shift) := sub32_le (by omega)
    have e4 : u32 (shift + (last - (s + o + shift))) = last - s - o := by
      rw [u32_small (by omega)]; omega
    have e5 : u32 (o + (last - s - o)) = last - s := by
      rw [u32_small (by omega)]; omega
    have e6 : o + (last - s - o) = last - s := by omega
    have e9 : u32 (last - s) = last - s := u32_small (by omega)
    simp only [hlive, e1, e2, true_and, hc, ↓reduceIte, e3, e4, e5, e6, e9, setSlotWord, e8]
  · generalize ho : Slot.get_offset (p.slots i) = o at *
    generalize hsz : Slot.get_size (p.slots i) = s at *
    have e1 : u32 (o + s + shift) = o + s + shift := u32_small (by omega)
    simp only [hlive, e1, true_and, hc, ↓reduceIte]

theorem compactLoop_spec (P : Nat) (hP : P < 2 ^ 24) :
    ∀ (rest : List Nat) (p : SlottedPage) (last shift : Nat) (p1 : SlottedPage) (last1 : Nat),
      rest.Nodup → last ≤ P → shift ≤ P → 12 ≤ last1 →
      (∀ i ∈ rest, Normal P 0 (p.slots i)) →
      compactLoop p last shift rest = some (p1, last1) →
      p1.header = p.header ∧ (∀ j, j ∉ rest → p1.slots j = p.slots j) ∧
      last1 + (rest.map (fun i => Slot.get_size (p.slots i))).sum = last ∧
      (∀ i ∈ rest, Normal P last1 (p1.slots i) ∧
        Slot.get_size (p1.slots i) = Slot.get_size (p.slots i) ∧
        last1 ≤ Slot.get_offset (p1.slots i) ∧
        Slot.get_offset (p1.slots i) + Slot.get_size (p1.slots i) ≤ last) ∧
      rest.Pairwise (fun i j =>
        Slot.get_offset (p1.slots j) + Slot.get_size (p1.slots j) ≤
          Slot.get_offset (p1.slots i)) := by
  intro rest
  induction rest with
  | nil =>
    intro p last shift p1 last1 _ _ _ _ _ h
    simp only [compactLoop, Option.some.injEq, Prod.mk.injEq] at h
    obtain ⟨h1, h2⟩ := h
    subst h1; subst h2
    simp
  | cons i rest ih =>
    intro p last shift p1 last1 hnd hl hs h12 hn h
    have hni := hn i (List.mem_cons_self _ _)
    obtain ⟨hb1, hb2⟩ := normal_bounds hP hni
    rw [compactLoop_cons P hP p last shift i rest hni hl hs] at h
    split at h
    · rename_i hc
      simp only [List.nodup_cons] at hnd
      obtain ⟨hi, hnd1⟩ := hnd
      generalize hq : setSlotWord { p with data := (memmove p.data
          (last - Slot.get_size (p.slots i)) (Slot.get_offset (p.slots i))
          (Slot.get_size (p.slots i))) } i
          (Slot.set_offset (p.slots i) (last - Slot.get_size (p.slots i))) = q at h
      have hqh : q.header = p.header := by rw [← hq]; rfl
      have hsl : ∀ j, j ≠ i → q.slots j = p.slots j := by
        intro j hj
        rw [← hq]
        simp only [setSlotWord, hj, ↓reduceIte]
      have hsi : q.slots i = Slot.set_offset (p.slots i) (last - Slot.get_size (p.slots i)) := by
        rw [← hq]
        simp only [setSlotWord, ↓reduceIte]
      have hrest : ∀ j ∈ rest, j ≠ i := fun j hj hh => hi (hh ▸ hj)
      obtain ⟨a1, a2, a3, a4, a5⟩ := ih q _ _ p1 last1 hnd1 (by omega) (by omega) h12
        (fun j hj => by
          rw [hsl j (hrest j hj)]
          exact hn j (List.mem_cons_of_mem _ hj)) h
      have hsum : (rest.map (fun j => Slot.get_size (q.slots j))).sum =
          (rest.map (fun j => Slot.get_size (p.slots j))).sum := by
        congr 1
        apply List.map_congr_left
        intro j hj
        rw [hsl j (hrest j hj)]
      rw [hsum] at a3
      have hlast1 : last1 ≤ last - Slot.get_size (p.slots i) := by omega
      obtain ⟨d1, d2, d3⟩ := @normal_set_offset _ _ last1 _
        (last - Slot.get_size (p.slots i)) hP hni (by omega) (by omega)
        (fun _ => hlast1)
      have hpi : p1.slots i = Slot.set_offset (p.slots i) (last - Slot.get_size (p.slots i)) := by
        rw [a2 i hi, hsi]
      refine ⟨a1.trans hqh, ?_, ?_, ?_, ?_⟩
      · intro j hj
        simp only [List.mem_cons, not_or] at hj
        rw [a2 j hj.2, hsl j hj.1]
      · simp only [List.map_cons, List.sum_cons]
        omega
      · intro j hj
        simp only [List.mem_cons] at hj
        rcases hj with hj | hj
        · subst hj
          rw [hpi]
          exact ⟨d1, d3, by rw [d2]; exact hlast1, by rw [d2, d3]; omega⟩
        · obtain ⟨b1, b2, b3, b4⟩ := a4 j hj
          rw [hsl j (hrest j hj)] at b2
          exact ⟨b1, b2, b3, by omega⟩
      · rw [List.pairwise_cons]
        refine ⟨?_, a5⟩
        intro j hj
        obtain ⟨b1, b2, b3, b4⟩ := a4 j hj
        rw [hpi, d2]
        exact b4
    · simp at h

theorem mem_liveSlots {p : SlottedPage} {i : Nat} :
    i ∈ liveSlots p ↔ i < p.header.slot_count ∧ isLive (p.slots i) = true := by
  unfold liveSlots
  simp [List.mem_filter]

theorem liveSlots_nodup (p : SlottedPage) : (liveSlots p).Nodup :=
  List.Nodup.filter _ (List.nodup_range _)

theorem inv_live_normal {P : Nat} {p : SlottedPage} (hinv : Inv P p) {i : Nat}
    (hi : i < p.header.slot_count) (hl : isLive (p.slots i) = true) :
    Normal P p.header.data_start (p.slots i) := by
  rcases hinv.slots i hi with h | h | h
  · exact absurd h (live_not_empty hl)
  · exact h
  · rw [redirect_not_live h.1] at hl
    simp at hl

theorem inv_dead {P : Nat} (hP : P < 2 ^ 24) {p : SlottedPage} (hinv : Inv P p) {i : Nat}
    (hi : i < p.header.slot_count) (hl : ¬ isLive (p.slots i) = true) (ds : Nat) :
    p.slots i = Slot.EMPTY_NON_REDIRECT_SLOT ∨ Normal P ds (p.slots i) ∨
      (Slot.is_redirect (p.slots i) = true ∧ p.slots i < 2 ^ 64) := by
  rcases hinv.slots i hi with h | h | h
  · exact Or.inl h
  · exact absurd (normal_live hP h) hl
  · exact Or.inr (Or.inr h)

theorem dead_liveSize {v : Nat} (hl : ¬ isLive v = true) : liveSize v = 0 := by
  unfold liveSize
  simp only [Bool.not_eq_true] at hl
  rw [hl]
  rfl

theorem compactify_spec (sort : Sorter) (hsort : IsSort sort) (P : Nat) (hP : P < 2 ^ 24)
    (p p1 : SlottedPage) (hinv : Inv P p) (h : compactify sort p P = some p1) :
    Inv P p1 ∧ p1.header.slot_count = p.header.slot_count ∧
      p1.header.first_free_slot = p.header.first_free_slot ∧
      p1.header.free_space = p.header.free_space ∧
      p1.header.data_start + usedBytes p = P ∧ usedBytes p1 = usedBytes p ∧
      (∀ i, i < p.header.slot_count →
        (p1.slots i = Slot.EMPTY_NON_REDIRECT_SLOT ↔ p.slots i = Slot.EMPTY_NON_REDIRECT_SLOT)) ∧
      (∀ i, p.header.slot_count ≤ i → p1.slots i = p.slots i) := by
  unfold compactify at h
  simp only at h
  split at h
  · rename_i hlen
    simp only [Option.some.injEq] at h
    subst h
    have hnil : liveSlots p = [] := List.length_eq_zero.1 hlen
    have hall : ∀ i, i < p.header.slot_count → ¬ isLive (p.slots i) = true := by
      intro i hi hl
      have : i ∈ liveSlots p := mem_liveSlots.2 ⟨hi, hl⟩
      rw [hnil] at this
      simp at this
    have hused : usedBytes p = 0 := by
      unfold usedBytes; rw [hnil]; rfl
    have hacct := hinv.acct
    refine ⟨⟨?_, ?_, ?_, ?_, ?_, ?_⟩, rfl, rfl, rfl, ?_, rfl, fun i _ => Iff.rfl, fun i _ => rfl⟩
    · exact hinv.acct
    · show 12 + 8 * p.header.slot_count ≤ P
      omega
    · exact le_refl _
    · intro i hi
      exact inv_dead hP hinv hi (hall i hi) _
    · intro i j hi _ _ hl _ _ _
      exact absurd hl (hall i hi)
    · exact hinv.ffs
    · show P + usedBytes p = P
      omega
  · rename_i hlen
    obtain ⟨hperm, hsorted⟩ := hsort (fun a => Slot.get_offset (p.slots a)) (liveSlots p)
    generalize hL : sort (fun a b => decide (Slot.get_offset (p.slots a) >
      Slot.get_offset (p.slots b))) (liveSlots p) = L at h hperm hsorted
    cases L with
    | nil => simp at h
    | cons first rest =>
      simp only at h
      have hmemL : ∀ i, i ∈ first :: rest ↔ i < p.header.slot_count ∧ isLive (p.slots i) = true :=
        fun i => (hperm.mem_iff).trans mem_liveSlots
      have hnd : (first :: rest).Nodup := (hperm.nodup_iff).2 (liveSlots_nodup p)
      have hnorm : ∀ i ∈ first :: rest, Normal P p.header.data_start (p.slots i) :=
        fun i hi => inv_live_normal hinv ((hmemL i).1 hi).1 ((hmemL i).1 hi).2
      have hn0 := hnorm first (List.mem_cons_self _ _)
      obtain ⟨hb1, hb2⟩ := normal_bounds hP hn0
      have n2 := hn0.2.1
      have n3 := hn0.2.2.1
      simp only [List.nodup_cons] at hnd
      obtain ⟨hfirst, hnd1⟩ := hnd
      have hacct := hinv.acct
      have hsumL : ((first :: rest).map (fun i => Slot.get_size (p.slots i))).sum =
          usedBytes p := by
        unfold usedBytes
        exact (hperm.map _).sum_eq
      simp only [List.map_cons, List.sum_cons] at hsumL
      obtain ⟨m1, m2, m3⟩ := @normal_set_offset _ _ 0 _
        (P - Slot.get_size (p.slots first)) hP hn0 (by omega) (by omega)
        (fun _ => Nat.zero_le _)
      have hmoved : ∃ pm sh, (if u32 (Slot.get_offset (p.slots first) +
              Slot.get_size (p.slots first)) < P then
            ((setSlotWord { p with data := (memmove p.data
                (Slot.get_offset (p.slots first) + u32 (0 + sub32 P
                  (u32 (Slot.get_offset (p.slots first) + Slot.get_size (p.slots first)))))
                (Slot.get_offset (p.slots first)) (Slot.get_size (p.slots first))) } first
              (Slot.set_offset (p.slots first) (u32 (Slot.get_offset (p.slots first) +
                u32 (0 + sub32 P (u32 (Slot.get_offset (p.slots first) +
                  Slot.get_size (p.slots first))))))),
              u32 (Slot.get_offset (p.slots first) + u32 (0 + sub32 P
                (u32 (Slot.get_offset (p.slots first) + Slot.get_size (p.slots first))))),
              u32 (0 + sub32 P (u32 (Slot.get_offset (p.slots first) +
                Slot.get_size (p.slots first))))) : SlottedPage × Nat × Nat)
          else (p, Slot.get_offset (p.slots first), 0)) =
            (pm, P - Slot.get_size (p.slots first), sh) ∧ sh ≤ P ∧ pm.header = p.header ∧
          Normal P 0 (pm.slots first) ∧
          Slot.get_offset (pm.slots first) = P - Slot.get_size (p.slots first) ∧
          Slot.get_size (pm.slots first) = Slot.get_size (p.slots first) ∧
          ∀ j, j ≠ first → pm.slots j = p.slots j := by
        generalize ho0 : Slot.get_offset (p.slots first) = o0 at *
        generalize hs0 : Slot.get_size (p.slots first) = s0 at *
        have e1 : u32 (o0 + s0) = o0 + s0 := u32_small (by omega)
        rw [e1]
        by_cases hc : o0 + s0 < P
        · have e2 : sub32 P (o0 + s0) = P - (o0 + s0) := sub32_le (by omega)
          have e3 : u32 (0 + (P - (o0 + s0))) = P - (o0 + s0) := by
            rw [u32_small (by omega)]; omega
          have e4 : u32 (o0 + (P - (o0 + s0))) = P - s0 := by
            rw [u32_small (by omega)]; omega
          rw [if_pos hc, e2, e3, e4]
          refine ⟨_, _, rfl, by omega, rfl, ?_, ?_, ?_, ?_⟩
          · simp only [setSlotWord, ↓reduceIte]; exact m1
          · simp only [setSlotWord, ↓reduceIte]; exact m2
          · simp only [setSlotWord, ↓reduceIte]; exact m3
          · intro j hj
            simp only [setSlotWord, hj, ↓reduceIte]
        · rw [if_neg hc]
          have : o0 = P - s0 := by omega
          refine ⟨p, 0, by rw [← this], by omega, rfl, ?_, ?_, hs0, fun j _ => rfl⟩
          · exact normal_mono hn0 (fun _ => Nat.zero_le _)
          · rw [ho0]; exact this
      obtain ⟨pm, sh, hm, hsh, hmh, hmn, hmo0, hms0, hmo⟩ := hmoved
      rw [hm] at h
      simp only at h
      cases hcl : compactLoop pm (P - Slot.get_size (p.slots first)) sh rest with
      | none => rw [hcl] at h; simp at h
      | some r =>
        obtain ⟨p3, last⟩ := r
        rw [hcl] at h
        simp only [Option.some.injEq] at h
        have hrest : ∀ j ∈ rest, j ≠ first := fun j hj hh => hfirst (hh ▸ hj)
        have hnrest : ∀ j ∈ rest, Normal P 0 (pm.slots j) := fun j hj => by
          rw [hmo j (hrest j hj)]
          exact normal_mono (hnorm j (List.mem_cons_of_mem _ hj)) (fun _ => Nat.zero_le _)
        have hsum1 : (rest.map (fun i => Slot.get_size (pm.slots i))).sum =
            (rest.map (fun i => Slot.get_size (p.slots i))).sum := by
          congr 1
          apply List.map_congr_left
          intro j hj
          rw [hmo j (hrest j hj)]
        have hlast12 : 12 ≤ last := by
          have hfold : ∀ (l : List Nat) (q : SlottedPage) (a b : Nat) (q1 : SlottedPage)
              (c : Nat), a ≤ P → b ≤ P → (∀ j ∈ l, Normal P 0 (q.slots j)) → l.Nodup →
              compactLoop q a b l = some (q1, c) →
              c + (l.map (fun i => Slot.get_size (q.slots i))).sum = a := by
            intro l
            induction l with
            | nil =>
              intro q a b q1 c _ _ _ _ hh
              simp only [compactLoop, Option.some.injEq, Prod.mk.injEq] at hh
              simp [hh.2]
            | cons i l ihl =>
              intro q a b q1 c ha hb hnq hndq hh
              have hni := hnq i (List.mem_cons_self _ _)
              rw [compactLoop_cons P hP q a b i l hni ha hb] at hh
              simp only [List.nodup_cons] at hndq
              split at hh
              · have := ihl _ _ _ q1 c (by omega) (by omega) (fun j hj => by
                  have hji : j ≠ i := fun hh2 => hndq.1 (hh2 ▸ hj)
                  simp only [setSlotWord, hji, ↓reduceIte]
                  exact hnq j (List.mem_cons_of_mem _ hj)) hndq.2 hh
                have hs2 : (l.map (fun j => Slot.get_size ((setSlotWord { q with data :=
                    (memmove q.data (a - Slot.get_size (q.slots i)) (Slot.get_offset (q.slots i))
                    (Slot.get_size (q.slots i))) } i
                    (Slot.set_offset (q.slots i) (a - Slot.get_size (q.slots i)))).slots j))).sum =
                    (l.map (fun j => Slot.get_size (q.slots j))).sum := by
                  congr 1
                  apply List.map_congr_left
                  intro j hj
                  have hji : j ≠ i := fun hh2 => hndq.1 (hh2 ▸ hj)
                  simp only [setSlotWord, hji, ↓reduceIte]
                rw [hs2] at this
                simp only [List.map_cons, List.sum_cons]
                have := (normal_bounds hP hni)
                omega
              · simp at hh
          have := hfold rest pm _ sh p3 last (by omega) hsh hnrest hnd1 hcl
          rw [hsum1] at this
          omega
        obtain ⟨a1, a2, a3, a4, a5⟩ := compactLoop_spec P hP rest pm
          (P - Slot.get_size (p.slots first)) sh p3 last hnd1 (by omega) hsh hlast12 hnrest hcl
        rw [hsum1] at a3
        have hlast : last + usedBytes p = P := by omega
        have hnew : ∀ i ∈ first :: rest, Normal P last (p3.slots i) ∧
            Slot.get_size (p3.slots i) = Slot.get_size (p.slots i) := by
          intro i hi
          simp only [List.mem_cons] at hi
          rcases hi with hi | hi
          · subst hi
            rw [a2 i hfirst]
            exact ⟨normal_mono hmn (fun _ => by rw [hmo0]; omega), hms0⟩
          · obtain ⟨b1, b2, b3, b4⟩ := a4 i hi
            rw [hmo i (hrest i hi)] at b2
            exact ⟨b1, b2⟩
        have hold : ∀ i, i ∉ first :: rest → p3.slots i = p.slots i := by
          intro i hi
          simp only [List.mem_cons, not_or] at hi
          rw [a2 i hi.2, hmo i hi.1]
        have hlsz : ∀ i, i < p.header.slot_count →
            liveSize (p3.slots i) = liveSize (p.slots i) ∧
            (p3.slots i = Slot.EMPTY_NON_REDIRECT_SLOT ↔
              p.slots i = Slot.EMPTY_NON_REDIRECT_SLOT) := by
          intro i hi
          by_cases hiL : i ∈ first :: rest
          · obtain ⟨b1, b2⟩ := hnew i hiL
            have hn := hnorm i hiL
            constructor
            · rw [normal_liveSize hP hn, normal_liveSize hP b1, b2]
            · constructor
              · intro hh; exact absurd hh (live_not_empty (normal_live hP b1))
              · intro hh; exact absurd hh (live_not_empty ((hmemL i).1 hiL).2)
          · rw [hold i hiL]
            exact ⟨rfl, Iff.rfl⟩
        subst h
        have hused : usedBytes ({ p3 with header := { p3.header with data_start := last } } :
            SlottedPage) = usedBytes p := by
          rw [usedBytes_eq, usedBytes_eq]
          show ((List.range p3.header.slot_count).map _).sum = _
          rw [a1, hmh]
          exact sum_range_congr _ _ _ (fun i hi => (hlsz i hi).1)
        refine ⟨⟨?_, ?_, ?_, ?_, ?_, ?_⟩, ?_, ?_, ?_, ?_, hused, ?_, ?_⟩
        · rw [hused]
          show usedBytes p + p3.header.free_space + 12 + 8 * p3.header.slot_count = P
          rw [a1, hmh]; exact hacct
        · show 12 + 8 * p3.header.slot_count ≤ last
          rw [a1, hmh]; omega
        · show last ≤ P
          omega
        · intro i hi
          have hi1 : i < p.header.slot_count := by
            have : i < p3.header.slot_count := hi
            rw [a1, hmh] at this; exact this
          show p3.slots i = _ ∨ Normal P last (p3.slots i) ∨ _
          by_cases hiL : i ∈ first :: rest
          · exact Or.inr (Or.inl (hnew i hiL).1)
          · rw [hold i hiL]
            apply inv_dead hP hinv hi1
            intro hl
            exact hiL ((hmemL i).2 ⟨hi1, hl⟩)
        · intro i j hi hj hij hli hlj _ _
          have hi1 : i < p.header.slot_count := by
            have : i < p3.header.slot_count := hi
            rw [a1, hmh] at this; exact this
          have hj1 : j < p.header.slot_count := by
            have : j < p3.header.slot_count := hj
            rw [a1, hmh] at this; exact this
          have hli1 : isLive (p3.slots i) = true := hli
          have hlj1 : isLive (p3.slots j) = true := hlj
          show Slot.get_offset (p3.slots i) + Slot.get_size (p3.slots i) ≤
              Slot.get_offset (p3.slots j) ∨
            Slot.get_offset (p3.slots j) + Slot.get_size (p3.slots j) ≤
              Slot.get_offset (p3.slots i)
          have hinL : ∀ k, k < p.header.slot_count → isLive (p3.slots k) = true →
              k ∈ first :: rest := by
            intro k hk hlk
            by_contra hkL
            rw [hold k hkL] at hlk
            exact hkL ((hmemL k).2 ⟨hk, hlk⟩)
          have hpw : (first :: rest).Pairwise (fun i j =>
              Slot.get_offset (p3.slots j) + Slot.get_size (p3.slots j) ≤
                Slot.get_offset (p3.slots i) ∨
              Slot.get_offset (p3.slots i) + Slot.get_size (p3.slots i) ≤
                Slot.get_offset (p3.slots j)) := by
            rw [List.pairwise_cons]
            constructor
            · intro k hk
              left
              obtain ⟨b1, b2, b3, b4⟩ := a4 k hk
              rw [a2 first hfirst, hmo0]
              exact b4
            · exact a5.imp (fun hh => Or.inl hh)
          have hsymm : Symmetric (fun i j =>
              Slot.get_offset (p3.slots j) + Slot.get_size (p3.slots j) ≤
                Slot.get_offset (p3.slots i) ∨
              Slot.get_offset (p3.slots i) + Slot.get_size (p3.slots i) ≤
                Slot.get_offset (p3.slots j)) := fun a b hab => hab.symm
          exact (hpw.forall hsymm (hinL i hi1 hli1) (hinL j hj1 hlj1) hij).symm
        · intro hf
          have hf1 : p.header.first_free_slot < p.header.slot_count := by
            have : p3.header.first_free_slot < p3.header.slot_count := hf
            rw [a1, hmh] at this; exact this
          show p3.slots p3.header.first_free_slot = _
          rw [a1, hmh]
          exact ((hlsz _ hf1).2).2 (hinv.ffs hf1)
        · show p3.header.slot_count = _
          rw [a1, hmh]
        · show p3.header.first_free_slot = _
          rw [a1, hmh]
        · show p3.header.free_space = _
          rw [a1, hmh]
        · exact hlast
        · intro i hi
          exact (hlsz i hi).2
        · intro i hi
          apply hold
          intro hiL
          have := ((hmemL i).1 hiL).1
          omega

theorem nextFreeSlot_spec (p : SlottedPage) :
    ∀ (l : List Nat) (f : Nat), nextFreeSlot p f l = f ∨
      (nextFreeSlot p f l ∈ l ∧ p.slots (nextFreeSlot p f l) = Slot.EMPTY_NON_REDIRECT_SLOT) := by
  intro l
  induction l with
  | nil => intro f; exact Or.inl rfl
  | cons i rest ih =>
    intro f
    unfold nextFreeSlot
    by_cases he : Slot.is_empty (p.slots i) = true
    · simp only [he, ↓reduceIte]
      rcases ih i with h | ⟨h1, h2⟩
      · right
        rw [h]
        exact ⟨List.mem_cons_self _ _, (is_empty_iff _).1 he⟩
      · right
        exact ⟨List.mem_cons_of_mem _ h1, h2⟩
    · simp only [he, Bool.false_eq_true, ↓reduceIte]
      rcases ih f with h | ⟨h1, h2⟩
      · exact Or.inl h
      · right
        exact ⟨List.mem_cons_of_mem _ h1, h2⟩

theorem makeRoom_spec (sort : Sorter) (hsort : IsSort sort) (P : Nat) (hP : P < 2 ^ 24)
    (p p1 : SlottedPage) (needed : Nat) (hinv : Inv P p)
    (h : makeRoom sort p needed P = some p1) :
    Inv P p1 ∧ p1.header.slot_count = p.header.slot_count ∧
      p1.header.first_free_slot = p.header.first_free_slot ∧
      p1.header.free_space = p.header.free_space ∧
      usedBytes p1 = usedBytes p ∧
      (∀ i, i < p.header.slot_count →
        (p1.slots i = Slot.EMPTY_NON_REDIRECT_SLOT ↔ p.slots i = Slot.EMPTY_NON_REDIRECT_SLOT)) ∧
      (needed ≤ p.header.free_space →
        12 + 8 * p.header.slot_count + needed ≤ p1.header.data_start) := by
  unfold makeRoom at h
  unfold get_continuous_free_space at h
  simp only [sizeofSlot, sizeofHeader] at h
  have hlo := hinv.ds_lo
  have hhi := hinv.ds_hi
  have hacct := hinv.acct
  rw [if_pos (by omega)] at h
  simp only at h
  rw [u32_small (by omega)] at h
  split at h
  · obtain ⟨a1, a2, a3, a4, a5, a6, a7, _⟩ := compactify_spec sort hsort P hP p p1 hinv h
    refine ⟨a1, a2, a3, a4, a6, a7, ?_⟩
    intro hn
    omega
  · rename_i hc
    simp only [Option.some.injEq] at h
    subst h
    refine ⟨hinv, rfl, rfl, rfl, rfl, fun i _ => Iff.rfl, ?_⟩
    intro _
    omega

theorem inv_place (P : Nat) (hP : P < 2 ^ 24) (q q1 : SlottedPage) (k size : Nat)
    (hk : k < q.header.slot_count)
    (hslots : ∀ i, i < q.header.slot_count → i ≠ k →
      q.slots i = Slot.EMPTY_NON_REDIRECT_SLOT ∨ Normal P q.header.data_start (q.slots i) ∨
        (Slot.is_redirect (q.slots i) = true ∧ q.slots i < 2 ^ 64))
    (hdisj : ∀ i j, i < q.header.slot_count → j < q.header.slot_count → i ≠ k → j ≠ k → i ≠ j →
      isLive (q.slots i) = true → isLive (q.slots j) = true →
      0 < Slot.get_size (q.slots i) → 0 < Slot.get_size (q.slots j) →
      Slot.get_offset (q.slots i) + Slot.get_size (q.slots i) ≤ Slot.get_offset (q.slots j) ∨
      Slot.get_offset (q.slots j) + Slot.get_size (q.slots j) ≤ Slot.get_offset (q.slots i))
    (hsum : ((List.range q.header.slot_count).map
      (fun i => if i = k then 0 else liveSize (q.slots i))).sum + q.header.free_space + size +
        12 + 8 * q.header.slot_count = P)
    (hlo : 12 + 8 * q.header.slot_count + size ≤ q.header.data_start)
    (hhi : q.header.data_start ≤ P)
    (hffs : q.header.first_free_slot < q.header.slot_count →
      q.header.first_free_slot ≠ k ∧
        q.slots q.header.first_free_slot = Slot.EMPTY_NON_REDIRECT_SLOT)
    (hh : q1.header = { q.header with data_start := q.header.data_start - size })
    (hs : ∀ i, q1.slots i =
      if i = k then word (q.header.data_start - size) size else q.slots i) :
    Inv P q1 := by
  have hc : q1.header.slot_count = q.header.slot_count := by rw [hh]
  have hd : q1.header.data_start = q.header.data_start - size := by rw [hh]
  have hf : q1.header.free_space = q.header.free_space := by rw [hh]
  have hfs : q1.header.first_free_slot = q.header.first_free_slot := by rw [hh]
  have hsk : q1.slots k = word (q.header.data_start - size) size := by rw [hs]; simp
  have hso : ∀ i, i ≠ k → q1.slots i = q.slots i := by
    intro i hi; rw [hs]; simp [hi]
  have hb1 : q.header.data_start - size < 2 ^ 24 := by omega
  have hb2 : size < 2 ^ 24 := by omega
  have hlk : isLive (q1.slots k) = true := by
    rw [hsk]; exact word_live _ _ hb1 hb2 (by omega)
  have hok : Slot.get_offset (q1.slots k) = q.header.data_start - size := by
    rw [hsk]; exact word_offset _ _ hb1 hb2
  have hzk : Slot.get_size (q1.slots k) = size := by
    rw [hsk]; exact word_size _ _ hb2
  refine ⟨?_, ?_, ?_, ?_, ?_, ?_⟩
  · rw [usedBytes_eq, hc, hf]
    have h1 := sum_range_update q.header.slot_count k
      (fun i => if i = k then 0 else liveSize (q.slots i)) size hk
    simp only [↓reduceIte] at h1
    have h2 : ((List.range q.header.slot_count).map (fun i => liveSize (q1.slots i))).sum =
        ((List.range q.header.slot_count).map (fun i => if i = k then size else
          (if i = k then 0 else liveSize (q.slots i)))).sum := by
      apply sum_range_congr
      intro i _
      by_cases hik : i = k
      · subst hik
        simp only [↓reduceIte]
        unfold liveSize
        rw [hlk]
        exact hzk
      · simp only [hik, ↓reduceIte]
        rw [hso i hik]
    rw [h2]
    omega
  · rw [hc, hd]; omega
  · rw [hd]; omega
  · intro i hi
    rw [hc] at hi
    rw [hd]
    by_cases hik : i = k
    · refine Or.inr (Or.inl ?_)
      subst hik
      rw [hsk]
      exact normal_word hP (by omega) (by omega) (fun _ => le_refl _)
    · rw [hso i hik]
      rcases hslots i hi hik with h | h | h
      · exact Or.inl h
      · exact Or.inr (Or.inl (normal_mono h (fun hpos => by have := h.2.2.2 hpos; omega)))
      · exact Or.inr (Or.inr h)
  · have key : ∀ j, j < q.header.slot_count → j ≠ k → isLive (q.slots j) = true →
        0 < Slot.get_size (q.slots j) →
        Slot.get_offset (q1.slots k) + Slot.get_size (q1.slots k) ≤
          Slot.get_offset (q.slots j) := by
      intro j hj hjk hl hpos
      rcases hslots j hj hjk with h | h | h
      · exact absurd h (live_not_empty hl)
      · have := h.2.2.2 hpos
        rw [hok, hzk]
        omega
      · rw [redirect_not_live h.1] at hl
        simp at hl
    intro i j hi hj hij hli hlj hpi hpj
    rw [hc] at hi hj
    by_cases hik : i = k
    · have hjk : j ≠ k := fun hh => hij (hik.trans hh.symm)
      rw [hso j hjk] at hlj hpj ⊢
      left
      rw [hik]
      exact key j hj hjk hlj hpj
    · by_cases hjk : j = k
      · rw [hso i hik] at hli hpi ⊢
        right
        rw [hjk]
        exact key i hi hik hli hpi
      · rw [hso i hik] at hli hpi ⊢
        rw [hso j hjk] at hlj hpj ⊢
        exact hdisj i j hi hj hik hjk hij hli hlj hpi hpj
  · intro hlt
    rw [hfs, hc] at hlt
    obtain ⟨h1, h2⟩ := hffs hlt
    rw [hfs, hso _ h1]
    exact h2

theorem u16_small {x : Nat} (h : x < 2 ^ 16) : u16 x = x := Nat.mod_eq_of_lt h

theorem placeSlot_shape {q : SlottedPage} {k size : Nat} {r : SlottedPage × Nat}
    (hb : q.header.data_start < 2 ^ 24)
    (h : placeSlot q k size = some r) :
    size ≤ q.header.data_start ∧ r.2 = k ∧
      r.1.header = { q.header with data_start := q.header.data_start - size } ∧
      ∀ i, r.1.slots i = if i = k then word (q.header.data_start - size) size else q.slots i := by
  unfold placeSlot at h
  split at h
  · rename_i hc
    simp only [Option.some.injEq] at h
    subst h
    refine ⟨hc, rfl, rfl, ?_⟩
    intro i
    simp only [setSlotWord]
    rw [set_slot_word _ _ (by omega) (by omega)]
  · simp at h

theorem allocate_inv (sort : Sorter) (hsort : IsSort sort) (P : Nat) (hP : P < 524300)
    (p : SlottedPage) (hinv : Inv P p) (size : Nat) (r : SlottedPage × Nat)
    (h : allocate sort p size P = some r) : Inv P r.1 := by
  have hP24 : P < 2 ^ 24 := by omega
  have hacct := hinv.acct
  unfold allocate at h
  simp only [sizeofSlot] at h
  split at h
  · rename_i hfc
    split at h
    · rename_i hfree
      have hfree1 : size + 8 ≤ p.header.free_space := hfree
      have hc : p.header.slot_count + 1 < 2 ^ 16 := by omega
      have hinv1 : Inv P ({ p with header := { p.header with
          first_free_slot := u16 (p.header.first_free_slot + 1) } } : SlottedPage) := by
        refine ⟨hinv.acct, hinv.ds_lo, hinv.ds_hi, hinv.slots, hinv.disj, ?_⟩
        intro hlt
        have hlt1 : u16 (p.header.first_free_slot + 1) < p.header.slot_count := hlt
        rw [hfc, u16_small hc] at hlt1
        omega
      cases hm : makeRoom sort ({ p with header := { p.header with
          first_free_slot := u16 (p.header.first_free_slot + 1) } } : SlottedPage)
          (size + 8) P with
      | none => rw [hm] at h; simp at h
      | some p2 =>
        rw [hm] at h
        simp only at h
        obtain ⟨b1, b2, b3, b4, b5, b6, b7⟩ := makeRoom_spec sort hsort P hP24 _ p2 _ hinv1 hm
        have b2a : p2.header.slot_count = p.header.slot_count := b2
        have b4a : p2.header.free_space = p.header.free_space := b4
        have b5a : usedBytes p2 = usedBytes p := b5
        have b7a : 12 + 8 * p.header.slot_count + (size + 8) ≤ p2.header.data_start := b7 hfree1
        have hds2 := b1.ds_hi
        obtain ⟨c1, c2, c3, c4⟩ := placeSlot_shape (by show p2.header.data_start < 2 ^ 24; omega) h
        rw [u16_small (by rw [b2a]; exact hc), u32_small (by rw [b4a]; omega)] at c3 c4
        apply inv_place P hP24 ({ p2 with header := { p2.header with
            free_space := p2.header.free_space - (size + 8),
            slot_count := p2.header.slot_count + 1 } } : SlottedPage) r.1
          p2.header.slot_count size
        · show p2.header.slot_count < p2.header.slot_count + 1
          omega
        · intro i hi hik
          have hi1 : i < p2.header.slot_count + 1 := hi
          exact b1.slots i (by omega)
        · intro i j hi hj hik hjk hij
          have hi1 : i < p2.header.slot_count + 1 := hi
          have hj1 : j < p2.header.slot_count + 1 := hj
          exact b1.disj i j (by omega) (by omega) hij
        · show ((List.range (p2.header.slot_count + 1)).map _).sum +
            (p2.header.free_space - (size + 8)) + size + 12 + 8 * (p2.header.slot_count + 1) = P
          rw [sum_range_succ]
          simp only [↓reduceIte]
          have : ((List.range p2.header.slot_count).map
              (fun i => if i = p2.header.slot_count then 0 else liveSize (p2.slots i))).sum =
              usedBytes p2 := by
            rw [usedBytes_eq]
            apply sum_range_congr
            intro i hi
            rw [if_neg (by omega)]
          rw [this]
          omega
        · show 12 + 8 * (p2.header.slot_count + 1) + size ≤ p2.header.data_start
          omega
        · exact hds2
        · intro hlt
          have hlt1 : p2.header.first_free_slot < p2.header.slot_count + 1 := hlt
          have b3a : p2.header.first_free_slot = u16 (p.header.first_free_slot + 1) := b3
          rw [b3a, hfc, u16_small hc] at hlt1
          omega
        · exact c3
        · exact c4
    · simp at h
  · rename_i hfc
    split at h
    · rename_i hlt
      cases hm : makeRoom sort p size P with
      | none => rw [hm] at h; simp at h
      | some p2 =>
        rw [hm] at h
        simp only at h
        obtain ⟨b1, b2, b3, b4, b5, b6, b7⟩ := makeRoom_spec sort hsort P hP24 _ p2 _ hinv hm
        split at h
        · rename_i hfree
          have hfree1 : size ≤ p.header.free_space := by rw [← b4]; exact hfree
          have b7a := b7 hfree1
          have hds2 := b1.ds_hi
          obtain ⟨c1, c2, c3, c4⟩ :=
            placeSlot_shape (by show p2.header.data_start < 2 ^ 24; omega) h
          have hempty : p2.slots p.header.first_free_slot = Slot.EMPTY_NON_REDIRECT_SLOT :=
            (b6 _ hlt).2 (hinv.ffs hlt)
          generalize hfound : nextFreeSlot p2 p2.header.first_free_slot
            (List.range' (u16 (p2.header.first_free_slot + 1))
              (p2.header.slot_count - u16 (p2.header.first_free_slot + 1))) = found at c3 c4
          have hfoundspec := nextFreeSlot_spec p2 (List.range' (u16 (p2.header.first_free_slot + 1))
              (p2.header.slot_count - u16 (p2.header.first_free_slot + 1)))
              p2.header.first_free_slot
          rw [hfound] at hfoundspec
          apply inv_place P hP24 ({ p2 with header := { p2.header with
              first_free_slot :=
                (if p.header.first_free_slot = found then p2.header.slot_count else found),
              free_space := p2.header.free_space - size } } : SlottedPage) r.1
            p.header.first_free_slot size
          · show p.header.first_free_slot < p2.header.slot_count
            rw [b2]; exact hlt
          · intro i hi _
            exact b1.slots i hi
          · intro i j hi hj _ _ hij
            exact b1.disj i j hi hj hij
          · show ((List.range p2.header.slot_count).map _).sum +
              (p2.header.free_space - size) + size + 12 + 8 * p2.header.slot_count = P
            have : ((List.range p2.header.slot_count).map
                (fun i => if i = p.header.first_free_slot then 0 else liveSize (p2.slots i))).sum =
                usedBytes p2 := by
              rw [usedBytes_eq]
              apply sum_range_congr
              intro i hi
              by_cases hik : i = p.header.first_free_slot
              · rw [if_pos hik, hik, hempty, empty_liveSize]
              · rw [if_neg hik]
            rw [this]
            have := b1.acct
            have hfree2 : size ≤ p2.header.free_space := hfree
            omega
          · show 12 + 8 * p2.header.slot_count + size ≤ p2.header.data_start
            rw [b2]; exact b7a
          · exact hds2
          · intro hlt2
            have hlt3 : (if p.header.first_free_slot = found then p2.header.slot_count
                else found) < p2.header.slot_count := hlt2
            show (if p.header.first_free_slot = found then p2.header.slot_count else found) ≠
                p.header.first_free_slot ∧
              p2.slots (if p.header.first_free_slot = found then p2.header.slot_count
                else found) = Slot.EMPTY_NON_REDIRECT_SLOT
            by_cases hf : p.header.first_free_slot = found
            · rw [if_pos hf] at hlt3
              omega
            · rw [if_neg hf]
              refine ⟨fun hh => hf hh.symm, ?_⟩
              rcases hfoundspec with h1 | ⟨_, h2⟩
              · rw [b3] at h1
                exact absurd h1.symm hf
              · exact h2
          · exact c3
          · exact c4
        · simp at h
    · simp at h

theorem inv_clear (P : Nat) (hP : P < 2 ^ 24) (p q : SlottedPage) (k : Nat) (hinv : Inv P p)
    (hk : k < p.header.slot_count) (hl : isLive (p.slots k) = true)
    (hc : q.header.slot_count = p.header.slot_count)
    (hf : q.header.free_space = p.header.free_space + Slot.get_size (p.slots k))
    (hd : q.header.data_start =
      if Slot.get_offset (p.slots k) = p.header.data_start
      then p.header.data_start + Slot.get_size (p.slots k) else p.header.data_start)
    (hfs : q.header.first_free_slot = p.header.first_free_slot ∨ q.header.first_free_slot = k)
    (hs : ∀ i, q.slots i = if i = k then Slot.EMPTY_NON_REDIRECT_SLOT else p.slots i) :
    Inv P q := by
  have hnk := inv_live_normal hinv hk hl
  have hsk : q.slots k = Slot.EMPTY_NON_REDIRECT_SLOT := by rw [hs]; simp
  have hso : ∀ i, i ≠ k → q.slots i = p.slots i := by
    intro i hi; rw [hs]; simp [hi]
  have hlive : ∀ i, isLive (q.slots i) = true → i ≠ k := by
    intro i hi hik
    rw [hik, hsk, empty_live] at hi
    simp at hi
  have hdge : p.header.data_start ≤ q.header.data_start := by
    rw [hd]; split <;> omega
  refine ⟨?_, ?_, ?_, ?_, ?_, ?_⟩
  · rw [usedBytes_eq, hc, hf]
    have h1 := sum_range_update p.header.slot_count k (fun i => liveSize (p.slots i))
      (liveSize Slot.EMPTY_NON_REDIRECT_SLOT) hk
    have h2 : ((List.range p.header.slot_count).map (fun i => liveSize (q.slots i))).sum =
        ((List.range p.header.slot_count).map (fun i =>
          if i = k then liveSize Slot.EMPTY_NON_REDIRECT_SLOT else liveSize (p.slots i))).sum := by
      apply sum_range_congr
      intro i _
      show liveSize (q.slots i) = _
      rw [hs]
      split <;> rfl
    rw [h2]
    beta_reduce at h1
    rw [empty_liveSize] at h1 ⊢
    rw [normal_liveSize hP hnk] at h1
    have := hinv.acct
    rw [usedBytes_eq] at this
    omega
  · rw [hc]
    have := hinv.ds_lo
    omega
  · rw [hd]
    have := hinv.ds_hi
    have := hnk.2.2.1
    split <;> omega
  · intro i hi
    rw [hc] at hi
    by_cases hik : i = k
    · left; rw [hik]; exact hsk
    · rw [hso i hik]
      rcases hinv.slots i hi with h | h | h
      · exact Or.inl h
      · refine Or.inr (Or.inl ?_)
        apply normal_mono h
        intro hpos
        have h3 := h.2.2.2 hpos
        rw [hd]
        split
        · rename_i heq
          by_cases hzk : 0 < Slot.get_size (p.slots k)
          · have := hinv.disj i k hi hk hik (normal_live hP h) hl hpos hzk
            omega
          · omega
        · exact h3
      · exact Or.inr (Or.inr h)
  · intro i j hi hj hij hli hlj
    rw [hc] at hi hj
    have hik := hlive i hli
    have hjk := hlive j hlj
    rw [hso i hik] at hli ⊢
    rw [hso j hjk] at hlj ⊢
    exact hinv.disj i j hi hj hij hli hlj
  · intro hlt
    rw [hc] at hlt
    rcases hfs with h | h
    · rw [h] at hlt ⊢
      have he := hinv.ffs hlt
      have : p.header.first_free_slot ≠ k := by
        intro hh
        rw [hh] at he
        exact live_not_empty hl he
      rw [hso _ this]
      exact he
    · rw [h]; exact hsk

theorem trim_inv (P : Nat) (hP : P < 2 ^ 24) :
    ∀ (fuel : Nat) (p : SlottedPage), Inv P p → Inv P (trimSlots p fuel) := by
  intro fuel
  induction fuel with
  | zero => intro p h; exact h
  | succ n ih =>
    intro p hinv
    unfold trimSlots
    split
    · rename_i hc
      apply ih
      obtain ⟨hc1, hc2⟩ := hc
      have he := (is_empty_iff _).1 hc2
      have hacct := hinv.acct
      have hu : usedBytes ({ p with header := { p.header with
          slot_count := p.header.slot_count - 1,
          free_space := u32 (p.header.free_space + sizeofSlot) } } : SlottedPage) =
          usedBytes p := by
        rw [usedBytes_eq, usedBytes_eq]
        show ((List.range (p.header.slot_count - 1)).map _).sum = _
        have : p.header.slot_count = (p.header.slot_count - 1) + 1 := by omega
        conv_rhs => rw [this, sum_range_succ]
        rw [he, empty_liveSize]
        rfl
      have hfree : u32 (p.header.free_space + sizeofSlot) = p.header.free_space + 8 := by
        unfold sizeofSlot
        exact u32_small (by omega)
      refine ⟨?_, ?_, ?_, ?_, ?_, ?_⟩
      · rw [hu]
        show usedBytes p + u32 (p.header.free_space + sizeofSlot) + 12 +
          8 * (p.header.slot_count - 1) = P
        rw [hfree]
        omega
      · show 12 + 8 * (p.header.slot_count - 1) ≤ p.header.data_start
        have := hinv.ds_lo
        omega
      · exact hinv.ds_hi
      · intro i hi
        have hi1 : i < p.header.slot_count - 1 := hi
        exact hinv.slots i (by omega)
      · intro i j hi hj
        have hi1 : i < p.header.slot_count - 1 := hi
        have hj1 : j < p.header.slot_count - 1 := hj
        exact hinv.disj i j (by omega) (by omega)
      · intro hlt
        have hlt1 : p.header.first_free_slot < p.header.slot_count - 1 := hlt
        exact hinv.ffs (by omega)
    · exact hinv

theorem live_of_not {v : Nat} (h1 : ¬ Slot.is_redirect v = true) (h2 : ¬ Slot.is_empty v = true) :
    isLive v = true := by
  unfold isLive
  simp only [Bool.not_eq_true] at h1 h2
  rw [h1, h2]
  rfl

theorem erase_inv (P : Nat) (hP : P < 2 ^ 24) (p p1 : SlottedPage) (hinv : Inv P p)
    (k : Nat) (h : erase p k = some p1) : Inv P p1 := by
  unfold erase at h
  split at h
  · rename_i hk
    simp only at h
    split at h
    · simp at h
    · rename_i hr
      split at h
      · simp at h
      · rename_i he
        have hl := live_of_not hr he
        have hnk := inv_live_normal hinv hk hl
        have hacct := hinv.acct
        have hused : Slot.get_size (p.slots k) ≤ usedBytes p := by
          rw [usedBytes_eq, ← normal_liveSize hP hnk]
          have := sum_range_update p.header.slot_count k (fun i => liveSize (p.slots i)) 0 hk
          simp only at this
          omega
        have hfree : u32 (p.header.free_space + Slot.get_size (p.slots k)) =
            p.header.free_space + Slot.get_size (p.slots k) := u32_small (by omega)
        have hds : u32 (p.header.data_start + Slot.get_size (p.slots k)) =
            p.header.data_start + Slot.get_size (p.slots k) := by
          have := hinv.ds_hi
          exact u32_small (by omega)
        generalize hq : setSlotWord _ k Slot.EMPTY_NON_REDIRECT_SLOT = q at h
        have q1 : q.header.slot_count = p.header.slot_count := by
          rw [← hq]; simp only [setSlotWord]
          split <;> split <;> rfl
        have q2 : q.header.free_space = p.header.free_space + Slot.get_size (p.slots k) := by
          rw [← hq]; simp only [setSlotWord]
          split <;> split <;> exact hfree
        have q3 : q.header.data_start =
            if Slot.get_offset (p.slots k) = p.header.data_start
            then p.header.data_start + Slot.get_size (p.slots k) else p.header.data_start := by
          rw [← hq]; simp only [setSlotWord]
          by_cases h1 : k < p.header.first_free_slot
          · simp only [h1, ↓reduceIte]
            split
            · exact hds
            · rfl
          · simp only [h1, ↓reduceIte]
            split
            · exact hds
            · rfl
        have q4 : q.header.first_free_slot = p.header.first_free_slot ∨
            q.header.first_free_slot = k := by
          rw [← hq]; simp only [setSlotWord]
          by_cases h1 : k < p.header.first_free_slot
          · right
            simp only [h1, ↓reduceIte]
            split <;> rfl
          · left
            simp only [h1, ↓reduceIte]
            split <;> rfl
        have q5 : ∀ i, q.slots i =
            if i = k then Slot.EMPTY_NON_REDIRECT_SLOT else p.slots i := by
          intro i
          rw [← hq]; simp only [setSlotWord]
        have hinvq : Inv P q := inv_clear P hP p q k hinv hk hl q1 q2 q3 q4 q5
        split at h
        · simp only [Option.some.injEq] at h
          rw [← h]
          exact trim_inv P hP _ _ hinvq
        · simp only [Option.some.injEq] at h
          rw [← h]
          exact hinvq
  · simp at h

theorem inv_unredirect (P : Nat) (p q : SlottedPage) (k : Nat) (hinv : Inv P p)
    (hr : Slot.is_redirect (p.slots k) = true)
    (hh : q.header = p.header)
    (hs : ∀ i, q.slots i = if i = k then Slot.EMPTY_NON_REDIRECT_SLOT else p.slots i) :
    Inv P q := by
  have hsk : q.slots k = Slot.EMPTY_NON_REDIRECT_SLOT := by rw [hs]; simp
  have hso : ∀ i, i ≠ k → q.slots i = p.slots i := by
    intro i hi; rw [hs]; simp [hi]
  have hlive : ∀ i, isLive (q.slots i) = true → i ≠ k := by
    intro i hi hik
    rw [hik, hsk, empty_live] at hi
    simp at hi
  refine ⟨?_, ?_, ?_, ?_, ?_, ?_⟩
  · have hu : usedBytes q = usedBytes p := by
      rw [usedBytes_eq, usedBytes_eq, hh]
      apply sum_range_congr
      intro i _
      by_cases hik : i = k
      · rw [hik, hsk, empty_liveSize, redirect_liveSize hr]
      · rw [hso i hik]
    rw [hu, hh]; exact hinv.acct
  · rw [hh]; exact hinv.ds_lo
  · rw [hh]; exact hinv.ds_hi
  · intro i hi
    rw [hh] at hi ⊢
    by_cases hik : i = k
    · left; rw [hik]; exact hsk
    · rw [hso i hik]; exact hinv.slots i hi
  · intro i j hi hj hij hli hlj
    rw [hh] at hi hj
    have hik := hlive i hli
    have hjk := hlive j hlj
    rw [hso i hik] at hli ⊢
    rw [hso j hjk] at hlj ⊢
    exact hinv.disj i j hi hj hij hli hlj
  · intro hlt
    rw [hh] at hlt ⊢
    have he := hinv.ffs hlt
    by_cases hfk : p.header.first_free_slot = k
    · rw [hfk]; exact hsk
    · rw [hso _ hfk]; exact he

theorem regrow_core (sort : Sorter) (hsort : IsSort sort) (P : Nat) (hP : P < 2 ^ 24)
    (q p1 : SlottedPage) (k slot_size size : Nat) (keep : List Nat) (hinvq : Inv P q)
    (hk : k < q.header.slot_count) (hqk : q.slots k = Slot.EMPTY_NON_REDIRECT_SLOT)
    (hfree : size ≤ q.header.free_space)
    (hffs : q.header.first_free_slot < q.header.slot_count → q.header.first_free_slot ≠ k)
    (h : regrowTail sort q k slot_size size P keep = some p1) : Inv P p1 := by
  unfold regrowTail at h
  cases hm : makeRoom sort q size P with
  | none => rw [hm] at h; simp at h
  | some p3 =>
    rw [hm] at h
    simp only [Option.some.injEq] at h
    obtain ⟨b1, b2, b3, b4, b5, b6, b7⟩ := makeRoom_spec sort hsort P hP q p3 size hinvq hm
    have b7a := b7 hfree
    have hds3 := b1.ds_hi
    have e1 : sub32 p3.header.data_start size = p3.header.data_start - size :=
      sub32_le (by omega)
    have e2 : sub32 p3.header.free_space size = p3.header.free_space - size :=
      sub32_le (by omega)
    have e3 : Slot.set_slot (p3.header.data_start - size) size false =
        word (p3.header.data_start - size) size :=
      set_slot_word _ _ (by omega) (by omega)
    rw [e1, e2, e3] at h
    have hempty : p3.slots k = Slot.EMPTY_NON_REDIRECT_SLOT := (b6 k hk).2 hqk
    apply inv_place P hP ({ p3 with header := { p3.header with
        free_space := p3.header.free_space - size } } : SlottedPage) p1 k size
    · show k < p3.header.slot_count
      rw [b2]; exact hk
    · intro i hi _
      exact b1.slots i hi
    · intro i j hi hj _ _ hij
      exact b1.disj i j hi hj hij
    · show ((List.range p3.header.slot_count).map _).sum +
        (p3.header.free_space - size) + size + 12 + 8 * p3.header.slot_count = P
      have : ((List.range p3.header.slot_count).map
          (fun i => if i = k then 0 else liveSize (p3.slots i))).sum = usedBytes p3 := by
        rw [usedBytes_eq]
        apply sum_range_congr
        intro i hi
        by_cases hik : i = k
        · rw [if_pos hik, hik, hempty, empty_liveSize]
        · rw [if_neg hik]
      rw [this]
      have := b1.acct
      omega
    · show 12 + 8 * p3.header.slot_count + size ≤ p3.header.data_start
      rw [b2]; exact b7a
    · exact hds3
    · intro hlt
      have hlt1 : p3.header.first_free_slot < p3.header.slot_count := hlt
      show p3.header.first_free_slot ≠ k ∧
        p3.slots p3.header.first_free_slot = Slot.EMPTY_NON_REDIRECT_SLOT
      refine ⟨?_, b1.ffs hlt1⟩
      rw [b3]
      rw [b3, b2] at hlt1
      exact hffs hlt1
    · rw [← h]
      rfl
    · intro i
      rw [← h]
      simp only [setSlotWord]

theorem regrow_inv (sort : Sorter) (hsort : IsSort sort) (P : Nat) (hP : P < 2 ^ 24)
    (p0 p p1 : SlottedPage) (k size : Nat) (keep : List Nat) (hinv : Inv P p0)
    (hk : k < p0.header.slot_count) (hl : isLive (p0.slots k) = true)
    (hps : p.slots = p0.slots)
    (hph : p.header = { p0.header with
      free_space := p0.header.free_space + Slot.get_size (p0.slots k) })
    (hfree : size ≤ p.header.free_space)
    (h : regrow sort p k (Slot.get_size (p0.slots k)) (Slot.get_offset (p0.slots k)) size P keep =
      some p1) : Inv P p1 := by
  have hnk := inv_live_normal hinv hk hl
  have hacct := hinv.acct
  unfold regrow at h
  simp only at h
  generalize hq : setSlotWord _ k Slot.EMPTY_NON_REDIRECT_SLOT = q at h
  have hds : u32 (p0.header.data_start + Slot.get_size (p0.slots k)) =
      p0.header.data_start + Slot.get_size (p0.slots k) := by
    have := hinv.ds_hi
    have := hnk.2.2.1
    exact u32_small (by omega)
  have hpd : p.header.data_start = p0.header.data_start := by rw [hph]
  have q1 : q.header.slot_count = p0.header.slot_count := by
    rw [← hq]; simp only [setSlotWord]
    split <;> rw [hph]
  have q2 : q.header.free_space = p0.header.free_space + Slot.get_size (p0.slots k) := by
    rw [← hq]; simp only [setSlotWord]
    split <;> rw [hph]
  have q3 : q.header.data_start =
      if Slot.get_offset (p0.slots k) = p0.header.data_start
      then p0.header.data_start + Slot.get_size (p0.slots k) else p0.header.data_start := by
    rw [← hq]; simp only [setSlotWord]
    split
    · rename_i hc
      rw [hpd] at hc
      rw [if_pos hc]
      show u32 (p.header.data_start + _) = _
      rw [hpd]; exact hds
    · rename_i hc
      rw [hpd] at hc
      rw [if_neg hc]
      exact hpd
  have q4 : q.header.first_free_slot = p0.header.first_free_slot := by
    rw [← hq]; simp only [setSlotWord]
    split <;> rw [hph]
  have q5 : ∀ i, q.slots i = if i = k then Slot.EMPTY_NON_REDIRECT_SLOT else p0.slots i := by
    intro i
    rw [← hq]; simp only [setSlotWord]
    by_cases hik : i = k
    · rw [if_pos hik, if_pos hik]
    · rw [if_neg hik, if_neg hik]
      split
      · show p.slots i = p0.slots i
        rw [hps]
      · rw [hps]
  have hinvq : Inv P q := inv_clear P hP p0 q k hinv hk hl q1 q2 q3 (Or.inl q4) q5
  apply regrow_core sort hsort P hP q p1 k _ size keep hinvq (by rw [q1]; exact hk)
    (by rw [q5]; simp) ?_ ?_ h
  · rw [q2]
    have : p.header.free_space = p0.header.free_space + Slot.get_size (p0.slots k) := by
      rw [hph]
    omega
  · intro hlt
    rw [q4] at hlt ⊢
    rw [q1] at hlt
    intro hh
    have := hinv.ffs hlt
    rw [hh] at this
    exact live_not_empty hl this

theorem regrow_redirect_inv (sort : Sorter) (hsort : IsSort sort) (P : Nat) (hP : P < 2 ^ 24)
    (p p1 : SlottedPage) (k size off : Nat) (keep : List Nat) (hinv : Inv P p)
    (hk : k < p.header.slot_count) (hr : Slot.is_redirect (p.slots k) = true)
    (hfree : size ≤ p.header.free_space)
    (h : regrow sort p k 0 off size P keep = some p1) : Inv P p1 := by
  unfold regrow at h
  simp only at h
  generalize hq : setSlotWord _ k Slot.EMPTY_NON_REDIRECT_SLOT = q at h
  have hds : u32 (p.header.data_start + 0) = p.header.data_start := by
    have := hinv.ds_hi
    exact u32_small (by omega)
  have qh : q.header = p.header := by
    rw [← hq]; simp only [setSlotWord]
    split
    · show ({ p.header with data_start := u32 (p.header.data_start + 0) } : Header) = p.header
      rw [hds]
    · rfl
  have q5 : ∀ i, q.slots i = if i = k then Slot.EMPTY_NON_REDIRECT_SLOT else p.slots i := by
    intro i
    rw [← hq]; simp only [setSlotWord]
    by_cases hik : i = k
    · rw [if_pos hik, if_pos hik]
    · rw [if_neg hik, if_neg hik]
      split <;> rfl
  have hinvq : Inv P q := inv_unredirect P p q k hinv hr qh q5
  apply regrow_core sort hsort P hP q p1 k _ size keep hinvq (by rw [qh]; exact hk)
    (by rw [q5]; simp) (by rw [qh]; exact hfree) ?_ h
  intro hlt
  rw [qh] at hlt ⊢
  intro hh
  have := hinv.ffs hlt
  rw [hh] at this
  rw [this] at hr
  revert hr
  decide

theorem inv_shrink (P : Nat) (hP : P < 2 ^ 24) (p p1 : SlottedPage) (k size : Nat)
    (hinv : Inv P p) (hk : k < p.header.slot_count)
    (hnk : Normal P p.header.data_start (p.slots k)) (hlt : size ≤ Slot.get_size (p.slots k))
    (hh : p1.header = { p.header with
      free_space := p.header.free_space + (Slot.get_size (p.slots k) - size) })
    (hs : ∀ i, p1.slots i = if i = k then Slot.set_size (p.slots k) size else p.slots i) :
    Inv P p1 := by
  have hl := normal_live hP hnk
  obtain ⟨hb1, hb2⟩ := normal_bounds hP hnk
  have hacct := hinv.acct
  have hsk : p1.slots k = Slot.set_size (p.slots k) size := by rw [hs]; simp
  have hso : ∀ i, i ≠ k → p1.slots i = p.slots i := by
    intro i hi; rw [hs]; simp [hi]
  obtain ⟨hn1, hok, hzk⟩ := @normal_set_size _ _ _ size hP hnk
    (by have := hnk.2.2.1; omega) (fun _ => hnk.2.2.2 (by omega))
  rw [← hsk] at hn1 hok hzk
  have hc : p1.header.slot_count = p.header.slot_count := by rw [hh]
  have hd : p1.header.data_start = p.header.data_start := by rw [hh]
  have hfs : p1.header.first_free_slot = p.header.first_free_slot := by rw [hh]
  have hf : p1.header.free_space =
      p.header.free_space + (Slot.get_size (p.slots k) - size) := by rw [hh]
  refine ⟨?_, ?_, ?_, ?_, ?_, ?_⟩
  · rw [usedBytes_eq, hc, hf]
    have h1 := sum_range_update p.header.slot_count k
      (fun i => liveSize (p.slots i)) size hk
    beta_reduce at h1
    have h2 : ((List.range p.header.slot_count).map
        (fun i => liveSize (p1.slots i))).sum =
        ((List.range p.header.slot_count).map (fun i =>
          if i = k then size else liveSize (p.slots i))).sum := by
      apply sum_range_congr
      intro i _
      show liveSize (p1.slots i) = _
      by_cases hik : i = k
      · rw [if_pos hik, hik, normal_liveSize hP hn1, hzk]
      · rw [if_neg hik, hso i hik]
    rw [h2]
    rw [normal_liveSize hP hnk] at h1
    rw [usedBytes_eq] at hacct
    omega
  · rw [hc, hd]; exact hinv.ds_lo
  · rw [hd]; exact hinv.ds_hi
  · intro i hi
    rw [hc] at hi
    rw [hd]
    by_cases hik : i = k
    · rw [hik]; exact Or.inr (Or.inl hn1)
    · rw [hso i hik]; exact hinv.slots i hi
  · intro i j hi hj hij hli hlj hpi hpj
    rw [hc] at hi hj
    by_cases hik : i = k
    · have hjk : j ≠ k := fun hh => hij (hik.trans hh.symm)
      rw [hso j hjk] at hlj hpj ⊢
      rw [hik, hok, hzk]
      rw [hik, hzk] at hpi
      have := hinv.disj k j hk hj (fun hh => hjk hh.symm) hl hlj (by omega) hpj
      omega
    · by_cases hjk : j = k
      · rw [hso i hik] at hli hpi ⊢
        rw [hjk, hok, hzk]
        rw [hjk, hzk] at hpj
        have := hinv.disj i k hi hk hik hli hl hpi (by omega)
        omega
      · rw [hso i hik] at hli hpi ⊢
        rw [hso j hjk] at hlj hpj ⊢
        exact hinv.disj i j hi hj hij hli hlj hpi hpj
  · intro hlt
    rw [hfs, hc] at hlt
    have he1 := hinv.ffs hlt
    have : p.header.first_free_slot ≠ k := by
      intro hh
      rw [hh] at he1
      exact live_not_empty hl he1
    rw [hfs, hso _ this]
    exact he1

theorem header_free_zero (h : Header) :
    h = { h with free_space := h.free_space + 0 } := by
  cases h
  rfl

theorem relocate_inv (sort : Sorter) (hsort : IsSort sort) (P : Nat) (hP : P < 2 ^ 24)
    (p p1 : SlottedPage) (hinv : Inv P p) (k size : Nat)
    (h : relocate sort p k size P = some p1) : Inv P p1 := by
  unfold relocate at h
  split at h
  · rename_i hk
    simp only at h
    split at h
    · simp at h
    · rename_i he
      split at h
      · simp at h
      · rename_i hr
        have hacct := hinv.acct
        rcases hinv.slots k hk with h1 | hnk | hred
        · rw [h1] at he
          exact absurd empty_is_empty he
        · have hl := normal_live hP hnk
          obtain ⟨hb1, hb2⟩ := normal_bounds hP hnk
          have hused : Slot.get_size (p.slots k) ≤ usedBytes p := by
            rw [usedBytes_eq, ← normal_liveSize hP hnk]
            have := sum_range_update p.header.slot_count k (fun i => liveSize (p.slots i)) 0 hk
            beta_reduce at this
            omega
          split at h
          · rename_i hsp
            have := hnk.2.1
            omega
          · split at h
            · simp only [Option.some.injEq] at h
              rw [← h]; exact hinv
            · split at h
              · rename_i hne hgt
                split at h
                · simp at h
                · simp only [Option.some.injEq] at h
                  have hfree : u32 (p.header.free_space + (Slot.get_size (p.slots k) - size)) =
                      p.header.free_space + (Slot.get_size (p.slots k) - size) :=
                    u32_small (by omega)
                  rw [hfree] at h
                  apply inv_shrink P hP p p1 k size hinv hk hnk (by omega)
                  · rw [← h]; rfl
                  · intro i
                    rw [← h]
                    simp only [setSlotWord]
              · rename_i hne hgt
                split at h
                · rename_i hfree
                  have hfree0 : u32 (p.header.free_space + Slot.get_size (p.slots k)) =
                      p.header.free_space + Slot.get_size (p.slots k) := u32_small (by omega)
                  rw [hfree0] at h
                  exact regrow_inv sort hsort P hP p
                    ({ p with header := { p.header with
                      free_space := p.header.free_space + Slot.get_size (p.slots k) } } :
                      SlottedPage) p1 k size _ hinv hk hl rfl rfl
                    (by
                      show size ≤ p.header.free_space + Slot.get_size (p.slots k)
                      have : size ≤ u32 (p.header.free_space + Slot.get_size (p.slots k)) := hfree
                      rw [hfree0] at this
                      exact this) h
                · simp at h
        · obtain ⟨hred, _⟩ := hred
          have hz : Slot.get_size (p.slots k) = 0 := by
            by_contra hne
            exact hr ⟨hred, hne⟩
          rw [hz] at h
          split at h
          · split at h
            · rename_i hfree
              exact regrow_redirect_inv sort hsort P hP p p1 k size _ _ hinv hk hred hfree h
            · simp at h
          · split at h
            · simp only [Option.some.injEq] at h
              rw [← h]; exact hinv
            · split at h
              · rename_i hgt
                omega
              · split at h
                · rename_i hfree
                  have hfree0 : u32 (p.header.free_space + 0) = p.header.free_space :=
                    u32_small (by omega)
                  rw [hfree0] at h
                  have hp : ({ p with header := { p.header with
                      free_space := p.header.free_space } } : SlottedPage) = p := rfl
                  rw [hp] at h
                  exact regrow_redirect_inv sort hsort P hP p p1 k size _ _ hinv hk hred
                    (by
                      have : size ≤ u32 (p.header.free_space + 0) := hfree
                      rw [hfree0] at this
                      exact this) h
                · simp at h
  · simp at h

theorem init_inv (P : Nat) (h12 : 12 ≤ P) : Inv P (init P) := by
  have hf : (init P).header.free_space = P - 12 := by
    show sub32 P sizeofHeader = P - 12
    unfold sizeofHeader
    exact sub32_le h12
  refine ⟨?_, ?_, ?_, ?_, ?_, ?_⟩
  · rw [hf]
    show 0 + (P - 12) + 12 + 8 * 0 = P
    omega
  · show 12 + 8 * 0 ≤ P
    omega
  · exact le_refl _
  · intro i hi
    exact absurd hi (Nat.not_lt_zero _)
  · intro i j hi
    exact absurd hi (Nat.not_lt_zero _)
  · intro hi
    exact absurd hi (Nat.not_lt_zero _)

theorem step_inv (sort : Sorter) (hsort : IsSort sort) (P : Nat) (hP : P < 524300)
    (p p1 : SlottedPage) (c : Call) (hinv : Inv P p) (h : step sort P p c = some p1) :
    Inv P p1 := by
  have hP24 : P < 2 ^ 24 := by omega
  cases c with
  | allocate size =>
    have h : Option.map (fun r => r.1) (allocate sort p size P) = some p1 := h
    cases hr : allocate sort p size P with
    | none => rw [hr] at h; simp at h
    | some r =>
      rw [hr] at h
      simp only [Option.map_some', Option.some.injEq] at h
      rw [← h]
      exact allocate_inv sort hsort P hP p hinv size r hr
  | relocate k size => exact relocate_inv sort hsort P hP24 p p1 hinv k size h
  | erase k => exact erase_inv P hP24 p p1 hinv k h

theorem run_inv (sort : Sorter) (hsort : IsSort sort) (P : Nat) (hP : P < 524300)
    (calls : List Call) : ∀ (p p1 : SlottedPage), Inv P p → run sort P p calls = some p1 →
      Inv P p1 := by
  induction calls with
  | nil =>
    intro p p1 hinv h
    simp only [run, Option.some.injEq] at h
    rw [← h]; exact hinv
  | cons c rest ih =>
    intro p p1 hinv h
    unfold run at h
    cases hs : step sort P p c with
    | none => rw [hs] at h; simp at h
    | some p2 =>
      rw [hs] at h
      exact ih p2 p1 (step_inv sort hsort P hP p p2 c hinv hs) h

theorem isSort_insertionSorter : IsSort insertionSorter := by
  intro key l
  unfold insertionSorter
  haveI : IsTotal Nat (fun a b => decide (key b > key a) = false) :=
    ⟨fun a b => by simp only [decide_eq_false_iff_not, not_lt]; omega⟩
  haveI : IsTrans Nat (fun a b => decide (key b > key a) = false) :=
    ⟨fun a b c => by simp only [decide_eq_false_iff_not, not_lt]; omega⟩
  refine ⟨List.perm_insertionSort _ l, ?_⟩
  have h := List.sorted_insertionSort (fun a b => decide (key b > key a) = false) l
  exact h.imp (fun hab => by simpa using hab)

/-- C7, as the code has it: on a page of `page_size` bytes with
`12 ≤ page_size < 524300` (offsets and sizes fit the 24-bit slot fields and the
slot count fits `uint16_t`), after every sequence of `allocate`, `relocate` and
`erase` calls on a freshly constructed page in which no assertion fails, the
sizes of the live slots plus `free_space` equal
`page_size - sizeof(Header) - slot_count * sizeof(Slot)`. -/
theorem accounting_identity (sort : Sorter) (hsort : IsSort sort) (page_size : Nat)
    (hlo : sizeofHeader ≤ page_size) (hhi : page_size < 524300) (calls : List Call)
    (p : SlottedPage) (hrun : run sort page_size (init page_size) calls = some p) :
    (usedBytes p : Int) + p.header.free_space =
      page_size - sizeofHeader - p.header.slot_count * sizeofSlot := by
  have hinv := run_inv sort hsort page_size hhi calls _ p (init_inv page_size hlo) hrun
  have := hinv.acct
  unfold sizeofHeader sizeofSlot
  omega

/-- C7 on a page of 64 bytes: two records of ten bytes, the first grows to twenty. -/
theorem accounting_identity_witness :
    run insertionSorter 64 (init 64) growingCalls = some grownPage ∧
    (usedBytes grownPage : Int) + grownPage.header.free_space =
      (64 : Nat) - sizeofHeader - grownPage.header.slot_count * sizeofSlot :=
  ⟨rfl, accounting_identity insertionSorter isSort_insertionSorter 64 (by decide) (by decide)
    growingCalls grownPage rfl⟩

/-- C7 fails as stated for every page size: on a page of `2^25` bytes
`allocate(2^24)` meets its precondition, yet the slot word it writes has offset
and size zero in its 24-bit fields, which is the empty slot, so no live slot
accounts for the `2^24` bytes taken from `free_space`. -/
theorem accounting_fails_on_large_page :
    (init (2 ^ 25)).header.free_space ≥ 2 ^ 24 + sizeofSlot ∧
    ∃ p, run insertionSorter (2 ^ 25) (init (2 ^ 25)) [Call.allocate (2 ^ 24)] = some p ∧
      Slot.is_empty (p.slots 0) = true ∧
      (usedBytes p : Int) + p.header.free_space ≠
        (2 ^ 25 : Nat) - sizeofHeader - p.header.slot_count * sizeofSlot := by
  refine ⟨by decide, ?_⟩
  have h : (run insertionSorter (2 ^ 25) (init (2 ^ 25)) [Call.allocate (2 ^ 24)]).map
      (fun p => (accounts p, Slot.is_empty (p.slots 0))) = some ((0, 16777196, 1), true) := by
    decide
  cases hr : run insertionSorter (2 ^ 25) (init (2 ^ 25)) [Call.allocate (2 ^ 24)] with
  | none => rw [hr] at h; simp at h
  | some p =>
    rw [hr] at h
    simp only [Option.map_some', Option.some.injEq, Prod.mk.injEq, accounts] at h
    obtain ⟨⟨h1, h2, h3⟩, h4⟩ := h
    refine ⟨p, rfl, h4, ?_⟩
    rw [h1, h2, h3]
    unfold sizeofHeader sizeofSlot
    norm_num

/-- C8, as the code has it: on a page of `page_size` bytes with
`12 ≤ page_size < 524300`, in every state reached from a freshly constructed
page by calls in which no assertion fails, every live slot lies behind the
header and inside the page, every live slot that holds at least one byte lies
behind the slot array, and no byte belongs to two live slots. -/
theorem live_slots_within_page (sort : Sorter) (hsort : IsSort sort) (page_size : Nat)
    (hlo : sizeofHeader ≤ page_size) (hhi : page_size < 524300) (calls : List Call)
    (p : SlottedPage) (hrun : run sort page_size (init page_size) calls = some p) :
    ∀ i, i < p.header.slot_count → isLive (p.slots i) = true →
      sizeofHeader ≤ Slot.get_offset (p.slots i) ∧
      Slot.get_offset (p.slots i) + Slot.get_size (p.slots i) ≤ page_size ∧
      (0 < Slot.get_size (p.slots i) →
        sizeofHeader + p.header.slot_count * sizeofSlot ≤ Slot.get_offset (p.slots i)) ∧
      ∀ j, j < p.header.slot_count → j ≠ i → isLive (p.slots j) = true →
        ∀ b, ¬ (Slot.get_offset (p.slots i) ≤ b ∧
          b < Slot.get_offset (p.slots i) + Slot.get_size (p.slots i) ∧
          Slot.get_offset (p.slots j) ≤ b ∧
          b < Slot.get_offset (p.slots j) + Slot.get_size (p.slots j)) := by
  have hinv := run_inv sort hsort page_size hhi calls _ p (init_inv page_size hlo) hrun
  intro i hi hl
  obtain ⟨_, n2, n3, n4⟩ := inv_live_normal hinv hi hl
  have hds := hinv.ds_lo
  unfold sizeofHeader sizeofSlot
  refine ⟨n2, n3, fun hpos => by have := n4 hpos; omega, ?_⟩
  intro j hj hji hlj b hb
  have := hinv.disj i j hi hj (fun hh => hji hh.symm) hl hlj (by omega) (by omega)
  omega

/-- C8 on a page of 80 bytes whose three records are compacted after the
middle one was erased. -/
theorem live_slots_within_page_witness :
    run insertionSorter 80 (init 80) compactingCalls = some compactedPage ∧
    ∀ i, i < compactedPage.header.slot_count → isLive (compactedPage.slots i) = true →
      sizeofHeader ≤ Slot.get_offset (compactedPage.slots i) ∧
      Slot.get_offset (compactedPage.slots i) + Slot.get_size (compactedPage.slots i) ≤ 80 ∧
      (0 < Slot.get_size (compactedPage.slots i) →
        sizeofHeader + compactedPage.header.slot_count * sizeofSlot ≤
          Slot.get_offset (compactedPage.slots i)) ∧
      ∀ j, j < compactedPage.header.slot_count → j ≠ i →
        isLive (compactedPage.slots j) = true →
        ∀ b, ¬ (Slot.get_offset (compactedPage.slots i) ≤ b ∧
          b < Slot.get_offset (compactedPage.slots i) + Slot.get_size (compactedPage.slots i) ∧
          Slot.get_offset (compactedPage.slots j) ≤ b ∧
          b < Slot.get_offset (compactedPage.slots j) + Slot.get_size (compactedPage.slots j)) :=
  ⟨rfl, live_slots_within_page insertionSorter isSort_insertionSorter 80 (by decide) (by decide)
    compactingCalls compactedPage rfl⟩

/-- C8 fails as stated: on a page of 64 bytes a record of five bytes and an
empty record are allocated, the first is erased (which moves `data_start` past
the empty record at offset 59), and five more empty records grow the slot
array to `12 + 6 * 8 = 60`; slot 1 is live, not a redirect, and its offset 59
lies inside the slot array. -/
theorem empty_record_inside_slot_array :
    ∃ p, run insertionSorter 64 (init 64) emptyRecordCalls = some p ∧
      1 < p.header.slot_count ∧ Slot.is_empty (p.slots 1) = false ∧
      Slot.is_redirect (p.slots 1) = false ∧
      ¬ (sizeofHeader + p.header.slot_count * sizeofSlot ≤ Slot.get_offset (p.slots 1)) := by
  have h : (run insertionSorter 64 (init 64) emptyRecordCalls).map
      (fun p => (p.header.slot_count, Slot.is_empty (p.slots 1), Slot.is_redirect (p.slots 1),
        Slot.get_offset (p.slots 1))) = some (6, false, false, 59) := by
    decide
  cases hr : run insertionSorter 64 (init 64) emptyRecordCalls with
  | none => rw [hr] at h; simp at h
  | some p =>
    rw [hr] at h
    simp only [Option.map_some', Option.some.injEq, Prod.mk.injEq] at h
    obtain ⟨h1, h2, h3, h4⟩ := h
    refine ⟨p, rfl, by omega, h2, h3, ?_⟩
    rw [h1, h4]
    decide

end SlottedPage

/-! ## The start of the data and the header of an emptied page -/

namespace SlottedPage

/-- C21 fails as stated: on a page of 64 bytes three records of eight bytes
are allocated (offsets 56, 48, 40) and then erased; `erase` raises `data_start`
only for the record that sits at `data_start`. After the second and the first
record are erased and then the third, no slot is left and `data_start` is 48,
not the page size; after the second and the third are erased, the only live
record sits at offset 56 and `data_start` is 48. -/
theorem data_start_stays_below_erased_records :
    (∃ p, run insertionSorter 64 (init 64) eraseAllCalls = some p ∧
      p.header.slot_count = 0 ∧ liveSlots p = [] ∧ minLiveOffset p 64 = 64 ∧
      p.header.data_start = 48) ∧
    (∃ p, run insertionSorter 64 (init 64) eraseTwoCalls = some p ∧
      liveSlots p = [0] ∧ minLiveOffset p 64 = 56 ∧ p.header.data_start = 48) := by
  constructor
  · have h : (run insertionSorter 64 (init 64) eraseAllCalls).map
        (fun p => (p.header.slot_count, liveSlots p, minLiveOffset p 64, p.header.data_start)) =
        some (0, [], 64, 48) := by
      decide
    cases hr : run insertionSorter 64 (init 64) eraseAllCalls with
    | none => rw [hr] at h; simp at h
    | some p =>
      rw [hr] at h
      simp only [Option.map_some', Option.some.injEq, Prod.mk.injEq] at h
      exact ⟨p, rfl, h.1, h.2.1, h.2.2.1, h.2.2.2⟩
  · have h : (run insertionSorter 64 (init 64) eraseTwoCalls).map
        (fun p => (liveSlots p, minLiveOffset p 64, p.header.data_start)) =
        some ([0], 56, 48) := by
      decide
    cases hr : run insertionSorter 64 (init 64) eraseTwoCalls with
    | none => rw [hr] at h; simp at h
    | some p =>
      rw [hr] at h
      simp only [Option.map_some', Option.some.injEq, Prod.mk.injEq] at h
      exact ⟨p, rfl, h.1, h.2.1, h.2.2⟩

/-- The value `minLiveOffset` folds to is bounded by every bound of its arguments. -/
theorem le_foldl_min (d : Nat) : ∀ (l : List Nat) (a : Nat), d ≤ a → (∀ x ∈ l, d ≤ x) →
    d ≤ l.foldl min a := by
  intro l
  induction l with
  | nil =>
    intro a ha _
    exact ha
  | cons x rest ih =>
    intro a ha hl
    simp only [List.foldl_cons]
    exact ih (min a x) (le_min ha (hl x (List.mem_cons_self _ _)))
      (fun y hy => hl y (List.mem_cons_of_mem _ hy))

/-- C21, as the code has it: on a page of `page_size` bytes with
`12 ≤ page_size < 524300`, in every state reached from a freshly constructed
page by calls in which no assertion fails, `data_start` lies behind the slot
array and inside the page and is at most the offset of every live slot that
holds at least one byte; when every live slot holds at least one byte it is at
most the smallest live offset (taken as `page_size` when no slot is live). -/
theorem data_start_bounds_live_offsets (sort : Sorter) (hsort : IsSort sort) (page_size : Nat)
    (hlo : sizeofHeader ≤ page_size) (hhi : page_size < 524300) (calls : List Call)
    (p : SlottedPage) (hrun : run sort page_size (init page_size) calls = some p) :
    sizeofHeader + p.header.slot_count * sizeofSlot ≤ p.header.data_start ∧
    p.header.data_start ≤ page_size ∧
    (∀ i, i < p.header.slot_count → isLive (p.slots i) = true →
      0 < Slot.get_size (p.slots i) → p.header.data_start ≤ Slot.get_offset (p.slots i)) ∧
    ((∀ i, i < p.header.slot_count → isLive (p.slots i) = true →
        0 < Slot.get_size (p.slots i)) →
      p.header.data_start ≤ minLiveOffset p page_size) := by
  have hinv := run_inv sort hsort page_size hhi calls _ p (init_inv page_size hlo) hrun
  have hds := hinv.ds_lo
  have hlive : ∀ i, i < p.header.slot_count → isLive (p.slots i) = true →
      0 < Slot.get_size (p.slots i) → p.header.data_start ≤ Slot.get_offset (p.slots i) := by
    intro i hi hl hpos
    exact (inv_live_normal hinv hi hl).2.2.2 hpos
  refine ⟨by unfold sizeofHeader sizeofSlot; omega, hinv.ds_hi, hlive, ?_⟩
  intro hall
  unfold minLiveOffset
  apply le_foldl_min _ _ _ hinv.ds_hi
  intro x hx
  rw [List.mem_map] at hx
  obtain ⟨i, hi, rfl⟩ := hx
  rw [mem_liveSlots] at hi
  exact hlive i hi.1 hi.2 (hall i hi.1 hi.2)

/-- C21, as the code has it, on the page of 64 bytes whose second and third
record were erased. -/
theorem data_start_bounds_live_offsets_witness :
    run insertionSorter 64 (init 64) eraseTwoCalls = some erasedTwoPage ∧
    sizeofHeader + erasedTwoPage.header.slot_count * sizeofSlot ≤
      erasedTwoPage.header.data_start ∧
    erasedTwoPage.header.data_start ≤ 64 ∧
    (∀ i, i < erasedTwoPage.header.slot_count → isLive (erasedTwoPage.slots i) = true →
      0 < Slot.get_size (erasedTwoPage.slots i) →
      erasedTwoPage.header.data_start ≤ Slot.get_offset (erasedTwoPage.slots i)) ∧
    ((∀ i, i < erasedTwoPage.header.slot_count → isLive (erasedTwoPage.slots i) = true →
        0 < Slot.get_size (erasedTwoPage.slots i)) →
      erasedTwoPage.header.data_start ≤ minLiveOffset erasedTwoPage 64) :=
  ⟨rfl, data_start_bounds_live_offsets insertionSorter isSort_insertionSorter 64 (by decide)
    (by decide) eraseTwoCalls erasedTwoPage rfl⟩

/-- C29 fails as stated for every page size: on a page of `2^25` bytes a
record of `2^24` bytes meets the bound of the claim, `allocate` returns slot 0,
and the slot word it wrote has offset and size zero in its 24-bit fields: it
is the empty slot, and `erase` of slot 0 fails its assertion. -/
theorem allocate_erase_fails_on_large_page :
    2 ^ 24 + sizeofSlot ≤ 2 ^ 25 - sizeofHeader ∧
    ∃ p, allocate insertionSorter (init (2 ^ 25)) (2 ^ 24) (2 ^ 25) = some (p, 0) ∧
      Slot.is_empty (p.slots 0) = true ∧ erase p 0 = none := by
  refine ⟨by decide, ?_⟩
  have h : (allocate insertionSorter (init (2 ^ 25)) (2 ^ 24) (2 ^ 25)).map
      (fun r => (r.2, Slot.is_empty (r.1.slots 0), (erase r.1 0).isNone)) =
      some (0, true, true) := by
    decide
  cases hr : allocate insertionSorter (init (2 ^ 25)) (2 ^ 24) (2 ^ 25) with
  | none => rw [hr] at h; simp at h
  | some r =>
    obtain ⟨p, k⟩ := r
    rw [hr] at h
    simp only [Option.map_some', Option.some.injEq, Prod.mk.injEq, Option.isNone_iff_eq_none] at h
    obtain ⟨h1, h2, h3⟩ := h
    subst h1
    exact ⟨p, rfl, h2, h3⟩

/-- C29, amended. For every size `s` and page size `P` with
`s + sizeof(Slot) <= P - sizeof(Header)`, `s < 2^24` and `P - s < 2^24` (every
page below `2^24` bytes), on a freshly constructed page `allocate(s, P)`
returns slot 0 and `erase` of that slot restores the header of the fresh page:
`slot_count = 0`, `first_free_slot = 0`, `data_start = P`,
`free_space = P - sizeof(Header)`. -/
theorem allocate_erase_restores_header (sort : Sorter) (P s : Nat)
    (hfit : s + sizeofSlot ≤ P - sizeofHeader) (hs : s < 2 ^ 24) (ho : P - s < 2 ^ 24) :
    ∃ p, allocate sort (init P) s P = some (p, 0) ∧
      ∃ p1, erase p 0 = some p1 ∧ p1.header = Header.init P ∧
        p1.header.slot_count = 0 ∧ p1.header.first_free_slot = 0 ∧
        p1.header.data_start = P ∧ p1.header.free_space = P - sizeofHeader := by
  unfold sizeofSlot sizeofHeader at hfit
  have hw := set_slot_word (P - s) s ho hs
  have hlive := word_live (P - s) s ho hs (by omega)
  have hsz := word_size (P - s) s hs
  have hoff := word_offset (P - s) s ho hs
  have hsub : sub32 P 12 = P - 12 := sub32_le (by omega)
  have halloc : allocate sort (init P) s P = some
      ({ header := { slot_count := 1, first_free_slot := 1, data_start := P - s,
                     free_space := P - 12 - (s + 8) },
         slots := fun i => if i = 0 then word (P - s) s else 0,
         data := memset0 (fun _ => 0) (P - s) s }, 0) := by
    have h1 : u32 (P - 12) = P - 12 := u32_small (by omega)
    have h2 : u32 (P - 12 - (s + 8)) = P - 12 - (s + 8) := u32_small (by omega)
    have h3 : ¬ (P - 12 < s + 8) := by omega
    have h4 : P - 12 ≥ s + 8 := by omega
    have h5 : P ≥ 0 * 8 + 12 := by omega
    have h6 : P ≥ s := by omega
    simp only [allocate, init, Header.init, hsub, sizeofSlot, sizeofHeader, u16, makeRoom,
      get_continuous_free_space, placeSlot, setSlotWord, hw, h1, h2, h3, h4, h5, h6,
      Nat.zero_add, Nat.reduceMod, ↓reduceIte, ge_iff_le, Nat.zero_mul, Nat.sub_zero,
      Nat.reduceAdd]
    rfl
  refine ⟨_, halloc, ?_⟩
  have hr : Slot.is_redirect (word (P - s) s) = false := by
    have := hlive
    unfold isLive at this
    simp only [Bool.and_eq_true, Bool.not_eq_true'] at this
    exact this.1
  have he : Slot.is_empty (word (P - s) s) = false := by
    have := hlive
    unfold isLive at this
    simp only [Bool.and_eq_true, Bool.not_eq_true'] at this
    exact this.2
  have h1 : u32 (P - 12 - (s + 8) + s) = P - 12 - (s + 8) + s := u32_small (by omega)
  have h2 : u32 (P - s + s) = P - s + s := u32_small (by omega)
  have h3 : u32 (P - 12 - (s + 8) + s + 8) = P - 12 := by
    rw [u32_small (by omega)]
    omega
  have h4 : P - s + s = P := by omega
  refine ⟨{ header := Header.init P, slots := fun i => if i = 0 then Slot.EMPTY_NON_REDIRECT_SLOT
      else if i = 0 then word (P - s) s else 0, data := memset0 (fun _ => 0) (P - s) s },
    ?_, rfl, rfl, rfl, rfl, ?_⟩
  · simp only [erase, setSlotWord, trimSlots, hr, he, hsz, hoff, h1, h2, h3, h4, sizeofSlot,
      Header.init, hsub, empty_is_empty, ↓reduceIte, Nat.lt_one_iff, Nat.zero_lt_one,
      Bool.false_eq_true, ge_iff_le, le_refl, Nat.sub_self, and_self, Nat.pos_of_ne_zero,
      Nat.lt_irrefl]
    have h5 : u32 P = P := u32_small (by omega)
    have h6 : sub32 P sizeofHeader = P - 12 := hsub
    rw [h5, h6]
  · show sub32 P sizeofHeader = P - sizeofHeader
    exact sub32_le (by unfold sizeofHeader; omega)

/-- C29, amended, for the full-size record of 44 bytes on a page of 64 bytes. -/
theorem allocate_erase_restores_header_witness :
    44 + sizeofSlot ≤ 64 - sizeofHeader ∧
    ∃ p, allocate insertionSorter (init 64) 44 64 = some (p, 0) ∧
      ∃ p1, erase p 0 = some p1 ∧ p1.header = Header.init 64 ∧
        p1.header.slot_count = 0 ∧ p1.header.first_free_slot = 0 ∧
        p1.header.data_start = 64 ∧ p1.header.free_space = 64 - sizeofHeader :=
  ⟨by decide, allocate_erase_restores_header insertionSorter 64 44 (by decide) (by decide)
    (by decide)⟩

end SlottedPage

/-! ## Slotted pages: `first_free_slot` after a reuse -/

namespace SlottedPage

/-- C38. On a page of 128 bytes, five records of one byte are allocated, slots
1, 2 and 3 are erased and one more record is allocated: every call meets its
precondition and no assertion fails. The new record takes slot 1, and the loop
that looks for the next free slot leaves `first_free_slot = 3` although slot 2
is empty too, so `first_free_slot` is not the smallest index of an empty slot.
When the last record (slot 4) is erased next, the empty slots 4, 3 and 2 are
given back, `slot_count` becomes 2 and `first_free_slot` stays 3, above
`slot_count`; the following `allocate`, for which the page has 98 free bytes,
fails its assertion `first_free_slot < slot_count`. -/
theorem first_free_slot_skips_empty_slot :
    (run insertionSorter 128 (init 128) reuseCalls).isSome = true ∧
    (allocate insertionSorter
        ((run insertionSorter 128 (init 128) (reuseCalls.take 8)).getD (init 128)) 1 128).map
      (fun r => r.2) = some 1 ∧
    reusedPage.header.slot_count = 5 ∧
    reusedPage.header.first_free_slot = 3 ∧
    Slot.is_empty (reusedPage.slots 2) = true ∧
    firstEmptySlot reusedPage = 2 ∧
    (erase reusedPage 4).isSome = true ∧
    trimmedPage.header.slot_count = 2 ∧
    trimmedPage.header.first_free_slot = 3 ∧
    firstEmptySlot trimmedPage = 2 ∧
    trimmedPage.header.free_space = 98 ∧
    (allocate insertionSorter trimmedPage 1 128).isNone = true := by
  refine ⟨?_, ?_, ?_, ?_, ?_, ?_, ?_, ?_, ?_, ?_, ?_, ?_⟩ <;> decide
end SlottedPage

/-! ## Slotted pages: what `compactify` does to the payloads -/

namespace SlottedPage

end SlottedPage

namespace SlottedPage

end SlottedPage

namespace SlottedPage

end SlottedPage

namespace SlottedPage

end SlottedPage

/-! ## Slotted-page segment: what the segment does to one page -/

namespace SlottedPage

theorem testBit_target_mask (i : Nat) :
    (0xFF00FFFFFFFFFFFF : Nat).testBit i =
      (decide (i < 48) || (decide (56 ≤ i) && decide (i < 64))) := by
  have e : (0xFF00FFFFFFFFFFFF : Nat) = 2 ^ 56 * (2 ^ 8 - 1) + (2 ^ 48 - 1) := by norm_num
  rw [e, Nat.testBit_mul_pow_two_add _ (by norm_num : 2 ^ 48 - 1 < 2 ^ 56)]
  by_cases h2 : i < 56
  · rw [if_pos h2, Nat.testBit_two_pow_sub_one]
    have : ¬ 56 ≤ i := by omega
    simp only [this, decide_False, Bool.false_and, Bool.or_false]
  · have a : 56 ≤ i := by omega
    have h1 : ¬ i < 48 := by omega
    rw [if_neg h2, Nat.testBit_two_pow_sub_one]
    simp only [h1, decide_False, a, decide_True, Bool.true_and, Bool.false_or]
    congr 1
    apply propext
    omega

theorem testBit_byte (j : Nat) : (0xFF : Nat).testBit j = decide (j < 8) := by
  have e : (0xFF : Nat) = 2 ^ 8 - 1 := by norm_num
  rw [e, Nat.testBit_two_pow_sub_one]

theorem mark_compose (f o s : Nat) (hf : f < 2 ^ 8) (ho : o < 2 ^ 24) (hs : s < 2 ^ 24) :
    Slot.mark_as_redirect_target (compose 255 f o s) true = compose 255 255 o s := by
  apply Nat.eq_of_testBit_eq
  intro i
  unfold Slot.mark_as_redirect_target
  simp only [↓reduceIte, Nat.testBit_xor, Nat.testBit_and, Nat.testBit_shiftLeft,
    testBit_target_mask, testBit_byte, testBit_compose _ _ _ _ i hf ho hs,
    testBit_compose _ _ _ _ i (by norm_num : 255 < 2 ^ 8) ho hs]
  by_cases h1 : i < 24
  · have a1 : i < 48 := by omega
    have a2 : ¬ i ≥ 48 := by omega
    simp only [h1, a1, a2, ↓reduceIte, decide_True, decide_False, Bool.true_or, Bool.and_true,
      Bool.false_and, Bool.xor_false]
  · by_cases h2 : i < 48
    · have a2 : ¬ i ≥ 48 := by omega
      simp only [h1, h2, a2, ↓reduceIte, decide_True, decide_False, Bool.true_or, Bool.and_true,
        Bool.false_and, Bool.xor_false]
    · have a2 : i ≥ 48 := by omega
      by_cases h3 : i < 56
      · have a3 : ¬ 56 ≤ i := by omega
        have a4 : i - 48 < 8 := by omega
        simp only [h1, h2, h3, a2, a3, a4, ↓reduceIte, decide_True, decide_False,
          Bool.false_and, Bool.or_false, Bool.and_false, Bool.true_and, Bool.false_xor]
      · have a3 : 56 ≤ i := by omega
        have a4 : ¬ i - 48 < 8 := by omega
        by_cases h4 : i < 64
        · simp only [h1, h2, h3, a2, a3, a4, h4, ↓reduceIte, decide_True, decide_False,
            Bool.false_or, Bool.and_true, Bool.true_and, Bool.and_false, Bool.xor_false]
        · have a5 : ¬ i - 56 < 8 := by omega
          simp only [h1, h2, h3, a2, a3, a4, h4, a5, ↓reduceIte, decide_True, decide_False,
            Bool.false_or, Bool.and_false, Bool.true_and, Bool.xor_false]

theorem mark_normal {P ds v : Nat} (hP : P < 2 ^ 24) (h : Normal P ds v) :
    Normal P ds (Slot.mark_as_redirect_target v true) ∧
      Slot.get_size (Slot.mark_as_redirect_target v true) = Slot.get_size v ∧
      Slot.get_offset (Slot.mark_as_redirect_target v true) = Slot.get_offset v := by
  obtain ⟨hb1, hb2⟩ := normal_bounds hP h
  obtain ⟨⟨f, hf, hv⟩, n2, n3, n4⟩ := h
  have e : Slot.mark_as_redirect_target v true =
      compose 255 255 (Slot.get_offset v) (Slot.get_size v) := by
    conv_lhs => rw [hv]
    exact mark_compose _ _ _ hf hb1 hb2
  have e1 : Slot.get_offset (Slot.mark_as_redirect_target v true) = Slot.get_offset v := by
    rw [e]; exact record_offset _ _ _ hb1 hb2
  have e2 : Slot.get_size (Slot.mark_as_redirect_target v true) = Slot.get_size v := by
    rw [e]; exact record_size _ _ _ hb2
  refine ⟨⟨⟨255, by norm_num, ?_⟩, ?_, ?_, ?_⟩, e2, e1⟩
  · rw [e1, e2]; exact e
  · rw [e1]; exact n2
  · rw [e1, e2]; exact n3
  · rw [e1, e2]; exact n4

theorem mark_redirect {v : Nat} (h : Slot.is_redirect v = true) (hv : v < 2 ^ 64) :
    Slot.is_redirect (Slot.mark_as_redirect_target v true) = true ∧
      Slot.mark_as_redirect_target v true < 2 ^ 64 := by
  have hbits : ∀ i, 56 ≤ i → (Slot.mark_as_redirect_target v true).testBit i = v.testBit i := by
    intro i hi
    unfold Slot.mark_as_redirect_target
    simp only [↓reduceIte, Nat.testBit_xor, Nat.testBit_and, Nat.testBit_shiftLeft,
      testBit_target_mask, testBit_byte]
    have a1 : ¬ i < 48 := by omega
    have a2 : i ≥ 48 := by omega
    have a3 : ¬ i - 48 < 8 := by omega
    by_cases h4 : i < 64
    · simp only [a1, a2, a3, hi, h4, decide_True, decide_False, Bool.false_or, Bool.and_true,
        Bool.true_and, Bool.and_false, Bool.xor_false]
    · simp only [a1, a2, a3, hi, h4, decide_True, decide_False, Bool.false_or, Bool.and_false,
        Bool.true_and, Bool.xor_false]
      exact (Nat.testBit_lt_two_pow (lt_of_lt_of_le hv
        (Nat.pow_le_pow_right (by norm_num) (by omega)))).symm
  constructor
  · unfold Slot.is_redirect at h ⊢
    have : Slot.mark_as_redirect_target v true >>> 56 = v >>> 56 := by
      apply Nat.eq_of_testBit_eq
      intro j
      rw [Nat.testBit_shiftRight, Nat.testBit_shiftRight]
      exact hbits _ (by omega)
    rw [this]
    exact h
  · apply Nat.lt_pow_two_of_testBit
    intro i hi
    rw [hbits i (by omega)]
    exact Nat.testBit_lt_two_pow (lt_of_lt_of_le hv (Nat.pow_le_pow_right (by norm_num) hi))

theorem inv_congr {P : Nat} {p q : SlottedPage} (hinv : Inv P p) (hh : q.header = p.header)
    (hs : ∀ i, i < p.header.slot_count → q.slots i = p.slots i) : Inv P q := by
  have hu : usedBytes q = usedBytes p := by
    rw [usedBytes_eq, usedBytes_eq, hh]
    exact sum_range_congr _ _ _ (fun i hi => by rw [hs i hi])
  refine ⟨?_, ?_, ?_, ?_, ?_, ?_⟩
  · rw [hu, hh]; exact hinv.acct
  · rw [hh]; exact hinv.ds_lo
  · rw [hh]; exact hinv.ds_hi
  · intro i hi
    rw [hh] at hi ⊢
    rw [hs i hi]; exact hinv.slots i hi
  · intro i j hi hj
    rw [hh] at hi hj
    rw [hs i hi, hs j hj]; exact hinv.disj i j hi hj
  · intro hlt
    rw [hh] at hlt ⊢
    rw [hs _ hlt]; exact hinv.ffs hlt

/-- Replacing a slot that is not live by a word of the same kind keeps the invariant;
`kind` says the new word is a redirect or a record of the same size and offset. -/
theorem inv_reword {P : Nat} (hP : P < 2 ^ 24) {p q : SlottedPage} {k w : Nat} (hinv : Inv P p)
    (hh : q.header = p.header)
    (hs : ∀ i, q.slots i = if i = k then w else p.slots i)
    (hkind : k < p.header.slot_count →
      (Slot.is_redirect (p.slots k) = true ∧ Slot.is_redirect w = true ∧ w < 2 ^ 64) ∨
      (Normal P p.header.data_start (p.slots k) ∧ Normal P p.header.data_start w ∧
        Slot.get_size w = Slot.get_size (p.slots k) ∧
        Slot.get_offset w = Slot.get_offset (p.slots k))) : Inv P q := by
  by_cases hk : k < p.header.slot_count
  · have hsk : q.slots k = w := by rw [hs]; simp
    have hso : ∀ i, i ≠ k → q.slots i = p.slots i := by
      intro i hi; rw [hs]; simp [hi]
    have hls : liveSize (q.slots k) = liveSize (p.slots k) := by
      rw [hsk]
      rcases hkind hk with ⟨h1, h2, _⟩ | ⟨h1, h2, h3, _⟩
      · rw [redirect_liveSize h1, redirect_liveSize h2]
      · rw [normal_liveSize hP h1, normal_liveSize hP h2, h3]
    have hlv : isLive (q.slots k) = isLive (p.slots k) := by
      rw [hsk]
      rcases hkind hk with ⟨h1, h2, _⟩ | ⟨h1, h2, _, _⟩
      · rw [redirect_not_live h1, redirect_not_live h2]
      · rw [normal_live hP h1, normal_live hP h2]
    have hne : p.slots k ≠ Slot.EMPTY_NON_REDIRECT_SLOT := by
      intro he
      rcases hkind hk with ⟨h1, _, _⟩ | ⟨h1, _, _, _⟩
      · rw [he] at h1
        revert h1
        decide
      · exact live_not_empty (normal_live hP h1) he
    have hgeo : isLive (p.slots k) = true →
        Slot.get_size (q.slots k) = Slot.get_size (p.slots k) ∧
        Slot.get_offset (q.slots k) = Slot.get_offset (p.slots k) := by
      intro hl
      rw [hsk]
      rcases hkind hk with ⟨h1, _, _⟩ | ⟨_, _, h3, h4⟩
      · rw [redirect_not_live h1] at hl
        simp at hl
      · exact ⟨h3, h4⟩
    have hall : ∀ i, liveSize (q.slots i) = liveSize (p.slots i) ∧
        isLive (q.slots i) = isLive (p.slots i) ∧
        (isLive (p.slots i) = true →
          Slot.get_size (q.slots i) = Slot.get_size (p.slots i) ∧
          Slot.get_offset (q.slots i) = Slot.get_offset (p.slots i)) := by
      intro i
      by_cases hik : i = k
      · rw [hik]; exact ⟨hls, hlv, hgeo⟩
      · rw [hso i hik]; exact ⟨rfl, rfl, fun _ => ⟨rfl, rfl⟩⟩
    refine ⟨?_, ?_, ?_, ?_, ?_, ?_⟩
    · have hu : usedBytes q = usedBytes p := by
        rw [usedBytes_eq, usedBytes_eq, hh]
        exact sum_range_congr _ _ _ (fun i _ => (hall i).1)
      rw [hu, hh]; exact hinv.acct
    · rw [hh]; exact hinv.ds_lo
    · rw [hh]; exact hinv.ds_hi
    · intro i hi
      rw [hh] at hi ⊢
      by_cases hik : i = k
      · rw [hik, hsk]
        rcases hkind hk with ⟨_, h2, h3⟩ | ⟨_, h2, _, _⟩
        · exact Or.inr (Or.inr ⟨h2, h3⟩)
        · exact Or.inr (Or.inl h2)
      · rw [hso i hik]; exact hinv.slots i hi
    · intro i j hi hj hij hli hlj hpi hpj
      rw [hh] at hi hj
      rw [(hall i).2.1] at hli
      rw [(hall j).2.1] at hlj
      obtain ⟨i1, i2⟩ := (hall i).2.2 hli
      obtain ⟨j1, j2⟩ := (hall j).2.2 hlj
      rw [i1] at hpi
      rw [j1] at hpj
      rw [i1, i2, j1, j2]
      exact hinv.disj i j hi hj hij hli hlj hpi hpj
    · intro hlt
      rw [hh] at hlt ⊢
      have he := hinv.ffs hlt
      have : p.header.first_free_slot ≠ k := by
        intro hfk
        rw [hfk] at he
        exact hne he
      rw [hso _ this]; exact he
  · exact inv_congr hinv hh (fun i hi => by
      rw [hs]
      rw [if_neg (by omega)])

/-- A record becomes a redirect: its bytes return to `free_space`. -/
theorem inv_redirect {P : Nat} (hP : P < 2 ^ 24) {p q : SlottedPage} {k w : Nat}
    (hinv : Inv P p) (hk : k < p.header.slot_count)
    (hnk : Normal P p.header.data_start (p.slots k))
    (hw : Slot.is_redirect w = true) (hw64 : w < 2 ^ 64)
    (hh : q.header = { p.header with
      free_space := p.header.free_space + Slot.get_size (p.slots k) })
    (hs : ∀ i, q.slots i = if i = k then w else p.slots i) : Inv P q := by
  have hl := normal_live hP hnk
  have hsk : q.slots k = w := by rw [hs]; simp
  have hso : ∀ i, i ≠ k → q.slots i = p.slots i := by
    intro i hi; rw [hs]; simp [hi]
  have hlive : ∀ i, isLive (q.slots i) = true → i ≠ k := by
    intro i hi hik
    rw [hik, hsk, redirect_not_live hw] at hi
    simp at hi
  have hc : q.header.slot_count = p.header.slot_count := by rw [hh]
  have hd : q.header.data_start = p.header.data_start := by rw [hh]
  have hfs : q.header.first_free_slot = p.header.first_free_slot := by rw [hh]
  have hf : q.header.free_space = p.header.free_space + Slot.get_size (p.slots k) := by rw [hh]
  refine ⟨?_, ?_, ?_, ?_, ?_, ?_⟩
  · rw [usedBytes_eq, hc, hf]
    have h1 := sum_range_update p.header.slot_count k (fun i => liveSize (p.slots i)) 0 hk
    beta_reduce at h1
    have h2 : ((List.range p.header.slot_count).map (fun i => liveSize (q.slots i))).sum =
        ((List.range p.header.slot_count).map (fun i =>
          if i = k then 0 else liveSize (p.slots i))).sum := by
      apply sum_range_congr
      intro i _
      show liveSize (q.slots i) = _
      by_cases hik : i = k
      · rw [if_pos hik, hik, hsk, redirect_liveSize hw]
      · rw [if_neg hik, hso i hik]
    rw [h2]
    rw [normal_liveSize hP hnk] at h1
    have := hinv.acct
    rw [usedBytes_eq] at this
    omega
  · rw [hc, hd]; exact hinv.ds_lo
  · rw [hd]; exact hinv.ds_hi
  · intro i hi
    rw [hc] at hi
    rw [hd]
    by_cases hik : i = k
    · rw [hik, hsk]; exact Or.inr (Or.inr ⟨hw, hw64⟩)
    · rw [hso i hik]; exact hinv.slots i hi
  · intro i j hi hj hij hli hlj
    rw [hc] at hi hj
    have hik := hlive i hli
    have hjk := hlive j hlj
    rw [hso i hik] at hli ⊢
    rw [hso j hjk] at hlj ⊢
    exact hinv.disj i j hi hj hij hli hlj
  · intro hlt
    rw [hfs, hc] at hlt
    have he := hinv.ffs hlt
    have : p.header.first_free_slot ≠ k := by
      intro hfk
      rw [hfk] at he
      exact live_not_empty hl he
    rw [hfs, hso _ this]; exact he

theorem trimSlots_slots (fuel : Nat) (q : SlottedPage) : (trimSlots q fuel).slots = q.slots := by
  induction fuel generalizing q with
  | zero => rfl
  | succ n ih =>
    unfold trimSlots
    split
    · rw [ih]
    · rfl

theorem erase_slots {p p1 : SlottedPage} {k : Nat} (h : erase p k = some p1) :
    Slot.is_redirect (p.slots k) = false ∧ ∀ i, i ≠ k → p1.slots i = p.slots i := by
  unfold erase at h
  split at h
  · simp only at h
    split at h
    · simp at h
    · rename_i hr
      split at h
      · simp at h
      · refine ⟨by simpa using hr, ?_⟩
        intro i hi
        generalize hq : setSlotWord _ k Slot.EMPTY_NON_REDIRECT_SLOT = q at h
        have q5 : q.slots i = p.slots i := by
          rw [← hq]; simp only [setSlotWord, hi, ↓reduceIte]
        split at h
        · simp only [Option.some.injEq] at h
          rw [← h, trimSlots_slots, q5]
        · simp only [Option.some.injEq] at h
          rw [← h, q5]
  · simp at h

theorem mock_facts :
    Slot.is_empty (Slot.set_offset Slot.EMPTY_NON_REDIRECT_SLOT 1) = false ∧
    Slot.is_redirect (Slot.set_offset Slot.EMPTY_NON_REDIRECT_SLOT 1) = false ∧
    Slot.get_size (Slot.set_offset Slot.EMPTY_NON_REDIRECT_SLOT 1) = 0 ∧
    Slot.get_offset (Slot.set_offset Slot.EMPTY_NON_REDIRECT_SLOT 1) = 1 := by
  decide

/-- The redirected slot of `resize` that comes back to its page: the slot is
mocked up as a record of size 0 at offset 1 and `relocate` places it. -/
theorem relocate_mock_inv (sort : Sorter) (hsort : IsSort sort) (P : Nat) (hP : P < 2 ^ 24)
    (q q2 : SlottedPage) (k size : Nat) (hinv : Inv P q)
    (hr : Slot.is_redirect (q.slots k) = true)
    (h : relocate sort (setSlotWord q k (Slot.set_offset Slot.EMPTY_NON_REDIRECT_SLOT 1)) k size P =
      some q2) : Inv P q2 := by
  obtain ⟨m1, m2, m3, m4⟩ := mock_facts
  unfold relocate at h
  have hsk : (setSlotWord q k (Slot.set_offset Slot.EMPTY_NON_REDIRECT_SLOT 1)).slots k =
      Slot.set_offset Slot.EMPTY_NON_REDIRECT_SLOT 1 := by
    simp only [setSlotWord, ↓reduceIte]
  simp only [hsk, m1, m2, m3, m4] at h
  split at h
  · rename_i hk
    have hk1 : k < q.header.slot_count := hk
    simp only [Bool.false_eq_true, ↓reduceIte, false_and, and_self] at h
    split at h
    · rename_i hfree
      have hfree1 : size ≤ q.header.free_space := hfree
      unfold regrow at h
      have hds := hinv.ds_lo
      have hne : ¬ (1 = (setSlotWord q k
          (Slot.set_offset Slot.EMPTY_NON_REDIRECT_SLOT 1)).header.data_start) := by
        show ¬ (1 = q.header.data_start)
        omega
      simp only [hne, ↓reduceIte] at h
      generalize hq : setSlotWord _ k Slot.EMPTY_NON_REDIRECT_SLOT = q1 at h
      have qh : q1.header = q.header := by rw [← hq]; rfl
      have q5 : ∀ i, q1.slots i = if i = k then Slot.EMPTY_NON_REDIRECT_SLOT else q.slots i := by
        intro i
        rw [← hq]; simp only [setSlotWord]
        split <;> rfl
      have hinvq : Inv P q1 := inv_unredirect P q q1 k hinv hr qh q5
      apply regrow_core sort hsort P hP q1 q2 k _ size _ hinvq (by rw [qh]; exact hk1)
        (by rw [q5]; simp) (by rw [qh]; exact hfree1) ?_ h
      intro hlt
      rw [qh] at hlt ⊢
      intro hh
      have := hinv.ffs hlt
      rw [hh] at this
      rw [this] at hr
      revert hr
      decide
    · simp at h
  · simp at h

theorem allocate_free (sort : Sorter) (hsort : IsSort sort) (P : Nat) (hP : P < 524300)
    (p : SlottedPage) (hinv : Inv P p) (size : Nat) (r : SlottedPage × Nat)
    (h : allocate sort p size P = some r) :
    p.header.free_space ≤ r.1.header.free_space + size + 8 ∧
      size + 8 ≤ p.header.free_space + 8 := by
  have hP24 : P < 2 ^ 24 := by omega
  have hacct := hinv.acct
  unfold allocate at h
  simp only [sizeofSlot] at h
  split at h
  · rename_i hfc
    split at h
    · rename_i hfree
      have hfree1 : size + 8 ≤ p.header.free_space := hfree
      have hc : p.header.slot_count + 1 < 2 ^ 16 := by omega
      have hinv1 : Inv P ({ p with header := { p.header with
          first_free_slot := u16 (p.header.first_free_slot + 1) } } : SlottedPage) := by
        refine ⟨hinv.acct, hinv.ds_lo, hinv.ds_hi, hinv.slots, hinv.disj, ?_⟩
        intro hlt
        have hlt1 : u16 (p.header.first_free_slot + 1) < p.header.slot_count := hlt
        rw [hfc, u16_small hc] at hlt1
        omega
      cases hm : makeRoom sort ({ p with header := { p.header with
          first_free_slot := u16 (p.header.first_free_slot + 1) } } : SlottedPage)
          (size + 8) P with
      | none => rw [hm] at h; simp at h
      | some p2 =>
        rw [hm] at h
        simp only at h
        obtain ⟨b1, b2, b3, b4, b5, b6, b7⟩ := makeRoom_spec sort hsort P hP24 _ p2 _ hinv1 hm
        have b4a : p2.header.free_space = p.header.free_space := b4
        have hds2 := b1.ds_hi
        obtain ⟨c1, c2, c3, c4⟩ := placeSlot_shape (by show p2.header.data_start < 2 ^ 24; omega) h
        rw [c3]
        show p.header.free_space ≤ u32 (p2.header.free_space - (size + 8)) + size + 8 ∧ _
        rw [u32_small (by rw [b4a]; omega), b4a]
        omega
    · simp at h
  · rename_i hfc
    split at h
    · rename_i hlt
      cases hm : makeRoom sort p size P with
      | none => rw [hm] at h; simp at h
      | some p2 =>
        rw [hm] at h
        simp only at h
        obtain ⟨b1, b2, b3, b4, b5, b6, b7⟩ := makeRoom_spec sort hsort P hP24 _ p2 _ hinv hm
        split at h
        · rename_i hfree
          have hfree1 : size ≤ p.header.free_space := by rw [← b4]; exact hfree
          have hds2 := b1.ds_hi
          obtain ⟨c1, c2, c3, c4⟩ :=
            placeSlot_shape (by show p2.header.data_start < 2 ^ 24; omega) h
          rw [c3]
          show p.header.free_space ≤ (p2.header.free_space - size) + size + 8 ∧ _
          rw [b4]
          omega
        · simp at h
    · simp at h

end SlottedPage

/-! ## The free-space inventory -/

namespace FSISegment

open SlottedPage

theorem nibble_hi : ∀ x, x < 16 → ∀ y, y < 16 →
    (((x <<< 4) + y) % 256) >>> 4 = x ∧ (((x <<< 4) + y) % 256) &&& 0x0f = y ∧
    (((x <<< 4) ||| y) % 256) >>> 4 = x ∧ (((x <<< 4) ||| y) % 256) &&& 0x0f = y := by
  decide

set_option maxRecDepth 100000 in
theorem nibble_lo : ∀ old, old < 256 → ∀ x, x < 16 →
    (((old &&& 0xf0) + x) % 256) >>> 4 = old >>> 4 ∧ (((old &&& 0xf0) + x) % 256) &&& 0x0f = x ∧
    (((old &&& 0xf0) ||| x) % 256) >>> 4 = old >>> 4 ∧
    (((old &&& 0xf0) ||| x) % 256) &&& 0x0f = x := by
  decide

theorem encodeFrom_le (P x i : Nat) : encodeFrom P x i ≤ i := by
  induction i with
  | zero => exact le_refl _
  | succ n ih =>
    unfold encodeFrom
    split
    · exact le_refl _
    · omega

theorem encode_lt (P x : Nat) : encode_free_space P x < 16 := by
  have := encodeFrom_le P x 15
  unfold encode_free_space
  omega

theorem decode_encodeFrom (P x i : Nat) : look_up_table P (encodeFrom P x i) ≤ x := by
  induction i with
  | zero =>
    show look_up_table P 0 ≤ x
    simp [look_up_table]
  | succ n ih =>
    unfold encodeFrom
    split
    · rename_i h
      exact h
    · exact ih

theorem decode_encode (P x : Nat) : decode_free_space P (encode_free_space P x) ≤ x :=
  decode_encodeFrom P x 15

/-- The entry of page `n` after one byte of the inventory was written. -/
theorem entry_setEntryByte (s : Segments) (pg b v n : Nat) :
    entry (s.setEntryByte pg b v) n =
      if n / (s.page_size <<< 1) = pg ∧ (n % (s.page_size <<< 1)) >>> 1 = b then
        (if (n % (s.page_size <<< 1)) &&& 1 = 0 then v >>> 4 else v &&& 0x0f)
      else entry s n := by
  unfold entry Segments.setEntryByte
  simp only
  by_cases hc : n / (s.page_size <<< 1) = pg ∧ (n % (s.page_size <<< 1)) >>> 1 = b
  · rw [if_pos hc, if_pos hc]
  · rw [if_neg hc, if_neg hc]

/-- Two pages that share a byte of the inventory and a half of it are the same page. -/
theorem same_entry {P n t : Nat} (h1 : n / (P <<< 1) = t / (P <<< 1))
    (h2 : (n % (P <<< 1)) >>> 1 = (t % (P <<< 1)) >>> 1)
    (h3 : (n % (P <<< 1)) &&& 1 = (t % (P <<< 1)) &&& 1) : n = t := by
  rw [Nat.shiftRight_eq_div_pow, Nat.shiftRight_eq_div_pow] at h2
  rw [Nat.and_one_is_mod, Nat.and_one_is_mod] at h3
  have a := Nat.div_add_mod n (P <<< 1)
  have b := Nat.div_add_mod t (P <<< 1)
  rw [h1] at a
  have c : n % (P <<< 1) = t % (P <<< 1) := by
    have c1 := Nat.div_add_mod (n % (P <<< 1)) 2
    have c2 := Nat.div_add_mod (t % (P <<< 1)) 2
    simp only [pow_one] at h2
    omega
  omega

/-- Writing the half byte of page `t` leaves every other entry alone. -/
theorem entry_put (s : Segments) (t x v : Nat)
    (hbytes : ∀ pg i, s.fsi pg i < 256) (hv : v < 256)
    (hhi : (t % (s.page_size <<< 1)) &&& 1 = 0 → v >>> 4 = x ∧
      v &&& 0x0f = s.fsi (t / (s.page_size <<< 1)) ((t % (s.page_size <<< 1)) >>> 1) &&& 0x0f)
    (hlo : ¬ (t % (s.page_size <<< 1)) &&& 1 = 0 → v &&& 0x0f = x ∧
      v >>> 4 = s.fsi (t / (s.page_size <<< 1)) ((t % (s.page_size <<< 1)) >>> 1) >>> 4) :
    entry (s.setEntryByte (t / (s.page_size <<< 1)) ((t % (s.page_size <<< 1)) >>> 1) v) t = x ∧
    (∀ n, n ≠ t →
      entry (s.setEntryByte (t / (s.page_size <<< 1)) ((t % (s.page_size <<< 1)) >>> 1) v) n =
        entry s n) ∧
    (∀ pg i,
      (s.setEntryByte (t / (s.page_size <<< 1)) ((t % (s.page_size <<< 1)) >>> 1) v).fsi pg i <
        256) := by
  refine ⟨?_, ?_, ?_⟩
  · rw [entry_setEntryByte, if_pos ⟨rfl, rfl⟩]
    by_cases hp : (t % (s.page_size <<< 1)) &&& 1 = 0
    · rw [if_pos hp]; exact (hhi hp).1
    · rw [if_neg hp]; exact (hlo hp).1
  · intro n hn
    rw [entry_setEntryByte]
    split
    · rename_i hsame
      have hpar : (n % (s.page_size <<< 1)) &&& 1 ≠ (t % (s.page_size <<< 1)) &&& 1 :=
        fun h3 => hn (same_entry hsame.1 hsame.2 h3)
      have hn2 : (n % (s.page_size <<< 1)) &&& 1 = 0 ∨ (n % (s.page_size <<< 1)) &&& 1 = 1 := by
        rw [Nat.and_one_is_mod]; omega
      have ht2 : (t % (s.page_size <<< 1)) &&& 1 = 0 ∨ (t % (s.page_size <<< 1)) &&& 1 = 1 := by
        rw [Nat.and_one_is_mod]; omega
      unfold entry
      simp only
      rw [hsame.1, hsame.2]
      by_cases hp : (t % (s.page_size <<< 1)) &&& 1 = 0
      · have hnp : ¬ (n % (s.page_size <<< 1)) &&& 1 = 0 := by omega
        rw [if_neg hnp, if_neg hnp]
        exact (hhi hp).2
      · have hnp : (n % (s.page_size <<< 1)) &&& 1 = 0 := by omega
        rw [if_pos hnp, if_pos hnp]
        exact (hlo hp).2
    · rfl
  · intro pg i
    unfold Segments.setEntryByte
    simp only
    split
    · exact hv
    · exact hbytes pg i

theorem update_spec (s s1 : Segments) (t free : Nat) (h0 : 0 < s.page_size)
    (hP : s.page_size < 2 ^ 24)
    (hbytes : ∀ pg i, s.fsi pg i < 256) (h : update s t free = some s1) :
    t < s.allocated_slotted_pages ∧ s1.pages = s.pages ∧ s1.page_size = s.page_size ∧
      s1.allocated_slotted_pages = s.allocated_slotted_pages ∧
      s1.allocated_fsi_pages = s.allocated_fsi_pages ∧
      entry s1 t = encode_free_space s.page_size free ∧
      (∀ n, n ≠ t → entry s1 n = entry s n) ∧ (∀ pg i, s1.fsi pg i < 256) := by
  unfold update at h
  split at h
  · simp at h
  · rename_i hlt
    have h2P : s.page_size <<< 1 < 2 ^ 32 := by
      rw [Nat.shiftLeft_eq]; omega
    have h2P0 : 0 < s.page_size <<< 1 := by
      rw [Nat.shiftLeft_eq]; omega
    have hu : u32 (t % (s.page_size <<< 1)) = t % (s.page_size <<< 1) :=
      u32_small (lt_trans (Nat.mod_lt _ h2P0) h2P)
    simp only [hu] at h
    have hx := encode_lt s.page_size free
    have hold := hbytes (t / (s.page_size <<< 1)) ((t % (s.page_size <<< 1)) >>> 1)
    have hy : s.fsi (t / (s.page_size <<< 1)) ((t % (s.page_size <<< 1)) >>> 1) &&& 0x0f < 16 :=
      lt_of_le_of_lt Nat.and_le_right (by norm_num)
    split at h
    · rename_i hp
      simp only [Option.some.injEq] at h
      obtain ⟨e1, e2, e3⟩ := entry_put s t (encode_free_space s.page_size free) _ hbytes
        (Nat.mod_lt _ (by norm_num))
        (fun _ => ⟨(nibble_hi _ hx _ hy).1, (nibble_hi _ hx _ hy).2.1⟩)
        (fun hn => absurd hp hn)
      rw [h] at e1 e2 e3
      rw [← h]
      refine ⟨by omega, rfl, rfl, rfl, rfl, ?_, ?_, ?_⟩
      · rw [h]; exact e1
      · rw [h]; exact e2
      · rw [h]; exact e3
    · rename_i hp
      simp only [Option.some.injEq] at h
      obtain ⟨e1, e2, e3⟩ := entry_put s t (encode_free_space s.page_size free) _ hbytes
        (Nat.mod_lt _ (by norm_num))
        (fun hn => absurd hn hp)
        (fun _ => ⟨(nibble_lo _ hold _ hx).2.1, (nibble_lo _ hold _ hx).1⟩)
      rw [h] at e1 e2 e3
      rw [← h]
      refine ⟨by omega, rfl, rfl, rfl, rfl, ?_, ?_, ?_⟩
      · rw [h]; exact e1
      · rw [h]; exact e2
      · rw [h]; exact e3

theorem entry_put_at (s : Segments) (t x v pg b : Nat)
    (hpg : t / (s.page_size <<< 1) = pg) (hb : (t % (s.page_size <<< 1)) >>> 1 = b)
    (hbytes : ∀ pg i, s.fsi pg i < 256) (hv : v < 256)
    (hhi : (t % (s.page_size <<< 1)) &&& 1 = 0 → v >>> 4 = x ∧
      v &&& 0x0f = s.fsi pg b &&& 0x0f)
    (hlo : ¬ (t % (s.page_size <<< 1)) &&& 1 = 0 → v &&& 0x0f = x ∧
      v >>> 4 = s.fsi pg b >>> 4) :
    entry (s.setEntryByte pg b v) t = x ∧
    (∀ n, n ≠ t → entry (s.setEntryByte pg b v) n = entry s n) ∧
    (∀ pg1 i, (s.setEntryByte pg b v).fsi pg1 i < 256) := by
  subst hpg hb
  exact entry_put s t x v hbytes hv hhi hlo

theorem entry_at (s : Segments) (t pg b : Nat)
    (hpg : t / (s.page_size <<< 1) = pg) (hb : (t % (s.page_size <<< 1)) >>> 1 = b) :
    entry s t = if (t % (s.page_size <<< 1)) &&& 1 = 0 then s.fsi pg b >>> 4
      else s.fsi pg b &&& 0x0f := by
  subst hpg hb
  rfl

/-- Where the half bytes of byte `b` of page `pg` of the inventory point. -/
theorem target_at (P pg b k : Nat) (hb : b < P) (hk : k < 2) :
    (pg * (P <<< 1) + (2 * b + k)) / (P <<< 1) = pg ∧
      ((pg * (P <<< 1) + (2 * b + k)) % (P <<< 1)) >>> 1 = b ∧
      ((pg * (P <<< 1) + (2 * b + k)) % (P <<< 1)) &&& 1 = k := by
  have e : P <<< 1 = 2 * P := by rw [Nat.shiftLeft_eq]; omega
  rw [e, Nat.shiftRight_eq_div_pow, Nat.and_one_is_mod]
  have h1 : 2 * b + k < 2 * P := by omega
  have h2 : (pg * (2 * P) + (2 * b + k)) % (2 * P) = 2 * b + k := by
    rw [Nat.mul_comm pg, Nat.mul_add_mod]
    exact Nat.mod_eq_of_lt h1
  have h3 : (pg * (2 * P) + (2 * b + k)) / (2 * P) = pg := by
    rw [Nat.mul_comm pg, Nat.mul_add_div (by omega)]
    rw [Nat.div_eq_of_lt h1]
    rfl
  rw [h2, h3]
  simp only [pow_one]
  refine ⟨trivial, ?_, ?_⟩ <;> omega

theorem findInPage_spec (s : Segments) (required pg num : Nat) (h0 : 0 < s.page_size)
    (hP : s.page_size < 2 ^ 24) (hbytes : ∀ pg i, s.fsi pg i < 256) :
    ∀ (len b sp : Nat), b + len ≤ s.page_size → sp = pg * (s.page_size <<< 1) + 2 * b →
      sp < num →
      (∀ s1 t, findInPage s required pg num (List.range' b len) sp = Scan.hit s1 t →
        Found s s1 t required ∧ t < num) ∧
      (∀ t, findInPage s required pg num (List.range' b len) sp = Scan.miss t →
        t = s.allocated_slotted_pages) ∧
      (∀ sp1, findInPage s required pg num (List.range' b len) sp = Scan.next sp1 →
        sp1 = pg * (s.page_size <<< 1) + 2 * (b + len) ∧ sp1 < num) := by
  intro len
  induction len with
  | zero =>
    intro b sp _ hsp hlt
    simp only [List.range'_zero, findInPage]
    refine ⟨fun _ _ h => by simp at h, fun _ h => by simp at h, ?_⟩
    intro sp1 h
    simp only [Scan.next.injEq] at h
    rw [← h]
    exact ⟨hsp, hlt⟩
  | succ len ih =>
    intro b sp hb hsp hlt
    have hbP : b < s.page_size := by omega
    have hs1 : u32 (b <<< 1) = 2 * b + 0 := by
      rw [Nat.shiftLeft_eq]
      rw [u32_small (by omega)]
      omega
    have hs2 : u32 ((b <<< 1) + 1) = 2 * b + 1 := by
      rw [Nat.shiftLeft_eq]
      rw [u32_small (by omega)]
      omega
    obtain ⟨a1, a2, a3⟩ := target_at s.page_size pg b 0 hbP (by norm_num)
    obtain ⟨c1, c2, c3⟩ := target_at s.page_size pg b 1 hbP (by norm_num)
    have hold := hbytes pg b
    have hy : s.fsi pg b &&& 0x0f < 16 := lt_of_le_of_lt Nat.and_le_right (by norm_num)
    simp only [List.range'_succ]
    rw [findInPage]
    simp only [hs1, hs2]
    by_cases h1 : decode_free_space s.page_size (s.fsi pg b >>> 4) ≥ required
    · simp only [h1, ↓reduceIte]
      refine ⟨?_, fun _ h => by simp at h, fun _ h => by simp at h⟩
      intro s1 t h
      simp only [Scan.hit.injEq] at h
      obtain ⟨hs, ht⟩ := h
      have hx := encode_lt s.page_size
        (decode_free_space s.page_size (s.fsi pg b >>> 4) - required)
      have hent := entry_at s _ pg b a1 a2
      rw [if_pos a3] at hent
      obtain ⟨e1, e2, e3⟩ := entry_put_at s (pg * (s.page_size <<< 1) + (2 * b + 0))
        (encode_free_space s.page_size
          (decode_free_space s.page_size (s.fsi pg b >>> 4) - required)) _ pg b a1 a2 hbytes
        (Nat.mod_lt _ (by norm_num))
        (fun _ => ⟨(nibble_hi _ hx _ hy).2.2.1, (nibble_hi _ hx _ hy).2.2.2⟩)
        (fun hn => absurd a3 hn)
      rw [hs, ht] at e1 e2
      rw [hs] at e3
      rw [ht] at hent
      refine ⟨⟨?_, ?_, ?_, ?_, ?_, ?_, e2, e3⟩, ?_⟩
      · rw [← hs]; rfl
      · rw [← hs]; rfl
      · rw [← hs]; rfl
      · rw [← hs]; rfl
      · rw [hent]; exact h1
      · rw [hent]; exact e1
      · rw [← ht]; omega
    · simp only [h1, ↓reduceIte]
      by_cases h2 : sp + 1 = num
      · simp only [h2, ↓reduceIte]
        refine ⟨fun _ _ h => by simp at h, ?_, fun _ h => by simp at h⟩
        intro t h
        simp only [Scan.miss.injEq] at h
        exact h.symm
      · simp only [h2, ↓reduceIte]
        by_cases h3 : decode_free_space s.page_size (s.fsi pg b &&& 0x0f) ≥ required
        · simp only [h3, ↓reduceIte]
          refine ⟨?_, fun _ h => by simp at h, fun _ h => by simp at h⟩
          intro s1 t h
          simp only [Scan.hit.injEq] at h
          obtain ⟨hs, ht⟩ := h
          have hx := encode_lt s.page_size
            (decode_free_space s.page_size (s.fsi pg b &&& 0x0f) - required)
          have hent := entry_at s _ pg b c1 c2
          have c3n : ¬ ((pg * (s.page_size <<< 1) + (2 * b + 1)) % (s.page_size <<< 1)) &&& 1 = 0 := by
            rw [c3]; norm_num
          rw [if_neg c3n] at hent
          obtain ⟨e1, e2, e3⟩ := entry_put_at s (pg * (s.page_size <<< 1) + (2 * b + 1))
            (encode_free_space s.page_size
              (decode_free_space s.page_size (s.fsi pg b &&& 0x0f) - required)) _ pg b c1 c2 hbytes
            (Nat.mod_lt _ (by norm_num))
            (fun hn => absurd hn c3n)
            (fun _ => ⟨(nibble_lo _ hold _ hx).2.2.2, (nibble_lo _ hold _ hx).2.2.1⟩)
          rw [hs, ht] at e1 e2
          rw [hs] at e3
          rw [ht] at hent
          refine ⟨⟨?_, ?_, ?_, ?_, ?_, ?_, e2, e3⟩, ?_⟩
          · rw [← hs]; rfl
          · rw [← hs]; rfl
          · rw [← hs]; rfl
          · rw [← hs]; rfl
          · rw [hent]; exact h3
          · rw [hent]; exact e1
          · rw [← ht]; omega
        · simp only [h3, ↓reduceIte]
          by_cases h4 : sp + 2 = num
          · simp only [h4, ↓reduceIte]
            refine ⟨fun _ _ h => by simp at h, ?_, fun _ h => by simp at h⟩
            intro t h
            simp only [Scan.miss.injEq] at h
            exact h.symm
          · simp only [h4, ↓reduceIte]
            have := ih (b + 1) (sp + 2) (by omega) (by omega) (by omega)
            have e : b + 1 + len = b + (len + 1) := by omega
            rw [e] at this
            exact this

theorem findPages_spec (s : Segments) (required num : Nat) (h0 : 0 < s.page_size)
    (hP : s.page_size < 2 ^ 24) (hbytes : ∀ pg i, s.fsi pg i < 256) :
    ∀ (len pg sp : Nat), sp = pg * (s.page_size <<< 1) → sp < num →
      ∀ r, findPages s required num (List.range' pg len) sp = some r →
        (r.2.1 = false → r.1 = s ∧ r.2.2 = s.allocated_slotted_pages) ∧
        (r.2.1 = true → Found s r.1 r.2.2 required ∧ r.2.2 < num) := by
  intro len
  induction len with
  | zero =>
    intro pg sp _ _ r h
    simp [findPages] at h
  | succ len ih =>
    intro pg sp hsp hlt r h
    simp only [List.range'_succ] at h
    rw [findPages] at h
    have hr : List.range s.page_size = List.range' 0 s.page_size := List.range_eq_range' _
    rw [hr] at h
    obtain ⟨f1, f2, f3⟩ := findInPage_spec s required pg num h0 hP hbytes s.page_size 0 sp
      (by omega) (by omega) hlt
    cases hf : findInPage s required pg num (List.range' 0 s.page_size) sp with
    | hit s1 t =>
      rw [hf] at h
      simp only [Option.some.injEq] at h
      rw [← h]
      exact ⟨fun hh => by simp at hh, fun _ => f1 s1 t hf⟩
    | miss t =>
      rw [hf] at h
      simp only [Option.some.injEq] at h
      rw [← h]
      exact ⟨fun _ => ⟨rfl, f2 t hf⟩, fun hh => by simp at hh⟩
    | next sp1 =>
      rw [hf] at h
      simp only at h
      obtain ⟨g1, g2⟩ := f3 sp1 hf
      apply ih (pg + 1) sp1 ?_ g2 r h
      rw [g1, Nat.shiftLeft_eq]
      ring

theorem find_spec (s : Segments) (required : Nat) (h0 : 0 < s.page_size)
    (hP : s.page_size < 2 ^ 24) (hbytes : ∀ pg i, s.fsi pg i < 256)
    (r : Segments × Bool × Nat) (h : find s required = some r) :
    (r.2.1 = false → r.1 = s ∧ r.2.2 = s.allocated_slotted_pages) ∧
      (r.2.1 = true → Found s r.1 r.2.2 required ∧ r.2.2 < s.allocated_slotted_pages) := by
  unfold find at h
  split at h
  · rename_i hc
    rw [List.range_eq_range'] at h
    exact findPages_spec s required _ h0 hP hbytes _ 0 0 (by omega) hc.1 r h
  · simp at h

end FSISegment

/-! ## The slotted-page segment keeps the inventory below the free space -/

namespace TID

theorem make_lt (page slot : Nat) : make page slot < 2 ^ 64 := by
  unfold make
  apply Nat.xor_lt_two_pow
  · exact Nat.mod_lt _ (by norm_num)
  · exact lt_of_le_of_lt Nat.and_le_right (by norm_num)

theorem page_make (page slot : Nat) (h : page < 2 ^ 48) :
    get_segment_page_id (make page slot) = page := by
  unfold get_segment_page_id make
  have h1 : page <<< 16 < 2 ^ 64 := by
    rw [Nat.shiftLeft_eq]
    omega
  rw [Nat.mod_eq_of_lt h1]
  apply Nat.eq_of_testBit_eq
  intro i
  have h2 : (slot &&& 0xFFFF).testBit (16 + i) = false :=
    Nat.testBit_lt_two_pow (lt_of_lt_of_le
      (lt_of_le_of_lt Nat.and_le_right (by norm_num : 0xFFFF < 2 ^ 16))
      (Nat.pow_le_pow_right (by norm_num) (by omega)))
  rw [Nat.testBit_shiftRight, Nat.testBit_xor, h2, Nat.testBit_shiftLeft]
  have h3 : 16 + i ≥ 16 := by omega
  have h4 : 16 + i - 16 = i := by omega
  simp only [h3, decide_True, Bool.true_and, h4, Bool.xor_false]

end TID

namespace SPSegment

open SlottedPage FSISegment

theorem set_redirect_tid_spec {p p1 : SlottedPage} {k tid : Nat}
    (h : set_redirect_tid p k tid = some p1) :
    Slot.is_redirect tid = true ∧ p1 = setSlotWord p k tid := by
  unfold set_redirect_tid at h
  split at h
  · rename_i hc
    simp only [Option.some.injEq] at h
    refine ⟨?_, h.symm⟩
    unfold Slot.is_redirect
    simp only [bne_iff_ne, ne_eq]
    omega
  · simp at h

/-- The entry of a page does not depend on the slotted pages. -/
theorem entry_setPage (s : Segments) (t : Nat) (p : SlottedPage) (n : Nat) :
    entry (s.setPage t p) n = entry s n := rfl

/-- The call `update(t, free_space of page t)` restores the invariant at page `t`. -/
theorem seginv_update (P : Nat) (h12 : 12 ≤ P) (hP : P < 2 ^ 24) (s s1 : Segments) (t : Nat)
    (hsize : s.page_size = P)
    (hpages : ∀ n, n < s.allocated_slotted_pages → Inv P (s.pages n))
    (hfsi : ∀ n, n < s.allocated_slotted_pages → n ≠ t →
      decode_free_space P (entry s n) ≤ (s.pages n).header.free_space)
    (hbytes : ∀ pg i, s.fsi pg i < 256)
    (hcover : s.allocated_slotted_pages < 2 * P * s.allocated_fsi_pages)
    (hfp : s.allocated_fsi_pages ≤ s.allocated_slotted_pages)
    (h : update s t (s.pages t).header.free_space = some s1) :
    SegInv P s1 ∧ t < s.allocated_slotted_pages ∧
      s1.allocated_slotted_pages = s.allocated_slotted_pages ∧ s1.pages = s.pages := by
  obtain ⟨u1, u2, u3, u4, u5, u6, u7, u8⟩ :=
    update_spec s s1 t _ (by omega) (by omega) hbytes h
  refine ⟨⟨?_, ?_, ?_, u8, ?_, ?_⟩, u1, u4, u2⟩
  · rw [u3]; exact hsize
  · intro n hn
    rw [u4] at hn
    rw [u2]; exact hpages n hn
  · intro n hn
    rw [u4] at hn
    rw [u2]
    by_cases hnt : n = t
    · rw [hnt, u6, hsize]
      exact decode_encode _ _
    · rw [u7 n hnt]
      exact hfsi n hn hnt
  · rw [u4, u5]; exact hcover
  · rw [u4, u5]; exact hfp

/-- A page is replaced and the inventory told about it. -/
theorem seginv_put (P : Nat) (h12 : 12 ≤ P) (hP : P < 2 ^ 24) (s s1 : Segments) (t : Nat)
    (p : SlottedPage) (hs : SegInv P s) (hp : t < s.allocated_slotted_pages → Inv P p)
    (h : update (s.setPage t p) t p.header.free_space = some s1) :
    SegInv P s1 ∧ t < s.allocated_slotted_pages ∧
      s1.allocated_slotted_pages = s.allocated_slotted_pages ∧
      s1.pages = (s.setPage t p).pages := by
  have hpt : ((s.setPage t p).pages t) = p := by
    show (if t = t then p else s.pages t) = p
    rw [if_pos rfl]
  have h1 : update (s.setPage t p) t ((s.setPage t p).pages t).header.free_space = some s1 := by
    rw [hpt]; exact h
  apply seginv_update P h12 hP (s.setPage t p) s1 t hs.size ?_ ?_ hs.bytes hs.cover
    hs.fsi_pages h1
  · intro n hn
    show Inv P (if n = t then p else s.pages n)
    split
    · rename_i hnt
      rw [hnt] at hn
      exact hp hn
    · exact hs.pages n hn
  · intro n hn hnt
    show decode_free_space P (entry s n) ≤ (if n = t then p else s.pages n).header.free_space
    rw [if_neg hnt]
    exact hs.fsi n hn

/-- A page is replaced by one with at least as much free space as its entry tells. -/
theorem seginv_setPage (P : Nat) (s : Segments) (t : Nat) (p : SlottedPage) (hs : SegInv P s)
    (hp : t < s.allocated_slotted_pages → Inv P p ∧
      decode_free_space P (entry s t) ≤ p.header.free_space) :
    SegInv P (s.setPage t p) := by
  refine ⟨hs.size, ?_, ?_, hs.bytes, hs.cover, hs.fsi_pages⟩
  · intro n hn
    show Inv P (if n = t then p else s.pages n)
    split
    · rename_i hnt
      rw [hnt] at hn
      exact (hp hn).1
    · exact hs.pages n hn
  · intro n hn
    show decode_free_space P (entry s n) ≤ (if n = t then p else s.pages n).header.free_space
    split
    · rename_i hnt
      rw [hnt] at hn ⊢
      exact (hp hn).2
    · exact hs.fsi n hn

theorem seginv_dropTarget (P : Nat) (h12 : 12 ≤ P) (hP : P < 2 ^ 24) (s s1 : Segments)
    (t k : Nat) (hs : SegInv P s) (h : dropTarget s t k = some s1) :
    SegInv P s1 ∧ t < s.allocated_slotted_pages ∧
      s1.allocated_slotted_pages = s.allocated_slotted_pages ∧
      (∀ n, n ≠ t → s1.pages n = s.pages n) ∧
      ∃ p1, SlottedPage.erase (s.pages t) k = some p1 ∧ s1.pages t = p1 := by
  unfold dropTarget at h
  cases he : SlottedPage.erase (s.pages t) k with
  | none => rw [he] at h; simp at h
  | some p1 =>
    rw [he] at h
    simp only at h
    have ht : t < s.allocated_slotted_pages := by
      unfold update at h
      split at h
      · simp at h
      · rename_i hc
        have hc1 : ¬ t ≥ s.allocated_slotted_pages := hc
        omega
    obtain ⟨a1, a2, a3, a4⟩ := seginv_put P h12 hP s s1 t p1 hs
      (fun _ => erase_inv P hP _ _ (hs.pages t ht) k he) h
    refine ⟨a1, a2, a3, ?_, p1, rfl, ?_⟩
    · intro n hn
      rw [a4]
      show (if n = t then p1 else s.pages n) = _
      rw [if_neg hn]
    · rw [a4]
      show (if t = t then p1 else s.pages t) = _
      rw [if_pos rfl]

theorem get_size_empty : Slot.get_size Slot.EMPTY_NON_REDIRECT_SLOT = 0 := by decide

theorem seginv_fillTarget (P : Nat) (hP : P < 2 ^ 24) (s s1 : Segments)
    (target_tid tid new_size : Nat) (buffer : List Nat) (hs : SegInv P s)
    (h : fillTarget s target_tid tid new_size buffer = some s1) :
    SegInv P s1 ∧ s1.allocated_slotted_pages = s.allocated_slotted_pages := by
  unfold fillTarget at h
  simp only at h
  split at h
  · rename_i hc
    split at h
    · simp only [Option.some.injEq] at h
      rw [← h]
      refine ⟨?_, rfl⟩
      apply seginv_setPage P s _ _ hs
      intro ht
      have hinv := hs.pages _ ht
      refine ⟨?_, hs.fsi _ ht⟩
      refine @inv_reword P hP _ _ (TID.get_slot target_tid)
        (Slot.mark_as_redirect_target
          ((s.pages (TID.get_segment_page_id target_tid)).slots (TID.get_slot target_tid)) true)
        hinv rfl (fun i => rfl) ?_
      intro hk
      rcases hinv.slots _ hk with he | hn | hr
      · rw [he, get_size_empty] at hc
        unfold sizeofTID at hc
        omega
      · obtain ⟨m1, m2, m3⟩ := mark_normal hP hn
        exact Or.inr ⟨hn, m1, m2, m3⟩
      · obtain ⟨m1, m2⟩ := mark_redirect hr.1 hr.2
        exact Or.inl ⟨hr.1, m1, m2⟩
    · simp at h
  · simp at h

theorem seginv_write (P : Nat) (s s1 : Segments) (tid : Nat) (record : List Nat)
    (hs : SegInv P s) (h : write s tid record = some s1) :
    SegInv P s1 ∧ s1.allocated_slotted_pages = s.allocated_slotted_pages := by
  unfold write at h
  simp only at h
  split at h
  · split at h
    · simp only [Option.some.injEq] at h
      rw [← h]
      refine ⟨?_, rfl⟩
      apply seginv_setPage P s _ _ hs
      intro ht
      exact ⟨inv_congr (hs.pages _ ht) rfl (fun _ _ => rfl), hs.fsi _ ht⟩
    · simp at h
  · split at h
    · simp only [Option.some.injEq] at h
      rw [← h]
      refine ⟨?_, rfl⟩
      apply seginv_setPage P s _ _ hs
      intro ht
      exact ⟨inv_congr (hs.pages _ ht) rfl (fun _ _ => rfl), hs.fsi _ ht⟩
    · simp at h

end SPSegment

namespace SPSegment

open SlottedPage FSISegment

/-- The entries of the pages below `2 * P * pg` do not live in page `pg` of the inventory. -/
theorem entry_fresh (s s4 : Segments) (pg n : Nat) (hsize : s4.page_size = s.page_size)
    (h0 : 0 < s.page_size) (hn : n < 2 * s.page_size * pg)
    (hfsi : ∀ pg1 i, pg1 ≠ pg → s4.fsi pg1 i = s.fsi pg1 i) : entry s4 n = entry s n := by
  unfold entry
  simp only
  rw [hsize]
  have e : s.page_size <<< 1 = 2 * s.page_size := by rw [Nat.shiftLeft_eq]; omega
  have hne : n / (s.page_size <<< 1) ≠ pg := by
    rw [e]
    have : n / (2 * s.page_size) < pg := by
      rw [Nat.div_lt_iff_lt_mul (by omega)]
      rw [Nat.mul_comm pg]
      exact hn
    omega
  rw [hfsi _ _ hne]

theorem seginv_allocate (sort : Sorter) (hsort : IsSort sort) (P : Nat) (h12 : 12 ≤ P)
    (hP : P < 524300) (s : Segments) (hs : SegInv P s)
    (hb : s.allocated_slotted_pages + 1 < 2 ^ 48) (required : Nat) (res : Segments × Nat)
    (h : allocate sort s required = some res) :
    SegInv P res.1 ∧ s.allocated_slotted_pages ≤ res.1.allocated_slotted_pages ∧
      res.1.allocated_slotted_pages ≤ s.allocated_slotted_pages + 1 ∧ res.2 < 2 ^ 64 ∧
      TID.get_segment_page_id res.2 < res.1.allocated_slotted_pages ∧
      (∀ n, n ≠ TID.get_segment_page_id res.2 → res.1.pages n = s.pages n) := by
  have hP24 : P < 2 ^ 24 := by omega
  have hsz := hs.size
  unfold allocate at h
  split at h
  · cases hf : find s (u32 (required + sizeofSlot)) with
    | none => rw [hf] at h; simp at h
    | some r =>
      obtain ⟨s1, found, t⟩ := r
      rw [hf] at h
      simp only at h
      obtain ⟨f1, f2⟩ := find_spec s _ (by omega) (by omega) hs.bytes _ hf
      cases found with
      | false =>
        simp only [↓reduceIte] at h
        obtain ⟨e1, e2⟩ := f1 rfl
        have e1a : s1 = s := e1
        have e2a : t = s.allocated_slotted_pages := e2
        subst e1a
        generalize hs4 : addPage s1 t = s4 at h
        unfold addPage at hs4
        simp only at hs4
        have hb64 : (s1.allocated_slotted_pages + 1) % 2 ^ 64 = s1.allocated_slotted_pages + 1 :=
          Nat.mod_eq_of_lt (by omega)
        have hfp64 : (s1.allocated_fsi_pages + 1) % 2 ^ 64 = s1.allocated_fsi_pages + 1 := by
          have := hs.fsi_pages
          exact Nat.mod_eq_of_lt (by omega)
        have e2P : P <<< 1 = 2 * P := by rw [Nat.shiftLeft_eq]; omega
        have g1 : s4.page_size = P := by
          rw [← hs4]
          split <;> exact hsz
        have g2 : s4.allocated_slotted_pages = s1.allocated_slotted_pages + 1 := by
          rw [← hs4]
          split <;> exact hb64
        have g3 : s4.pages = fun i => if i = t then SlottedPage.init P else s1.pages i := by
          rw [← hs4, ← hsz]
          split <;> rfl
        have g4 : ∀ pg i, s4.fsi pg i < 256 := by
          intro pg i
          rw [← hs4]
          split
          · show (if _ then _ else _) < 256
            split
            · norm_num
            · exact hs.bytes pg i
          · exact hs.bytes pg i
        have g5 : s4.allocated_slotted_pages < 2 * P * s4.allocated_fsi_pages ∧
            s4.allocated_fsi_pages ≤ s4.allocated_slotted_pages := by
          have hc := hs.cover
          have hfp := hs.fsi_pages
          rw [← hs4]
          split
          · rename_i hmod
            have hmod1 : (s1.allocated_slotted_pages + 1) % 2 ^ 64 % (s1.page_size <<< 1) = 0 :=
              hmod
            show (s1.allocated_slotted_pages + 1) % 2 ^ 64 <
                2 * P * ((s1.allocated_fsi_pages + 1) % 2 ^ 64) ∧
              (s1.allocated_fsi_pages + 1) % 2 ^ 64 ≤ (s1.allocated_slotted_pages + 1) % 2 ^ 64
            rw [hb64, hfp64]
            constructor
            · have : 2 * P * (s1.allocated_fsi_pages + 1) =
                  2 * P * s1.allocated_fsi_pages + 2 * P := by ring
              omega
            · omega
          · rename_i hmod
            have hmod1 : ¬ (s1.allocated_slotted_pages + 1) % 2 ^ 64 % (s1.page_size <<< 1) = 0 :=
              hmod
            show (s1.allocated_slotted_pages + 1) % 2 ^ 64 < 2 * P * s1.allocated_fsi_pages ∧
              s1.allocated_fsi_pages ≤ (s1.allocated_slotted_pages + 1) % 2 ^ 64
            rw [hb64] at hmod1 ⊢
            rw [hsz, e2P] at hmod1
            constructor
            · by_contra hcon
              have : s1.allocated_slotted_pages + 1 = 2 * P * s1.allocated_fsi_pages := by omega
              rw [this] at hmod1
              exact hmod1 (Nat.mul_mod_right _ _)
            · omega
        have g6 : ∀ n, n < s1.allocated_slotted_pages → entry s4 n = entry s1 n := by
          intro n hn
          apply entry_fresh s1 s4 s1.allocated_fsi_pages n (by rw [g1, hsz]) (by omega)
            (by rw [hsz]; exact lt_trans hn hs.cover)
          intro pg1 i hpg
          rw [← hs4]
          split
          · dsimp only [Segments.setPage]
            rw [if_neg (fun hc => hpg hc.1)]
          · rfl
        cases ha : SlottedPage.allocate sort (s4.pages t) required s4.page_size with
        | none => rw [ha] at h; simp at h
        | some pr =>
          obtain ⟨page, slot⟩ := pr
          rw [ha] at h
          simp only at h
          cases hu : update (s4.setPage t page) t page.header.free_space with
          | none => rw [hu] at h; simp at h
          | some s5 =>
            rw [hu] at h
            simp only [Option.some.injEq] at h
            rw [g1, g3] at ha
            simp only [↓reduceIte] at ha
            have hpinv : Inv P page :=
              allocate_inv sort hsort P hP _ (init_inv P h12) _ _ ha
            have hpt : ((s4.setPage t page).pages t) = page := by
              show (if t = t then page else s4.pages t) = page
              rw [if_pos rfl]
            have hu1 : update (s4.setPage t page) t
                ((s4.setPage t page).pages t).header.free_space = some s5 := by
              rw [hpt]; exact hu
            obtain ⟨k1, k2, k3, k4⟩ := seginv_update P h12 hP24 (s4.setPage t page) s5 t g1
              (by
                intro n hn
                show Inv P (if n = t then page else s4.pages n)
                split
                · exact hpinv
                · rename_i hnt
                  rw [g3]
                  simp only [hnt, ↓reduceIte]
                  have hn1 : n < s4.allocated_slotted_pages := hn
                  exact hs.pages n (by omega))
              (by
                intro n hn hnt
                have hn1 : n < s4.allocated_slotted_pages := hn
                have hn2 : n < s1.allocated_slotted_pages := by omega
                show decode_free_space P (entry s4 n) ≤
                  (if n = t then page else s4.pages n).header.free_space
                rw [if_neg hnt, g3, g6 n hn2]
                simp only [hnt, ↓reduceIte]
                exact hs.fsi n hn2)
              g4 g5.1 g5.2 hu1
            have k3a : s5.allocated_slotted_pages = s1.allocated_slotted_pages + 1 := by
              rw [k3]; exact g2
            have hpg : TID.get_segment_page_id (TID.make t slot) = t :=
              TID.page_make t slot (by omega)
            rw [← h]
            refine ⟨k1, by show _ ≤ s5.allocated_slotted_pages; omega,
              by show s5.allocated_slotted_pages ≤ _; omega, TID.make_lt _ _, ?_, ?_⟩
            · show TID.get_segment_page_id (TID.make t slot) < s5.allocated_slotted_pages
              rw [hpg]; omega
            · intro n hn
              have hn1 : n ≠ t := by
                rw [← hpg]; exact hn
              show s5.pages n = s1.pages n
              rw [k4]
              show (if n = t then page else s4.pages n) = _
              rw [if_neg hn1, g3]
              simp only [hn1, ↓reduceIte]
      | true =>
        simp only [Bool.true_eq_false, ↓reduceIte] at h
        obtain ⟨hfound, hlt⟩ := f2 rfl
        obtain ⟨d1, d2, d3, d4, d5, d6, d7, d8⟩ := hfound
        have hlt1 : t < s.allocated_slotted_pages := hlt
        have d1 : s1.pages = s.pages := d1
        have d2 : s1.page_size = s.page_size := d2
        have d3 : s1.allocated_slotted_pages = s.allocated_slotted_pages := d3
        have d4 : s1.allocated_fsi_pages = s.allocated_fsi_pages := d4
        have d5 : u32 (required + sizeofSlot) ≤ decode_free_space s.page_size (entry s t) := d5
        have d6 : entry s1 t = encode_free_space s.page_size
            (decode_free_space s.page_size (entry s t) - u32 (required + sizeofSlot)) := d6
        have d7 : ∀ n, n ≠ t → entry s1 n = entry s n := d7
        have d8 : ∀ pg i, s1.fsi pg i < 256 := d8
        cases ha : SlottedPage.allocate sort (s1.pages t) required s1.page_size with
        | none => rw [ha] at h; simp at h
        | some pr =>
          obtain ⟨page, slot⟩ := pr
          rw [ha] at h
          simp only [Option.some.injEq] at h
          rw [d1, d2, hsz] at ha
          have hpinv : Inv P page := allocate_inv sort hsort P hP _ (hs.pages t hlt1) _ _ ha
          obtain ⟨af1, af2⟩ := allocate_free sort hsort P hP _ (hs.pages t hlt1) _ _ ha
          have af1a : (s.pages t).header.free_space ≤ page.header.free_space + required + 8 := af1
          have hfree := (hs.pages t hlt1).acct
          have hreq : u32 (required + sizeofSlot) = required + 8 :=
            u32_small (by unfold sizeofSlot; omega)
          have hpg : TID.get_segment_page_id (TID.make t slot) = t :=
            TID.page_make t slot (by omega)
          have hent : decode_free_space P (entry s1 t) ≤ page.header.free_space := by
            have := hs.fsi t hlt1
            have hde := decode_encode P (decode_free_space P (entry s t) - (required + 8))
            rw [d6, hsz, hreq]
            omega
          rw [← h]
          refine ⟨?_, by show _ ≤ s1.allocated_slotted_pages; omega,
            by show s1.allocated_slotted_pages ≤ _; omega, TID.make_lt _ _, ?_, ?_⟩
          · refine ⟨by rw [← hsz, ← d2]; rfl, ?_, ?_, d8, ?_, ?_⟩
            · intro n hn
              have hn1 : n < s1.allocated_slotted_pages := hn
              show Inv P (if n = t then page else s1.pages n)
              split
              · exact hpinv
              · rw [d1]; exact hs.pages n (by omega)
            · intro n hn
              have hn1 : n < s1.allocated_slotted_pages := hn
              show decode_free_space P (entry s1 n) ≤
                (if n = t then page else s1.pages n).header.free_space
              split
              · rename_i hnt
                rw [hnt]; exact hent
              · rename_i hnt
                rw [d7 n hnt, d1]
                exact hs.fsi n (by omega)
            · show s1.allocated_slotted_pages < 2 * P * s1.allocated_fsi_pages
              rw [d3, d4]; exact hs.cover
            · show s1.allocated_fsi_pages ≤ s1.allocated_slotted_pages
              rw [d3, d4]; exact hs.fsi_pages
          · show TID.get_segment_page_id (TID.make t slot) < s1.allocated_slotted_pages
            rw [hpg]; omega
          · intro n hn
            have hn1 : n ≠ t := by
              rw [← hpg]; exact hn
            show (if n = t then page else s1.pages n) = _
            rw [if_neg hn1, d1]
  · simp at h

end SPSegment

namespace SPSegment

open SlottedPage FSISegment

theorem names_spec {s : Segments} {tid : Nat} (h : names s tid = true) :
    TID.get_segment_page_id tid < s.allocated_slotted_pages ∧
      TID.get_slot tid < (s.pages (TID.get_segment_page_id tid)).header.slot_count ∧
      (s.pages (TID.get_segment_page_id tid)).slots (TID.get_slot tid) ≠
        Slot.EMPTY_NON_REDIRECT_SLOT := by
  unfold names at h
  simp only [Bool.and_eq_true, decide_eq_true_eq, Bool.not_eq_true'] at h
  refine ⟨h.1.1, h.1.2, ?_⟩
  intro he
  have := (is_empty_iff _).2 he
  rw [this] at h
  exact absurd h.2 (by simp)

theorem seginv_resize (sort : Sorter) (hsort : IsSort sort) (P : Nat) (h12 : 12 ≤ P)
    (hP : P < 524300) (s : Segments) (hs : SegInv P s)
    (hb : s.allocated_slotted_pages + 1 < 2 ^ 48) (tid new_size : Nat)
    (hnames : names s tid = true) (s1 : Segments)
    (h : resize sort s tid new_size = some s1) :
    SegInv P s1 ∧ s.allocated_slotted_pages ≤ s1.allocated_slotted_pages ∧
      s1.allocated_slotted_pages ≤ s.allocated_slotted_pages + 1 := by
  have hP24 : P < 2 ^ 24 := by omega
  have hsz := hs.size
  obtain ⟨hpid, hk, hne⟩ := names_spec hnames
  have hinv := hs.pages _ hpid
  have hacct := hinv.acct
  unfold resize at h
  simp only at h
  rw [hsz] at h
  split at h
  · rename_i hr
    have hnk : Normal P (s.pages (TID.get_segment_page_id tid)).header.data_start
        ((s.pages (TID.get_segment_page_id tid)).slots (TID.get_slot tid)) := by
      rcases hinv.slots _ hk with he | hn | hrd
      · exact absurd he hne
      · exact hn
      · rw [hrd.1] at hr
        simp at hr
    obtain ⟨hb1, hb2⟩ := normal_bounds hP24 hnk
    split at h
    · simp only [Option.some.injEq] at h
      rw [← h]
      exact ⟨hs, le_refl _, by omega⟩
    · split at h
      · rename_i hlt
        have hu : u32 ((s.pages (TID.get_segment_page_id tid)).header.free_space +
            (Slot.get_size ((s.pages (TID.get_segment_page_id tid)).slots (TID.get_slot tid)) -
              new_size)) =
            (s.pages (TID.get_segment_page_id tid)).header.free_space +
            (Slot.get_size ((s.pages (TID.get_segment_page_id tid)).slots (TID.get_slot tid)) -
              new_size) := u32_small (by omega)
        rw [hu] at h
        obtain ⟨a1, a2, a3, a4⟩ := seginv_put P h12 hP24 s s1 _ _ hs
          (fun _ => inv_shrink P hP24 _ _ (TID.get_slot tid) new_size hinv hk hnk (by omega)
            rfl (fun i => rfl)) h
        exact ⟨a1, by omega, by omega⟩
      · split at h
        · cases hrel : SlottedPage.relocate sort (s.pages (TID.get_segment_page_id tid))
              (TID.get_slot tid) new_size P with
          | none => rw [hrel] at h; simp at h
          | some p1 =>
            rw [hrel] at h
            simp only at h
            have hinv1 := relocate_inv sort hsort P hP24 _ _ hinv _ _ hrel
            have hput := fun hp => seginv_put P h12 hP24 s s1 _ _ hs hp h
            obtain ⟨a1, a2, a3, a4⟩ := hput (fun _ => inv_congr hinv1 rfl (fun _ _ => rfl))
            exact ⟨a1, by omega, by omega⟩
        · cases hal : allocate sort s (u32 (new_size + sizeofTID)) with
          | none => rw [hal] at h; simp at h
          | some res =>
            obtain ⟨s2, target_tid⟩ := res
            rw [hal] at h
            simp only at h
            obtain ⟨b1, b2, b3, b4, b5, b6⟩ :=
              seginv_allocate sort hsort P h12 hP s hs hb _ _ hal
            have b2 : s.allocated_slotted_pages ≤ s2.allocated_slotted_pages := b2
            have b3 : s2.allocated_slotted_pages ≤ s.allocated_slotted_pages + 1 := b3
            have b4 : target_tid < 2 ^ 64 := b4
            have b6 : ∀ n, n ≠ TID.get_segment_page_id target_tid → s2.pages n = s.pages n := b6
            split at h
            · simp at h
            · rename_i hdiff
              have hq : s2.pages (TID.get_segment_page_id tid) =
                  s.pages (TID.get_segment_page_id tid) := b6 _ (fun hh => hdiff hh.symm)
              rw [hq] at h
              split at h
              · simp at h
              · cases hset : set_redirect_tid (s.pages (TID.get_segment_page_id tid))
                    (TID.get_slot tid) target_tid with
                | none => rw [hset] at h; simp at h
                | some q1 =>
                  rw [hset] at h
                  simp only at h
                  obtain ⟨hw, hq1⟩ := set_redirect_tid_spec hset
                  subst hq1
                  have hu : u32 (((s.pages (TID.get_segment_page_id tid)).setSlotWord
                      (TID.get_slot tid) target_tid).header.free_space +
                      Slot.get_size ((s.pages (TID.get_segment_page_id tid)).slots
                        (TID.get_slot tid))) =
                      (s.pages (TID.get_segment_page_id tid)).header.free_space +
                      Slot.get_size ((s.pages (TID.get_segment_page_id tid)).slots
                        (TID.get_slot tid)) := u32_small (by
                    show (s.pages (TID.get_segment_page_id tid)).header.free_space + _ < _
                    omega)
                  rw [hu] at h
                  cases hupd : update (s2.setPage (TID.get_segment_page_id tid)
                      ({ (s.pages (TID.get_segment_page_id tid)).setSlotWord
                          (TID.get_slot tid) target_tid with
                        header := { ((s.pages (TID.get_segment_page_id tid)).setSlotWord
                            (TID.get_slot tid) target_tid).header with
                          free_space := (s.pages (TID.get_segment_page_id tid)).header.free_space +
                            Slot.get_size ((s.pages (TID.get_segment_page_id tid)).slots
                              (TID.get_slot tid)) } } : SlottedPage))
                      (TID.get_segment_page_id tid)
                      ((s.pages (TID.get_segment_page_id tid)).header.free_space +
                        Slot.get_size ((s.pages (TID.get_segment_page_id tid)).slots
                          (TID.get_slot tid))) with
                  | none => rw [hupd] at h; simp at h
                  | some s3 =>
                    rw [hupd] at h
                    simp only at h
                    obtain ⟨a1, a2, a3, a4⟩ := seginv_put P h12 hP24 s2 s3 _ _ b1
                      (fun _ => inv_redirect hP24 hinv hk hnk hw b4 rfl (fun i => rfl)) hupd
                    obtain ⟨c1, c2⟩ := seginv_fillTarget P hP24 s3 s1 _ _ _ _ a1 h
                    exact ⟨c1, by omega, by omega⟩
  · rename_i hr
    have hrd : Slot.is_redirect ((s.pages (TID.get_segment_page_id tid)).slots
        (TID.get_slot tid)) = true := by simpa using hr
    split at h
    · simp at h
    · split at h
      · cases hdrop : dropTarget s
            (TID.get_segment_page_id ((s.pages (TID.get_segment_page_id tid)).slots
              (TID.get_slot tid)))
            (TID.get_slot ((s.pages (TID.get_segment_page_id tid)).slots
              (TID.get_slot tid))) with
        | none => rw [hdrop] at h; simp at h
        | some s2 =>
          rw [hdrop] at h
          simp only at h
          obtain ⟨d1, d2, d3, d4, p1, d5, d6⟩ := seginv_dropTarget P h12 hP24 s s2 _ _ hs hdrop
          cases hrel : SlottedPage.relocate sort
              ((s2.pages (TID.get_segment_page_id tid)).setSlotWord (TID.get_slot tid)
                (Slot.set_offset Slot.EMPTY_NON_REDIRECT_SLOT 1))
              (TID.get_slot tid) new_size P with
          | none => rw [hrel] at h; simp at h
          | some q2 =>
            rw [hrel] at h
            simp only at h
            have hq : Slot.is_redirect ((s2.pages (TID.get_segment_page_id tid)).slots
                (TID.get_slot tid)) = true := by
              by_cases hsame : TID.get_segment_page_id tid =
                  TID.get_segment_page_id ((s.pages (TID.get_segment_page_id tid)).slots
                    (TID.get_slot tid))
              · rw [← hsame] at d5 d6
                obtain ⟨e1, e2⟩ := erase_slots d5
                by_cases hks : TID.get_slot tid =
                    TID.get_slot ((s.pages (TID.get_segment_page_id tid)).slots
                      (TID.get_slot tid))
                · rw [← hks, hrd] at e1
                  simp at e1
                · rw [d6, e2 _ hks]
                  exact hrd
              · rw [d4 _ hsame]
                exact hrd
            have hinvq := d1.pages (TID.get_segment_page_id tid) (by omega)
            have hinv2 := relocate_mock_inv sort hsort P hP24 _ q2 _ new_size hinvq hq hrel
            have hput := fun hp => seginv_put P h12 hP24 s2 s1 _ _ d1 hp h
            obtain ⟨a1, a2, a3, a4⟩ := hput (fun _ => inv_congr hinv2 rfl (fun _ _ => rfl))
            exact ⟨a1, by omega, by omega⟩
      · split at h
        · cases hrel : SlottedPage.relocate sort
              (s.pages (TID.get_segment_page_id ((s.pages (TID.get_segment_page_id tid)).slots
                (TID.get_slot tid))))
              (TID.get_slot ((s.pages (TID.get_segment_page_id tid)).slots (TID.get_slot tid)))
              new_size P with
          | none => rw [hrel] at h; simp at h
          | some target1 =>
            rw [hrel] at h
            simp only at h
            obtain ⟨a1, a2, a3, a4⟩ := seginv_put P h12 hP24 s s1 _ _ hs
              (fun ht => relocate_inv sort hsort P hP24 _ _ (hs.pages _ ht) _ _ hrel) h
            exact ⟨a1, by omega, by omega⟩
        · cases hdrop : dropTarget s
              (TID.get_segment_page_id ((s.pages (TID.get_segment_page_id tid)).slots
                (TID.get_slot tid)))
              (TID.get_slot ((s.pages (TID.get_segment_page_id tid)).slots
                (TID.get_slot tid))) with
          | none => rw [hdrop] at h; simp at h
          | some s2 =>
            rw [hdrop] at h
            simp only at h
            obtain ⟨d1, d2, d3, d4, p1, d5, d6⟩ := seginv_dropTarget P h12 hP24 s s2 _ _ hs hdrop
            cases hal : allocate sort s2 (u32 (new_size + sizeofTID)) with
            | none => rw [hal] at h; simp at h
            | some res =>
              obtain ⟨s3, new_tid⟩ := res
              rw [hal] at h
              simp only at h
              obtain ⟨b1, b2, b3, b4, b5, b6⟩ :=
                seginv_allocate sort hsort P h12 hP s2 d1 (by omega) _ _ hal
              have b2 : s2.allocated_slotted_pages ≤ s3.allocated_slotted_pages := b2
              have b3 : s3.allocated_slotted_pages ≤ s2.allocated_slotted_pages + 1 := b3
              have b4 : new_tid < 2 ^ 64 := b4
              split at h
              · simp at h
              · split at h
                · simp at h
                · rename_i hq
                  have hq1 : Slot.is_redirect ((s3.pages (TID.get_segment_page_id tid)).slots
                      (TID.get_slot tid)) = true := by simpa using hq
                  cases hset : set_redirect_tid (s3.pages (TID.get_segment_page_id tid))
                      (TID.get_slot tid) new_tid with
                  | none => rw [hset] at h; simp at h
                  | some q1 =>
                    rw [hset] at h
                    simp only at h
                    obtain ⟨hw, hq2⟩ := set_redirect_tid_spec hset
                    subst hq2
                    have hsi : SegInv P (s3.setPage (TID.get_segment_page_id tid)
                        ((s3.pages (TID.get_segment_page_id tid)).setSlotWord
                          (TID.get_slot tid) new_tid)) := by
                      apply seginv_setPage P s3 _ _ b1
                      intro ht
                      refine ⟨?_, b1.fsi _ ht⟩
                      refine @inv_reword P hP24 _ _ (TID.get_slot tid) new_tid (b1.pages _ ht)
                        rfl (fun i => rfl) ?_
                      intro _
                      exact Or.inl ⟨hq1, hw, b4⟩
                    obtain ⟨c1, c2⟩ := seginv_fillTarget P hP24 _ s1 _ _ _ _ hsi h
                    have c2 : s1.allocated_slotted_pages = s3.allocated_slotted_pages := c2
                    exact ⟨c1, by omega, by omega⟩

theorem seginv_erase (P : Nat) (h12 : 12 ≤ P) (hP : P < 2 ^ 24) (s s1 : Segments) (tid : Nat)
    (hs : SegInv P s) (h : erase s tid = some s1) :
    SegInv P s1 ∧ s1.allocated_slotted_pages = s.allocated_slotted_pages := by
  unfold erase at h
  simp only at h
  split at h
  · obtain ⟨d1, _, d3, _⟩ := seginv_dropTarget P h12 hP s s1 _ _ hs h
    exact ⟨d1, d3⟩
  · cases hdrop : dropTarget s (TID.get_segment_page_id tid) (TID.get_slot tid) with
    | none => rw [hdrop] at h; simp at h
    | some s2 =>
      rw [hdrop] at h
      simp only at h
      obtain ⟨d1, _, d3, _⟩ := seginv_dropTarget P h12 hP s s2 _ _ hs hdrop
      split at h
      · obtain ⟨e1, _, e3, _⟩ := seginv_dropTarget P h12 hP s2 s1 _ _ d1 h
        exact ⟨e1, by rw [e3, d3]⟩
      · simp at h

end SPSegment

namespace SPSegment

open SlottedPage FSISegment

theorem seginv_init (P : Nat) (h12 : 12 ≤ P) : SegInv P (init P) := by
  refine ⟨rfl, ?_, ?_, ?_, ?_, le_refl _⟩
  · intro n hn
    have hn1 : n < 1 := hn
    have hn0 : n = 0 := by omega
    rw [hn0]
    exact init_inv P h12
  · intro n hn
    have hn1 : n < 1 := hn
    have hn0 : n = 0 := by omega
    rw [hn0]
    have hfree : ((init P).pages 0).header.free_space = P - 12 := by
      show sub32 P sizeofHeader = P - 12
      unfold sizeofHeader
      exact sub32_le h12
    have hent : entry (init P) 0 = 15 := by
      unfold entry
      have hz : 0 % ((init P).page_size <<< 1) = 0 := Nat.zero_mod _
      have hd : 0 / ((init P).page_size <<< 1) = 0 := Nat.zero_div _
      have ha : 0 &&& 1 = 0 := by decide
      have hsh : 0 >>> 1 = 0 := by decide
      simp only [hz, hd, ha, hsh, ↓reduceIte]
      show (if (0 = 0 ∧ 0 < P) then 0xFF else 0) >>> 4 = 15
      rw [if_pos ⟨rfl, by omega⟩]
      rfl
    rw [hent, hfree]
    show u32 (sub64 P sizeofHeader) ≤ P - 12
    unfold sub64 sizeofHeader
    rw [if_pos h12]
    exact Nat.mod_le _ _
  · intro pg i
    show (if pg = 0 ∧ i < P then 0xFF else 0) < 256
    split <;> norm_num
  · show 1 < 2 * P * 1
    omega

theorem seginv_step (sort : Sorter) (hsort : IsSort sort) (P : Nat) (h12 : 12 ≤ P)
    (hP : P < 524300) (s : Segments) (hs : SegInv P s)
    (hb : s.allocated_slotted_pages + 1 < 2 ^ 48) (c : Call) (s1 : Segments)
    (h : step sort s c = some s1) :
    SegInv P s1 ∧ s1.allocated_slotted_pages ≤ s.allocated_slotted_pages + 1 := by
  have hP24 : P < 2 ^ 24 := by omega
  cases c with
  | allocate required =>
    have h1 : Option.map (fun r => r.1) (allocate sort s required) = some s1 := h
    cases hr : allocate sort s required with
    | none => rw [hr] at h1; simp at h1
    | some r =>
      rw [hr] at h1
      simp only [Option.map_some', Option.some.injEq] at h1
      obtain ⟨b1, _, b3, _⟩ := seginv_allocate sort hsort P h12 hP s hs hb _ _ hr
      rw [← h1]
      exact ⟨b1, b3⟩
  | write tid record =>
    have h1 : (if names s tid then write s tid record else none) = some s1 := h
    split at h1
    · obtain ⟨a1, a2⟩ := seginv_write P s s1 tid record hs h1
      exact ⟨a1, by omega⟩
    · simp at h1
  | resize tid new_size =>
    have h1 : (if names s tid then resize sort s tid new_size else none) = some s1 := h
    split at h1
    · rename_i hn
      obtain ⟨a1, _, a3⟩ := seginv_resize sort hsort P h12 hP s hs hb tid new_size hn s1 h1
      exact ⟨a1, a3⟩
    · simp at h1
  | erase tid =>
    have h1 : (if names s tid then erase s tid else none) = some s1 := h
    split at h1
    · obtain ⟨a1, a2⟩ := seginv_erase P h12 hP24 s s1 tid hs h1
      exact ⟨a1, by omega⟩
    · simp at h1

theorem seginv_run (sort : Sorter) (hsort : IsSort sort) (P : Nat) (h12 : 12 ≤ P)
    (hP : P < 524300) (calls : List Call) :
    ∀ (s s1 : Segments), SegInv P s → s.allocated_slotted_pages + calls.length < 2 ^ 48 →
      run sort s calls = some s1 → SegInv P s1 := by
  induction calls with
  | nil =>
    intro s s1 hs _ h
    simp only [run, Option.some.injEq] at h
    rw [← h]
    exact hs
  | cons c rest ih =>
    intro s s1 hs hb h
    rw [run] at h
    simp only [List.length_cons] at hb
    cases hst : step sort s c with
    | none => rw [hst] at h; simp at h
    | some s2 =>
      rw [hst] at h
      simp only at h
      obtain ⟨a1, a2⟩ := seginv_step sort hsort P h12 hP s hs (by omega) c s2 hst
      exact ih s2 s1 a1 (by omega) h

/-- C9: in every state the slotted-page segment reaches from its constructor by
`allocate`, `write`, `resize` and `erase` (pages of at least `sizeof(Header)` and
less than 524300 bytes, fewer than `2 ^ 48` calls), the entry of the inventory
for an allocated page decodes to at most
`page_size - sizeof(Header) - slot_count * sizeof(Slot) - (bytes of the live slots)`;
a page that `find(required + sizeof(Slot))` returns is allocated and has that
much `free_space`, and so has the page `allocate` constructs when `find`
returns none. -/
theorem fsi_entry_at_most_free_space (sort : Sorter) (hsort : IsSort sort) (page_size : Nat)
    (hlo : sizeofHeader ≤ page_size) (hhi : page_size < 524300) (calls : List Call)
    (hcalls : calls.length + 1 < 2 ^ 48) (s : Segments)
    (hrun : run sort (init page_size) calls = some s) :
    (∀ n, n < s.allocated_slotted_pages →
      (decode_free_space page_size (entry s n) : Int) ≤
        page_size - sizeofHeader - (s.pages n).header.slot_count * sizeofSlot -
          usedBytes (s.pages n)) ∧
    (∀ required s1 t, required + sizeofSlot + sizeofHeader ≤ page_size →
      find s (u32 (required + sizeofSlot)) = some (s1, true, t) →
        t < s1.allocated_slotted_pages ∧
          required + sizeofSlot ≤ (s1.pages t).header.free_space) ∧
    (∀ required s1 t, required + sizeofSlot + sizeofHeader ≤ page_size →
      find s (u32 (required + sizeofSlot)) = some (s1, false, t) →
        required + sizeofSlot ≤ ((addPage s1 t).pages t).header.free_space) := by
  have h12 : 12 ≤ page_size := hlo
  have hs : SegInv page_size s :=
    seginv_run sort hsort page_size h12 hhi calls _ s (seginv_init page_size h12)
      (by show 1 + calls.length < 2 ^ 48; omega) hrun
  refine ⟨?_, ?_, ?_⟩
  · intro n hn
    have h1 := hs.fsi n hn
    have h2 := (hs.pages n hn).acct
    unfold sizeofHeader sizeofSlot
    omega
  · intro required s1 t hreq hf
    unfold sizeofSlot sizeofHeader at hreq
    obtain ⟨_, f2⟩ := find_spec s _ (by rw [hs.size]; omega) (by rw [hs.size]; omega)
      hs.bytes _ hf
    obtain ⟨⟨d1, d2, d3, d4, d5, d6, d7, d8⟩, hlt⟩ := f2 rfl
    have hlt1 : t < s.allocated_slotted_pages := hlt
    have d1 : s1.pages = s.pages := d1
    have d3 : s1.allocated_slotted_pages = s.allocated_slotted_pages := d3
    have d5 : u32 (required + sizeofSlot) ≤ decode_free_space s.page_size (entry s t) := d5
    have hu : u32 (required + sizeofSlot) = required + 8 :=
      u32_small (by unfold sizeofSlot; omega)
    have h1 := hs.fsi t hlt1
    rw [hs.size, hu] at d5
    rw [d1, d3]
    unfold sizeofSlot
    exact ⟨hlt1, by omega⟩
  · intro required s1 t hreq hf
    unfold sizeofSlot sizeofHeader at hreq
    obtain ⟨f1, _⟩ := find_spec s _ (by rw [hs.size]; omega) (by rw [hs.size]; omega)
      hs.bytes _ hf
    obtain ⟨e1, _⟩ := f1 rfl
    have e1a : s1 = s := e1
    rw [e1a]
    have hpage : (addPage s t).pages t = SlottedPage.init s.page_size := by
      unfold addPage
      simp only
      split
      · show (if t = t then _ else _) = _
        rw [if_pos rfl]
      · show (if t = t then _ else _) = _
        rw [if_pos rfl]
    rw [hpage, hs.size]
    show required + sizeofSlot ≤ sub32 page_size sizeofHeader
    unfold sizeofSlot sizeofHeader
    rw [sub32_le h12]
    omega

/-- The inventory after `redirectingCalls` on pages of 64 bytes. -/
theorem fsi_entry_at_most_free_space_witness :
    (∀ n, n < redirectedSegments.allocated_slotted_pages →
      (decode_free_space 64 (entry redirectedSegments n) : Int) ≤
        64 - sizeofHeader - (redirectedSegments.pages n).header.slot_count * sizeofSlot -
          usedBytes (redirectedSegments.pages n)) ∧
    (∀ required s1 t, required + sizeofSlot + sizeofHeader ≤ 64 →
      find redirectedSegments (u32 (required + sizeofSlot)) = some (s1, true, t) →
        t < s1.allocated_slotted_pages ∧
          required + sizeofSlot ≤ (s1.pages t).header.free_space) ∧
    (∀ required s1 t, required + sizeofSlot + sizeofHeader ≤ 64 →
      find redirectedSegments (u32 (required + sizeofSlot)) = some (s1, false, t) →
        required + sizeofSlot ≤ ((addPage s1 t).pages t).header.free_space) :=
  fsi_entry_at_most_free_space insertionSorter isSort_insertionSorter 64 (by decide) (by decide)
    redirectingCalls (by decide) redirectedSegments rfl

end SPSegment

/-! ## Slotted-page segment: records behind a redirect -/

namespace SPSegment

open SlottedPage

/-- C2, failing input: on a segment with pages of 64 bytes, records of 10 and
20 bytes are allocated (TIDs 0 and 1), TID 0 is written and resized to 20
bytes, which moves it to page 1 behind a redirect. `read` follows the redirect
and returns the record. `write` replaces the TID of the redirect by the eight
bytes at page offset `get_offset()` of the redirect slot, here the first eight
bytes of the header of page 0, and the page and slot named by those bytes hold
no redirect target: `write` fails its assertion instead of writing the record. -/
theorem write_on_redirected_record_fails :
    run insertionSorter (init 64) redirectingCalls = some redirectedSegments ∧
    names redirectedSegments 0 = true ∧
    (redirectedSegments.pages 0).slots 0 = TID.make 1 0 ∧
    Slot.is_redirect ((redirectedSegments.pages 0).slots 0) = true ∧
    read redirectedSegments 0 20 =
      some [1, 2, 3, 4, 5, 6, 7, 8, 9, 10, 0, 0, 0, 0, 0, 0, 0, 0, 0, 0] ∧
    readTID (redirectedSegments.pages 0)
      (Slot.get_offset ((redirectedSegments.pages 0).slots 0)) = 146029019138 ∧
    TID.get_segment_page_id 146029019138 = 2228226 ∧
    (write redirectedSegments 0 (List.replicate 20 7)).isSome = false := by
  refine ⟨rfl, ?_, ?_, ?_, ?_, ?_, ?_, ?_⟩ <;> decide

/-- C3, failing input: the record of TID 0 of `redirectedSegments` (20 bytes
behind a redirect on page 1) is resized to 30 bytes. `resize` takes the case
"resized at its target" and calls `relocate` on the target slot, whose growing
path rewrites the slot with `set_slot` and so clears the redirect-target mark
(it also passes `new_size` without the eight bytes of the stored TID). The
bytes are still behind the stored TID, but `read` fails its assertion
`is_redirect_target()`. -/
theorem resize_at_target_clears_mark :
    run insertionSorter redirectedSegments [Call.resize 0 30] = some regrownSegments ∧
    (regrownSegments.pages 0).slots 0 = TID.make 1 0 ∧
    Slot.is_redirect_target ((redirectedSegments.pages 1).slots 0) = true ∧
    Slot.is_redirect_target ((regrownSegments.pages 1).slots 0) = false ∧
    Slot.get_size ((regrownSegments.pages 1).slots 0) = 30 ∧
    readBytes (regrownSegments.pages 1)
      (Slot.get_offset ((regrownSegments.pages 1).slots 0) + sizeofTID) 10 =
      [1, 2, 3, 4, 5, 6, 7, 8, 9, 10] ∧
    (read regrownSegments 0 20).isSome = false := by
  refine ⟨rfl, ?_, ?_, ?_, ?_, ?_, ?_⟩ <;> decide

end SPSegment

/-! ## Slotted-page segment: write, erase and resize of a redirected record -/

namespace SPSegment

open SlottedPage

/-- C12, failing input: in `redirectedSegments` the record of TID 0 is a
redirect to slot 0 of page 1, and that slot passes every check `write` makes
on a target (marked, longer than a TID, starts with TID 0) and has room for 20
bytes behind the stored TID. Still `write(TID 0, record, n)` fails for every
record: it does not follow the TID of the slot word but the eight bytes at
page offset `get_offset()`, which name slot 2 of page 2228226, and that slot
is no redirect target. -/
theorem write_misses_redirect_target :
    Slot.is_redirect ((redirectedSegments.pages 0).slots 0) = true ∧
    TID.get_segment_page_id ((redirectedSegments.pages 0).slots 0) = 1 ∧
    TID.get_slot ((redirectedSegments.pages 0).slots 0) = 0 ∧
    targetChecked (redirectedSegments.pages 1) 0 0 = true ∧
    Slot.get_size ((redirectedSegments.pages 1).slots 0) = 20 + sizeofTID ∧
    targetChecked (redirectedSegments.pages 2228226) 2 0 = false ∧
    ∀ record : List Nat, write redirectedSegments 0 record = none := by
  refine ⟨by decide, by decide, by decide, by decide, by decide, by decide, ?_⟩
  intro record
  have h1 : Slot.is_redirect
      ((redirectedSegments.pages (TID.get_segment_page_id 0)).slots (TID.get_slot 0)) = true := by
    decide
  have h2 : targetChecked
      (redirectedSegments.pages (TID.get_segment_page_id
        (readTID (redirectedSegments.pages (TID.get_segment_page_id 0))
          (Slot.get_offset ((redirectedSegments.pages (TID.get_segment_page_id 0)).slots
            (TID.get_slot 0))))))
      (TID.get_slot (readTID (redirectedSegments.pages (TID.get_segment_page_id 0))
          (Slot.get_offset ((redirectedSegments.pages (TID.get_segment_page_id 0)).slots
            (TID.get_slot 0))))) 0 = false := by
    decide
  unfold write
  simp only [h1, h2, Bool.true_eq_false, ↓reduceIte, Bool.false_eq_true, false_and]

/-- C13, failing input: `erase(tid)` of a record whose slot is a redirect
calls `SlottedPage::erase` on that slot, whose assertion `!slot->is_redirect()`
fails; the call never reaches the target. This holds in every state. -/
theorem erase_of_redirect_fails (s : Segments) (tid : Nat)
    (h : Slot.is_redirect ((s.pages (TID.get_segment_page_id tid)).slots (TID.get_slot tid)) = true) :
    SlottedPage.erase (s.pages (TID.get_segment_page_id tid)) (TID.get_slot tid) = none ∧
    erase s tid = none := by
  have h1 : SlottedPage.erase (s.pages (TID.get_segment_page_id tid)) (TID.get_slot tid) = none := by
    unfold SlottedPage.erase
    simp only [h, ↓reduceIte]
    split <;> rfl
  refine ⟨h1, ?_⟩
  unfold erase
  simp only [h, Bool.true_eq_false, ↓reduceIte]
  unfold dropTarget
  rw [h1]

/-- C13 at the redirected record of `redirectedSegments`: TID 0 names a
record, its slot is a redirect, and `erase` fails. -/
theorem erase_of_redirect_fails_witness :
    names redirectedSegments 0 = true ∧
    Slot.is_redirect ((redirectedSegments.pages (TID.get_segment_page_id 0)).slots
      (TID.get_slot 0)) = true ∧
    SlottedPage.erase (redirectedSegments.pages (TID.get_segment_page_id 0)) (TID.get_slot 0) = none ∧
    erase redirectedSegments 0 = none :=
  ⟨by decide, by decide, erase_of_redirect_fails redirectedSegments 0 (by decide)⟩

/-- C14, failing input: the state `regrownSegments` is reached from the empty
segment by `allocate`, `write` and `resize` calls. Slot 0 of page 0 is a
redirect to slot 0 of page 1, on another page; that slot is not empty, is no
redirect and starts with the TID of the record, but its redirect-target flag
is not set. -/
theorem redirect_target_flag_lost :
    run insertionSorter (init 64) (redirectingCalls ++ [Call.resize 0 30]) = some regrownSegments ∧
    Slot.is_redirect ((regrownSegments.pages 0).slots 0) = true ∧
    TID.get_segment_page_id ((regrownSegments.pages 0).slots 0) = 1 ∧
    TID.get_slot ((regrownSegments.pages 0).slots 0) = 0 ∧
    0 < (regrownSegments.pages 1).header.slot_count ∧
    Slot.is_empty ((regrownSegments.pages 1).slots 0) = false ∧
    Slot.is_redirect ((regrownSegments.pages 1).slots 0) = false ∧
    readTID (regrownSegments.pages 1) (Slot.get_offset ((regrownSegments.pages 1).slots 0)) = 0 ∧
    Slot.is_redirect_target ((regrownSegments.pages 1).slots 0) = false := by
  refine ⟨rfl, ?_, ?_, ?_, ?_, ?_, ?_, ?_, ?_⟩ <;> decide

/-- C15, failing input: in `redirectedSegments` the record of TID 0 has just
been resized to 20 bytes and lies behind a redirect, in a target slot of 28
bytes (TID and record). A second `resize(TID 0, 20)` takes the case "resized
at its target" and relocates the target slot to 20 bytes: the slot word and
`free_space` of page 1 change. -/
theorem second_resize_shrinks_target :
    run insertionSorter (init 64) redirectingCalls = some redirectedSegments ∧
    run insertionSorter redirectedSegments [Call.resize 0 20] = some resizedAgain ∧
    Slot.get_size ((redirectedSegments.pages 1).slots 0) = 28 ∧
    Slot.get_size ((resizedAgain.pages 1).slots 0) = 20 ∧
    (redirectedSegments.pages 1).header.free_space = 16 ∧
    (resizedAgain.pages 1).header.free_space = 24 ∧
    (redirectedSegments.pages 1).slots 0 ≠ (resizedAgain.pages 1).slots 0 := by
  refine ⟨rfl, rfl, ?_, ?_, ?_, ?_, ?_⟩ <;> decide

end SPSegment

/-! ## Slot words and tuple ids as bit fields -/

namespace SlottedPage

theorem xor_low (a b k : Nat) (hb : b < 2 ^ k) : (2 ^ k * a) ^^^ b = 2 ^ k * a + b := by
  apply Nat.eq_of_testBit_eq
  intro i
  rw [Nat.testBit_xor, Nat.testBit_mul_pow_two_add a hb i]
  have h0 : (2 ^ k * a).testBit i = (2 ^ k * a + 0).testBit i := by rw [Nat.add_zero]
  rw [h0, Nat.testBit_mul_pow_two_add a (Nat.two_pow_pos k) i]
  by_cases hi : i < k
  · simp only [hi, ↓reduceIte, Nat.zero_testBit, Bool.false_xor]
  · simp only [hi, ↓reduceIte]
    rw [testBit_small hb (by omega), Bool.xor_false]

theorem or_low (a b k : Nat) (hb : b < 2 ^ k) : (2 ^ k * a) ||| b = 2 ^ k * a + b := by
  apply Nat.eq_of_testBit_eq
  intro i
  rw [Nat.testBit_or, Nat.testBit_mul_pow_two_add a hb i]
  have h0 : (2 ^ k * a).testBit i = (2 ^ k * a + 0).testBit i := by rw [Nat.add_zero]
  rw [h0, Nat.testBit_mul_pow_two_add a (Nat.two_pow_pos k) i]
  by_cases hi : i < k
  · simp only [hi, ↓reduceIte, Nat.zero_testBit, Bool.false_or]
  · simp only [hi, ↓reduceIte]
    rw [testBit_small hb (by omega), Bool.or_false]

/-- C27. For `offset` and `size` below `2^24`, `Slot::set_slot(offset, size, flag)`
leaves a 64-bit word with `0xFF` in bits 63..56, `0xFF` or `0x00` in bits 55..48
according to `flag`, `offset` in bits 47..24 and `size` in bits 23..0; the
getters return `offset`, `size`, "no redirect" and `flag`, and `is_empty()`
holds exactly when the word is `0xFF00000000000000` (offset 0, size 0, no
flag). For a `TID` whose top byte is not `0xFF`, `set_redirect_tid(tid)` stores
the value of the `TID`: the slot is a redirect and reads back as `tid`. -/
theorem set_slot_fields (offset size : Nat) (redirect_target : Bool) :
    (offset < 2 ^ 24 → size < 2 ^ 24 →
      Slot.set_slot offset size redirect_target < 2 ^ 64 ∧
      Slot.set_slot offset size redirect_target >>> 56 = 0xFF ∧
      (Slot.set_slot offset size redirect_target >>> 48) &&& 0xFF =
        (if redirect_target then 0xFF else 0x00) ∧
      (Slot.set_slot offset size redirect_target >>> 24) &&& 0xFFFFFF = offset ∧
      Slot.set_slot offset size redirect_target &&& 0xFFFFFF = size ∧
      Slot.get_offset (Slot.set_slot offset size redirect_target) = offset ∧
      Slot.get_size (Slot.set_slot offset size redirect_target) = size ∧
      Slot.is_redirect (Slot.set_slot offset size redirect_target) = false ∧
      Slot.is_redirect_target (Slot.set_slot offset size redirect_target) = redirect_target ∧
      (Slot.is_empty (Slot.set_slot offset size redirect_target) = true ↔
        Slot.set_slot offset size redirect_target = 0xFF00000000000000) ∧
      (Slot.set_slot offset size redirect_target = 0xFF00000000000000 ↔
        (offset = 0 ∧ size = 0 ∧ redirect_target = false))) ∧
    (∀ tid, tid < 2 ^ 64 → tid >>> 56 ≠ 0xFF → ∀ (p : SlottedPage) (slot_id : Nat),
      ∃ p1, SPSegment.set_redirect_tid p slot_id tid = some p1 ∧
        p1.slots slot_id = tid ∧ (∀ i, i ≠ slot_id → p1.slots i = p.slots i) ∧
        Slot.is_redirect (p1.slots slot_id) = true ∧
        Slot.as_redirect_tid (p1.slots slot_id) = tid) := by
  constructor
  · intro ho hs
    have hf : (if redirect_target then 255 else 0) < 2 ^ 8 := by
      cases redirect_target <;> norm_num
    have hw := set_slot_eq offset size redirect_target
    rw [Nat.mod_eq_of_lt ho, Nat.mod_eq_of_lt hs] at hw
    have hoff := get_offset_compose 255 (if redirect_target then 255 else 0) offset size ho hs
    have hsz := get_size_compose 255 (if redirect_target then 255 else 0) offset size hs
    have hred := is_redirect_compose 255 (if redirect_target then 255 else 0) offset size hf ho hs
    have htar := is_redirect_target_compose 255 (if redirect_target then 255 else 0) offset size
      hf ho hs
    have hemp := is_empty_compose (if redirect_target then 255 else 0) offset size
    rw [← hw] at hoff hsz hred htar hemp
    have hval : Slot.set_slot offset size redirect_target =
        2 ^ 24 * (2 ^ 24 * (2 ^ 8 * 255 + (if redirect_target then 255 else 0)) + offset) + size := hw
    have hflag : (if redirect_target then 255 else 0) ≠ 0 ↔ redirect_target = true := by
      cases redirect_target <;> simp
    refine ⟨?_, ?_, ?_, hoff, hsz, hoff, hsz, ?_, ?_, ?_, ?_⟩
    · rw [hval]; omega
    · rw [hval, Nat.shiftRight_eq_div_pow]; omega
    · have e1 : ∀ x : Nat, x &&& 0xFF = x % 2 ^ 8 := fun x => Nat.and_pow_two_sub_one_eq_mod x 8
      rw [hval, e1, Nat.shiftRight_eq_div_pow]
      have : (2 ^ 24 * (2 ^ 24 * (2 ^ 8 * 255 + (if redirect_target then 255 else 0)) + offset)
          + size) / 2 ^ 48 % 2 ^ 8 = (if redirect_target then 255 else 0) := by omega
      rw [this]
    · rw [hred]; rfl
    · rw [htar]
      cases redirect_target <;> rfl
    · unfold Slot.is_empty Slot.EMPTY_NON_REDIRECT_SLOT
      simp only [beq_iff_eq]
    · rw [hval]
      cases redirect_target
      · simp only [Bool.false_eq_true, ↓reduceIte]
        constructor
        · intro h; exact ⟨by omega, by omega, trivial⟩
        · rintro ⟨h1, h2, _⟩; subst h1 h2; norm_num
      · simp only [↓reduceIte]
        constructor
        · intro h; omega
        · rintro ⟨_, _, h3⟩; cases h3
  · intro tid ht htop p slot_id
    have hlt : tid >>> 56 < 256 := by
      rw [Nat.shiftRight_eq_div_pow]
      omega
    have hc : 0xFF - (tid >>> 56) > 0 := by omega
    refine ⟨setSlotWord p slot_id tid, ?_, ?_, ?_, ?_, ?_⟩
    · unfold SPSegment.set_redirect_tid
      rw [if_pos hc]
    · show (if slot_id = slot_id then tid else p.slots slot_id) = tid
      rw [if_pos rfl]
    · intro i hi
      show (if i = slot_id then tid else p.slots i) = p.slots i
      rw [if_neg hi]
    · show Slot.is_redirect (if slot_id = slot_id then tid else p.slots slot_id) = true
      rw [if_pos rfl]
      unfold Slot.is_redirect
      simp only [bne_iff_ne, ne_eq]
      exact htop
    · show (if slot_id = slot_id then tid else p.slots slot_id) = tid
      rw [if_pos rfl]

/-- C27 at a marked slot of 20 bytes at offset 100 and at the redirect to
slot 0 of page 1. -/
theorem set_slot_fields_witness :
    (Slot.set_slot 100 20 true = 0xFFFF000064000014 ∧
      Slot.get_offset (Slot.set_slot 100 20 true) = 100 ∧
      Slot.get_size (Slot.set_slot 100 20 true) = 20 ∧
      Slot.is_redirect (Slot.set_slot 100 20 true) = false ∧
      Slot.is_redirect_target (Slot.set_slot 100 20 true) = true) ∧
    ∃ p1, SPSegment.set_redirect_tid zeroPage 3 (TID.make 1 0) = some p1 ∧
      p1.slots 3 = TID.make 1 0 ∧ Slot.is_redirect (p1.slots 3) = true :=
  ⟨⟨by decide,
    ((set_slot_fields 100 20 true).1 (by decide) (by decide)).2.2.2.2.2.1,
    ((set_slot_fields 100 20 true).1 (by decide) (by decide)).2.2.2.2.2.2.1,
    ((set_slot_fields 100 20 true).1 (by decide) (by decide)).2.2.2.2.2.2.2.1,
    ((set_slot_fields 100 20 true).1 (by decide) (by decide)).2.2.2.2.2.2.2.2.1⟩,
   (fun h => ⟨h.choose, h.choose_spec.1, h.choose_spec.2.1, h.choose_spec.2.2.2.1⟩)
     ((set_slot_fields 0 0 false).2 (TID.make 1 0) (by decide) (by decide) zeroPage 3)⟩

end SlottedPage

namespace TID

open SlottedPage

/-- C28. For a 64-bit page id `pid` and a 16-bit slot `s`, `TID(pid, s)` has the
value `((pid mod 2^48) << 16) | s`; `get_slot()` is `s`, `get_segment_page_id()`
is `pid mod 2^48`, and `get_page_id(seg)` is `(seg << 48) | (pid mod 2^48)`,
which is `pid` when `seg` is `pid >> 48`. -/
theorem tid_fields (pid s : Nat) (hp : pid < 2 ^ 64) (hs : s < 2 ^ 16) :
    make pid s = ((pid % 2 ^ 48) <<< 16) ||| s ∧
    get_slot (make pid s) = s ∧
    get_segment_page_id (make pid s) = pid % 2 ^ 48 ∧
    (∀ seg, seg < 2 ^ 16 → get_page_id (make pid s) seg = (seg <<< 48) ||| (pid % 2 ^ 48)) ∧
    get_page_id (make pid s) (pid >>> 48) = pid := by
  have e1 : (0xFFFF : Nat) = 2 ^ 16 - 1 := by norm_num
  have hlow : pid % 2 ^ 48 < 2 ^ 48 := Nat.mod_lt _ (by norm_num)
  have hval : make pid s = 2 ^ 16 * (pid % 2 ^ 48) + s := by
    unfold make
    rw [e1, Nat.and_pow_two_sub_one_eq_mod, Nat.mod_eq_of_lt hs, Nat.shiftLeft_eq]
    have : pid * 2 ^ 16 % 2 ^ 64 = 2 ^ 16 * (pid % 2 ^ 48) := by omega
    rw [this]
    exact xor_low _ _ 16 hs
  have hpg : make pid s >>> 16 = pid % 2 ^ 48 := by
    rw [hval, Nat.shiftRight_eq_div_pow]
    omega
  have hget : ∀ seg, seg < 2 ^ 16 →
      get_page_id (make pid s) seg = 2 ^ 48 * seg + pid % 2 ^ 48 := by
    intro seg hseg
    unfold get_page_id
    rw [hpg, Nat.mod_eq_of_lt hseg, Nat.shiftLeft_eq, Nat.mul_comm seg, Nat.xor_comm]
    exact xor_low _ _ 48 hlow
  refine ⟨?_, ?_, hpg, ?_, ?_⟩
  · rw [hval, Nat.shiftLeft_eq, Nat.mul_comm (pid % 2 ^ 48)]
    exact (or_low _ _ 16 hs).symm
  · unfold get_slot
    rw [hval, e1, Nat.and_pow_two_sub_one_eq_mod]
    omega
  · intro seg hseg
    rw [hget seg hseg, Nat.shiftLeft_eq, Nat.mul_comm seg]
    exact (or_low _ _ 48 hlow).symm
  · have hq : pid >>> 48 < 2 ^ 16 := by
      rw [Nat.shiftRight_eq_div_pow]
      omega
    rw [hget _ hq, Nat.shiftRight_eq_div_pow]
    omega

/-- C28 at page 5 of segment 3 and slot 7. -/
theorem tid_fields_witness :
    make (3 * 2 ^ 48 + 5) 7 = 5 * 2 ^ 16 + 7 ∧
    get_slot (make (3 * 2 ^ 48 + 5) 7) = 7 ∧
    get_segment_page_id (make (3 * 2 ^ 48 + 5) 7) = 5 ∧
    get_page_id (make (3 * 2 ^ 48 + 5) 7) 3 = 3 * 2 ^ 48 + 5 :=
  ⟨by decide,
    (tid_fields (3 * 2 ^ 48 + 5) 7 (by decide) (by decide)).2.1,
    (tid_fields (3 * 2 ^ 48 + 5) 7 (by decide) (by decide)).2.2.1,
    (tid_fields (3 * 2 ^ 48 + 5) 7 (by decide) (by decide)).2.2.2.1 3 (by decide)⟩

end TID

/-! ## The levels of the free-space inventory -/

namespace FSISegment

open SlottedPage

/-- Every level up to `i` whose threshold is at most `x` is at most the level
the loop returns when it starts from `i`. -/
theorem encodeFrom_greatest (P x : Nat) : ∀ i j, j ≤ i → look_up_table P j ≤ x →
    j ≤ encodeFrom P x i := by
  intro i
  induction i with
  | zero =>
    intro j hj _
    exact hj
  | succ n ih =>
    intro j hj hx
    unfold encodeFrom
    split
    · exact hj
    · rename_i hn
      have hne : j ≠ n + 1 := by
        intro e
        subst e
        exact hn hx
      have := ih j (by omega) hx
      omega

/-- C22. For every page size and every free-space value `x`,
`encode_free_space(x)` is a level in 0..15 whose threshold in the lookup table
is at most `x`, no level with a threshold of at most `x` is greater, and
`decode_free_space(encode_free_space(x)) <= x`. -/
theorem encode_is_greatest_level (page_size x : Nat) :
    encode_free_space page_size x ≤ 15 ∧
    look_up_table page_size (encode_free_space page_size x) ≤ x ∧
    (∀ j, j ≤ 15 → look_up_table page_size j ≤ x → j ≤ encode_free_space page_size x) ∧
    decode_free_space page_size (encode_free_space page_size x) ≤ x :=
  ⟨encodeFrom_le page_size x 15, decode_encodeFrom page_size x 15,
    fun j hj hx => encodeFrom_greatest page_size x 15 j hj hx, decode_encode page_size x⟩

/-- C23, as the claim states it, fails on the page size it names: with 1024
bytes the capacity is 1012, level 8 is `1012 - 7 * 63 = 571` and level 15 is
1012, where `C/2 + k * (C/16)` gives 569 and 1010. -/
theorem linear_levels_count_down_from_capacity :
    look_up_table 1024 8 = 571 ∧ (1024 - sizeofHeader) / 2 + 1 * ((1024 - sizeofHeader) / 16) = 569 ∧
    look_up_table 1024 15 = 1012 ∧
    (1024 - sizeofHeader) / 2 + 8 * ((1024 - sizeofHeader) / 16) = 1010 := by
  decide

/-- C23, amended. For a page size of at least `sizeof(Header)` with capacity
`C = page_size - sizeof(Header)` below `2^32`, the table holds
`0, C/128, C/64, C/32, C/16, C/8, C/4, C/2` at the levels 0..7 and
`C - (8 - k) * (C/16)` at level `7 + k` for `k = 1..8`; this is
`C/2 + k * (C/16)` when `C` is a multiple of 16. -/
theorem look_up_table_values (page_size : Nat) (h12 : sizeofHeader ≤ page_size)
    (h32 : page_size - sizeofHeader < 2 ^ 32) :
    look_up_table page_size 0 = 0 ∧
    look_up_table page_size 1 = (page_size - sizeofHeader) / 128 ∧
    look_up_table page_size 2 = (page_size - sizeofHeader) / 64 ∧
    look_up_table page_size 3 = (page_size - sizeofHeader) / 32 ∧
    look_up_table page_size 4 = (page_size - sizeofHeader) / 16 ∧
    look_up_table page_size 5 = (page_size - sizeofHeader) / 8 ∧
    look_up_table page_size 6 = (page_size - sizeofHeader) / 4 ∧
    look_up_table page_size 7 = (page_size - sizeofHeader) / 2 ∧
    (∀ k, 1 ≤ k → k ≤ 8 → look_up_table page_size (7 + k) =
      (page_size - sizeofHeader) - (8 - k) * ((page_size - sizeofHeader) / 16)) ∧
    ((page_size - sizeofHeader) % 16 = 0 → ∀ k, 1 ≤ k → k ≤ 8 →
      look_up_table page_size (7 + k) =
        (page_size - sizeofHeader) / 2 + k * ((page_size - sizeofHeader) / 16)) := by
  have hs : sub64 page_size sizeofHeader = page_size - sizeofHeader := by
    unfold sub64
    rw [if_pos h12]
  generalize hC : page_size - sizeofHeader = C at hs h32
  have hlin : ∀ k, 1 ≤ k → k ≤ 8 → look_up_table page_size (7 + k) = C - (8 - k) * (C / 16) := by
    intro k h1 h8
    have e16 : C / 2 / 8 = C / 16 := Nat.div_div_eq_div_mul C 2 8
    interval_cases k <;>
      simp only [look_up_table, hs, u32, Nat.shiftRight_eq_div_pow, Nat.reduceAdd,
        Nat.reducePow, Nat.reduceSub, e16] <;> omega
  refine ⟨?_, ?_, ?_, ?_, ?_, ?_, ?_, ?_, hlin, ?_⟩
  · simp only [look_up_table]
  all_goals try (simp only [look_up_table, hs, u32, Nat.shiftRight_eq_div_pow, Nat.reducePow,
    Nat.div_div_eq_div_mul, Nat.reduceMul]; omega)
  intro h16 k h1 h8
  rw [hlin k h1 h8]
  interval_cases k <;> omega

/-- C23, amended, on pages of 1024 bytes. -/
theorem look_up_table_values_witness :
    look_up_table 1024 1 = 7 ∧ look_up_table 1024 7 = 506 ∧ look_up_table 1024 12 = 823 :=
  ⟨by decide,
    (look_up_table_values 1024 (by decide) (by decide)).2.2.2.2.2.2.2.1,
    (look_up_table_values 1024 (by decide) (by decide)).2.2.2.2.2.2.2.2.1 5 (by decide) (by decide)⟩

end FSISegment

/-! ## `find` returns the first page with room -/

namespace FSISegment

open SlottedPage

/-- The scan of one page of the inventory passes only entries without room. -/
theorem findInPage_first (s : Segments) (required pg num : Nat) (h0 : 0 < s.page_size)
    (hP : s.page_size < 2 ^ 24) :
    ∀ (len b sp : Nat), b + len ≤ s.page_size → sp = pg * (s.page_size <<< 1) + 2 * b →
      sp < num → (∀ j, j < sp → decode_free_space s.page_size (entry s j) < required) →
      (∀ s1 t, findInPage s required pg num (List.range' b len) sp = Scan.hit s1 t →
        ∀ j, j < t → decode_free_space s.page_size (entry s j) < required) ∧
      (∀ t, findInPage s required pg num (List.range' b len) sp = Scan.miss t →
        ∀ j, j < num → decode_free_space s.page_size (entry s j) < required) ∧
      (∀ sp1, findInPage s required pg num (List.range' b len) sp = Scan.next sp1 →
        ∀ j, j < sp1 → decode_free_space s.page_size (entry s j) < required) := by
  intro len
  induction len with
  | zero =>
    intro b sp _ hsp hlt hbefore
    simp only [List.range'_zero, findInPage]
    refine ⟨fun _ _ h => by simp at h, fun _ h => by simp at h, ?_⟩
    intro sp1 h
    simp only [Scan.next.injEq] at h
    rw [← h]
    exact hbefore
  | succ len ih =>
    intro b sp hb hsp hlt hbefore
    have hbP : b < s.page_size := by omega
    have hs1 : u32 (b <<< 1) = 2 * b + 0 := by
      rw [Nat.shiftLeft_eq]
      rw [u32_small (by omega)]
      omega
    have hs2 : u32 ((b <<< 1) + 1) = 2 * b + 1 := by
      rw [Nat.shiftLeft_eq]
      rw [u32_small (by omega)]
      omega
    obtain ⟨a1, a2, a3⟩ := target_at s.page_size pg b 0 hbP (by norm_num)
    obtain ⟨c1, c2, c3⟩ := target_at s.page_size pg b 1 hbP (by norm_num)
    have hent0 := entry_at s _ pg b a1 a2
    rw [if_pos a3] at hent0
    have hent1 := entry_at s _ pg b c1 c2
    have c3n : ¬ ((pg * (s.page_size <<< 1) + (2 * b + 1)) % (s.page_size <<< 1)) &&& 1 = 0 := by
      rw [c3]; norm_num
    rw [if_neg c3n] at hent1
    have e0 : pg * (s.page_size <<< 1) + (2 * b + 0) = sp := by omega
    have e1 : pg * (s.page_size <<< 1) + (2 * b + 1) = sp + 1 := by omega
    rw [e0] at hent0
    rw [e1] at hent1
    simp only [List.range'_succ]
    rw [findInPage]
    simp only [hs1, hs2]
    by_cases h1 : decode_free_space s.page_size (s.fsi pg b >>> 4) ≥ required
    · simp only [h1, ↓reduceIte]
      refine ⟨?_, fun _ h => by simp at h, fun _ h => by simp at h⟩
      intro s1 t h
      simp only [Scan.hit.injEq] at h
      intro j hj
      exact hbefore j (by omega)
    · simp only [h1, ↓reduceIte]
      have hb1 : ∀ j, j < sp + 1 → decode_free_space s.page_size (entry s j) < required := by
        intro j hj
        by_cases hjs : j = sp
        · rw [hjs, hent0]
          omega
        · exact hbefore j (by omega)
      by_cases h2 : sp + 1 = num
      · simp only [h2, ↓reduceIte]
        refine ⟨fun _ _ h => by simp at h, ?_, fun _ h => by simp at h⟩
        intro t _ j hj
        exact hb1 j (by omega)
      · simp only [h2, ↓reduceIte]
        by_cases h3 : decode_free_space s.page_size (s.fsi pg b &&& 0x0f) ≥ required
        · simp only [h3, ↓reduceIte]
          refine ⟨?_, fun _ h => by simp at h, fun _ h => by simp at h⟩
          intro s1 t h
          simp only [Scan.hit.injEq] at h
          intro j hj
          exact hb1 j (by omega)
        · simp only [h3, ↓reduceIte]
          have hb2 : ∀ j, j < sp + 2 → decode_free_space s.page_size (entry s j) < required := by
            intro j hj
            by_cases hjs : j = sp + 1
            · rw [hjs, hent1]
              omega
            · exact hb1 j (by omega)
          by_cases h4 : sp + 2 = num
          · simp only [h4, ↓reduceIte]
            refine ⟨fun _ _ h => by simp at h, ?_, fun _ h => by simp at h⟩
            intro t _ j hj
            exact hb2 j (by omega)
          · simp only [h4, ↓reduceIte]
            exact ih (b + 1) (sp + 2) (by omega) (by omega) (by omega) hb2

/-- The outer loop returns when the pages of the inventory it has left cover
all slotted pages, and it passes only entries without room. -/
theorem findPages_first (s : Segments) (required num : Nat) (h0 : 0 < s.page_size)
    (hP : s.page_size < 2 ^ 24) (hbytes : ∀ pg i, s.fsi pg i < 256) :
    ∀ (len pg sp : Nat), sp = pg * (s.page_size <<< 1) → sp < num →
      num ≤ (pg + len) * (s.page_size <<< 1) →
      (∀ j, j < sp → decode_free_space s.page_size (entry s j) < required) →
      ∃ r, findPages s required num (List.range' pg len) sp = some r ∧
        (r.2.1 = false →
          ∀ j, j < num → decode_free_space s.page_size (entry s j) < required) ∧
        (r.2.1 = true →
          ∀ j, j < r.2.2 → decode_free_space s.page_size (entry s j) < required) := by
  intro len
  induction len with
  | zero =>
    intro pg sp hsp hlt hcov _
    rw [Nat.add_zero] at hcov
    omega
  | succ len ih =>
    intro pg sp hsp hlt hcov hbefore
    simp only [List.range'_succ]
    rw [findPages]
    have hr : List.range s.page_size = List.range' 0 s.page_size := List.range_eq_range' _
    rw [hr]
    obtain ⟨f1, f2, f3⟩ := findInPage_spec s required pg num h0 hP hbytes s.page_size 0 sp
      (by omega) (by omega) hlt
    obtain ⟨k1, k2, k3⟩ := findInPage_first s required pg num h0 hP s.page_size 0 sp
      (by omega) (by omega) hlt hbefore
    cases hf : findInPage s required pg num (List.range' 0 s.page_size) sp with
    | hit s1 t =>
      exact ⟨_, rfl, fun hh => by simp at hh, fun _ => k1 s1 t hf⟩
    | miss t =>
      exact ⟨_, rfl, fun _ => k2 t hf, fun hh => by simp at hh⟩
    | next sp1 =>
      obtain ⟨g1, g2⟩ := f3 sp1 hf
      have e : sp1 = (pg + 1) * (s.page_size <<< 1) := by
        rw [g1, Nat.shiftLeft_eq]
        ring
      have hcov1 : num ≤ (pg + 1 + len) * (s.page_size <<< 1) := by
        have : pg + 1 + len = pg + (len + 1) := by omega
        rw [this]
        exact hcov
      exact ih (pg + 1) sp1 e g2 hcov1 (k3 sp1 hf)

/-- C24. In a state with `n > 0` allocated slotted pages whose entries lie on
allocated pages of the inventory, `find(r)` returns. When it reports a page, it
is the page with the smallest index below `n` whose decoded entry is at least
`r`; only the entry of that page is rewritten, to
`encode_free_space(decoded - r)`, and pages and counters stay. When it reports
none, no entry below `n` decodes to `r` or more, the state is unchanged and
the value is `n`. The page id handed out carries the segment id in its upper
16 bits. -/
theorem find_first_fit (s : Segments) (required : Nat) (h0 : 0 < s.page_size)
    (hP : s.page_size < 2 ^ 24) (hbytes : ∀ pg i, s.fsi pg i < 256)
    (hn : 0 < s.allocated_slotted_pages) (hn48 : s.allocated_slotted_pages < 2 ^ 48)
    (hcover : s.allocated_slotted_pages ≤ s.allocated_fsi_pages * (s.page_size <<< 1)) :
    ∃ s1 found t, find s required = some (s1, found, t) ∧
      (found = true ↔ ∃ i, i < s.allocated_slotted_pages ∧
        required ≤ decode_free_space s.page_size (entry s i)) ∧
      (found = true →
        t < s.allocated_slotted_pages ∧
        required ≤ decode_free_space s.page_size (entry s t) ∧
        (∀ j, j < t → decode_free_space s.page_size (entry s j) < required) ∧
        entry s1 t = encode_free_space s.page_size
          (decode_free_space s.page_size (entry s t) - required) ∧
        (∀ m, m ≠ t → entry s1 m = entry s m) ∧
        s1.pages = s.pages ∧ s1.page_size = s.page_size ∧
        s1.allocated_slotted_pages = s.allocated_slotted_pages ∧
        s1.allocated_fsi_pages = s.allocated_fsi_pages) ∧
      (found = false → t = s.allocated_slotted_pages ∧ s1 = s) ∧
      (∀ seg, seg < 2 ^ 16 → target_page_id seg t = (seg <<< 48) ||| t) := by
  have h2P : 0 < s.page_size <<< 1 := by
    rw [Nat.shiftLeft_eq]; omega
  have hafp : 0 < s.allocated_fsi_pages := by
    rcases Nat.eq_zero_or_pos s.allocated_fsi_pages with h | h
    · rw [h] at hcover; omega
    · exact h
  have hge : s.allocated_slotted_pages * (s.page_size <<< 1) ≥ s.allocated_slotted_pages :=
    Nat.le_mul_of_pos_right _ h2P
  have hfind : find s required = findPages s required s.allocated_slotted_pages
      (List.range' 0 s.allocated_fsi_pages) 0 := by
    unfold find
    rw [if_pos ⟨hn, hafp, hge⟩, List.range_eq_range']
  obtain ⟨r, hr, m1, m2⟩ := findPages_first s required s.allocated_slotted_pages h0 hP hbytes
    s.allocated_fsi_pages 0 0 (by omega) hn (by rw [Nat.zero_add]; exact hcover)
    (fun j hj => by omega)
  rw [← hfind] at hr
  obtain ⟨q1, q2⟩ := find_spec s required h0 hP hbytes r hr
  obtain ⟨s1, found, t⟩ := r
  simp only at m1 m2 q1 q2
  have ht : t ≤ s.allocated_slotted_pages := by
    cases found
    · rw [(q1 rfl).2]
    · exact le_of_lt (q2 rfl).2
  refine ⟨s1, found, t, hr, ?_, ?_, ?_, ?_⟩
  · constructor
    · intro hf
      obtain ⟨hF, hlt⟩ := q2 hf
      exact ⟨t, hlt, hF.2.2.2.2.1⟩
    · rintro ⟨i, hi, hq⟩
      cases found
      · have := m1 rfl i hi
        omega
      · rfl
  · intro hf
    obtain ⟨hF, hlt⟩ := q2 hf
    obtain ⟨g1, g2, g3, g4, g5, g6, g7, _⟩ := hF
    exact ⟨hlt, g5, m2 hf, g6, g7, g1, g2, g3, g4⟩
  · intro hf
    exact ⟨(q1 hf).2, (q1 hf).1⟩
  · intro seg hseg
    unfold target_page_id
    rw [Nat.mod_eq_of_lt hseg, Nat.shiftLeft_eq, Nat.mul_comm seg,
      xor_low _ _ 48 (by omega), or_low _ _ 48 (by omega)]

/-- C24 on the fresh segment with pages of 64 bytes, asked for 20 bytes. -/
theorem find_first_fit_witness :
    ∃ s1 found t, find (SPSegment.init 64) 20 = some (s1, found, t) ∧
      (found = true ↔ ∃ i, i < (SPSegment.init 64).allocated_slotted_pages ∧
        20 ≤ decode_free_space (SPSegment.init 64).page_size (entry (SPSegment.init 64) i)) ∧
      (found = true →
        t < (SPSegment.init 64).allocated_slotted_pages ∧
        20 ≤ decode_free_space (SPSegment.init 64).page_size (entry (SPSegment.init 64) t) ∧
        (∀ j, j < t →
          decode_free_space (SPSegment.init 64).page_size (entry (SPSegment.init 64) j) < 20) ∧
        entry s1 t = encode_free_space (SPSegment.init 64).page_size
          (decode_free_space (SPSegment.init 64).page_size (entry (SPSegment.init 64) t) - 20) ∧
        (∀ m, m ≠ t → entry s1 m = entry (SPSegment.init 64) m) ∧
        s1.pages = (SPSegment.init 64).pages ∧ s1.page_size = (SPSegment.init 64).page_size ∧
        s1.allocated_slotted_pages = (SPSegment.init 64).allocated_slotted_pages ∧
        s1.allocated_fsi_pages = (SPSegment.init 64).allocated_fsi_pages) ∧
      (found = false → t = (SPSegment.init 64).allocated_slotted_pages ∧
        s1 = SPSegment.init 64) ∧
      (∀ seg, seg < 2 ^ 16 → target_page_id seg t = (seg <<< 48) ||| t) :=
  find_first_fit (SPSegment.init 64) 20 (by decide) (by decide)
    (SPSegment.seginv_init 64 (by decide)).bytes (by decide) (by decide) (by decide)

end FSISegment

/-! ## Slotted-page segment: the size of a redirect target after `resize` -/

namespace SPSegment

open SlottedPage

/-- C39, failing input: in `redirectedSegments` the record of TID 0 is 20
bytes long and lies behind a redirect to slot 0 of page 1, a slot of
`20 + sizeof(TID)` bytes at offset 36. `resize(TID 0, 18)` is done at the
target page and relocates the target slot to 18 bytes, not to
`18 + sizeof(TID)`: the slot then covers the page bytes 36 to 53, the TID and
ten record bytes. `read(TID 0, record, 18)` passes its checks and copies the 18
bytes from offset 44 on, of which the last eight (54 to 61) lie behind the
payload of the slot. -/
theorem resized_target_lacks_tid_bytes :
    run insertionSorter (init 64) redirectingCalls = some redirectedSegments ∧
    Slot.is_redirect ((redirectedSegments.pages 0).slots 0) = true ∧
    TID.get_segment_page_id ((redirectedSegments.pages 0).slots 0) = 1 ∧
    TID.get_slot ((redirectedSegments.pages 0).slots 0) = 0 ∧
    Slot.get_size ((redirectedSegments.pages 1).slots 0) = 20 + sizeofTID ∧
    run insertionSorter redirectedSegments [Call.resize 0 18] = some shrunkSegments ∧
    (shrunkSegments.pages 0).slots 0 = (redirectedSegments.pages 0).slots 0 ∧
    targetChecked (shrunkSegments.pages 1) 0 0 = true ∧
    Slot.get_offset ((shrunkSegments.pages 1).slots 0) = 36 ∧
    Slot.get_size ((shrunkSegments.pages 1).slots 0) = 18 ∧
    Slot.get_size ((shrunkSegments.pages 1).slots 0) ≠ 18 + sizeofTID ∧
    read shrunkSegments 0 18 = some (readBytes (shrunkSegments.pages 1) (36 + sizeofTID) 18) ∧
    36 + 18 < 36 + sizeofTID + 18 := by
  refine ⟨rfl, ?_, ?_, ?_, ?_, rfl, ?_, ?_, ?_, ?_, ?_, ?_, ?_⟩ <;> decide
end SPSegment

/-! ## B+ tree: the nodes -/

namespace BTree

theorem lowerBoundLoop_spec (keys : Nat → Nat) (key n : Nat) (hs : Sorted keys n) :
    ∀ (fuel first cnt : Nat), cnt ≤ fuel → first + cnt ≤ n →
      (∀ i, i < first → keys i < key) →
      (∀ i, first + cnt ≤ i → i < n → key ≤ keys i) →
      first ≤ lowerBoundLoop keys key fuel first cnt ∧
        lowerBoundLoop keys key fuel first cnt ≤ first + cnt ∧
        (∀ i, i < lowerBoundLoop keys key fuel first cnt → keys i < key) ∧
        (∀ i, lowerBoundLoop keys key fuel first cnt ≤ i → i < n → key ≤ keys i) := by
  intro fuel
  induction fuel with
  | zero =>
    intro first cnt hc hn hlt hge
    have : cnt = 0 := by omega
    subst this
    simp only [lowerBoundLoop]
    exact ⟨le_refl _, by omega, hlt, fun i hi => hge i (by omega)⟩
  | succ fuel ih =>
    intro first cnt hc hn hlt hge
    rw [lowerBoundLoop]
    by_cases h0 : cnt > 0
    · simp only [h0, ↓reduceIte]
      by_cases hk : keys (first + cnt / 2) < key
      · simp only [hk, ↓reduceIte]
        have hstep : cnt / 2 < cnt := Nat.div_lt_self h0 (by norm_num)
        obtain ⟨a1, a2, a3, a4⟩ := ih (first + cnt / 2 + 1) (cnt - (cnt / 2 + 1)) (by omega)
          (by omega)
          (by
            intro i hi
            by_cases hi2 : i = first + cnt / 2
            · rw [hi2]; exact hk
            · have := hs i (first + cnt / 2) (by omega) (by omega)
              omega)
          (by
            intro i hi hin
            exact hge i (by omega) hin)
        exact ⟨by omega, by omega, a3, a4⟩
      · simp only [hk, ↓reduceIte]
        have hstep : cnt / 2 < cnt := Nat.div_lt_self h0 (by norm_num)
        obtain ⟨a1, a2, a3, a4⟩ := ih first (cnt / 2) (by omega) (by omega) hlt
          (by
            intro i hi hin
            by_cases hi2 : i = first + cnt / 2
            · rw [hi2]; omega
            · have := hs (first + cnt / 2) i (by omega) hin
              omega)
        exact ⟨a1, by omega, a3, a4⟩
    · simp only [h0, ↓reduceIte]
      exact ⟨le_refl _, by omega, hlt, fun i hi => hge i (by omega)⟩

end BTree

namespace BTree

theorem u16_of_lt {x : Nat} (h : x < 2 ^ 16) : u16 x = x := Nat.mod_eq_of_lt h

theorem pred32_of_pos {x : Nat} (h1 : 1 ≤ x) : pred32 x = x - 1 := by
  unfold pred32
  rw [if_neg (by omega)]

theorem pred32_eq_mod {x : Nat} (h : x < 2 ^ 32) : pred32 x = (x + 2 ^ 32 - 1) % 2 ^ 32 := by
  unfold pred32
  by_cases h0 : x = 0
  · rw [if_pos h0, h0]; rfl
  · rw [if_neg h0]
    have e : x + 2 ^ 32 - 1 = (x - 1) + 2 ^ 32 := by omega
    rw [e, Nat.add_mod_right]
    exact (Nat.mod_eq_of_lt (by omega)).symm

theorem u16_diff {a b : Nat} (hb : b ≤ a) (ha : a < 2 ^ 16) : u16 (a + 2 ^ 16 - b) = a - b := by
  unfold u16
  have e : a + 2 ^ 16 - b = (a - b) + 2 ^ 16 := by omega
  rw [e, Nat.add_mod_right]
  exact Nat.mod_eq_of_lt (by omega)

theorem leaf_lower_bound_spec (n : Node) (key : Nat) (hs : Sorted n.keys n.count) :
    (LeafNode.lower_bound n key).1 ≤ n.count ∧
      (∀ i, i < (LeafNode.lower_bound n key).1 → n.keys i < key) ∧
      (∀ i, (LeafNode.lower_bound n key).1 ≤ i → i < n.count → key ≤ n.keys i) ∧
      ((LeafNode.lower_bound n key).2 = true ↔
        ((LeafNode.lower_bound n key).1 < n.count ∧
          n.keys (LeafNode.lower_bound n key).1 = key)) := by
  unfold LeafNode.lower_bound
  by_cases h0 : n.count = 0
  · simp only [h0, ↓reduceIte]
    refine ⟨le_refl _, fun i hi => by omega, fun i _ hi => by omega, ?_⟩
    simp
  · simp only [h0, ↓reduceIte]
    obtain ⟨_, a2, a3, a4⟩ := lowerBoundLoop_spec n.keys key n.count hs n.count 0 n.count
      (le_refl _) (by omega) (fun i hi => by omega) (fun i hi hin => by omega)
    refine ⟨by omega, a3, a4, ?_⟩
    simp

/-- The key is in the leaf exactly when `lower_bound` finds it. -/
theorem leaf_found_iff (n : Node) (key : Nat) (hs : Sorted n.keys n.count) :
    (LeafNode.lower_bound n key).2 = true ↔ ∃ i, i < n.count ∧ n.keys i = key := by
  obtain ⟨a1, a2, a3, a4⟩ := leaf_lower_bound_spec n key hs
  rw [a4]
  constructor
  · intro h
    exact ⟨_, h.1, h.2⟩
  · intro ⟨i, hi, hk⟩
    have h1 : (LeafNode.lower_bound n key).1 ≤ i := by
      by_contra hc
      have := a2 i (by omega)
      omega
    have h2 : (LeafNode.lower_bound n key).1 < n.count := by omega
    refine ⟨h2, ?_⟩
    have h3 := a3 _ (le_refl _) h2
    by_cases h4 : (LeafNode.lower_bound n key).1 = i
    · rw [h4]; exact hk
    · have := hs (LeafNode.lower_bound n key).1 i (by omega) hi
      omega

theorem leaf_lookup_spec (P : Nat) (n : Node) (lo up : Nat) (m : Nat → Option Nat)
    (h : LeafOK P n lo up m) (key : Nat) (hlo : lo ≤ key) (hhi : key < up) :
    LeafNode.lookup n key = m key := by
  obtain ⟨a1, a2, a3, a4⟩ := leaf_lower_bound_spec n key h.sorted
  unfold LeafNode.lookup
  simp only
  by_cases hf : (LeafNode.lower_bound n key).2 = true
  · have hf1 := a4.1 hf
    rw [if_pos ⟨hf, hf1.2⟩]
    have := h.holds _ hf1.1
    rw [hf1.2] at this
    exact this.symm
  · rw [if_neg (fun hc => hf hc.1)]
    symm
    apply h.only key hlo hhi
    intro i hi hk
    exact hf ((leaf_found_iff n key h.sorted).2 ⟨i, hi, hk⟩)

theorem leaf_insert_spec (P : Nat) (n : Node) (lo up : Nat) (m m1 : Nat → Option Nat)
    (h : LeafOK P n lo up m) (key value : Nat) (hlo : lo ≤ key) (hhi : key < up)
    (hcap : LeafNode.kCapacity P < 2 ^ 16) (hroom : n.count < LeafNode.kCapacity P)
    (hm1 : m1 key = some value) (hm2 : ∀ k, k ≠ key → m1 k = m k) :
    ∃ n1, LeafNode.insert P n key value = some n1 ∧ LeafOK P n1 lo up m1 ∧
      n1.children = n.children := by
  obtain ⟨a1, a2, a3, a4⟩ := leaf_lower_bound_spec n key h.sorted
  unfold LeafNode.insert
  have hnf : LeafNode.is_full P n = false := by
    unfold LeafNode.is_full
    simp only [beq_eq_false_iff_ne, ne_eq]
    omega
  simp only [hnf, ↓reduceIte]
  have hu : u16 (n.count + 1) = n.count + 1 := u16_of_lt (by omega)
  by_cases h0 : n.count = 0
  · simp only [h0, ↓reduceIte]
    refine ⟨_, rfl, ⟨h.level, ?_, ?_, ?_, ?_, ?_⟩, rfl⟩
    · show u16 (0 + 1) ≤ _
      rw [u16_of_lt (by norm_num)]
      omega
    · intro i j hij hj
      have hj1 : j < u16 (0 + 1) := hj
      rw [u16_of_lt (by norm_num)] at hj1
      omega
    · intro i hi
      have hi1 : i < u16 (0 + 1) := hi
      rw [u16_of_lt (by norm_num)] at hi1
      have : i = 0 := by omega
      subst this
      show lo ≤ write n.keys 0 key 0 ∧ write n.keys 0 key 0 < up
      simp only [write, ↓reduceIte]
      exact ⟨hlo, hhi⟩
    · intro i hi
      have hi1 : i < u16 (0 + 1) := hi
      rw [u16_of_lt (by norm_num)] at hi1
      have : i = 0 := by omega
      subst this
      show m1 (write n.keys 0 key 0) = some (write n.values 0 value 0)
      simp only [write, ↓reduceIte]
      exact hm1
    · intro k hk1 hk2 hall
      have hne : k ≠ key := by
        intro hc
        have := hall 0 (by
          show 0 < u16 (0 + 1)
          rw [u16_of_lt (by norm_num)]
          omega)
        apply this
        show write n.keys 0 key 0 = k
        simp only [write, ↓reduceIte]
        exact hc.symm
      rw [hm2 k hne]
      exact h.only k hk1 hk2 (fun i hi => by omega)
  · simp only [h0, ↓reduceIte]
    by_cases hf : (LeafNode.lower_bound n key).2 = true
    · simp only [hf, ↓reduceIte]
      have hf1 := a4.1 hf
      refine ⟨_, rfl, ⟨h.level, h.count, h.sorted, h.range, ?_, ?_⟩, rfl⟩
      · intro i hi
        show m1 (n.keys i) = some (write n.values (LeafNode.lower_bound n key).1 value i)
        unfold write
        by_cases hi2 : i = (LeafNode.lower_bound n key).1
        · rw [if_pos hi2, hi2, hf1.2]
          exact hm1
        · rw [if_neg hi2]
          have hne : n.keys i ≠ key := by
            intro hc
            rcases Nat.lt_or_gt_of_ne hi2 with hlt | hgt
            · have := a2 i hlt
              omega
            · have := h.sorted (LeafNode.lower_bound n key).1 i hgt hi
              omega
          rw [hm2 _ hne]
          exact h.holds i hi
      · intro k hk1 hk2 hall
        have hne : k ≠ key := by
          intro hc
          exact hall _ hf1.1 (by rw [hf1.2, hc])
        rw [hm2 k hne]
        exact h.only k hk1 hk2 hall
    · simp only [hf, Bool.false_eq_true, ↓reduceIte]
      have hnk : ∀ i, i < n.count → n.keys i ≠ key := by
        intro i hi hc
        exact hf ((leaf_found_iff n key h.sorted).2 ⟨i, hi, hc⟩)
      have hge : n.count ≥ (LeafNode.lower_bound n key).1 := a1
      simp only [hge, ↓reduceIte]
      generalize hr : (LeafNode.lower_bound n key).1 = r at *
      have hkeys : ∀ i, write (memmove n.keys (r + 1) r (n.count - r)) r key i =
          if i = r then key else if r < i ∧ i ≤ n.count then n.keys (i - 1) else n.keys i := by
        intro i
        unfold write memmove
        by_cases h1 : i = r
        · simp only [h1, ↓reduceIte]
        · simp only [h1, ↓reduceIte]
          by_cases h2 : r < i ∧ i ≤ n.count
          · have h3 : r + 1 ≤ i ∧ i < r + 1 + (n.count - r) := by omega
            have h4 : r + (i - (r + 1)) = i - 1 := by omega
            simp only [h2, h3, h4, and_self, ↓reduceIte]
          · have h3 : ¬ (r + 1 ≤ i ∧ i < r + 1 + (n.count - r)) := by omega
            simp only [h2, h3, ↓reduceIte]
      have hvals : ∀ i, write (memmove n.values (r + 1) r (n.count - r)) r value i =
          if i = r then value else if r < i ∧ i ≤ n.count then n.values (i - 1)
            else n.values i := by
        intro i
        unfold write memmove
        by_cases h1 : i = r
        · simp only [h1, ↓reduceIte]
        · simp only [h1, ↓reduceIte]
          by_cases h2 : r < i ∧ i ≤ n.count
          · have h3 : r + 1 ≤ i ∧ i < r + 1 + (n.count - r) := by omega
            have h4 : r + (i - (r + 1)) = i - 1 := by omega
            simp only [h2, h3, h4, and_self, ↓reduceIte]
          · have h3 : ¬ (r + 1 ≤ i ∧ i < r + 1 + (n.count - r)) := by omega
            simp only [h2, h3, ↓reduceIte]
      have hlt : ∀ i, r ≤ i → i < n.count → key < n.keys i := by
        intro i h1 h2
        have := a3 i h1 h2
        have := hnk i h2
        omega
      refine ⟨_, rfl, ⟨h.level, ?_, ?_, ?_, ?_, ?_⟩, rfl⟩
      · show u16 (n.count + 1) ≤ _
        rw [hu]; omega
      · intro i j hij hj
        have hj1 : j < u16 (n.count + 1) := hj
        rw [hu] at hj1
        show write (memmove n.keys (r + 1) r (n.count - r)) r key i <
          write (memmove n.keys (r + 1) r (n.count - r)) r key j
        rw [hkeys, hkeys]
        by_cases hi1 : i = r
        · have hj2 : ¬ j = r := by omega
          have hj3 : r < j ∧ j ≤ n.count := by omega
          simp only [hi1, hj2, hj3, and_self, ↓reduceIte]
          exact hlt (j - 1) (by omega) (by omega)
        · by_cases hi2 : r < i ∧ i ≤ n.count
          · have hj2 : ¬ j = r := by omega
            have hj3 : r < j ∧ j ≤ n.count := by omega
            simp only [hi1, hi2, hj2, hj3, and_self, ↓reduceIte]
            exact h.sorted _ _ (by omega) (by omega)
          · simp only [hi1, hi2, ↓reduceIte]
            have hir : i < r := by omega
            by_cases hj2 : j = r
            · simp only [hj2, ↓reduceIte]
              exact a2 i hir
            · by_cases hj3 : r < j ∧ j ≤ n.count
              · simp only [hj2, hj3, and_self, ↓reduceIte]
                exact h.sorted _ _ (by omega) (by omega)
              · simp only [hj2, hj3, ↓reduceIte]
                exact h.sorted _ _ hij (by omega)
      · intro i hi
        have hi1 : i < u16 (n.count + 1) := hi
        rw [hu] at hi1
        show lo ≤ write (memmove n.keys (r + 1) r (n.count - r)) r key i ∧
          write (memmove n.keys (r + 1) r (n.count - r)) r key i < up
        rw [hkeys]
        by_cases h1 : i = r
        · simp only [h1, ↓reduceIte]
          exact ⟨hlo, hhi⟩
        · by_cases h2 : r < i ∧ i ≤ n.count
          · simp only [h1, h2, and_self, ↓reduceIte]
            exact h.range _ (by omega)
          · simp only [h1, h2, ↓reduceIte]
            exact h.range _ (by omega)
      · intro i hi
        have hi1 : i < u16 (n.count + 1) := hi
        rw [hu] at hi1
        show m1 (write (memmove n.keys (r + 1) r (n.count - r)) r key i) =
          some (write (memmove n.values (r + 1) r (n.count - r)) r value i)
        rw [hkeys, hvals]
        by_cases h1 : i = r
        · simp only [h1, ↓reduceIte]
          exact hm1
        · by_cases h2 : r < i ∧ i ≤ n.count
          · simp only [h1, h2, and_self, ↓reduceIte]
            rw [hm2 _ (hnk _ (by omega))]
            exact h.holds _ (by omega)
          · simp only [h1, h2, ↓reduceIte]
            rw [hm2 _ (hnk _ (by omega))]
            exact h.holds _ (by omega)
      · intro k hk1 hk2 hall
        have hall1 : ∀ i, i < n.count + 1 →
            write (memmove n.keys (r + 1) r (n.count - r)) r key i ≠ k := by
          intro i hi
          apply hall i
          show i < u16 (n.count + 1)
          rw [hu]; exact hi
        have hne : k ≠ key := by
          intro hc
          have := hall1 r (by omega)
          rw [hkeys] at this
          simp only [↓reduceIte] at this
          exact this hc.symm
        rw [hm2 k hne]
        apply h.only k hk1 hk2
        intro i hi
        by_cases hir : i < r
        · have := hall1 i (by omega)
          rw [hkeys] at this
          have h1 : ¬ i = r := by omega
          have h2 : ¬ (r < i ∧ i ≤ n.count) := by omega
          simp only [h1, h2, ↓reduceIte] at this
          exact this
        · have := hall1 (i + 1) (by omega)
          rw [hkeys] at this
          have h1 : ¬ i + 1 = r := by omega
          have h2 : r < i + 1 ∧ i + 1 ≤ n.count := by omega
          simp only [h1, h2, and_self, ↓reduceIte, Nat.add_sub_cancel] at this
          exact this

end BTree

namespace BTree

theorem leaf_erase_spec (P : Nat) (n : Node) (lo up : Nat) (m m1 : Nat → Option Nat)
    (h : LeafOK P n lo up m) (key : Nat) (hcap : LeafNode.kCapacity P < 2 ^ 16)
    (hm1 : m1 key = none) (hm2 : ∀ k, k ≠ key → m1 k = m k) :
    ∃ n1, LeafNode.erase n key = some n1 ∧ LeafOK P n1 lo up m1 ∧
      n1.children = n.children := by
  obtain ⟨a1, a2, a3, a4⟩ := leaf_lower_bound_spec n key h.sorted
  have hsame : (∀ i, i < n.count → n.keys i ≠ key) → LeafOK P n lo up m1 := by
    intro hnk
    refine ⟨h.level, h.count, h.sorted, h.range, ?_, ?_⟩
    · intro i hil
      rw [hm2 _ (hnk i hil)]
      exact h.holds i hil
    · intro k hk1 hk2 hall
      by_cases hk : k = key
      · rw [hk]; exact hm1
      · rw [hm2 k hk]
        exact h.only k hk1 hk2 hall
  unfold LeafNode.erase
  by_cases h0 : n.count = 0
  · simp only [h0, ↓reduceIte]
    exact ⟨n, rfl, hsame (fun i hil => by omega), rfl⟩
  · simp only [h0, ↓reduceIte]
    by_cases hf : (LeafNode.lower_bound n key).2 = false
    · simp only [hf, ↓reduceIte]
      refine ⟨n, rfl, hsame ?_, rfl⟩
      intro i hil hc
      have := (leaf_found_iff n key h.sorted).2 ⟨i, hil, hc⟩
      rw [hf] at this
      simp at this
    · have hft : (LeafNode.lower_bound n key).2 = true := by simpa using hf
      simp only [hft, Bool.true_eq_false, ↓reduceIte]
      obtain ⟨hr1, hr2⟩ := a4.1 hft
      generalize hr : (LeafNode.lower_bound n key).1 = r at *
      have hge : n.count - 1 ≥ r := by omega
      simp only [hge, ↓reduceIte]
      have hkeys : ∀ i, memmove n.keys r (r + 1) (n.count - 1 - r) i =
          if r ≤ i ∧ i + 1 < n.count then n.keys (i + 1) else n.keys i := by
        intro i
        unfold memmove
        by_cases h2 : r ≤ i ∧ i + 1 < n.count
        · have h3 : r ≤ i ∧ i < r + (n.count - 1 - r) := by omega
          have h4 : r + 1 + (i - r) = i + 1 := by omega
          simp only [h2, h3, h4, and_self, ↓reduceIte]
        · have h3 : ¬ (r ≤ i ∧ i < r + (n.count - 1 - r)) := by omega
          simp only [h2, h3, ↓reduceIte]
      have hvals : ∀ i, memmove n.values r (r + 1) (n.count - 1 - r) i =
          if r ≤ i ∧ i + 1 < n.count then n.values (i + 1) else n.values i := by
        intro i
        unfold memmove
        by_cases h2 : r ≤ i ∧ i + 1 < n.count
        · have h3 : r ≤ i ∧ i < r + (n.count - 1 - r) := by omega
          have h4 : r + 1 + (i - r) = i + 1 := by omega
          simp only [h2, h3, h4, and_self, ↓reduceIte]
        · have h3 : ¬ (r ≤ i ∧ i < r + (n.count - 1 - r)) := by omega
          simp only [h2, h3, ↓reduceIte]
      have hu : u16 (n.count - 1) = n.count - 1 := by
        have := h.count
        exact u16_of_lt (by omega)
      have hne : ∀ i, i < n.count → i ≠ r → n.keys i ≠ key := by
        intro i hil hir hc
        rcases Nat.lt_or_gt_of_ne hir with hlt | hgt
        · have := h.sorted i r hlt hr1
          omega
        · have := h.sorted r i hgt hil
          omega
      refine ⟨_, rfl, ⟨h.level, ?_, ?_, ?_, ?_, ?_⟩, rfl⟩
      · show u16 (n.count - 1) ≤ _
        rw [hu]
        have := h.count
        omega
      · intro i j hij hj
        have hj1 : j < u16 (n.count - 1) := hj
        rw [hu] at hj1
        show memmove n.keys r (r + 1) (n.count - 1 - r) i <
          memmove n.keys r (r + 1) (n.count - 1 - r) j
        rw [hkeys, hkeys]
        by_cases hi1 : r ≤ i ∧ i + 1 < n.count
        · have hj2 : r ≤ j ∧ j + 1 < n.count := by omega
          simp only [hi1, hj2, and_self, ↓reduceIte]
          exact h.sorted _ _ (by omega) (by omega)
        · by_cases hj2 : r ≤ j ∧ j + 1 < n.count
          · simp only [hi1, hj2, and_self, ↓reduceIte]
            exact h.sorted _ _ (by omega) (by omega)
          · simp only [hi1, hj2, ↓reduceIte]
            exact h.sorted _ _ hij (by omega)
      · intro i hil
        have hi1 : i < u16 (n.count - 1) := hil
        rw [hu] at hi1
        show lo ≤ memmove n.keys r (r + 1) (n.count - 1 - r) i ∧
          memmove n.keys r (r + 1) (n.count - 1 - r) i < up
        rw [hkeys]
        split
        · exact h.range _ (by omega)
        · exact h.range _ (by omega)
      · intro i hil
        have hi1 : i < u16 (n.count - 1) := hil
        rw [hu] at hi1
        show m1 (memmove n.keys r (r + 1) (n.count - 1 - r) i) =
          some (memmove n.values r (r + 1) (n.count - 1 - r) i)
        rw [hkeys, hvals]
        by_cases h2 : r ≤ i ∧ i + 1 < n.count
        · simp only [h2, and_self, ↓reduceIte]
          rw [hm2 _ (hne _ (by omega) (by omega))]
          exact h.holds _ (by omega)
        · simp only [h2, ↓reduceIte]
          rw [hm2 _ (hne _ (by omega) (by omega))]
          exact h.holds _ (by omega)
      · intro k hk1 hk2 hall
        have hall1 : ∀ i, i < n.count - 1 → memmove n.keys r (r + 1) (n.count - 1 - r) i ≠ k := by
          intro i hil
          apply hall i
          show i < u16 (n.count - 1)
          rw [hu]; exact hil
        by_cases hk : k = key
        · rw [hk]; exact hm1
        · rw [hm2 k hk]
          apply h.only k hk1 hk2
          intro i hil
          by_cases hir : i < r
          · have := hall1 i (by omega)
            rw [hkeys] at this
            have h2 : ¬ (r ≤ i ∧ i + 1 < n.count) := by omega
            simp only [h2, ↓reduceIte] at this
            exact this
          · by_cases hir2 : i = r
            · rw [hir2, hr2]
              exact fun hc => hk hc.symm
            · have := hall1 (i - 1) (by omega)
              rw [hkeys] at this
              have h2 : r ≤ i - 1 ∧ i - 1 + 1 < n.count := by omega
              have h4 : i - 1 + 1 = i := by omega
              rw [if_pos h2, h4] at this
              exact this

theorem leaf_split_spec (P : Nat) (n other : Node) (lo up : Nat) (m : Nat → Option Nat)
    (h : LeafOK P n lo up m) (hfull : n.count = LeafNode.kCapacity P)
    (hcap3 : 3 ≤ LeafNode.kCapacity P) (hcap : LeafNode.kCapacity P < 2 ^ 16)
    (hlev : other.level = 0) :
    ∃ n1 o1 sep, LeafNode.split P n other = some (n1, o1, sep) ∧
      LeafOK P n1 lo (sep + 1) m ∧ LeafOK P o1 (sep + 1) up m ∧
      n1.count < LeafNode.kCapacity P ∧ o1.count < LeafNode.kCapacity P ∧
      lo ≤ sep ∧ sep + 1 < up := by
  unfold LeafNode.split
  rw [pred32_of_pos (show 1 ≤ LeafNode.kCapacity P by omega)]
  have hc : n.count ≥ LeafNode.kCapacity P - 1 := by omega
  simp only [hc, ↓reduceIte]
  have hu1 : u16 (n.count / 2 + 1) = n.count / 2 + 1 := u16_of_lt (by omega)
  have hu2 : u16 (n.count + 2 ^ 16 - (n.count / 2 + 1)) = n.count - (n.count / 2 + 1) :=
    u16_diff (by omega) (by omega)
  rw [hu1, hu2]
  have hhalf : n.count / 2 + 1 < n.count := by omega
  have hsepr := h.range (n.count / 2) (by omega)
  have hlast := h.range (n.count - 1) (by omega)
  have hseplast := h.sorted (n.count / 2) (n.count - 1) (by omega) (by omega)
  have hcpy : ∀ (o a : Nat → Nat) i, i < n.count - (n.count / 2 + 1) →
      memcpy o a (n.count / 2 + 1) (n.count - (n.count / 2 + 1)) i =
        a (n.count / 2 + 1 + i) := by
    intro o a i hil
    unfold memcpy
    rw [if_pos hil]
  refine ⟨_, _, _, rfl, ⟨h.level, ?_, ?_, ?_, ?_, ?_⟩, ⟨hlev, ?_, ?_, ?_, ?_, ?_⟩, ?_, ?_,
    hsepr.1, by omega⟩
  · show n.count / 2 + 1 ≤ _
    omega
  · intro i j hij hj
    have hj1 : j < n.count / 2 + 1 := hj
    exact h.sorted i j hij (by omega)
  · intro i hil
    have hi1 : i < n.count / 2 + 1 := hil
    show lo ≤ n.keys i ∧ n.keys i < n.keys (n.count / 2) + 1
    refine ⟨(h.range i (by omega)).1, ?_⟩
    by_cases hi2 : i = n.count / 2
    · rw [hi2]; omega
    · have := h.sorted i (n.count / 2) (by omega) (by omega)
      omega
  · intro i hil
    have hi1 : i < n.count / 2 + 1 := hil
    exact h.holds i (by omega)
  · intro k hk1 hk2 hall
    have hk3 : k < n.keys (n.count / 2) + 1 := hk2
    have hall1 : ∀ i, i < n.count / 2 + 1 → n.keys i ≠ k := hall
    apply h.only k hk1 (by omega)
    intro i hil
    by_cases hi2 : i < n.count / 2 + 1
    · exact hall1 i hi2
    · have := h.sorted (n.count / 2) i (by omega) hil
      omega
  · show n.count - (n.count / 2 + 1) ≤ _
    omega
  · intro i j hij hj
    have hj1 : j < n.count - (n.count / 2 + 1) := hj
    show memcpy other.keys n.keys (n.count / 2 + 1) (n.count - (n.count / 2 + 1)) i <
      memcpy other.keys n.keys (n.count / 2 + 1) (n.count - (n.count / 2 + 1)) j
    rw [hcpy _ _ i (by omega), hcpy _ _ j hj1]
    exact h.sorted _ _ (by omega) (by omega)
  · intro i hil
    have hi1 : i < n.count - (n.count / 2 + 1) := hil
    show n.keys (n.count / 2) + 1 ≤
        memcpy other.keys n.keys (n.count / 2 + 1) (n.count - (n.count / 2 + 1)) i ∧
      memcpy other.keys n.keys (n.count / 2 + 1) (n.count - (n.count / 2 + 1)) i < up
    rw [hcpy _ _ i hi1]
    have := h.sorted (n.count / 2) (n.count / 2 + 1 + i) (by omega) (by omega)
    exact ⟨by omega, (h.range _ (by omega)).2⟩
  · intro i hil
    have hi1 : i < n.count - (n.count / 2 + 1) := hil
    show m (memcpy other.keys n.keys (n.count / 2 + 1) (n.count - (n.count / 2 + 1)) i) =
      some (memcpy other.values n.values (n.count / 2 + 1) (n.count - (n.count / 2 + 1)) i)
    rw [hcpy _ _ i hi1, hcpy _ _ i hi1]
    exact h.holds _ (by omega)
  · intro k hk1 hk2 hall
    have hk3 : n.keys (n.count / 2) + 1 ≤ k := hk1
    have hall1 : ∀ i, i < n.count - (n.count / 2 + 1) →
        memcpy other.keys n.keys (n.count / 2 + 1) (n.count - (n.count / 2 + 1)) i ≠ k := hall
    apply h.only k (by omega) hk2
    intro i hil
    by_cases hi2 : i < n.count / 2 + 1
    · by_cases hi3 : i = n.count / 2
      · rw [hi3]; omega
      · have := h.sorted i (n.count / 2) (by omega) (by omega)
        omega
    · have := hall1 (i - (n.count / 2 + 1)) (by omega)
      rw [hcpy _ _ _ (by omega)] at this
      have h4 : n.count / 2 + 1 + (i - (n.count / 2 + 1)) = i := by omega
      rw [h4] at this
      exact this
  · show n.count / 2 + 1 < _
    omega
  · show n.count - (n.count / 2 + 1) < _
    omega

end BTree

namespace BTree

theorem inner_lower_bound_spec (P : Nat) (n : Node) (key : Nat)
    (hc1 : 1 ≤ n.count) (hc2 : n.count ≤ InnerNode.kCapacity P)
    (hs : Sorted n.keys (n.count - 1)) :
    ∃ r, InnerNode.lower_bound P n key =
        some (r, decide (r < n.count) && (n.keys r == key)) ∧
      r ≤ n.count - 1 ∧ (∀ i, i < r → n.keys i < key) ∧
      (∀ i, r ≤ i → i < n.count - 1 → key ≤ n.keys i) := by
  unfold InnerNode.lower_bound
  have h0 : ¬ n.count = 0 := by omega
  simp only [hc2, h0, ↓reduceIte]
  obtain ⟨_, a2, a3, a4⟩ := lowerBoundLoop_spec n.keys key (n.count - 1) hs (n.count - 1) 0
    (n.count - 1) (le_refl _) (by omega) (fun i hil => by omega) (fun i hil hin => by omega)
  exact ⟨_, rfl, by omega, a3, a4⟩

theorem inner_lookup_spec (P : Nat) (n : Node) (lvl lo up : Nat) (h : InnerOK P n lvl lo up)
    (key : Nat) (hlo : lo ≤ key) (hup : key < up) :
    ∃ i, i < n.count ∧ InnerNode.lookup P n key = some (n.children i) ∧
      childLo n lo i ≤ key ∧ key < childHi n up i := by
  have hc := h.count_lo
  have hc2 := h.count_hi
  obtain ⟨r, a1, a2, a3, a4⟩ := inner_lower_bound_spec P n key (by omega) (by omega) h.sorted
  refine ⟨r, by omega, ?_, ?_, ?_⟩
  · unfold InnerNode.lookup
    have hcc : n.count ≥ 2 ∧ n.count ≤ InnerNode.kCapacity P := ⟨hc, by omega⟩
    simp only [hcc, and_self, ↓reduceIte, a1]
    have hne : ¬ r = n.count := by omega
    simp only [hne, ↓reduceIte]
  · unfold childLo
    split
    · exact hlo
    · have := a3 (r - 1) (by omega)
      omega
  · unfold childHi
    split
    · exact hup
    · have := a4 r (le_refl _) (by omega)
      omega

theorem init_insert_spec (P : Nat) (n : Node) (lvl lo up sep left right : Nat)
    (hcount : n.count = 0) (hlevel : n.level = lvl) (hcap : 3 ≤ InnerNode.kCapacity P)
    (hlo : lo ≤ sep) (hup : sep + 1 < up) :
    ∃ n1, InnerNode.init_insert n sep left right = some n1 ∧ n1.count = 2 ∧
      n1.children 0 = left ∧ n1.children 1 = right ∧ n1.keys 0 = sep ∧
      InnerOK P n1 lvl lo up := by
  unfold InnerNode.init_insert
  simp only [hcount, ↓reduceIte]
  refine ⟨_, rfl, rfl, ?_, ?_, ?_, ⟨hlevel, ?_, ?_, ?_, ?_, ?_⟩⟩
  · show write (write n.children 0 left) 1 right 0 = left
    simp [write]
  · show write (write n.children 0 left) 1 right 1 = right
    simp [write]
  · show write (write n.keys 0 sep) 1 sep 0 = sep
    simp [write]
  · show 2 ≤ 2
    omega
  · show 2 + 1 ≤ _
    omega
  · intro i j hij hj
    have hj1 : j < 2 - 1 := hj
    omega
  · intro i hil
    have hi1 : i + 1 < 2 := hil
    have hi0 : i = 0 := by omega
    subst hi0
    show lo ≤ write (write n.keys 0 sep) 1 sep 0 ∧ write (write n.keys 0 sep) 1 sep 0 + 1 < up
    simp only [write, zero_ne_one, ↓reduceIte]
    exact ⟨hlo, hup⟩
  · left
    show write (write n.keys 0 sep) 1 sep (2 - 1) ≤ write (write n.keys 0 sep) 1 sep (2 - 2)
    simp [write]

/-- What `InnerNode::insert` does to an inner node when child `i` was split at `sep`. -/
theorem inner_insert_core (P : Nat) (n : Node) (lvl lo up : Nat) (h : InnerOK P n lvl lo up)
    (hcap : InnerNode.kCapacity P < 2 ^ 16) (hsafe : n.count + 1 < InnerNode.kCapacity P)
    (i sep right : Nat) (hi : i < n.count)
    (hsep1 : childLo n lo i ≤ sep) (hsep2 : sep + 1 < childHi n up i) :
    ∃ n1, InnerNode.insert P n sep (n.children i) right = some n1 ∧ n1.level = n.level ∧
      n1.count = n.count + 1 ∧ InnerOK P n1 lvl lo up ∧
      (∀ j, j ≤ i → n1.children j = n.children j) ∧ n1.children (i + 1) = right ∧
      (∀ j, i + 1 < j → j ≤ n.count → n1.children j = n.children (j - 1)) ∧
      (∀ j, j < n.count →
        n1.keys j = if j < i then n.keys j else if j = i then sep else n.keys (j - 1)) := by
  have hc := h.count_lo
  obtain ⟨r, a1, a2, a3, a4⟩ := inner_lower_bound_spec P n sep (by omega) (by omega) h.sorted
  have hkprev : 0 < i → n.keys (i - 1) < sep := by
    intro h0
    unfold childLo at hsep1
    rw [if_neg (by omega)] at hsep1
    omega
  have hknext : i + 1 < n.count → sep < n.keys i := by
    intro h0
    unfold childHi at hsep2
    rw [if_neg (by omega)] at hsep2
    omega
  have hlastup : i + 1 = n.count → sep + 1 < up := by
    intro h0
    unfold childHi at hsep2
    rw [if_pos h0] at hsep2
    exact hsep2
  have hri : r = i := by
    rcases Nat.lt_trichotomy r i with hlt | heq | hgt
    · have h1 := a4 r (le_refl _) (by omega)
      have h2 := hkprev (by omega)
      by_cases h3 : r = i - 1
      · rw [h3] at h1; omega
      · have := h.sorted r (i - 1) (by omega) (by omega)
        omega
    · exact heq
    · have h1 := a3 i hgt
      have h2 := hknext (by omega)
      omega
  subst hri
  have hnotfound : (decide (r < n.count) && (n.keys r == sep)) = false := by
    simp only [Bool.and_eq_false_imp, decide_eq_true_eq, beq_eq_false_iff_ne, ne_eq]
    intro _ hc1
    by_cases hl : r + 1 = n.count
    · have h1 := hlastup hl
      have h2 := hkprev (by omega)
      have hst := h.stale
      have e1 : n.count - 1 = r := by omega
      have e2 : n.count - 2 = r - 1 := by omega
      rw [e1, e2] at hst
      omega
    · have := hknext (by omega)
      omega
  have hu : u16 (n.count + 1) = n.count + 1 := u16_of_lt (by omega)
  unfold InnerNode.insert
  rw [pred32_of_pos (show 1 ≤ InnerNode.kCapacity P by omega)]
  have hnf : InnerNode.is_full P n = false := by
    unfold InnerNode.is_full
    simp only [beq_eq_false_iff_ne, ne_eq]
    omega
  have hpre : InnerNode.is_full P n = false ∧ n.count ≥ 2 ∧
      n.count ≤ InnerNode.kCapacity P - 1 := ⟨hnf, hc, by omega⟩
  simp only [hpre, and_self, ↓reduceIte, a1, hnotfound]
  have hpre2 : r ≤ n.count - 1 := a2
  simp only [hpre2, and_self, ↓reduceIte, true_and]
  by_cases hl : r = n.count - 1
  · simp only [hl, ↓reduceIte]
    have e1 : n.count - 1 + 1 = n.count := by omega
    have hkeys : ∀ j, write (write n.keys (n.count - 1) sep) (n.count - 1 + 1) sep j =
        if j = n.count then sep else if j = n.count - 1 then sep else n.keys j := by
      intro j
      unfold write
      rw [e1]
    have hch : ∀ j, write n.children (n.count - 1 + 1) right j =
        if j = n.count then right else n.children j := by
      intro j
      unfold write
      rw [e1]
    have hr1 := hlastup (by omega)
    have hr2 := hkprev (by omega)
    rw [hl] at hr2
    refine ⟨_, rfl, rfl, hu, ⟨h.level, ?_, ?_, ?_, ?_, ?_⟩, ?_, ?_, ?_, ?_⟩
    · show 2 ≤ u16 (n.count + 1)
      rw [hu]; omega
    · show u16 (n.count + 1) + 1 ≤ _
      rw [hu]; omega
    · intro a b hab hb
      have hb1 : b < u16 (n.count + 1) - 1 := hb
      rw [hu] at hb1
      show write (write n.keys (n.count - 1) sep) (n.count - 1 + 1) sep a <
        write (write n.keys (n.count - 1) sep) (n.count - 1 + 1) sep b
      rw [hkeys, hkeys]
      have ha1 : ¬ a = n.count := by omega
      have ha2 : ¬ a = n.count - 1 := by omega
      have hb2 : ¬ b = n.count := by omega
      simp only [ha1, ha2, hb2, ↓reduceIte]
      by_cases hb3 : b = n.count - 1
      · simp only [hb3, ↓reduceIte]
        by_cases ha3 : a = n.count - 1 - 1
        · rw [ha3]; exact hr2
        · have := h.sorted a (n.count - 1 - 1) (by omega) (by omega)
          omega
      · simp only [hb3, ↓reduceIte]
        exact h.sorted a b hab (by omega)
    · intro a ha
      have ha0 : a + 1 < u16 (n.count + 1) := ha
      rw [hu] at ha0
      show lo ≤ write (write n.keys (n.count - 1) sep) (n.count - 1 + 1) sep a ∧
        write (write n.keys (n.count - 1) sep) (n.count - 1 + 1) sep a + 1 < up
      rw [hkeys]
      have ha1 : ¬ a = n.count := by omega
      simp only [ha1, ↓reduceIte]
      by_cases ha2 : a = n.count - 1
      · simp only [ha2, ↓reduceIte]
        have := h.range (n.count - 1 - 1) (by omega)
        exact ⟨by omega, hr1⟩
      · simp only [ha2, ↓reduceIte]
        exact h.range a (by omega)
    · left
      show write (write n.keys (n.count - 1) sep) (n.count - 1 + 1) sep (u16 (n.count + 1) - 1) ≤
        write (write n.keys (n.count - 1) sep) (n.count - 1 + 1) sep (u16 (n.count + 1) - 2)
      rw [hu, hkeys, hkeys]
      have e2 : n.count + 1 - 1 = n.count := by omega
      have e3 : n.count + 1 - 2 = n.count - 1 := by omega
      have e4 : ¬ n.count - 1 = n.count := by omega
      simp only [e2, e3, e4, ↓reduceIte, le_refl]
    · intro j hj
      show write n.children (n.count - 1 + 1) right j = n.children j
      rw [hch, if_neg (by omega)]
    · show write n.children (n.count - 1 + 1) right (n.count - 1 + 1) = right
      rw [hch, e1, if_pos rfl]
    · intro j hj1 hj2
      omega
    · intro j hj
      show write (write n.keys (n.count - 1) sep) (n.count - 1 + 1) sep j = _
      rw [hkeys, if_neg (by omega)]
      by_cases hj2 : j = n.count - 1
      · rw [if_pos hj2, if_neg (by omega), if_pos hj2]
      · rw [if_neg hj2, if_pos (by omega)]
  · simp only [hl, ↓reduceIte]
    have hr3 : r + 1 < n.count := by omega
    have hkeys : ∀ j, write (memmove n.keys (r + 1) r (n.count - 1 - r + 1)) r sep j =
        if j = r then sep else if r < j ∧ j ≤ n.count then n.keys (j - 1) else n.keys j := by
      intro j
      unfold write memmove
      by_cases h1 : j = r
      · simp only [h1, ↓reduceIte]
      · simp only [h1, ↓reduceIte]
        by_cases h2 : r < j ∧ j ≤ n.count
        · have h3 : r + 1 ≤ j ∧ j < r + 1 + (n.count - 1 - r + 1) := by omega
          have h4 : r + (j - (r + 1)) = j - 1 := by omega
          simp only [h2, h3, h4, and_self, ↓reduceIte]
        · have h3 : ¬ (r + 1 ≤ j ∧ j < r + 1 + (n.count - 1 - r + 1)) := by omega
          simp only [h2, h3, ↓reduceIte]
    have hch : ∀ j, write (memmove n.children (r + 2) (r + 1) (n.count - 1 - r)) (r + 1) right j =
        if j = r + 1 then right else if r + 1 < j ∧ j ≤ n.count then n.children (j - 1)
          else n.children j := by
      intro j
      unfold write memmove
      by_cases h1 : j = r + 1
      · simp only [h1, ↓reduceIte]
      · simp only [h1, ↓reduceIte]
        by_cases h2 : r + 1 < j ∧ j ≤ n.count
        · have h3 : r + 2 ≤ j ∧ j < r + 2 + (n.count - 1 - r) := by omega
          have h4 : r + 1 + (j - (r + 2)) = j - 1 := by omega
          simp only [h2, h3, h4, and_self, ↓reduceIte]
        · have h3 : ¬ (r + 2 ≤ j ∧ j < r + 2 + (n.count - 1 - r)) := by omega
          simp only [h2, h3, ↓reduceIte]
    have hr1 := hknext hr3
    refine ⟨_, rfl, rfl, hu, ⟨h.level, ?_, ?_, ?_, ?_, ?_⟩, ?_, ?_, ?_, ?_⟩
    · show 2 ≤ u16 (n.count + 1)
      rw [hu]; omega
    · show u16 (n.count + 1) + 1 ≤ _
      rw [hu]; omega
    · intro a b hab hb
      have hb1 : b < u16 (n.count + 1) - 1 := hb
      rw [hu] at hb1
      show write (memmove n.keys (r + 1) r (n.count - 1 - r + 1)) r sep a <
        write (memmove n.keys (r + 1) r (n.count - 1 - r + 1)) r sep b
      rw [hkeys, hkeys]
      by_cases ha1 : a = r
      · have hb2 : ¬ b = r := by omega
        have hb3 : r < b ∧ b ≤ n.count := by omega
        simp only [ha1, hb2, hb3, and_self, ↓reduceIte]
        by_cases hb4 : b - 1 = r
        · rw [hb4]; exact hr1
        · have := h.sorted r (b - 1) (by omega) (by omega)
          omega
      · by_cases ha2 : r < a ∧ a ≤ n.count
        · have hb2 : ¬ b = r := by omega
          have hb3 : r < b ∧ b ≤ n.count := by omega
          simp only [ha1, ha2, hb2, hb3, and_self, ↓reduceIte]
          exact h.sorted _ _ (by omega) (by omega)
        · simp only [ha1, ha2, ↓reduceIte]
          have har : a < r := by omega
          by_cases hb2 : b = r
          · simp only [hb2, ↓reduceIte]
            exact a3 a har
          · by_cases hb3 : r < b ∧ b ≤ n.count
            · simp only [hb2, hb3, and_self, ↓reduceIte]
              exact h.sorted _ _ (by omega) (by omega)
            · simp only [hb2, hb3, ↓reduceIte]
              exact h.sorted _ _ hab (by omega)
    · intro a ha
      have ha0 : a + 1 < u16 (n.count + 1) := ha
      rw [hu] at ha0
      show lo ≤ write (memmove n.keys (r + 1) r (n.count - 1 - r + 1)) r sep a ∧
        write (memmove n.keys (r + 1) r (n.count - 1 - r + 1)) r sep a + 1 < up
      rw [hkeys]
      by_cases ha1 : a = r
      · simp only [ha1, ↓reduceIte]
        have := h.range r (by omega)
        constructor
        · by_cases hr0 : r = 0
          · unfold childLo at hsep1
            rw [if_pos hr0] at hsep1
            exact hsep1
          · have := hkprev (by omega)
            have := h.range (r - 1) (by omega)
            omega
        · omega
      · by_cases ha2 : r < a ∧ a ≤ n.count
        · simp only [ha1, ha2, and_self, ↓reduceIte]
          exact h.range _ (by omega)
        · simp only [ha1, ha2, ↓reduceIte]
          exact h.range _ (by omega)
    · have hst := h.stale
      show write (memmove n.keys (r + 1) r (n.count - 1 - r + 1)) r sep (u16 (n.count + 1) - 1) ≤
          write (memmove n.keys (r + 1) r (n.count - 1 - r + 1)) r sep (u16 (n.count + 1) - 2) ∨
        up ≤ write (memmove n.keys (r + 1) r (n.count - 1 - r + 1)) r sep
          (u16 (n.count + 1) - 1) + 1
      rw [hu, hkeys, hkeys]
      have e2 : n.count + 1 - 1 = n.count := by omega
      have e3 : n.count + 1 - 2 = n.count - 1 := by omega
      have e4 : ¬ n.count = r := by omega
      have e5 : r < n.count ∧ n.count ≤ n.count := by omega
      have e6 : ¬ n.count - 1 = r := by omega
      have e7 : r < n.count - 1 ∧ n.count - 1 ≤ n.count := by omega
      have e8 : n.count - 1 - 1 = n.count - 2 := by omega
      simp only [e2, e3, e4, e5, e6, e7, e8, and_self, ↓reduceIte]
      exact hst
    · intro j hj
      show write (memmove n.children (r + 2) (r + 1) (n.count - 1 - r)) (r + 1) right j =
        n.children j
      rw [hch, if_neg (by omega), if_neg (by omega)]
    · show write (memmove n.children (r + 2) (r + 1) (n.count - 1 - r)) (r + 1) right (r + 1) =
        right
      rw [hch, if_pos rfl]
    · intro j hj1 hj2
      show write (memmove n.children (r + 2) (r + 1) (n.count - 1 - r)) (r + 1) right j =
        n.children (j - 1)
      rw [hch, if_neg (by omega), if_pos (by omega)]
    · intro j hj
      show write (memmove n.keys (r + 1) r (n.count - 1 - r + 1)) r sep j = _
      rw [hkeys]
      by_cases hj1 : j < r
      · rw [if_neg (by omega), if_neg (by omega), if_pos hj1]
      · by_cases hj2 : j = r
        · rw [if_pos hj2, if_neg hj1, if_pos hj2]
        · rw [if_neg hj2, if_pos (by omega), if_neg hj1, if_neg hj2]

/-- The key ranges of the children after `InnerNode::insert`. -/
theorem child_ranges_insert (n n1 : Node) (lo up i sep : Nat) (hi : i < n.count)
    (hcnt : n1.count = n.count + 1)
    (hk : ∀ j, j < n.count →
      n1.keys j = if j < i then n.keys j else if j = i then sep else n.keys (j - 1)) :
    (∀ j, j < i → childLo n1 lo j = childLo n lo j ∧ childHi n1 up j = childHi n up j) ∧
      childLo n1 lo i = childLo n lo i ∧ childHi n1 up i = sep + 1 ∧
      childLo n1 lo (i + 1) = sep + 1 ∧ childHi n1 up (i + 1) = childHi n up i ∧
      (∀ j, i + 1 < j → j ≤ n.count →
        childLo n1 lo j = childLo n lo (j - 1) ∧ childHi n1 up j = childHi n up (j - 1)) := by
  have hlo : ∀ j, 0 < j → j ≤ n.count → childLo n1 lo j =
      (if j - 1 < i then n.keys (j - 1) else if j - 1 = i then sep else n.keys (j - 1 - 1)) + 1 := by
    intro j h0 hj
    unfold childLo
    rw [if_neg (by omega), hk (j - 1) (by omega)]
  have hup : ∀ j, j < n.count → childHi n1 up j =
      (if j < i then n.keys j else if j = i then sep else n.keys (j - 1)) + 1 := by
    intro j hj
    unfold childHi
    rw [hcnt, if_neg (by omega), hk j hj]
  have hlo0 : ∀ j, 0 < j → childLo n lo j = n.keys (j - 1) + 1 := by
    intro j h0
    unfold childLo
    rw [if_neg (by omega)]
  have hup0 : ∀ j, j + 1 < n.count → childHi n up j = n.keys j + 1 := by
    intro j hj
    unfold childHi
    rw [if_neg (by omega)]
  have hupl : ∀ j, j + 1 = n.count → childHi n up j = up := by
    intro j hj
    unfold childHi
    rw [if_pos hj]
  have hupl1 : childHi n1 up n.count = up := by
    unfold childHi
    rw [if_pos hcnt.symm]
  refine ⟨?_, ?_, ?_, ?_, ?_, ?_⟩
  · intro j hj
    constructor
    · by_cases h0 : j = 0
      · rw [h0]; rfl
      · rw [hlo j (by omega) (by omega), if_pos (by omega), hlo0 j (by omega)]
    · rw [hup j (by omega), if_pos hj, hup0 j (by omega)]
  · by_cases h0 : i = 0
    · rw [h0]; rfl
    · rw [hlo i (by omega) (by omega), if_pos (by omega), hlo0 i (by omega)]
  · rw [hup i hi, if_neg (by omega), if_pos rfl]
  · rw [hlo (i + 1) (by omega) (by omega)]
    have e : i + 1 - 1 = i := by omega
    rw [e, if_neg (by omega), if_pos rfl]
  · by_cases hl : i + 1 = n.count
    · rw [hl, hupl1, hupl i hl]
    · rw [hup (i + 1) (by omega), if_neg (by omega), if_neg (by omega), hup0 i (by omega)]
      have e : i + 1 - 1 = i := by omega
      rw [e]
  · intro j hj1 hj2
    constructor
    · rw [hlo j (by omega) hj2, if_neg (by omega), if_neg (by omega), hlo0 (j - 1) (by omega)]
    · by_cases hl : j = n.count
      · rw [hl, hupl1, hupl (n.count - 1) (by omega)]
      · rw [hup j (by omega), if_neg (by omega), if_neg (by omega), hup0 (j - 1) (by omega)]

end BTree

namespace BTree

/-- What `InnerNode::split` does to an inner node with one slot to spare. -/
theorem inner_split_spec (P : Nat) (n other : Node) (lvl lo up : Nat)
    (h : InnerOK P n lvl lo up) (hfull : n.count + 1 = InnerNode.kCapacity P)
    (hcap5 : 5 ≤ InnerNode.kCapacity P) (hcap : InnerNode.kCapacity P < 2 ^ 16)
    (hlev : other.level = lvl) :
    ∃ n1 o1 sep, InnerNode.split P n other = some (n1, o1, sep) ∧
      sep = n.keys ((n.count - 1) / 2) ∧
      n1.count = (n.count - 1) / 2 + 1 ∧ n1.children = n.children ∧ n1.level = n.level ∧
      o1.count = n.count - ((n.count - 1) / 2 + 1) ∧
      (∀ j, j < o1.count → o1.children j = n.children (n1.count + j)) ∧
      InnerOK P n1 lvl lo (sep + 1) ∧ InnerOK P o1 lvl (sep + 1) up ∧
      n1.count + 1 < InnerNode.kCapacity P ∧ o1.count + 1 < InnerNode.kCapacity P ∧
      lo ≤ sep ∧ sep + 1 < up ∧
      (∀ j, j < n1.count →
        childLo n1 lo j = childLo n lo j ∧ childHi n1 (sep + 1) j = childHi n up j) ∧
      (∀ j, j < o1.count →
        childLo o1 (sep + 1) j = childLo n lo (n1.count + j) ∧
          childHi o1 up j = childHi n up (n1.count + j)) := by
  have hc4 : 4 ≤ n.count := by omega
  unfold InnerNode.split
  rw [pred32_of_pos (show 1 ≤ InnerNode.kCapacity P by omega)]
  have hpre : n.count ≥ InnerNode.kCapacity P - 1 := by omega
  simp only [hpre, ↓reduceIte]
  have hu1 : u16 ((n.count - 1) / 2 + 1) = (n.count - 1) / 2 + 1 := u16_of_lt (by omega)
  have hu2 : u16 (n.count + 2 ^ 16 - ((n.count - 1) / 2 + 1)) =
      n.count - ((n.count - 1) / 2 + 1) := u16_diff (by omega) (by omega)
  rw [hu1, hu2]
  have e1 : (n.count - 1) / 2 + 1 - 1 = (n.count - 1) / 2 := by omega
  simp only [e1, ↓reduceIte]
  generalize hlc : (n.count - 1) / 2 + 1 = lc
  have hlc1 : (n.count - 1) / 2 = lc - 1 := by omega
  rw [hlc1]
  have hlc2 : 2 ≤ lc := by omega
  have hlc3 : lc + 2 ≤ n.count := by omega
  have hcpy : ∀ (o a : Nat → Nat) j, j < n.count - lc → memcpy o a lc (n.count - lc) j =
      a (lc + j) := by
    intro o a j hj
    unfold memcpy
    rw [if_pos hj]
  have hsepr := h.range (lc - 1) (by omega)
  refine ⟨_, _, _, rfl, rfl, rfl, rfl, rfl, rfl, ?_, ⟨h.level, ?_, ?_, ?_, ?_, ?_⟩,
    ⟨hlev, ?_, ?_, ?_, ?_, ?_⟩, ?_, ?_, hsepr.1, hsepr.2, ?_, ?_⟩
  · intro j hj
    have hj1 : j < n.count - lc := hj
    show memcpy other.children n.children lc (n.count - lc) j = n.children (lc + j)
    exact hcpy _ _ j hj1
  · show 2 ≤ lc
    exact hlc2
  · show lc + 1 ≤ _
    omega
  · intro a b hab hb
    have hb1 : b < lc - 1 := hb
    exact h.sorted a b hab (by omega)
  · intro a ha
    have ha1 : a + 1 < lc := ha
    show lo ≤ n.keys a ∧ n.keys a + 1 < n.keys (lc - 1) + 1
    have := h.sorted a (lc - 1) (by omega) (by omega)
    exact ⟨(h.range a (by omega)).1, by omega⟩
  · right
    show n.keys (lc - 1) + 1 ≤ n.keys (lc - 1) + 1
    exact le_refl _
  · show 2 ≤ n.count - lc
    omega
  · show n.count - lc + 1 ≤ _
    omega
  · intro a b hab hb
    have hb1 : b < n.count - lc - 1 := hb
    show memcpy other.keys n.keys lc (n.count - lc) a <
      memcpy other.keys n.keys lc (n.count - lc) b
    rw [hcpy _ _ a (by omega), hcpy _ _ b (by omega)]
    exact h.sorted _ _ (by omega) (by omega)
  · intro a ha
    have ha1 : a + 1 < n.count - lc := ha
    show n.keys (lc - 1) + 1 ≤ memcpy other.keys n.keys lc (n.count - lc) a ∧
      memcpy other.keys n.keys lc (n.count - lc) a + 1 < up
    rw [hcpy _ _ a (by omega)]
    have := h.sorted (lc - 1) (lc + a) (by omega) (by omega)
    exact ⟨by omega, (h.range _ (by omega)).2⟩
  · have hst := h.stale
    show memcpy other.keys n.keys lc (n.count - lc) (n.count - lc - 1) ≤
        memcpy other.keys n.keys lc (n.count - lc) (n.count - lc - 2) ∨
      up ≤ memcpy other.keys n.keys lc (n.count - lc) (n.count - lc - 1) + 1
    rw [hcpy _ _ _ (by omega), hcpy _ _ _ (by omega)]
    have e2 : lc + (n.count - lc - 1) = n.count - 1 := by omega
    have e3 : lc + (n.count - lc - 2) = n.count - 2 := by omega
    rw [e2, e3]
    exact hst
  · show lc + 1 < _
    omega
  · show n.count - lc + 1 < _
    omega
  · intro j hj
    have hj1 : j < lc := hj
    constructor
    · rfl
    · unfold childHi
      show (if j + 1 = lc then n.keys (lc - 1) + 1 else n.keys j + 1) =
        if j + 1 = n.count then up else n.keys j + 1
      rw [if_neg (show ¬ j + 1 = n.count by omega)]
      by_cases hjl : j + 1 = lc
      · rw [if_pos hjl]
        have : lc - 1 = j := by omega
        rw [this]
      · rw [if_neg hjl]
  · intro j hj
    have hj1 : j < n.count - lc := hj
    constructor
    · unfold childLo
      show (if j = 0 then n.keys (lc - 1) + 1
        else memcpy other.keys n.keys lc (n.count - lc) (j - 1) + 1) =
        if lc + j = 0 then lo else n.keys (lc + j - 1) + 1
      rw [if_neg (show ¬ lc + j = 0 by omega)]
      by_cases hj0 : j = 0
      · rw [if_pos hj0, hj0]
        rfl
      · rw [if_neg hj0, hcpy _ _ _ (by omega)]
        have : lc + (j - 1) = lc + j - 1 := by omega
        rw [this]
    · unfold childHi
      show (if j + 1 = n.count - lc then up
        else memcpy other.keys n.keys lc (n.count - lc) j + 1) =
        if lc + j + 1 = n.count then up else n.keys (lc + j) + 1
      by_cases hjl : j + 1 = n.count - lc
      · rw [if_pos hjl, if_pos (show lc + j + 1 = n.count by omega)]
      · rw [if_neg hjl, if_neg (show ¬ lc + j + 1 = n.count by omega), hcpy _ _ _ hj1]

end BTree

/-! ## B+ tree: subtrees -/

namespace BTree

theorem owns_self (pages : Nat → Node) (l pid : Nat) : Owns pages l pid pid := by
  cases l with
  | zero => exact rfl
  | succ l => exact Or.inl rfl

theorem wf_level (P : Nat) (pages : Nat → Node) (m : Nat → Option Nat) (l pid lo up : Nat)
    (h : WF P pages m l pid lo up) : (pages pid).level = l := by
  cases l with
  | zero => exact h.level
  | succ l => exact h.1.level

/-- The range of a child lies in the range of its node and is not empty. -/
theorem child_range_sub (P : Nat) (n : Node) (lvl lo up i : Nat) (h : InnerOK P n lvl lo up)
    (hi : i < n.count) :
    lo ≤ childLo n lo i ∧ childHi n up i ≤ up ∧ childLo n lo i < childHi n up i := by
  have hc := h.count_lo
  unfold childLo childHi
  by_cases h0 : i = 0
  · by_cases hl : i + 1 = n.count
    · omega
    · rw [if_pos h0, if_neg hl]
      have := h.range i (by omega)
      omega
  · rw [if_neg h0]
    have h1 := h.range (i - 1) (by omega)
    by_cases hl : i + 1 = n.count
    · rw [if_pos hl]
      omega
    · rw [if_neg hl]
      have h2 := h.range i (by omega)
      have h3 := h.sorted (i - 1) i (by omega) (by omega)
      omega

/-- The ranges of two children do not overlap. -/
theorem child_range_disjoint (P : Nat) (n : Node) (lvl lo up i j : Nat)
    (h : InnerOK P n lvl lo up) (hij : i < j) (hj : j < n.count) :
    childHi n up i ≤ childLo n lo j := by
  unfold childLo childHi
  rw [if_neg (by omega), if_neg (by omega)]
  by_cases he : i = j - 1
  · rw [he]
  · have := h.sorted i (j - 1) (by omega) (by omega)
    omega

/-- A subtree only depends on its own pages. -/
theorem wf_frame (P : Nat) (pages pages2 : Nat → Node) (m : Nat → Option Nat) :
    ∀ (l pid lo up : Nat), (∀ q, Owns pages l pid q → pages2 q = pages q) →
      (∀ q, Owns pages2 l pid q ↔ Owns pages l pid q) ∧
        (WF P pages m l pid lo up → WF P pages2 m l pid lo up) := by
  intro l
  induction l with
  | zero =>
    intro pid lo up hfr
    refine ⟨fun q => Iff.rfl, ?_⟩
    intro h
    have h1 : LeafOK P (pages pid) lo up m := h
    show LeafOK P (pages2 pid) lo up m
    rw [hfr pid rfl]
    exact h1
  | succ l ih =>
    intro pid lo up hfr
    have hp : pages2 pid = pages pid := hfr pid (Or.inl rfl)
    have hch : ∀ i, i < (pages pid).count →
        ∀ q, Owns pages l ((pages pid).children i) q → pages2 q = pages q := by
      intro i hil q hq
      exact hfr q (Or.inr ⟨i, hil, hq⟩)
    have hown : ∀ q, Owns pages2 (l + 1) pid q ↔ Owns pages (l + 1) pid q := by
      intro q
      show (q = pid ∨ ∃ i, i < (pages2 pid).count ∧ Owns pages2 l ((pages2 pid).children i) q) ↔
        (q = pid ∨ ∃ i, i < (pages pid).count ∧ Owns pages l ((pages pid).children i) q)
      rw [hp]
      constructor
      · rintro (h1 | ⟨i, hil, h2⟩)
        · exact Or.inl h1
        · exact Or.inr ⟨i, hil, ((ih _ 0 0 (hch i hil)).1 q).1 h2⟩
      · rintro (h1 | ⟨i, hil, h2⟩)
        · exact Or.inl h1
        · exact Or.inr ⟨i, hil, ((ih _ 0 0 (hch i hil)).1 q).2 h2⟩
    refine ⟨hown, ?_⟩
    intro h
    obtain ⟨h1, h2, h3, h4⟩ := h
    show InnerOK P (pages2 pid) (l + 1) lo up ∧ _
    rw [hp]
    refine ⟨h1, ?_, ?_, ?_⟩
    · intro i hil
      exact (ih _ _ _ (hch i hil)).2 (h2 i hil)
    · intro i hil hc
      exact h3 i hil (((ih _ 0 0 (hch i hil)).1 pid).1 hc)
    · intro i j hij hj q hq1 hq2
      exact h4 i j hij hj q (((ih _ 0 0 (hch i (by omega))).1 q).1 hq1)
        (((ih _ 0 0 (hch j hj)).1 q).1 hq2)

/-- A subtree only depends on the entries of the map in its range. -/
theorem wf_map (P : Nat) (pages : Nat → Node) (m m1 : Nat → Option Nat) :
    ∀ (l pid lo up : Nat), WF P pages m l pid lo up →
      (∀ k, lo ≤ k → k < up → m1 k = m k) → WF P pages m1 l pid lo up := by
  intro l
  induction l with
  | zero =>
    intro pid lo up h hm
    have h1 : LeafOK P (pages pid) lo up m := h
    show LeafOK P (pages pid) lo up m1
    refine ⟨h1.level, h1.count, h1.sorted, h1.range, ?_, ?_⟩
    · intro i hil
      have := h1.range i hil
      rw [hm _ this.1 this.2]
      exact h1.holds i hil
    · intro k hk1 hk2 hall
      rw [hm k hk1 hk2]
      exact h1.only k hk1 hk2 hall
  | succ l ih =>
    intro pid lo up h hm
    obtain ⟨h1, h2, h3, h4⟩ := h
    refine ⟨h1, ?_, h3, h4⟩
    intro i hil
    obtain ⟨r1, r2, _⟩ := child_range_sub P _ _ lo up i h1 hil
    apply ih _ _ _ (h2 i hil)
    intro k hk1 hk2
    exact hm k (by omega) (by omega)

/-- Child `i` of a node is replaced by a subtree for the same range, made of
its old pages and of pages in `F`, which the node does not own; the node is a
subtree again. -/
theorem wf_replace_child (P : Nat) (pages pages2 : Nat → Node) (m m1 : Nat → Option Nat)
    (l pid lo up i : Nat) (F : Nat → Prop)
    (h : WF P pages m (l + 1) pid lo up) (hi : i < (pages pid).count)
    (hbelow : ∀ q, Owns pages (l + 1) pid q → ¬ F q)
    (hframe : ∀ q, ¬ F q → ¬ Owns pages l ((pages pid).children i) q → pages2 q = pages q)
    (hsub : WF P pages2 m1 l ((pages pid).children i) (childLo (pages pid) lo i)
      (childHi (pages pid) up i))
    (hown : ∀ q, Owns pages2 l ((pages pid).children i) q →
      Owns pages l ((pages pid).children i) q ∨ F q)
    (hm : ∀ k, ¬ (childLo (pages pid) lo i ≤ k ∧ k < childHi (pages pid) up i) → m1 k = m k) :
    WF P pages2 m1 (l + 1) pid lo up ∧ pages2 pid = pages pid ∧
      (∀ q, Owns pages2 (l + 1) pid q → Owns pages (l + 1) pid q ∨ F q) := by
  obtain ⟨h1, h2, h3, h4⟩ := h
  have hp : pages2 pid = pages pid :=
    hframe pid (hbelow pid (Or.inl rfl)) (h3 i hi)
  -- the other children are untouched
  have hother : ∀ j, j < (pages pid).count → j ≠ i →
      ∀ q, Owns pages l ((pages pid).children j) q → pages2 q = pages q := by
    intro j hj hji q hq
    apply hframe q (hbelow q (Or.inr ⟨j, hj, hq⟩))
    intro hqi
    rcases Nat.lt_or_gt_of_ne hji with hlt | hgt
    · exact h4 j i hlt hi q hq hqi
    · exact h4 i j hgt hj q hqi hq
  have howns : ∀ j, j < (pages pid).count → j ≠ i →
      ∀ q, Owns pages2 l ((pages pid).children j) q ↔ Owns pages l ((pages pid).children j) q :=
    fun j hj hji => (wf_frame P pages pages2 m l _ 0 0 (hother j hj hji)).1
  refine ⟨⟨?_, ?_, ?_, ?_⟩, hp, ?_⟩
  · rw [hp]; exact h1
  · rw [hp]
    intro j hj
    by_cases hji : j = i
    · rw [hji]; exact hsub
    · have hw := (wf_frame P pages pages2 m l _ _ _ (hother j hj hji)).2 (h2 j hj)
      apply wf_map P pages2 m m1 l _ _ _ hw
      intro k hk1 hk2
      apply hm
      intro hc
      rcases Nat.lt_or_gt_of_ne hji with hlt | hgt
      · have := child_range_disjoint P _ _ lo up j i h1 hlt hi
        omega
      · have := child_range_disjoint P _ _ lo up i j h1 hgt hj
        omega
  · rw [hp]
    intro j hj hc
    by_cases hji : j = i
    · rw [hji] at hc
      rcases hown pid hc with h5 | h5
      · exact h3 i hi h5
      · exact hbelow pid (Or.inl rfl) h5
    · exact h3 j hj ((howns j hj hji pid).1 hc)
  · rw [hp]
    intro a b hab hb q hqa hqb
    by_cases hai : a = i
    · have hbi : b ≠ i := by omega
      have hqb1 := (howns b hb hbi q).1 hqb
      rw [hai] at hqa
      rcases hown q hqa with h5 | h5
      · exact h4 i b (by omega) hb q h5 hqb1
      · exact hbelow q (Or.inr ⟨b, hb, hqb1⟩) h5
    · have hqa1 := (howns a (by omega) hai q).1 hqa
      by_cases hbi : b = i
      · rw [hbi] at hqb
        rcases hown q hqb with h5 | h5
        · exact h4 a i (by omega) hi q hqa1 h5
        · exact hbelow q (Or.inr ⟨a, by omega, hqa1⟩) h5
      · exact h4 a b hab hb q hqa1 ((howns b hb hbi q).1 hqb)
  · intro q hq
    have hq1 : q = pid ∨ ∃ j, j < (pages2 pid).count ∧
        Owns pages2 l ((pages2 pid).children j) q := hq
    rw [hp] at hq1
    rcases hq1 with h5 | ⟨j, hj, h5⟩
    · exact Or.inl (Or.inl h5)
    · by_cases hji : j = i
      · rw [hji] at h5
        rcases hown q h5 with h6 | h6
        · exact Or.inl (Or.inr ⟨i, hi, h6⟩)
        · exact Or.inr h6
      · exact Or.inl (Or.inr ⟨j, hj, (howns j hj hji q).1 h5⟩)

end BTree

namespace BTree

theorem path_wf (P : Nat) (pages : Nat → Node) (m : Nat → Option Nat) (key lt : Nat) :
    ∀ (d pid lo up tgt tlo tup : Nat), WF P pages m (lt + d) pid lo up →
      PathTo pages key d pid lo up tgt tlo tup →
      WF P pages m lt tgt tlo tup ∧ lo ≤ tlo ∧ tup ≤ up ∧
        (∀ q, Owns pages lt tgt q → Owns pages (lt + d) pid q) := by
  intro d
  induction d with
  | zero =>
    intro pid lo up tgt tlo tup h hp
    obtain ⟨e1, e2, e3⟩ := hp
    subst e1 e2 e3
    exact ⟨h, le_refl _, le_refl _, fun q hq => hq⟩
  | succ d ih =>
    intro pid lo up tgt tlo tup h hp
    obtain ⟨i, hil, _, _, hp1⟩ := hp
    have h0 : WF P pages m (lt + d + 1) pid lo up := h
    obtain ⟨h1, h2, h3, h4⟩ := h0
    obtain ⟨a1, a2, a3, a4⟩ := ih _ _ _ _ _ _ (h2 i hil) hp1
    obtain ⟨r1, r2, _⟩ := child_range_sub P _ _ lo up i h1 hil
    refine ⟨a1, by omega, by omega, ?_⟩
    intro q hq
    exact Or.inr ⟨i, hil, a4 q hq⟩

/-- The subtree at the end of a path is replaced by a subtree for the same
range, made of its old pages and of pages in `F`. -/
theorem path_replace (P : Nat) (pages pages2 : Nat → Node) (m m1 : Nat → Option Nat)
    (key lt : Nat) (F : Nat → Prop) :
    ∀ (d pid lo up tgt tlo tup : Nat), WF P pages m (lt + d) pid lo up →
      PathTo pages key d pid lo up tgt tlo tup →
      (∀ q, Owns pages (lt + d) pid q → ¬ F q) →
      (∀ q, ¬ F q → ¬ Owns pages lt tgt q → pages2 q = pages q) →
      WF P pages2 m1 lt tgt tlo tup →
      (∀ q, Owns pages2 lt tgt q → Owns pages lt tgt q ∨ F q) →
      (∀ k, ¬ (tlo ≤ k ∧ k < tup) → m1 k = m k) →
      WF P pages2 m1 (lt + d) pid lo up ∧
        (∀ q, Owns pages2 (lt + d) pid q → Owns pages (lt + d) pid q ∨ F q) := by
  intro d
  induction d with
  | zero =>
    intro pid lo up tgt tlo tup h hp hbelow hframe hsub hown hm
    obtain ⟨e1, e2, e3⟩ := hp
    subst e1 e2 e3
    exact ⟨hsub, hown⟩
  | succ d ih =>
    intro pid lo up tgt tlo tup h hp hbelow hframe hsub hown hm
    obtain ⟨i, hil, _, _, hp1⟩ := hp
    have h0 : WF P pages m (lt + d + 1) pid lo up := h
    obtain ⟨h1, h2, h3, h4⟩ := h0
    obtain ⟨a1, a2, a3, a4⟩ := path_wf P pages m key lt _ _ _ _ _ _ _ (h2 i hil) hp1
    obtain ⟨b1, b2⟩ := ih _ _ _ _ _ _ (h2 i hil) hp1
      (fun q hq => hbelow q (Or.inr ⟨i, hil, hq⟩)) hframe hsub hown hm
    obtain ⟨c1, _, c3⟩ := wf_replace_child P pages pages2 m m1 (lt + d) pid lo up i F h hil
      hbelow (fun q hq hno => hframe q hq (fun hc => hno (a4 q hc))) b1 b2
      (fun k hk => hm k (fun hc => hk ⟨by omega, by omega⟩))
    exact ⟨c1, c3⟩

end BTree

namespace BTree

/-- Child `i` of a node was split at `sep` into itself and page `rid`, and
`InnerNode::insert` has put `sep` and `rid` into the node; the node is a
subtree again. -/
theorem wf_split_insert (P : Nat) (pages pages2 : Nat → Node) (m m1 : Nat → Option Nat)
    (l pid lo up i sep rid : Nat) (F : Nat → Prop)
    (h : WF P pages m (l + 1) pid lo up) (hi : i < (pages pid).count)
    (hbelow : ∀ q, Owns pages (l + 1) pid q → ¬ F q)
    (hcnt : (pages2 pid).count = (pages pid).count + 1)
    (hok : InnerOK P (pages2 pid) (l + 1) lo up)
    (hch1 : ∀ j, j ≤ i → (pages2 pid).children j = (pages pid).children j)
    (hch2 : (pages2 pid).children (i + 1) = rid)
    (hch3 : ∀ j, i + 1 < j → j ≤ (pages pid).count →
      (pages2 pid).children j = (pages pid).children (j - 1))
    (hkeys : ∀ j, j < (pages pid).count →
      (pages2 pid).keys j = if j < i then (pages pid).keys j else if j = i then sep
        else (pages pid).keys (j - 1))
    (hframe : ∀ q, ¬ F q → q ≠ pid → ¬ Owns pages l ((pages pid).children i) q →
      pages2 q = pages q)
    (hleft : WF P pages2 m1 l ((pages pid).children i) (childLo (pages pid) lo i) (sep + 1))
    (hright : WF P pages2 m1 l rid (sep + 1) (childHi (pages pid) up i))
    (hownl : ∀ q, Owns pages2 l ((pages pid).children i) q →
      Owns pages l ((pages pid).children i) q ∨ F q)
    (hownr : ∀ q, Owns pages2 l rid q → Owns pages l ((pages pid).children i) q ∨ F q)
    (hdisj : ∀ q, Owns pages2 l ((pages pid).children i) q → ¬ Owns pages2 l rid q)
    (hm : ∀ k, ¬ (childLo (pages pid) lo i ≤ k ∧ k < childHi (pages pid) up i) →
      m1 k = m k) :
    WF P pages2 m1 (l + 1) pid lo up ∧
      (∀ q, Owns pages2 (l + 1) pid q → Owns pages (l + 1) pid q ∨ F q) := by
  obtain ⟨h1, h2, h3, h4⟩ := h
  obtain ⟨r1, r2, r3, r4, r5, r6⟩ :=
    child_ranges_insert (pages pid) (pages2 pid) lo up i sep hi hcnt hkeys
  have hpid : ¬ F pid := hbelow pid (Or.inl rfl)
  -- the children that were not split
  have hold : ∀ j, j < (pages pid).count + 1 → j ≠ i → j ≠ i + 1 →
      (if j < i then j else j - 1) < (pages pid).count ∧ (if j < i then j else j - 1) ≠ i ∧
      (pages2 pid).children j = (pages pid).children (if j < i then j else j - 1) ∧
      childLo (pages2 pid) lo j = childLo (pages pid) lo (if j < i then j else j - 1) ∧
      childHi (pages2 pid) up j = childHi (pages pid) up (if j < i then j else j - 1) := by
    intro j hj hji hji1
    by_cases hlt : j < i
    · rw [if_pos hlt]
      exact ⟨by omega, by omega, hch1 j (by omega), (r1 j hlt).1, (r1 j hlt).2⟩
    · rw [if_neg hlt]
      exact ⟨by omega, by omega, hch3 j (by omega) (by omega), (r6 j (by omega) (by omega)).1,
        (r6 j (by omega) (by omega)).2⟩
  have hother : ∀ o, o < (pages pid).count → o ≠ i →
      ∀ q, Owns pages l ((pages pid).children o) q → pages2 q = pages q := by
    intro o ho hoi q hq
    apply hframe q (hbelow q (Or.inr ⟨o, ho, hq⟩))
    · intro hc
      rw [hc] at hq
      exact h3 o ho hq
    · intro hqi
      rcases Nat.lt_or_gt_of_ne hoi with hlt | hgt
      · exact h4 o i hlt hi q hq hqi
      · exact h4 i o hgt ho q hqi hq
  have howns : ∀ o, o < (pages pid).count → o ≠ i →
      ∀ q, Owns pages2 l ((pages pid).children o) q ↔ Owns pages l ((pages pid).children o) q :=
    fun o ho hoi => (wf_frame P pages pages2 m l _ 0 0 (hother o ho hoi)).1
  -- what a page of a child of the new node is
  have hkind : ∀ j, j < (pages pid).count + 1 → ∀ q,
      Owns pages2 l ((pages2 pid).children j) q →
      (F q ∧ (j = i ∨ j = i + 1)) ∨
      (j = i ∧ Owns pages l ((pages pid).children i) q) ∨
      (j = i + 1 ∧ Owns pages l ((pages pid).children i) q) ∨
      (j ≠ i ∧ j ≠ i + 1 ∧
        Owns pages l ((pages pid).children (if j < i then j else j - 1)) q) := by
    intro j hj q hq
    by_cases hji : j = i
    · rw [hji, hch1 i (le_refl _)] at hq
      rcases hownl q hq with h5 | h5
      · exact Or.inr (Or.inl ⟨hji, h5⟩)
      · exact Or.inl ⟨h5, Or.inl hji⟩
    · by_cases hji1 : j = i + 1
      · rw [hji1, hch2] at hq
        rcases hownr q hq with h5 | h5
        · exact Or.inr (Or.inr (Or.inl ⟨hji1, h5⟩))
        · exact Or.inl ⟨h5, Or.inr hji1⟩
      · obtain ⟨o1, o2, o3, _, _⟩ := hold j hj hji hji1
        rw [o3] at hq
        exact Or.inr (Or.inr (Or.inr ⟨hji, hji1, (howns _ o1 o2 q).1 hq⟩))
  have hkold : ∀ j, j < (pages pid).count + 1 → ∀ q,
      Owns pages2 l ((pages2 pid).children j) q → Owns pages (l + 1) pid q ∨ F q := by
    intro j hj q hq
    rcases hkind j hj q hq with ⟨h5, _⟩ | ⟨_, h5⟩ | ⟨_, h5⟩ | ⟨hji, hji1, h5⟩
    · exact Or.inr h5
    · exact Or.inl (Or.inr ⟨i, hi, h5⟩)
    · exact Or.inl (Or.inr ⟨i, hi, h5⟩)
    · exact Or.inl (Or.inr ⟨_, (hold j hj hji hji1).1, h5⟩)
  refine ⟨⟨hok, ?_, ?_, ?_⟩, ?_⟩
  · rw [hcnt]
    intro j hj
    by_cases hji : j = i
    · rw [hji, hch1 i (le_refl _), r2, r3]
      exact hleft
    · by_cases hji1 : j = i + 1
      · rw [hji1, hch2, r4, r5]
        exact hright
      · obtain ⟨o1, o2, o3, o4, o5⟩ := hold j hj hji hji1
        rw [o3, o4, o5]
        have hw := (wf_frame P pages pages2 m l _ _ _ (hother _ o1 o2)).2 (h2 _ o1)
        apply wf_map P pages2 m m1 l _ _ _ hw
        intro k hk1 hk2
        apply hm
        intro hc
        rcases Nat.lt_or_gt_of_ne o2 with hlt | hgt
        · have := child_range_disjoint P _ _ lo up _ i h1 hlt hi
          omega
        · have := child_range_disjoint P _ _ lo up i _ h1 hgt o1
          omega
  · rw [hcnt]
    intro j hj hc
    rcases hkind j hj pid hc with ⟨h5, _⟩ | ⟨_, h5⟩ | ⟨_, h5⟩ | ⟨hji, hji1, h5⟩
    · exact hpid h5
    · exact h3 i hi h5
    · exact h3 i hi h5
    · exact h3 _ (hold j hj hji hji1).1 h5
  · rw [hcnt]
    intro a b hab hb q hqa hqb
    have hbl : F q → False := by
      intro hge
      rcases hkind a (by omega) q hqa with ⟨_, ha⟩ | ⟨ha, _⟩ | ⟨ha, _⟩ | ⟨ha1, ha2, h5⟩
      · rcases hkind b hb q hqb with ⟨_, hb1⟩ | ⟨hb1, _⟩ | ⟨hb1, _⟩ | ⟨hb1, hb2, h6⟩
        · have ha3 : a = i := by omega
          have hb3 : b = i + 1 := by omega
          rw [ha3, hch1 i (le_refl _)] at hqa
          rw [hb3, hch2] at hqb
          exact hdisj q hqa hqb
        · omega
        · have ha3 : a = i := by omega
          rw [ha3, hch1 i (le_refl _)] at hqa
          rw [hb1, hch2] at hqb
          exact hdisj q hqa hqb
        · exact hbelow q (Or.inr ⟨_, (hold b hb hb1 hb2).1, h6⟩) hge
      · rcases hkind b hb q hqb with ⟨_, hb1⟩ | ⟨hb1, _⟩ | ⟨hb1, _⟩ | ⟨hb1, hb2, h6⟩
        · have hb3 : b = i + 1 := by omega
          rw [ha, hch1 i (le_refl _)] at hqa
          rw [hb3, hch2] at hqb
          exact hdisj q hqa hqb
        · omega
        · rw [ha, hch1 i (le_refl _)] at hqa
          rw [hb1, hch2] at hqb
          exact hdisj q hqa hqb
        · exact hbelow q (Or.inr ⟨_, (hold b hb hb1 hb2).1, h6⟩) hge
      · rcases hkind b hb q hqb with ⟨_, hb1⟩ | ⟨hb1, _⟩ | ⟨hb1, _⟩ | ⟨hb1, hb2, h6⟩
        · omega
        · omega
        · omega
        · exact hbelow q (Or.inr ⟨_, (hold b hb hb1 hb2).1, h6⟩) hge
      · exact hbelow q (Or.inr ⟨_, (hold a (by omega) ha1 ha2).1, h5⟩) hge
    by_cases hge : F q
    · exact hbl hge
    · rcases hkind a (by omega) q hqa with ⟨h5, _⟩ | ⟨ha, h5⟩ | ⟨ha, h5⟩ | ⟨ha1, ha2, h5⟩
      · exact hge h5
      · rcases hkind b hb q hqb with ⟨h6, _⟩ | ⟨hb1, h6⟩ | ⟨hb1, h6⟩ | ⟨hb1, hb2, h6⟩
        · exact hge h6
        · omega
        · rw [ha, hch1 i (le_refl _)] at hqa
          rw [hb1, hch2] at hqb
          exact hdisj q hqa hqb
        · obtain ⟨o1, o2, _⟩ := hold b hb hb1 hb2
          have hob : i < (if b < i then b else b - 1) := by
            split <;> omega
          exact h4 i _ hob o1 q h5 h6
      · rcases hkind b hb q hqb with ⟨h6, _⟩ | ⟨hb1, h6⟩ | ⟨hb1, h6⟩ | ⟨hb1, hb2, h6⟩
        · exact hge h6
        · omega
        · omega
        · obtain ⟨o1, o2, _⟩ := hold b hb hb1 hb2
          have hob : i < (if b < i then b else b - 1) := by
            split <;> omega
          exact h4 i _ hob o1 q h5 h6
      · obtain ⟨oa1, oa2, _⟩ := hold a (by omega) ha1 ha2
        rcases hkind b hb q hqb with ⟨h6, _⟩ | ⟨hb1, h6⟩ | ⟨hb1, h6⟩ | ⟨hb1, hb2, h6⟩
        · exact hge h6
        · have hoa : (if a < i then a else a - 1) < i := by
            split <;> omega
          exact h4 _ i hoa hi q h5 h6
        · have hoa : (if a < i then a else a - 1) < i := by
            split <;> omega
          exact h4 _ i hoa hi q h5 h6
        · obtain ⟨ob1, ob2, _⟩ := hold b hb hb1 hb2
          have hoab : (if a < i then a else a - 1) < (if b < i then b else b - 1) := by
            split <;> split <;> omega
          exact h4 _ _ hoab ob1 q h5 h6
  · intro q hq
    have hq1 : q = pid ∨ ∃ j, j < (pages2 pid).count ∧
        Owns pages2 l ((pages2 pid).children j) q := hq
    rcases hq1 with h5 | ⟨j, hj, h5⟩
    · exact Or.inl (Or.inl h5)
    · rw [hcnt] at hj
      exact hkold j hj q h5

end BTree

/-! ## B+ tree: going down -/

namespace BTree

theorem is_leaf_iff (n : Node) : n.is_leaf = true ↔ n.level = 0 := by
  unfold Node.is_leaf
  simp

/-- The child `lookup` returns in a subtree. -/
theorem lookup_child (P : Nat) (pages : Nat → Node) (m : Nat → Option Nat)
    (l pid lo up key child : Nat) (h : WF P pages m (l + 1) pid lo up) (hlo : lo ≤ key)
    (hup : key < up) (hl : InnerNode.lookup P (pages pid) key = some child) :
    ∃ i, i < (pages pid).count ∧ child = (pages pid).children i ∧
      childLo (pages pid) lo i ≤ key ∧ key < childHi (pages pid) up i ∧
      WF P pages m l child (childLo (pages pid) lo i) (childHi (pages pid) up i) ∧
      (pages child).level = l := by
  obtain ⟨i, a1, a2, a3, a4⟩ := inner_lookup_spec P _ _ lo up h.1 key hlo hup
  rw [a2] at hl
  simp only [Option.some.injEq] at hl
  subst hl
  exact ⟨i, a1, rfl, a3, a4, h.2.1 i a1, wf_level P pages m l _ _ _ (h.2.1 i a1)⟩

theorem lookup_defined (P : Nat) (pages : Nat → Node) (m : Nat → Option Nat)
    (l pid lo up key : Nat) (h : WF P pages m (l + 1) pid lo up) (hlo : lo ≤ key)
    (hup : key < up) : ∃ child, InnerNode.lookup P (pages pid) key = some child := by
  obtain ⟨i, _, a2, _, _⟩ := inner_lookup_spec P _ _ lo up h.1 key hlo hup
  exact ⟨_, a2⟩

/-- The loop of `get_leaf_page` for `lookup` and `erase` changes nothing and
ends at the node above the leaf for `key`. -/
theorem descend_ro (P : Nat) (t : BTree) (m : Nat → Option Nat) (key : Nat)
    (tt : TraversalType) (htt : tt ≠ TraversalType.Insert) :
    ∀ (l fuel parent lo up child : Nat), WF P t.pages m (l + 1) parent lo up → lo ≤ key →
      key < up → InnerNode.lookup P (t.pages parent) key = some child → l ≤ fuel →
      ∃ par leaf plo pup, descend P key tt fuel t parent child = some (t, par, leaf) ∧
        PathTo t.pages key l parent lo up par plo pup ∧ plo ≤ key ∧ key < pup ∧
        InnerNode.lookup P (t.pages par) key = some leaf := by
  intro l
  induction l with
  | zero =>
    intro fuel parent lo up child h hlo hup hl _
    obtain ⟨i, a1, a2, a3, a4, a5, a6⟩ := lookup_child P t.pages m 0 parent lo up key child h
      hlo hup hl
    have hpl : (t.pages parent).level = 1 := h.1.level
    have hleaf : (t.pages child).is_leaf = true := (is_leaf_iff _).2 a6
    refine ⟨parent, child, lo, up, ?_, ⟨rfl, rfl, rfl⟩, hlo, hup, hl⟩
    cases fuel with
    | zero =>
      unfold descend
      rw [if_pos ⟨hleaf, hpl, a6⟩]
    | succ f =>
      unfold descend
      rw [if_pos hleaf, if_pos ⟨hpl, a6⟩]
  | succ l ih =>
    intro fuel parent lo up child h hlo hup hl hf
    obtain ⟨i, a1, a2, a3, a4, a5, a6⟩ := lookup_child P t.pages m (l + 1) parent lo up key
      child h hlo hup hl
    obtain ⟨gc, hgc⟩ := lookup_defined P t.pages m l child _ _ key a5 a3 a4
    obtain ⟨_, _, _, _, _, _, b6⟩ := lookup_child P t.pages m l child _ _ key gc a5 a3 a4 hgc
    have hleaf : ¬ (t.pages child).is_leaf = true := by
      rw [is_leaf_iff, a6]
      omega
    cases fuel with
    | zero => omega
    | succ f =>
      obtain ⟨par, leaf, plo, pup, c1, c2, c3, c4, c5⟩ :=
        ih f child _ _ gc a5 a3 a4 hgc (by omega)
      refine ⟨par, leaf, plo, pup, ?_, ?_, c3, c4, c5⟩
      · unfold descend
        rw [if_neg hleaf, if_neg htt]
        simp only [hgc]
        rw [if_pos (by rw [b6, a6]; rfl)]
        exact c1
      · rw [a2] at c2
        exact ⟨i, a1, a3, a4, c2⟩

end BTree

/-! ## B+ tree: lookup and erase -/

namespace BTree

/-- The method `get_leaf_page` for `lookup` and `erase` on a tree whose root is an inner node. -/
theorem get_leaf_page_ro (P : Nat) (t : BTree) (m : Nat → Option Nat) (key r l : Nat)
    (tt : TraversalType) (htt : tt ≠ TraversalType.Insert) (hroot : t.root = some r)
    (h : WF P t.pages m (l + 1) r 0 (2 ^ 64)) (hkey : key < 2 ^ 64) :
    ∃ par leaf plo pup, get_leaf_page P t key tt = some (t, par, leaf) ∧
      PathTo t.pages key l r 0 (2 ^ 64) par plo pup ∧ plo ≤ key ∧ key < pup ∧
      InnerNode.lookup P (t.pages par) key = some leaf := by
  have hlev : (t.pages r).level = l + 1 := h.1.level
  obtain ⟨child, hchild⟩ := lookup_defined P t.pages m l r _ _ key h (Nat.zero_le _) hkey
  obtain ⟨_, _, _, _, _, _, a6⟩ := lookup_child P t.pages m l r _ _ key child h (Nat.zero_le _)
    hkey hchild
  obtain ⟨par, leaf, plo, pup, c1, c2, c3, c4, c5⟩ :=
    descend_ro P t m key tt htt l (l + 1) r 0 (2 ^ 64) child h (Nat.zero_le _) hkey hchild
      (by omega)
  refine ⟨par, leaf, plo, pup, ?_, c2, c3, c4, c5⟩
  unfold get_leaf_page
  rw [hroot]
  simp only
  have hleaf : ¬ (t.pages r).is_leaf = true := by
    rw [is_leaf_iff, hlev]
    omega
  rw [if_neg hleaf, if_neg htt]
  simp only [hchild]
  rw [if_pos (by rw [a6, hlev]; rfl), hlev]
  exact c1

/-- The method `lookup` returns the entry of the map the tree stands for. -/
theorem lookup_spec (P : Nat) (t : BTree) (m : Nat → Option Nat) (h : TreeInv P t m)
    (key : Nat) (hkey : key < 2 ^ 64) : lookup P t key = some (m key) := by
  unfold lookup
  cases hroot : t.root with
  | none =>
    simp only
    rw [h.empty hroot key]
  | some r =>
    simp only
    have hw := h.tree r hroot
    cases hl : (t.pages r).level with
    | zero =>
      rw [hl] at hw
      have hleaf : (t.pages r).is_leaf = true := (is_leaf_iff _).2 hl
      have hg : get_leaf_page P t key TraversalType.Lookup = some (t, r, r) := by
        unfold get_leaf_page
        rw [hroot]
        simp only
        rw [if_pos hleaf]
      rw [hg]
      simp only
      rw [if_pos hleaf, leaf_lookup_spec P _ 0 (2 ^ 64) m hw key (Nat.zero_le _) hkey]
    | succ l =>
      rw [hl] at hw
      obtain ⟨par, leaf, plo, pup, c1, c2, c3, c4, c5⟩ :=
        get_leaf_page_ro P t m key r l TraversalType.Lookup (by decide) hroot hw hkey
      rw [c1]
      simp only
      have hw1 : WF P t.pages m (1 + l) r 0 (2 ^ 64) := by
        rw [Nat.add_comm]; exact hw
      obtain ⟨p1, _, _, _⟩ := path_wf P t.pages m key 1 l r _ _ par plo pup hw1 c2
      obtain ⟨i, _, _, a3, a4, a5, a6⟩ :=
        lookup_child P t.pages m 0 par plo pup key leaf p1 c3 c4 c5
      rw [if_pos ((is_leaf_iff _).2 a6), leaf_lookup_spec P _ _ _ m a5 key a3 a4]

/-- The map without `key`. -/
theorem erased_map (m : Nat → Option Nat) (key : Nat) :
    (fun k => if k = key then none else m k) key = none ∧
      ∀ k, k ≠ key → (fun k => if k = key then none else m k) k = m k := by
  constructor
  · simp
  · intro k hk
    simp [hk]

/-- The method `erase` takes `key` out of the map the tree stands for. -/
theorem erase_spec (P : Nat) (t : BTree) (m : Nat → Option Nat) (h : TreeInv P t m)
    (hcap : LeafNode.kCapacity P < 2 ^ 16) (key : Nat) (hkey : key < 2 ^ 64) :
    ∃ t1, erase P t key = some t1 ∧ TreeInv P t1 (fun k => if k = key then none else m k) ∧
      t1.next_page_id = t.next_page_id ∧ rootLevel t1 = rootLevel t := by
  obtain ⟨hm1, hm2⟩ := erased_map m key
  generalize (fun k => if k = key then none else m k) = m1 at hm1 hm2
  unfold erase
  cases hroot : t.root with
  | none =>
    simp only
    refine ⟨t, rfl, ⟨h.fresh, ?_, ?_, ?_, ?_⟩, rfl, rfl⟩
    · intro _ k
      by_cases hk : k = key
      · rw [hk]; exact hm1
      · rw [hm2 k hk]; exact h.empty hroot k
    · intro r hr
      rw [hroot] at hr
      simp at hr
    · intro r hr
      rw [hroot] at hr
      simp at hr
    · intro k hk
      rw [hm2 k (by omega)]
      exact h.beyond k hk
  | some r =>
    simp only
    have hw := h.tree r hroot
    have hbelow := h.below r hroot
    have hbeyond : ∀ k, 2 ^ 64 ≤ k → m1 k = none := by
      intro k hk
      rw [hm2 k (by omega)]
      exact h.beyond k hk
    cases hl : (t.pages r).level with
    | zero =>
      rw [hl] at hw hbelow
      have hleaf : (t.pages r).is_leaf = true := (is_leaf_iff _).2 hl
      have hg : get_leaf_page P t key TraversalType.Erase = some (t, r, r) := by
        unfold get_leaf_page
        rw [hroot]
        simp only
        rw [if_pos hleaf]
      rw [hg]
      simp only
      rw [if_pos hleaf]
      obtain ⟨n1, e1, e2, _⟩ := leaf_erase_spec P _ 0 (2 ^ 64) m m1 hw key hcap hm1 hm2
      rw [e1]
      simp only
      have hpr : (t.setPage r n1).pages r = n1 := by
        show (if r = r then n1 else t.pages r) = n1
        rw [if_pos rfl]
      refine ⟨_, rfl, ⟨?_, ?_, ?_, ?_, hbeyond⟩, rfl, ?_⟩
      · intro q hq
        have hr := hbelow r rfl
        have hq1 : t.next_page_id ≤ q := hq
        show (if q = r then n1 else t.pages q) = zeroNode
        rw [if_neg (by omega)]
        exact h.fresh q hq
      · intro hc
        have hc1 : t.root = none := hc
        rw [hroot] at hc1
        simp at hc1
      · intro r1 hr1
        have hr2 : t.root = some r1 := hr1
        rw [hroot] at hr2
        simp only [Option.some.injEq] at hr2
        subst hr2
        rw [hpr, e2.level]
        show LeafOK P ((t.setPage r n1).pages r) 0 (2 ^ 64) m1
        rw [hpr]
        exact e2
      · intro r1 hr1
        have hr2 : t.root = some r1 := hr1
        rw [hroot] at hr2
        simp only [Option.some.injEq] at hr2
        subst hr2
        rw [hpr, e2.level]
        intro q hq
        have hq1 : q = r := hq
        rw [hq1]
        exact hbelow r rfl
      · unfold rootLevel
        show (match t.root with
          | none => 0
          | some root => ((t.setPage r n1).pages root).level) = _
        rw [hroot]
        simp only
        rw [hpr, e2.level, hl]
    | succ l =>
      rw [hl] at hw hbelow
      obtain ⟨par, leaf, plo, pup, c1, c2, c3, c4, c5⟩ :=
        get_leaf_page_ro P t m key r l TraversalType.Erase (by decide) hroot hw hkey
      rw [c1]
      simp only
      have hw1 : WF P t.pages m (1 + l) r 0 (2 ^ 64) := by
        rw [Nat.add_comm]; exact hw
      have hbelow1 : ∀ q, Owns t.pages (1 + l) r q → q < t.next_page_id := by
        rw [Nat.add_comm]; exact hbelow
      obtain ⟨p1, p2, p3, p4⟩ := path_wf P t.pages m key 1 l r _ _ par plo pup hw1 c2
      obtain ⟨i, a1, a2, a3, a4, a5, a6⟩ :=
        lookup_child P t.pages m 0 par plo pup key leaf p1 c3 c4 c5
      rw [if_pos ((is_leaf_iff _).2 a6)]
      obtain ⟨n1, e1, e2, _⟩ := leaf_erase_spec P _ _ _ m m1 a5 key hcap hm1 hm2
      rw [e1]
      simp only
      have hpl : (t.setPage leaf n1).pages leaf = n1 := by
        show (if leaf = leaf then n1 else t.pages leaf) = n1
        rw [if_pos rfl]
      have hpo : ∀ q, q ≠ leaf → (t.setPage leaf n1).pages q = t.pages q := by
        intro q hq
        show (if q = leaf then n1 else t.pages q) = _
        rw [if_neg hq]
      have hparbelow : ∀ q, Owns t.pages 1 par q → q < t.next_page_id :=
        fun q hq => hbelow1 q (p4 q hq)
      obtain ⟨w1, w2, w3⟩ := wf_replace_child P t.pages (t.setPage leaf n1).pages m m1 0 par
        plo pup i (fun _ => False) p1 a1 (fun _ _ hf => hf)
        (by
          intro q _ hq
          rw [← a2] at hq
          exact hpo q hq)
        (by
          rw [← a2]
          show LeafOK P ((t.setPage leaf n1).pages leaf) _ _ m1
          rw [hpl]
          exact e2)
        (by
          intro q hq
          rw [← a2] at hq ⊢
          exact Or.inl hq)
        (by
          intro k hk
          apply hm2
          intro hc
          rw [hc] at hk
          exact hk ⟨a3, a4⟩)
      obtain ⟨x1, x2⟩ := path_replace P t.pages (t.setPage leaf n1).pages m m1 key 1
        (fun _ => False) l r 0 (2 ^ 64) par plo pup hw1 c2 (fun _ _ hf => hf)
        (by
          intro q _ hq
          apply hpo q
          intro hc
          apply hq
          rw [hc, a2]
          exact Or.inr ⟨i, a1, rfl⟩)
        w1 w3
        (by
          intro k hk
          apply hm2
          intro hc
          rw [hc] at hk
          exact hk ⟨c3, c4⟩)
      have x1a : WF P (t.setPage leaf n1).pages m1 (l + 1) r 0 (2 ^ 64) := by
        rw [Nat.add_comm]; exact x1
      have hlev2 := wf_level P _ m1 _ _ _ _ x1a
      refine ⟨_, rfl, ⟨?_, ?_, ?_, ?_, hbeyond⟩, rfl, ?_⟩
      · intro q hq
        have hlf := hparbelow leaf (by rw [a2]; exact Or.inr ⟨i, a1, rfl⟩)
        rw [hpo q (by
          have hq1 : t.next_page_id ≤ q := hq
          omega)]
        exact h.fresh q hq
      · intro hc
        have hc1 : t.root = none := hc
        rw [hroot] at hc1
        simp at hc1
      · intro r1 hr1
        have hr2 : t.root = some r1 := hr1
        rw [hroot] at hr2
        simp only [Option.some.injEq] at hr2
        subst hr2
        rw [hlev2]
        exact x1a
      · intro r1 hr1
        have hr2 : t.root = some r1 := hr1
        rw [hroot] at hr2
        simp only [Option.some.injEq] at hr2
        subst hr2
        rw [hlev2]
        intro q hq
        have hq1 : Owns (t.setPage leaf n1).pages (1 + l) r q := by
          rw [Nat.add_comm]; exact hq
        rcases x2 q hq1 with h5 | h5
        · exact hbelow1 q h5
        · exact absurd h5 id
      · unfold rootLevel
        show (match t.root with
          | none => 0
          | some root => ((t.setPage leaf n1).pages root).level) = _
        rw [hroot]
        simp only
        rw [hlev2, hl]

end BTree

/-! ## B+ tree: insert -/

namespace BTree

/-- One half of a split inner node: page `x` holds `count` children of the
node at page `c`, from child `off` on. -/
theorem wf_part (P : Nat) (pages pages2 : Nat → Node) (m : Nat → Option Nat)
    (l c clo cup x lo1 up1 off : Nat)
    (h : WF P pages m (l + 1) c clo cup)
    (hok : InnerOK P (pages2 x) (l + 1) lo1 up1)
    (hcnt : off + (pages2 x).count ≤ (pages c).count)
    (hch : ∀ j, j < (pages2 x).count → (pages2 x).children j = (pages c).children (off + j))
    (hrange : ∀ j, j < (pages2 x).count →
      childLo (pages2 x) lo1 j = childLo (pages c) clo (off + j) ∧
        childHi (pages2 x) up1 j = childHi (pages c) cup (off + j))
    (hframe : ∀ j, j < (pages c).count → ∀ q, Owns pages l ((pages c).children j) q →
      pages2 q = pages q)
    (hx : ∀ j, j < (pages c).count → ¬ Owns pages l ((pages c).children j) x) :
    WF P pages2 m (l + 1) x lo1 up1 ∧
      (∀ q, Owns pages2 (l + 1) x q →
        q = x ∨ ∃ j, j < (pages2 x).count ∧ Owns pages l ((pages c).children (off + j)) q) := by
  obtain ⟨h1, h2, h3, h4⟩ := h
  have howns : ∀ j, j < (pages c).count →
      ∀ q, Owns pages2 l ((pages c).children j) q ↔ Owns pages l ((pages c).children j) q :=
    fun j hj => (wf_frame P pages pages2 m l _ 0 0 (hframe j hj)).1
  refine ⟨⟨hok, ?_, ?_, ?_⟩, ?_⟩
  · intro j hj
    rw [hch j hj, (hrange j hj).1, (hrange j hj).2]
    exact (wf_frame P pages pages2 m l _ _ _ (hframe _ (by omega))).2 (h2 _ (by omega))
  · intro j hj hc
    rw [hch j hj] at hc
    exact hx _ (by omega) ((howns _ (by omega) x).1 hc)
  · intro a b hab hb q hqa hqb
    rw [hch a (by omega)] at hqa
    rw [hch b hb] at hqb
    exact h4 (off + a) (off + b) (by omega) (by omega) q ((howns _ (by omega) q).1 hqa)
      ((howns _ (by omega) q).1 hqb)
  · intro q hq
    rcases hq with h5 | ⟨j, hj, h5⟩
    · exact Or.inl h5
    · rw [hch j hj] at h5
      exact Or.inr ⟨j, hj, (howns _ (by omega) q).1 h5⟩

end BTree

namespace BTree

theorem u64_of_lt {x : Nat} (h : x < 2 ^ 64) : u64 x = x := Nat.mod_eq_of_lt h

theorem setPage_same (t : BTree) (p : Nat) (n : Node) : (t.setPage p n).pages p = n := by
  show (if p = p then n else t.pages p) = n
  rw [if_pos rfl]

theorem setPage_other (t : BTree) (p q : Nat) (n : Node) (h : q ≠ p) :
    (t.setPage p n).pages q = t.pages q := by
  show (if q = p then n else t.pages q) = _
  rw [if_neg h]

/-- Steps 2.5.1 to 2.6 of `get_leaf_page` keep the subtree of the parent and
leave a safe child to go on with. -/
theorem split_child_spec (P : Nat) (t : BTree) (m : Nat → Option Nat) (l pid lo up i key : Nat)
    (hcap5 : 5 ≤ InnerNode.kCapacity P) (hcap : InnerNode.kCapacity P < 2 ^ 16)
    (h : WF P t.pages m (l + 2) pid lo up) (hi : i < (t.pages pid).count)
    (hk1 : childLo (t.pages pid) lo i ≤ key) (hk2 : key < childHi (t.pages pid) up i)
    (hsafe : (t.pages pid).count + 1 < InnerNode.kCapacity P)
    (hfresh : ∀ q, t.next_page_id ≤ q → t.pages q = zeroNode)
    (hbelow : ∀ q, Owns t.pages (l + 2) pid q → q < t.next_page_id)
    (hroom : t.next_page_id + 1 < 2 ^ 64) :
    ∃ t1 chosen, splitChild P t key pid ((t.pages pid).children i) = some (t1, chosen) ∧
      t1.root = t.root ∧ t.next_page_id ≤ t1.next_page_id ∧
      t1.next_page_id ≤ t.next_page_id + 1 ∧
      (∀ q, t1.next_page_id ≤ q → t1.pages q = zeroNode) ∧
      (∀ q, q < t.next_page_id → ¬ Owns t.pages (l + 2) pid q → t1.pages q = t.pages q) ∧
      WF P t1.pages m (l + 2) pid lo up ∧
      (∀ q, Owns t1.pages (l + 2) pid q →
        Owns t.pages (l + 2) pid q ∨ (t.next_page_id ≤ q ∧ q < t1.next_page_id)) ∧
      (∃ j, j < (t1.pages pid).count ∧ chosen = (t1.pages pid).children j ∧
        childLo (t1.pages pid) lo j ≤ key ∧ key < childHi (t1.pages pid) up j) ∧
      (t1.pages chosen).count + 1 < InnerNode.kCapacity P := by
  obtain ⟨h1, h2, h3, h4⟩ := id h
  have hwc := h2 i hi
  have hokc : InnerOK P (t.pages ((t.pages pid).children i)) (l + 1) _ _ := hwc.1
  generalize hc : (t.pages pid).children i = c at *
  have hp32 : pred32 (InnerNode.kCapacity P) = InnerNode.kCapacity P - 1 :=
    pred32_of_pos (by omega)
  unfold splitChild
  rw [hp32]
  simp only
  by_cases hge : (t.pages c).count ≥ InnerNode.kCapacity P - 1
  · rw [if_pos hge]
    have hfull : (t.pages c).count + 1 = InnerNode.kCapacity P := by
      have := hokc.count_hi
      omega
    obtain ⟨n1, o1, sep, s1, s2, s3, s4, s5, s6, s7, s8, s9, s10, s11, s12, s13, s14, s15⟩ :=
      inner_split_spec P (t.pages c)
        ({ t.pages t.next_page_id with level := (t.pages c).level } : Node)
        (l + 1) _ _ hokc hfull hcap5 hcap hokc.level
    simp only at s1
    rw [s1]
    simp only
    rw [if_pos ⟨by omega, by omega⟩]
    have hcown : Owns t.pages (l + 2) pid c := Or.inr ⟨i, hi, by rw [hc]; exact owns_self _ _ _⟩
    have hcn : c < t.next_page_id := hbelow c hcown
    have hpn : pid < t.next_page_id := hbelow pid (Or.inl rfl)
    have hpc : pid ≠ c := by
      intro he
      apply h3 i hi
      rw [hc, ← he]
      exact owns_self _ _ _
    have e2 : ((({ t with next_page_id := u64 (t.next_page_id + 1) } : BTree).setPage
        t.next_page_id o1).setPage c n1).pages pid =
        t.pages pid := by
      rw [setPage_other _ _ _ _ hpc, setPage_other _ _ _ _ (by omega)]
    rw [e2, if_pos ⟨by omega, h1.count_lo⟩]
    obtain ⟨p1, i1, i2, i3, i4, i5, i6, i7, i8⟩ := inner_insert_core P (t.pages pid) (l + 2)
      lo up h1 hcap hsafe i sep t.next_page_id hi s12 s13
    rw [hc] at i1
    rw [i1]
    simp only
    generalize hT : ((({ t with next_page_id := u64 (t.next_page_id + 1) } : BTree).setPage
        t.next_page_id o1).setPage c n1).setPage pid p1 = T
    have hTroot : T.root = t.root := by rw [← hT]; rfl
    have hTnext : T.next_page_id = t.next_page_id + 1 := by
      rw [← hT]
      exact u64_of_lt hroom
    have hTpid : T.pages pid = p1 := by rw [← hT]; exact setPage_same _ _ _
    have hTc : T.pages c = n1 := by
      rw [← hT, setPage_other _ _ _ _ (fun he => hpc he.symm)]
      exact setPage_same _ _ _
    have hTn : T.pages t.next_page_id = o1 := by
      rw [← hT, setPage_other _ _ _ _ (by omega), setPage_other _ _ _ _ (by omega)]
      exact setPage_same _ _ _
    have hTo : ∀ q, q ≠ pid → q ≠ c → q ≠ t.next_page_id → T.pages q = t.pages q := by
      intro q q1 q2 q3
      rw [← hT, setPage_other _ _ _ _ q1, setPage_other _ _ _ _ q2, setPage_other _ _ _ _ q3]
    obtain ⟨g1, g2, g3, g4⟩ := id hwc
    -- the pages below the child are untouched
    have hgc : ∀ j, j < (t.pages c).count → ∀ q, Owns t.pages l ((t.pages c).children j) q →
        T.pages q = t.pages q := by
      intro j hj q hq
      have hqc : Owns t.pages (l + 1) c q := Or.inr ⟨j, hj, hq⟩
      apply hTo q
      · intro he
        apply h3 i hi
        rw [hc, ← he]
        exact hqc
      · intro he
        rw [he] at hq
        exact g3 j hj hq
      · have := hbelow q (Or.inr ⟨i, hi, by rw [hc]; exact hqc⟩)
        omega
    have hgn : ∀ j, j < (t.pages c).count →
        ¬ Owns t.pages l ((t.pages c).children j) t.next_page_id := by
      intro j hj hq
      have := hbelow _ (Or.inr ⟨i, hi, by rw [hc]; exact Or.inr ⟨j, hj, hq⟩⟩)
      omega
    obtain ⟨wl1, wl2⟩ := wf_part P t.pages T.pages m l c _ _ c _ (sep + 1) 0 hwc
      (by rw [hTc]; exact s8) (by rw [hTc]; omega)
      (by
        intro j hj
        rw [hTc, s4, Nat.zero_add])
      (by
        intro j hj
        rw [hTc] at hj ⊢
        rw [Nat.zero_add]
        exact s14 j hj)
      hgc g3
    obtain ⟨wr1, wr2⟩ := wf_part P t.pages T.pages m l c _ _ t.next_page_id (sep + 1) _ n1.count
      hwc (by rw [hTn]; exact s9) (by rw [hTn]; omega)
      (by
        intro j hj
        rw [hTn] at hj ⊢
        exact s7 j hj)
      (by
        intro j hj
        rw [hTn] at hj ⊢
        exact s15 j hj)
      hgc hgn
    rw [hTc] at wl2
    rw [hTn] at wr2
    obtain ⟨x1, x2⟩ := wf_split_insert P t.pages T.pages m m (l + 1) pid lo up i sep
      t.next_page_id (fun q => q = t.next_page_id) h hi
      (by
        intro q hq he
        have := hbelow q hq
        omega)
      (by rw [hTpid]; exact i3)
      (by rw [hTpid]; exact i4)
      (by rw [hTpid]; exact i5)
      (by rw [hTpid]; exact i6)
      (by rw [hTpid]; exact i7)
      (by rw [hTpid]; exact i8)
      (by
        intro q q1 q2 q3
        apply hTo q q2 _ q1
        intro he
        apply q3
        rw [hc, he]
        exact owns_self _ _ _)
      (by rw [hc]; exact wl1)
      wr1
      (by
        rw [hc]
        intro q hq
        rcases wl2 q hq with h5 | ⟨j, hj, h5⟩
        · rw [h5]
          exact Or.inl (owns_self _ _ _)
        · exact Or.inl (Or.inr ⟨0 + j, by omega, h5⟩))
      (by
        rw [hc]
        intro q hq
        rcases wr2 q hq with h5 | ⟨j, hj, h5⟩
        · exact Or.inr h5
        · exact Or.inl (Or.inr ⟨n1.count + j, by omega, h5⟩))
      (by
        rw [hc]
        intro q hql hqr
        rcases wl2 q hql with h5 | ⟨j, hj, h5⟩
        · rcases wr2 q hqr with h6 | ⟨j2, hj2, h6⟩
          · omega
          · rw [h5] at h6
            exact g3 _ (by omega) h6
        · rcases wr2 q hqr with h6 | ⟨j2, hj2, h6⟩
          · rw [h6] at h5
            exact hgn _ (by omega) h5
          · exact g4 (0 + j) (n1.count + j2) (by omega) (by omega) q h5 h6)
      (fun _ _ => rfl)
    obtain ⟨r1, r2, r3, r4, r5, r6⟩ :=
      child_ranges_insert (t.pages pid) p1 lo up i sep hi i3 i8
    have hchosen_ne : ∀ x, (x = t.next_page_id ∨ x = c) → x ≠ pid := by
      intro x hx
      rcases hx with hx | hx
      · omega
      · rw [hx]; exact fun he => hpc he.symm
    by_cases hsk : sep < key
    · simp only [hsk, ↓reduceIte]
      rw [hTn, if_pos (by omega)]
      refine ⟨T, t.next_page_id, rfl, hTroot, by omega, by omega, ?_, ?_, x1, ?_,
        ⟨i + 1, ?_, ?_, ?_, ?_⟩, ?_⟩
      · intro q hq
        rw [hTo q (by omega) (by omega) (by omega)]
        exact hfresh q (by omega)
      · intro q hq hno
        apply hTo q
        · intro he
          exact hno (by rw [he]; exact Or.inl rfl)
        · intro he
          exact hno (by rw [he]; exact hcown)
        · omega
      · intro q hq
        rcases x2 q hq with h5 | h5
        · exact Or.inl h5
        · right
          have h6 : q = t.next_page_id := h5
          omega
      · rw [hTpid, i3]; omega
      · rw [hTpid, i6]
      · rw [hTpid, r4]; omega
      · rw [hTpid, r5]; exact hk2
      · rw [hTn]; exact s11
    · simp only [hsk, ↓reduceIte]
      rw [hTc, if_pos (by omega)]
      refine ⟨T, c, rfl, hTroot, by omega, by omega, ?_, ?_, x1, ?_,
        ⟨i, ?_, ?_, ?_, ?_⟩, ?_⟩
      · intro q hq
        rw [hTo q (by omega) (by omega) (by omega)]
        exact hfresh q (by omega)
      · intro q hq hno
        apply hTo q
        · intro he
          exact hno (by rw [he]; exact Or.inl rfl)
        · intro he
          exact hno (by rw [he]; exact hcown)
        · omega
      · intro q hq
        rcases x2 q hq with h5 | h5
        · exact Or.inl h5
        · right
          have h6 : q = t.next_page_id := h5
          omega
      · rw [hTpid, i3]; omega
      · rw [hTpid, i5 i (le_refl _), hc]
      · rw [hTpid, r2]; exact hk1
      · rw [hTpid, r3]; omega
      · rw [hTc]; exact s10
  · rw [if_neg hge]
    have hlt : (t.pages c).count < InnerNode.kCapacity P - 1 := by omega
    rw [if_pos hlt]
    refine ⟨t, c, rfl, rfl, le_refl _, by omega, hfresh, fun _ _ _ => rfl, h,
      fun q hq => Or.inl hq, ⟨i, hi, hc.symm, hk1, hk2⟩, by omega⟩

end BTree

namespace BTree

/-- The loop of `get_leaf_page` for `insert` keeps the subtree it goes down
and ends at a safe node above the leaf for `key`. -/
theorem descend_insert (P : Nat) (m : Nat → Option Nat) (key : Nat)
    (hcap5 : 5 ≤ InnerNode.kCapacity P) (hcap : InnerNode.kCapacity P < 2 ^ 16) :
    ∀ (l fuel : Nat) (t : BTree) (parent lo up child : Nat),
      WF P t.pages m (l + 1) parent lo up → lo ≤ key → key < up →
      (t.pages parent).count + 1 < InnerNode.kCapacity P →
      InnerNode.lookup P (t.pages parent) key = some child →
      (∀ q, t.next_page_id ≤ q → t.pages q = zeroNode) →
      (∀ q, Owns t.pages (l + 1) parent q → q < t.next_page_id) →
      t.next_page_id + l < 2 ^ 64 → l ≤ fuel →
      ∃ t1 par leaf plo pup,
        descend P key TraversalType.Insert fuel t parent child = some (t1, par, leaf) ∧
        t1.root = t.root ∧ t.next_page_id ≤ t1.next_page_id ∧
        t1.next_page_id ≤ t.next_page_id + l ∧
        (∀ q, t1.next_page_id ≤ q → t1.pages q = zeroNode) ∧
        (∀ q, q < t.next_page_id → ¬ Owns t.pages (l + 1) parent q →
          t1.pages q = t.pages q) ∧
        WF P t1.pages m (l + 1) parent lo up ∧
        (∀ q, Owns t1.pages (l + 1) parent q →
          Owns t.pages (l + 1) parent q ∨ (t.next_page_id ≤ q ∧ q < t1.next_page_id)) ∧
        PathTo t1.pages key l parent lo up par plo pup ∧ plo ≤ key ∧ key < pup ∧
        (t1.pages par).count + 1 < InnerNode.kCapacity P ∧
        InnerNode.lookup P (t1.pages par) key = some leaf := by
  intro l
  induction l with
  | zero =>
    intro fuel t parent lo up child h hlo hup hsafe hl hfresh hbelow _ _
    obtain ⟨i, a1, a2, a3, a4, a5, a6⟩ := lookup_child P t.pages m 0 parent lo up key child h
      hlo hup hl
    have hpl : (t.pages parent).level = 1 := h.1.level
    have hleaf : (t.pages child).is_leaf = true := (is_leaf_iff _).2 a6
    refine ⟨t, parent, child, lo, up, ?_, rfl, le_refl _, by omega, hfresh,
      fun _ _ _ => rfl, h, fun q hq => Or.inl hq, ⟨rfl, rfl, rfl⟩, hlo, hup, hsafe, hl⟩
    cases fuel with
    | zero =>
      unfold descend
      rw [if_pos ⟨hleaf, hpl, a6⟩]
    | succ f =>
      unfold descend
      rw [if_pos hleaf, if_pos ⟨hpl, a6⟩]
  | succ l ih =>
    intro fuel t parent lo up child h hlo hup hsafe hl hfresh hbelow hroom hf
    obtain ⟨i, a1, a2, a3, a4, a5, a6⟩ := lookup_child P t.pages m (l + 1) parent lo up key
      child h hlo hup hl
    have hleaf : ¬ (t.pages child).is_leaf = true := by
      rw [is_leaf_iff, a6]
      omega
    obtain ⟨t2, chosen, b1, b2, b3, b4, b5, b6, b7, b8, ⟨j, b9, b10, b11, b12⟩, b13⟩ :=
      split_child_spec P t m l parent lo up i key hcap5 hcap h a1 a3 a4 hsafe hfresh hbelow
        (by omega)
    rw [← a2] at b1
    have hwc : WF P t2.pages m (l + 1) chosen (childLo (t2.pages parent) lo j)
        (childHi (t2.pages parent) up j) := by
      rw [b10]
      exact b7.2.1 j b9
    have hcb : ∀ q, Owns t2.pages (l + 1) chosen q → q < t2.next_page_id := by
      intro q hq
      have hq1 : Owns t2.pages (l + 2) parent q := Or.inr ⟨j, b9, by rw [← b10]; exact hq⟩
      rcases b8 q hq1 with h5 | h5
      · have := hbelow q h5
        omega
      · omega
    obtain ⟨gc, hgc⟩ := lookup_defined P t2.pages m l chosen _ _ key hwc b11 b12
    obtain ⟨_, _, _, _, _, _, c6⟩ := lookup_child P t2.pages m l chosen _ _ key gc hwc b11 b12 hgc
    have hclev := wf_level P t2.pages m _ _ _ _ hwc
    cases fuel with
    | zero => omega
    | succ f =>
      obtain ⟨t1, par, leaf, plo, pup, d1, d2, d3, d4, d5, d6, d7, d8, d9, d10, d11, d12, d13⟩ :=
        ih f t2 chosen _ _ gc hwc b11 b12 b13 hgc b5 hcb (by omega) (by omega)
      obtain ⟨w1, w2, w3⟩ := wf_replace_child P t2.pages t1.pages m m (l + 1) parent lo up j
        (fun q => t2.next_page_id ≤ q ∧ q < t1.next_page_id) b7 b9
        (by
          intro q hq hF
          rcases b8 q hq with h5 | h5
          · have := hbelow q h5
            omega
          · omega)
        (by
          intro q hF hno
          rw [← b10] at hno
          by_cases hq : q < t2.next_page_id
          · exact d6 q hq hno
          · rw [d5 q (by omega), b5 q (by omega)])
        (by rw [← b10]; exact d7)
        (by rw [← b10]; exact d8)
        (fun _ _ => rfl)
      refine ⟨t1, par, leaf, plo, pup, ?_, by rw [d2, b2], by omega, by omega, d5, ?_, w1, ?_,
        ?_, d10, d11, d12, d13⟩
      · unfold descend
        rw [if_neg hleaf]
        simp only [↓reduceIte]
        rw [b1]
        simp only [hgc]
        rw [if_pos (by rw [c6, hclev]; rfl)]
        exact d1
      · intro q hq hno
        rw [← b6 q hq hno]
        apply d6 q (by omega)
        intro hc
        have hq1 : Owns t2.pages (l + 2) parent q := Or.inr ⟨j, b9, by rw [← b10]; exact hc⟩
        rcases b8 q hq1 with h5 | h5
        · exact hno h5
        · omega
      · intro q hq
        rcases w3 q hq with h5 | h5
        · rcases b8 q h5 with h6 | h6
          · exact Or.inl h6
          · exact Or.inr ⟨h6.1, by omega⟩
        · exact Or.inr ⟨by omega, h5.2⟩
      · refine ⟨j, by rw [w2]; exact b9, by rw [w2]; exact b11, by rw [w2]; exact b12, ?_⟩
        rw [w2, ← b10]
        exact d9

end BTree

namespace BTree

/-- A leaf only depends on the entries of the map in its range. -/
theorem leafok_map (P : Nat) (n : Node) (lo up : Nat) (m m1 : Nat → Option Nat)
    (h : LeafOK P n lo up m) (hm : ∀ k, lo ≤ k → k < up → m1 k = m k) : LeafOK P n lo up m1 :=
  wf_map P (fun _ => n) m m1 0 0 lo up h hm

/-- Step 2 of `insert` below a safe node of level 1: the subtree of the node
then stands for the map with the new entry. -/
theorem insert_at_leaf_spec (P : Nat) (t : BTree) (m m1 : Nat → Option Nat)
    (par plo pup i key value : Nat)
    (hcap3 : 3 ≤ LeafNode.kCapacity P) (hcapl : LeafNode.kCapacity P < 2 ^ 16)
    (hcap : InnerNode.kCapacity P < 2 ^ 16)
    (h : WF P t.pages m 1 par plo pup) (hi : i < (t.pages par).count)
    (hk1 : childLo (t.pages par) plo i ≤ key) (hk2 : key < childHi (t.pages par) pup i)
    (hsafe : (t.pages par).count + 1 < InnerNode.kCapacity P)
    (hfresh : ∀ q, t.next_page_id ≤ q → t.pages q = zeroNode)
    (hbelow : ∀ q, Owns t.pages 1 par q → q < t.next_page_id)
    (hroom : t.next_page_id + 1 < 2 ^ 64)
    (hm1 : m1 key = some value) (hm2 : ∀ k, k ≠ key → m1 k = m k) :
    ∃ t1, insertAtLeaf P t key value par ((t.pages par).children i) = some t1 ∧
      t1.root = t.root ∧ t.next_page_id ≤ t1.next_page_id ∧
      t1.next_page_id ≤ t.next_page_id + 1 ∧
      (∀ q, t1.next_page_id ≤ q → t1.pages q = zeroNode) ∧
      (∀ q, q < t.next_page_id → ¬ Owns t.pages 1 par q → t1.pages q = t.pages q) ∧
      WF P t1.pages m1 1 par plo pup ∧
      (∀ q, Owns t1.pages 1 par q →
        Owns t.pages 1 par q ∨ (t.next_page_id ≤ q ∧ q < t1.next_page_id)) := by
  obtain ⟨h1, h2, h3, h4⟩ := id h
  have hwl : LeafOK P (t.pages ((t.pages par).children i)) (childLo (t.pages par) plo i)
      (childHi (t.pages par) pup i) m := h2 i hi
  generalize hc : (t.pages par).children i = leaf at *
  have hlown : Owns t.pages 1 par leaf := Or.inr ⟨i, hi, by rw [hc]; exact rfl⟩
  have hln : leaf < t.next_page_id := hbelow leaf hlown
  have hpn : par < t.next_page_id := hbelow par (Or.inl rfl)
  have hpl : par ≠ leaf := by
    intro he
    apply h3 i hi
    rw [hc, ← he]
    exact rfl
  have hmo : ∀ k, ¬ (childLo (t.pages par) plo i ≤ k ∧ k < childHi (t.pages par) pup i) →
      m1 k = m k := by
    intro k hk
    apply hm2
    intro he
    rw [he] at hk
    exact hk ⟨hk1, hk2⟩
  unfold insertAtLeaf
  simp only
  rw [if_pos ⟨(is_leaf_iff _).2 hwl.level, hwl.level⟩]
  by_cases hfull : (t.pages leaf).count = LeafNode.kCapacity P
  · rw [if_pos hfull]
    unfold splitLeaf
    simp only
    obtain ⟨l1, o1, sep, s1, s2, s3, s4, s5, s6, s7⟩ := leaf_split_spec P (t.pages leaf)
      ({ t.pages t.next_page_id with level := 0 } : Node) _ _ m hwl hfull hcap3 hcapl rfl
    simp only at s1
    rw [s1]
    simp only
    rw [if_pos ⟨s4, s5⟩, if_neg hpl]
    have e2 : ((({ t with next_page_id := u64 (t.next_page_id + 1) } : BTree).setPage
        t.next_page_id o1).setPage leaf l1).pages par = t.pages par := by
      rw [setPage_other _ _ _ _ hpl, setPage_other _ _ _ _ (by omega)]
    rw [e2, if_pos ⟨h1.level, h1.count_lo⟩]
    obtain ⟨p1, i1, i2, i3, i4, i5, i6, i7, i8⟩ := inner_insert_core P (t.pages par) 1
      plo pup h1 hcap hsafe i sep t.next_page_id hi s6 s7
    rw [hc] at i1
    rw [i1]
    simp only
    generalize hT : ((({ t with next_page_id := u64 (t.next_page_id + 1) } : BTree).setPage
        t.next_page_id o1).setPage leaf l1).setPage par p1 = T
    have hTroot : T.root = t.root := by rw [← hT]; rfl
    have hTnext : T.next_page_id = t.next_page_id + 1 := by
      rw [← hT]
      exact u64_of_lt hroom
    have hTpar : T.pages par = p1 := by rw [← hT]; exact setPage_same _ _ _
    have hTl : T.pages leaf = l1 := by
      rw [← hT, setPage_other _ _ _ _ (fun he => hpl he.symm)]
      exact setPage_same _ _ _
    have hTn : T.pages t.next_page_id = o1 := by
      rw [← hT, setPage_other _ _ _ _ (by omega), setPage_other _ _ _ _ (by omega)]
      exact setPage_same _ _ _
    have hTo : ∀ q, q ≠ par → q ≠ leaf → q ≠ t.next_page_id → T.pages q = t.pages q := by
      intro q q1 q2 q3
      rw [← hT, setPage_other _ _ _ _ q1, setPage_other _ _ _ _ q2, setPage_other _ _ _ _ q3]
    -- the key goes into one of the halves
    have hfin : ∀ (tgt : Nat) (t1n : Node), (tgt = leaf ∨ tgt = t.next_page_id) →
        LeafOK P ((T.setPage tgt t1n).pages leaf) (childLo (t.pages par) plo i) (sep + 1) m1 →
        LeafOK P ((T.setPage tgt t1n).pages t.next_page_id) (sep + 1)
          (childHi (t.pages par) pup i) m1 →
        (T.setPage tgt t1n).root = t.root ∧
        t.next_page_id ≤ (T.setPage tgt t1n).next_page_id ∧
        (T.setPage tgt t1n).next_page_id ≤ t.next_page_id + 1 ∧
        (∀ q, (T.setPage tgt t1n).next_page_id ≤ q → (T.setPage tgt t1n).pages q = zeroNode) ∧
        (∀ q, q < t.next_page_id → ¬ Owns t.pages 1 par q →
          (T.setPage tgt t1n).pages q = t.pages q) ∧
        WF P (T.setPage tgt t1n).pages m1 1 par plo pup ∧
        (∀ q, Owns (T.setPage tgt t1n).pages 1 par q →
          Owns t.pages 1 par q ∨
            (t.next_page_id ≤ q ∧ q < (T.setPage tgt t1n).next_page_id)) := by
      intro tgt t1n htgt hL hR
      have htp : tgt ≠ par := by
        rcases htgt with he | he
        · rw [he]; exact fun hh => hpl hh.symm
        · omega
      have hUo : ∀ q, q ≠ par → q ≠ leaf → q ≠ t.next_page_id →
          (T.setPage tgt t1n).pages q = t.pages q := by
        intro q q1 q2 q3
        rw [setPage_other _ _ _ _ (by
          rcases htgt with he | he
          · rw [he]; exact q2
          · rw [he]; exact q3)]
        exact hTo q q1 q2 q3
      have hUpar : (T.setPage tgt t1n).pages par = p1 := by
        rw [setPage_other _ _ _ _ (fun he => htp he.symm)]
        exact hTpar
      have hUnext : (T.setPage tgt t1n).next_page_id = t.next_page_id + 1 := hTnext
      obtain ⟨x1, x2⟩ := wf_split_insert P t.pages (T.setPage tgt t1n).pages m m1 0 par plo pup
        i sep t.next_page_id (fun q => q = t.next_page_id) h hi
        (by
          intro q hq he
          have := hbelow q hq
          omega)
        (by rw [hUpar]; exact i3)
        (by rw [hUpar]; exact i4)
        (by rw [hUpar]; exact i5)
        (by rw [hUpar]; exact i6)
        (by rw [hUpar]; exact i7)
        (by rw [hUpar]; exact i8)
        (by
          intro q q1 q2 q3
          apply hUo q q2 _ q1
          intro he
          apply q3
          rw [hc, he]
          exact rfl)
        (by rw [hc]; exact hL)
        hR
        (by
          rw [hc]
          intro q hq
          exact Or.inl hq)
        (by
          intro q hq
          exact Or.inr hq)
        (by
          rw [hc]
          intro q hql hqr
          have e1 : q = leaf := hql
          have e3 : q = t.next_page_id := hqr
          omega)
        hmo
      refine ⟨hTroot, by omega, by omega, ?_, ?_, x1, ?_⟩
      · intro q hq
        rw [hUnext] at hq
        rw [hUo q (by omega) (by omega) (by omega)]
        exact hfresh q (by omega)
      · intro q hq hno
        apply hUo q
        · intro he
          exact hno (by rw [he]; exact Or.inl rfl)
        · intro he
          exact hno (by rw [he]; exact hlown)
        · omega
      · intro q hq
        rcases x2 q hq with h5 | h5
        · exact Or.inl h5
        · right
          have h6 : q = t.next_page_id := h5
          rw [hUnext]
          omega
    by_cases hsk : sep < key
    · simp only [hsk, ↓reduceIte]
      rw [hTn]
      obtain ⟨n1, e1, e3, _⟩ := leaf_insert_spec P o1 _ _ m m1 s3 key value (by omega) hk2
        hcapl s5 hm1 hm2
      rw [e1]
      simp only
      refine ⟨_, rfl, hfin t.next_page_id n1 (Or.inr rfl) ?_ ?_⟩
      · rw [setPage_other _ _ _ _ (by omega), hTl]
        apply leafok_map P l1 _ _ m m1 s2
        intro k _ hk
        exact hm2 k (by omega)
      · rw [setPage_same]
        exact e3
    · simp only [hsk, ↓reduceIte]
      rw [hTl]
      obtain ⟨n1, e1, e3, _⟩ := leaf_insert_spec P l1 _ _ m m1 s2 key value hk1 (by omega)
        hcapl s4 hm1 hm2
      rw [e1]
      simp only
      refine ⟨_, rfl, hfin leaf n1 (Or.inl rfl) ?_ ?_⟩
      · rw [setPage_same]
        exact e3
      · rw [setPage_other _ _ _ _ (by omega), hTn]
        apply leafok_map P o1 _ _ m m1 s3
        intro k hk _
        exact hm2 k (by omega)
  · rw [if_neg hfull]
    obtain ⟨n1, e1, e3, _⟩ := leaf_insert_spec P (t.pages leaf) _ _ m m1 hwl key value hk1 hk2
      hcapl (by have := hwl.count; omega) hm1 hm2
    rw [e1]
    simp only
    obtain ⟨w1, w2, w3⟩ := wf_replace_child P t.pages (t.setPage leaf n1).pages m m1 0 par
      plo pup i (fun _ => False) h hi (fun _ _ hf => hf)
      (by
        intro q _ hq
        rw [hc] at hq
        exact setPage_other _ _ _ _ hq)
      (by
        rw [hc]
        show LeafOK P ((t.setPage leaf n1).pages leaf) _ _ m1
        rw [setPage_same]
        exact e3)
      (by
        rw [hc]
        intro q hq
        exact Or.inl hq)
      hmo
    refine ⟨_, rfl, rfl, le_refl _, by show t.next_page_id ≤ _; omega, ?_, ?_, w1, ?_⟩
    · intro q hq
      have hq1 : t.next_page_id ≤ q := hq
      rw [setPage_other _ _ _ _ (by omega)]
      exact hfresh q hq
    · intro q hq hno
      apply setPage_other
      intro he
      exact hno (by rw [he]; exact hlown)
    · intro q hq
      rcases w3 q hq with h5 | h5
      · exact Or.inl h5
      · exact absurd h5 id

end BTree

namespace BTree

/-- From a safe inner node down: `get_leaf_page` and step 2 of `insert` leave
the subtree of the node standing for the map with the new entry. -/
theorem insert_from (P : Nat) (m m1 : Nat → Option Nat) (key value : Nat)
    (hcap3 : 3 ≤ LeafNode.kCapacity P) (hcapl : LeafNode.kCapacity P < 2 ^ 16)
    (hcap5 : 5 ≤ InnerNode.kCapacity P) (hcap : InnerNode.kCapacity P < 2 ^ 16)
    (hm1 : m1 key = some value) (hm2 : ∀ k, k ≠ key → m1 k = m k)
    (l fuel : Nat) (t : BTree) (s lo up child : Nat)
    (h : WF P t.pages m (l + 1) s lo up) (hlo : lo ≤ key) (hup : key < up)
    (hsafe : (t.pages s).count + 1 < InnerNode.kCapacity P)
    (hl : InnerNode.lookup P (t.pages s) key = some child)
    (hfresh : ∀ q, t.next_page_id ≤ q → t.pages q = zeroNode)
    (hbelow : ∀ q, Owns t.pages (l + 1) s q → q < t.next_page_id)
    (hroom : t.next_page_id + l + 1 < 2 ^ 64) (hf : l ≤ fuel) :
    ∃ t1 par leaf t3,
      descend P key TraversalType.Insert fuel t s child = some (t1, par, leaf) ∧
      insertAtLeaf P t1 key value par leaf = some t3 ∧
      t3.root = t.root ∧ t.next_page_id ≤ t3.next_page_id ∧
      t3.next_page_id ≤ t.next_page_id + l + 1 ∧
      (∀ q, t3.next_page_id ≤ q → t3.pages q = zeroNode) ∧
      (∀ q, q < t.next_page_id → ¬ Owns t.pages (l + 1) s q → t3.pages q = t.pages q) ∧
      WF P t3.pages m1 (l + 1) s lo up ∧
      (∀ q, Owns t3.pages (l + 1) s q →
        Owns t.pages (l + 1) s q ∨ (t.next_page_id ≤ q ∧ q < t3.next_page_id)) := by
  obtain ⟨t1, par, leaf, plo, pup, d1, d2, d3, d4, d5, d6, d7, d8, d9, d10, d11, d12, d13⟩ :=
    descend_insert P m key hcap5 hcap l fuel t s lo up child h hlo hup hsafe hl hfresh hbelow
      (by omega) hf
  have d7a : WF P t1.pages m (1 + l) s lo up := by
    rw [Nat.add_comm]; exact d7
  have hb1 : ∀ q, Owns t1.pages (1 + l) s q → q < t1.next_page_id := by
    rw [Nat.add_comm]
    intro q hq
    rcases d8 q hq with h5 | h5
    · have := hbelow q h5
      omega
    · omega
  obtain ⟨p1, p2, p3, p4⟩ := path_wf P t1.pages m key 1 l s lo up par plo pup d7a d9
  obtain ⟨i, a1, a2, a3, a4, a5, a6⟩ :=
    lookup_child P t1.pages m 0 par plo pup key leaf p1 d10 d11 d13
  obtain ⟨t3, e1, e2, e3, e4, e5, e6, e7, e8⟩ := insert_at_leaf_spec P t1 m m1 par plo pup i
    key value hcap3 hcapl hcap p1 a1 a3 a4 d12 d5 (fun q hq => hb1 q (p4 q hq)) (by omega)
    hm1 hm2
  rw [← a2] at e1
  obtain ⟨x1, x2⟩ := path_replace P t1.pages t3.pages m m1 key 1
    (fun q => t1.next_page_id ≤ q ∧ q < t3.next_page_id) l s lo up par plo pup d7a d9
    (by
      intro q hq hF
      have := hb1 q hq
      omega)
    (by
      intro q hF hno
      by_cases hq : q < t1.next_page_id
      · exact e6 q hq hno
      · rw [e5 q (by omega), d5 q (by omega)])
    e7 e8
    (by
      intro k hk
      apply hm2
      intro he
      rw [he] at hk
      exact hk ⟨d10, d11⟩)
  refine ⟨t1, par, leaf, t3, d1, e1, by rw [e2, d2], by omega, by omega, e5, ?_, ?_, ?_⟩
  · intro q hq hno
    rw [← d6 q hq hno]
    apply e6 q (by omega)
    intro hc
    have := p4 q hc
    rw [Nat.add_comm] at this
    rcases d8 q this with h5 | h5
    · exact hno h5
    · omega
  · rw [Nat.add_comm]; exact x1
  · intro q hq
    rw [Nat.add_comm] at hq
    rcases x2 q hq with h5 | h5
    · rw [Nat.add_comm] at h5
      rcases d8 q h5 with h6 | h6
      · exact Or.inl h6
      · exact Or.inr ⟨h6.1, by omega⟩
    · exact Or.inr ⟨by omega, h5.2⟩

/-- A new root above the two halves of the old root. -/
theorem wf_new_root (P : Nat) (pages : Nat → Node) (m : Nat → Option Nat)
    (l top lo up a b sep : Nat)
    (hok : InnerOK P (pages top) (l + 1) lo up) (hcount : (pages top).count = 2)
    (hc0 : (pages top).children 0 = a) (hc1 : (pages top).children 1 = b)
    (hk0 : (pages top).keys 0 = sep)
    (ha : WF P pages m l a lo (sep + 1)) (hb : WF P pages m l b (sep + 1) up)
    (hta : ¬ Owns pages l a top) (htb : ¬ Owns pages l b top)
    (hab : ∀ q, Owns pages l a q → ¬ Owns pages l b q) :
    WF P pages m (l + 1) top lo up ∧
      (∀ q, Owns pages (l + 1) top q → q = top ∨ Owns pages l a q ∨ Owns pages l b q) := by
  have hlo0 : childLo (pages top) lo 0 = lo := rfl
  have hup0 : childHi (pages top) up 0 = sep + 1 := by
    unfold childHi
    rw [hcount, if_neg (by omega), hk0]
  have hlo1 : childLo (pages top) lo 1 = sep + 1 := by
    unfold childLo
    rw [if_neg (by omega), hk0]
  have hup1 : childHi (pages top) up 1 = up := by
    unfold childHi
    rw [hcount, if_pos rfl]
  have hcases : ∀ j, j < 2 → j = 0 ∨ j = 1 := by
    intro j hj
    omega
  refine ⟨⟨hok, ?_, ?_, ?_⟩, ?_⟩
  · rw [hcount]
    intro j hj
    rcases hcases j hj with h0 | h0
    · rw [h0, hc0, hlo0, hup0]; exact ha
    · rw [h0, hc1, hlo1, hup1]; exact hb
  · rw [hcount]
    intro j hj
    rcases hcases j hj with h0 | h0
    · rw [h0, hc0]; exact hta
    · rw [h0, hc1]; exact htb
  · rw [hcount]
    intro x y hxy hy q
    have hx0 : x = 0 := by omega
    have hy1 : y = 1 := by omega
    rw [hx0, hy1, hc0, hc1]
    exact hab q
  · intro q hq
    rcases hq with h5 | ⟨j, hj, h5⟩
    · exact Or.inl h5
    · rw [hcount] at hj
      rcases hcases j hj with h0 | h0
      · rw [h0, hc0] at h5
        exact Or.inr (Or.inl h5)
      · rw [h0, hc1] at h5
        exact Or.inr (Or.inr h5)

end BTree

namespace BTree

/-- Steps 2.3 and 2.4 of `get_leaf_page`: the tree is the same map under the
root it has then, and a safe node on the way to `key` is returned. -/
theorem split_root_spec (P : Nat) (t : BTree) (m : Nat → Option Nat) (l r key : Nat)
    (hcap5 : 5 ≤ InnerNode.kCapacity P) (hcap : InnerNode.kCapacity P < 2 ^ 16)
    (hroot : t.root = some r)
    (h : WF P t.pages m (l + 1) r 0 (2 ^ 64)) (hkey : key < 2 ^ 64)
    (hfresh : ∀ q, t.next_page_id ≤ q → t.pages q = zeroNode)
    (hbelow : ∀ q, Owns t.pages (l + 1) r q → q < t.next_page_id)
    (hroom : t.next_page_id + 2 < 2 ^ 64) (hlev : l + 2 < 2 ^ 16) :
    ∃ t1 s d top slo sup, splitRoot P t key r = some (t1, s) ∧ t1.root = some top ∧
      t.next_page_id ≤ t1.next_page_id ∧ t1.next_page_id ≤ t.next_page_id + 2 ∧
      (∀ q, t1.next_page_id ≤ q → t1.pages q = zeroNode) ∧
      WF P t1.pages m (l + 1 + d) top 0 (2 ^ 64) ∧
      (∀ q, Owns t1.pages (l + 1 + d) top q → q < t1.next_page_id) ∧
      PathTo t1.pages key d top 0 (2 ^ 64) s slo sup ∧ slo ≤ key ∧ key < sup ∧
      (t1.pages s).count + 1 < InnerNode.kCapacity P ∧ d ≤ 1 := by
  obtain ⟨h1, h2, h3, h4⟩ := id h
  have hp32 : pred32 (InnerNode.kCapacity P) = InnerNode.kCapacity P - 1 :=
    pred32_of_pos (by omega)
  unfold splitRoot
  rw [hp32]
  simp only
  by_cases hge : (t.pages r).count ≥ InnerNode.kCapacity P - 1
  · rw [if_pos hge]
    have hfull : (t.pages r).count + 1 = InnerNode.kCapacity P := by
      have := h1.count_hi
      omega
    obtain ⟨n1, o1, sep, s1, s2, s3, s4, s5, s6, s7, s8, s9, s10, s11, s12, s13, s14, s15⟩ :=
      inner_split_spec P (t.pages r)
        ({ t.pages t.next_page_id with level := (t.pages r).level } : Node)
        (l + 1) _ _ h1 hfull hcap5 hcap h1.level
    simp only at s1
    rw [s1]
    simp only
    rw [if_pos ⟨by omega, by omega⟩]
    have hu1 : u64 (t.next_page_id + 1) = t.next_page_id + 1 := u64_of_lt (by omega)
    have hu2 : u64 (t.next_page_id + 1 + 1) = t.next_page_id + 2 := u64_of_lt (by omega)
    have hrn : r < t.next_page_id := hbelow r (Or.inl rfl)
    generalize hT2 : (({ t with next_page_id := u64 (t.next_page_id + 1) } : BTree).setPage
        t.next_page_id o1).setPage r n1 = T2
    have hT2n : T2.next_page_id = t.next_page_id + 1 := by rw [← hT2]; exact hu1
    have hT2root : T2.root = t.root := by rw [← hT2]; rfl
    have hT2r : T2.pages r = n1 := by rw [← hT2]; exact setPage_same _ _ _
    have hT2o : T2.pages t.next_page_id = o1 := by
      rw [← hT2, setPage_other _ _ _ _ (by omega)]
      exact setPage_same _ _ _
    have hT2x : ∀ q, q ≠ r → q ≠ t.next_page_id → T2.pages q = t.pages q := by
      intro q q1 q2
      rw [← hT2, setPage_other _ _ _ _ q1, setPage_other _ _ _ _ q2]
    have hz : T2.pages (t.next_page_id + 1) = zeroNode := by
      rw [hT2x _ (by omega) (by omega)]
      exact hfresh _ (by omega)
    rw [hT2n, if_pos (by omega), hz, hu2]
    have hlvl : u16 (n1.level + 1) = l + 2 := by
      rw [s5, h1.level]
      exact u16_of_lt hlev
    rw [hlvl]
    obtain ⟨root1, j1, j2, j3, j4, j5, j6⟩ := init_insert_spec P
      ({ zeroNode with level := l + 2 } : Node) (l + 2) 0 (2 ^ 64) sep r t.next_page_id
      rfl rfl (by omega) (Nat.zero_le _) s13
    simp only at j1
    rw [j1]
    simp only
    rw [if_pos j2]
    generalize hT : BTree.setPage
      ({ T2 with root := some (t.next_page_id + 1), next_page_id := t.next_page_id + 2 } : BTree)
      (t.next_page_id + 1) root1 = T
    have hTroot : T.root = some (t.next_page_id + 1) := by rw [← hT]; rfl
    have hTnext : T.next_page_id = t.next_page_id + 2 := by rw [← hT]; rfl
    have hTtop : T.pages (t.next_page_id + 1) = root1 := by rw [← hT]; exact setPage_same _ _ _
    have hTr : T.pages r = n1 := by
      rw [← hT, setPage_other _ _ _ _ (by omega)]
      exact hT2r
    have hTn : T.pages t.next_page_id = o1 := by
      rw [← hT, setPage_other _ _ _ _ (by omega)]
      exact hT2o
    have hTo : ∀ q, q ≠ r → q ≠ t.next_page_id → q ≠ t.next_page_id + 1 →
        T.pages q = t.pages q := by
      intro q q1 q2 q3
      rw [← hT, setPage_other _ _ _ _ q3]
      exact hT2x q q1 q2
    have hgc : ∀ j, j < (t.pages r).count → ∀ q, Owns t.pages l ((t.pages r).children j) q →
        T.pages q = t.pages q := by
      intro j hj q hq
      have hqn := hbelow q (Or.inr ⟨j, hj, hq⟩)
      apply hTo q
      · intro he
        rw [he] at hq
        exact h3 j hj hq
      · omega
      · omega
    have hgn : ∀ x, t.next_page_id ≤ x → ∀ j, j < (t.pages r).count →
        ¬ Owns t.pages l ((t.pages r).children j) x := by
      intro x hx j hj hq
      have := hbelow _ (Or.inr ⟨j, hj, hq⟩)
      omega
    obtain ⟨wl1, wl2⟩ := wf_part P t.pages T.pages m l r _ _ r 0 (sep + 1) 0 h
      (by rw [hTr]; exact s8) (by rw [hTr]; omega)
      (by
        intro j hj
        rw [hTr, s4, Nat.zero_add])
      (by
        intro j hj
        rw [hTr] at hj ⊢
        rw [Nat.zero_add]
        exact s14 j hj)
      hgc h3
    obtain ⟨wr1, wr2⟩ := wf_part P t.pages T.pages m l r _ _ t.next_page_id (sep + 1) _ n1.count
      h (by rw [hTn]; exact s9) (by rw [hTn]; omega)
      (by
        intro j hj
        rw [hTn] at hj ⊢
        exact s7 j hj)
      (by
        intro j hj
        rw [hTn] at hj ⊢
        exact s15 j hj)
      hgc (hgn _ (le_refl _))
    rw [hTr] at wl2
    rw [hTn] at wr2
    have hlb : ∀ q, Owns T.pages (l + 1) r q → q < t.next_page_id := by
      intro q hq
      rcases wl2 q hq with h5 | ⟨j, hj, h5⟩
      · omega
      · exact hbelow q (Or.inr ⟨0 + j, by omega, h5⟩)
    have hrb : ∀ q, Owns T.pages (l + 1) t.next_page_id q → q ≤ t.next_page_id := by
      intro q hq
      rcases wr2 q hq with h5 | ⟨j, hj, h5⟩
      · omega
      · exact Nat.le_of_lt (hbelow q (Or.inr ⟨n1.count + j, by omega, h5⟩))
    obtain ⟨x1, x2⟩ := wf_new_root P T.pages m (l + 1) (t.next_page_id + 1) 0 (2 ^ 64) r
      t.next_page_id sep (by rw [hTtop]; exact j6) (by rw [hTtop]; exact j2)
      (by rw [hTtop]; exact j3) (by rw [hTtop]; exact j4) (by rw [hTtop]; exact j5)
      wl1 wr1
      (fun hq => by have := hlb _ hq; omega)
      (fun hq => by have := hrb _ hq; omega)
      (by
        intro q hql hqr
        rcases wl2 q hql with h5 | ⟨j, hj, h5⟩
        · rcases wr2 q hqr with h6 | ⟨j2, hj2, h6⟩
          · omega
          · rw [h5] at h6
            exact h3 _ (by omega) h6
        · rcases wr2 q hqr with h6 | ⟨j2, hj2, h6⟩
          · rw [h6] at h5
            exact hgn _ (le_refl _) _ (by omega) h5
          · exact h4 (0 + j) (n1.count + j2) (by omega) (by omega) q h5 h6)
    have hfreshT : ∀ q, T.next_page_id ≤ q → T.pages q = zeroNode := by
      intro q hq
      rw [hTnext] at hq
      rw [hTo q (by omega) (by omega) (by omega)]
      exact hfresh q (by omega)
    have hbelowT : ∀ q, Owns T.pages (l + 1 + 1) (t.next_page_id + 1) q → q < T.next_page_id := by
      intro q hq
      rw [hTnext]
      rcases x2 q hq with h5 | h5 | h5
      · omega
      · have := hlb q h5; omega
      · have := hrb q h5; omega
    have hcl1 : childLo root1 0 1 = sep + 1 := by
      unfold childLo
      rw [if_neg (by omega), j5]
    have hch1 : childHi root1 (2 ^ 64) 1 = 2 ^ 64 := by
      unfold childHi
      rw [if_pos (by omega)]
    have hcl0 : childLo root1 0 0 = 0 := by
      unfold childLo
      rw [if_pos rfl]
    have hch0 : childHi root1 (2 ^ 64) 0 = sep + 1 := by
      unfold childHi
      rw [if_neg (by omega), j5]
    by_cases hsk : sep < key
    · simp only [hsk, ↓reduceIte]
      rw [hTn, if_pos (by omega)]
      refine ⟨T, t.next_page_id, 1, t.next_page_id + 1, sep + 1, 2 ^ 64, rfl, hTroot,
        by omega, by omega, hfreshT, x1, hbelowT, ?_, by omega, hkey, ?_, le_refl _⟩
      · refine ⟨1, by rw [hTtop]; omega, ?_, ?_, ?_, ?_, ?_⟩
        · rw [hTtop, hcl1]; omega
        · rw [hTtop, hch1]; exact hkey
        · rw [hTtop]; exact j4
        · rw [hTtop]; exact hcl1
        · rw [hTtop]; exact hch1
      · rw [hTn]; exact s11
    · simp only [hsk, ↓reduceIte]
      rw [hTr, if_pos (by omega)]
      refine ⟨T, r, 1, t.next_page_id + 1, 0, sep + 1, rfl, hTroot,
        by omega, by omega, hfreshT, x1, hbelowT, ?_, Nat.zero_le _, by omega, ?_, le_refl _⟩
      · refine ⟨0, by rw [hTtop]; omega, ?_, ?_, ?_, ?_, ?_⟩
        · rw [hTtop, hcl0]; exact Nat.zero_le _
        · rw [hTtop, hch0]; omega
        · rw [hTtop]; exact j3
        · rw [hTtop]; exact hcl0
        · rw [hTtop]; exact hch0
      · rw [hTr]; exact s10
  · rw [if_neg hge]
    have hlt : (t.pages r).count < InnerNode.kCapacity P - 1 := by omega
    rw [if_pos hlt]
    exact ⟨t, r, 0, r, 0, 2 ^ 64, rfl, hroot, le_refl _, by omega, hfresh, h, hbelow,
      ⟨rfl, rfl, rfl⟩, Nat.zero_le _, hkey, by omega, by omega⟩

end BTree

namespace BTree

/-! ## B+ tree: `insert` keeps the tree -/

theorem rootLevel_some {t : BTree} {r : Nat} (h : t.root = some r) :
    rootLevel t = (t.pages r).level := by
  unfold rootLevel
  rw [h]

theorem rootLevel_none {t : BTree} (h : t.root = none) : rootLevel t = 0 := by
  unfold rootLevel
  rw [h]

/-- The first `insert` makes a leaf the root. -/
theorem insert_empty (P : Nat) (t : BTree) (m m1 : Nat → Option Nat) (key value : Nat)
    (h : TreeInv P t m) (hroot : t.root = none)
    (hcap3 : 3 ≤ LeafNode.kCapacity P) (hcapl : LeafNode.kCapacity P < 2 ^ 16)
    (hkey : key < 2 ^ 64) (hroom : t.next_page_id + 1 < 2 ^ 64)
    (hm1 : m1 key = some value) (hm2 : ∀ k, k ≠ key → m1 k = m k) :
    ∃ t1, insert P t key value = some t1 ∧ TreeInv P t1 m1 ∧
      t.next_page_id ≤ t1.next_page_id ∧ t1.next_page_id ≤ t.next_page_id + 1 ∧
      rootLevel t1 = 0 := by
  have hz : t.pages t.next_page_id = zeroNode := h.fresh _ (le_refl _)
  have hl0 : LeafOK P ({ zeroNode with level := 0 } : Node) 0 (2 ^ 64) m :=
    ⟨rfl, Nat.zero_le _, fun i j _ hj => absurd hj (Nat.not_lt_zero _),
      fun i hi => absurd hi (Nat.not_lt_zero _), fun i hi => absurd hi (Nat.not_lt_zero _),
      fun k _ _ _ => h.empty hroot k⟩
  obtain ⟨n1, e1, e3, _⟩ := leaf_insert_spec P _ 0 (2 ^ 64) m m1 hl0 key value (Nat.zero_le _)
    hkey hcapl (by show 0 < _; omega) hm1 hm2
  unfold insert
  rw [hroot]
  simp only
  rw [hz]
  simp only at e1
  rw [e1]
  simp only
  have hu : u64 (t.next_page_id + 1) = t.next_page_id + 1 := u64_of_lt hroom
  generalize hT : BTree.setPage
    ({ t with root := some t.next_page_id, next_page_id := u64 (t.next_page_id + 1) } : BTree)
    t.next_page_id n1 = T
  have hTroot : T.root = some t.next_page_id := by rw [← hT]; rfl
  have hTnext : T.next_page_id = t.next_page_id + 1 := by rw [← hT]; exact hu
  have hTr : T.pages t.next_page_id = n1 := by rw [← hT]; exact setPage_same _ _ _
  have hTo : ∀ q, q ≠ t.next_page_id → T.pages q = t.pages q := by
    intro q hq
    rw [← hT, setPage_other _ _ _ _ hq]
  refine ⟨T, rfl, ⟨?_, ?_, ?_, ?_, ?_⟩, by omega, by omega, ?_⟩
  · intro q hq
    rw [hTo q (by omega)]
    exact h.fresh q (by omega)
  · intro hc
    rw [hTroot] at hc
    cases hc
  · intro r hr
    rw [hTroot] at hr
    cases hr
    rw [hTr, e3.level]
    show LeafOK P (T.pages t.next_page_id) 0 (2 ^ 64) m1
    rw [hTr]
    exact e3
  · intro r hr q hq
    rw [hTroot] at hr
    cases hr
    rw [hTr, e3.level] at hq
    have : q = t.next_page_id := hq
    omega
  · intro k hk
    rw [hm2 k (by omega)]
    exact h.beyond k hk
  · rw [rootLevel_some hTroot, hTr]
    exact e3.level

/-- The method `insert` on a tree whose root is a leaf. -/
theorem insert_leaf_root (P : Nat) (t : BTree) (m m1 : Nat → Option Nat) (key value r : Nat)
    (h : TreeInv P t m) (hroot : t.root = some r) (hlev : (t.pages r).level = 0)
    (hcap3 : 3 ≤ LeafNode.kCapacity P) (hcapl : LeafNode.kCapacity P < 2 ^ 16)
    (hcap : 3 ≤ InnerNode.kCapacity P)
    (hkey : key < 2 ^ 64) (hroom : t.next_page_id + 2 < 2 ^ 64)
    (hm1 : m1 key = some value) (hm2 : ∀ k, k ≠ key → m1 k = m k) :
    ∃ t1, insert P t key value = some t1 ∧ TreeInv P t1 m1 ∧
      t.next_page_id ≤ t1.next_page_id ∧ t1.next_page_id ≤ t.next_page_id + 2 ∧
      rootLevel t1 ≤ 1 := by
  have hw : LeafOK P (t.pages r) 0 (2 ^ 64) m := by
    have := h.tree r hroot
    rw [hlev] at this
    exact this
  have hrn : r < t.next_page_id := h.below r hroot r (by rw [hlev]; exact rfl)
  have hleaf : (t.pages r).is_leaf = true := (is_leaf_iff _).2 hlev
  have hbeyond : ∀ k, 2 ^ 64 ≤ k → m1 k = none := by
    intro k hk
    rw [hm2 k (by omega)]
    exact h.beyond k hk
  have hg : get_leaf_page P t key TraversalType.Insert = some (t, r, r) := by
    unfold get_leaf_page
    rw [hroot]
    simp only
    rw [if_pos hleaf]
  unfold insert
  rw [hroot]
  simp only
  rw [hg]
  simp only
  unfold insertAtLeaf
  simp only
  rw [if_pos ⟨hleaf, hlev⟩]
  by_cases hfull : (t.pages r).count = LeafNode.kCapacity P
  · rw [if_pos hfull]
    unfold splitLeaf
    simp only
    obtain ⟨l1, o1, sep, s1, s2, s3, s4, s5, s6, s7⟩ := leaf_split_spec P (t.pages r)
      ({ t.pages t.next_page_id with level := 0 } : Node) _ _ m hw hfull hcap3 hcapl rfl
    simp only at s1
    rw [s1]
    simp only
    rw [if_pos ⟨s4, s5⟩]
    have hu1 : u64 (t.next_page_id + 1) = t.next_page_id + 1 := u64_of_lt (by omega)
    have hu2 : u64 (t.next_page_id + 1 + 1) = t.next_page_id + 2 := u64_of_lt (by omega)
    generalize hT2 : (({ t with next_page_id := u64 (t.next_page_id + 1) } : BTree).setPage
        t.next_page_id o1).setPage r l1 = T2
    have hT2n : T2.next_page_id = t.next_page_id + 1 := by rw [← hT2]; exact hu1
    have hT2root : T2.root = some r := by rw [← hT2]; exact hroot
    have hT2r : T2.pages r = l1 := by rw [← hT2]; exact setPage_same _ _ _
    have hT2o : T2.pages t.next_page_id = o1 := by
      rw [← hT2, setPage_other _ _ _ _ (by omega)]
      exact setPage_same _ _ _
    have hT2x : ∀ q, q ≠ r → q ≠ t.next_page_id → T2.pages q = t.pages q := by
      intro q q1 q2
      rw [← hT2, setPage_other _ _ _ _ q1, setPage_other _ _ _ _ q2]
    have hz : T2.pages (t.next_page_id + 1) = zeroNode := by
      rw [hT2x _ (by omega) (by omega)]
      exact h.fresh _ (by omega)
    rw [if_pos hT2root, hT2n, hz, hu2]
    obtain ⟨root1, j1, j2, j3, j4, j5, j6⟩ := init_insert_spec P
      ({ zeroNode with level := 1 } : Node) 1 0 (2 ^ 64) sep r t.next_page_id
      rfl rfl hcap (Nat.zero_le _) s7
    simp only at j1
    rw [j1]
    simp only
    rw [if_pos j2]
    generalize hT : BTree.setPage
      ({ T2 with root := some (t.next_page_id + 1), next_page_id := t.next_page_id + 2 } : BTree)
      (t.next_page_id + 1) root1 = T
    have hTroot : T.root = some (t.next_page_id + 1) := by rw [← hT]; rfl
    have hTnext : T.next_page_id = t.next_page_id + 2 := by rw [← hT]; rfl
    have hTtop : T.pages (t.next_page_id + 1) = root1 := by rw [← hT]; exact setPage_same _ _ _
    have hTr : T.pages r = l1 := by
      rw [← hT, setPage_other _ _ _ _ (by omega)]
      exact hT2r
    have hTn : T.pages t.next_page_id = o1 := by
      rw [← hT, setPage_other _ _ _ _ (by omega)]
      exact hT2o
    have hTo : ∀ q, q ≠ r → q ≠ t.next_page_id → q ≠ t.next_page_id + 1 →
        T.pages q = t.pages q := by
      intro q q1 q2 q3
      rw [← hT, setPage_other _ _ _ _ q3]
      exact hT2x q q1 q2
    have hfin : ∀ (tgt : Nat) (t1n : Node), (tgt = r ∨ tgt = t.next_page_id) →
        LeafOK P ((T.setPage tgt t1n).pages r) 0 (sep + 1) m1 →
        LeafOK P ((T.setPage tgt t1n).pages t.next_page_id) (sep + 1) (2 ^ 64) m1 →
        TreeInv P (T.setPage tgt t1n) m1 ∧
        t.next_page_id ≤ (T.setPage tgt t1n).next_page_id ∧
        (T.setPage tgt t1n).next_page_id ≤ t.next_page_id + 2 ∧
        rootLevel (T.setPage tgt t1n) ≤ 1 := by
      intro tgt t1n htgt hL hR
      have hUroot : (T.setPage tgt t1n).root = some (t.next_page_id + 1) := hTroot
      have hUnext : (T.setPage tgt t1n).next_page_id = t.next_page_id + 2 := hTnext
      have hUtop : (T.setPage tgt t1n).pages (t.next_page_id + 1) = root1 := by
        rw [setPage_other _ _ _ _ (by omega)]
        exact hTtop
      have hUo : ∀ q, q ≠ r → q ≠ t.next_page_id → q ≠ t.next_page_id + 1 →
          (T.setPage tgt t1n).pages q = t.pages q := by
        intro q q1 q2 q3
        rw [setPage_other _ _ _ _ (by
          rcases htgt with he | he
          · rw [he]; exact q1
          · rw [he]; exact q2)]
        exact hTo q q1 q2 q3
      obtain ⟨x1, x2⟩ := wf_new_root P (T.setPage tgt t1n).pages m1 0 (t.next_page_id + 1) 0
        (2 ^ 64) r t.next_page_id sep (by rw [hUtop]; exact j6) (by rw [hUtop]; exact j2)
        (by rw [hUtop]; exact j3) (by rw [hUtop]; exact j4) (by rw [hUtop]; exact j5)
        hL hR
        (fun hq => by have e : t.next_page_id + 1 = r := hq; omega)
        (fun hq => by have e : t.next_page_id + 1 = t.next_page_id := hq; omega)
        (by
          intro q hql hqr
          have e1 : q = r := hql
          have e2 : q = t.next_page_id := hqr
          omega)
      have hlvl : ((T.setPage tgt t1n).pages (t.next_page_id + 1)).level = 1 := by
        rw [hUtop]
        exact j6.level
      refine ⟨⟨?_, ?_, ?_, ?_, hbeyond⟩, by omega, by omega, ?_⟩
      · intro q hq
        rw [hUnext] at hq
        rw [hUo q (by omega) (by omega) (by omega)]
        exact h.fresh q (by omega)
      · intro hc
        rw [hUroot] at hc
        cases hc
      · intro r2 hr2
        rw [hUroot] at hr2
        cases hr2
        rw [hlvl]
        exact x1
      · intro r2 hr2 q hq
        rw [hUroot] at hr2
        cases hr2
        rw [hlvl] at hq
        rw [hUnext]
        rcases x2 q hq with h5 | h5 | h5
        · omega
        · have e : q = r := h5
          omega
        · have e : q = t.next_page_id := h5
          omega
      · rw [rootLevel_some hUroot, hlvl]
    by_cases hsk : sep < key
    · simp only [hsk, ↓reduceIte]
      rw [hTn]
      obtain ⟨n1, e1, e3, _⟩ := leaf_insert_spec P o1 _ _ m m1 s3 key value (by omega) hkey
        hcapl s5 hm1 hm2
      rw [e1]
      simp only
      refine ⟨_, rfl, hfin t.next_page_id n1 (Or.inr rfl) ?_ ?_⟩
      · rw [setPage_other _ _ _ _ (by omega), hTr]
        apply leafok_map P l1 _ _ m m1 s2
        intro k _ hk
        exact hm2 k (by omega)
      · rw [setPage_same]
        exact e3
    · simp only [hsk, ↓reduceIte]
      rw [hTr]
      obtain ⟨n1, e1, e3, _⟩ := leaf_insert_spec P l1 _ _ m m1 s2 key value (Nat.zero_le _)
        (by omega) hcapl s4 hm1 hm2
      rw [e1]
      simp only
      refine ⟨_, rfl, hfin r n1 (Or.inl rfl) ?_ ?_⟩
      · rw [setPage_same]
        exact e3
      · rw [setPage_other _ _ _ _ (by omega), hTn]
        apply leafok_map P o1 _ _ m m1 s3
        intro k hk _
        exact hm2 k (by omega)
  · rw [if_neg hfull]
    obtain ⟨n1, e1, e3, _⟩ := leaf_insert_spec P (t.pages r) _ _ m m1 hw key value
      (Nat.zero_le _) hkey hcapl (by have := hw.count; omega) hm1 hm2
    rw [e1]
    simp only
    have hUr : (t.setPage r n1).pages r = n1 := setPage_same _ _ _
    have hUroot : (t.setPage r n1).root = some r := hroot
    refine ⟨_, rfl, ⟨?_, ?_, ?_, ?_, hbeyond⟩, le_refl _, by show t.next_page_id ≤ _; omega, ?_⟩
    · intro q hq
      have hq1 : t.next_page_id ≤ q := hq
      rw [setPage_other _ _ _ _ (by omega)]
      exact h.fresh q hq
    · intro hc
      rw [hUroot] at hc
      cases hc
    · intro r2 hr2
      rw [hUroot] at hr2
      cases hr2
      rw [hUr, e3.level]
      show LeafOK P ((t.setPage r n1).pages r) 0 (2 ^ 64) m1
      rw [hUr]
      exact e3
    · intro r2 hr2 q hq
      rw [hUroot] at hr2
      cases hr2
      rw [hUr, e3.level] at hq
      have e : q = r := hq
      show q < t.next_page_id
      omega
    · rw [rootLevel_some hUroot, hUr, e3.level]
      omega

/-- The method `insert` on a tree whose root is an inner node. -/
theorem insert_inner_root (P : Nat) (t : BTree) (m m1 : Nat → Option Nat)
    (key value r l : Nat)
    (h : TreeInv P t m) (hroot : t.root = some r) (hlev : (t.pages r).level = l + 1)
    (hcap3 : 3 ≤ LeafNode.kCapacity P) (hcapl : LeafNode.kCapacity P < 2 ^ 16)
    (hcap5 : 5 ≤ InnerNode.kCapacity P) (hcap : InnerNode.kCapacity P < 2 ^ 16)
    (hkey : key < 2 ^ 64) (hroom : t.next_page_id + l + 4 ≤ 2 ^ 64) (hlevel : l + 2 < 2 ^ 16)
    (hm1 : m1 key = some value) (hm2 : ∀ k, k ≠ key → m1 k = m k) :
    ∃ t1, insert P t key value = some t1 ∧ TreeInv P t1 m1 ∧
      t.next_page_id ≤ t1.next_page_id ∧ t1.next_page_id ≤ t.next_page_id + l + 3 ∧
      rootLevel t1 ≤ l + 2 := by
  have hw : WF P t.pages m (l + 1) r 0 (2 ^ 64) := by
    have := h.tree r hroot
    rw [hlev] at this
    exact this
  have hbelow : ∀ q, Owns t.pages (l + 1) r q → q < t.next_page_id := by
    have := h.below r hroot
    rw [hlev] at this
    exact this
  have hbeyond : ∀ k, 2 ^ 64 ≤ k → m1 k = none := by
    intro k hk
    rw [hm2 k (by omega)]
    exact h.beyond k hk
  obtain ⟨t1, s, d, top, slo, sup, a1, a2, a3, a4, a5, a6, a7, a8, a9, a10, a11, a12⟩ :=
    split_root_spec P t m l r key hcap5 hcap hroot hw hkey h.fresh hbelow (by omega) hlevel
  obtain ⟨hs, _, _, hso⟩ := path_wf P t1.pages m key (l + 1) d top 0 (2 ^ 64) s slo sup a6 a8
  obtain ⟨i, hi, hl, hk1, hk2⟩ := inner_lookup_spec P (t1.pages s) (l + 1) slo sup hs.1 key a9 a10
  have hsl : (t1.pages s).level = l + 1 := hs.1.level
  have hcl : (t1.pages ((t1.pages s).children i)).level = l :=
    wf_level P t1.pages m l _ _ _ (hs.2.1 i hi)
  obtain ⟨t2, par, leaf, t3, b1, b2, b3, b4, b5, b6, b7, b8, b9⟩ :=
    insert_from P m m1 key value hcap3 hcapl hcap5 hcap hm1 hm2 l (l + 1) t1 s slo sup
      ((t1.pages s).children i) hs a9 a10 a11 hl a5 (fun q hq => a7 q (hso q hq)) (by omega)
      (by omega)
  obtain ⟨c1, c2⟩ := path_replace P t1.pages t3.pages m m1 key (l + 1)
    (fun q => t1.next_page_id ≤ q ∧ q < t3.next_page_id) d top 0 (2 ^ 64) s slo sup a6 a8
    (by
      intro q hq hf
      have := a7 q hq
      omega)
    (by
      intro q hf hq
      by_cases hqn : q < t1.next_page_id
      · exact b7 q hqn hq
      · rw [b6 q (by
          by_contra hc
          exact hf ⟨by omega, by omega⟩), a5 q (by omega)])
    b8 b9
    (by
      intro k hk
      apply hm2
      intro he
      rw [he] at hk
      exact hk ⟨a9, a10⟩)
  have htl : (t3.pages top).level = l + 1 + d := wf_level P t3.pages m1 _ _ _ _ c1
  have hroot3 : t3.root = some top := by rw [b3, a2]
  unfold insert
  rw [hroot]
  simp only
  unfold get_leaf_page
  rw [hroot]
  simp only
  have hnl : ¬ (t.pages r).is_leaf = true := by
    rw [is_leaf_iff, hlev]
    omega
  rw [if_neg hnl]
  simp only [↓reduceIte]
  rw [a1]
  simp only
  rw [hl]
  simp only
  rw [if_pos (by rw [hcl, hsl]; rfl), hsl, b1]
  simp only
  refine ⟨t3, b2, ⟨b6, ?_, ?_, ?_, hbeyond⟩, by omega, by omega, ?_⟩
  · intro hc
    rw [hroot3] at hc
    cases hc
  · intro r2 hr2
    rw [hroot3] at hr2
    cases hr2
    rw [htl]
    exact c1
  · intro r2 hr2 q hq
    rw [hroot3] at hr2
    cases hr2
    rw [htl] at hq
    rcases c2 q hq with h5 | h5
    · have := a7 q h5
      omega
    · exact h5.2
  · rw [rootLevel_some hroot3, htl]
    omega

/-- The method `insert(key, value)` returns and leaves a tree for the map with
the new entry; it takes at most `level + 2` new pages and the root rises by at
most one level. -/
theorem insert_spec (P : Nat) (t : BTree) (m : Nat → Option Nat) (key value : Nat)
    (h : TreeInv P t m)
    (hcap3 : 3 ≤ LeafNode.kCapacity P) (hcapl : LeafNode.kCapacity P < 2 ^ 16)
    (hcap5 : 5 ≤ InnerNode.kCapacity P) (hcap : InnerNode.kCapacity P < 2 ^ 16)
    (hkey : key < 2 ^ 64) (hfits : fits t = true) :
    ∃ t1, insert P t key value = some t1 ∧
      TreeInv P t1 (fun k => if k = key then some value else m k) ∧
      t.next_page_id ≤ t1.next_page_id ∧
      t1.next_page_id ≤ t.next_page_id + rootLevel t + 2 ∧
      rootLevel t1 ≤ rootLevel t + 1 := by
  have hm1 : (fun k => if k = key then some value else m k) key = some value := by
    simp only [↓reduceIte]
  have hm2 : ∀ k, k ≠ key → (fun k => if k = key then some value else m k) k = m k := by
    intro k hk
    simp only [hk, ↓reduceIte]
  generalize (fun k => if k = key then some value else m k) = m1 at hm1 hm2
  unfold fits at hfits
  simp only [Bool.and_eq_true, decide_eq_true_eq] at hfits
  obtain ⟨f1, f2⟩ := hfits
  cases hroot : t.root with
  | none =>
    rw [rootLevel_none hroot] at f1 f2 ⊢
    obtain ⟨t1, e1, e2, e3, e4, e5⟩ := insert_empty P t m m1 key value h hroot hcap3 hcapl hkey
      (by omega) hm1 hm2
    exact ⟨t1, e1, e2, e3, by omega, by omega⟩
  | some r =>
    rw [rootLevel_some hroot] at f1 f2 ⊢
    cases hl : (t.pages r).level with
    | zero =>
      rw [hl] at f1 f2
      obtain ⟨t1, e1, e2, e3, e4, e5⟩ := insert_leaf_root P t m m1 key value r h hroot hl
        hcap3 hcapl (by omega) hkey (by omega) hm1 hm2
      exact ⟨t1, e1, e2, e3, by omega, by omega⟩
    | succ l =>
      rw [hl] at f1 f2
      obtain ⟨t1, e1, e2, e3, e4, e5⟩ := insert_inner_root P t m m1 key value r l h hroot hl
        hcap3 hcapl hcap5 hcap hkey (by omega) (by omega) hm1 hm2
      exact ⟨t1, e1, e2, e3, by omega, by omega⟩

end BTree

namespace BTree

/-! ## B+ tree: sequences of calls -/

theorem treeinv_init (P seg : Nat) : TreeInv P (init seg) (fun _ => none) :=
  ⟨fun _ _ => rfl, fun _ _ => rfl, fun r hr => (by cases hr), fun r hr => (by cases hr),
    fun _ _ => rfl⟩

theorem mapAfter_eq (calls : List Call) :
    ∀ older : List Call, mapAfter (fun k => lastInsertBack k older) calls =
      fun k => lastInsertBack k (calls.reverse ++ older) := by
  induction calls with
  | nil => intro older; rfl
  | cons c rest ih =>
    intro older
    have hstep : applyCall c (fun k => lastInsertBack k older) =
        fun k => lastInsertBack k (c :: older) := by
      funext k
      cases c with
      | insert key value =>
        show (if k = key then some value else lastInsertBack k older) =
          (if key = k then some value else lastInsertBack k older)
        by_cases hk : k = key
        · rw [if_pos hk, if_pos hk.symm]
        · rw [if_neg hk, if_neg (fun he => hk he.symm)]
      | erase key =>
        show (if k = key then none else lastInsertBack k older) =
          (if key = k then none else lastInsertBack k older)
        by_cases hk : k = key
        · rw [if_pos hk, if_pos hk.symm]
        · rw [if_neg hk, if_neg (fun he => hk he.symm)]
    show mapAfter (applyCall c (fun k => lastInsertBack k older)) rest = _
    rw [hstep, ih (c :: older)]
    funext k
    rw [List.reverse_cons, List.append_assoc]
    rfl

theorem mapAfter_lastInsert (calls : List Call) (key : Nat) :
    mapAfter (fun _ => none) calls key = lastInsert key calls := by
  have := mapAfter_eq calls []
  have h0 : (fun k => lastInsertBack k []) = (fun _ : Nat => (none : Option Nat)) := rfl
  rw [h0] at this
  rw [this]
  unfold lastInsert
  rw [List.append_nil]

/-- Every call returns and keeps the tree invariant for the map it makes. -/
theorem run_spec (P : Nat)
    (hcap3 : 3 ≤ LeafNode.kCapacity P) (hcapl : LeafNode.kCapacity P < 2 ^ 16)
    (hcap5 : 5 ≤ InnerNode.kCapacity P) (hcap : InnerNode.kCapacity P < 2 ^ 16)
    (calls : List Call) :
    ∀ (t : BTree) (m : Nat → Option Nat), TreeInv P t m → keysFit calls = true →
      fitsRun P t calls = true →
      ∃ t1, run P t calls = some t1 ∧ TreeInv P t1 (mapAfter m calls) := by
  induction calls with
  | nil =>
    intro t m h _ _
    exact ⟨t, rfl, h⟩
  | cons c rest ih =>
    intro t m h hk hf
    unfold fitsRun at hf
    rw [Bool.and_eq_true] at hf
    obtain ⟨hf1, hf2⟩ := hf
    cases c with
    | insert key value =>
      unfold keysFit at hk
      simp only [Bool.and_eq_true, decide_eq_true_eq] at hk
      obtain ⟨t1, e1, e2, _⟩ := insert_spec P t m key value h hcap3 hcapl hcap5 hcap hk.1 hf1
      have hs : step P t (Call.insert key value) = some t1 := e1
      rw [hs] at hf2
      obtain ⟨t2, r1, r2⟩ := ih t1 _ e2 hk.2 hf2
      refine ⟨t2, ?_, r2⟩
      unfold run
      rw [hs]
      exact r1
    | erase key =>
      unfold keysFit at hk
      simp only [Bool.and_eq_true, decide_eq_true_eq] at hk
      obtain ⟨t1, e1, e2, _⟩ := erase_spec P t m h hcapl key hk.1
      have hs : step P t (Call.erase key) = some t1 := e1
      rw [hs] at hf2
      obtain ⟨t2, r1, r2⟩ := ih t1 _ e2 hk.2 hf2
      refine ⟨t2, ?_, r2⟩
      unfold run
      rw [hs]
      exact r1

theorem caps_of_page_size (P : Nat) (h1 : 88 ≤ P) (h2 : P < 2 ^ 20) :
    3 ≤ LeafNode.kCapacity P ∧ LeafNode.kCapacity P < 2 ^ 16 ∧
      5 ≤ InnerNode.kCapacity P ∧ InnerNode.kCapacity P < 2 ^ 16 := by
  unfold LeafNode.kCapacity InnerNode.kCapacity
  omega

theorem growth_step (L L1 n : Nat) (h : L1 ≤ L + 1) :
    growth L1 n + L + 2 ≤ growth L (n + 1) := by
  unfold growth
  have h1 : n * (L1 + n + 2) ≤ n * (L + 1 + n + 2) := Nat.mul_le_mul_left _ (by omega)
  have h2 : (n + 1) * (L + (n + 1) + 2) = n * (L + 1 + n + 2) + (L + n + 3) := by ring
  omega

theorem growth_mono (L n : Nat) : growth L n ≤ growth L (n + 1) := by
  unfold growth
  have h1 : n * (L + n + 2) ≤ n * (L + (n + 1) + 2) := Nat.mul_le_mul_left _ (by omega)
  have h2 : (n + 1) * (L + (n + 1) + 2) = n * (L + (n + 1) + 2) + (L + (n + 1) + 2) := by ring
  omega

theorem growth_ge (L n : Nat) : L + 3 ≤ growth L n := by
  unfold growth
  omega

/-- Fewer than `2 ^ 16 - 1` calls cannot make a counter overflow. -/
theorem fitsRun_of_bound (P : Nat)
    (hcap3 : 3 ≤ LeafNode.kCapacity P) (hcapl : LeafNode.kCapacity P < 2 ^ 16)
    (hcap5 : 5 ≤ InnerNode.kCapacity P) (hcap : InnerNode.kCapacity P < 2 ^ 16)
    (calls : List Call) :
    ∀ (t : BTree) (m : Nat → Option Nat), TreeInv P t m → keysFit calls = true →
      rootLevel t + calls.length + 1 < 2 ^ 16 →
      t.next_page_id + growth (rootLevel t) calls.length ≤ 2 ^ 64 →
      fitsRun P t calls = true := by
  induction calls with
  | nil => intro _ _ _ _ _ _; rfl
  | cons c rest ih =>
    intro t m h hk hl hn
    have hlen : (c :: rest).length = rest.length + 1 := rfl
    rw [hlen] at hl hn
    have hfits : fits t = true := by
      unfold fits
      have := growth_ge (rootLevel t) (rest.length + 1)
      simp only [Bool.and_eq_true, decide_eq_true_eq]
      omega
    unfold fitsRun
    rw [hfits, Bool.true_and]
    cases c with
    | insert key value =>
      unfold keysFit at hk
      simp only [Bool.and_eq_true, decide_eq_true_eq] at hk
      obtain ⟨t1, e1, e2, e3, e4, e5⟩ :=
        insert_spec P t m key value h hcap3 hcapl hcap5 hcap hk.1 hfits
      have hs : step P t (Call.insert key value) = some t1 := e1
      rw [hs]
      have hg := growth_step (rootLevel t) (rootLevel t1) rest.length e5
      exact ih t1 _ e2 hk.2 (by omega) (by omega)
    | erase key =>
      unfold keysFit at hk
      simp only [Bool.and_eq_true, decide_eq_true_eq] at hk
      obtain ⟨t1, e1, e2, e3, e4⟩ := erase_spec P t m h hcapl key hk.1
      have hs : step P t (Call.erase key) = some t1 := e1
      rw [hs]
      have hg := growth_mono (rootLevel t) rest.length
      exact ih t1 _ e2 hk.2 (by rw [e4]; omega) (by rw [e3, e4]; omega)

theorem init_next_le (seg : Nat) : (init seg).next_page_id + 2 ^ 48 ≤ 2 ^ 64 := by
  show u64 (u16 seg <<< 48) + 2 ^ 48 ≤ 2 ^ 64
  have h1 : u16 seg < 2 ^ 16 := Nat.mod_lt _ (by norm_num)
  rw [Nat.shiftLeft_eq]
  have h2 : u16 seg * 2 ^ 48 < 2 ^ 64 := by omega
  rw [u64_of_lt h2]
  omega

theorem fitsRun_short (P seg : Nat) (calls : List Call) (hP1 : 88 ≤ P) (hP2 : P < 2 ^ 20)
    (hkeys : keysFit calls = true) (hshort : calls.length + 1 < 2 ^ 16) :
    fitsRun P (init seg) calls = true := by
  obtain ⟨c1, c2, c3, c4⟩ := caps_of_page_size P hP1 hP2
  have hl0 : rootLevel (init seg) = 0 := rfl
  apply fitsRun_of_bound P c1 c2 c3 c4 calls (init seg) _ (treeinv_init P seg) hkeys
  · rw [hl0]; omega
  · rw [hl0]
    have := init_next_le seg
    have hg : growth 0 calls.length ≤ 2 ^ 48 := by
      unfold growth
      have h1 : calls.length * (0 + calls.length + 2) ≤ 65535 * 65537 :=
        Nat.mul_le_mul (by omega) (by omega)
      omega
    omega

/-- The state the calls lead to is a tree for the map of the calls. -/
theorem reach_treeinv (P seg : Nat) (calls : List Call) (hP1 : 88 ≤ P) (hP2 : P < 2 ^ 20)
    (hkeys : keysFit calls = true)
    (hfit : calls.length + 1 < 2 ^ 16 ∨ fitsRun P (init seg) calls = true) :
    ∃ t, run P (init seg) calls = some t ∧ TreeInv P t (fun k => lastInsert k calls) := by
  obtain ⟨c1, c2, c3, c4⟩ := caps_of_page_size P hP1 hP2
  have hfit1 : fitsRun P (init seg) calls = true := by
    rcases hfit with hs | hf
    · exact fitsRun_short P seg calls hP1 hP2 hkeys hs
    · exact hf
  obtain ⟨t, r1, r2⟩ := run_spec P c1 c2 c3 c4 calls (init seg) _ (treeinv_init P seg) hkeys hfit1
  refine ⟨t, r1, ?_⟩
  have : mapAfter (fun _ => none) calls = fun k => lastInsert k calls := by
    funext k
    exact mapAfter_lastInsert calls k
  rw [← this]
  exact r2

/-- C1, counterexample: pages of 72 bytes (leaf capacity 3, inner capacity 4).
The inserts of the keys 1 to 6 and then of key 0 all return. The last one
splits the root, which has three children, into a node with two children and
the node of page 4 with one child, the leaf of the keys 5 and 6. The new root
sends `lookup(6)` to page 4, where the assertion `count >= 2` of
`InnerNode::lookup` fails: `lookup(6)` does not return the value 60 of
`insert(6, 60)`. -/
theorem lookup_fails_below_single_child :
    run 72 (init 0) lopsidedCalls = some lopsidedTree ∧
    lastInsert 6 lopsidedCalls = some 60 ∧
    lopsidedTree.root = some 5 ∧
    InnerNode.lookup 72 (lopsidedTree.pages 5) 6 = some 4 ∧
    (lopsidedTree.pages 4).count = 1 ∧
    InnerNode.lookup 72 (lopsidedTree.pages 4) 6 = none ∧
    lookup 72 lopsidedTree 6 = none := by
  refine ⟨rfl, ?_, ?_, ?_, ?_, ?_, ?_⟩ <;> decide

/-- C1 (amended). With pages of 88 bytes or more, any sequence of
`insert(k, v)` and `erase(k)` calls on the empty tree returns (fewer than
`2 ^ 16 - 1` calls, or no counter overflows on the way), and afterwards `lookup(k)` returns the value of
the last `insert(k, v)` that no `erase(k)` follows, and nothing when there is
no such insert. -/
theorem lookup_after_calls (P seg : Nat) (calls : List Call) (hP1 : 88 ≤ P) (hP2 : P < 2 ^ 20)
    (hkeys : keysFit calls = true)
    (hfit : calls.length + 1 < 2 ^ 16 ∨ fitsRun P (init seg) calls = true) :
    ∃ t, run P (init seg) calls = some t ∧
      ∀ key, key < 2 ^ 64 → lookup P t key = some (lastInsert key calls) := by
  obtain ⟨t, r1, r2⟩ := reach_treeinv P seg calls hP1 hP2 hkeys hfit
  exact ⟨t, r1, fun key hkey => lookup_spec P t _ r2 key hkey⟩

/-- C1 (amended) on pages of 88 bytes: five inserts (the fifth splits the root leaf),
an erase, an overwriting insert and an erase of an absent key. -/
theorem lookup_after_calls_witness :
    ∃ t, run 88 (init 0) mixedCalls = some t ∧
      ∀ key, key < 2 ^ 64 → lookup 88 t key = some (lastInsert key mixedCalls) :=
  lookup_after_calls 88 0 mixedCalls (by decide) (by decide) (by decide) (Or.inl (by decide))

end BTree

/-! ## B+ tree, any page size: subtrees -/

namespace BTree

end BTree

namespace BTree

/-! ## B+ tree, any page size: the methods of one node -/

end BTree

namespace BTree

/-! ## B+ tree, any page size: going down, and `erase` -/

end BTree

namespace BTree

/-! ## B+ tree, any page size: `insert` -/

end BTree

namespace BTree

/-! ## B+ tree of any page size: `insert` keeps the tree -/

end BTree

namespace BTree

/-! ## B+ tree of any page size: sequences of calls -/

end BTree

namespace BTree

/-! ## B+ tree: the order of the keys -/

/-- Every page of a subtree is the root of a subtree of its own. -/
theorem wf_sub (P : Nat) (pages : Nat → Node) (m : Nat → Option Nat) :
    ∀ (l pid lo up q : Nat), WF P pages m l pid lo up → Owns pages l pid q →
      ∃ lq qlo qup, WF P pages m lq q qlo qup := by
  intro l
  induction l with
  | zero =>
    intro pid lo up q h hq
    have : q = pid := hq
    rw [this]
    exact ⟨0, lo, up, h⟩
  | succ l ih =>
    intro pid lo up q h hq
    rcases hq with hq | ⟨i, hi, hq⟩
    · rw [hq]
      exact ⟨l + 1, lo, up, h⟩
    · exact ih _ _ _ q (h.2.1 i hi) hq

end BTree

namespace BTree

/-! ## B-tree: what `split` does to one node -/

/-- C19, counterexample: with pages of 36 bytes a leaf holds one entry, so the
empty leaf has a count of at least `kCapacity - 1`; `LeafNode::split` leaves
it with count 1, although it had no entry, and gives the new right leaf the
count 65535, because the difference `0 - 1` is stored in a `uint16_t`. -/
theorem leaf_split_wraps_on_empty_leaf :
    LeafNode.kCapacity 36 = 1 ∧ zeroNode.count ≥ pred32 (LeafNode.kCapacity 36) ∧
      (LeafNode.split 36 zeroNode zeroNode).map (fun r => (r.1.count, r.2.1.count, r.2.2)) =
        some (1, 65535, 0) := by
  decide

/-- C19 (amended). For a leaf of `c` entries with strictly increasing keys, `c`
at least 1 and at least `kCapacity - 1`, `LeafNode::split` returns the
separator `keys[c/2]`; the left leaf keeps the entries `0..c/2` (count
`c/2 + 1`), the new right leaf gets the entries `c/2+1..c-1` in order (count
`c - c/2 - 1`), keys with their values; for a full leaf the counts are
`M/2 + 1` and `M - M/2 - 1`; every left key is at most the separator and every
right key is greater. -/
theorem leaf_split_contents (P : Nat) (n other : Node)
    (hc1 : 1 ≤ n.count) (hcount : n.count < 2 ^ 16)
    (hpre : n.count ≥ pred32 (LeafNode.kCapacity P))
    (hsorted : ∀ i j, i < j → j < n.count → n.keys i < n.keys j) :
    ∃ left right, LeafNode.split P n other = some (left, right, n.keys (n.count / 2)) ∧
      left.count = n.count / 2 + 1 ∧
      (∀ i, i < left.count → left.keys i = n.keys i ∧ left.values i = n.values i) ∧
      right.count = n.count - n.count / 2 - 1 ∧
      (∀ j, j < right.count → right.keys j = n.keys (n.count / 2 + 1 + j) ∧
        right.values j = n.values (n.count / 2 + 1 + j)) ∧
      left.count + right.count = n.count ∧
      (n.count = LeafNode.kCapacity P →
        left.count = LeafNode.kCapacity P / 2 + 1 ∧
        right.count = LeafNode.kCapacity P - LeafNode.kCapacity P / 2 - 1) ∧
      (∀ i, i < left.count → left.keys i ≤ n.keys (n.count / 2)) ∧
      (∀ j, j < right.count → n.keys (n.count / 2) < right.keys j) := by
  have hu1 : u16 (n.count / 2 + 1) = n.count / 2 + 1 := u16_of_lt (by omega)
  have hu2 : u16 (n.count + 2 ^ 16 - (n.count / 2 + 1)) = n.count - (n.count / 2 + 1) :=
    u16_diff (by omega) (by omega)
  have hcpy : ∀ (o a : Nat → Nat) i, i < n.count - (n.count / 2 + 1) →
      memcpy o a (n.count / 2 + 1) (n.count - (n.count / 2 + 1)) i =
        a (n.count / 2 + 1 + i) := by
    intro o a i hil
    unfold memcpy
    rw [if_pos hil]
  unfold LeafNode.split
  simp only [hpre, ↓reduceIte]
  rw [hu1, hu2]
  refine ⟨_, _, rfl, rfl, fun i _ => ⟨rfl, rfl⟩, ?_, ?_, ?_, ?_, ?_, ?_⟩
  · show n.count - (n.count / 2 + 1) = n.count - n.count / 2 - 1
    omega
  · intro j hj
    have hj2 : j < n.count - (n.count / 2 + 1) := hj
    exact ⟨hcpy _ _ j hj2, hcpy _ _ j hj2⟩
  · show n.count / 2 + 1 + (n.count - (n.count / 2 + 1)) = n.count
    omega
  · intro hfull
    refine ⟨?_, ?_⟩
    · show n.count / 2 + 1 = LeafNode.kCapacity P / 2 + 1
      rw [hfull]
    · show n.count - (n.count / 2 + 1) = LeafNode.kCapacity P - LeafNode.kCapacity P / 2 - 1
      rw [hfull]
      omega
  · intro i hi2
    have hi3 : i < n.count / 2 + 1 := hi2
    show n.keys i ≤ n.keys (n.count / 2)
    by_cases hie : i = n.count / 2
    · rw [hie]
    · exact Nat.le_of_lt (hsorted i (n.count / 2) (by omega) (by omega))
  · intro j hj
    have hj2 : j < n.count - (n.count / 2 + 1) := hj
    show n.keys (n.count / 2) <
      memcpy other.keys n.keys (n.count / 2 + 1) (n.count - (n.count / 2 + 1)) j
    rw [hcpy _ _ j hj2]
    exact hsorted _ _ (by omega) (by omega)

/-- C19 (amended) at a full leaf of capacity 4 with the keys 1, 3, 5, 7: the separator
is 5, the left leaf keeps three entries and the right leaf gets one. -/
theorem leaf_split_contents_witness :
    ∃ left right, LeafNode.split 84 sampleLeaf zeroNode = some (left, right, 5) ∧
      left.count = 3 ∧
      (∀ i, i < left.count → left.keys i = sampleLeaf.keys i ∧
        left.values i = sampleLeaf.values i) ∧
      right.count = 1 ∧
      (∀ j, j < right.count → right.keys j = sampleLeaf.keys (2 + 1 + j) ∧
        right.values j = sampleLeaf.values (2 + 1 + j)) ∧
      left.count + right.count = 4 ∧
      (sampleLeaf.count = LeafNode.kCapacity 84 → left.count = 3 ∧ right.count = 1) ∧
      (∀ i, i < left.count → left.keys i ≤ 5) ∧
      (∀ j, j < right.count → 5 < right.keys j) :=
  leaf_split_contents 84 sampleLeaf zeroNode (by decide) (by decide) (by decide)
    (fun i j hij _ => by show 2 * i + 1 < 2 * j + 1; omega)

/-- C20, counterexample: `InnerNode::split` of a node of level 1 into a
zero-filled buffer leaves the new right node at level 0, while the left node
is still at level 1. -/
theorem inner_split_keeps_buffer_level :
    (InnerNode.split 88 sampleInner zeroNode).map
        (fun r => (r.1.level, r.1.count, r.2.1.level, r.2.1.count, r.2.2)) =
      some (1, 3, 0, 2, 5) := by
  decide

/-- C20 (amended). For an inner node with `c` children, `c` at least
`kCapacity - 1`, `InnerNode::split` returns the separator `keys[(c-1)/2]`; the
left node keeps the children `0..(c-1)/2` with the separator as its last
(unused) key; the new right node gets the remaining `c - (c-1)/2 - 1` children
and the keys that followed the separator, in order. The level of the right
node is the level the buffer had before the call: it is the level of the left
node when the caller has set it so. -/
theorem inner_split_contents (P : Nat) (n other : Node)
    (hcap : 2 ≤ InnerNode.kCapacity P) (hcount : n.count < 2 ^ 16)
    (hpre : n.count ≥ InnerNode.kCapacity P - 1) :
    ∃ left right, InnerNode.split P n other = some (left, right, n.keys ((n.count - 1) / 2)) ∧
      left.count = (n.count - 1) / 2 + 1 ∧
      (∀ i, i < left.count → left.children i = n.children i ∧ left.keys i = n.keys i) ∧
      left.keys (left.count - 1) = n.keys ((n.count - 1) / 2) ∧
      right.count = n.count - (n.count - 1) / 2 - 1 ∧
      (∀ j, j < right.count → right.children j = n.children ((n.count - 1) / 2 + 1 + j) ∧
        right.keys j = n.keys ((n.count - 1) / 2 + 1 + j)) ∧
      left.count + right.count = n.count ∧
      left.level = n.level ∧ right.level = other.level ∧
      (other.level = n.level → right.level = left.level) := by
  have hc1 : 1 ≤ n.count := by omega
  have hu1 : u16 ((n.count - 1) / 2 + 1) = (n.count - 1) / 2 + 1 := u16_of_lt (by omega)
  have hu2 : u16 (n.count + 2 ^ 16 - ((n.count - 1) / 2 + 1)) =
      n.count - ((n.count - 1) / 2 + 1) := u16_diff (by omega) (by omega)
  have hpre2 : n.count ≥ pred32 (InnerNode.kCapacity P) := by
    rw [pred32_of_pos (by omega)]
    exact hpre
  have hcpy : ∀ (o a : Nat → Nat) i, i < n.count - ((n.count - 1) / 2 + 1) →
      memcpy o a ((n.count - 1) / 2 + 1) (n.count - ((n.count - 1) / 2 + 1)) i =
        a ((n.count - 1) / 2 + 1 + i) := by
    intro o a i hil
    unfold memcpy
    rw [if_pos hil]
  unfold InnerNode.split
  simp only [hpre2, ↓reduceIte]
  rw [hu1, hu2]
  have hk : n.keys ((n.count - 1) / 2 + 1 - 1) = n.keys ((n.count - 1) / 2) := by
    rw [Nat.add_sub_cancel]
  rw [if_pos hk]
  refine ⟨_, _, rfl, rfl, fun i _ => ⟨rfl, rfl⟩, hk, ?_, ?_, ?_, rfl, rfl, fun h => h⟩
  · show n.count - ((n.count - 1) / 2 + 1) = n.count - (n.count - 1) / 2 - 1
    omega
  · intro j hj
    have hj2 : j < n.count - ((n.count - 1) / 2 + 1) := hj
    exact ⟨hcpy _ _ j hj2, hcpy _ _ j hj2⟩
  · show (n.count - 1) / 2 + 1 + (n.count - ((n.count - 1) / 2 + 1)) = n.count
    omega

/-- C20 (amended) at an inner node of capacity 5 with five children: the
separator is the key at index 2, three children stay and two move. -/
theorem inner_split_contents_witness :
    ∃ left right, InnerNode.split 88 sampleInner zeroNode = some (left, right, 5) ∧
      left.count = 3 ∧
      (∀ i, i < left.count → left.children i = sampleInner.children i ∧
        left.keys i = sampleInner.keys i) ∧
      left.keys (left.count - 1) = 5 ∧
      right.count = 2 ∧
      (∀ j, j < right.count → right.children j = sampleInner.children (2 + 1 + j) ∧
        right.keys j = sampleInner.keys (2 + 1 + j)) ∧
      left.count + right.count = 5 ∧
      left.level = 1 ∧ right.level = 0 ∧
      (zeroNode.level = sampleInner.level → right.level = left.level) :=
  inner_split_contents 88 sampleInner zeroNode (by decide) (by decide) (by decide)

end BTree

/-! ## B+ tree: the splits of `insert` -/

namespace BTree

theorem run_append (P : Nat) (calls : List Call) :
    ∀ (t : BTree) (rest : List Call),
      run P t (calls ++ rest) = (run P t calls).bind (fun t1 => run P t1 rest) := by
  induction calls with
  | nil => intro t rest; rfl
  | cons c calls ih =>
    intro t rest
    simp only [List.cons_append, run]
    cases step P t c with
    | none => rfl
    | some t1 => exact ih t1 rest

theorem keysFit_append (calls rest : List Call) :
    keysFit (calls ++ rest) = (keysFit calls && keysFit rest) := by
  induction calls with
  | nil => simp [keysFit]
  | cons c calls ih =>
    have ih1 : keysFit (calls.append rest) = (keysFit calls && keysFit rest) := ih
    cases c <;> simp only [List.cons_append, keysFit, ih1, Bool.and_assoc]

theorem fitsRun_append (P : Nat) (calls : List Call) :
    ∀ (t t1 : BTree) (rest : List Call), run P t calls = some t1 →
      fitsRun P t (calls ++ rest) = true →
      fitsRun P t calls = true ∧ fitsRun P t1 rest = true := by
  induction calls with
  | nil =>
    intro t t1 rest hr hf
    simp only [run, Option.some.injEq] at hr
    subst hr
    exact ⟨rfl, hf⟩
  | cons c calls ih =>
    intro t t1 rest hr hf
    simp only [List.cons_append, fitsRun, Bool.and_eq_true] at hf ⊢
    simp only [run] at hr
    cases hs : step P t c with
    | none => rw [hs] at hr; cases hr
    | some t2 =>
      simp only [hs] at hr hf ⊢
      have hf2 : fitsRun P t2 (calls ++ rest) = true := hf.2
      obtain ⟨h1, h2⟩ := ih t2 t1 rest hr hf2
      exact ⟨⟨hf.1, h1⟩, h2⟩

/-- The nodes of a tree for pages of 88 bytes or more: an inner node has at
least two children and one slot to spare, a leaf is within capacity, and the
split of an inner node that is not safe gives two safe nodes with at least two
children each. -/
theorem nodes_of_tree (P : Nat) (t : BTree) (m : Nat → Option Nat) (h : TreeInv P t m)
    (hcap5 : 5 ≤ InnerNode.kCapacity P) (hcap : InnerNode.kCapacity P < 2 ^ 16) :
    ∀ q, inTree t q →
      ((t.pages q).level ≠ 0 →
        2 ≤ (t.pages q).count ∧ (t.pages q).count ≤ InnerNode.kCapacity P - 1 ∧
        ∀ other : Node, other.level = (t.pages q).level →
          (t.pages q).count ≥ InnerNode.kCapacity P - 1 →
          ∃ n1 o1 sep, InnerNode.split P (t.pages q) other = some (n1, o1, sep) ∧
            2 ≤ n1.count ∧ n1.count < InnerNode.kCapacity P - 1 ∧
            2 ≤ o1.count ∧ o1.count < InnerNode.kCapacity P - 1) ∧
      ((t.pages q).level = 0 → (t.pages q).count ≤ LeafNode.kCapacity P) := by
  intro q hq
  unfold inTree at hq
  cases hroot : t.root with
  | none => rw [hroot] at hq; exact absurd hq id
  | some r =>
    rw [hroot] at hq
    simp only at hq
    have hw := h.tree r hroot
    obtain ⟨lq, qlo, qup, hwq⟩ := wf_sub P t.pages m _ r 0 (2 ^ 64) q hw hq
    have hlev := wf_level P t.pages m lq q qlo qup hwq
    constructor
    · intro hl
      cases lq with
      | zero => exact absurd hlev hl
      | succ lq =>
        obtain ⟨h1, _⟩ := id hwq
        have c1 := h1.count_lo
        have c2 := h1.count_hi
        refine ⟨c1, by omega, ?_⟩
        intro other ho hfull
        obtain ⟨n1, o1, sep, e, _, _, _, _, _, _, k1, k2, s1, s2, _⟩ :=
          inner_split_spec P (t.pages q) other (lq + 1) qlo qup h1 (by omega) hcap5 hcap
            (by rw [ho, hlev])
        exact ⟨n1, o1, sep, e, k1.count_lo, by omega, k2.count_lo, by omega⟩
    · intro hl
      rw [hl] at hlev
      subst hlev
      have hw1 : LeafOK P (t.pages q) qlo qup m := hwq
      exact hw1.count

/-- C36, as the code has it. For pages of 88 bytes or more (inner capacity
`N >= 5`), a tree `t` reached from the empty tree by inserts and erases and one
more `insert(key, value)` (keys are `uint64_t` values; fewer than `2 ^ 16 - 1`
calls, or no counter overflows on the way): the insert returns, so none of its
assertions fails, among them that both nodes of every inner split are safe,
that `InnerNode::insert` is called on a node with `2 <= count <= N - 1` and
that the leaf that receives the entry is not full. In the tree before and in
the tree after the insert, every inner node has at least two and at most
`N - 1` children and every leaf at most `LeafNode::kCapacity` entries, and the
split of an inner node that is not safe gives two safe nodes with at least two
children each. -/
theorem insert_keeps_nodes_safe (P seg : Nat) (calls : List Call) (key value : Nat)
    (hP1 : 88 ≤ P) (hP2 : P < 2 ^ 20)
    (hkeys : keysFit (calls ++ [Call.insert key value]) = true)
    (hfit : calls.length + 2 < 2 ^ 16 ∨
      fitsRun P (init seg) (calls ++ [Call.insert key value]) = true) :
    ∃ t t1, run P (init seg) calls = some t ∧ insert P t key value = some t1 ∧
      ∀ s, s = t ∨ s = t1 → ∀ q, inTree s q →
        ((s.pages q).level ≠ 0 →
          2 ≤ (s.pages q).count ∧ (s.pages q).count ≤ InnerNode.kCapacity P - 1 ∧
          ∀ other : Node, other.level = (s.pages q).level →
            (s.pages q).count ≥ InnerNode.kCapacity P - 1 →
            ∃ n1 o1 sep, InnerNode.split P (s.pages q) other = some (n1, o1, sep) ∧
              2 ≤ n1.count ∧ n1.count < InnerNode.kCapacity P - 1 ∧
              2 ≤ o1.count ∧ o1.count < InnerNode.kCapacity P - 1) ∧
        ((s.pages q).level = 0 → (s.pages q).count ≤ LeafNode.kCapacity P) := by
  obtain ⟨c1, c2, c3, c4⟩ := caps_of_page_size P hP1 hP2
  have hfit1 : (calls ++ [Call.insert key value]).length + 1 < 2 ^ 16 ∨
      fitsRun P (init seg) (calls ++ [Call.insert key value]) = true := by
    rcases hfit with hs | hf
    · left
      rw [List.length_append]
      simp only [List.length_singleton]
      omega
    · exact Or.inr hf
  obtain ⟨t1, r1, inv1⟩ := reach_treeinv P seg _ hP1 hP2 hkeys hfit1
  rw [run_append] at r1
  cases hr : run P (init seg) calls with
  | none => rw [hr] at r1; cases r1
  | some t =>
    rw [hr] at r1
    have hstep : insert P t key value = some t1 := by
      simp only [Option.some_bind, run, step] at r1
      cases hi : insert P t key value with
      | none => rw [hi] at r1; cases r1
      | some t2 =>
        rw [hi] at r1
        simp only [Option.some.injEq] at r1
        rw [r1]
    have hk : keysFit calls = true := by
      rw [keysFit_append, Bool.and_eq_true] at hkeys
      exact hkeys.1
    have hf0 : calls.length + 1 < 2 ^ 16 ∨ fitsRun P (init seg) calls = true := by
      rcases hfit with hs | hf
      · left; omega
      · right
        exact (fitsRun_append P calls (init seg) t _ hr hf).1
    obtain ⟨t0, r0, inv0⟩ := reach_treeinv P seg calls hP1 hP2 hk hf0
    rw [hr] at r0
    simp only [Option.some.injEq] at r0
    subst r0
    refine ⟨t, t1, rfl, hstep, ?_⟩
    intro s hs
    rcases hs with hs | hs
    · rw [hs]
      exact nodes_of_tree P t _ inv0 c3 c4
    · rw [hs]
      exact nodes_of_tree P t1 _ inv1 c3 c4

/-- C36 on pages of 88 bytes: the five inserts of `splitCalls` and a sixth one. -/
theorem insert_keeps_nodes_safe_witness :
    ∃ t t1, run 88 (init 0) splitCalls = some t ∧ insert 88 t 6 60 = some t1 ∧
      ∀ s, s = t ∨ s = t1 → ∀ q, inTree s q →
        ((s.pages q).level ≠ 0 →
          2 ≤ (s.pages q).count ∧ (s.pages q).count ≤ InnerNode.kCapacity 88 - 1 ∧
          ∀ other : Node, other.level = (s.pages q).level →
            (s.pages q).count ≥ InnerNode.kCapacity 88 - 1 →
            ∃ n1 o1 sep, InnerNode.split 88 (s.pages q) other = some (n1, o1, sep) ∧
              2 ≤ n1.count ∧ n1.count < InnerNode.kCapacity 88 - 1 ∧
              2 ≤ o1.count ∧ o1.count < InnerNode.kCapacity 88 - 1) ∧
        ((s.pages q).level = 0 → (s.pages q).count ≤ LeafNode.kCapacity 88) :=
  insert_keeps_nodes_safe 88 0 splitCalls 6 60 (by decide) (by decide) (by decide)
    (Or.inl (by decide))

/-- C36 fails for the inner capacity 4 (pages of 72 bytes). After six
ascending inserts the root is an inner node with three children, which is not
safe. Its split gives a node with two children and a node with one child; both
pass the check `count < kCapacity - 1`. The insert of key 7 splits the root,
goes on with the node that has one child, and fails the assertion
`count >= 2` of `InnerNode::lookup`. -/
theorem split_leaves_one_child_at_capacity_four :
    InnerNode.kCapacity 72 = 4 ∧
    run 72 (init 0) ascendingCalls = some ascendingTree ∧
    ascendingTree.root = some 2 ∧
    (ascendingTree.pages 2).level = 1 ∧ (ascendingTree.pages 2).count = 3 ∧
    (InnerNode.split 72 (ascendingTree.pages 2) { zeroNode with level := 1 }).map
      (fun r => (r.1.count, r.2.1.count, r.2.2)) = some (2, 1, 4) ∧
    (splitRoot 72 ascendingTree 7 2).map (fun r => (r.2, (r.1.pages r.2).count)) =
      some (4, 1) ∧
    (insert 72 ascendingTree 7 70).isNone = true := by
  refine ⟨rfl, rfl, ?_, ?_, ?_, ?_, ?_, ?_⟩ <;> decide

end BTree

/-! ## B+ tree: the calls on the buffer manager -/

namespace BTree

theorem descendCalls_state (P key : Nat) (tt : TraversalType) :
    ∀ (fuel : Nat) (t : BTree) (parent_id child_page_id : Nat) (d m : Bool),
      (descendCalls P key tt fuel t parent_id child_page_id d m).map
        (fun r => (r.1, r.2.1, r.2.2.1)) = descend P key tt fuel t parent_id child_page_id := by
  intro fuel
  induction fuel with
  | zero =>
    intro t parent_id child_page_id d m
    unfold descendCalls descend
    split <;> rfl
  | succ fuel ih =>
    intro t parent_id child_page_id d m
    unfold descendCalls descend
    split
    · split <;> rfl
    · simp only
      cases (if tt = TraversalType.Insert then splitChild P t key parent_id child_page_id
          else some (t, child_page_id)) with
      | none => rfl
      | some r =>
        obtain ⟨t1, chosen⟩ := r
        simp only
        cases InnerNode.lookup P (t1.pages chosen) key with
        | none => rfl
        | some next_child =>
          simp only
          split
          · rw [← ih t1 chosen next_child]
            cases descendCalls P key tt fuel t1 chosen next_child _ _ with
            | none => rfl
            | some r2 => rfl
          · rfl

theorem getLeafPageCalls_state (P : Nat) (t : BTree) (key : Nat) (tt : TraversalType) :
    (getLeafPageCalls P t key tt).map (fun r => (r.1, r.2.1, r.2.2.1)) =
      get_leaf_page P t key tt := by
  unfold getLeafPageCalls get_leaf_page
  cases t.root with
  | none => rfl
  | some root =>
    simp only
    split
    · rfl
    · cases (if tt = TraversalType.Insert then splitRoot P t key root else some (t, root)) with
      | none => rfl
      | some r =>
        obtain ⟨t1, parent_id⟩ := r
        simp only
        cases InnerNode.lookup P (t1.pages parent_id) key with
        | none => rfl
        | some child_page_id =>
          simp only
          split
          · rw [← descendCalls_state P key tt _ t1 parent_id child_page_id]
            cases descendCalls P key tt _ t1 parent_id child_page_id _ _ with
            | none => rfl
            | some r2 => rfl
          · rfl

end BTree

namespace BTree

theorem lookupCalls_value (P : Nat) (t : BTree) (key : Nat) :
    (lookupCalls P t key).map (fun r => r.1) = lookup P t key := by
  unfold lookupCalls lookup
  cases t.root with
  | none => rfl
  | some root =>
    simp only
    rw [← getLeafPageCalls_state]
    cases getLeafPageCalls P t key TraversalType.Lookup with
    | none => rfl
    | some r =>
      obtain ⟨t1, parent_page, leaf_page, calls⟩ := r
      simp only [Option.map_some']
      split <;> rfl

theorem eraseCalls_state (P : Nat) (t : BTree) (key : Nat) :
    (eraseCalls P t key).map (fun r => r.1) = erase P t key := by
  unfold eraseCalls erase
  cases t.root with
  | none => rfl
  | some root =>
    simp only
    rw [← getLeafPageCalls_state]
    cases getLeafPageCalls P t key TraversalType.Erase with
    | none => rfl
    | some r =>
      obtain ⟨t1, parent_page, leaf_page, calls⟩ := r
      simp only [Option.map_some']
      split
      · cases LeafNode.erase (t1.pages leaf_page) key <;> rfl
      · rfl

theorem insertCalls_state (P : Nat) (t : BTree) (key value : Nat) :
    (insertCalls P t key value).map (fun r => r.1) = insert P t key value := by
  unfold insertCalls
  cases hroot : t.root with
  | none =>
    simp only
    cases insert P t key value <;> rfl
  | some root =>
    simp only
    unfold insert
    rw [hroot]
    simp only
    rw [← getLeafPageCalls_state]
    cases getLeafPageCalls P t key TraversalType.Insert with
    | none => rfl
    | some r =>
      obtain ⟨t1, parent_page, leaf_page, calls⟩ := r
      simp only [Option.map_some']
      cases insertAtLeaf P t1 key value parent_page leaf_page <;> rfl

/-- On a tree whose root is a leaf, `lookup` fixes the root once and unfixes it twice. -/
theorem lookupCalls_leaf_root (P : Nat) (t : BTree) (key root : Nat) (hroot : t.root = some root)
    (hleaf : (t.pages root).is_leaf = true) :
    lookupCalls P t key = some (LeafNode.lookup (t.pages root) key,
      [PageCall.fix root false, PageCall.unfix root false, PageCall.unfix root false]) := by
  unfold lookupCalls getLeafPageCalls
  rw [hroot]
  simp only [hleaf, ↓reduceIte]
  rfl

/-- C37, failing inputs, with pages of 88 bytes. On the tree that holds key 1
in its root leaf (page 0), `lookup(1)` fixes page 0 once and unfixes it twice,
and `erase(1)` fixes it twice and unfixes it three times: `get_leaf_page`
returns the one frame as parent and as leaf, and the caller unfixes both. On
the tree of `splitCalls` (root page 2 with the leaves 0 and 1), `lookup(1)` and
`insert(6, 60)` fix the root once and unfix it twice: `get_leaf_page` unfixes
the parent before it returns, and the caller unfixes it again. In each case the
second `unfix_page` meets a frame without users. An `insert` into a root leaf
is balanced. -/
theorem parent_page_is_unfixed_twice :
    run 88 (init 0) [Call.insert 1 10] = some leafTree ∧ leafTree.root = some 0 ∧
    lookupCalls 88 leafTree 1 = some (some 10,
      [PageCall.fix 0 false, PageCall.unfix 0 false, PageCall.unfix 0 false]) ∧
    (eraseCalls 88 leafTree 1).map (fun r => r.2) = some
      [PageCall.fix 0 false, PageCall.unfix 0 false, PageCall.fix 0 true,
        PageCall.unfix 0 false, PageCall.unfix 0 true] ∧
    (insertCalls 88 leafTree 2 20).map (fun r => r.2) = some
      [PageCall.fix 0 true, PageCall.unfix 0 true] ∧
    run 88 (init 0) splitCalls = some splitTree ∧ splitTree.root = some 2 ∧
    lookupCalls 88 splitTree 1 = some (some 10,
      [PageCall.fix 2 false, PageCall.fix 0 false, PageCall.unfix 2 false,
        PageCall.unfix 2 false, PageCall.unfix 0 false]) ∧
    (insertCalls 88 splitTree 6 60).map (fun r => r.2) = some
      [PageCall.fix 2 true, PageCall.fix 1 true, PageCall.unfix 2 false,
        PageCall.unfix 2 true, PageCall.unfix 1 true] ∧
    (lookupCalls 88 splitTree 1).map (fun r => (fixes r.2 2, unfixes r.2 2, usersAfter 2 r.2 0)) =
      some (1, 2, none) ∧
    (lookupCalls 88 leafTree 1).map (fun r => (fixes r.2 0, unfixes r.2 0, usersAfter 0 r.2 0)) =
      some (1, 2, none) := by
  refine ⟨rfl, ?_, ?_, ?_, ?_, rfl, ?_, ?_, ?_, ?_, ?_⟩ <;> decide

end BTree

/-! ## Iterator-model operators: projection and hash join -/

namespace iterator_model

/-- C34, failing input: the tuples (1, 10, 100), (2, 20, 200), (3, 30, 300) are
projected to the positions [2, 0]. The specification gives (100, 1), (200, 2),
(300, 3); `get_output` pushes `src_regs[i]` for `i = 0, 1`, so the consumer
gets (1, 10), (2, 20), (3, 30). -/
theorem projection_ignores_index_values :
    threeColumns.map (Projection.project [2, 0]) =
      [some [Register.int 100, Register.int 1], some [Register.int 200, Register.int 2],
        some [Register.int 300, Register.int 3]] ∧
    Projection.run threeColumns 3 [2, 0] =
      some [[Register.int 1, Register.int 10], [Register.int 2, Register.int 20],
        [Register.int 3, Register.int 30]] ∧
    Projection.run threeColumns 3 [2, 0] = Projection.run threeColumns 3 [0, 1] := by
  refine ⟨?_, ?_, ?_⟩ <;> decide
end iterator_model

namespace iterator_model

theorem isFind_firstFinder : IsFind firstFinder := by
  intro ht key
  constructor
  · intro t h
    unfold firstFinder at h
    cases hf : ht.find? (fun e => decide (e.1 = key)) with
    | none => rw [hf] at h; cases h
    | some e =>
      rw [hf] at h
      have h1 := List.find?_some hf
      have h2 := List.mem_of_find?_eq_some hf
      simp only [Option.map_some', Option.some.injEq] at h
      have h3 : e.1 = key := by simpa using h1
      have h4 : e = (key, t) := by
        cases e
        simp only at h h3
        rw [h, h3]
      rw [← h4]
      exact h2
  · intro h e he hk
    unfold firstFinder at h
    cases hf : ht.find? (fun e => decide (e.1 = key)) with
    | none =>
      have := List.find?_eq_none.1 hf e he
      simp [hk] at this
    | some e1 => rw [hf] at h; cases h

/-- The hash join of `sharedKeyLeft` and `sharedKeyRight` for a search that
gives `second` for the key 7. -/
theorem hashJoin_run_shared (find : Finder) (second : Tuple)
    (h : find [(Register.int 7, [Register.int 7, Register.int 10]),
      (Register.int 7, [Register.int 7, Register.int 11])] (Register.int 7) = some second) :
    HashJoin.run find sharedKeyLeft sharedKeyRight 2 2 0 0 =
      some [second ++ [Register.int 7, Register.int 20]] := by
  simp [HashJoin.run, HashJoin.drain, HashJoin.next, HashJoin.build, HashJoin.probe,
    HashJoin.opened, TupleSource.opened, TupleSource.next, TupleSource.get_output,
    sharedKeyLeft, sharedKeyRight, h]

/-- C33, failing input: two left tuples (7, 10) and (7, 11) share the join key
of the right tuple (7, 20). The specification gives the two tuples
(7, 10, 7, 20) and (7, 11, 7, 20). Whatever entry `ht.find` gives for a key
with several entries, the join produces one tuple only, since `next()` asks
`find` once for every right tuple. -/
theorem hash_join_one_tuple_per_probe (find : Finder) (hfind : IsFind find) :
    HashJoin.matchingPairs sharedKeyLeft sharedKeyRight 0 0 =
      [[Register.int 7, Register.int 10, Register.int 7, Register.int 20],
        [Register.int 7, Register.int 11, Register.int 7, Register.int 20]] ∧
    (HashJoin.run find sharedKeyLeft sharedKeyRight 2 2 0 0 =
        some [[Register.int 7, Register.int 10, Register.int 7, Register.int 20]] ∨
      HashJoin.run find sharedKeyLeft sharedKeyRight 2 2 0 0 =
        some [[Register.int 7, Register.int 11, Register.int 7, Register.int 20]]) := by
  refine ⟨by decide, ?_⟩
  cases h : find [(Register.int 7, [Register.int 7, Register.int 10]),
      (Register.int 7, [Register.int 7, Register.int 11])] (Register.int 7) with
  | none =>
    have h1 := (hfind _ _).2 h (Register.int 7, [Register.int 7, Register.int 10])
      (List.mem_cons_self _ _)
    exact absurd rfl h1
  | some second =>
    have h1 := (hfind _ _).1 second h
    rw [hashJoin_run_shared find second h]
    simp only [List.mem_cons, Prod.mk.injEq, true_and, List.mem_singleton, List.not_mem_nil,
      or_false] at h1
    rcases h1 with h1 | h1
    · left; rw [h1]; rfl
    · right; rw [h1]; rfl

/-- C33 for the search that gives the entry inserted first. -/
theorem hash_join_one_tuple_per_probe_witness :
    HashJoin.run firstFinder sharedKeyLeft sharedKeyRight 2 2 0 0 =
      some [[Register.int 7, Register.int 10, Register.int 7, Register.int 20]] ∧
    (HashJoin.run firstFinder sharedKeyLeft sharedKeyRight 2 2 0 0 =
        some [[Register.int 7, Register.int 10, Register.int 7, Register.int 20]] ∨
      HashJoin.run firstFinder sharedKeyLeft sharedKeyRight 2 2 0 0 =
        some [[Register.int 7, Register.int 11, Register.int 7, Register.int 20]]) :=
  ⟨by decide, (hash_join_one_tuple_per_probe firstFinder isFind_firstFinder).2⟩
end iterator_model

namespace ExternalSort

theorem is_sorted_iff (l : List Nat) : is_sorted l = true ↔ l.Sorted (fun a b => a ≤ b) := by
  induction l with
  | nil => simp [is_sorted]
  | cons a t ih =>
    cases t with
    | nil => simp [is_sorted]
    | cons b rest =>
      simp only [is_sorted, Bool.and_eq_true, decide_eq_true_eq, ih, List.sorted_cons]
      constructor
      · rintro ⟨hab, hb, hs⟩
        refine ⟨?_, hb, hs⟩
        intro x hx
        rcases List.mem_cons.1 hx with rfl | hx
        · exact hab
        · exact le_trans hab (hb x hx)
      · rintro ⟨ha, hb, hs⟩
        exact ⟨ha b (List.mem_cons_self _ _), hb, hs⟩

theorem sort_sorted (l : List Nat) : (sort l).Sorted (fun a b => a ≤ b) :=
  List.sorted_insertionSort _ l

theorem sort_perm (l : List Nat) : (sort l).Perm l :=
  List.perm_insertionSort _ l

theorem sort_length (l : List Nat) : (sort l).length = l.length :=
  (sort_perm l).length_eq

theorem read_block_eq (file : List Nat) (a n : Nat) :
    read_block file (8 * a) (8 * n) = slice file a n := by
  simp [read_block, slice, VALUE_SIZE]

theorem slice_length {file : List Nat} {a n : Nat} (h : a + n ≤ file.length) :
    (slice file a n).length = n := by
  simp only [slice, List.length_take, List.length_drop]
  omega

theorem slice_length_le (file : List Nat) (a n : Nat) : (slice file a n).length ≤ n := by
  simp only [slice, List.length_take, List.length_drop]
  omega

theorem slice_take (file : List Nat) (a n m : Nat) :
    (slice file a n).take m = slice file a (min m n) := by
  simp only [slice, List.take_take]

theorem slice_drop (file : List Nat) (a n m : Nat) :
    (slice file a n).drop m = slice file (a + m) (n - m) := by
  simp only [slice, List.drop_take, List.drop_drop]

theorem slice_slice (file : List Nat) (a n b m : Nat) (h : b + m ≤ n) :
    slice (slice file a n) b m = slice file (a + b) m := by
  unfold slice
  rw [List.drop_take, List.drop_drop, List.take_take]
  congr 1
  omega

theorem slice_sorted {file : List Nat} {a n b m : Nat}
    (hs : (slice file a n).Sorted (fun x y => x ≤ y)) (h1 : a ≤ b) (h2 : b + m ≤ a + n) :
    (slice file b m).Sorted (fun x y => x ≤ y) := by
  have e : slice file b m = slice (slice file a n) (b - a) m := by
    rw [slice_slice file a n (b - a) m (by omega)]
    congr 1
    omega
  rw [e]
  unfold slice
  exact (hs.sublist (List.drop_sublist _ _)).sublist (List.take_sublist _ _)

theorem slice_split (file : List Nat) (a n : Nat) :
    file = file.take a ++ slice file a n ++ file.drop (a + n) := by
  unfold slice
  rw [List.append_assoc, ← List.drop_drop, List.take_append_drop, List.take_append_drop]

theorem slice_append (file : List Nat) (a n m : Nat) :
    slice file a (n + m) = slice file a n ++ slice file (a + n) m := by
  unfold slice
  rw [List.take_add, List.drop_drop]

theorem write_block_eq (file block : List Nat) (a n : Nat) :
    write_block file block (8 * a) (8 * n) =
      file.take a ++ block.take n ++ file.drop (a + n) := by
  simp [write_block, VALUE_SIZE]

theorem write_block_length {file block : List Nat} {a n : Nat} (h : a + n ≤ file.length)
    (hb : n ≤ block.length) : (write_block file block (8 * a) (8 * n)).length = file.length := by
  rw [write_block_eq]
  simp only [List.length_append, List.length_take, List.length_drop]
  omega

theorem load_length {buffer block : List Nat} (h : block.length ≤ buffer.length) :
    (load buffer block).length = buffer.length := by
  simp only [load, List.length_append, List.length_drop]
  omega

theorem load_take (buffer block : List Nat) (n : Nat) (h : n ≤ block.length) :
    (load buffer block).take n = block.take n := by
  simp only [load]
  rw [List.take_append_of_le_length h]

end ExternalSort

namespace ExternalSort

theorem set_take_succ (l : List Nat) (i v : Nat) (h : i < l.length) :
    (l.set i v).take (i + 1) = l.take i ++ [v] := by
  induction l generalizing i with
  | nil => simp at h
  | cons a t ih =>
    cases i with
    | zero => simp
    | succ j =>
      simp only [List.length_cons, Nat.add_lt_add_iff_right] at h
      simp [ih j h]

theorem Output.holds_length {o : Output} {E : List Nat} {B total : Nat}
    (h : o.Holds E B total) : E.length = o.num_full_writes * B + o.current_num_values := by
  have hb := h.buffer
  have hc := h.current
  have hf := h.file
  have hfull := h.full
  rw [← h.values]
  simp only [List.length_append, List.length_take]
  omega

theorem Output.holds_first (file : List Nat) {B : Nat} (hB : 0 < B) :
    Output.Holds (Output.mk file (List.replicate B 0) 0 0) [] B file.length :=
  ⟨by simp, hB, rfl, by simp, by simp⟩

theorem Output.push_holds {o : Output} {E : List Nat} {B total v : Nat}
    (h : o.Holds E B total) (hs : (E ++ [v]).Sorted (fun a b => a ≤ b))
    (hlt : E.length < total) :
    ∃ o1, o.push v B (B * VALUE_SIZE) = some o1 ∧ o1.Holds (E ++ [v]) B total := by
  have hlen := Output.holds_length h
  have hb := h.buffer
  have hc := h.current
  have hf := h.file
  have hfull := h.full
  have hv := h.values
  have hcb : o.current_num_values < o.buffer.length := by omega
  have hset : (o.buffer.set o.current_num_values v).take (o.current_num_values + 1) =
      o.buffer.take o.current_num_values ++ [v] := set_take_succ _ _ _ hcb
  have hEv : E ++ [v] = o.file.take (o.num_full_writes * B) ++
      (o.buffer.set o.current_num_values v).take (o.current_num_values + 1) := by
    rw [hset, ← List.append_assoc, hv]
  unfold Output.push
  rw [if_pos hcb]
  by_cases hfl : o.current_num_values + 1 = B
  · simp only [hfl, ↓reduceIte]
    have hsorted : is_sorted ((o.buffer.set o.current_num_values v).take B) = true := by
      rw [is_sorted_iff, ← hfl]
      have : (o.file.take (o.num_full_writes * B) ++
          (o.buffer.set o.current_num_values v).take (o.current_num_values + 1)).Sorted
          (fun a b => a ≤ b) := by
        rw [← hEv]
        exact hs
      exact this.sublist (List.sublist_append_right _ _)
    rw [if_pos hsorted]
    refine ⟨_, rfl, ?_⟩
    have e8 : o.num_full_writes * (B * VALUE_SIZE) = 8 * (o.num_full_writes * B) := by
      simp only [VALUE_SIZE]
      ring
    have e9 : B * VALUE_SIZE = 8 * B := by
      simp only [VALUE_SIZE]
      ring
    have hmul : (o.num_full_writes + 1) * B = o.num_full_writes * B + B := by ring
    have hEl : (E ++ [v]).length = E.length + 1 := by simp
    have hwl : ((o.buffer.set o.current_num_values v).take B).length = B := by
      simp only [List.length_take, List.length_set]
      omega
    have htl : (o.file.take (o.num_full_writes * B)).length = o.num_full_writes * B := by
      simp only [List.length_take]
      omega
    refine ⟨by simp only [List.length_set]; exact hb, (by show 0 < B; omega), ?_, ?_, ?_⟩
    · show (write_block o.file _ (o.num_full_writes * (B * VALUE_SIZE)) (B * VALUE_SIZE)).length
        = total
      rw [e8, e9, write_block_length (by omega) (by simp only [List.length_set]; omega)]
      exact hf
    · show (o.num_full_writes + 1) * B ≤ total
      omega
    · show (write_block o.file _ (o.num_full_writes * (B * VALUE_SIZE))
        (B * VALUE_SIZE)).take ((o.num_full_writes + 1) * B) ++
        (o.buffer.set o.current_num_values v).take 0 = E ++ [v]
      rw [e8, e9, write_block_eq, List.take_zero, List.append_nil, hEv, hfl]
      rw [List.take_append_of_le_length (by
        simp only [List.length_append]
        omega)]
      rw [List.take_of_length_le (by
        simp only [List.length_append]
        omega)]
  · simp only [hfl, ↓reduceIte]
    refine ⟨_, rfl, ?_⟩
    refine ⟨by simp only [List.length_set]; exact hb, ?_, hf, hfull, ?_⟩
    · show o.current_num_values + 1 < B
      omega
    · exact hEv.symm

theorem Output.finish_holds {o : Output} {E : List Nat} {B total size : Nat}
    (h : o.Holds E B total) (hs : E.Sorted (fun a b => a ≤ b)) (hlen : E.length = total)
    (hsize : size = total * VALUE_SIZE) :
    o.finish size (B * VALUE_SIZE) = some E := by
  have hl := Output.holds_length h
  have hb := h.buffer
  have hc := h.current
  have hf := h.file
  have hfull := h.full
  have hv := h.values
  have hB : 0 < B := by omega
  have hdiv : size / (B * VALUE_SIZE) = total / B := by
    rw [hsize]
    exact Nat.mul_div_mul_right _ _ (by decide)
  have hq : total / B = o.num_full_writes := by
    rw [← hlen, hl, Nat.mul_comm, Nat.mul_add_div hB, Nat.div_eq_of_lt hc]
    rfl
  have hrest : size - B * VALUE_SIZE * o.num_full_writes = 8 * o.current_num_values := by
    rw [hsize, ← hlen, hl]
    simp only [VALUE_SIZE]
    have : B * 8 * o.num_full_writes = o.num_full_writes * B * 8 := by ring
    omega
  unfold Output.finish
  simp only [hdiv, hq, hrest]
  by_cases hz : o.current_num_values = 0
  · have hnot : ¬ size > B * VALUE_SIZE * o.num_full_writes := by
      have : size - B * VALUE_SIZE * o.num_full_writes = 0 := by
        rw [hrest, hz]
      omega
    rw [if_neg hnot]
    rw [hz, List.take_zero, List.append_nil] at hv
    rw [← hv, List.take_of_length_le]
    omega
  · have hgt : size > B * VALUE_SIZE * o.num_full_writes := by omega
    rw [if_pos hgt]
    have e1 : 8 * o.current_num_values / VALUE_SIZE = o.current_num_values := by
      simp [VALUE_SIZE]
    have hsorted : is_sorted (o.buffer.take o.current_num_values) = true := by
      rw [is_sorted_iff]
      have : (o.file.take (o.num_full_writes * B) ++
          o.buffer.take o.current_num_values).Sorted (fun a b => a ≤ b) := by
        rw [hv]
        exact hs
      exact this.sublist (List.sublist_append_right _ _)
    rw [e1, if_pos hsorted]
    have e8 : o.num_full_writes * (B * VALUE_SIZE) = 8 * (o.num_full_writes * B) := by
      simp only [VALUE_SIZE]
      ring
    rw [e8, write_block_eq, List.drop_of_length_le (by omega), List.append_nil, hv]

end ExternalSort

namespace ExternalSort

theorem cursor_first {tmp_file : List Nat} {s n B offset size : Nat}
    (hin : s + n ≤ tmp_file.length) (hn : 0 < n) (hB : 0 < B) (ho : offset = 8 * s)
    (hs : size = 8 * B) :
    Cursor tmp_file s n B (Input.first tmp_file offset size B n) (slice tmp_file s n) := by
  have hl : (slice tmp_file s n).length = n := slice_length hin
  have hne : slice tmp_file s n ≠ [] := by
    intro h
    rw [h] at hl
    simp at hl
    omega
  have hbl : (slice tmp_file s B).length ≤ (List.replicate B 0).length := by
    rw [List.length_replicate]
    exact slice_length_le _ _ _
  refine ⟨hin, by omega, ?_, ?_, ?_, ?_, ?_, ?_⟩
  · rw [hl]
    congr 1
    omega
  · show n = _
    exact hl.symm
  · show (load (List.replicate B 0) (read_block tmp_file offset size)).length = B
    rw [ho, hs, read_block_eq, load_length hbl, List.length_replicate]
  · intro _
    exact ⟨le_refl 1, hB⟩
  · intro _
    show ((load (List.replicate B 0) (read_block tmp_file offset size)).drop (1 - 1)).take
      (slice tmp_file s n).length = (slice tmp_file s n).take (B + 1 - 1)
    rw [ho, hs, read_block_eq, hl, Nat.sub_self, List.drop_zero, Nat.add_sub_cancel, slice_take]
    by_cases hnb : n ≤ B
    · have hl2 : n ≤ (slice tmp_file s B).length := by
        simp only [slice, List.length_take, List.length_drop]
        omega
      rw [load_take _ _ _ hl2, slice_take]
      congr 1
      omega
    · have hl2 : (slice tmp_file s B).length = B := slice_length (by omega)
      have e : load (List.replicate B 0) (slice tmp_file s B) = slice tmp_file s B := by
        unfold load
        rw [hl2, List.drop_of_length_le (by simp), List.append_nil]
      rw [e, Nat.min_eq_left (by omega), List.take_of_length_le (by omega)]
  · intro _
    show size = _
    rw [hs, hl]
    have : B - 1 + 1 = B := by omega
    simp only [Input.first]
    omega

theorem cursor_value {tmp_file : List Nat} {s n B v : Nat} {r : Input} {t : List Nat}
    (h : Cursor tmp_file s n B r (v :: t)) :
    r.buffer[r.next_push_index_input_buffer - 1]? = some v := by
  have hp := h.push (by simp)
  have hw := h.window (by simp)
  have e := congrArg (fun l => l[0]?) hw
  simp only [List.length_cons] at e
  rw [List.getElem?_take_of_lt (by omega), List.getElem?_take_of_lt (by omega),
    List.getElem?_drop] at e
  simpa using e

theorem decrement_buffer (r : Input) : r.decrement.buffer = r.buffer := rfl

theorem decrement_push (r : Input) :
    r.decrement.next_push_index_input_buffer = r.next_push_index_input_buffer := rfl

theorem decrement_offset (r : Input) :
    r.decrement.next_read_offset_run = r.next_read_offset_run := rfl

theorem decrement_remaining {r : Input} {len : Nat} (h : r.remaining_num_values_run = len + 1) :
    r.decrement.remaining_num_values_run = len := by
  show decr r.remaining_num_values_run = len
  rw [h]
  simp [decr]

theorem cursor_done {tmp_file : List Nat} {s n B v : Nat} {r : Input}
    (h : Cursor tmp_file s n B r [v]) :
    r.decrement.remaining_num_values_run = 0 ∧ Cursor tmp_file s n B r.decrement [] := by
  have hr : r.remaining_num_values_run = 0 + 1 := h.remaining
  have h0 : r.decrement.remaining_num_values_run = 0 := decrement_remaining hr
  refine ⟨h0, h.inside, by simp, (by unfold slice; exact (List.take_zero _).symm), h0,
    (by rw [decrement_buffer]; exact h.buffer), ?_, ?_, ?_⟩
  · intro hne
    exact absurd rfl hne
  · intro hne
    exact absurd rfl hne
  · intro hlt
    simp at hlt

end ExternalSort

namespace ExternalSort

theorem cursor_advance {tmp_file : List Nat} {s n B v w start size IBS : Nat} {r : Input}
    {t : List Nat} (h : Cursor tmp_file s n B r (v :: w :: t))
    (hs : (w :: t).Sorted (fun a b => a ≤ b))
    (hst : start = 8 * s) (hsz : size = 8 * n) (hI : IBS = 8 * B) :
    r.decrement.remaining_num_values_run ≠ 0 ∧
    ∃ r2 p, r.decrement.advance tmp_file start size IBS B = some (r2, p) ∧
      r2.buffer[p]? = some w ∧ p + 1 = r2.next_push_index_input_buffer ∧
      Cursor tmp_file s n B r2 (w :: t) := by
  have hin := h.inside
  have hle := h.le
  have hsuf := h.suffix
  have hrem := h.remaining
  have hbuf := h.buffer
  have hp := h.push (by simp)
  have hw := h.window (by simp)
  have hoff := h.offset
  simp only [List.length_cons] at hle hsuf hrem hw hoff
  have hsuf2 : w :: t = slice tmp_file (s + n - (t.length + 1)) (t.length + 1) := by
    have e := congrArg (List.drop 1) hsuf
    rw [slice_drop] at e
    simp only [List.drop_succ_cons, List.drop_zero] at e
    rw [e]
    congr 1
    omega
  have hrem1 : r.decrement.remaining_num_values_run = t.length + 1 :=
    decrement_remaining hrem
  refine ⟨by rw [hrem1]; omega, ?_⟩
  unfold Input.advance Input.refill
  simp only [decrement_buffer, decrement_push, decrement_offset]
  by_cases hnp : r.next_push_index_input_buffer = B
  · rw [if_pos hnp]
    have ho : r.next_read_offset_run = 8 * (n - (t.length + 1 + 1) + 1) := by
      have := hoff (by omega)
      rw [this]
      congr 1
      omega
    have hB : 1 ≤ B := by omega
    by_cases hlast : r.next_read_offset_run + IBS ≥ size
    · rw [if_pos hlast]
      have hnot : ¬ size < r.next_read_offset_run := by omega
      rw [if_neg hnot]
      have e1 : size - r.next_read_offset_run = 8 * (t.length + 1) := by omega
      have e2 : r.next_read_offset_run + start = 8 * (s + n - (t.length + 1)) := by omega
      have e3 : 8 * (t.length + 1) / VALUE_SIZE = t.length + 1 := by simp [VALUE_SIZE]
      have hlen : (w :: t).length ≤ r.buffer.length := by
        simp only [List.length_cons]
        omega
      simp only [e1, e2, read_block_eq, ← hsuf2, e3]
      have hsorted : is_sorted ((load r.buffer (w :: t)).take (t.length + 1)) = true := by
        rw [load_take _ _ _ (by simp), is_sorted_iff]
        simpa using hs
      have hcond : 8 * (t.length + 1) % 8 = 0 ∧
          is_sorted ((load r.buffer (w :: t)).take (t.length + 1)) = true :=
        ⟨by omega, hsorted⟩
      rw [if_pos hcond]
      refine ⟨_, _, rfl, ?_, rfl, ?_⟩
      · simp [load]
      · refine ⟨hin, by simp only [List.length_cons]; omega, hsuf2, hrem1, ?_, ?_, ?_, ?_⟩
        · show (load r.buffer (w :: t)).length = B
          rw [load_length hlen]
          exact hbuf
        · intro _
          exact ⟨le_refl _, hB⟩
        · intro _
          show ((load r.buffer (w :: t)).drop (0 + 1 - 1)).take (w :: t).length =
            (w :: t).take (B + 1 - (0 + 1))
          rw [Nat.zero_add, Nat.sub_self, List.drop_zero, load_take _ _ _ (le_refl _),
            List.take_length, List.take_of_length_le]
          simp only [List.length_cons]
          omega
        · intro hlt
          simp only [List.length_cons] at hlt
          exfalso
          have : (0 : Nat) + 1 = 1 := rfl
          simp only [Nat.zero_add] at hlt
          omega
    · rw [if_neg hlast]
      have e2 : r.next_read_offset_run + start = 8 * (s + n - (t.length + 1)) := by omega
      have hBlt : B < t.length + 1 := by omega
      have hblk : slice tmp_file (s + n - (t.length + 1)) B = (w :: t).take B := by
        rw [hsuf2, slice_take, Nat.min_eq_left (by omega)]
      have hbl : ((w :: t).take B).length = B := by
        simp only [List.length_take, List.length_cons]
        omega
      have hload : load r.buffer ((w :: t).take B) = (w :: t).take B := by
        unfold load
        rw [hbl, List.drop_of_length_le (by omega), List.append_nil]
      simp only [e2, hI, read_block_eq, hblk, hload]
      have hsorted : is_sorted (((w :: t).take B).take B) = true := by
        rw [is_sorted_iff]
        exact (hs.sublist (List.take_sublist _ _)).sublist (List.take_sublist _ _)
      rw [if_pos hsorted]
      refine ⟨_, _, rfl, ?_, rfl, ?_⟩
      · show ((w :: t).take B)[0]? = some w
        rw [List.getElem?_take_of_lt (by omega)]
        simp
      · refine ⟨hin, by simp only [List.length_cons]; omega, hsuf2, hrem1, hbl, ?_, ?_, ?_⟩
        · intro _
          exact ⟨le_refl _, hB⟩
        · intro _
          show (((w :: t).take B).drop (0 + 1 - 1)).take (w :: t).length =
            (w :: t).take (B + 1 - (0 + 1))
          rw [Nat.zero_add, Nat.sub_self, List.drop_zero, List.take_take, Nat.add_sub_cancel]
          congr 1
          simp only [List.length_cons]
          omega
        · intro _
          show r.next_read_offset_run + 8 * B = 8 * (n - (w :: t).length + 1 + (B - (0 + 1)))
          simp only [List.length_cons]
          omega
  · rw [if_neg hnp]
    have hlt : r.next_push_index_input_buffer < B := by omega
    refine ⟨_, _, rfl, ?_, rfl, ?_⟩
    · show r.decrement.buffer[r.decrement.next_push_index_input_buffer]? = some w
      rw [decrement_buffer, decrement_push]
      have e := congrArg (fun l => l[1]?) hw
      simp only at e
      rw [List.getElem?_take_of_lt (by omega), List.getElem?_take_of_lt (by omega),
        List.getElem?_drop] at e
      have e5 : r.next_push_index_input_buffer - 1 + 1 = r.next_push_index_input_buffer := by
        omega
      rw [e5] at e
      simpa using e
    · refine ⟨hin, by simp only [List.length_cons]; omega, hsuf2, hrem1, ?_, ?_, ?_, ?_⟩
      · show r.decrement.buffer.length = B
        rw [decrement_buffer]
        exact hbuf
      · intro _
        show 1 ≤ r.decrement.next_push_index_input_buffer + 1 ∧
          r.decrement.next_push_index_input_buffer + 1 ≤ B
        rw [decrement_push]
        omega
      · intro _
        show (r.decrement.buffer.drop (r.decrement.next_push_index_input_buffer + 1 - 1)).take
          (w :: t).length = (w :: t).take (B + 1 - (r.decrement.next_push_index_input_buffer + 1))
        rw [decrement_buffer, decrement_push]
        have e := congrArg (List.drop 1) hw
        rw [List.drop_take, List.drop_drop, List.drop_take] at e
        simp only [List.drop_succ_cons, List.drop_zero] at e
        have e5 : r.next_push_index_input_buffer - 1 + 1 =
            r.next_push_index_input_buffer + 1 - 1 := by omega
        have e6 : B + 1 - r.next_push_index_input_buffer - 1 =
            B + 1 - (r.next_push_index_input_buffer + 1) := by omega
        rw [e5, e6] at e
        exact e
      · intro hlt2
        show r.decrement.next_read_offset_run =
          8 * (n - (w :: t).length + 1 + (B - (r.decrement.next_push_index_input_buffer + 1)))
        rw [decrement_offset, decrement_push]
        rw [decrement_push] at hlt2
        simp only [List.length_cons] at hlt2 ⊢
        have := hoff (by omega)
        omega

end ExternalSort

namespace ExternalSort

theorem flatten_set_perm (rems : List (List Nat)) (i v : Nat) (t : List Nat)
    (h : rems[i]? = some (v :: t)) : rems.flatten.Perm (v :: (rems.set i t).flatten) := by
  induction rems generalizing i with
  | nil => simp at h
  | cons a rest ih =>
    cases i with
    | zero =>
      simp only [List.getElem?_cons_zero, Option.some.injEq] at h
      subst h
      simp
    | succ j =>
      simp only [List.getElem?_cons_succ] at h
      simp only [List.flatten_cons, List.set_cons_succ]
      have p := (ih j h).append_left a
      exact p.trans List.perm_middle

theorem flatten_nil_of_all (rems : List (List Nat)) (h : ∀ r ∈ rems, r = []) :
    rems.flatten = [] := by
  induction rems with
  | nil => rfl
  | cons a rest ih =>
    have ha := h a (List.mem_cons_self _ _)
    subst ha
    simp only [List.flatten_cons, List.nil_append]
    exact ih (fun r hr => h r (List.mem_cons_of_mem _ hr))

theorem MergeInv.step {total E : List Nat} {rems : List (List Nat)} {i v : Nat} {t : List Nat}
    (h : MergeInv total E rems) (hi : rems[i]? = some (v :: t))
    (hmin : ∀ (j : Nat) (w : Nat) (u : List Nat), rems[j]? = some (w :: u) → v ≤ w) :
    MergeInv total (E ++ [v]) (rems.set i t) := by
  have hmem : (v :: t) ∈ rems := List.getElem?_mem hi
  have hvt := h.sortedR _ hmem
  have hvr : ∀ r ∈ rems, ∀ x ∈ r, v ≤ x := by
    intro r hr x hx
    obtain ⟨j, hj⟩ := List.mem_iff_getElem?.1 hr
    cases r with
    | nil => simp at hx
    | cons w u =>
      have h1 := hmin j w u hj
      rcases List.mem_cons.1 hx with rfl | hx
      · exact h1
      · exact le_trans h1 (List.rel_of_sorted_cons (h.sortedR _ hr) x hx)
  refine ⟨?_, ?_, ?_, ?_⟩
  · rw [List.Sorted, List.pairwise_append]
    refine ⟨h.sortedE, List.pairwise_singleton _ _, ?_⟩
    intro e he x hx
    rw [List.mem_singleton] at hx
    subst hx
    exact h.le e he _ hmem x (List.mem_cons_self _ _)
  · intro r hr
    rcases List.mem_or_eq_of_mem_set hr with hr | rfl
    · exact h.sortedR r hr
    · exact hvt.of_cons
  · intro e he r hr x hx
    rcases List.mem_append.1 he with he | he
    · rcases List.mem_or_eq_of_mem_set hr with hr | rfl
      · exact h.le e he r hr x hx
      · exact h.le e he _ hmem x (List.mem_cons_of_mem _ hx)
    · rw [List.mem_singleton] at he
      subst he
      rcases List.mem_or_eq_of_mem_set hr with hr | rfl
      · exact hvr r hr x hx
      · exact List.rel_of_sorted_cons hvt x hx
  · have p := flatten_set_perm rems i v t hi
    have p2 : (E ++ [v] ++ (rems.set i t).flatten).Perm (E ++ rems.flatten) := by
      rw [List.append_assoc]
      exact (p.symm.append_left E)
    exact p2.trans h.perm

theorem MergeInv.done {total E : List Nat} {rems : List (List Nat)}
    (h : MergeInv total E rems) (hr : ∀ r ∈ rems, r = []) :
    E.Sorted (fun a b => a ≤ b) ∧ E.Perm total := by
  have p := h.perm
  rw [flatten_nil_of_all rems hr, List.append_nil] at p
  exact ⟨h.sortedE, p⟩

theorem MergeInv.length {total E : List Nat} {rems : List (List Nat)}
    (h : MergeInv total E rems) : E.length + rems.flatten.length = total.length := by
  have := h.perm.length_eq
  simpa using this

theorem MergeInv.first {total : List Nat} {rems : List (List Nat)}
    (hs : ∀ r ∈ rems, r.Sorted (fun a b => a ≤ b)) (hp : rems.flatten.Perm total) :
    MergeInv total [] rems :=
  ⟨List.sorted_nil, hs, fun e he => by simp at he, by simpa using hp⟩

end ExternalSort

namespace ExternalSort

theorem top_none {pq : List (Nat × Nat)} (h : top pq = none) : pq = [] := by
  cases pq with
  | nil => rfl
  | cons a rest =>
    simp only [top] at h
    split at h
    · cases h
    · split at h <;> cases h

theorem pairLe_total (a b : Nat × Nat) (h : pairLe a b = false) : pairLe b a = true := by
  simp only [pairLe, Bool.or_eq_false_iff, Bool.and_eq_false_iff, decide_eq_false_iff_not,
    Bool.or_eq_true, Bool.and_eq_true, decide_eq_true_eq] at h ⊢
  omega

theorem pairLe_trans (a b c : Nat × Nat) (h1 : pairLe a b = true) (h2 : pairLe b c = true) :
    pairLe a c = true := by
  simp only [pairLe, Bool.or_eq_true, Bool.and_eq_true, decide_eq_true_eq] at h1 h2 ⊢
  omega

theorem pairLe_refl (a : Nat × Nat) : pairLe a a = true := by
  simp [pairLe]

theorem pairLe_fst {a b : Nat × Nat} (h : pairLe a b = true) : a.1 ≤ b.1 := by
  simp only [pairLe, Bool.or_eq_true, Bool.and_eq_true, decide_eq_true_eq] at h
  omega

theorem top_spec : ∀ (pq : List (Nat × Nat)) (t : Nat × Nat), top pq = some t →
    t ∈ pq ∧ ∀ x ∈ pq, pairLe t x = true := by
  intro pq
  induction pq with
  | nil =>
    intro t h
    simp [top] at h
  | cons a rest ih =>
    intro t h
    cases hr : top rest with
    | none =>
      simp only [top, hr, Option.some.injEq] at h
      subst h
      have := top_none hr
      subst this
      simp [pairLe_refl]
    | some b =>
      simp only [top, hr] at h
      obtain ⟨hb, hmin⟩ := ih b hr
      by_cases hab : pairLe a b = true
      · rw [if_pos hab] at h
        simp only [Option.some.injEq] at h
        subst h
        refine ⟨List.mem_cons_self _ _, ?_⟩
        intro x hx
        rcases List.mem_cons.1 hx with rfl | hx
        · exact pairLe_refl _
        · exact pairLe_trans _ _ _ hab (hmin x hx)
      · rw [if_neg hab] at h
        simp only [Option.some.injEq] at h
        subst h
        refine ⟨List.mem_cons_of_mem _ hb, ?_⟩
        intro x hx
        rcases List.mem_cons.1 hx with rfl | hx
        · exact pairLe_total _ _ (by simpa using hab)
        · exact hmin x hx

theorem Cursors.set {tmp_file : List Nat} {start size : Nat → Nat} {B k i : Nat}
    {inputs : List Input} {rems : List (List Nat)} {inp : Input} {rem : List Nat}
    (h : Cursors tmp_file start size B k inputs rems)
    (hc : Cursor tmp_file (start i) (size i) B inp rem) :
    Cursors tmp_file start size B k (inputs.set i inp) (rems.set i rem) := by
  refine ⟨by rw [List.length_set]; exact h.inputsLength, by rw [List.length_set]; exact h.remsLength, ?_⟩
  intro j inp1 rem1 h1 h2
  by_cases hij : i = j
  · subst hij
    rw [List.getElem?_set] at h1 h2
    simp only [↓reduceIte] at h1 h2
    split at h1
    · split at h2
      · simp only [Option.some.injEq] at h1 h2
        subst h1
        subst h2
        exact hc
      · cases h2
    · cases h1
  · rw [List.getElem?_set_ne hij] at h1 h2
    exact h.cursor j inp1 rem1 h1 h2

theorem Cursors.get {tmp_file : List Nat} {start size : Nat → Nat} {B k i : Nat}
    {inputs : List Input} {rems : List (List Nat)} {rem : List Nat}
    (h : Cursors tmp_file start size B k inputs rems) (hr : rems[i]? = some rem) :
    i < k ∧ ∃ inp, inputs[i]? = some inp ∧ Cursor tmp_file (start i) (size i) B inp rem := by
  have hi : i < rems.length := by
    by_contra hn
    rw [List.getElem?_eq_none (by omega)] at hr
    cases hr
  have hk : i < k := by
    rw [← h.remsLength]
    exact hi
  have hi2 : i < inputs.length := by
    rw [h.inputsLength]
    exact hk
  refine ⟨hk, inputs[i], List.getElem?_eq_getElem hi2, ?_⟩
  exact h.cursor i _ _ (List.getElem?_eq_getElem hi2) hr

end ExternalSort

namespace ExternalSort

theorem queue_erase {pq : List (Nat × Nat)} {rems : List (List Nat)} {v i : Nat}
    {tl : List Nat} (hn : pq.Nodup)
    (hq : ∀ (v i : Nat), (v, i) ∈ pq ↔ ∃ t, rems[i]? = some (v :: t))
    (hi : rems[i]? = some (v :: tl)) (x j : Nat) :
    (x, j) ∈ pq.erase (v, i) ↔ (j ≠ i ∧ ∃ t, rems[j]? = some (x :: t)) := by
  rw [hn.mem_erase_iff, hq x j]
  constructor
  · rintro ⟨hne, t, ht⟩
    refine ⟨?_, t, ht⟩
    intro hji
    subst hji
    rw [hi] at ht
    simp only [Option.some.injEq, List.cons.injEq] at ht
    exact hne (by rw [ht.1])
  · rintro ⟨hne, t, ht⟩
    refine ⟨?_, t, ht⟩
    intro he
    simp only [Prod.mk.injEq] at he
    exact hne he.2

theorem queue_set {rems : List (List Nat)} {i : Nat} {old new : List Nat}
    (hi : rems[i]? = some old) (x j : Nat) :
    (∃ t, (rems.set i new)[j]? = some (x :: t)) ↔
      ((j ≠ i ∧ ∃ t, rems[j]? = some (x :: t)) ∨ (j = i ∧ ∃ t, new = x :: t)) := by
  have hlt : i < rems.length := by
    by_contra hn
    rw [List.getElem?_eq_none (by omega)] at hi
    cases hi
  by_cases hji : j = i
  · subst hji
    rw [List.getElem?_set_self hlt]
    simp
  · rw [List.getElem?_set_ne (fun h => hji h.symm)]
    simp [hji]

theorem kWayLoop_spec {tmp_file total : List Nat} {start size : Nat → Nat}
    {B k NVOB r l RUN_SIZE LAST_RUN_SIZE IBS : Nat}
    (hR : RUN_SIZE = 8 * r) (hL : LAST_RUN_SIZE = 8 * l) (hI : IBS = 8 * B)
    (hstart : ∀ i, start i = i * r) (hsize : ∀ i, size i = if i = k - 1 then l else r) :
    ∀ (fuel : Nat) (m : KWay) (E : List Nat) (rems : List (List Nat)),
      KWay.Inv tmp_file total start size B k NVOB m E rems → total.length - E.length < fuel →
      ∃ m1 E1, kWayLoop tmp_file RUN_SIZE LAST_RUN_SIZE k IBS B NVOB (NVOB * VALUE_SIZE)
          fuel m = some m1 ∧
        m1.out.Holds E1 NVOB total.length ∧ E1.Sorted (fun a b => a ≤ b) ∧ E1.Perm total := by
  intro fuel
  induction fuel with
  | zero =>
    intro m E rems _ hf
    omega
  | succ fuel ih =>
    intro m E rems inv hf
    unfold kWayLoop
    cases ht : top m.pq with
    | none =>
      have hpq := top_none ht
      have hall : ∀ rm ∈ rems, rm = [] := by
        intro rm hrm
        obtain ⟨j, hj⟩ := List.mem_iff_getElem?.1 hrm
        cases rm with
        | nil => rfl
        | cons v t =>
          have := (inv.queue v j).2 ⟨t, hj⟩
          rw [hpq] at this
          simp at this
      obtain ⟨hs, hp⟩ := inv.merge.done hall
      exact ⟨m, E, rfl, inv.out, hs, hp⟩
    | some t =>
      obtain ⟨v, i⟩ := t
      obtain ⟨hmem, hmin⟩ := top_spec _ _ ht
      obtain ⟨tl, hi⟩ := (inv.queue v i).1 hmem
      have hmin2 : ∀ (j : Nat) (w : Nat) (u : List Nat), rems[j]? = some (w :: u) → v ≤ w :=
        fun j w u hj => pairLe_fst (hmin _ ((inv.queue w j).2 ⟨u, hj⟩))
      have M := inv.merge.step hi hmin2
      have hlen := inv.merge.length
      have hfl := (flatten_set_perm rems i v tl hi).length_eq
      have hlt : E.length < total.length := by
        simp only [List.length_cons] at hfl
        omega
      obtain ⟨out1, hpush, hout1⟩ := Output.push_holds inv.out M.sortedE hlt
      obtain ⟨hik, inp, hinp, hcur⟩ := inv.cursors.get hi
      have hf2 : total.length - (E ++ [v]).length < fuel := by
        simp only [List.length_append, List.length_singleton]
        omega
      simp only [hpush, hinp]
      cases tl with
      | nil =>
        obtain ⟨h0, hc0⟩ := cursor_done hcur
        rw [if_pos h0]
        refine ih _ (E ++ [v]) (rems.set i []) ?_ hf2
        refine ⟨inv.cursors.set hc0, inv.nodup.erase _, ?_, hout1, M⟩
        intro x j
        show (x, j) ∈ m.pq.erase (v, i) ↔ _
        rw [queue_erase inv.nodup inv.queue hi, queue_set hi]
        simp
      | cons w u =>
        have hsorted : (w :: u).Sorted (fun a b => a ≤ b) :=
          (inv.merge.sortedR _ (List.getElem?_mem hi)).of_cons
        have hst : RUN_SIZE * i = 8 * start i := by
          rw [hR, hstart]
          ring
        have hsz : (if i = k - 1 then LAST_RUN_SIZE else RUN_SIZE) = 8 * size i := by
          rw [hsize]
          split
          · exact hL
          · exact hR
        obtain ⟨hne, r2, p, hadv, hval, _, hc2⟩ := cursor_advance hcur hsorted hst hsz hI
        rw [if_neg hne]
        simp only [hadv, hval]
        refine ih _ (E ++ [v]) (rems.set i (w :: u)) ?_ hf2
        refine ⟨inv.cursors.set hc2, ?_, ?_, hout1, M⟩
        · show ((w, i) :: m.pq.erase (v, i)).Nodup
          rw [List.nodup_cons]
          refine ⟨?_, inv.nodup.erase _⟩
          rw [queue_erase inv.nodup inv.queue hi]
          simp
        · intro x j
          show (x, j) ∈ (w, i) :: m.pq.erase (v, i) ↔ _
          rw [List.mem_cons, queue_erase inv.nodup inv.queue hi, queue_set hi]
          simp only [Prod.mk.injEq, List.cons.injEq, exists_eq_right']
          constructor
          · rintro (⟨rfl, rfl⟩ | h)
            · exact Or.inr ⟨rfl, rfl⟩
            · exact Or.inl h
          · rintro (h | ⟨rfl, rfl⟩)
            · exact Or.inr h
            · exact Or.inl ⟨rfl, rfl⟩

end ExternalSort

namespace ExternalSort

theorem flatten_full_runs (tmp_file : List Nat) (r : Nat) : ∀ (j : Nat),
    ((List.range j).map (fun i => slice tmp_file (i * r) r)).flatten = tmp_file.take (j * r) := by
  intro j
  induction j with
  | zero => simp
  | succ j ih =>
    rw [List.range_succ, List.map_append, List.flatten_append, ih]
    simp only [List.map_cons, List.map_nil, List.flatten_cons, List.flatten_nil, List.append_nil]
    have e : (j + 1) * r = j * r + r := by ring
    rw [e, List.take_add]
    rfl

theorem flatten_runs (tmp_file : List Nat) (k r l : Nat) (hk : 0 < k)
    (hlen : tmp_file.length = (k - 1) * r + l) :
    ((List.range k).map (fun i => slice tmp_file (i * r) (if i = k - 1 then l else r))).flatten
      = tmp_file := by
  obtain ⟨j, rfl⟩ : ∃ j, k = j + 1 := ⟨k - 1, by omega⟩
  simp only [Nat.add_sub_cancel] at hlen ⊢
  rw [List.range_succ, List.map_append, List.flatten_append]
  have e1 : (List.range j).map (fun i => slice tmp_file (i * r) (if i = j then l else r)) =
      (List.range j).map (fun i => slice tmp_file (i * r) r) := by
    apply List.map_congr_left
    intro i hi
    rw [List.mem_range] at hi
    rw [if_neg (by omega)]
  rw [e1, flatten_full_runs]
  simp only [List.map_cons, List.map_nil, List.flatten_cons, List.flatten_nil, List.append_nil,
    ↓reduceIte]
  unfold slice
  have e2 : (tmp_file.drop (j * r)).take l = tmp_file.drop (j * r) :=
    List.take_of_length_le (by rw [List.length_drop]; omega)
  rw [e2, List.take_append_drop]

theorem run_inside {k r l i : Nat} (hi : i < k) :
    i * r + (if i = k - 1 then l else r) ≤ (k - 1) * r + l := by
  by_cases h : i = k - 1
  · rw [if_pos h, h]
  · rw [if_neg h]
    have h1 : i + 1 ≤ k - 1 := by omega
    have h2 := Nat.mul_le_mul_right r h1
    have e : (i + 1) * r = i * r + r := by ring
    omega

theorem buffers_fit {mem_size k : Nat} (hB : 0 < mem_size / (k + 1) / 8) :
    k * (mem_size / (k + 1) / 8 * 8) + 8 ≤ mem_size := by
  have h1 := Nat.div_mul_le_self mem_size (k + 1)
  have h2 := Nat.div_mul_le_self (mem_size / (k + 1)) 8
  have h3 := Nat.mul_le_mul_left k h2
  have e : mem_size / (k + 1) * (k + 1) = k * (mem_size / (k + 1)) + mem_size / (k + 1) := by
    ring
  omega

end ExternalSort

namespace ExternalSort

theorem first_head {tmp_file : List Nat} {s n B offset size v : Nat} {t : List Nat}
    (hin : s + n ≤ tmp_file.length) (hn : 0 < n) (hB : 0 < B) (ho : offset = 8 * s)
    (hs : size = 8 * B) (hv : slice tmp_file s n = v :: t) (remaining : Nat) :
    (Input.first tmp_file offset size B remaining).buffer.headD 0 = v := by
  have c := cursor_first hin hn hB ho hs
  rw [hv] at c
  have h := cursor_value c
  have h2 : (Input.first tmp_file offset size B remaining).buffer[0]? = some v := h
  cases hb : (Input.first tmp_file offset size B remaining).buffer with
  | nil =>
    rw [hb] at h2
    simp at h2
  | cons a rest =>
    rw [hb] at h2
    simp only [List.getElem?_cons_zero, Option.some.injEq] at h2
    simp [h2]

theorem slice_cons {tmp_file : List Nat} {s n : Nat} (hin : s + n ≤ tmp_file.length)
    (hn : 0 < n) : ∃ v t, slice tmp_file s n = v :: t := by
  have hl := slice_length hin
  cases h : slice tmp_file s n with
  | nil =>
    rw [h] at hl
    simp at hl
    omega
  | cons v t => exact ⟨v, t, rfl⟩

theorem kWay_first {tmp_file output : List Nat} {k r l B NVOB : Nat}
    (hk : 0 < k) (hr : 0 < r) (hl : 0 < l) (hB : 0 < B) (hO : 0 < NVOB)
    (hlen : tmp_file.length = (k - 1) * r + l) (hout : output.length = tmp_file.length)
    (hsorted : ∀ i, i < k →
      (slice tmp_file (i * r) (if i = k - 1 then l else r)).Sorted (fun a b => a ≤ b)) :
    KWay.Inv tmp_file tmp_file (fun i => i * r) (fun i => if i = k - 1 then l else r) B k NVOB
      (KWay.mk
        ((List.range k).map (fun i =>
          ((Input.first tmp_file (i * (8 * r)) (B * VALUE_SIZE) B
            (if i = k - 1 then l else r)).buffer.headD 0, i)))
        ((List.range k).map (fun i =>
          Input.first tmp_file (i * (8 * r)) (B * VALUE_SIZE) B (if i = k - 1 then l else r)))
        (Output.mk output (List.replicate NVOB 0) 0 0))
      []
      ((List.range k).map (fun i => slice tmp_file (i * r) (if i = k - 1 then l else r))) := by
  have hpos : ∀ i, 0 < (if i = k - 1 then l else r) := by
    intro i
    split <;> assumption
  have hins : ∀ i, i < k → i * r + (if i = k - 1 then l else r) ≤ tmp_file.length := by
    intro i hi
    rw [hlen]
    exact run_inside hi
  have ho : ∀ i, i * (8 * r) = 8 * (i * r) := by
    intro i
    ring
  have hs : B * VALUE_SIZE = 8 * B := by
    simp only [VALUE_SIZE]
    ring
  have hrem : ∀ (i : Nat) (rem : List Nat),
      ((List.range k).map (fun i => slice tmp_file (i * r) (if i = k - 1 then l else r)))[i]?
        = some rem → i < k ∧ rem = slice tmp_file (i * r) (if i = k - 1 then l else r) := by
    intro i rem h
    rw [List.getElem?_map] at h
    by_cases hi : i < k
    · rw [List.getElem?_range hi] at h
      simp only [Option.map_some', Option.some.injEq] at h
      exact ⟨hi, h.symm⟩
    · rw [List.getElem?_eq_none (by simp; omega)] at h
      cases h
  refine ⟨⟨by simp, by simp, ?_⟩, ?_, ?_, ?_, ?_⟩
  · intro i inp rem h1 h2
    obtain ⟨hi, rfl⟩ := hrem i rem h2
    simp only [List.getElem?_map, List.getElem?_range hi, Option.map_some',
      Option.some.injEq] at h1
    subst h1
    exact cursor_first (hins i hi) (hpos i) hB (ho i) hs
  · show ((List.range k).map _).Nodup
    refine (List.nodup_range k).map ?_
    intro a b hab
    simp only [Prod.mk.injEq] at hab
    exact hab.2
  · intro v i
    show (v, i) ∈ (List.range k).map _ ↔ _
    simp only [List.mem_map, List.mem_range, Prod.mk.injEq]
    constructor
    · rintro ⟨j, hj, hv, rfl⟩
      obtain ⟨v0, t0, h0⟩ := slice_cons (hins j hj) (hpos j)
      have := first_head (hins j hj) (hpos j) hB (ho j) hs h0 (if j = k - 1 then l else r)
      rw [this] at hv
      subst hv
      refine ⟨t0, ?_⟩
      rw [List.getElem?_map, List.getElem?_range hj]
      simp only [Option.map_some', Option.some.injEq]
      exact h0
    · rintro ⟨t, ht⟩
      obtain ⟨hi, hrm⟩ := hrem i _ ht
      refine ⟨i, hi, ?_, rfl⟩
      exact first_head (hins i hi) (hpos i) hB (ho i) hs hrm.symm _
  · show Output.Holds (Output.mk output (List.replicate NVOB 0) 0 0) [] NVOB tmp_file.length
    rw [← hout]
    exact Output.holds_first output hO
  · refine MergeInv.first ?_ ?_
    · intro rm hrm
      obtain ⟨i, hi⟩ := List.mem_iff_getElem?.1 hrm
      obtain ⟨hik, rfl⟩ := hrem i rm hi
      exact hsorted i hik
    · rw [flatten_runs tmp_file k r l hk hlen]

theorem kWayMerge_spec {fuel : Nat} {tmp_file output : List Nat} {mem_size k r l : Nat}
    (hk : 0 < k) (hr : 0 < r) (hl : 0 < l) (hlen : tmp_file.length = (k - 1) * r + l)
    (hout : output.length = tmp_file.length)
    (hsorted : ∀ i, i < k →
      (slice tmp_file (i * r) (if i = k - 1 then l else r)).Sorted (fun a b => a ≤ b))
    (hB : 0 < mem_size / (k + 1) / 8) (hfuel : tmp_file.length < fuel) :
    ∃ out, kWayMerge fuel tmp_file output (tmp_file.length * VALUE_SIZE) mem_size k r l
        (8 * r) (8 * l) = some out ∧
      out.Sorted (fun a b => a ≤ b) ∧ out.Perm tmp_file := by
  have hfit := buffers_fit hB
  have hO : 0 < (mem_size - k * (mem_size / (k + 1) / 8 * 8)) / 8 := by
    apply Nat.div_pos
    · omega
    · decide
  have hO2 := Nat.div_mul_le_self (mem_size - k * (mem_size / (k + 1) / 8 * 8)) 8
  have inv := kWay_first hk hr hl hB hO hlen hout hsorted
  obtain ⟨m1, E1, hloop, hhold, hs1, hp1⟩ :=
    kWayLoop_spec rfl rfl (show mem_size / (k + 1) / 8 * VALUE_SIZE = 8 * (mem_size / (k + 1) / 8)
      by simp only [VALUE_SIZE]; ring) (fun _ => rfl) (fun _ => rfl) fuel _ _ _ inv
      (by simpa using hfuel)
  have hfin := Output.finish_holds hhold hs1 hp1.length_eq rfl
  unfold kWayMerge
  simp only [VALUE_SIZE] at hloop hfin ⊢
  have hcond : 0 < k ∧ 0 < mem_size / (k + 1) / 8 ∧
      0 < (mem_size - k * (mem_size / (k + 1) / 8 * 8)) / 8 * 8 ∧
      mem_size / (k + 1) / 8 * 8 * k +
        (mem_size - k * (mem_size / (k + 1) / 8 * 8)) / 8 * 8 ≤ mem_size := by
    refine ⟨hk, hB, by omega, ?_⟩
    have e : mem_size / (k + 1) / 8 * 8 * k = k * (mem_size / (k + 1) / 8 * 8) := by ring
    omega
  rw [if_pos hcond, hloop]
  exact ⟨E1, hfin, hs1, hp1⟩

end ExternalSort

namespace ExternalSort

theorem twoWay_pointer {tmp_file total : List Nat} {start size : Nat → Nat} {B NVOB i : Nat}
    {m : TwoWay} {E : List Nat} {rems : List (List Nat)} {rem : List Nat}
    (inv : TwoWay.Inv tmp_file total start size B NVOB m E rems) (hr : rems[i]? = some rem) :
    ∃ inp, m.inputs[i]? = some inp ∧ Cursor tmp_file (start i) (size i) B inp rem ∧
      m.inputs_compare[i]? =
        some (if rem = [] then none else some (inp.next_push_index_input_buffer - 1)) := by
  obtain ⟨_, inp, hinp, hcur⟩ := inv.cursors.get hr
  exact ⟨inp, hinp, hcur, inv.pointer i inp rem hinp hr⟩

theorem twoWay_null {tmp_file total : List Nat} {start size : Nat → Nat} {B NVOB i : Nat}
    {m : TwoWay} {E : List Nat} {rems : List (List Nat)}
    (inv : TwoWay.Inv tmp_file total start size B NVOB m E rems) (hr : rems[i]? = some []) :
    m.inputs_compare[i]? = some none := by
  obtain ⟨inp, _, _, h⟩ := twoWay_pointer inv hr
  simpa using h

theorem twoWay_value {tmp_file total : List Nat} {start size : Nat → Nat} {B NVOB i v : Nat}
    {m : TwoWay} {E : List Nat} {rems : List (List Nat)} {tl : List Nat}
    (inv : TwoWay.Inv tmp_file total start size B NVOB m E rems)
    (hr : rems[i]? = some (v :: tl)) :
    m.inputs_compare[i]? ≠ some none ∧ m.value i = some v := by
  obtain ⟨inp, hinp, hcur, h⟩ := twoWay_pointer inv hr
  simp only [reduceCtorEq, ↓reduceIte] at h
  refine ⟨by rw [h]; simp, ?_⟩
  unfold TwoWay.value
  rw [h, hinp]
  exact cursor_value hcur

theorem twoWay_choice {tmp_file total : List Nat} {start size : Nat → Nat} {B NVOB : Nat}
    {m : TwoWay} {E : List Nat} {rems : List (List Nat)}
    (inv : TwoWay.Inv tmp_file total start size B NVOB m E rems) :
    ((m.inputs_compare[0]? = some none ∧ m.inputs_compare[1]? = some none) ∧
      ∀ rm ∈ rems, rm = []) ∨
    (¬ (m.inputs_compare[0]? = some none ∧ m.inputs_compare[1]? = some none) ∧
      ∃ (i v : Nat) (tl : List Nat), rems[i]? = some (v :: tl) ∧
        (∀ (j : Nat) (w : Nat) (u : List Nat), rems[j]? = some (w :: u) → v ≤ w) ∧
        m.side = some i ∧ m.value i = some v) := by
  obtain ⟨a, b, rfl⟩ : ∃ a b, rems = [a, b] := List.length_eq_two.1 inv.cursors.remsLength
  have others : ∀ (j : Nat) (w : Nat) (u : List Nat), [a, b][j]? = some (w :: u) →
      (j = 0 ∧ a = w :: u) ∨ (j = 1 ∧ b = w :: u) := by
    intro j w u h
    match j with
    | 0 =>
      simp only [List.getElem?_cons_zero, Option.some.injEq] at h
      exact Or.inl ⟨rfl, h⟩
    | 1 =>
      simp only [List.getElem?_cons_succ, List.getElem?_cons_zero, Option.some.injEq] at h
      exact Or.inr ⟨rfl, h⟩
    | j + 2 => simp at h
  cases a with
  | nil =>
    have n0 := twoWay_null inv (show [[], b][0]? = some [] from rfl)
    cases b with
    | nil =>
      have n1 := twoWay_null inv (show [[], []][1]? = some [] from rfl)
      left
      refine ⟨⟨n0, n1⟩, ?_⟩
      intro rm hrm
      simpa using hrm
    | cons vb tb =>
      have v1 := twoWay_value inv (show [[], vb :: tb][1]? = some (vb :: tb) from rfl)
      right
      refine ⟨fun h => v1.1 h.2, 1, vb, tb, rfl, ?_, ?_, v1.2⟩
      · intro j w u h
        rcases others j w u h with ⟨_, h⟩ | ⟨_, h⟩
        · cases h
        · simp only [List.cons.injEq] at h
          omega
      · unfold TwoWay.side
        rw [if_pos n0]
  | cons va ta =>
    have v0 := twoWay_value inv (show [va :: ta, b][0]? = some (va :: ta) from rfl)
    right
    refine ⟨fun h => v0.1 h.1, ?_⟩
    cases b with
    | nil =>
      have n1 := twoWay_null inv (show [va :: ta, []][1]? = some [] from rfl)
      refine ⟨0, va, ta, rfl, ?_, ?_, v0.2⟩
      · intro j w u h
        rcases others j w u h with ⟨_, h⟩ | ⟨_, h⟩
        · simp only [List.cons.injEq] at h
          omega
        · cases h
      · unfold TwoWay.side
        rw [if_neg v0.1, if_pos n1]
    | cons vb tb =>
      have v1 := twoWay_value inv (show [va :: ta, vb :: tb][1]? = some (vb :: tb) from rfl)
      have hside : m.side = some (if va < vb then 0 else 1) := by
        unfold TwoWay.side
        rw [if_neg v0.1, if_neg v1.1, v0.2, v1.2]
      by_cases hlt : va < vb
      · rw [if_pos hlt] at hside
        refine ⟨0, va, ta, rfl, ?_, hside, v0.2⟩
        intro j w u h
        rcases others j w u h with ⟨_, h⟩ | ⟨_, h⟩
        · simp only [List.cons.injEq] at h
          omega
        · simp only [List.cons.injEq] at h
          omega
      · rw [if_neg hlt] at hside
        refine ⟨1, vb, tb, rfl, ?_, hside, v1.2⟩
        intro j w u h
        rcases others j w u h with ⟨_, h⟩ | ⟨_, h⟩
        · simp only [List.cons.injEq] at h
          omega
        · simp only [List.cons.injEq] at h
          omega

end ExternalSort

namespace ExternalSort

theorem pointer_set {m : TwoWay} {rems : List (List Nat)} {i : Nat} {inp : Input}
    {rem : List Nat} {c : Option Nat} (hi : i < m.inputs.length)
    (hc : i < m.inputs_compare.length) (hr : i < rems.length)
    (hp : ∀ (j : Nat) (x : Input) (y : List Nat), m.inputs[j]? = some x → rems[j]? = some y →
      m.inputs_compare[j]? =
        some (if y = [] then none else some (x.next_push_index_input_buffer - 1)))
    (hnew : c = if rem = [] then none else some (inp.next_push_index_input_buffer - 1)) :
    ∀ (j : Nat) (x : Input) (y : List Nat), (m.inputs.set i inp)[j]? = some x →
      (rems.set i rem)[j]? = some y →
      (m.inputs_compare.set i c)[j]? =
        some (if y = [] then none else some (x.next_push_index_input_buffer - 1)) := by
  intro j x y h1 h2
  by_cases hij : i = j
  · subst hij
    rw [List.getElem?_set_self hi] at h1
    rw [List.getElem?_set_self hr] at h2
    rw [List.getElem?_set_self hc]
    simp only [Option.some.injEq] at h1 h2
    subst h1
    subst h2
    rw [hnew]
  · rw [List.getElem?_set_ne hij] at h1 h2 ⊢
    exact hp j x y h1 h2

theorem twoWayLoop_spec {tmp_file total : List Nat} {start size : Nat → Nat}
    {B NVOB r l RUN_SIZE LAST_RUN_SIZE IBS first : Nat} {last : Bool}
    (hR : RUN_SIZE = 8 * r) (hL : LAST_RUN_SIZE = 8 * l) (hI : IBS = 8 * B)
    (hstart : ∀ i, RUN_SIZE * i + first = 8 * start i)
    (hsize : ∀ i, size i = if last = true ∧ i = 1 then l else r) :
    ∀ (fuel : Nat) (m : TwoWay) (E : List Nat) (rems : List (List Nat)),
      TwoWay.Inv tmp_file total start size B NVOB m E rems → total.length - E.length < fuel →
      ∃ m1 E1, twoWayLoop tmp_file last first RUN_SIZE LAST_RUN_SIZE IBS B NVOB
          (NVOB * VALUE_SIZE) fuel m = some m1 ∧
        m1.out.Holds E1 NVOB total.length ∧ E1.Sorted (fun a b => a ≤ b) ∧ E1.Perm total := by
  intro fuel
  induction fuel with
  | zero =>
    intro m E rems _ hf
    omega
  | succ fuel ih =>
    intro m E rems inv hf
    unfold twoWayLoop
    rcases twoWay_choice inv with ⟨hexit, hall⟩ | ⟨hexit, i, v, tl, hi, hmin, hside, hvalue⟩
    · rw [if_pos hexit]
      obtain ⟨hs, hp⟩ := inv.merge.done hall
      exact ⟨m, E, rfl, inv.out, hs, hp⟩
    · rw [if_neg hexit]
      have M := inv.merge.step hi hmin
      have hlen := inv.merge.length
      have hfl := (flatten_set_perm rems i v tl hi).length_eq
      have hlt : E.length < total.length := by
        simp only [List.length_cons] at hfl
        omega
      obtain ⟨out1, hpush, hout1⟩ := Output.push_holds inv.out M.sortedE hlt
      obtain ⟨inp, hinp, hcur, hptr⟩ := twoWay_pointer inv hi
      have hf2 : total.length - (E ++ [v]).length < fuel := by
        simp only [List.length_append, List.length_singleton]
        omega
      have hil : i < m.inputs.length := by
        by_contra hn
        rw [List.getElem?_eq_none (by omega)] at hinp
        cases hinp
      have hcl : i < m.inputs_compare.length := by
        by_contra hn
        rw [List.getElem?_eq_none (by omega)] at hptr
        cases hptr
      have hrl : i < rems.length := by
        by_contra hn
        rw [List.getElem?_eq_none (by omega)] at hi
        cases hi
      simp only [hside, hvalue, hinp, hpush]
      cases tl with
      | nil =>
        obtain ⟨h0, hc0⟩ := cursor_done hcur
        rw [if_pos h0]
        refine ih _ (E ++ [v]) (rems.set i []) ?_ hf2
        refine ⟨inv.cursors.set hc0, ?_, hout1, M⟩
        exact pointer_set hil hcl hrl inv.pointer (by simp)
      | cons w u =>
        have hsorted : (w :: u).Sorted (fun a b => a ≤ b) :=
          (inv.merge.sortedR _ (List.getElem?_mem hi)).of_cons
        have hsz : (if last = true ∧ i = 1 then LAST_RUN_SIZE else RUN_SIZE) = 8 * size i := by
          rw [hsize]
          split
          · exact hL
          · exact hR
        obtain ⟨hne, r2, p, hadv, _, hp1, hc2⟩ :=
          cursor_advance hcur hsorted (hstart i) hsz hI
        rw [if_neg hne]
        simp only [hadv]
        refine ih _ (E ++ [v]) (rems.set i (w :: u)) ?_ hf2
        refine ⟨inv.cursors.set hc2, ?_, hout1, M⟩
        refine pointer_set hil hcl hrl inv.pointer ?_
        simp only [reduceCtorEq, ↓reduceIte, Option.some.injEq]
        omega

end ExternalSort

namespace ExternalSort

theorem twoWay_first {tmp_file : List Nat} {b r n1 l B NVOB : Nat} {last : Bool}
    (hr : 0 < r) (hn1 : 0 < n1) (hB : 0 < B) (hO : 0 < NVOB)
    (hin : b + r + n1 ≤ tmp_file.length) (hsize1 : n1 = if last = true then l else r)
    (hs0 : (slice tmp_file b r).Sorted (fun x y => x ≤ y))
    (hs1 : (slice tmp_file (b + r) n1).Sorted (fun x y => x ≤ y)) :
    TwoWay.Inv tmp_file (slice tmp_file b (r + n1)) (fun i => b + i * r)
      (fun i => if last = true ∧ i = 1 then l else r) B NVOB
      (TwoWay.mk
        [Input.first tmp_file (8 * b + 0 * (8 * r)) (B * VALUE_SIZE) B r,
         Input.first tmp_file (8 * b + 1 * (8 * r)) (B * VALUE_SIZE) B n1]
        [some 0, some 0]
        (Output.mk (List.replicate (r + n1) 0) (List.replicate NVOB 0) 0 0))
      []
      [slice tmp_file b r, slice tmp_file (b + r) n1] := by
  have hs : B * VALUE_SIZE = 8 * B := by
    simp only [VALUE_SIZE]
    ring
  have hsz1 : (if last = true ∧ 1 = 1 then l else r) = n1 := by
    rw [hsize1]
    simp
  have c0 : Cursor tmp_file (b + 0 * r) (if last = true ∧ 0 = 1 then l else r) B
      (Input.first tmp_file (8 * b + 0 * (8 * r)) (B * VALUE_SIZE) B r) (slice tmp_file b r) := by
    have := @cursor_first tmp_file b r B (8 * b + 0 * (8 * r)) (B * VALUE_SIZE) (by omega) hr hB
      (by omega) hs
    simpa using this
  have c1 : Cursor tmp_file (b + 1 * r) (if last = true ∧ 1 = 1 then l else r) B
      (Input.first tmp_file (8 * b + 1 * (8 * r)) (B * VALUE_SIZE) B n1)
      (slice tmp_file (b + r) n1) := by
    have := @cursor_first tmp_file (b + r) n1 B (8 * b + 1 * (8 * r)) (B * VALUE_SIZE)
      (by omega) hn1 hB (by omega) hs
    rw [hsz1, Nat.one_mul]
    exact this
  obtain ⟨v0, t0, e0⟩ := slice_cons (show b + r ≤ tmp_file.length by omega) hr
  obtain ⟨v1, t1, e1⟩ := slice_cons (show b + r + n1 ≤ tmp_file.length by omega) hn1
  have hlen : (slice tmp_file b (r + n1)).length = r + n1 := slice_length (by omega)
  refine ⟨⟨rfl, rfl, ?_⟩, ?_, ?_, ?_⟩
  · intro i inp rem h1 h2
    match i with
    | 0 =>
      simp only [List.getElem?_cons_zero, Option.some.injEq] at h1 h2
      subst h1
      subst h2
      exact c0
    | 1 =>
      simp only [List.getElem?_cons_succ, List.getElem?_cons_zero, Option.some.injEq] at h1 h2
      subst h1
      subst h2
      exact c1
    | j + 2 => simp at h1
  · intro i inp rem h1 h2
    match i with
    | 0 =>
      simp only [List.getElem?_cons_zero, Option.some.injEq] at h1 h2
      subst h1
      subst h2
      rw [e0]
      rfl
    | 1 =>
      simp only [List.getElem?_cons_succ, List.getElem?_cons_zero, Option.some.injEq] at h1 h2
      subst h1
      subst h2
      rw [e1]
      rfl
    | j + 2 => simp at h1
  · show Output.Holds (Output.mk (List.replicate (r + n1) 0) (List.replicate NVOB 0) 0 0) []
      NVOB (slice tmp_file b (r + n1)).length
    have := Output.holds_first (List.replicate (r + n1) 0) hO
    rw [List.length_replicate] at this
    rw [hlen]
    exact this
  · refine MergeInv.first ?_ ?_
    · intro rm hrm
      simp only [List.mem_cons, List.mem_singleton, List.not_mem_nil, or_false] at hrm
      rcases hrm with rfl | rfl
      · exact hs0
      · exact hs1
    · simp only [List.flatten_cons, List.flatten_nil, List.append_nil]
      rw [slice_append]

theorem resize_nil (n : Nat) : resize [] (8 * n) = List.replicate n 0 := by
  simp [resize, VALUE_SIZE]

end ExternalSort

namespace ExternalSort

theorem mergeTwo_spec {fuel mem_size it iters NUM_RUNS r l b n1 : Nat} {tmp_file : List Nat}
    (hr : 0 < r) (hn1 : 0 < n1) (hB : 0 < mem_size / 3 / 8)
    (hb : 8 * r * 2 * it +
      (if decide (it = iters - 1) = true ∧ NUM_RUNS % 2 ≠ 0 then 8 * r else 0) = 8 * b)
    (hsize1 : n1 = if it = iters - 1 then l else r)
    (hin : b + r + n1 ≤ tmp_file.length)
    (hs0 : (slice tmp_file b r).Sorted (fun x y => x ≤ y))
    (hs1 : (slice tmp_file (b + r) n1).Sorted (fun x y => x ≤ y))
    (hfuel : r + n1 < fuel) :
    ∃ merged, mergeTwo fuel mem_size it iters (Runs.mk tmp_file NUM_RUNS r l (8 * r) (8 * l)) =
        some (tmp_file.take b ++ merged ++ tmp_file.drop (b + (r + n1))) ∧
      merged.Sorted (fun x y => x ≤ y) ∧ merged.Perm (slice tmp_file b (r + n1)) := by
  have hfit : 2 * (mem_size / 3 / 8 * 8) + 8 ≤ mem_size := @buffers_fit mem_size 2 hB
  have hO : 0 < (mem_size - 2 * (mem_size / 3 / 8 * 8)) / 8 := by
    apply Nat.div_pos
    · omega
    · decide
  have hsz : n1 = if decide (it = iters - 1) = true then l else r := by
    rw [hsize1]
    simp
  have inv := @twoWay_first tmp_file b r n1 l (mem_size / 3 / 8)
    ((mem_size - 2 * (mem_size / 3 / 8 * 8)) / 8) (decide (it = iters - 1)) hr hn1 hB hO hin hsz
    hs0 hs1
  have hlen : (slice tmp_file b (r + n1)).length = r + n1 := slice_length (by omega)
  obtain ⟨m1, E1, hloop, hhold, hso, hpe⟩ :=
    @twoWayLoop_spec tmp_file (slice tmp_file b (r + n1)) (fun i => b + i * r)
      (fun i => if decide (it = iters - 1) = true ∧ i = 1 then l else r) (mem_size / 3 / 8)
      ((mem_size - 2 * (mem_size / 3 / 8 * 8)) / 8) r l (8 * r) (8 * l)
      (mem_size / 3 / 8 * VALUE_SIZE) (8 * b) (decide (it = iters - 1)) rfl rfl
      (by simp only [VALUE_SIZE]; ring) (fun i => by ring) (fun _ => rfl) fuel _ _ _ inv
      (by rw [hlen]; simpa using hfuel)
  have hisz : (if decide (it = iters - 1) = true then (2 - 1) * (8 * r) + 8 * l
      else 2 * (8 * r)) = 8 * (r + n1) := by
    rw [hsz]
    split <;> omega
  have hfin := Output.finish_holds hhold hso hpe.length_eq
    (show 8 * (r + n1) = (slice tmp_file b (r + n1)).length * VALUE_SIZE by
      rw [hlen]
      simp only [VALUE_SIZE]
      ring)
  have hE1 : E1.length = r + n1 := by
    rw [hpe.length_eq, hlen]
  have hinputs : (List.range 2).map (fun i =>
      Input.first tmp_file (8 * b + i * (8 * r)) (mem_size / 3 / 8 * VALUE_SIZE)
        (mem_size / 3 / 8)
        (if decide (it = iters - 1) = true ∧ i = 2 - 1 then l else r)) =
      [Input.first tmp_file (8 * b + 0 * (8 * r)) (mem_size / 3 / 8 * VALUE_SIZE)
        (mem_size / 3 / 8) r,
       Input.first tmp_file (8 * b + 1 * (8 * r)) (mem_size / 3 / 8 * VALUE_SIZE)
        (mem_size / 3 / 8) n1] := by
    rw [hsz]
    simp [List.range_succ]
  have hread : read_block E1 0 (8 * (r + n1)) = E1 := by
    have := read_block_eq E1 0 (r + n1)
    rw [Nat.mul_zero] at this
    rw [this]
    unfold slice
    rw [List.drop_zero, List.take_of_length_le (by omega)]
  have hsorted : is_sorted (E1.take (8 * (r + n1) / VALUE_SIZE)) = true := by
    rw [is_sorted_iff]
    exact hso.sublist (List.take_sublist _ _)
  refine ⟨E1, ?_, hso, hpe⟩
  unfold mergeTwo
  simp only [VALUE_SIZE] at hloop hfin hsorted hinputs ⊢
  simp only [hb, hisz, resize_nil, hinputs]
  rw [hloop]
  have etake : E1.take (r + n1) = E1 := List.take_of_length_le (by omega)
  simp only [hfin, hread, hsorted, ↓reduceIte, write_block_eq, etake]

end ExternalSort

namespace ExternalSort

theorem replaced_length {tmp_file merged : List Nat} {b len : Nat}
    (hin : b + len ≤ tmp_file.length) (hm : merged.length = len) :
    (tmp_file.take b ++ merged ++ tmp_file.drop (b + len)).length = tmp_file.length := by
  simp only [List.length_append, List.length_take, List.length_drop]
  omega

theorem replaced_perm {tmp_file merged : List Nat} {b len : Nat}
    (hp : merged.Perm (slice tmp_file b len)) :
    (tmp_file.take b ++ merged ++ tmp_file.drop (b + len)).Perm tmp_file := by
  have e := slice_split tmp_file b len
  have p : (tmp_file.take b ++ merged ++ tmp_file.drop (b + len)).Perm
      (tmp_file.take b ++ slice tmp_file b len ++ tmp_file.drop (b + len)) :=
    (hp.append_left _).append_right _
  rw [← e] at p
  exact p

theorem replaced_before {tmp_file merged : List Nat} {b len a n : Nat}
    (hin : b + len ≤ tmp_file.length) (h : a + n ≤ b) :
    slice (tmp_file.take b ++ merged ++ tmp_file.drop (b + len)) a n = slice tmp_file a n := by
  have hl : (tmp_file.take b).length = b := by
    rw [List.length_take]
    omega
  unfold slice
  rw [List.append_assoc]
  apply List.ext_getElem?
  intro i
  by_cases hi : i < n
  · rw [List.getElem?_take_of_lt hi, List.getElem?_take_of_lt hi, List.getElem?_drop,
      List.getElem?_drop, List.getElem?_append_left (by omega),
      List.getElem?_take_of_lt (by omega)]
  · rw [List.getElem?_eq_none (by simp only [List.length_take]; omega),
      List.getElem?_eq_none (by simp only [List.length_take]; omega)]

theorem replaced_at {tmp_file merged : List Nat} {b len : Nat}
    (hin : b + len ≤ tmp_file.length) (hm : merged.length = len) :
    slice (tmp_file.take b ++ merged ++ tmp_file.drop (b + len)) b len = merged := by
  have hl : (tmp_file.take b).length = b := by
    rw [List.length_take]
    omega
  unfold slice
  rw [List.append_assoc, List.drop_append_of_le_length (by omega),
    List.drop_of_length_le (by omega), List.nil_append,
    List.take_append_of_le_length (by omega), List.take_of_length_le (by omega)]

theorem replaced_after {tmp_file merged : List Nat} {b len a n : Nat}
    (hin : b + len ≤ tmp_file.length) (hm : merged.length = len) (h : b + len ≤ a) :
    slice (tmp_file.take b ++ merged ++ tmp_file.drop (b + len)) a n = slice tmp_file a n := by
  have hl : (tmp_file.take b ++ merged).length = b + len := by
    rw [List.length_append, List.length_take]
    omega
  unfold slice
  congr 1
  have e : a = (tmp_file.take b ++ merged).length + (a - (b + len)) := by omega
  rw [e, List.drop_append, List.drop_drop, hl]

end ExternalSort

namespace ExternalSort

theorem length_eq_of_mid {s : Runs} {orig : List Nat} {r l it : Nat}
    (M : s.Mid orig r l it) : orig.length = (s.NUM_RUNS - 1) * r + l := by
  rw [← M.length]
  exact M.perm.length_eq.symm

theorem iteration_inner {fuel0 mem_size it iters k r l : Nat} {tmp_file orig : List Nat}
    (M : Runs.Mid (Runs.mk tmp_file k r l (8 * r) (8 * l)) orig r l it)
    (hk : 2 * it + 4 ≤ k) (hI : iters = k / 2) (hB : 0 < mem_size / 3 / 8)
    (hfuel : orig.length < fuel0) :
    ∃ tmp1, mergeTwo fuel0 mem_size it iters (Runs.mk tmp_file k r l (8 * r) (8 * l)) =
        some tmp1 ∧
      Runs.Mid (Runs.mk tmp1 k r l (8 * r) (8 * l)) orig r l (it + 1) := by
  have hr : 0 < r := M.pos
  have hlen : tmp_file.length = (k - 1) * r + l := M.length
  have hol := length_eq_of_mid M
  have hol2 : orig.length = (k - 1) * r + l := hol
  have h1 := Nat.mul_le_mul_right r (show 2 * it + 2 ≤ k - 1 by omega)
  have e1 : (2 * it + 2) * r = 2 * it * r + r + r := by ring
  have e2 : (2 * it + 1) * r = 2 * it * r + r := by ring
  have hnl : ¬ it = iters - 1 := by omega
  have hb : 8 * r * 2 * it +
      (if decide (it = iters - 1) = true ∧ k % 2 ≠ 0 then 8 * r else 0) = 8 * (2 * it * r) := by
    rw [if_neg (by simp [hnl])]
    ring
  have hs0 : (slice tmp_file (2 * it * r) r).Sorted (fun x y => x ≤ y) := by
    have := M.rest (2 * it) (le_refl _) (show 2 * it < k by omega)
    simp only at this
    rw [if_neg (by omega)] at this
    exact this
  have hs1 : (slice tmp_file (2 * it * r + r) r).Sorted (fun x y => x ≤ y) := by
    have := M.rest (2 * it + 1) (by omega) (show 2 * it + 1 < k by omega)
    simp only at this
    rw [if_neg (by omega), e2] at this
    exact this
  have hin : 2 * it * r + r + r ≤ tmp_file.length := by omega
  obtain ⟨merged, hm, hso, hpe⟩ := @mergeTwo_spec fuel0 mem_size it iters k r l (2 * it * r) r
    tmp_file hr hr hB hb (by rw [if_neg hnl]) hin hs0 hs1 (by omega)
  have hml : merged.length = r + r := by
    rw [hpe.length_eq]
    exact slice_length (by omega)
  have hin2 : 2 * it * r + (r + r) ≤ tmp_file.length := by omega
  refine ⟨_, hm, ?_⟩
  refine ⟨rfl, rfl, rfl, rfl, hr, M.posLast, M.runs, ?_, ?_, ?_, ?_⟩
  · show (tmp_file.take (2 * it * r) ++ merged ++ tmp_file.drop (2 * it * r + (r + r))).length
      = (k - 1) * r + l
    rw [replaced_length hin2 hml]
    exact hlen
  · exact (replaced_perm hpe).trans M.perm
  · intro j hj
    show (slice (tmp_file.take (2 * it * r) ++ merged ++ tmp_file.drop (2 * it * r + (r + r)))
      (2 * j * r) (if 2 * j + 2 = k then r + l else 2 * r)).Sorted (fun a b => a ≤ b)
    rw [if_neg (by omega)]
    by_cases hji : j = it
    · subst hji
      have e : 2 * r = r + r := by omega
      rw [e, replaced_at hin2 hml]
      exact hso
    · have h2 := Nat.mul_le_mul_right r (show 2 * j + 2 ≤ 2 * it by omega)
      have e3 : (2 * j + 2) * r = 2 * j * r + 2 * r := by ring
      rw [replaced_before hin2 (by omega)]
      have := M.merged j (by omega)
      simp only at this
      rw [if_neg (by omega)] at this
      exact this
  · intro i hi hik
    show (slice (tmp_file.take (2 * it * r) ++ merged ++ tmp_file.drop (2 * it * r + (r + r)))
      (i * r) (if i = k - 1 then l else r)).Sorted (fun a b => a ≤ b)
    have h2 := Nat.mul_le_mul_right r (show 2 * it + 2 ≤ i by omega)
    rw [replaced_after hin2 hml (by omega)]
    exact M.rest i (by omega) hik

theorem iteration_last {fuel0 mem_size it iters k r l : Nat} {tmp_file orig : List Nat}
    (M : Runs.Mid (Runs.mk tmp_file k r l (8 * r) (8 * l)) orig r l it)
    (hk : k = 2 * it + 2) (hI : iters = k / 2) (hB : 0 < mem_size / 3 / 8)
    (hfuel : orig.length < fuel0) :
    ∃ tmp1, mergeTwo fuel0 mem_size it iters (Runs.mk tmp_file k r l (8 * r) (8 * l)) =
        some tmp1 ∧
      Runs.Mid (Runs.mk tmp1 k r l (8 * r) (8 * l)) orig r l (it + 1) := by
  have hr : 0 < r := M.pos
  have hl : 0 < l := M.posLast
  have hlen : tmp_file.length = (k - 1) * r + l := M.length
  have hol := length_eq_of_mid M
  have hol2 : orig.length = (k - 1) * r + l := hol
  have hk1 : k - 1 = 2 * it + 1 := by omega
  have e2 : (2 * it + 1) * r = 2 * it * r + r := by ring
  rw [hk1, e2] at hlen hol2
  have hla : it = iters - 1 := by omega
  have hb : 8 * r * 2 * it +
      (if decide (it = iters - 1) = true ∧ k % 2 ≠ 0 then 8 * r else 0) = 8 * (2 * it * r) := by
    rw [if_neg (by omega)]
    ring
  have hs0 : (slice tmp_file (2 * it * r) r).Sorted (fun x y => x ≤ y) := by
    have := M.rest (2 * it) (le_refl _) (show 2 * it < k by omega)
    simp only at this
    rw [if_neg (by omega)] at this
    exact this
  have hs1 : (slice tmp_file (2 * it * r + r) l).Sorted (fun x y => x ≤ y) := by
    have := M.rest (2 * it + 1) (by omega) (show 2 * it + 1 < k by omega)
    simp only at this
    rw [if_pos (by omega), e2] at this
    exact this
  have hin : 2 * it * r + r + l ≤ tmp_file.length := by omega
  obtain ⟨merged, hm, hso, hpe⟩ := @mergeTwo_spec fuel0 mem_size it iters k r l (2 * it * r) l
    tmp_file hr hl hB hb (by rw [if_pos hla]) hin hs0 hs1 (by omega)
  have hml : merged.length = r + l := by
    rw [hpe.length_eq]
    exact slice_length (by omega)
  have hin2 : 2 * it * r + (r + l) ≤ tmp_file.length := by omega
  refine ⟨_, hm, ?_⟩
  refine ⟨rfl, rfl, rfl, rfl, hr, hl, M.runs, ?_, ?_, ?_, ?_⟩
  · show (tmp_file.take (2 * it * r) ++ merged ++ tmp_file.drop (2 * it * r + (r + l))).length
      = (k - 1) * r + l
    rw [replaced_length hin2 hml, hk1, e2]
    exact hlen
  · exact (replaced_perm hpe).trans M.perm
  · intro j hj
    show (slice (tmp_file.take (2 * it * r) ++ merged ++ tmp_file.drop (2 * it * r + (r + l)))
      (2 * j * r) (if 2 * j + 2 = k then r + l else 2 * r)).Sorted (fun a b => a ≤ b)
    by_cases hji : j = it
    · subst hji
      rw [if_pos (by omega), replaced_at hin2 hml]
      exact hso
    · have h2 := Nat.mul_le_mul_right r (show 2 * j + 2 ≤ 2 * it by omega)
      have e3 : (2 * j + 2) * r = 2 * j * r + 2 * r := by ring
      rw [if_neg (by omega), replaced_before hin2 (by omega)]
      have := M.merged j (by omega)
      simp only at this
      rw [if_neg (by omega)] at this
      exact this
  · intro i hi hik
    exfalso
    have : i < k := hik
    omega

theorem iteration_odd {fuel0 mem_size it iters k r l : Nat} {tmp_file orig : List Nat}
    (M : Runs.Mid (Runs.mk tmp_file k r l (8 * r) (8 * l)) orig r l it)
    (hk : k = 2 * it + 3) (hI : iters = k / 2) (hB : 0 < mem_size / 3 / 8)
    (hfuel : orig.length < fuel0) :
    ∃ tmp1, mergeTwo fuel0 mem_size it iters (Runs.mk tmp_file k r l (8 * r) (8 * l)) =
        some tmp1 ∧
      Runs.Mid (Runs.mk tmp1 (k - 1) r (l + r) (8 * r) (8 * l + 8 * r)) orig r (l + r) it := by
  have hr : 0 < r := M.pos
  have hl : 0 < l := M.posLast
  have hlen : tmp_file.length = (k - 1) * r + l := M.length
  have hol := length_eq_of_mid M
  have hol2 : orig.length = (k - 1) * r + l := hol
  have hk1 : k - 1 = 2 * it + 2 := by omega
  have hk2 : k - 1 - 1 = 2 * it + 1 := by omega
  have e1 : (2 * it + 2) * r = 2 * it * r + r + r := by ring
  have e2 : (2 * it + 1) * r = 2 * it * r + r := by ring
  rw [hk1, e1] at hlen hol2
  have hla : it = iters - 1 := by omega
  have hb : 8 * r * 2 * it +
      (if decide (it = iters - 1) = true ∧ k % 2 ≠ 0 then 8 * r else 0) =
      8 * (2 * it * r + r) := by
    rw [if_pos ⟨by simp [hla], by omega⟩]
    ring
  have hs0 : (slice tmp_file (2 * it * r + r) r).Sorted (fun x y => x ≤ y) := by
    have := M.rest (2 * it + 1) (by omega) (show 2 * it + 1 < k by omega)
    simp only at this
    rw [if_neg (by omega), e2] at this
    exact this
  have hs1 : (slice tmp_file (2 * it * r + r + r) l).Sorted (fun x y => x ≤ y) := by
    have := M.rest (2 * it + 2) (by omega) (show 2 * it + 2 < k by omega)
    simp only at this
    rw [if_pos (by omega), e1] at this
    exact this
  have hin : 2 * it * r + r + r + l ≤ tmp_file.length := by omega
  obtain ⟨merged, hm, hso, hpe⟩ := @mergeTwo_spec fuel0 mem_size it iters k r l
    (2 * it * r + r) l tmp_file hr hl hB hb (by rw [if_pos hla]) hin hs0 hs1 (by omega)
  have hml : merged.length = r + l := by
    rw [hpe.length_eq]
    exact slice_length (by omega)
  have hin2 : 2 * it * r + r + (r + l) ≤ tmp_file.length := by omega
  refine ⟨_, hm, ?_⟩
  refine ⟨rfl, (by show 8 * l + 8 * r = 8 * (l + r); omega), rfl, rfl, hr, by omega,
    (by show 0 < k - 1; omega), ?_, ?_, ?_, ?_⟩
  · show (tmp_file.take (2 * it * r + r) ++ merged ++
      tmp_file.drop (2 * it * r + r + (r + l))).length = (k - 1 - 1) * r + (l + r)
    rw [replaced_length hin2 hml, hk2, e2]
    omega
  · exact (replaced_perm hpe).trans M.perm
  · intro j hj
    show (slice (tmp_file.take (2 * it * r + r) ++ merged ++
      tmp_file.drop (2 * it * r + r + (r + l)))
      (2 * j * r) (if 2 * j + 2 = k - 1 then r + (l + r) else 2 * r)).Sorted (fun a b => a ≤ b)
    have h2 := Nat.mul_le_mul_right r (show 2 * j + 2 ≤ 2 * it by omega)
    have e3 : (2 * j + 2) * r = 2 * j * r + 2 * r := by ring
    rw [if_neg (by omega), replaced_before hin2 (by omega)]
    have := M.merged j (by omega)
    simp only at this
    rw [if_neg (by omega)] at this
    exact this
  · intro i hi hik
    show (slice (tmp_file.take (2 * it * r + r) ++ merged ++
      tmp_file.drop (2 * it * r + r + (r + l)))
      (i * r) (if i = k - 1 - 1 then l + r else r)).Sorted (fun a b => a ≤ b)
    have hik2 : i < k - 1 := hik
    by_cases hi0 : i = 2 * it
    · subst hi0
      rw [if_neg (by omega), replaced_before hin2 (by omega)]
      have := M.rest (2 * it) (le_refl _) (show 2 * it < k by omega)
      simp only at this
      rw [if_neg (by omega)] at this
      exact this
    · have hi1 : i = 2 * it + 1 := by omega
      subst hi1
      have e : l + r = r + l := by omega
      rw [if_pos (by omega), e2, e, replaced_at hin2 hml]
      exact hso

end ExternalSort

namespace ExternalSort

theorem incr_decr (x : Nat) (h : x ≤ SIZE_MAX) : incr (decr x) = x := by
  unfold incr decr SIZE_MAX at *
  split <;> split <;> omega

theorem runs_le_length {s : Runs} {orig : List Nat} {r l it : Nat} (M : s.Mid orig r l it) :
    s.NUM_RUNS ≤ orig.length := by
  rw [length_eq_of_mid M]
  have h1 := Nat.le_mul_of_pos_right (s.NUM_RUNS - 1) M.pos
  have h2 := M.posLast
  have h3 := M.runs
  omega

theorem iterations_spec {fuel0 mem_size iters r : Nat} {orig : List Nat}
    (hB : 0 < mem_size / 3 / 8) (hfuel : orig.length < fuel0) (hmax : orig.length ≤ SIZE_MAX) :
    ∀ (fuel it k l : Nat) (tmp_file : List Nat),
      Runs.Mid (Runs.mk tmp_file k r l (8 * r) (8 * l)) orig r l it → iters = k / 2 → 2 ≤ k →
      it ≤ iters → (it = iters → k % 2 = 0) → iters - it + k % 2 < fuel →
      ∃ tmp1 l1, iterations fuel0 mem_size iters fuel it (Runs.mk tmp_file k r l (8 * r) (8 * l))
          = some (Runs.mk tmp1 (2 * iters) r l1 (8 * r) (8 * l1)) ∧
        Runs.Mid (Runs.mk tmp1 (2 * iters) r l1 (8 * r) (8 * l1)) orig r l1 iters := by
  intro fuel
  induction fuel with
  | zero =>
    intro it k l tmp_file _ _ _ _ _ hf
    omega
  | succ fuel ih =>
    intro it k l tmp_file M hI hk hit heven hf
    unfold iterations
    by_cases hlt : it < iters
    · rw [if_pos hlt]
      have hcases : 2 * it + 4 ≤ k ∨ k = 2 * it + 2 ∨ k = 2 * it + 3 := by omega
      rcases hcases with hc | hc | hc
      · obtain ⟨tmp1, hm, M1⟩ := iteration_inner M hc hI hB hfuel
        rw [hm]
        simp only
        rw [if_neg (by omega)]
        exact ih (it + 1) k l tmp1 M1 hI hk (by omega) (by omega) (by omega)
      · obtain ⟨tmp1, hm, M1⟩ := iteration_last M hc hI hB hfuel
        rw [hm]
        simp only
        rw [if_neg (by omega)]
        exact ih (it + 1) k l tmp1 M1 hI hk (by omega) (by omega) (by omega)
      · obtain ⟨tmp1, hm, M1⟩ := iteration_odd M hc hI hB hfuel
        have hle : it ≤ SIZE_MAX := by
          have := runs_le_length M
          have hk2 : k ≤ orig.length := this
          omega
        rw [hm]
        simp only
        rw [if_pos ⟨by omega, by omega⟩, incr_decr it hle]
        have e : 8 * l + 8 * r = 8 * (l + r) := by omega
        rw [e] at M1 ⊢
        exact ih it (k - 1) (l + r) tmp1 M1 (by omega) (by omega) (by omega) (by omega)
          (by omega)
    · rw [if_neg hlt]
      have hie : it = iters := by omega
      have hk2 : k = 2 * iters := by
        have := heven hie
        omega
      subst hie
      refine ⟨tmp_file, l, ?_, ?_⟩
      · rw [hk2]
      · rw [← hk2]
        exact M

theorem mid_next {tmp_file orig : List Nat} {iters r l : Nat}
    (M : Runs.Mid (Runs.mk tmp_file (2 * iters) r l (8 * r) (8 * l)) orig r l iters)
    (hi : 1 ≤ iters) :
    Runs.Mid (Runs.mk tmp_file iters (2 * r) (l + r) (8 * (2 * r)) (8 * (l + r))) orig (2 * r)
      (l + r) 0 := by
  have hr := M.pos
  have hl := M.posLast
  have hlen : tmp_file.length = (2 * iters - 1) * r + l := M.length
  obtain ⟨j, rfl⟩ : ∃ j, iters = j + 1 := ⟨iters - 1, by omega⟩
  refine ⟨rfl, rfl, rfl, rfl, by omega, by omega, hi, ?_, M.perm, ?_, ?_⟩
  · show tmp_file.length = (j + 1 - 1) * (2 * r) + (l + r)
    rw [hlen]
    have e1 : 2 * (j + 1) - 1 = 2 * j + 1 := by omega
    rw [e1, Nat.add_sub_cancel]
    ring
  · intro i hi0
    omega
  · intro i _ hik
    show (slice tmp_file (i * (2 * r)) (if i = j + 1 - 1 then l + r else 2 * r)).Sorted
      (fun a b => a ≤ b)
    have hik2 : i < j + 1 := hik
    have := M.merged i hik2
    simp only at this
    have e1 : i * (2 * r) = 2 * i * r := by ring
    rw [e1]
    by_cases hij : i = j
    · rw [if_pos (by omega)] at this
      rw [if_pos (by omega)]
      have e2 : l + r = r + l := by omega
      rw [e2]
      exact this
    · rw [if_neg (by omega)] at this
      rw [if_neg (by omega)]
      exact this

end ExternalSort

namespace ExternalSort

theorem sort_phase_done_mid {tmp_file orig : List Nat} {k r l num_values : Nat}
    (M : Runs.Mid (Runs.mk tmp_file k r l (8 * r) (8 * l)) orig r l 0)
    (hn : orig.length = num_values) :
    sort_phase_done tmp_file num_values (8 * r) = true := by
  have hr := M.pos
  have hl := M.posLast
  have hk : 0 < k := M.runs
  have hlen : tmp_file.length = (k - 1) * r + l := M.length
  have hN : tmp_file.length = num_values := by
    rw [M.perm.length_eq]
    exact hn
  have hrest := M.rest
  simp only at hrest
  have hq : (num_values * 8 - 1) / (8 * r) = (num_values - 1) / r := by
    rw [← Nat.div_div_eq_div_mul]
    congr 1
    omega
  have q1 := Nat.div_mul_le_self (num_values - 1) r
  have q2 := Nat.lt_mul_div_succ (num_values - 1) hr
  have q3 : k - 1 ≤ (num_values - 1) / r := by
    rw [Nat.le_div_iff_mul_le hr]
    omega
  have q4 := Nat.mul_le_mul_right r q3
  generalize (num_values - 1) / r = q at hq q1 q2 q3 q4
  have e1 : r * (q + 1) = q * r + r := by ring
  rw [e1] at q2
  have e2 : (q + 1) * (8 * r) = 8 * (q * r) + 8 * r := by ring
  have e3 : (q + 1 - 1) * (8 * r) = 8 * (q * r) := by
    rw [Nat.add_sub_cancel]
    ring
  have hlast : (if num_values * 8 = (q + 1) * (8 * r) then 8 * r
      else num_values * 8 - (q + 1 - 1) * (8 * r)) = 8 * (num_values - q * r) := by
    rw [e2, e3]
    split <;> omega
  have hdata : read_block tmp_file 0 (num_values * 8) = tmp_file := by
    have := read_block_eq tmp_file 0 num_values
    rw [Nat.mul_zero, Nat.mul_comm] at this
    rw [this]
    unfold slice
    rw [List.drop_zero, List.take_of_length_le (by omega)]
  have hlastrun := hrest (k - 1) (Nat.zero_le _) (by omega)
  rw [if_pos rfl] at hlastrun
  have hchunk : ∀ i n, k - 1 ≤ i → i * r + n ≤ num_values →
      (slice tmp_file (i * r) n).Sorted (fun a b => a ≤ b) := by
    intro i n hi hn2
    have := Nat.mul_le_mul_right r hi
    exact slice_sorted hlastrun this (by omega)
  unfold sort_phase_done
  simp only [VALUE_SIZE, hq, hlast, hdata]
  have e4 : 8 * r / 8 = r := by omega
  have e5 : 8 * (num_values - q * r) / 8 = num_values - q * r := by omega
  simp only [e4, e5, Bool.and_eq_true, decide_eq_true_eq, List.all_eq_true, List.mem_range,
    Nat.add_sub_cancel]
  refine ⟨⟨⟨⟨⟨by omega, by omega⟩, by omega⟩, by omega⟩, ?_⟩, ?_⟩
  · intro i hi
    rw [is_sorted_iff]
    have h1 := Nat.mul_le_mul_right r (show i + 1 ≤ q by omega)
    have e6 : (i + 1) * r = i * r + r := by ring
    by_cases hik : i < k - 1
    · have := hrest i (Nat.zero_le _) (by omega)
      rw [if_neg (by omega)] at this
      exact this
    · exact hchunk i r (by omega) (by omega)
  · rw [is_sorted_iff]
    exact hchunk q _ q3 (by omega)

theorem passes_spec {fuel0 mem_size num_values : Nat} {orig : List Nat}
    (hB : 0 < mem_size / 3 / 8) (hfuel : orig.length < fuel0) (hmax : orig.length ≤ SIZE_MAX)
    (hn : orig.length = num_values) :
    ∀ (fuel k r l : Nat) (tmp_file : List Nat),
      Runs.Mid (Runs.mk tmp_file k r l (8 * r) (8 * l)) orig r l 0 → k ≤ fuel →
      ∃ tmp1 k1 r1 l1, passes fuel0 num_values mem_size fuel
          (Runs.mk tmp_file k r l (8 * r) (8 * l)) =
          some (Runs.mk tmp1 k1 r1 l1 (8 * r1) (8 * l1)) ∧
        Runs.Mid (Runs.mk tmp1 k1 r1 l1 (8 * r1) (8 * l1)) orig r1 l1 0 ∧ k1 ≤ 2 := by
  intro fuel
  induction fuel with
  | zero =>
    intro k r l tmp_file M hk
    have : 0 < k := M.runs
    omega
  | succ fuel ih =>
    intro k r l tmp_file M hk
    unfold passes
    by_cases hgt : k > 2
    · have hgt2 : (Runs.mk tmp_file k r l (8 * r) (8 * l)).NUM_RUNS > 2 := hgt
      rw [if_pos hgt2]
      have hkl : k ≤ orig.length := runs_le_length M
      obtain ⟨tmp1, l1, hit, M1⟩ := iterations_spec hB hfuel hmax fuel0 0 k l tmp_file M rfl
        (by omega) (Nat.zero_le _) (by omega) (by omega)
      simp only
      rw [hit]
      simp only
      have M2 := mid_next M1 (by omega)
      have e1 : 2 * (k / 2) / 2 = k / 2 := by omega
      have e2 : r * 2 = 2 * r := by omega
      have e3 : l1 + r * (2 - 1) = l1 + r := by simp
      have e4 : 8 * r * 2 = 8 * (2 * r) := by omega
      have e5 : 8 * l1 + 8 * r * (2 - 1) = 8 * (l1 + r) := by omega
      rw [e1, e2, e3, e4, e5, if_pos (sort_phase_done_mid M2 hn)]
      exact ih (k / 2) (2 * r) (l1 + r) tmp1 M2 (by omega)
    · have hgt2 : ¬ (Runs.mk tmp_file k r l (8 * r) (8 * l)).NUM_RUNS > 2 := hgt
      rw [if_neg hgt2]
      exact ⟨tmp_file, k, r, l, rfl, M, by omega⟩

end ExternalSort

namespace ExternalSort

theorem flatten_map_perm (f g : Nat → List Nat) (L : List Nat)
    (h : ∀ i ∈ L, (f i).Perm (g i)) : (L.map f).flatten.Perm (L.map g).flatten := by
  induction L with
  | nil => simp
  | cons a rest ih =>
    simp only [List.map_cons, List.flatten_cons]
    exact (h a (List.mem_cons_self _ _)).append
      (ih (fun i hi => h i (List.mem_cons_of_mem _ hi)))

theorem sorted_chunk (input : List Nat) (a r : Nat) (h : a + r ≤ input.length) :
    sort ((read_block input (8 * a) (8 * r)).take r) ++ (read_block input (8 * a) (8 * r)).drop r
      = sort (slice input a r) := by
  rw [read_block_eq]
  have hl : (slice input a r).length = r := slice_length h
  rw [List.take_of_length_le (by omega), List.drop_of_length_le (by omega), List.append_nil]

theorem sortRuns_spec (input : List Nat) (r : Nat) : ∀ (count a : Nat) (tmp_file : List Nat),
    a + count * r ≤ input.length → a + count * r ≤ tmp_file.length →
    (sortRuns input (8 * r) r count (8 * a) tmp_file).1 = 8 * (a + count * r) ∧
    (sortRuns input (8 * r) r count (8 * a) tmp_file).2.length = tmp_file.length ∧
    (∀ x n, x + n ≤ a →
      slice (sortRuns input (8 * r) r count (8 * a) tmp_file).2 x n = slice tmp_file x n) ∧
    (∀ i, i < count →
      slice (sortRuns input (8 * r) r count (8 * a) tmp_file).2 (a + i * r) r =
        sort (slice input (a + i * r) r)) := by
  intro count
  induction count with
  | zero =>
    intro a tmp_file _ _
    simp [sortRuns]
  | succ count ih =>
    intro a tmp_file h1 h2
    have e0 : (count + 1) * r = count * r + r := by ring
    rw [e0] at h1 h2
    have hsl : (sort (slice input a r)).length = r := by
      rw [sort_length]
      exact slice_length (by omega)
    have hin : a + r ≤ tmp_file.length := by omega
    have hstep : sortRuns input (8 * r) r (count + 1) (8 * a) tmp_file =
        sortRuns input (8 * r) r count (8 * (a + r))
          (tmp_file.take a ++ sort (slice input a r) ++ tmp_file.drop (a + r)) := by
      have etake : (sort (slice input a r)).take r = sort (slice input a r) :=
        List.take_of_length_le (by omega)
      rw [sortRuns]
      rw [sorted_chunk input a r (by omega), write_block_eq, etake]
      congr 1
      omega
    have hl2 := @replaced_length tmp_file (sort (slice input a r)) a r hin hsl
    obtain ⟨i1, i2, i3, i4⟩ := ih (a + r)
      (tmp_file.take a ++ sort (slice input a r) ++ tmp_file.drop (a + r)) (by omega)
      (by rw [hl2]; omega)
    rw [hstep]
    refine ⟨?_, ?_, ?_, ?_⟩
    · rw [i1]
      congr 1
      omega
    · rw [i2, hl2]
    · intro x n hx
      rw [i3 x n (by omega), replaced_before hin hx]
    · intro i hi
      cases i with
      | zero =>
        rw [Nat.zero_mul, Nat.add_zero, i3 a r (le_refl _), replaced_at hin hsl]
      | succ j =>
        have e1 : a + (j + 1) * r = a + r + j * r := by ring
        rw [e1]
        exact i4 j (by omega)

theorem slice_take_of_le (input : List Nat) (n a m : Nat) (h : a + m ≤ n) :
    slice (input.take n) a m = slice input a m := by
  unfold slice
  rw [List.drop_take, List.take_take]
  congr 1
  omega

end ExternalSort

namespace ExternalSort

theorem sort_phase_mid {input : List Nat} {n q r l : Nat} (hr : 0 < r) (hl : 0 < l)
    (hn : n = q * r + l) (hin : n ≤ input.length) :
    Runs.Mid (Runs.mk
      (write_block (sortRuns input (8 * r) r q 0 (List.replicate n 0)).2
        (sort ((read_block input (sortRuns input (8 * r) r q 0 (List.replicate n 0)).1
            (8 * l)).take l) ++
          (read_block input (sortRuns input (8 * r) r q 0 (List.replicate n 0)).1
            (8 * l)).drop l)
        (sortRuns input (8 * r) r q 0 (List.replicate n 0)).1 (8 * l))
      (q + 1) r l (8 * r) (8 * l)) (input.take n) r l 0 := by
  have S := sortRuns_spec input r q 0 (List.replicate n 0) (by omega)
    (by rw [List.length_replicate]; omega)
  rw [Nat.mul_zero] at S
  simp only [Nat.zero_add, List.length_replicate] at S
  obtain ⟨s1, s2, _, s4⟩ := S
  generalize (sortRuns input (8 * r) r q 0 (List.replicate n 0)) = res at s1 s2 s4
  obtain ⟨off, tmp0⟩ := res
  simp only at s1 s2 s4
  subst s1
  have hsl : (sort (slice input (q * r) l)).length = l := by
    rw [sort_length]
    exact slice_length (by omega)
  have etake : (sort (slice input (q * r) l)).take l = sort (slice input (q * r) l) :=
    List.take_of_length_le (by omega)
  have hin2 : q * r + l ≤ tmp0.length := by omega
  have htmp : write_block tmp0
      (sort ((read_block input (8 * (q * r)) (8 * l)).take l) ++
          (read_block input (8 * (q * r)) (8 * l)).drop l) (8 * (q * r)) (8 * l) =
      tmp0.take (q * r) ++ sort (slice input (q * r) l) ++ tmp0.drop (q * r + l) := by
    rw [sorted_chunk input (q * r) l (by omega), write_block_eq, etake]
  simp only
  rw [htmp]
  have hlenF : (tmp0.take (q * r) ++ sort (slice input (q * r) l) ++
      tmp0.drop (q * r + l)).length = (q + 1 - 1) * r + l := by
    rw [replaced_length hin2 hsl, Nat.add_sub_cancel]
    omega
  have hlenI : (input.take n).length = (q + 1 - 1) * r + l := by
    rw [List.length_take, Nat.add_sub_cancel]
    omega
  have hslice : ∀ i, i < q + 1 →
      slice (tmp0.take (q * r) ++ sort (slice input (q * r) l) ++ tmp0.drop (q * r + l))
        (i * r) (if i = q + 1 - 1 then l else r) =
      sort (slice (input.take n) (i * r) (if i = q + 1 - 1 then l else r)) := by
    intro i hi
    by_cases hiq : i = q
    · subst hiq
      rw [if_pos (by omega), replaced_at hin2 hsl, slice_take_of_le input n _ _ (by omega)]
    · have h1 := Nat.mul_le_mul_right r (show i + 1 ≤ q by omega)
      have e1 : (i + 1) * r = i * r + r := by ring
      rw [if_neg (by omega), replaced_before hin2 (by omega), s4 i (by omega),
        slice_take_of_le input n _ _ (by omega)]
  refine ⟨rfl, rfl, rfl, rfl, hr, hl, Nat.succ_pos _, hlenF, ?_, ?_, ?_⟩
  · have f1 := flatten_runs _ (q + 1) r l (Nat.succ_pos _) hlenF
    have f2 := flatten_runs _ (q + 1) r l (Nat.succ_pos _) hlenI
    show (tmp0.take (q * r) ++ sort (slice input (q * r) l) ++ tmp0.drop (q * r + l)).Perm
      (input.take n)
    have p := flatten_map_perm
      (fun i => slice (tmp0.take (q * r) ++ sort (slice input (q * r) l) ++
        tmp0.drop (q * r + l)) (i * r) (if i = q + 1 - 1 then l else r))
      (fun i => slice (input.take n) (i * r) (if i = q + 1 - 1 then l else r))
      (List.range (q + 1)) (by
        intro i hi
        rw [List.mem_range] at hi
        simp only
        rw [hslice i hi]
        exact sort_perm _)
    rw [f1, f2] at p
    exact p
  · intro j hj
    omega
  · intro i _ hi
    show (slice (tmp0.take (q * r) ++ sort (slice input (q * r) l) ++ tmp0.drop (q * r + l))
      (i * r) (if i = q + 1 - 1 then l else r)).Sorted (fun a b => a ≤ b)
    rw [hslice i hi]
    exact sort_sorted _

end ExternalSort

namespace ExternalSort

theorem resize_length (file : List Nat) (n : Nat) : (resize file (n * 8)).length = n := by
  simp only [resize, VALUE_SIZE, List.length_append, List.length_take, List.length_replicate]
  omega

theorem inmemory_sort_spec {input output : List Nat} {n : Nat} (hin : n ≤ input.length)
    (hout : output.length = n) : inmemory_sort input n output = sort (input.take n) := by
  have hb : read_block input 0 (n * 8) = input.take n := by
    simp [read_block, VALUE_SIZE]
  have hl : (input.take n).length = n := by
    rw [List.length_take]
    omega
  have hsl : (sort (input.take n)).length = n := by
    rw [sort_length, hl]
  unfold inmemory_sort
  simp only [VALUE_SIZE, hb]
  rw [List.take_of_length_le (by omega), List.drop_of_length_le (by omega), List.append_nil]
  simp only [write_block, VALUE_SIZE, Nat.zero_div, List.take_zero, List.nil_append,
    Nat.zero_add]
  rw [Nat.mul_div_cancel _ (by decide : 0 < 8), List.take_of_length_le (by omega),
    List.drop_of_length_le (by omega), List.append_nil]

theorem merge_after_runs {fuel mem_size n k r l : Nat} {tmp_file output orig : List Nat}
    (M : Runs.Mid (Runs.mk tmp_file k r l (8 * r) (8 * l)) orig r l 0) (hn : orig.length = n)
    (hout : output.length = n) (hB : 0 < mem_size / (k + 1) / 8) (hfuel : n < fuel) :
    ∃ out, kWayMerge fuel tmp_file output (n * 8) mem_size k r l (8 * r) (8 * l) = some out ∧
      out.length = n ∧ out.Sorted (fun a b => a ≤ b) ∧ out.Perm orig := by
  have hlen : tmp_file.length = n := by
    rw [M.perm.length_eq]
    exact hn
  have hrest := M.rest
  simp only at hrest
  obtain ⟨out, hk, hs, hp⟩ := @kWayMerge_spec fuel tmp_file output mem_size k r l M.runs M.pos
    M.posLast M.length (by rw [hout, hlen]) (fun i hi => hrest i (Nat.zero_le _) hi) hB
    (by rw [hlen]; exact hfuel)
  rw [hlen] at hk
  simp only [VALUE_SIZE] at hk
  refine ⟨out, hk, ?_, hs, hp.trans M.perm⟩
  rw [hp.length_eq, hlen]

end ExternalSort

namespace ExternalSort

/-- C32: for every memory size that is a multiple of 8 and at least 24, every
number of values and every input file that holds at least that many values,
`external_sort` returns (with more fuel than values, every loop ends), the
output file then has exactly `num_values` values, and these are the first
`num_values` values of the input in non-decreasing order, duplicates kept.
This covers the in-memory path, the k-way merge and the 2-way passes of
`not_full_way_merge`, with a partial last run or not. -/
theorem external_sort_sorts (fuel : Nat) (input output : List Nat) (num_values mem_size : Nat)
    (h8 : mem_size % 8 = 0) (h24 : 24 ≤ mem_size) (hin : num_values ≤ input.length)
    (hmax : num_values ≤ SIZE_MAX) (hfuel : num_values < fuel) :
    ∃ out, external_sort fuel input num_values output mem_size = some out ∧
      out.length = num_values ∧ out.Sorted (fun a b => a ≤ b) ∧
      out.Perm (input.take num_values) := by
  obtain ⟨r, rfl⟩ : ∃ r, mem_size = 8 * r := ⟨mem_size / 8, by omega⟩
  have hres := resize_length output num_values
  have hI : (input.take num_values).length = num_values := by
    rw [List.length_take]
    omega
  unfold external_sort
  simp only [VALUE_SIZE]
  rw [if_pos ⟨by omega, by omega⟩]
  by_cases h0 : num_values = 0
  · rw [if_pos h0]
    subst h0
    refine ⟨_, rfl, hres, ?_, ?_⟩
    · have : resize output (0 * 8) = [] := List.length_eq_zero.1 hres
      rw [this]
      exact List.sorted_nil
    · have : resize output (0 * 8) = [] := List.length_eq_zero.1 hres
      rw [this]
      simp
  · rw [if_neg h0]
    by_cases hm : num_values * 8 ≤ 8 * r
    · rw [if_pos hm, inmemory_sort_spec hin hres]
      exact ⟨_, rfl, by rw [sort_length, hI], sort_sorted _, sort_perm _⟩
    · rw [if_neg hm]
      have hr : 0 < r := by omega
      have hq : (num_values * 8 - 1) / (8 * r) = (num_values - 1) / r := by
        rw [← Nat.div_div_eq_div_mul]
        congr 1
        omega
      have q1 := Nat.div_mul_le_self (num_values - 1) r
      have q2 := Nat.lt_mul_div_succ (num_values - 1) hr
      have q3 : 1 ≤ (num_values - 1) / r := by
        rw [Nat.le_div_iff_mul_le hr]
        omega
      generalize (num_values - 1) / r = q at hq q1 q2 q3
      have e1 : r * (q + 1) = q * r + r := by ring
      rw [e1] at q2
      have e2 : (q + 1) * (8 * r) = 8 * (q * r) + 8 * r := by ring
      have e3 : q * (8 * r) = 8 * (q * r) := by ring
      have hlast : (if num_values * 8 = (q + 1) * (8 * r) then 8 * r
          else num_values * 8 - q * (8 * r)) = 8 * (num_values - q * r) := by
        rw [e2, e3]
        split <;> omega
      have e4 : 8 * r / 8 = r := by omega
      have e5 : 8 * (num_values - q * r) / 8 = num_values - q * r := by omega
      have e6 : resize [] (num_values * 8) = List.replicate num_values 0 := by
        rw [Nat.mul_comm]
        exact resize_nil _
      have M := @sort_phase_mid input num_values q r (num_values - q * r) hr (by omega)
        (by omega) hin
      simp only [hq, Nat.add_sub_cancel]
      simp only [hlast, e4, e5, e6]
      generalize write_block (sortRuns input (8 * r) r q 0 (List.replicate num_values 0)).2
        (sort ((read_block input (sortRuns input (8 * r) r q 0 (List.replicate num_values 0)).1
            (8 * (num_values - q * r))).take (num_values - q * r)) ++
          (read_block input (sortRuns input (8 * r) r q 0 (List.replicate num_values 0)).1
            (8 * (num_values - q * r))).drop (num_values - q * r))
        (sortRuns input (8 * r) r q 0 (List.replicate num_values 0)).1
        (8 * (num_values - q * r)) = tmp_file at M ⊢
      have hdone := sort_phase_done_mid M hI
      rw [if_pos ⟨by omega, by omega, hdone, by omega⟩]
      have hB3 : 0 < 8 * r / 3 / 8 := by omega
      by_cases hnf : 8 * r / (q + 1 + 1) / 8 = 0
      · rw [if_pos hnf]
        have hfit : 2 * (8 * r / 3 / 8 * 8) + 8 ≤ 8 * r := @buffers_fit (8 * r) 2 hB3
        have hO : 0 < (8 * r - 2 * (8 * r / 3 / 8 * 8)) / 8 := by
          apply Nat.div_pos
          · omega
          · decide
        have hkl : q + 1 ≤ (input.take num_values).length := runs_le_length M
        obtain ⟨tmp1, k1, r1, l1, hpass, M1, hk1⟩ :=
          @passes_spec fuel (8 * r) num_values (input.take num_values) hB3
            (by rw [hI]; exact hfuel) (by rw [hI]; exact hmax) hI fuel (q + 1) r
            (num_values - q * r) tmp_file M (by omega)
        unfold not_full_way_merge
        simp only [VALUE_SIZE]
        rw [if_pos ⟨hB3, hO⟩, hpass]
        simp only
        have hk0 : 0 < k1 := M1.runs
        have hB1 : 0 < 8 * r / (k1 + 1) / 8 := by
          have : 8 * r / 3 ≤ 8 * r / (k1 + 1) := Nat.div_le_div_left (by omega) (by omega)
          omega
        exact merge_after_runs M1 hI hres hB1 hfuel
      · rw [if_neg hnf]
        simp only
        exact merge_after_runs M hI hres (Nat.pos_of_ne_zero hnf) hfuel

end ExternalSort

namespace ExternalSort

/-- Witness for C32: ten values sorted with 24 bytes of memory, which takes the
2-way passes of `not_full_way_merge` over four runs, the last of them partial;
also shown are a k-way merge of two runs (five values, 24 bytes) and the
in-memory path (three values, 24 bytes). -/
theorem external_sort_sorts_witness :
    24 % 8 = 0 ∧ 10 ≤ [5, 3, 9, 1, 7, 2, 8, 6, 4, 0, 11].length ∧
    external_sort 11 [5, 3, 9, 1, 7, 2, 8, 6, 4, 0, 11] 10 [] 24 =
      some [0, 1, 2, 3, 4, 5, 6, 7, 8, 9] ∧
    external_sort 6 [4, 4, 1, 3, 2] 5 [] 24 = some [1, 2, 3, 4, 4] ∧
    external_sort 4 [2, 3, 1] 3 [] 24 = some [1, 2, 3] ∧
    ∃ out, external_sort 11 [5, 3, 9, 1, 7, 2, 8, 6, 4, 0, 11] 10 [] 24 = some out ∧
      out.length = 10 ∧ out.Sorted (fun a b => a ≤ b) ∧
      out.Perm ([5, 3, 9, 1, 7, 2, 8, 6, 4, 0, 11].take 10) :=
  ⟨by decide, by decide, by decide, by decide, by decide,
    external_sort_sorts 11 [5, 3, 9, 1, 7, 2, 8, 6, 4, 0, 11] [] 10 24 (by decide) (by decide)
      (by decide) (by decide) (by decide)⟩

end ExternalSort

